import Mathlib

/-!
# GNU Zile buffer core: a shallow embedding

The C sources (`buffer.c`, `region.c`, `editfns.c`, `funcs.c`) are embedded as pure functions
over an explicit machine state.

Conventions used throughout:

* A C pointer is a natural number, `NULL` is `0`, and every heap is a total function from
  addresses to records; dereferencing a pointer is function application.
* `size_t` values are natural numbers and `int` values are integers, both unbounded: a
  `size_t` does not wrap at `2^64` and an `int` does not wrap at `2^31` (texts are taken
  to have fewer than `2^31` characters). Where C would wrap below zero the embedding
  truncates at zero; the theorems are stated for well-formed buffers, where the guards of
  the code keep every subtraction at or above zero. The one exception is
  `universal_argument`, whose `int` variables grow with the keys typed: there every
  arithmetic result is wrapped to 32 bits (`int_wrap`).
* A loop that follows pointers takes a fuel argument and returns `none` when the fuel is
  used up; the theorems give the fuel that is enough.
* The bit set `thisflag` is a record with one boolean per flag.
* Functions of the editor that are not among the sources are modelled from the
  specification; their doc comments say so.
-/

namespace Zile

/-! ## Data model -/

abbrev LinePtr := Nat
abbrev MarkerPtr := Nat
abbrev BufPtr := Nat
abbrev WinPtr := Nat

/-- A C string (also an `astr`): its characters, without the terminating NUL. -/
abbrev CStr := List Char

/-- The null pointer. -/
def NULL : Nat := 0

/-- A line of the doubly linked line chain (`pt.p->prev`, `pt.p->next`, `pt.p->text`). -/
structure Line where
  prev : LinePtr
  next : LinePtr
  text : List Char
deriving DecidableEq, Repr

/-- A position `{p, n, o}`: line pointer, cached line number, offset in the line. -/
structure Point where
  p : LinePtr
  n : Nat
  o : Nat
deriving DecidableEq, Repr

/-- A marker: the owning buffer, the position (`get_marker_pt`) and the insertion type
(`true`: the marker moves with text inserted at its position). -/
structure Marker where
  bp : BufPtr
  pt : Point
  type : Bool := false
deriving DecidableEq, Repr

/-- The kinds of undo records (`UNDO_*`). -/
inductive UndoType where
  | UNDO_INSERT_CHAR
  | UNDO_INSERT_BLOCK
  | UNDO_REMOVE_CHAR
  | UNDO_REMOVE_BLOCK
  | UNDO_REPLACE_CHAR
  | UNDO_REPLACE_BLOCK
  | UNDO_START_SEQUENCE
  | UNDO_END_SEQUENCE
  | UNDO_INTERCALATE_CHAR
deriving DecidableEq, Repr

/-- One undo record, the arguments of `undo_save (type, pt, arg1, arg2)`. -/
structure Undo where
  type : UndoType
  pt : Point
  arg1 : Int
  arg2 : Int
deriving DecidableEq, Repr

/-- The buffer record, with the fields the embedded functions read or write. -/
structure Buffer where
  next : BufPtr
  lines : LinePtr
  limitp : LinePtr
  pt : Point
  mark : MarkerPtr
  markers : List MarkerPtr
  last_line : Nat
  goalc : Nat
  name : Option CStr
  filename : Option CStr
  dir : CStr
  eol : Option CStr
  mark_active : Bool
  modified : Bool
  nosave : Bool
  needname : Bool
  temporary : Bool
  readonly : Bool
  autofill : Bool
  noundo : Bool := false
  undo : List Undo := []
deriving DecidableEq, Repr

/-- A window, as far as the buffer code touches it. -/
structure Window where
  next : WinPtr
  bp : BufPtr
  topdelta : Nat
  saved_pt : MarkerPtr
  resynced : Bool
deriving DecidableEq, Repr

/-- The flag word `thisflag`, one boolean per flag bit. -/
structure Flags where
  need_resync : Bool
  others : Nat
  set_uniarg : Bool := false
deriving DecidableEq, Repr

/-- The commands `last_command ()` is compared with in `move_line`. -/
inductive Command where
  | F_next_line
  | F_previous_line
  | F_other
deriving DecidableEq, Repr

/-- The whole machine state: the heaps, the globals of the editor and its environment.
`fresh_buf`, `fresh_line` and `fresh_marker` are the addresses the allocator hands out
next; `yesno` and `completion_reply` are what the user will answer to the prompts of the
minibuffer (`none`: the prompt is cancelled), `prompts` the prompts shown so far, `keys`
the keys the terminal will deliver next. -/
structure State where
  lineAt : LinePtr → Line
  markerAt : MarkerPtr → Marker
  bufAt : BufPtr → Buffer
  winAt : WinPtr → Window
  head_bp : BufPtr
  cur_bp : BufPtr
  head_wp : WinPtr
  cur_wp : WinPtr
  thisflag : Flags
  last_command : Command
  minibuf : Option String
  cwd : CStr
  dir_exists : CStr → Bool
  variable_bool : String → Bool
  variable_number_bp : BufPtr → String → Int
  fresh_buf : BufPtr
  fresh_line : LinePtr
  fresh_marker : MarkerPtr := 100
  lastflag : Flags := { need_resync := false, others := 0 }
  undo_nosave : Bool := false
  mark_ring : List MarkerPtr := []
  yesno : List (Option Bool) := []
  completion_reply : Option CStr := none
  prompts : List String := []
  keys : List Nat := []
  last_uniarg : Int := 1

/-- Store a buffer record at an address. -/
def State.setBuf (s : State) (bp : BufPtr) (b : Buffer) : State :=
  { s with bufAt := fun q => if q = bp then b else s.bufAt q }

/-- Store a window record at an address. -/
def State.setWin (s : State) (wp : WinPtr) (w : Window) : State :=
  { s with winAt := fun q => if q = wp then w else s.winAt q }

/-- The current buffer record, `*cur_bp`. -/
def State.cur (s : State) : Buffer := s.bufAt s.cur_bp

/-- Modelled from the spec: `minibuf_error` (minibuf.c is not among the sources) displays
an error message in the echo area; the state keeps the last message. -/
def minibuf_error (s : State) (msg : String) : State :=
  { s with minibuf := some msg }

/-- Modelled from the spec: `get_variable_bool` (variables.c is not among the sources)
reads a boolean editor variable. -/
def get_variable_bool (s : State) (name : String) : Bool := s.variable_bool name

/-- Modelled from the spec: `cmp_point` (point.c is not among the sources) orders two
positions in buffer order, by line number and then by offset; negative, zero or positive. -/
def cmp_point (pt1 pt2 : Point) : Int :=
  if pt1.n < pt2.n then -1
  else if pt1.n > pt2.n then 1
  else if pt1.o < pt2.o then -1
  else if pt1.o > pt2.o then 1
  else 0

/-- Accessor `get_marker_pt`. -/
def get_marker_pt (s : State) (m : MarkerPtr) : Point := (s.markerAt m).pt

/-- Length of a line text, `astr_len (get_line_text (lp))`. -/
def line_len (s : State) (lp : LinePtr) : Nat := (s.lineAt lp).text.length

/-- Accessor `get_line_next`. -/
def get_line_next (s : State) (lp : LinePtr) : LinePtr := (s.lineAt lp).next

/-- Accessor `get_line_prev`. -/
def get_line_prev (s : State) (lp : LinePtr) : LinePtr := (s.lineAt lp).prev

/-! ## region.c: regions over absolute offsets -/

namespace RegionC

/-- The region of region.c: two offsets. -/
structure Region where
  start : Nat
  end_ : Nat
deriving DecidableEq, Repr

/-- Source `region_new (o1, o2)`: make a region from two offsets. -/
def region_new (o1 o2 : Nat) : Region :=
  { start := min o1 o2, end_ := max o1 o2 }

/-- Source `get_region_size`: `end - start`. -/
def get_region_size (r : Region) : Nat := r.end_ - r.start

/-- Source `region_contains`. -/
def region_contains (r : Region) (o : Nat) : Bool :=
  decide (o ≥ r.start) && decide (o < r.end_)

end RegionC

/-! ## buffer.c: regions between point and mark -/

/-- The region of buffer.c: `{start, end, size}`. -/
structure Region where
  start : Point
  end_ : Point
  size : Int
deriving DecidableEq, Repr

/-- Source `region_new (void)`: a zeroed region. -/
def region_new : Region :=
  { start := ⟨NULL, 0, 0⟩, end_ := ⟨NULL, 0, 0⟩, size := 0 }

/-- Source `warn_if_no_mark`: the new state (with the message) and the result. -/
def warn_if_no_mark (s : State) : State × Bool :=
  if s.cur.mark = NULL then
    (minibuf_error s "The mark is not set now", true)
  else if !s.cur.mark_active && get_variable_bool s "transient-mark-mode" then
    (minibuf_error s "The mark is not active now", true)
  else
    (s, false)

/-- The loop of `calculate_the_region`:
`for (lp = pt1.p; lp != pt2.p; lp = get_line_next (lp)) size += astr_len (...) + 1;`. -/
def region_size_loop (s : State) (stop : LinePtr) : Nat → LinePtr → Int → Option Int
  | 0, _, _ => none
  | fuel + 1, lp, size =>
    if lp = stop then some size
    else region_size_loop s stop fuel (get_line_next s lp) (size + (line_len s lp : Int) + 1)

/-- Source `calculate_the_region (rp)`: the state, the result and the region `*rp`
afterwards; `none` when the fuel does not cover the walk from the start line. -/
def calculate_the_region (fuel : Nat) (s : State) (rp : Region) :
    Option (State × Bool × Region) :=
  let w := warn_if_no_mark s
  if w.2 then some (w.1, false, rp)
  else
    let s1 := w.1
    let rp1 : Region :=
      if cmp_point s1.cur.pt (get_marker_pt s1 s1.cur.mark) < 0 then
        { rp with start := s1.cur.pt, end_ := get_marker_pt s1 s1.cur.mark }
      else
        { rp with start := get_marker_pt s1 s1.cur.mark, end_ := s1.cur.pt }
    let pt1 := rp1.start
    let pt2 := rp1.end_
    match region_size_loop s1 pt2.p fuel pt1.p (-(pt1.o : Int) + (pt2.o : Int)) with
    | none => none
    | some size => some (s1, true, { rp1 with size := size })

/-- Source `in_region (lineno, x, rp)`. -/
def in_region (lineno x : Nat) (rp : Region) : Bool :=
  if lineno < rp.start.n ∨ lineno > rp.end_.n then false
  else if rp.start.n = rp.end_.n then decide (x ≥ rp.start.o) && decide (x < rp.end_.o)
  else if lineno = rp.start.n then decide (x ≥ rp.start.o)
  else if lineno = rp.end_.n then decide (x < rp.end_.o)
  else true


/-! ## editfns.c: tests on the position of point -/

/-- Source `bobp`: point is at the beginning of the buffer. -/
def bobp (s : State) : Bool :=
  decide ((s.lineAt s.cur.pt.p).prev = s.cur.limitp) && decide (s.cur.pt.o = 0)

/-- Source `eobp`: point is at the end of the buffer. -/
def eobp (s : State) : Bool :=
  decide ((s.lineAt s.cur.pt.p).next = s.cur.limitp) &&
    decide (s.cur.pt.o = (s.lineAt s.cur.pt.p).text.length)

/-- Source `bolp`: point is at the beginning of a line. -/
def bolp (s : State) : Bool := decide (s.cur.pt.o = 0)

/-- Source `eolp`: point is at the end of a line. -/
def eolp (s : State) : Bool := decide (s.cur.pt.o = (s.lineAt s.cur.pt.p).text.length)

/-! ## buffer.c: basic movement routines -/

/-- Assign the point of the current buffer, `cur_bp->pt = pt`. -/
def State.setPt (s : State) (pt : Point) : State :=
  s.setBuf s.cur_bp { s.cur with pt := pt }

/-- The statement `thisflag |= FLAG_NEED_RESYNC`. -/
def State.needResync (s : State) : State :=
  { s with thisflag := { s.thisflag with need_resync := true } }

/-- The C compound assignment `x += d` of an `int` to a `size_t`. -/
def size_add (x : Nat) (d : Int) : Nat := ((x : Int) + d).toNat

/-- Modelled from the spec: `beginning_of_line` (the command file is not among the sources)
puts the offset of point at the start of its line. -/
def beginning_of_line (s : State) : State :=
  s.setPt { s.cur.pt with o := 0 }

/-- Modelled from the spec: `end_of_line` (the command file is not among the sources)
puts the offset of point at the end of its line. -/
def end_of_line (s : State) : State :=
  s.setPt { s.cur.pt with o := line_len s s.cur.pt.p }

/-- Source `move_char (dir)`: the state afterwards and the result. -/
def move_char (s : State) (dir : Int) : State × Bool :=
  if (if dir > 0 then !eolp s else !bolp s) then
    (s.setPt { s.cur.pt with o := size_add s.cur.pt.o dir }, true)
  else if (if dir > 0 then !eobp s else !bobp s) then
    let s1 := s.needResync
    let s2 := s1.setPt { s1.cur.pt with
      p := if dir > 0 then get_line_next s1 s1.cur.pt.p else get_line_prev s1 s1.cur.pt.p }
    let s3 := s2.setPt { s2.cur.pt with n := size_add s2.cur.pt.n dir }
    if dir > 0 then (beginning_of_line s3, true) else (end_of_line s3, true)
  else
    (s, false)

/-- Modelled from the spec: `get_variable_number_bp` (variables.c is not among the sources)
reads a numeric buffer-local variable. -/
def get_variable_number_bp (s : State) (bp : BufPtr) (name : String) : Int :=
  s.variable_number_bp bp name

/-- Source `tab_width (bp)`: `MAX (get_variable_number_bp (bp, "tab-width"), 1)`. -/
def tab_width (s : State) (bp : BufPtr) : Nat :=
  (max (get_variable_number_bp s bp "tab-width") 1).toNat

/-- Modelled from the spec: `get_goalc` (not among the sources) is the column of point on
its line with tabs expanded to the tab width: a tab advances to the next multiple of the
width, any other character advances by one. -/
def get_goalc (s : State) : Nat :=
  ((s.lineAt s.cur.pt.p).text.take s.cur.pt.o).foldl
    (fun col c => if c = '\t' then col + (tab_width s s.cur_bp - col % tab_width s s.cur_bp)
      else col + 1) 0

/-- The inner loop of `goto_goalc`:
`for (w = t - col % t; w > 0; w--) if (++col == goalc) break;` gives the new column. -/
def goto_goalc_tab (goalc : Nat) : Nat → Nat → Nat
  | 0, col => col
  | w + 1, col => if col + 1 = goalc then col + 1 else goto_goalc_tab goalc w (col + 1)

/-- The outer loop of `goto_goalc` over the characters from index `i` on, with the column
reached so far; gives the final index `i`. -/
def goto_goalc_loop (goalc t : Nat) : List Char → Nat → Nat → Nat
  | [], i, _ => i
  | c :: cs, i, col =>
    if col = goalc then i
    else if c = '\t' then goto_goalc_loop goalc t cs (i + 1) (goto_goalc_tab goalc (t - col % t) col)
    else goto_goalc_loop goalc t cs (i + 1) (col + 1)

/-- Source `goto_goalc`: go to the column `goalc`, expanding tabulations. -/
def goto_goalc (s : State) : State :=
  s.setPt { s.cur.pt with
    o := goto_goalc_loop s.cur.goalc (tab_width s s.cur_bp) (s.lineAt s.cur.pt.p).text 0 0 }

/-- The loop of `move_line`: `for (; n > 0; n--) { pt.p = next or prev; pt.n += dir; }`. -/
def move_line_loop (dir : Int) : Nat → State → State
  | 0, s => s
  | k + 1, s =>
    let s1 := s.setPt { s.cur.pt with
      p := if dir > 0 then get_line_next s s.cur.pt.p else get_line_prev s s.cur.pt.p }
    let s2 := s1.setPt { s1.cur.pt with n := size_add s1.cur.pt.n dir }
    move_line_loop dir k s2

/-- The first part of `move_line (n)` for `n != 0`: the triple `(ok, dir, n)` after the
clamping of the count. -/
def move_line_clamp (s : State) (n : Int) : Bool × Int × Int :=
  if n > 0 then
    if n.toNat > s.cur.last_line - s.cur.pt.n then
      (false, 1, ((s.cur.last_line - s.cur.pt.n : Nat) : Int))
    else (true, 1, n)
  else
    if (-n).toNat > s.cur.pt.n then (false, -1, (s.cur.pt.n : Int))
    else (true, -1, -n)

/-- Source `move_line (n)`: the state afterwards and the result. -/
def move_line (s : State) (n : Int) : State × Bool :=
  if n = 0 then (s, false)
  else
    let c := move_line_clamp s n
    let s1 := move_line_loop c.2.1 c.2.2.toNat s
    let s2 :=
      if s1.last_command ≠ Command.F_next_line ∧ s1.last_command ≠ Command.F_previous_line then
        s1.setBuf s1.cur_bp { s1.cur with goalc := get_goalc s1 }
      else s1
    let s3 := goto_goalc s2
    (s3.needResync, c.1)


/-! ## buffer.c: the buffer list -/

/-- What stops a run: a loop out of fuel, a failed `assert`, or a read behind the end of a
string. -/
inductive Fault where
  | fuel
  | assertion
  | overrun
deriving DecidableEq, Repr

/-- A zeroed buffer record, as `XZALLOC (Buffer)` returns it. -/
def Buffer.zero : Buffer :=
  { next := NULL, lines := NULL, limitp := NULL, pt := ⟨NULL, 0, 0⟩, mark := NULL,
    markers := [], last_line := 0, goalc := 0, name := none, filename := none, dir := [],
    eol := none, mark_active := false, modified := false, nosave := false,
    needname := false, temporary := false, readonly := false, autofill := false }

/-- The constant `coding_eol_lf`. -/
def coding_eol_lf : CStr := ['\n']

/-- Modelled from the spec: `agetcwd` (not among the sources) returns the working
directory of the process. -/
def agetcwd (s : State) : CStr := s.cwd

/-- Modelled from the spec: `line_new` (line.c is not among the sources) allocates one
empty line with no neighbours; the state and the address of the line. -/
def line_new (s : State) : State × LinePtr :=
  ({ s with
      lineAt := fun q => if q = s.fresh_line then ⟨NULL, NULL, []⟩ else s.lineAt q
      fresh_line := s.fresh_line + 1 },
   s.fresh_line)

/-- Source `init_buffer (bp)`. -/
def init_buffer (s : State) (bp : BufPtr) : State :=
  if get_variable_bool s "auto-fill-mode" then
    s.setBuf bp { s.bufAt bp with autofill := true }
  else s

/-- Source `buffer_new`: allocate a buffer, link it at the head of the buffer list. -/
def buffer_new (s : State) : State × BufPtr :=
  let bp := s.fresh_buf
  let s0 := { s with fresh_buf := s.fresh_buf + 1 }
  let l := line_new s0
  let s1 := l.1.setBuf bp
    { Buffer.zero with lines := l.2, pt := ⟨l.2, 0, 0⟩, eol := some coding_eol_lf,
                       dir := agetcwd l.1 }
  let s2 := s1.setBuf bp { s1.bufAt bp with next := s1.head_bp }
  let s3 := { s2 with head_bp := bp }
  (init_buffer s3 bp, bp)

/-- The loop of `find_buffer`: the buffer found, `NULL` when there is none. -/
def find_buffer_loop (s : State) (name : CStr) : Nat → BufPtr → Option BufPtr
  | 0, _ => none
  | fuel + 1, bp =>
    if bp = NULL then some NULL
    else if (s.bufAt bp).name = some name then some bp
    else find_buffer_loop s name fuel (s.bufAt bp).next

/-- Source `find_buffer (name)`: search for a buffer named `name`. -/
def find_buffer (fuel : Nat) (s : State) (name : CStr) : Option BufPtr :=
  find_buffer_loop s name fuel s.head_bp

/-- The C call `strrchr (s, c)`: the rest of `s` from the last `c` on, if `c` occurs. -/
def strrchr : CStr → Char → Option CStr
  | [], _ => none
  | x :: xs, c =>
    match strrchr xs c with
    | some r => some r
    | none => if x = c then some (x :: xs) else none

/-- The C call `xasprintf ("%s<%ld>", p, i)`: `p`, then `i` in decimal between `<` and `>`. -/
def xasprintf_name (p : CStr) (i : Nat) : CStr :=
  p ++ '<' :: (Nat.toDigits 10 i ++ ['>'])

/-- The loop `for (i = 2; true; i++)` of `make_buffer_name`, from `i` on. -/
def make_buffer_name_loop (ffuel : Nat) (s : State) (p : CStr) : Nat → Nat → Option CStr
  | 0, _ => none
  | fuel + 1, i =>
    match find_buffer ffuel s (xasprintf_name p i) with
    | none => none
    | some r =>
      if r = NULL then some (xasprintf_name p i)
      else make_buffer_name_loop ffuel s p fuel (i + 1)

/-- The first lines of `make_buffer_name`: the text after the last `/` of the file name. -/
def last_component (filename : CStr) : CStr :=
  match strrchr filename '/' with
  | none => filename
  | some r => r.tail

/-- Source `make_buffer_name (filename)`: create a buffer name using the file name. -/
def make_buffer_name (fuel : Nat) (s : State) (filename : CStr) : Option CStr :=
  let p := last_component filename
  match find_buffer fuel s p with
  | none => none
  | some r =>
    if r = NULL then some p
    else make_buffer_name_loop fuel s p fuel 2

/-- Setter `set_buffer_filename (bp, filename)`. -/
def set_buffer_filename (s : State) (bp : BufPtr) (filename : CStr) : State :=
  s.setBuf bp { s.bufAt bp with filename := some filename }

/-- Setter `set_buffer_name (bp, name)`, also the assignment `bp->name = name`. -/
def set_buffer_name (s : State) (bp : BufPtr) (name : CStr) : State :=
  s.setBuf bp { s.bufAt bp with name := some name }

/-- Source `set_buffer_names (bp, filename)`: set a new filename, and from it a name. -/
def set_buffer_names (fuel : Nat) (s : State) (bp : BufPtr) (filename : CStr) :
    Option State :=
  let r : State × CStr :=
    if filename.head? ≠ some '/' then
      let as := agetcwd s ++ ['/'] ++ filename
      (set_buffer_filename s bp as, as)
    else
      (set_buffer_filename s bp filename, filename)
  match make_buffer_name fuel r.1 r.2 with
  | none => none
  | some name => some (set_buffer_name r.1 bp name)

/-- The three assignments of `move_buffer_to_head` when `bp` is found after `prev`:
`prev->next = bp->next; bp->next = head_bp; head_bp = bp;`. -/
def move_buffer_to_head_relink (s : State) (bp prev : BufPtr) : State :=
  let s1 := s.setBuf prev { s.bufAt prev with next := (s.bufAt bp).next }
  let s2 := s1.setBuf bp { s1.bufAt bp with next := s1.head_bp }
  { s2 with head_bp := bp }

/-- The loop of `move_buffer_to_head (bp)` with its variables `it` and `prev`. -/
def move_buffer_to_head_loop (bp : BufPtr) : Nat → State → BufPtr → BufPtr → Option State
  | 0, _, _, _ => none
  | fuel + 1, s, it, prev =>
    if it = NULL then some s
    else if bp = it then
      if prev ≠ NULL then some (move_buffer_to_head_relink s bp prev)
      else some s
    else move_buffer_to_head_loop bp fuel s (s.bufAt it).next it

/-- Source `move_buffer_to_head (bp)`: move the selected buffer to head. -/
def move_buffer_to_head (fuel : Nat) (s : State) (bp : BufPtr) : Option State :=
  move_buffer_to_head_loop bp fuel s s.head_bp NULL

/-- The system call `chdir`: the working directory changes when the directory exists. -/
def chdir (s : State) (dir : CStr) : State :=
  if s.dir_exists dir then { s with cwd := dir } else s

/-- The statements `cur_bp = bp; set_window_bp (cur_wp, cur_bp);` of `switch_to_buffer`. -/
def switch_to_buffer_bind (s : State) (bp : BufPtr) : State :=
  let s1 := { s with cur_bp := bp }
  s1.setWin s1.cur_wp { s1.winAt s1.cur_wp with bp := s1.cur_bp }

/-- Source `switch_to_buffer (bp)`: switch to the specified buffer. -/
def switch_to_buffer (fuel : Nat) (s : State) (bp : BufPtr) : Except Fault State :=
  if (s.winAt s.cur_wp).bp ≠ s.cur_bp then Except.error Fault.assertion
  else if s.cur_bp = bp then Except.ok s
  else
    match move_buffer_to_head fuel (switch_to_buffer_bind s bp) bp with
    | none => Except.error Fault.fuel
    | some s3 =>
      let s4 := chdir s3 (s3.bufAt bp).dir
      Except.ok s4.needResync

/-- Modelled from the spec: `unchain_marker` (marker.c is not among the sources) takes
the marker out of the marker chain of the buffer that owns it and clears its owner. -/
def unchain_marker (s : State) (m : MarkerPtr) : State :=
  let b := (s.markerAt m).bp
  if b = NULL then s
  else
    let s1 := s.setBuf b { s.bufAt b with markers := (s.bufAt b).markers.erase m }
    { s1 with
      markerAt := fun q => if q = m then { s1.markerAt m with bp := NULL } else s1.markerAt q }

/-- Source `free_buffer (bp)`: `while (bp->markers) unchain_marker (bp->markers);`. -/
def free_buffer : Nat → State → BufPtr → Option State
  | 0, _, _ => none
  | fuel + 1, s, bp =>
    match (s.bufAt bp).markers with
    | [] => some s
    | m :: _ => free_buffer fuel (unchain_marker s m) bp

/-- Source `create_scratch_buffer`. -/
def create_scratch_buffer (s : State) : State × BufPtr :=
  let r := buffer_new s
  let s1 := set_buffer_name r.1 r.2 "*scratch*".toList
  let s2 := s1.setBuf r.2 { s1.bufAt r.2 with needname := true }
  let s3 := s2.setBuf r.2 { s2.bufAt r.2 with temporary := true }
  let s4 := s3.setBuf r.2 { s3.bufAt r.2 with nosave := true }
  (s4, r.2)

/-- Modelled from the spec: `resync_redisplay` (redisplay.c is not among the sources)
flags a window for resynchronisation. -/
def resync_redisplay (s : State) (wp : WinPtr) : State :=
  s.setWin wp { s.winAt wp with resynced := true }

/-- The loop `for (wp = ...; wp != NULL; wp = get_window_next (wp)) body (wp);`. -/
def for_windows (body : State → WinPtr → State) : Nat → State → WinPtr → Option State
  | 0, _, _ => none
  | fuel + 1, s, wp =>
    if wp = NULL then some s
    else
      let s1 := body s wp
      for_windows body fuel s1 (s1.winAt wp).next

/-- The loop of `kill_buffer` that unlinks `kill_bp` from the buffer list. -/
def kill_buffer_unlink (kill_bp : BufPtr) : Nat → State → BufPtr → Option State
  | 0, _, _ => none
  | fuel + 1, s, bp =>
    if bp ≠ NULL ∧ (s.bufAt bp).next ≠ NULL then
      if (s.bufAt bp).next = kill_bp then
        some (s.setBuf bp { s.bufAt bp with next := (s.bufAt (s.bufAt bp).next).next })
      else kill_buffer_unlink kill_bp fuel s (s.bufAt bp).next
    else some s

/-- The first statement of `kill_buffer`: the buffer that takes over, `NULL` if none. -/
def kill_buffer_successor (s : State) (kill_bp : BufPtr) : BufPtr :=
  if (s.bufAt kill_bp).next ≠ NULL then (s.bufAt kill_bp).next
  else if s.head_bp = kill_bp then NULL else s.head_bp

/-- The body of the first window loop of `kill_buffer`: a window that displays `kill_bp`
is pointed at `next_bp`, with no top delta and no saved point. -/
def kill_buffer_retarget (kill_bp next_bp : BufPtr) (t : State) (wp : WinPtr) : State :=
  if (t.winAt wp).bp = kill_bp then
    let t1 := t.setWin wp { t.winAt wp with bp := next_bp }
    let t2 := t1.setWin wp { t1.winAt wp with topdelta := 0 }
    t2.setWin wp { t2.winAt wp with saved_pt := NULL }
  else t

/-- The body of the window loop after the scratch buffer is made:
`set_window_bp (wp, head_bp)`. -/
def kill_buffer_show_head (u : State) (wp : WinPtr) : State :=
  u.setWin wp { u.winAt wp with bp := u.head_bp }

/-- The body of the last window loop of `kill_buffer`: resync the windows on `next_bp`. -/
def kill_buffer_resync (next_bp : BufPtr) (t : State) (wp : WinPtr) : State :=
  if (t.winAt wp).bp = next_bp then resync_redisplay t wp else t

/-- The statements `if (cur_bp == kill_bp) cur_bp = next_bp;` and
`if (head_bp == kill_bp) head_bp = get_buffer_next (head_bp);` of `kill_buffer`. -/
def kill_buffer_globals (kill_bp next_bp : BufPtr) (s1 : State) : State :=
  let s2 := if s1.cur_bp = kill_bp then { s1 with cur_bp := next_bp } else s1
  if s2.head_bp = kill_bp then { s2 with head_bp := (s2.bufAt s2.head_bp).next } else s2

/-- Source `kill_buffer (kill_bp)`: remove the buffer from the buffer list, recreate the
scratch buffer when required. -/
def kill_buffer (fuel : Nat) (s : State) (kill_bp : BufPtr) : Option State :=
  let next_bp := kill_buffer_successor s kill_bp
  (for_windows (kill_buffer_retarget kill_bp next_bp) fuel s s.head_wp).bind fun s1 =>
  let s3 := kill_buffer_globals kill_bp next_bp s1
  (kill_buffer_unlink kill_bp fuel s3 s3.head_bp).bind fun s4 =>
  (free_buffer fuel s4 kill_bp).bind fun s5 =>
  if next_bp = NULL then
    let c := create_scratch_buffer s5
    let t := { c.1 with head_bp := c.2, cur_bp := c.2 }
    (for_windows kill_buffer_show_head fuel t t.head_wp).bind fun u =>
    for_windows (kill_buffer_resync c.2) fuel u u.head_wp
  else
    for_windows (kill_buffer_resync next_bp) fuel s5 s5.head_wp

/-! ## Well-formed buffer states -/

/-- The lines of `chain` are linked in both directions, each to the one after it. -/
def LineChain (s : State) : List LinePtr → Prop
  | a :: b :: rest =>
    (s.lineAt a).next = b ∧ (s.lineAt b).prev = a ∧ LineChain s (b :: rest)
  | _ => True

/-- The position is on the chain: its line is the line with its line number. -/
def OnChain (chain : List LinePtr) (pt : Point) : Prop := chain[pt.n]? = some pt.p

/-- Line `b` is reached from line `a` by next-links, passing exactly the lines of `path`
(`a` first, `b` excluded) and meeting `b` for the first time at the end. -/
def LinePath (s : State) : LinePtr → List LinePtr → LinePtr → Prop
  | a, [], b => a = b
  | a, x :: t, b => x = a ∧ a ≠ b ∧ LinePath s (get_line_next s a) t b

/-- The place of a position in buffer order: line number first, offset second. -/
def Point.pos (pt : Point) : Lex (Nat × Nat) := toLex (pt.n, pt.o)

/-- The earlier of two positions in buffer order (the second one on a tie). -/
def earlier (pt mk : Point) : Point := if cmp_point pt mk < 0 then pt else mk

/-- The later of two positions in buffer order (the first one on a tie). -/
def later (pt mk : Point) : Point := if cmp_point pt mk < 0 then mk else pt

/-- The characters from the start of the first line of `path` to the start of the line
after its last line: each line with its line terminator. -/
def chars_of_lines (s : State) (path : List LinePtr) : Int :=
  (path.map (fun l => (line_len s l : Int) + 1)).sum

/-- A state for the examples: buffer 1 is current and shown in window 1; its lines are
10 ("ab"), 11 ("") and 12 ("xyz") between the limit line 9; point is at line 1, offset 0,
and the mark (marker 5) at line 0, offset 1. Buffer 2 follows buffer 1 in the list. -/
def exState : State :=
  { lineAt := fun q =>
      if q = 10 then ⟨9, 11, ['a', 'b']⟩
      else if q = 11 then ⟨10, 12, []⟩
      else if q = 12 then ⟨11, 9, ['x', 'y', 'z']⟩
      else ⟨12, 10, []⟩
    markerAt := fun _ => { bp := 1, pt := ⟨10, 0, 1⟩ }
    bufAt := fun q =>
      if q = 1 then
        { Buffer.zero with next := 2, lines := 10, limitp := 9, pt := ⟨11, 1, 0⟩, mark := 5,
                           markers := [5], last_line := 2, name := some "a.txt".toList,
                           dir := "/home".toList, mark_active := true }
      else if q = 2 then
        { Buffer.zero with lines := 20, limitp := 19, pt := ⟨20, 0, 0⟩,
                           name := some "b.txt".toList, dir := "/tmp".toList }
      else Buffer.zero
    winAt := fun q => if q = 1 then ⟨2, 1, 0, NULL, false⟩ else ⟨NULL, 2, 0, NULL, false⟩
    head_bp := 1
    cur_bp := 1
    head_wp := 1
    cur_wp := 1
    thisflag := { need_resync := false, others := 0 }
    last_command := Command.F_other
    minibuf := none
    cwd := "/home".toList
    dir_exists := fun _ => true
    variable_bool := fun _ => false
    variable_number_bp := fun _ _ => 8
    fresh_buf := 3
    fresh_line := 30 }

/-- The current buffer is well formed over the lines `chain`, its lines in order: the
lines are linked in both directions, the first and the last line border on the limit line,
which is not a line of the text, point is on the chain with its offset inside its line,
and `last_line` is the number of the last line. -/
structure ValidBuffer (s : State) (chain : List LinePtr) : Prop where
  linked : LineChain s chain
  first : ∀ a, chain[0]? = some a → (s.lineAt a).prev = s.cur.limitp
  last : ∀ a, chain[chain.length - 1]? = some a → (s.lineAt a).next = s.cur.limitp
  limit : s.cur.limitp ∉ chain
  point : OnChain chain s.cur.pt
  offset : s.cur.pt.o ≤ line_len s s.cur.pt.p
  count : s.cur.last_line + 1 = chain.length

/-- Point is at the beginning of the buffer: first line, offset 0. -/
def AtBob (s : State) : Prop := s.cur.pt.n = 0 ∧ s.cur.pt.o = 0

/-- Point is at the end of the buffer: last line of `chain`, offset at the line end. -/
def AtEob (s : State) (chain : List LinePtr) : Prop :=
  s.cur.pt.n + 1 = chain.length ∧ s.cur.pt.o = line_len s s.cur.pt.p

/-- The example state with a text of five empty lines, 10 to 14, and point on line 1. -/
def exState5 : State :=
  { exState with
    lineAt := fun q =>
      if q = 10 then ⟨9, 11, []⟩
      else if q = 11 then ⟨10, 12, []⟩
      else if q = 12 then ⟨11, 13, []⟩
      else if q = 13 then ⟨12, 14, []⟩
      else if q = 14 then ⟨13, 9, []⟩
      else ⟨14, 10, []⟩
    bufAt := fun q =>
      if q = 1 then { exState.bufAt 1 with last_line := 4, mark := NULL } else exState.bufAt q }

/-- The line chain of `exState5`. -/
def chain_of_example5 : List LinePtr := [10, 11, 12, 13, 14]

/-- The buffer list from `h`: the buffers of `l` in order, linked by `next`, ending with
`NULL`. -/
def BufList (s : State) : BufPtr → List BufPtr → Prop
  | h, [] => h = NULL
  | h, b :: t => h = b ∧ b ≠ NULL ∧ BufList s (s.bufAt b).next t

/-- Some buffer of `l` has the name `name`. -/
def Named (s : State) (l : List BufPtr) (name : CStr) : Prop :=
  ∃ b, b ∈ l ∧ (s.bufAt b).name = some name

/-- The example state before any buffer exists. -/
def exEmpty : State :=
  { exState with bufAt := fun _ => Buffer.zero, head_bp := NULL, cur_bp := NULL, fresh_buf := 1 }

/-- Three buffers are created with `buffer_new` and then given, in turn, the file names
`d1/foo.txt`, `d2/foo.txt` and `d3/foo.txt` with `set_buffer_names`; the three names. -/
def three_foo_names : Option (List (Option CStr)) :=
  let b1 := buffer_new exEmpty
  let b2 := buffer_new b1.1
  let b3 := buffer_new b2.1
  (set_buffer_names 4 b3.1 b1.2 "d1/foo.txt".toList).bind fun t1 =>
  (set_buffer_names 4 t1 b2.2 "d2/foo.txt".toList).bind fun t2 =>
  (set_buffer_names 4 t2 b3.2 "d3/foo.txt".toList).bind fun t3 =>
  some [(t3.bufAt b1.2).name, (t3.bufAt b2.2).name, (t3.bufAt b3.2).name]

/-- The window list from `h`: the windows of `l` in order, linked by `next`, ending with
`NULL`. -/
def WinList (s : State) : WinPtr → List WinPtr → Prop
  | h, [] => h = NULL
  | h, w :: t => h = w ∧ w ≠ NULL ∧ WinList s (s.winAt w).next t

/-- The marker chain of buffer `b` is well formed: no marker twice, each owned by `b`. -/
def MarkersOwned (s : State) (b : BufPtr) : Prop :=
  (s.bufAt b).markers.Nodup ∧ ∀ m ∈ (s.bufAt b).markers, (s.markerAt m).bp = b

instance decLineChain (s : State) : ∀ l : List LinePtr, Decidable (LineChain s l)
  | [] => isTrue trivial
  | [_] => isTrue trivial
  | a :: b :: rest =>
    have := decLineChain s (b :: rest)
    inferInstanceAs (Decidable
      ((s.lineAt a).next = b ∧ (s.lineAt b).prev = a ∧ LineChain s (b :: rest)))

instance decOnChain (chain : List LinePtr) (pt : Point) : Decidable (OnChain chain pt) :=
  inferInstanceAs (Decidable (chain[pt.n]? = some pt.p))

instance decLinePath (s : State) : ∀ (l : List LinePtr) (a b : LinePtr),
    Decidable (LinePath s a l b)
  | [], a, b => inferInstanceAs (Decidable (a = b))
  | x :: t, a, b =>
    have := decLinePath s t (get_line_next s a) b
    inferInstanceAs (Decidable (x = a ∧ a ≠ b ∧ LinePath s (get_line_next s a) t b))

instance decBufList (s : State) : ∀ (l : List BufPtr) (h : BufPtr), Decidable (BufList s h l)
  | [], h => inferInstanceAs (Decidable (h = NULL))
  | b :: t, h =>
    have := decBufList s t (s.bufAt b).next
    inferInstanceAs (Decidable (h = b ∧ b ≠ NULL ∧ BufList s (s.bufAt b).next t))

instance decWinList (s : State) : ∀ (l : List WinPtr) (h : WinPtr), Decidable (WinList s h l)
  | [], h => inferInstanceAs (Decidable (h = NULL))
  | w :: t, h =>
    have := decWinList s t (s.winAt w).next
    inferInstanceAs (Decidable (h = w ∧ w ≠ NULL ∧ WinList s (s.winAt w).next t))

instance decNamed (s : State) (l : List BufPtr) (name : CStr) : Decidable (Named s l name) :=
  inferInstanceAs (Decidable (∃ b, b ∈ l ∧ (s.bufAt b).name = some name))

instance decMarkersOwned (s : State) (b : BufPtr) : Decidable (MarkersOwned s b) :=
  inferInstanceAs (Decidable ((s.bufAt b).markers.Nodup ∧
    ∀ m ∈ (s.bufAt b).markers, (s.markerAt m).bp = b))

instance decAtBob (s : State) : Decidable (AtBob s) :=
  inferInstanceAs (Decidable (s.cur.pt.n = 0 ∧ s.cur.pt.o = 0))

instance decAtEob (s : State) (chain : List LinePtr) : Decidable (AtEob s chain) :=
  inferInstanceAs (Decidable
    (s.cur.pt.n + 1 = chain.length ∧ s.cur.pt.o = line_len s s.cur.pt.p))

/-- Setter `set_buffer_temporary (bp, v)`. -/
def set_buffer_temporary (s : State) (bp : BufPtr) (v : Bool) : State :=
  s.setBuf bp { s.bufAt bp with temporary := v }

/-- The assignment `bp->next = v`. -/
def set_buffer_next (s : State) (bp v : BufPtr) : State :=
  s.setBuf bp { s.bufAt bp with next := v }

/-- The first loop of `set_temporary_buffer (bp)`: unlink `bp` from the buffer before it,
`for (bp0 = head_bp; bp0 != NULL; bp0 = bp0->next) if (bp0->next == bp) { ...; break; }`. -/
def set_temporary_buffer_unlink (bp : BufPtr) : Nat → State → BufPtr → Option State
  | 0, _, _ => none
  | fuel + 1, s, bp0 =>
    if bp0 = NULL then some s
    else if (s.bufAt bp0).next = bp then
      some (s.setBuf bp0 { s.bufAt bp0 with next := (s.bufAt (s.bufAt bp0).next).next })
    else set_temporary_buffer_unlink bp fuel s (s.bufAt bp0).next

/-- The second loop of `set_temporary_buffer`: the last buffer of the list,
`for (bp0 = head_bp; bp0->next != NULL; bp0 = bp0->next);`. -/
def set_temporary_buffer_last : Nat → State → BufPtr → Option BufPtr
  | 0, _, _ => none
  | fuel + 1, s, bp0 =>
    if (s.bufAt bp0).next ≠ NULL then set_temporary_buffer_last fuel s (s.bufAt bp0).next
    else some bp0

/-- The two loops of `set_temporary_buffer (bp)` and the assignments after them,
`bp0->next = bp; bp->next = NULL;`. -/
def set_temporary_buffer_move (fuel : Nat) (s : State) (bp : BufPtr) : Option State :=
  (set_temporary_buffer_unlink bp fuel s s.head_bp).bind fun s2 =>
  (set_temporary_buffer_last fuel s2 s2.head_bp).bind fun bp0 =>
  some (set_buffer_next (set_buffer_next s2 bp0 bp) bp NULL)

/-- Source `set_temporary_buffer (bp)`: set the temporary flag of the buffer and move the
buffer to the end of the buffer list. -/
def set_temporary_buffer (fuel : Nat) (s : State) (bp : BufPtr) : Option State :=
  let s1 := set_buffer_temporary s bp true
  if bp = s1.head_bp then
    if (s1.bufAt s1.head_bp).next = NULL then some s1
    else set_temporary_buffer_move fuel { s1 with head_bp := (s1.bufAt s1.head_bp).next } bp
  else if (s1.bufAt bp).next = NULL then some s1
  else set_temporary_buffer_move fuel s1 bp

/-! ## buffer.c, funcs.c: the confirmation before a buffer is killed -/

/-- Source `activate_mark`. -/
def activate_mark (s : State) : State :=
  s.setBuf s.cur_bp { s.cur with mark_active := true }

/-- Source `deactivate_mark`. -/
def deactivate_mark (s : State) : State :=
  s.setBuf s.cur_bp { s.cur with mark_active := false }

/-- Source `cancel` (funcs.c): the state afterwards and the result `FALSE`. -/
def cancel (s : State) : State × Bool :=
  (minibuf_error (deactivate_mark s) "Quit", false)

/-- Source `keyboard-quit` (funcs.c): cancel the current command. -/
def F_keyboard_quit (s : State) : State × Bool := cancel s

/-- Modelled from the spec: `minibuf_read_yesno` (minibuf.c is not among the sources)
shows the prompt and reads a yes-or-no answer: `1` for yes, `0` for no and `-1` when the
prompt is cancelled. The answer is the next one of `yesno`; with no answer left the prompt
is cancelled. -/
def minibuf_read_yesno (s : State) (prompt : String) : State × Int :=
  ({ s with prompts := s.prompts ++ [prompt], yesno := s.yesno.tail },
   match s.yesno.head? with
   | some (some true) => 1
   | some (some false) => 0
   | _ => -1)

/-- The prompt of `check_modified_buffer` for the buffer `bp`. -/
def kill_anyway_prompt (s : State) (bp : BufPtr) : String :=
  "Buffer " ++ String.mk ((s.bufAt bp).name.getD []) ++ " modified; kill anyway? (yes or no) "

/-- Source `check_modified_buffer (bp)`: the state afterwards and the result. The body of
the `for (;;)` runs once: every path in it returns or breaks. -/
def check_modified_buffer (s : State) (bp : BufPtr) : State × Bool :=
  if (s.bufAt bp).modified && !(s.bufAt bp).nosave then
    let r := minibuf_read_yesno s (kill_anyway_prompt s bp)
    if r.2 = -1 then ((F_keyboard_quit r.1).1, false)
    else if r.2 = 0 then (r.1, false)
    else (r.1, true)
  else (s, true)

/-- Modelled from the spec: `minibuf_read_completion` (minibuf.c is not among the sources)
shows the prompt and reads a buffer name with completion; `none` when the prompt is
cancelled. The reply is `completion_reply`. -/
def minibuf_read_completion (s : State) (prompt : String) : State × Option CStr :=
  ({ s with prompts := s.prompts ++ [prompt], completion_reply := none }, s.completion_reply)

/-- The start of `kill-buffer`, `STR_INIT (buf) else { ... }`: the name is the argument
of the command or, without one, read from the minibuffer; the state, `buf` and `ok`. -/
def kill_buffer_read (s : State) (arg : Option CStr) : State × Option CStr × Bool :=
  match arg with
  | some b => (s, some b, true)
  | none =>
    let r := minibuf_read_completion s
      ("Kill buffer (default " ++ String.mk (s.cur.name.getD []) ++ "): ")
    match r.2 with
    | none => let q := F_keyboard_quit r.1; (q.1, none, q.2)
    | some b => (r.1, some b, true)

/-- The middle of `kill-buffer`: look the named buffer up, `cur_bp` for no name or an
empty one; the state, `bp` and `ok`. -/
def kill_buffer_find (fuel : Nat) (s : State) (buf : Option CStr) (ok : Bool) :
    Option (State × BufPtr × Bool) :=
  match buf with
  | some (c :: cs) =>
    (find_buffer fuel s (c :: cs)).map fun bp =>
      if bp = NULL then
        (minibuf_error s ("Buffer \x60" ++ String.mk (c :: cs) ++ "\x27 not found"), bp, false)
      else (s, bp, ok)
  | _ => some (s, s.cur_bp, ok)

/-- Source `kill-buffer` (buffer.c), with the argument BUFFER (`none`: not given): the
state afterwards and the result. -/
def F_kill_buffer (fuel : Nat) (s : State) (arg : Option CStr) : Option (State × Bool) :=
  let i := kill_buffer_read s arg
  (kill_buffer_find fuel i.1 i.2.1 i.2.2).bind fun j =>
    if j.2.2 then
      let c := check_modified_buffer j.1 j.2.1
      if !c.2 then some (c.1, false)
      else (kill_buffer fuel c.1 j.2.1).map fun t => (t, true)
    else some (j.1, false)

/-- The example state with buffer 1 modified and a user who cancels the next prompt. -/
def exModified : State :=
  { exState with
    bufAt := fun q => if q = 1 then { exState.bufAt 1 with modified := true } else exState.bufAt q
    yesno := [none] }

/-! ## Markers, the undo log and the deletion of a character -/

/-- Source `warn_if_readonly_buffer` (buffer.c): the state (with the message) and the
result. -/
def warn_if_readonly_buffer (s : State) : State × Bool :=
  if s.cur.readonly then
    (minibuf_error s ("Buffer is readonly: " ++ String.mk (s.cur.name.getD [])), true)
  else (s, false)

/-- Store a line record at an address. -/
def State.setLine (s : State) (p : LinePtr) (l : Line) : State :=
  { s with lineAt := fun q => if q = p then l else s.lineAt q }

/-- Store a marker record at an address. -/
def State.setMarker (s : State) (m : MarkerPtr) (k : Marker) : State :=
  { s with markerAt := fun q => if q = m then k else s.markerAt q }

/-- Modelled from the spec: a new marker (marker.c is not among the sources) of the buffer
`bp` at the position `pt`, put at the head of the marker chain of `bp`; the state and the
address of the marker. -/
def marker_new_at (s : State) (bp : BufPtr) (pt : Point) (type : Bool) : State × MarkerPtr :=
  let s1 := { s with fresh_marker := s.fresh_marker + 1 }
  let s2 := s1.setMarker s.fresh_marker { bp := bp, pt := pt, type := type }
  (s2.setBuf bp { s2.bufAt bp with markers := s.fresh_marker :: (s2.bufAt bp).markers },
   s.fresh_marker)

/-- Modelled from the spec: `point_marker` (marker.c is not among the sources) makes a new
marker of the current buffer at point. -/
def point_marker (s : State) : State × MarkerPtr :=
  marker_new_at s s.cur_bp s.cur.pt false

/-- Modelled from the spec: `goto_point` (not among the sources) moves point to the given
position. -/
def goto_point (s : State) (pt : Point) : State := s.setPt pt

/-- Modelled from the spec: `undo_save` (undo.c is not among the sources) adds one record
to the undo log of the current buffer, unless the buffer keeps no undo log or the recording
is suppressed by `undo_nosave`. The log is kept in the order of recording. -/
def undo_save (s : State) (type : UndoType) (pt : Point) (arg1 arg2 : Int) : State :=
  if s.cur.noundo || s.undo_nosave then s
  else s.setBuf s.cur_bp { s.cur with undo := s.cur.undo ++ [⟨type, pt, arg1, arg2⟩] }

/-- Move the markers on the chain of the current buffer: the marker `k` goes to `f k`. -/
def relocate_markers (s : State) (f : Marker → Point) : State :=
  { s with markerAt := fun q =>
      if q ∈ s.cur.markers then { s.markerAt q with pt := f (s.markerAt q) }
      else s.markerAt q }

/-- Where a marker goes when the character at `pt` is deleted inside its line: a marker
after `pt` on the line moves back by one. -/
def delete_char_shift (pt : Point) (k : Marker) : Point :=
  if k.pt.p = pt.p ∧ k.pt.o > pt.o then { k.pt with o := k.pt.o - 1 } else k.pt

/-- Where a marker goes when the line `nx` after the line of `pt`, which has `len`
characters, is joined to it: a marker on `nx` moves to the joined line, a marker on a later
line has its line number lowered. -/
def delete_char_join (pt : Point) (nx : LinePtr) (len : Nat) (k : Marker) : Point :=
  if k.pt.p = nx then ⟨pt.p, k.pt.n - 1, k.pt.o + len⟩
  else if k.pt.n > pt.n then { k.pt with n := k.pt.n - 1 }
  else k.pt

/-- The line after the line `p` is joined to `p`: `p` gets its text appended and its
successor, which gets `p` as predecessor. -/
def join_lines (s : State) (p : LinePtr) : State :=
  let nx := (s.lineAt p).next
  let s1 := s.setLine p
    { s.lineAt p with text := (s.lineAt p).text ++ (s.lineAt nx).text,
                      next := (s.lineAt nx).next }
  s1.setLine (s.lineAt nx).next { s1.lineAt (s.lineAt nx).next with prev := p }

/-- Modelled from the spec: `delete_char` (line.c is not among the sources) deletes the
character after point. Inside a line the character is taken out of the line; at the end of
a line the next line is joined to it; at the end of the buffer it fails. It fails in a
read-only buffer. The markers of the buffer after point are relocated, one undo record is
saved (unless suppressed) and the buffer is flagged modified. -/
def delete_char (s : State) : State × Bool :=
  if !eolp s then
    let w := warn_if_readonly_buffer s
    if w.2 then (w.1, false)
    else
      let pt := s.cur.pt
      let s1 := undo_save s UndoType.UNDO_INSERT_CHAR pt
        (((s.lineAt pt.p).text.getD pt.o ' ').toNat : Int) 0
      let s2 := s1.setLine pt.p
        { s1.lineAt pt.p with text := (s1.lineAt pt.p).text.eraseIdx pt.o }
      let s3 := relocate_markers s2 (delete_char_shift pt)
      (s3.setBuf s3.cur_bp { s3.cur with modified := true }, true)
  else if !eobp s then
    let w := warn_if_readonly_buffer s
    if w.2 then (w.1, false)
    else
      let pt := s.cur.pt
      let s1 := undo_save s UndoType.UNDO_INSERT_CHAR pt 10 0
      let s2 := join_lines s1 pt.p
      let s3 := relocate_markers s2
        (delete_char_join pt (s.lineAt pt.p).next (line_len s pt.p))
      let s4 := s3.setBuf s3.cur_bp
        { s3.cur with last_line := s3.cur.last_line - 1, modified := true }
      (s4.needResync, true)
  else (minibuf_error s "End of buffer", false)

/-- The loop `while (size--) delete_char ();` of `delete_region`. -/
def delete_char_loop : Nat → State → State
  | 0, s => s
  | k + 1, s => delete_char_loop k (delete_char s).1

/-- The statement `undo_nosave = v`. -/
def set_undo_nosave (s : State) (v : Bool) : State := { s with undo_nosave := v }

/-- Source `delete_region (rp)` of buffer.c: the state afterwards and the result. -/
def delete_region (s : State) (rp : Region) : State × Bool :=
  let size := rp.size.toNat
  let pm := point_marker s
  let w := warn_if_readonly_buffer pm.1
  if w.2 then (w.1, false)
  else
    let s1 := goto_point w.1 rp.start
    let s2 := undo_save s1 UndoType.UNDO_REPLACE_BLOCK rp.start (size : Int) 0
    let s3 := set_undo_nosave s2 true
    let s4 := delete_char_loop size s3
    let s5 := set_undo_nosave s4 false
    let s6 := goto_point s5 (get_marker_pt s5 pm.2)
    (unchain_marker s6 pm.2, true)

namespace RegionC

/-- The current buffer as region.c sees it: the text is one string and a position is an
offset into it. `markers` is the marker chain, each marker with its address and its
offset; `undo` holds the recorded replacements `(offset, deleted, inserted)`. -/
structure Buf where
  text : List Char
  pt : Nat
  readonly : Bool
  markers : List (Nat × Nat)
  fresh : Nat
  undo : List (Nat × Nat × Nat)
  minibuf : Option String
deriving DecidableEq, Repr

/-- Source `warn_if_readonly_buffer` (buffer.c), on the buffer of region.c; the name of
the buffer is left out of the message. -/
def warn_if_readonly_buffer (b : Buf) : Buf × Bool :=
  if b.readonly then ({ b with minibuf := some "Buffer is readonly" }, true) else (b, false)

/-- Modelled from the spec: `point_marker` makes a new marker at point. -/
def point_marker (b : Buf) : Buf × Nat :=
  ({ b with markers := (b.fresh, b.pt) :: b.markers, fresh := b.fresh + 1 }, b.fresh)

/-- Modelled from the spec: `get_marker_o`, the offset of a marker (0 if not chained). -/
def get_marker_o (b : Buf) (m : Nat) : Nat :=
  match b.markers.find? (fun k => k.1 = m) with
  | some k => k.2
  | none => 0

/-- Modelled from the spec: `unchain_marker` takes the marker out of the chain. -/
def unchain_marker (b : Buf) (m : Nat) : Buf :=
  { b with markers := b.markers.filter (fun k => k.1 ≠ m) }

/-- Modelled from the spec: `goto_offset` moves point to the offset. -/
def goto_offset (b : Buf) (o : Nat) : Buf := { b with pt := o }

/-- Modelled from the spec: `replace_estr (del, es)` replaces the `del` characters after
point by the string `es`, records the replacement in the undo log and relocates the
markers after point: a marker inside the deleted span collapses to point, a marker behind
it moves by the change of length. It fails in a read-only buffer. -/
def replace_estr (b : Buf) (del : Nat) (es : List Char) : Buf × Bool :=
  if b.readonly then (b, false)
  else
    ({ b with
        text := b.text.take b.pt ++ es ++ b.text.drop (b.pt + del)
        undo := b.undo ++ [(b.pt, del, es.length)]
        markers := b.markers.map fun k =>
          if k.2 > b.pt then (k.1, max b.pt (k.2 + es.length - del)) else k },
     true)

/-- Source `delete_region (r)` of region.c: the buffer afterwards and the result. -/
def delete_region (b : Buf) (r : Region) : Buf × Bool :=
  let w := warn_if_readonly_buffer b
  if w.2 then (w.1, false)
  else
    let pm := point_marker w.1
    let b1 := goto_offset pm.1 r.start
    let b2 := (replace_estr b1 (get_region_size r) []).1
    let b3 := goto_offset b2 (get_marker_o b2 pm.2)
    (unchain_marker b3 pm.2, true)

end RegionC

/-- The example state with buffer 1 read-only. -/
def exReadonly : State :=
  { exState with
    bufAt := fun q => if q = 1 then { exState.bufAt 1 with readonly := true } else exState.bufAt q }

/-- An example buffer of region.c: the text `hello`, point at offset 4, one marker. -/
def RegionC.exBuf : RegionC.Buf :=
  { text := "hello".toList, pt := 4, readonly := false, markers := [(1, 2)], fresh := 2,
    undo := [], minibuf := none }

/-! ## The text of a buffer as one string -/

/-- The lines joined, with a newline between two lines. -/
def join_text : List (List Char) → List Char
  | [] => []
  | [l] => l
  | l :: l2 :: rest => l ++ '\n' :: join_text (l2 :: rest)

/-- The text of the buffer whose lines are `chain`, as one string. -/
def buffer_text (s : State) (chain : List LinePtr) : List Char :=
  join_text (chain.map fun p => (s.lineAt p).text)

/-- The offset of the start of line `n` in a text whose lines have the lengths `lens`
(every line before it counts with its newline). -/
def line_start : List Nat → Nat → Nat
  | [], _ => 0
  | _ :: _, 0 => 0
  | a :: l, n + 1 => a + 1 + line_start l n

/-- The offset of a position in the text of the buffer. -/
def point_offset (s : State) (chain : List LinePtr) (pt : Point) : Nat :=
  line_start (chain.map (line_len s)) pt.n + pt.o

/-- The position is in the buffer: on the chain, with its offset inside its line. -/
def ValidPoint (s : State) (chain : List LinePtr) (pt : Point) : Prop :=
  OnChain chain pt ∧ pt.o ≤ line_len s pt.p

/-- The lines before a line, each followed by its newline. -/
def pre_text : List (List Char) → List Char
  | [] => []
  | a :: l => a ++ '\n' :: pre_text l

/-- The lines after a line, each preceded by its newline. -/
def join_tail : List (List Char) → List Char
  | [] => []
  | b :: bs => '\n' :: join_text (b :: bs)

/-- The list `l` is reached from `h` by the links `nx` and ends before `z`. -/
def NextList (nx : Nat → Nat) (z : Nat) : Nat → List Nat → Prop
  | h, [] => h = z
  | h, a :: t => h = a ∧ a ≠ z ∧ NextList nx z (nx a) t
/-- One character was deleted at point: `t` with the lines `chain2` is the state after
`s` with the lines `chain`. The text lost the character at point, point and the marker
chain are the old ones, every valid marker of the buffer is valid again and its offset in
the text moved back by one if it was behind point. -/
structure DeletedOne (s : State) (chain : List LinePtr) (t : State) (chain2 : List LinePtr) :
    Prop where
  valid : ValidBuffer t chain2
  text : buffer_text t chain2 = (buffer_text s chain).eraseIdx (point_offset s chain s.cur.pt)
  pt : t.cur.pt = s.cur.pt
  cur_bp : t.cur_bp = s.cur_bp
  markers : t.cur.markers = s.cur.markers
  readonly : t.cur.readonly = s.cur.readonly
  nosave : t.undo_nosave = s.undo_nosave
  undo : s.undo_nosave = true → t.cur.undo = s.cur.undo
  offset : point_offset t chain2 t.cur.pt = point_offset s chain s.cur.pt
  marker : ∀ m ∈ s.cur.markers, ValidPoint s chain (s.markerAt m).pt →
    ValidPoint t chain2 (t.markerAt m).pt ∧
    point_offset t chain2 (t.markerAt m).pt =
      (if point_offset s chain (s.markerAt m).pt > point_offset s chain s.cur.pt
       then point_offset s chain (s.markerAt m).pt - 1
       else point_offset s chain (s.markerAt m).pt)
  owner : ∀ m, (t.markerAt m).bp = (s.markerAt m).bp

/-- Where the offset `a` of a marker goes when the character at offset `P` is deleted. -/
def marker_shift (P a : Nat) : Nat := if a > P then a - 1 else a

/-- The loop of `delete_region` deleted `k` characters at point: `t` with the lines
`chain2` is the state after `s` with the lines `chain`. -/
structure DeletedMany (k : Nat) (s : State) (chain : List LinePtr) (t : State)
    (chain2 : List LinePtr) : Prop where
  valid : ValidBuffer t chain2
  text : buffer_text t chain2 =
    (fun x : List Char => x.eraseIdx (point_offset s chain s.cur.pt))^[k] (buffer_text s chain)
  pt : t.cur.pt = s.cur.pt
  cur_bp : t.cur_bp = s.cur_bp
  markers : t.cur.markers = s.cur.markers
  readonly : t.cur.readonly = s.cur.readonly
  nosave : t.undo_nosave = s.undo_nosave
  undo : s.undo_nosave = true → t.cur.undo = s.cur.undo
  offset : point_offset t chain2 t.cur.pt = point_offset s chain s.cur.pt
  marker : ∀ m ∈ s.cur.markers, ValidPoint s chain (s.markerAt m).pt →
    ValidPoint t chain2 (t.markerAt m).pt ∧
    point_offset t chain2 (t.markerAt m).pt =
      (marker_shift (point_offset s chain s.cur.pt))^[k] (point_offset s chain (s.markerAt m).pt)
  owner : ∀ m, (t.markerAt m).bp = (s.markerAt m).bp

/-! ## editfns.c: the characters around point -/

/-- The NUL character, the `0` that `char_after` and `char_before` return. -/
def NUL : Char := Char.ofNat 0

/-- The double quote character. -/
def DQUOTE : Char := Char.ofNat 34

/-- The single quote character. -/
def SQUOTE : Char := Char.ofNat 39

/-- The backslash character. -/
def BACKSLASH : Char := Char.ofNat 92

/-- Source `char_after (pt)`; the tests `eobp ()` and `eolp ()` look at the point of the
buffer, as in the source. -/
def char_after (s : State) (pt : Point) : Char :=
  if eobp s then NUL
  else if eolp s then '\n'
  else (s.lineAt pt.p).text.getD pt.o NUL

/-- Source `char_before (pt)`. -/
def char_before (s : State) (pt : Point) : Char :=
  if bobp s then NUL
  else if bolp s then '\n'
  else (s.lineAt pt.p).text.getD (pt.o - 1) NUL

/-- Source `following_char`. -/
def following_char (s : State) : Char := char_after s s.cur.pt

/-- Source `preceding_char`. -/
def preceding_char (s : State) : Char := char_before s s.cur.pt

/-- Source `is_empty_line`. -/
def is_empty_line (s : State) : Bool := decide ((s.lineAt s.cur.pt.p).text.length = 0)

/-- The statement `cur_bp->pt.o = o`. -/
def set_offset (s : State) (o : Nat) : State := s.setPt { s.cur.pt with o := o }

/-! ## Movement by characters and lines -/

/-- Modelled from the spec: `forward_char` (the file of the basic movements of this
version is not among the sources) moves point one character forward, as `move_char (1)` of
buffer.c does. -/
def forward_char (s : State) : State × Bool := move_char s 1

/-- Modelled from the spec: `backward_char`, as `move_char (-1)` of buffer.c. -/
def backward_char (s : State) : State × Bool := move_char s (-1)

/-- The loop of `forward-char`: `for (uni = 0; uni < uniarg; ++uni) if (!forward_char ())
{ minibuf_error ("End of buffer"); return FALSE; }`. -/
def forward_char_loop : Nat → State → State × Bool
  | 0, s => (s, true)
  | k + 1, s =>
    let r := forward_char s
    if !r.2 then (minibuf_error r.1 "End of buffer", false) else forward_char_loop k r.1

/-- The loop of `backward-char`. -/
def backward_char_loop : Nat → State → State × Bool
  | 0, s => (s, true)
  | k + 1, s =>
    let r := backward_char s
    if !r.2 then (minibuf_error r.1 "Beginning of buffer", false)
    else backward_char_loop k r.1

/-- Modelled from the spec: the command `forward-char` (not among the sources), written
after its sibling `forward-word`: move point `uniarg` characters forward, backward for a
negative argument. -/
def F_forward_char (s : State) (uniarg : Int) : State × Bool :=
  if uniarg < 0 then backward_char_loop (-uniarg).toNat s
  else forward_char_loop uniarg.toNat s

/-- Modelled from the spec: the command `backward-char`. -/
def F_backward_char (s : State) (uniarg : Int) : State × Bool :=
  if uniarg < 0 then forward_char_loop (-uniarg).toNat s
  else backward_char_loop uniarg.toNat s

/-- The goal column is computed anew unless the last command was a vertical movement. -/
def update_goalc (s : State) : State :=
  if s.last_command ≠ Command.F_next_line ∧ s.last_command ≠ Command.F_previous_line then
    s.setBuf s.cur_bp { s.cur with goalc := get_goalc s }
  else s

/-- Modelled from the spec: `next_line` (not among the sources) moves point to the next
line, to the goal column, and flags the display; on the last line it fails and moves
nothing. -/
def next_line (s : State) : State × Bool :=
  if get_line_next s s.cur.pt.p = s.cur.limitp then (s, false)
  else
    let s1 := update_goalc s
    let s2 := s1.setPt { s1.cur.pt with p := get_line_next s1 s1.cur.pt.p, n := s1.cur.pt.n + 1 }
    ((goto_goalc s2).needResync, true)

/-- Modelled from the spec: `previous_line` (not among the sources) moves point to the
previous line, to the goal column; on the first line it fails and moves nothing. -/
def previous_line (s : State) : State × Bool :=
  if get_line_prev s s.cur.pt.p = s.cur.limitp then (s, false)
  else
    let s1 := update_goalc s
    let s2 := s1.setPt { s1.cur.pt with p := get_line_prev s1 s1.cur.pt.p, n := s1.cur.pt.n - 1 }
    ((goto_goalc s2).needResync, true)

/-- The loops of `forward-line`: `while (uniarg--) if (!next_line ()) return FALSE;`,
with `step` one of `next_line` and `previous_line`. -/
def line_loop (step : State → State × Bool) : Nat → State → State × Bool
  | 0, s => (s, true)
  | k + 1, s =>
    let r := step s
    if !r.2 then (r.1, false) else line_loop step k r.1

/-- Source `forward-line` (funcs.c). -/
def F_forward_line (s : State) (uniarg : Int) : State × Bool :=
  let s1 := beginning_of_line s
  let u := if uniarg = 0 then 1 else uniarg
  if u < 0 then line_loop previous_line (-u).toNat s1
  else if u > 0 then line_loop next_line u.toNat s1
  else (s1, true)

/-! ## funcs.c: movement by words -/

/-- The macro `ISWORDCHAR`. -/
def ISWORDCHAR (c : Char) : Bool := c.isAlphanum || decide (c = '$')

/-- The inner loop of `forward_word`, `while (!eolp ()) { ... }`: the state, whether the
function returned TRUE inside the loop, and `gotword`. Every round moves point one
character to the right, so the loop makes at most as many rounds as there are characters
behind point on the line. -/
def forward_word_line : Nat → State → Bool → State × Bool × Bool
  | 0, s, gotword => (s, false, gotword)
  | k + 1, s, gotword =>
    if !eolp s then
      if !ISWORDCHAR (following_char s) then
        if gotword then (s, true, gotword)
        else forward_word_line k (set_offset s (s.cur.pt.o + 1)) gotword
      else forward_word_line k (set_offset s (s.cur.pt.o + 1)) true
    else (s, false, gotword)

/-- The outer loop `for (;;)` of `forward_word`. -/
def forward_word_loop : Nat → State → Bool → Option (State × Bool)
  | 0, _, _ => none
  | fuel + 1, s, gotword =>
    let r := forward_word_line (line_len s s.cur.pt.p - s.cur.pt.o) s gotword
    if r.2.1 then some (r.1, true)
    else if r.2.2 then some (r.1, true)
    else
      let s1 := set_offset r.1 (line_len r.1 r.1.cur.pt.p)
      let n := next_line s1
      if !n.2 then some (n.1, false)
      else forward_word_loop fuel (set_offset n.1 0) r.2.2

/-- Source `forward_word` (funcs.c). -/
def forward_word (fuel : Nat) (s : State) : Option (State × Bool) :=
  forward_word_loop fuel s false

/-- The inner loop of `backward_word`, `while (!bolp ()) { ... }`. -/
def backward_word_line : Nat → State → Bool → State × Bool × Bool
  | 0, s, gotword => (s, false, gotword)
  | k + 1, s, gotword =>
    if !bolp s then
      if !ISWORDCHAR (preceding_char s) then
        if gotword then (s, true, gotword)
        else backward_word_line k (set_offset s (s.cur.pt.o - 1)) gotword
      else backward_word_line k (set_offset s (s.cur.pt.o - 1)) true
    else (s, false, gotword)

/-- The outer loop `for (;;)` of `backward_word`. -/
def backward_word_loop : Nat → State → Bool → Option (State × Bool)
  | 0, _, _ => none
  | fuel + 1, s, gotword =>
    let p := if bolp s then previous_line s else (s, true)
    if !p.2 then some (p.1, false)
    else
      let s1 := if bolp s then set_offset p.1 (line_len p.1 p.1.cur.pt.p) else p.1
      let r := backward_word_line s1.cur.pt.o s1 gotword
      if r.2.1 then some (r.1, true)
      else if r.2.2 then some (r.1, true)
      else backward_word_loop fuel r.1 r.2.2

/-- Source `backward_word` (funcs.c). -/
def backward_word (fuel : Nat) (s : State) : Option (State × Bool) :=
  backward_word_loop fuel s false

/-- The loops of the word and sexp commands: `for (uni = 0; uni < uniarg; ++uni)
if (!step ()) return FALSE;`. -/
def repeat_loop (step : State → Option (State × Bool)) : Nat → State → Option (State × Bool)
  | 0, s => some (s, true)
  | k + 1, s =>
    (step s).bind fun r => if !r.2 then some (r.1, false) else repeat_loop step k r.1

/-- Source `forward-word` (funcs.c). -/
def F_forward_word (fuel : Nat) (s : State) (uniarg : Int) : Option (State × Bool) :=
  if uniarg < 0 then repeat_loop (backward_word fuel) (-uniarg).toNat s
  else repeat_loop (forward_word fuel) uniarg.toNat s

/-- Source `backward-word` (funcs.c). -/
def F_backward_word (fuel : Nat) (s : State) (uniarg : Int) : Option (State × Bool) :=
  if uniarg < 0 then repeat_loop (forward_word fuel) (-uniarg).toNat s
  else repeat_loop (backward_word fuel) uniarg.toNat s

/-! ## funcs.c: movement by balanced expressions -/

/-- The local variables of `forward_sexp` and `backward_sexp`. -/
structure SexpVars where
  gotsexp : Bool
  level : Int
  double_quote : Bool
  single_quote : Bool
deriving DecidableEq, Repr

/-- The macro `ISSEXPCHAR`. -/
def ISSEXPCHAR (c : Char) : Bool := c.isAlphanum || decide (c = '$') || decide (c = '_')

/-- The macro `ISOPENBRACKETCHAR`, which reads `double_quote` and `single_quote`. -/
def ISOPENBRACKETCHAR (v : SexpVars) (c : Char) : Bool :=
  decide (c = '(') || decide (c = '[') || decide (c = '{') ||
    (decide (c = DQUOTE) && !v.double_quote) || (decide (c = SQUOTE) && !v.single_quote)

/-- The macro `ISCLOSEBRACKETCHAR`. -/
def ISCLOSEBRACKETCHAR (v : SexpVars) (c : Char) : Bool :=
  decide (c = ')') || decide (c = ']') || decide (c = '}') ||
    (decide (c = DQUOTE) && v.double_quote) || (decide (c = SQUOTE) && v.single_quote)

/-- The macro `ISSEXPSEPARATOR`. -/
def ISSEXPSEPARATOR (v : SexpVars) (c : Char) : Bool :=
  ISOPENBRACKETCHAR v c || ISCLOSEBRACKETCHAR v c

/-- The statements `level += d; gotsexp = TRUE; if (c == DQUOTE) double_quote ^= 1;
if (c == SQUOTE) single_quote ^= 1;` of the macro `CONTROL_SEXP_LEVEL`. -/
def sexp_level_step (v : SexpVars) (c : Char) (d : Int) : SexpVars :=
  let v1 := { v with level := v.level + d, gotsexp := true }
  let v2 := if c = DQUOTE then { v1 with double_quote := !v1.double_quote } else v1
  if c = SQUOTE then { v2 with single_quote := !v2.single_quote } else v2

/-- The macro `CONTROL_SEXP_LEVEL (open, close)`: the state, the variables, and the value
returned when the macro returns from the function. -/
def CONTROL_SEXP_LEVEL (opn cls : SexpVars → Char → Bool) (s : State) (v : SexpVars)
    (c : Char) : State × SexpVars × Option Bool :=
  if opn v c then
    if v.level = 0 ∧ v.gotsexp then (s, v, some true)
    else (s, sexp_level_step v c 1, none)
  else if cls v c then
    if v.level = 0 ∧ v.gotsexp then (s, v, some true)
    else if (sexp_level_step v c (-1)).level < 0 then
      (minibuf_error s "Scan error: \x22Containing expression ends prematurely\x22",
        sexp_level_step v c (-1), some false)
    else (s, sexp_level_step v c (-1), none)
  else (s, v, none)

/-- The test of `forward_sexp` for a backslash before a quote. -/
def forward_sexp_escape (s : State) : Bool :=
  decide (following_char s = BACKSLASH) &&
    decide (s.cur.pt.o + 1 < line_len s s.cur.pt.p) &&
    (decide ((s.lineAt s.cur.pt.p).text.getD (s.cur.pt.o + 1) NUL = DQUOTE) ||
      decide ((s.lineAt s.cur.pt.p).text.getD (s.cur.pt.o + 1) NUL = SQUOTE))

/-- One round of the inner loop of `forward_sexp`: the state, the variables and the value
returned in this round, if any. -/
def forward_sexp_char (s : State) (v : SexpVars) : State × SexpVars × Option Bool :=
  let c0 := following_char s
  let esc := forward_sexp_escape s
  let s1 := if esc then set_offset s (s.cur.pt.o + 1) else s
  let c := if esc then 'a' else c0
  let r := CONTROL_SEXP_LEVEL ISOPENBRACKETCHAR ISCLOSEBRACKETCHAR s1 v c
  match r.2.2 with
  | some b => (r.1, r.2.1, some b)
  | none =>
    let s2 := set_offset r.1 (r.1.cur.pt.o + 1)
    if !ISSEXPCHAR c then
      if r.2.1.gotsexp ∧ r.2.1.level = 0 then
        ((if !ISSEXPSEPARATOR r.2.1 c then set_offset s2 (s2.cur.pt.o - 1) else s2),
          r.2.1, some true)
      else (s2, r.2.1, none)
    else (s2, { r.2.1 with gotsexp := true }, none)

/-- The inner loop of `forward_sexp`, `while (!eolp ()) { ... }`: the state, the variables
and the value returned inside the loop, if any. -/
def forward_sexp_line : Nat → State → SexpVars → State × SexpVars × Option Bool
  | 0, s, v => (s, v, none)
  | k + 1, s, v =>
    if !eolp s then
      match (forward_sexp_char s v).2.2 with
      | some b => ((forward_sexp_char s v).1, (forward_sexp_char s v).2.1, some b)
      | none => forward_sexp_line k (forward_sexp_char s v).1 (forward_sexp_char s v).2.1
    else (s, v, none)

/-- The outer loop `for (;;)` of `forward_sexp`. -/
def forward_sexp_loop : Nat → State → SexpVars → Option (State × Bool)
  | 0, _, _ => none
  | fuel + 1, s, v =>
    let r := forward_sexp_line (line_len s s.cur.pt.p - s.cur.pt.o) s v
    match r.2.2 with
    | some b => some (r.1, b)
    | none =>
      if r.2.1.gotsexp ∧ r.2.1.level = 0 then some (r.1, true)
      else
        let s1 := set_offset r.1 (line_len r.1 r.1.cur.pt.p)
        let n := next_line s1
        if !n.2 then
          some ((if r.2.1.level ≠ 0 then
              minibuf_error n.1 "Scan error: \x22Unbalanced parentheses\x22" else n.1), false)
        else forward_sexp_loop fuel (set_offset n.1 0) r.2.1

/-- Source `forward_sexp` (funcs.c). -/
def forward_sexp (fuel : Nat) (s : State) : Option (State × Bool) :=
  forward_sexp_loop fuel s ⟨false, 0, false, false⟩

/-- The test of `backward_sexp` for a quote behind a backslash. -/
def backward_sexp_escape (s : State) : Bool :=
  (decide (preceding_char s = SQUOTE) || decide (preceding_char s = DQUOTE)) &&
    decide (s.cur.pt.o - 1 > 0) &&
    decide ((s.lineAt s.cur.pt.p).text.getD (s.cur.pt.o - 2) NUL = BACKSLASH)

/-- One round of the inner loop of `backward_sexp`. -/
def backward_sexp_char (s : State) (v : SexpVars) : State × SexpVars × Option Bool :=
  let c0 := preceding_char s
  let esc := backward_sexp_escape s
  let s1 := if esc then set_offset s (s.cur.pt.o - 1) else s
  let c := if esc then 'a' else c0
  let r := CONTROL_SEXP_LEVEL ISCLOSEBRACKETCHAR ISOPENBRACKETCHAR s1 v c
  match r.2.2 with
  | some b => (r.1, r.2.1, some b)
  | none =>
    let s2 := set_offset r.1 (r.1.cur.pt.o - 1)
    if !ISSEXPCHAR c then
      if r.2.1.gotsexp ∧ r.2.1.level = 0 then
        ((if !ISSEXPSEPARATOR r.2.1 c then set_offset s2 (s2.cur.pt.o + 1) else s2),
          r.2.1, some true)
      else (s2, r.2.1, none)
    else (s2, { r.2.1 with gotsexp := true }, none)

/-- The inner loop of `backward_sexp`, `while (!bolp ()) { ... }`. -/
def backward_sexp_line : Nat → State → SexpVars → State × SexpVars × Option Bool
  | 0, s, v => (s, v, none)
  | k + 1, s, v =>
    if !bolp s then
      match (backward_sexp_char s v).2.2 with
      | some b => ((backward_sexp_char s v).1, (backward_sexp_char s v).2.1, some b)
      | none => backward_sexp_line k (backward_sexp_char s v).1 (backward_sexp_char s v).2.1
    else (s, v, none)

/-- The outer loop `for (;;)` of `backward_sexp`. -/
def backward_sexp_loop : Nat → State → SexpVars → Option (State × Bool)
  | 0, _, _ => none
  | fuel + 1, s, v =>
    let p := if bolp s then previous_line s else (s, true)
    if !p.2 then
      some ((if v.level ≠ 0 then
          minibuf_error p.1 "Scan error: \x22Unbalanced parentheses\x22" else p.1), false)
    else
      let s1 := if bolp s then set_offset p.1 (line_len p.1 p.1.cur.pt.p) else p.1
      let r := backward_sexp_line s1.cur.pt.o s1 v
      match r.2.2 with
      | some b => some (r.1, b)
      | none =>
        if r.2.1.gotsexp ∧ r.2.1.level = 0 then some (r.1, true)
        else backward_sexp_loop fuel r.1 r.2.1

/-- Source `backward_sexp` (funcs.c). -/
def backward_sexp (fuel : Nat) (s : State) : Option (State × Bool) :=
  backward_sexp_loop fuel s ⟨false, 0, true, true⟩

/-- Source `forward-sexp` (funcs.c). -/
def F_forward_sexp (fuel : Nat) (s : State) (uniarg : Int) : Option (State × Bool) :=
  if uniarg < 0 then repeat_loop (backward_sexp fuel) (-uniarg).toNat s
  else repeat_loop (forward_sexp fuel) uniarg.toNat s

/-- Source `backward-sexp` (funcs.c). -/
def F_backward_sexp (fuel : Nat) (s : State) (uniarg : Int) : Option (State × Bool) :=
  if uniarg < 0 then repeat_loop (forward_sexp fuel) (-uniarg).toNat s
  else repeat_loop (backward_sexp fuel) uniarg.toNat s

/-! ## Markers and the mark ring (editfns.c) -/

/-- Modelled from the spec: `free_marker` (marker.c is not among the sources) unchains the
marker and gives its memory back. -/
def free_marker (s : State) (m : MarkerPtr) : State := unchain_marker s m

/-- Modelled from the spec: `copy_marker` makes a new marker with the buffer, the position
and the insertion type of `m`. -/
def copy_marker (s : State) (m : MarkerPtr) : State × MarkerPtr :=
  marker_new_at s (s.markerAt m).bp (s.markerAt m).pt (s.markerAt m).type

/-- Modelled from the spec: `point_min_marker` makes a new marker at the beginning of the
current buffer. -/
def point_min_marker (s : State) : State × MarkerPtr :=
  marker_new_at s s.cur_bp ⟨s.cur.lines, 0, 0⟩ false

/-- Modelled from the spec: `move_marker (m, bp, pt)` puts the marker at the position `pt`
of the buffer `bp`, chaining it to `bp` if it was not there. -/
def move_marker (s : State) (m : MarkerPtr) (bp : BufPtr) (pt : Point) : State :=
  let s1 :=
    if bp ≠ (s.markerAt m).bp then
      let u := unchain_marker s m
      let u1 := u.setMarker m { u.markerAt m with bp := bp }
      u1.setBuf bp { u1.bufAt bp with markers := m :: (u1.bufAt bp).markers }
    else s
  s1.setMarker m { s1.markerAt m with pt := pt }

/-- Modelled from the spec: `set_marker_insertion_type`. -/
def set_marker_insertion_type (s : State) (m : MarkerPtr) (type : Bool) : State :=
  s.setMarker m { s.markerAt m with type := type }

/-- The statement `list_append (mark_ring, m)`. -/
def mark_ring_append (s : State) (m : MarkerPtr) : State :=
  { s with mark_ring := s.mark_ring ++ [m] }

/-- The statement `list_betail (mark_ring)`. -/
def mark_ring_betail (s : State) : State :=
  { s with mark_ring := s.mark_ring.dropLast }

/-- The assignment `bp->mark = m`. -/
def set_buffer_mark (s : State) (bp : BufPtr) (m : MarkerPtr) : State :=
  s.setBuf bp { s.bufAt bp with mark := m }

/-- Source `push_mark` (editfns.c): push the current mark in the mark ring. -/
def push_mark (s : State) : State :=
  if s.cur.mark ≠ NULL then
    let c := copy_marker s s.cur.mark
    mark_ring_append c.1 c.2
  else
    let c := point_min_marker s
    let s1 := c.1.setMarker c.2
      { c.1.markerAt c.2 with pt := { (c.1.markerAt c.2).pt with p := NULL } }
    mark_ring_append s1 c.2

/-- Source `pop_mark` (editfns.c): pop a mark from the mark ring and put it as the current
mark. With an empty ring, where the source reads no valid item, nothing is done. -/
def pop_mark (s : State) : State :=
  match s.mark_ring.getLast? with
  | none => s
  | some m =>
    let bp := (s.markerAt m).bp
    let s1 := if (s.bufAt bp).mark ≠ NULL then free_marker s (s.bufAt bp).mark else s
    let s2 :=
      if (s1.markerAt m).pt.p ≠ NULL then
        let c := copy_marker s1 m
        set_buffer_mark c.1 bp c.2
      else set_buffer_mark s1 bp NULL
    free_marker (mark_ring_betail s2) m

/-- Source `set_mark` (editfns.c): set the mark to the position of point. -/
def set_mark (s : State) : State :=
  if s.cur.mark = NULL then
    let c := point_marker s
    set_buffer_mark c.1 c.1.cur_bp c.2
  else move_marker s s.cur.mark s.cur_bp s.cur.pt

/-! ## Insertion -/

/-- Where a marker goes when a character is inserted at `pt`: a marker behind `pt` on the
line moves on by one, a marker at `pt` does so if its insertion type says so. -/
def insert_char_shift (pt : Point) (k : Marker) : Point :=
  if k.pt.p = pt.p ∧ (k.pt.o > pt.o ∨ (k.pt.o = pt.o ∧ k.type = true)) then
    { k.pt with o := k.pt.o + 1 }
  else k.pt

/-- Modelled from the spec: `insert_char` (line.c is not among the sources) inserts the
character at point and leaves point behind it. It fails in a read-only buffer. The markers
of the buffer are relocated, one undo record is saved (unless suppressed) and the buffer is
flagged modified. -/
def insert_char (s : State) (c : Char) : State × Bool :=
  let w := warn_if_readonly_buffer s
  if w.2 then (w.1, false)
  else
    let pt := s.cur.pt
    let s1 := undo_save s UndoType.UNDO_REMOVE_CHAR pt 0 0
    let s2 := s1.setLine pt.p
      { s1.lineAt pt.p with
        text := (s1.lineAt pt.p).text.take pt.o ++ c :: (s1.lineAt pt.p).text.drop pt.o }
    let s3 := relocate_markers s2 (insert_char_shift pt)
    let s4 := set_offset s3 (pt.o + 1)
    (s4.setBuf s4.cur_bp { s4.cur with modified := true }, true)

/-- Where a marker goes when the line of `pt` is split at `pt` and the rest of the line
becomes the new line `nl`. -/
def insert_newline_shift (pt : Point) (nl : LinePtr) (k : Marker) : Point :=
  if k.pt.p = pt.p ∧ (k.pt.o > pt.o ∨ (k.pt.o = pt.o ∧ k.type = true)) then
    ⟨nl, k.pt.n + 1, k.pt.o - pt.o⟩
  else if k.pt.n > pt.n then { k.pt with n := k.pt.n + 1 }
  else k.pt

/-- The line `p` is split at the offset `o`: a new line behind `p` gets the rest of its
text. -/
def split_line (s : State) (p : LinePtr) (o : Nat) : State × LinePtr :=
  let nl := s.fresh_line
  let nx := (s.lineAt p).next
  let s1 := { s with fresh_line := s.fresh_line + 1 }
  let s2 := s1.setLine nl ⟨p, nx, (s.lineAt p).text.drop o⟩
  let s3 := s2.setLine p { s2.lineAt p with text := (s.lineAt p).text.take o, next := nl }
  (s3.setLine nx { s3.lineAt nx with prev := nl }, nl)

/-- Modelled from the spec: `insert_newline` (line.c is not among the sources) splits the
line at point and leaves point at the start of the new line. -/
def insert_newline (s : State) : State × Bool :=
  let w := warn_if_readonly_buffer s
  if w.2 then (w.1, false)
  else
    let pt := s.cur.pt
    let s1 := undo_save s UndoType.UNDO_REMOVE_CHAR pt 0 0
    let sp := split_line s1 pt.p pt.o
    let s3 := relocate_markers sp.1 (insert_newline_shift pt sp.2)
    let s4 := s3.setPt ⟨sp.2, pt.n + 1, 0⟩
    let s5 := s4.setBuf s4.cur_bp
      { s4.cur with last_line := s4.cur.last_line + 1, modified := true }
    (s5.needResync, true)

/-- The characters of `insert_string` go in one by one, a newline as a line break. -/
def insert_string_loop : List Char → State → State
  | [], s => s
  | c :: cs, s =>
    insert_string_loop cs (if c = '\n' then (insert_newline s).1 else (insert_char s c).1)

/-- Modelled from the spec: `insert_string` (line.c is not among the sources) inserts the
string at point; one undo record covers the block, the records of the single characters
are suppressed. -/
def insert_string (s : State) (str : List Char) : State :=
  let s1 := undo_save s UndoType.UNDO_REMOVE_BLOCK s.cur.pt (str.length : Int) 0
  set_undo_nosave (insert_string_loop str (set_undo_nosave s1 true)) false

/-- Modelled from the spec: the command `newline` (not among the sources) inserts a line
break at point. -/
def F_newline (s : State) : State × Bool := insert_newline s

/-- Modelled from the spec: the command `end-of-line` (not among the sources). -/
def F_end_of_line (s : State) : State × Bool := (end_of_line s, true)

/-! ## funcs.c: the region commands used by the transposition -/

/-- Modelled from the spec: `calculate_region` (the region file of this version is not
among the sources) is `calculate_the_region` of buffer.c. -/
def calculate_region (fuel : Nat) (s : State) (rp : Region) : Option (State × Bool × Region) :=
  calculate_the_region fuel s rp

/-- The loop of `copy_text_block` (buffer.c):
`for (lp = get_line_next (lp); astr_len (as) < size; lp = get_line_next (lp))`. -/
def copy_text_block_loop (s : State) (size : Nat) : Nat → LinePtr → List Char →
    Option (List Char)
  | 0, _, _ => none
  | fuel + 1, lp, as =>
    if as.length < size then
      copy_text_block_loop s size fuel (get_line_next s lp) (as ++ (s.lineAt lp).text ++ ['\n'])
    else some as

/-- Source `copy_text_block (pt, size)` (buffer.c): copy a region of text. -/
def copy_text_block (fuel : Nat) (s : State) (pt : Point) (size : Nat) : Option (List Char) :=
  (copy_text_block_loop s size fuel (get_line_next s pt.p)
    ((s.lineAt pt.p).text.drop pt.o ++ ['\n'])).map fun as => as.take size

/-- Source `astr_append_region (s)` (funcs.c): the text of the region is appended to the
string; the state and the string. The copy is made with `copy_text_block` of buffer.c from
the start of the region. -/
def astr_append_region (fuel : Nat) (s : State) (as : List Char) :
    Option (State × List Char) :=
  (calculate_region fuel (activate_mark s) region_new).bind fun c =>
    if c.2.2.size > 0 then
      (copy_text_block fuel c.1 c.2.2.start c.2.2.size.toNat).map fun t => (c.1, as ++ t)
    else some (c.1, as)

/-- Source `exchange_point_and_mark` (funcs.c). -/
def exchange_point_and_mark (s : State) : State × Bool :=
  if s.cur.mark = NULL then (minibuf_error s "No mark set in this buffer", false)
  else
    let s1 := s.setPt (s.markerAt s.cur.mark).pt
    (s1.setMarker s.cur.mark { s1.markerAt s.cur.mark with pt := s.cur.pt }, true)

/-- Source `exchange-point-and-mark` (funcs.c). -/
def F_exchange_point_and_mark (s : State) : State × Bool :=
  let r := exchange_point_and_mark s
  if !r.2 then (r.1, false)
  else
    let s1 := if get_variable_bool r.1 "transient-mark-mode" then activate_mark r.1 else r.1
    (s1.needResync, true)

/-- Source `delete-region` (funcs.c). The size of a region is not negative, so the loop
`while (size--)` makes `size` rounds. -/
def F_delete_region (fuel : Nat) (s : State) : Option (State × Bool) :=
  let w := warn_if_no_mark s
  if w.2 then some (w.1, false)
  else
    (calculate_region fuel w.1 region_new).bind fun c =>
      let s2 :=
        if c.1.cur.readonly then (warn_if_readonly_buffer c.1).1
        else
          let s3 :=
            if c.1.cur.pt.p ≠ c.2.2.start.p ∨ c.2.2.start.o ≠ c.1.cur.pt.o then
              (F_exchange_point_and_mark c.1).1
            else c.1
          let s4 := undo_save s3 UndoType.UNDO_INSERT_BLOCK s3.cur.pt c.2.2.size 0
          set_undo_nosave (delete_char_loop c.2.2.size.toNat (set_undo_nosave s4 true)) false
      some (deactivate_mark s2, true)

/-! ## funcs.c: transposition -/

/-- The motion commands that `transpose_subr` is called with. -/
inductive Motion where
  | F_forward_char
  | F_forward_word
  | F_forward_sexp
  | F_forward_line
deriving DecidableEq, Repr

/-- The call `f (uniarg)` of a motion command. -/
def Motion.call (f : Motion) (fuel : Nat) (s : State) (uniarg : Int) : Option (State × Bool) :=
  match f with
  | Motion.F_forward_char => some (Zile.F_forward_char s uniarg)
  | Motion.F_forward_word => Zile.F_forward_word fuel s uniarg
  | Motion.F_forward_sexp => Zile.F_forward_sexp fuel s uniarg
  | Motion.F_forward_line => some (Zile.F_forward_line s uniarg)

/-- The start of `transpose_subr` behind `p0 = point_marker ()`: for transpose-chars at
the end of a line `f (-1)`, for transpose-lines on the first line `f (1)`. -/
def transpose_subr_adjust (fuel : Nat) (f : Motion) (s : State) : Option State :=
  if f = Motion.F_forward_char then
    if eolp s then (f.call fuel s (-1)).map fun r => r.1 else some s
  else if f = Motion.F_forward_line then
    if (s.lineAt s.cur.pt.p).prev = s.cur.limitp then (f.call fuel s 1).map fun r => r.1
    else some s
  else some s

/-- The branch of `transpose_subr` for transpose-lines when `f (2)` fails: the undo
sequence is started (`seq_started` is false there), and a newline is inserted at the end of
the last line. -/
def transpose_subr_last_line (s : State) (p0 : MarkerPtr) : State :=
  let s1 := undo_save s UndoType.UNDO_START_SEQUENCE (get_marker_pt s p0) 0 0
  let s2 := if !is_empty_line s1 then (F_end_of_line s1).1 else s1
  (F_newline s2).1

/-- The part of `transpose_subr` from `f (1)` behind the first deletion to the second
deletion: the state, `p2` and the string `s2` (`none` for `NULL`). -/
def transpose_subr_second (fuel : Nat) (f : Motion) (s : State) :
    Option (State × MarkerPtr × Option (List Char)) :=
  (f.call fuel s 1).bind fun b =>
    if f = Motion.F_forward_line then
      some ((point_marker b.1).1, (point_marker b.1).2, none)
    else
      (f.call fuel (set_mark b.1) (-1)).bind fun c =>
        (astr_append_region fuel (point_marker c.1).1 []).bind fun r2 =>
          (F_delete_region fuel r2.1).map fun d2 => (d2.1, (point_marker c.1).2, some r2.2)

/-- The statements `goto_point (p->pt); if (astr_size (str) > 0) insert_string (astr_cstr
(str));` of `transpose_subr`. -/
def transpose_subr_put (s : State) (p : MarkerPtr) (str : List Char) : State :=
  let g := goto_point s (get_marker_pt s p)
  if str.length > 0 then insert_string g str else g

/-- The end of `transpose_subr`: the two strings are inserted in the other order, the undo
sequence is closed (`seq_started` is true there), the mark is restored and the markers are
freed. The string `s1` is never `NULL` there. -/
def transpose_subr_insert (s : State) (p0 p1 p2 : MarkerPtr) (str1 : List Char)
    (str2 : Option (List Char)) : State :=
  let s1 := set_marker_insertion_type s p2 true
  let s2 :=
    match str2 with
    | some t => transpose_subr_put s1 p1 t
    | none => s1
  let s4 := transpose_subr_put s2 p2 str1
  let s5 := undo_save s4 UndoType.UNDO_END_SEQUENCE s4.cur.pt 0 0
  let s6 := deactivate_mark (pop_mark s5)
  free_marker (free_marker (free_marker s6 p0) p1) p2

/-- The part of `transpose_subr` from `goto_point (p1->pt)` on, with the value of
`seq_started` on entry. -/
def transpose_subr_swap (fuel : Nat) (f : Motion) (s : State) (p0 p1 : MarkerPtr)
    (seq_started : Bool) : Option (State × Bool) :=
  (f.call fuel (goto_point s (get_marker_pt s p1)) 1).bind fun a =>
    (astr_append_region fuel a.1 []).bind fun r1 =>
      (F_delete_region fuel
        (if !seq_started then
          undo_save r1.1 UndoType.UNDO_START_SEQUENCE (get_marker_pt r1.1 p0) 0 0
         else r1.1)).bind fun d1 =>
        (transpose_subr_second fuel f d1.1).map fun q =>
          (transpose_subr_insert q.1 p0 p1 q.2.1 r1.2 q.2.2, true)

/-- The failure return `End of buffer` of `transpose_subr`. -/
def transpose_subr_fail_end (s : State) (p0 p1 : MarkerPtr) : State :=
  let s1 := pop_mark s
  let s2 := goto_point s1 (get_marker_pt s1 p1)
  free_marker (free_marker (minibuf_error s2 "End of buffer") p0) p1

/-- Source `transpose_subr (f)` (funcs.c): the state afterwards and the result. -/
def transpose_subr (fuel : Nat) (f : Motion) (s : State) : Option (State × Bool) :=
  (transpose_subr_adjust fuel f (point_marker s).1).bind fun s1 =>
    (f.call fuel s1 (-1)).bind fun b =>
      if !b.2 then
        some (free_marker (minibuf_error b.1 "Beginning of buffer") (point_marker s).2, false)
      else
        (f.call fuel (point_marker (set_mark (push_mark b.1))).1 2).bind fun e =>
          if !e.2 then
            if f = Motion.F_forward_line then
              transpose_subr_swap fuel f
                (transpose_subr_last_line e.1 (point_marker s).2) (point_marker s).2
                (point_marker (set_mark (push_mark b.1))).2 true
            else
              some (transpose_subr_fail_end e.1 (point_marker s).2
                (point_marker (set_mark (push_mark b.1))).2, false)
          else
            transpose_subr_swap fuel f e.1 (point_marker s).2
              (point_marker (set_mark (push_mark b.1))).2 false

/-- The body of the four transpose commands (funcs.c). -/
def transpose_command (fuel : Nat) (f : Motion) (name : String) (s : State) :
    Option (State × Bool) :=
  if (warn_if_readonly_buffer s).2 then some ((warn_if_readonly_buffer s).1, false)
  else if !s.lastflag.set_uniarg then transpose_subr fuel f s
  else some (minibuf_error s (name ++ " doesn\x27t support uniarg yet"), false)

/-- Source `transpose-chars` (funcs.c). -/
def F_transpose_chars (fuel : Nat) (s : State) : Option (State × Bool) :=
  transpose_command fuel Motion.F_forward_char "transpose-chars" s

/-- Source `transpose-words` (funcs.c). -/
def F_transpose_words (fuel : Nat) (s : State) : Option (State × Bool) :=
  transpose_command fuel Motion.F_forward_word "transpose-words" s

/-- Source `transpose-sexps` (funcs.c). -/
def F_transpose_sexps (fuel : Nat) (s : State) : Option (State × Bool) :=
  transpose_command fuel Motion.F_forward_sexp "transpose-sexps" s

/-- Source `transpose-lines` (funcs.c). -/
def F_transpose_lines (fuel : Nat) (s : State) : Option (State × Bool) :=
  transpose_command fuel Motion.F_forward_line "transpose-lines" s

/-- An example for the transposition: the current buffer 1 holds the one line `abcd`
(line 10 between the limit line 9), point is behind `b`, there is no mark. -/
def exLine : State :=
  { exState with
    lineAt := fun q => if q = 10 then ⟨9, 9, ['a', 'b', 'c', 'd']⟩ else ⟨10, 10, []⟩
    bufAt := fun q =>
      if q = 1 then
        { Buffer.zero with lines := 10, limitp := 9, pt := ⟨10, 0, 2⟩, mark := NULL,
                           markers := [], last_line := 0, name := some "a.txt".toList }
      else Buffer.zero }

/-- The state `t` differs from `s` by a movement of point at most: the lines, the markers,
the mark ring, the allocator and the undo flag are the same, and so are the buffers but for
the point and the goal column of the current one. (The message, the display flags and the
record of the last command are free.) -/
def MotionFrame (s t : State) : Prop :=
  t.lineAt = s.lineAt ∧ t.markerAt = s.markerAt ∧ t.cur_bp = s.cur_bp ∧
  t.mark_ring = s.mark_ring ∧ t.fresh_marker = s.fresh_marker ∧
  t.fresh_line = s.fresh_line ∧ t.undo_nosave = s.undo_nosave ∧ t.lastflag = s.lastflag ∧
  ∃ pt goalc, t.bufAt = (s.setBuf s.cur_bp { s.cur with pt := pt, goalc := goalc }).bufAt

/-- The record opens or closes an undo sequence. -/
def is_sequence_record (u : Undo) : Bool :=
  decide (u.type = UndoType.UNDO_START_SEQUENCE) || decide (u.type = UndoType.UNDO_END_SEQUENCE)

/-- The sequence records among the undo records `l`, in their order: their types. -/
def sequence_records (l : List Undo) : List UndoType :=
  (l.filter is_sequence_record).map fun u => u.type

/-- From `s` to `t` the current buffer is the same one, with the same undo switch, and
its undo log got new records at its end whose sequence records are `L`. -/
def UndoAdds (L : List UndoType) (s t : State) : Prop :=
  t.cur_bp = s.cur_bp ∧ t.cur.noundo = s.cur.noundo ∧
  ∃ ex, t.cur.undo = s.cur.undo ++ ex ∧ sequence_records ex = L

/-- From `s` to `t` no text was edited and nothing about undo changed: the same lines,
current buffer, undo switch, undo log and suppression flag, and the same first line and
limit line of the current buffer. -/
def Unedited (s t : State) : Prop :=
  t.lineAt = s.lineAt ∧ t.cur_bp = s.cur_bp ∧ t.cur.noundo = s.cur.noundo ∧
  t.cur.undo = s.cur.undo ∧ t.undo_nosave = s.undo_nosave ∧ t.cur.lines = s.cur.lines ∧
  t.cur.limitp = s.cur.limitp

/-- From `s` to `t` the undo log got no sequence record and the suppression flag is as it
was. -/
def UndoKeep (s t : State) : Prop :=
  UndoAdds [] s t ∧ t.undo_nosave = s.undo_nosave

/-- From `s` to `t` the undo log got no sequence record, and the suppression flag is off
again if it was off. -/
def UndoQuiet (s t : State) : Prop :=
  UndoAdds [] s t ∧ (s.undo_nosave = false → t.undo_nosave = false)

/-- The state after transpose-chars in the example `exLine` (`abcd`, point behind `b`). -/
def exLineSwapped : State :=
  ((transpose_subr 5 Motion.F_forward_char exLine).getD (exLine, false)).1

/-- What the mark commands see of the state `s`: its current buffer is `bp`, whose marker
chain is `M` and whose mark is `K`; the marker records are `A`, the mark ring is `R` and
the next marker address is `F`. -/
def View (s : State) (bp : BufPtr) (M : List MarkerPtr) (A : MarkerPtr → Marker)
    (K : MarkerPtr) (R : List MarkerPtr) (F : MarkerPtr) : Prop :=
  s.cur_bp = bp ∧ s.cur.markers = M ∧ s.markerAt = A ∧ s.cur.mark = K ∧ s.mark_ring = R ∧
  s.fresh_marker = F

/-- The marker record `k` without its owner, as `unchain_marker` leaves it. -/
def Marker.unchained (k : Marker) : Marker := { k with bp := NULL }

/-- From `s` to `t` the mark of the current buffer is where it was (or still unset), the
mark ring is the same, and every marker made in between is unchained again, the one that
now is the mark apart. -/
def MarksRestored (s t : State) : Prop :=
  t.cur_bp = s.cur_bp ∧
  (s.cur.mark = NULL → t.cur.mark = NULL) ∧
  (s.cur.mark ≠ NULL → t.cur.mark ≠ NULL ∧ (t.markerAt t.cur.mark).bp = t.cur_bp ∧
    (t.markerAt t.cur.mark).pt = (s.markerAt s.cur.mark).pt) ∧
  t.mark_ring = s.mark_ring ∧
  s.fresh_marker < t.fresh_marker ∧
  ∀ m, s.fresh_marker ≤ m → m < t.fresh_marker → m ≠ t.cur.mark →
    (t.markerAt m).bp = NULL ∧ m ∉ t.cur.markers

/-- The example `exLine` with the mark set at point. -/
def exLineMark : State := set_mark exLine

/-- The state after the failed transpose-words in `exLineMark`. -/
def exLineMarkFailed : State :=
  ((transpose_subr 10 Motion.F_forward_word exLineMark).getD (exLineMark, true)).1

/-- What the transposition of two characters needs to know of the state `s`, reached from
`s0`: the same current buffer with the same first and limit line, writable, point at `pt`,
the mark `K` with the activation flag `act`, and an allocator that hands out marker
addresses other than `NULL` and above the markers of the buffer. -/
def Focus (s0 s : State) (pt : Point) (K : MarkerPtr) (act : Bool) : Prop :=
  s.cur_bp = s0.cur_bp ∧ s.cur.lines = s0.cur.lines ∧ s.cur.limitp = s0.cur.limitp ∧
  s.cur.pt = pt ∧ s.cur.mark = K ∧ s.cur.mark_active = act ∧ s.cur.readonly = false ∧
  0 < s.fresh_marker ∧ ∀ m ∈ s.cur.markers, m < s.fresh_marker

/-- The marker `m` is on the chain of the current buffer and has the record `k`. -/
def Mk (s : State) (m : MarkerPtr) (k : Marker) : Prop :=
  m ∈ s.cur.markers ∧ s.markerAt m = k

/-- The lines of `s` are those of `s0`, but the line `p` has the text `txt`. -/
def Lines (s0 s : State) (p : LinePtr) (txt : List Char) : Prop :=
  ∀ q, s.lineAt q = if q = p then { s0.lineAt p with text := txt } else s0.lineAt q

/-- From `s` to `t` the current buffer is the same one and point has not moved. -/
def PointKept (s t : State) : Prop :=
  t.cur_bp = s.cur_bp ∧ t.cur.pt = s.cur.pt

/-! ## funcs.c: the column of an offset in `edit_tab_line` -/

/-- The loop of `edit_tab_line` (funcs.c) that gets the column of the offset,
`while (p < text + offset) { if (*p == TAB) col |= tab_width - 1; ++col, ++p; }`, over the
characters before the offset, from the column `col`. -/
def edit_tab_line_col_loop (tab_width : Nat) : List Char → Nat → Nat
  | [], col => col
  | c :: cs, col =>
    edit_tab_line_col_loop tab_width cs
      ((if c = '\t' then col ||| (tab_width - 1) else col) + 1)

/-- The column that `edit_tab_line` computes for the offset `offset` of the line `text`. -/
def edit_tab_line_col (tab_width : Nat) (text : List Char) (offset : Nat) : Nat :=
  edit_tab_line_col_loop tab_width (text.take offset) 0

/-- The tab-expanded column in the words of the specification: from the column `col`,
each tab advances the column to the next multiple of `w` and every other character
advances it by 1. -/
def tab_expanded_col_from (w : Nat) : List Char → Nat → Nat
  | [], col => col
  | c :: cs, col =>
    tab_expanded_col_from w cs (if c = '\t' then (col / w + 1) * w else col + 1)

/-- The tab-expanded column of the offset `offset` of the line `text`. -/
def tab_expanded_col (w : Nat) (text : List Char) (offset : Nat) : Nat :=
  tab_expanded_col_from w (text.take offset) 0

/-! ## funcs.c: the universal argument -/

/-- Modelled from the spec: the key code bit `KBD_CTL` (the header of the terminal layer
is not among the sources). -/
def KBD_CTL : Nat := 512

/-- Modelled from the spec: the key code bit `KBD_META`. -/
def KBD_META : Nat := 1024

/-- Modelled from the spec: the key code `KBD_CANCEL`, the key `C-g`. -/
def KBD_CANCEL : Nat := KBD_CTL ||| 'g'.toNat

/-- The key `C-u`, `KBD_CTL | 'u'`. -/
def KEY_CTL_U : Nat := KBD_CTL ||| 'u'.toNat

/-- The C function `isdigit` on a character code. -/
def isdigit (c : Nat) : Bool := decide ('0'.toNat ≤ c) && decide (c ≤ '9'.toNat)

/-- Modelled from the spec: `cur_tp->ungetkey (c)` puts a key back in front of the keys
to come. -/
def ungetkey (s : State) (c : Nat) : State := { s with keys := c :: s.keys }

/-- Modelled from the spec: `minibuf_clear` empties the echo area. -/
def minibuf_clear (s : State) : State := { s with minibuf := none }

/-- The value an `int` variable holds after a computation with the exact result `x`: `x`
wrapped to 32 bits in two's complement (the range `-2^31 .. 2^31 - 1`). -/
def int_wrap (x : Int) : Int := (x + 2147483648) % 4294967296 - 2147483648

/-- The loop `for (;;)` of `universal_argument` (funcs.c) over the keys to come, with the
`int` variables `i`, `arg` and `sgn`: every round reads one key with `do_completion`. The
arithmetic on `i` and `arg` (`i++`, `arg = arg * 10 + digit`, `arg *= 4`) wraps to 32 bits.
The result is `none` when the keys run out before the loop ends (the function waits for a
key); otherwise the keys left (the key given back with `ungetkey` among them) and `none` for
a cancelled argument or the final `arg` and `sgn`. The string `as` is only shown to the
user and is left out. -/
def universal_argument_loop : List Nat → Int → Int → Int → Option (List Nat × Option (Int × Int))
  | [], _, _, _ => none
  | c :: ks, i, arg, sgn =>
    if c = KBD_CANCEL then some (ks, none)
    else if isdigit (c &&& 0xff) then
      universal_argument_loop ks (int_wrap (i + 1))
        (if i = 0 then (((c &&& 0xff) - '0'.toNat : Nat) : Int)
         else int_wrap (arg * 10 + (((c &&& 0xff) - '0'.toNat : Nat) : Int))) sgn
    else if c = KEY_CTL_U then
      universal_argument_loop ks i (if i = 0 then int_wrap (arg * 4) else arg) sgn
    else if c = '-'.toNat then
      if i = 0 ∧ sgn > 0 then universal_argument_loop ks i 1 (-sgn)
      else if i = 0 then universal_argument_loop ks i arg sgn
      else some (c :: ks, some (arg, sgn))
    else some (c :: ks, some (arg, sgn))

/-- Source `universal_argument (keytype, xarg)` (funcs.c): the state afterwards and the
result; `none` when the keys run out. The product `arg * sgn` is an `int`. -/
def universal_argument (s : State) (keytype xarg : Nat) : Option (State × Bool) :=
  let s1 := if keytype = KBD_META then ungetkey s (xarg + '0'.toNat) else s
  (universal_argument_loop s1.keys 0 4 1).map fun r =>
    match r.2 with
    | none => cancel { s1 with keys := r.1 }
    | some a =>
      (minibuf_clear { s1 with keys := r.1, last_uniarg := int_wrap (a.1 * a.2),
                               thisflag := { s1.thisflag with set_uniarg := true } }, true)

/-- Source `universal-argument` (funcs.c). -/
def F_universal_argument (s : State) : Option (State × Bool) :=
  universal_argument s KEY_CTL_U 0

/-- The key of the decimal digit `d`. -/
def digit_key (d : Nat) : Nat := '0'.toNat + d

/-- The decimal value of a sequence of digits. -/
def decimal_value (ds : List Nat) : Int :=
  ds.foldl (fun (a : Int) (d : Nat) => a * 10 + (d : Int)) 0

/-- The key `k` is none of the keys `universal_argument` takes as part of the argument. -/
def other_key (k : Nat) : Prop :=
  k ≠ KBD_CANCEL ∧ isdigit (k &&& 0xff) = false ∧ k ≠ KEY_CTL_U ∧ k ≠ '-'.toNat

/-! ## Word characters in the text of a buffer -/

/-- The character at index `i` of the line text `l` is a word character (`ISWORDCHAR`);
there is none behind the end of the line. -/
def line_word (l : List Char) (i : Nat) : Bool :=
  match l[i]? with
  | some c => ISWORDCHAR c
  | none => false

/-- The character at offset `o` of line number `n` of the buffer with the lines `chain` is
a word character. -/
def word_at (s : State) (chain : List LinePtr) (n o : Nat) : Bool :=
  match chain[n]? with
  | some p => line_word (s.lineAt p).text o
  | none => false

/-- The place line `n`, offset `o` is at or after the position `pt` in buffer order. -/
def at_or_after (pt : Point) (n o : Nat) : Prop := pt.n < n ∨ (pt.n = n ∧ pt.o ≤ o)

/-! ## Balanced expressions in the text of a buffer -/

/-- The text of the buffer from point on. -/
def rest_text (s : State) (chain : List LinePtr) : List Char :=
  (buffer_text s chain).drop (point_offset s chain s.cur.pt)

/-- An open bracket: one of the characters `(`, `[` and the open brace. -/
def is_open_bracket (c : Char) : Bool :=
  decide (c = '(') || decide (c = '[') || decide (c = '{')

/-- A close bracket: one of the characters `)`, `]` and the close brace. -/
def is_close_bracket (c : Char) : Bool :=
  decide (c = ')') || decide (c = ']') || decide (c = '}')

/-- The close bracket that matches an open bracket. -/
def closing_bracket (c : Char) : Char :=
  if c = '(' then ')' else if c = '[' then ']' else '}'

/-- A double quote, a single quote or a backslash. -/
def is_quote_or_backslash (c : Char) : Bool :=
  decide (c = DQUOTE) || decide (c = SQUOTE) || decide (c = BACKSLASH)

/-- The end of a properly nested bracket expression without quotes and backslashes: the
text `cs` starts at index `i` inside the expression, `stack` holds the close brackets that
are still expected, the innermost first. The result is the index behind the close bracket
that matches the outermost open bracket; there is none if a bracket does not match, if a
quote or backslash comes first, or if the text ends before. -/
def sexp_end : List Char → Nat → List Char → Option Nat
  | [], _, _ => none
  | c :: cs, i, stack =>
    if is_quote_or_backslash c then none
    else if is_open_bracket c then sexp_end cs (i + 1) (closing_bracket c :: stack)
    else if is_close_bracket c then
      match stack with
      | [] => none
      | z :: st =>
        if c = z then (if st = [] then some (i + 1) else sexp_end cs (i + 1) st) else none
    else sexp_end cs (i + 1) stack

/-- The bracket level behind the character `c` read at the level `L`: an open bracket
raises it by one, a close bracket lowers it by one, whatever the kinds of the brackets. -/
def bracket_level (L : Nat) (c : Char) : Nat :=
  if is_open_bracket c then L + 1 else if is_close_bracket c then L - 1 else L

/-- The variables of `forward_sexp` inside an expression at the bracket level `L`, outside
quotes. -/
def sexp_vars (L : Nat) : SexpVars := ⟨true, (L : Int), false, false⟩

/-- The bracket count of `forward_sexp` on a text without quotes and backslashes, read
from the index `i` and the level `L` on: the index behind the first bracket that brings
the level to 0, or `none` inside when the text ends before; no result when a quote or a
backslash comes first. -/
def flat_end : List Char → Nat → Nat → Option (Option Nat)
  | [], _, _ => some none
  | c :: cs, i, L =>
    if is_quote_or_backslash c then none
    else if bracket_level L c = 0 then some (some (i + 1))
    else flat_end cs (i + 1) (bracket_level L c)

/-- An example buffer with brackets: the lines `x (a[b`, `c] d)y` and `)(z`, point on the
first line before the open parenthesis. -/
def exSexp : State :=
  { exState.setPt ⟨10, 0, 2⟩ with
    lineAt := fun q =>
      if q = 10 then ⟨9, 11, "x (a[b".toList⟩
      else if q = 11 then ⟨10, 12, "c] d)y".toList⟩
      else if q = 12 then ⟨11, 9, ")(z".toList⟩
      else ⟨12, 10, []⟩ }

/-! ## funcs.c: case conversion of words -/

/-- The constant `UPPERCASE`. -/
def UPPERCASE : Int := 1

/-- The constant `LOWERCASE`. -/
def LOWERCASE : Int := 2

/-- The constant `CAPITALIZE`. -/
def CAPITALIZE : Int := 3

/-- The first loop of `setcase_word`,
`while (i < size) { if (!ISWORDCHAR (text[i])) break; ++i; }`: the final `i`. -/
def setcase_word_end (text : List Char) : Nat → Nat → Nat
  | 0, i => i
  | k + 1, i =>
    if i < text.length then
      if !ISWORDCHAR (text.getD i NUL) then i else setcase_word_end text k (i + 1)
    else i

/-- The character `newc` that `setcase_word` computes for an alphabetic character. -/
def setcase_word_newc (rcase : Int) (gotword : Bool) (oldc : Char) : Char :=
  if rcase = UPPERCASE then oldc.toUpper
  else if rcase = LOWERCASE then oldc.toLower
  else if !gotword then oldc.toUpper else oldc.toLower

/-- The assignment `*p = c` for the character at offset `o` of the line `p`. -/
def set_line_char (s : State) (p : LinePtr) (o : Nat) (c : Char) : State :=
  s.setLine p { s.lineAt p with text := (s.lineAt p).text.set o c }

/-- The second loop of `setcase_word`, which converts the word at point and moves point
over it. -/
def setcase_word_loop (rcase : Int) : Nat → State → Bool → State
  | 0, s, _ => s
  | k + 1, s, gotword =>
    if s.cur.pt.o < line_len s s.cur.pt.p then
      if !ISWORDCHAR ((s.lineAt s.cur.pt.p).text.getD s.cur.pt.o NUL) then s
      else
        setcase_word_loop rcase k
          (set_offset
            (if ((s.lineAt s.cur.pt.p).text.getD s.cur.pt.o NUL).isAlpha = true ∧
                (s.lineAt s.cur.pt.p).text.getD s.cur.pt.o NUL ≠
                  setcase_word_newc rcase gotword ((s.lineAt s.cur.pt.p).text.getD s.cur.pt.o NUL)
              then set_line_char s s.cur.pt.p s.cur.pt.o
                (setcase_word_newc rcase gotword ((s.lineAt s.cur.pt.p).text.getD s.cur.pt.o NUL))
              else s)
            (s.cur.pt.o + 1)) true
    else s

/-- The statement `cur_bp->flags |= BFLAG_MODIFIED`. -/
def set_modified (s : State) : State := s.setBuf s.cur_bp { s.cur with modified := true }

/-- The part of `setcase_word` behind the two movements: the undo record, the conversion
and the flag. -/
def setcase_word_convert (s : State) (rcase : Int) : State :=
  let i := setcase_word_end (s.lineAt s.cur.pt.p).text (line_len s s.cur.pt.p - s.cur.pt.o)
    s.cur.pt.o
  let size := i - s.cur.pt.o
  let s2 := if size > 0 then
      undo_save s UndoType.UNDO_REPLACE_BLOCK s.cur.pt (size : Nat) (size : Nat) else s
  set_modified (setcase_word_loop rcase (line_len s2 s2.cur.pt.p - s2.cur.pt.o) s2 false)

/-- Source `setcase_word (rcase)` (funcs.c). -/
def setcase_word (fuel : Nat) (s : State) (rcase : Int) : Option (State × Bool) :=
  (forward_word fuel s).bind fun f =>
    if !f.2 then some (f.1, false)
    else (backward_word fuel f.1).bind fun b =>
      if !b.2 then some (b.1, false)
      else some (setcase_word_convert b.1 rcase, true)

/-- The character that replaces the character `c` at index `k` of a word: upper case for
`UPPERCASE`, lower case for `LOWERCASE`, and for `CAPITALIZE` upper case for the first
character of the word and lower case for the others; a character that is not alphabetic
stays. -/
def word_case (rcase : Int) (k : Nat) (c : Char) : Char :=
  if c.isAlpha then
    if rcase = UPPERCASE then c.toUpper
    else if rcase = LOWERCASE then c.toLower
    else if k = 0 then c.toUpper else c.toLower
  else c

/-- The character that the second loop of `setcase_word` leaves in the place of `c`. -/
def setcase_word_put (rcase : Int) (gotword : Bool) (c : Char) : Char :=
  if c.isAlpha then setcase_word_newc rcase gotword c else c

/-! ## funcs.c: quoted-insert -/

/-- Modelled from the spec: the key code `KBD_NOKEY` that the terminal returns when no key
came in time (the header of the terminal layer is not among the sources). -/
def KBD_NOKEY : Nat := 4294967295

/-- Modelled from the spec: `minibuf_write` (minibuf.c is not among the sources) shows a
message in the echo area; the state keeps the last message. -/
def minibuf_write (s : State) (msg : String) : State := { s with minibuf := some msg }

/-- Modelled from the spec: `cur_tp->xgetkey (mode, timeout)` delivers the next key of the
terminal, which may be `KBD_NOKEY`; no result when the terminal has no more keys. -/
def xgetkey (s : State) : Option (Nat × State) :=
  match s.keys with
  | [] => none
  | k :: ks => some (k, { s with keys := ks })

/-- The calls by which `quoted-insert` changes the buffer: `insert_char_in_insert_mode (c)`
and `insert_newline ()` (the first is not among the sources), with their arguments. -/
inductive InsertCall where
  | insert_char_in_insert_mode (c : Int)
  | insert_newline
deriving DecidableEq, Repr

/-- The loop `do { c = xgetkey (...); if (c == KBD_CANCEL) return FALSE; minibuf_write
(msg); } while (c == KBD_NOKEY);` of `quoted_insert_octal`: the state and the key, or
`none` for the key when the function returns `FALSE`. The loop reads one key in every
round, so it makes at most as many rounds as the terminal has keys. -/
def quoted_insert_octal_key (msg : String) : Nat → State → Option (State × Option Nat)
  | 0, _ => none
  | fuel + 1, s =>
    (xgetkey s).bind fun r =>
      if r.1 = KBD_CANCEL then some (r.2, none)
      else if r.1 = KBD_NOKEY then quoted_insert_octal_key msg fuel (minibuf_write r.2 msg)
      else some (minibuf_write r.2 msg, some r.1)

/-- Source `quoted_insert_octal (c1)` (funcs.c): the state, the calls that insert, and the
result. -/
def quoted_insert_octal (s : State) (c1 : Nat) : Option (State × List InsertCall × Bool) :=
  (quoted_insert_octal_key ("C-q " ++ toString ((c1 : Int) - '0'.toNat) ++ "-")
      (s.keys.length + 1) s).bind fun r2 =>
    match r2.2 with
    | none => some (r2.1, [], false)
    | some c2 =>
      if !isdigit c2 || decide ((c2 : Int) - '0'.toNat ≥ 8) then
        some (r2.1, [InsertCall.insert_char_in_insert_mode ((c1 : Int) - '0'.toNat),
          InsertCall.insert_char_in_insert_mode (c2 : Int)], true)
      else
        (quoted_insert_octal_key
            ("C-q " ++ toString ((c1 : Int) - '0'.toNat) ++ " " ++
              toString ((c2 : Int) - '0'.toNat) ++ "-")
            (r2.1.keys.length + 1) r2.1).bind fun r3 =>
          match r3.2 with
          | none => some (r3.1, [], false)
          | some c3 =>
            if !isdigit c3 || decide ((c3 : Int) - '0'.toNat ≥ 8) then
              some (r3.1, [InsertCall.insert_char_in_insert_mode
                  (((c1 : Int) - '0'.toNat) * 8 + ((c2 : Int) - '0'.toNat)),
                InsertCall.insert_char_in_insert_mode (c3 : Int)], true)
            else
              some (r3.1, [InsertCall.insert_char_in_insert_mode
                (((c1 : Int) - '8'.toNat) * 64 + ((c2 : Int) - '0'.toNat) * 8 +
                  ((c3 : Int) - '0'.toNat))], true)

/-- The loop `do { c = xgetkey (...); minibuf_write ("C-q-"); } while (c == KBD_NOKEY);`
of `quoted-insert`. -/
def quoted_insert_key : Nat → State → Option (State × Nat)
  | 0, _ => none
  | fuel + 1, s =>
    (xgetkey s).bind fun r =>
      if r.1 = KBD_NOKEY then quoted_insert_key fuel (minibuf_write r.2 "C-q-")
      else some (minibuf_write r.2 "C-q-", r.1)

/-- Source `quoted-insert` (funcs.c): the state, the calls that insert, and the result. -/
def F_quoted_insert (s : State) : Option (State × List InsertCall × Bool) :=
  (quoted_insert_key (s.keys.length + 1) s).bind fun r =>
    if isdigit r.2 && decide ((r.2 : Int) - '0'.toNat < 8) then
      (quoted_insert_octal r.1 r.2).map fun o => (minibuf_clear o.1, o.2.1, true)
    else if r.2 = '\r'.toNat then
      some (minibuf_clear r.1, [InsertCall.insert_newline], true)
    else
      some (minibuf_clear r.1, [InsertCall.insert_char_in_insert_mode (r.2 : Int)], true)

/-- A key that is not an octal digit, not `C-g` and not `KBD_NOKEY`. -/
def non_octal_key (k : Nat) : Prop :=
  (isdigit k = false ∨ '0'.toNat + 8 ≤ k) ∧ k ≠ KBD_CANCEL ∧ k ≠ KBD_NOKEY

/-! ## lisp.c: the reader -/

/-- The enumeration `tokenname`. -/
inductive tokenname where
  | t_eof
  | t_closeparen
  | t_openparen
  | t_newline
  | t_quote
  | t_word
deriving DecidableEq, Repr

/-- Source `read_char (as, pos)`: the character (`none` for `EOF`) and the position
afterwards. -/
def read_char (as : List Char) (pos : Nat) : Option Char × Nat :=
  if pos < as.length then (as[pos]?, pos + 1) else (none, pos)

/-- The loop `do c = read_char (as, pos); while (c != EOF && c != '\n');` of `read_token`,
which skips a comment. -/
def read_token_comment : Nat → List Char → Nat → Option (Option Char × Nat)
  | 0, _, _ => none
  | fuel + 1, as, pos =>
    if (read_char as pos).1 ≠ none ∧ (read_char as pos).1 ≠ some '\n' then
      read_token_comment fuel as (read_char as pos).2
    else some (read_char as pos)

/-- The loop of `read_token` that chews the space before the next token: the last
character read and the position. -/
def read_token_space : Nat → List Char → Nat → Option (Option Char × Nat)
  | 0, _, _ => none
  | fuel + 1, as, pos =>
    (if (read_char as pos).1 = some ';' then read_token_comment fuel as (read_char as pos).2
      else some (read_char as pos)).bind fun r =>
      if r.1 = some ' ' ∨ r.1 = some '\t' then read_token_space fuel as r.2 else some r

/-- The loop `for (;;)` of `read_token` that reads a word, from the character `c` on (the
character is put at the end of `tok` and taken off again when the word ends there): the
word and the position. -/
def read_token_word (doublequotes : Bool) : Nat → List Char → Nat → Option Char → List Char →
    Option (List Char × Nat)
  | 0, _, _, _, _ => none
  | fuel + 1, as, pos, c, tok =>
    match c with
    | none => some (tok, pos - 1)
    | some ch =>
      if !doublequotes then
        if ch = ')' ∨ ch = '(' ∨ ch = ';' ∨ ch = ' ' ∨ ch = '\n' ∨ ch = '\r' then
          some (tok, pos - 1)
        else read_token_word doublequotes fuel as (read_char as pos).2 (read_char as pos).1
          (tok ++ [ch])
      else
        if ch = '\n' ∨ ch = '\r' then some (tok, pos - 1)
        else if ch = DQUOTE then some (tok, pos)
        else read_token_word doublequotes fuel as (read_char as pos).2 (read_char as pos).1
          (tok ++ [ch])

/-- Source `read_token (tokenid, as, pos)` (lisp.c): the token kind, the token and the
position afterwards. -/
def read_token (fuel : Nat) (as : List Char) (pos : Nat) :
    Option (tokenname × List Char × Nat) :=
  (read_token_space fuel as pos).bind fun r =>
    match r.1 with
    | none => some (tokenname.t_eof, [], r.2)
    | some ch =>
      if ch = '(' then some (tokenname.t_openparen, [], r.2)
      else if ch = ')' then some (tokenname.t_closeparen, [], r.2)
      else if ch = SQUOTE then some (tokenname.t_quote, [], r.2)
      else if ch = '\n' then some (tokenname.t_newline, [], r.2)
      else if ch = DQUOTE then
        (read_token_word true fuel as (read_char as r.2).2 (read_char as r.2).1 []).map
          fun w => (tokenname.t_word, w.1, w.2)
      else
        (read_token_word false fuel as r.2 (some ch) []).map
          fun w => (tokenname.t_word, w.1, w.2)

/-- Modelled from the spec: the Lisp lists `le` (the list code is not among the sources),
as the elements added one by one: `leAddDataElement (list, data, quoted)` and
`leAddBranchElement (list, branch, quoted)`. -/
inductive Le where
  | NULL
  | leAddDataElement (list : Le) (data : List Char) (quoted : Bool)
  | leAddBranchElement (list : Le) (branch : Le) (quoted : Bool)
deriving DecidableEq, Repr

/-- Source `lisp_read (list, as, pos)` (lisp.c), with the variable `quoted` of its loop:
the list and the position afterwards. Every round of the loop and every nested call takes
one unit of fuel; `read_token` gets the fuel that its loops need at most. -/
def lisp_read : Nat → Le → Bool → List Char → Nat → Option (Le × Nat)
  | 0, _, _, _, _ => none
  | fuel + 1, list, quoted, as, pos =>
    (read_token (as.length + 2) as pos).bind fun r =>
      match r.1 with
      | tokenname.t_quote => lisp_read fuel list true as r.2.2
      | tokenname.t_openparen =>
        (lisp_read fuel Le.NULL false as r.2.2).bind fun sub =>
          lisp_read fuel (Le.leAddBranchElement list sub.1 quoted) false as sub.2
      | tokenname.t_newline => lisp_read fuel list false as r.2.2
      | tokenname.t_word => lisp_read fuel (Le.leAddDataElement list r.2.1 quoted) false as r.2.2
      | tokenname.t_closeparen => some (list, r.2.2)
      | tokenname.t_eof => some (list, r.2.2)

/-- Source `lisp_loadstring (as)`: the list that is handed to `leEval`. -/
def lisp_loadstring (fuel : Nat) (as : List Char) : Option Le :=
  (lisp_read fuel Le.NULL false as 0).map fun r => r.1

/-! ## Completion (completion.c) -/

/-- The C function `strcmp` on strings that end at their first NUL: zero when the strings
are equal, otherwise the difference of the first two bytes that differ. -/
def strcmp : CStr → CStr → Int
  | [], [] => 0
  | [], b :: _ => 0 - (b.toNat : Int)
  | a :: _, [] => (a.toNat : Int)
  | a :: as, b :: bs =>
    if a = b then (if a = NUL then 0 else strcmp as bs)
    else (a.toNat : Int) - (b.toNat : Int)

/-- The C function `strncmp`: `strcmp` on at most `n` bytes. -/
def strncmp : CStr → CStr → Nat → Int
  | _, _, 0 => 0
  | [], [], _ + 1 => 0
  | [], b :: _, _ + 1 => 0 - (b.toNat : Int)
  | a :: _, [], _ + 1 => (a.toNat : Int)
  | a :: as, b :: bs, n + 1 =>
    if a = b then (if a = NUL then 0 else strncmp as bs n)
    else (a.toNat : Int) - (b.toNat : Int)

/-- The C function `strlen`: the number of bytes before the first NUL. -/
def strlen : CStr → Nat
  | [] => 0
  | c :: cs => if c = NUL then 0 else strlen cs + 1

/-- The byte `s[j]` of a C string: a byte of the string, the terminating NUL right behind
it, and nothing (`none`, a read outside the string) further on. -/
def c_at : CStr → Nat → Option Char
  | [], 0 => some NUL
  | [], _ + 1 => none
  | c :: _, 0 => some c
  | c :: cs, j + 1 => if c = NUL then none else c_at cs j

/-- Modelled from the spec: `gl_sortedlist_add` (the list library is not among the
sources) on a linked list puts the element before the first element that does not compare
below it, or at the end. -/
def gl_sortedlist_add : List CStr → CStr → List CStr
  | [], x => [x]
  | y :: ys, x => if 0 ≤ strcmp y x then x :: y :: ys else y :: gl_sortedlist_add ys x

/-- Modelled from the spec: the flag `CFLAG_FILENAME` (main.h is not among the sources). -/
def CFLAG_FILENAME : Nat := 4

/-- The fields of a completion (completion.h is not among the sources; the fields are the
ones completion.c reads and writes); `match_` and `matches_` are the fields `match` and
`matches`. -/
structure Completion where
  completions : List CStr
  matches_ : List CStr
  match_ : Option CStr
  matchsize : Nat
  partmatches : Nat
  flags : Nat
  path : CStr
deriving DecidableEq, Repr

/-- Modelled from the spec: the return values of `completion_try` (main.h is not among the
sources). -/
inductive CompletionCode where
  | COMPLETION_NOTMATCHED
  | COMPLETION_MATCHED
  | COMPLETION_MATCHEDNONUNIQUE
  | COMPLETION_NONUNIQUE
deriving DecidableEq, Repr

/-- Modelled from the spec: what `completion_readdir` asks of functions that are not among
the sources: `expand_path` (`none` when it fails), `dir_name`, `base_name`, `compact_path`,
and the names in a directory with whether each is a directory, as read by `opendir`,
`readdir` and `stat` (`none` when the directory cannot be opened). -/
structure FileSystem where
  expand_path : CStr → Option CStr
  dir_name : CStr → CStr
  base_name : CStr → CStr
  compact_path : CStr → CStr
  opendir : CStr → Option (List (CStr × Bool))

/-- The directory part `pdir` and the `base` of a path in `completion_readdir`: a path
that ends in `/` is all directory. -/
def completion_readdir_split (fs : FileSystem) (as : CStr) : CStr × CStr :=
  if as.getLast? ≠ some '/' then
    let bs := fs.dir_name as
    (if bs.getLast? ≠ some '/' then bs ++ ['/'] else bs, fs.base_name as)
  else (as, [])

/-- The function `completion_readdir`: rereads the directory for completions; the
completion, the string `as`, which it cuts down to the base name, and its return value. -/
def completion_readdir (fs : FileSystem) (cp : Completion) (as : CStr) :
    Completion × CStr × Bool :=
  let cp1 := { cp with completions := [] }
  match fs.expand_path as with
  | none => (cp1, as, false)
  | some as1 =>
    let pb := completion_readdir_split fs as1
    match fs.opendir pb.1 with
    | none => (cp1, pb.2, false)
    | some ds =>
      ({ cp1 with
          completions :=
            ds.foldl (fun l d => gl_sortedlist_add l (if d.2 then d.1 ++ ['/'] else d.1)) []
          path := fs.compact_path pb.1 }, pb.2, true)

/-- One turn of the first loop of `completion_try`, on the completion `s`; the state is
`partmatches`, `matches` and `fullmatches`. -/
def completion_try_scan (search : CStr) (ssize : Nat) (acc : Nat × List CStr × Nat)
    (s : CStr) : Nat × List CStr × Nat :=
  if strncmp s search ssize = 0 then
    (acc.1 + 1, gl_sortedlist_add acc.2.1 s,
      if strcmp s search = 0 then acc.2.2 + 1 else acc.2.2)
  else acc

/-- The inner loop of the last loop of `completion_try`, `for (i = 1; i < partmatches;
++i)` from `i` on with `k` turns left: whether a match differs from `c` in column `j`.
`gl_list_get_at` outside the list aborts. -/
def completion_try_column (ms : List CStr) (j : Nat) (c : Char) : Nat → Nat → Except Fault Bool
  | _, 0 => .ok false
  | i, k + 1 =>
    match ms[i]? with
    | none => .error Fault.assertion
    | some s =>
      match c_at s j with
      | none => .error Fault.overrun
      | some d => if d ≠ c then .ok true else completion_try_column ms j c (i + 1) k

/-- The last loop of `completion_try`, `for (j = ssize;; ++j)`, from column `j` on: the
first column in which the matches differ. -/
def completion_try_common (ms : List CStr) (partmatches : Nat) : Nat → Nat → Except Fault Nat
  | 0, _ => .error Fault.fuel
  | fuel + 1, j =>
    match ms[0]? with
    | none => .error Fault.assertion
    | some s =>
      match c_at s j with
      | none => .error Fault.overrun
      | some c =>
        match completion_try_column ms j c 1 (partmatches - 1) with
        | .error e => .error e
        | .ok true => .ok j
        | .ok false => completion_try_common ms partmatches fuel (j + 1)

/-- The assignments `set_completion_match (cp, gl_list_get_at (matches, 0))` and
`set_completion_matchsize` with the returned code. -/
def completion_try_set (cp : Completion) (size : CStr → Nat) (code : CompletionCode) :
    Completion × Except Fault CompletionCode :=
  match cp.matches_[0]? with
  | none => (cp, .error Fault.assertion)
  | some m => ({ cp with match_ := some m, matchsize := size m }, .ok code)

/-- The function `completion_try` from `ssize = astr_len (search)` on. -/
def completion_try_match (fuel : Nat) (cp : Completion) (search : CStr) :
    Completion × Except Fault CompletionCode :=
  let ssize := search.length
  let r := cp.completions.foldl (completion_try_scan search ssize)
    (cp.partmatches, cp.matches_, 0)
  let cp1 := { cp with partmatches := r.1, matches_ := r.2.1 }
  if cp1.partmatches = 0 then (cp1, .ok CompletionCode.COMPLETION_NOTMATCHED)
  else if cp1.partmatches = 1 then
    completion_try_set cp1 strlen CompletionCode.COMPLETION_MATCHED
  else if r.2.2 = 1 ∧ 1 < cp1.partmatches then
    completion_try_set cp1 strlen CompletionCode.COMPLETION_MATCHEDNONUNIQUE
  else
    match completion_try_common cp1.matches_ cp1.partmatches fuel ssize with
    | .error e => (cp1, .error e)
    | .ok j => completion_try_set cp1 (fun _ => j) CompletionCode.COMPLETION_NONUNIQUE

/-- The function `completion_try`: matches the completions against `search`; the
completion, the search string (a file name completion cuts it down) and the code. -/
def completion_try (fs : FileSystem) (fuel : Nat) (cp : Completion) (search : CStr) :
    Completion × CStr × Except Fault CompletionCode :=
  let cp0 := { cp with partmatches := 0, matches_ := [] }
  if cp0.flags &&& CFLAG_FILENAME ≠ 0 then
    let r := completion_readdir fs cp0 search
    if r.2.2 = false then (r.1, r.2.1, .ok CompletionCode.COMPLETION_NOTMATCHED)
    else
      let t := completion_try_match fuel r.1 r.2.1
      (t.1, r.2.1, t.2)
  else
    let t := completion_try_match fuel cp0 search
    (t.1, search, t.2)

/-- Modelled from the spec: `completion_new (false)` of completion.c with the completions
`l` added by `gl_sortedlist_add`, as `make_buffer_completion` does with the buffer
names. -/
def make_completion (l : List CStr) : Completion :=
  { completions := l.foldl gl_sortedlist_add [], matches_ := [], match_ := none,
    matchsize := 0, partmatches := 0, flags := 0, path := [] }

/-- A file system without directories. -/
def noFiles : FileSystem :=
  { expand_path := fun _ => none, dir_name := id, base_name := id, compact_path := id,
    opendir := fun _ => none }
/-- The completions `ab`, `ac` and `b`. -/
def exCompletion : Completion := make_completion [['a', 'c'], ['b'], ['a', 'b']]

/-! ## funcs.c: case conversion of the region -/

/-- The loop `while (size--)` of `setcase_region`, with the pointer `p` as the offset `o`
in the line `lp`: a character of the line is converted, and at the end of the line the loop
goes on to the next line. -/
def setcase_region_loop (rcase : Int) : Nat → State → LinePtr → Nat → State
  | 0, s, _, _ => s
  | size + 1, s, lp, o =>
    if o < line_len s lp then
      setcase_region_loop rcase size
        (set_line_char s lp o
          (if rcase = UPPERCASE then ((s.lineAt lp).text.getD o NUL).toUpper
           else ((s.lineAt lp).text.getD o NUL).toLower)) lp (o + 1)
    else setcase_region_loop rcase size s (get_line_next s lp) 0

/-- Source `setcase_region (rcase)` (funcs.c). No result (`none`) when the fuel does not
cover `calculate_region`, or when the size of the region is negative, with which the loop
`while (size--)` does not end. -/
def setcase_region (fuel : Nat) (s : State) (rcase : Int) : Option (State × Bool) :=
  let w := warn_if_readonly_buffer s
  if w.2 then some (w.1, false)
  else
    let m := warn_if_no_mark w.1
    if m.2 then some (m.1, false)
    else
      (calculate_region fuel m.1 region_new).bind fun c =>
        if c.2.2.size < 0 then none
        else
          some (set_modified
            (setcase_region_loop rcase c.2.2.size.toNat
              (undo_save c.1 UndoType.UNDO_REPLACE_BLOCK c.2.2.start c.2.2.size c.2.2.size)
              c.2.2.start.p c.2.2.start.o), true)

/-- The command `upcase-region`. -/
def F_upcase_region (fuel : Nat) (s : State) : Option (State × Bool) :=
  setcase_region fuel s UPPERCASE

/-- The command `downcase-region`. -/
def F_downcase_region (fuel : Nat) (s : State) : Option (State × Bool) :=
  setcase_region fuel s LOWERCASE

/-- The character that `setcase_region` puts in the place of `c`. -/
def setcase_region_put (rcase : Int) (c : Char) : Char :=
  if rcase = UPPERCASE then c.toUpper else c.toLower

/-! ## funcs.c: the case commands for words -/

/-- The loop `for (uni = 0; uni < uniarg; ++uni) if (!setcase_word (rcase)) ...` of the
case commands for words: the state and `ret`. -/
def setcase_word_times (rcase : Int) (fuel : Nat) : Nat → State → Option (State × Bool)
  | 0, s => some (s, true)
  | k + 1, s =>
    (setcase_word fuel s rcase).bind fun r =>
      if !r.2 then some (r.1, false) else setcase_word_times rcase fuel k r.1

/-- The body that `downcase-word`, `upcase-word` and `capitalize-word` share: the loop
between the two sequence records. -/
def setcase_word_command (rcase : Int) (fuel : Nat) (s : State) (uniarg : Int) :
    Option (State × Bool) :=
  (setcase_word_times rcase fuel uniarg.toNat
    (undo_save s UndoType.UNDO_START_SEQUENCE s.cur.pt 0 0)).map fun r =>
      (undo_save r.1 UndoType.UNDO_END_SEQUENCE r.1.cur.pt 0 0, r.2)

/-- Source `downcase-word` (funcs.c). -/
def F_downcase_word (fuel : Nat) (s : State) (uniarg : Int) : Option (State × Bool) :=
  setcase_word_command LOWERCASE fuel s uniarg

/-- Source `upcase-word` (funcs.c). -/
def F_upcase_word (fuel : Nat) (s : State) (uniarg : Int) : Option (State × Bool) :=
  setcase_word_command UPPERCASE fuel s uniarg

/-- Source `capitalize-word` (funcs.c). -/
def F_capitalize_word (fuel : Nat) (s : State) (uniarg : Int) : Option (State × Bool) :=
  setcase_word_command CAPITALIZE fuel s uniarg

/-! ## funcs.c: tabify and untabify -/

/-- The constant `TAB_UNTABIFY`. -/
def TAB_UNTABIFY : Int := 2

/-- Modelled from the spec: `untabify_string (dest, src, scol, tw)` (not among the sources)
gives the string with every tab replaced by the spaces up to the next tab stop; `col` is
the column of the first character. -/
def untabify_string (tw : Nat) : List Char → Nat → List Char
  | [], _ => []
  | c :: cs, col =>
    if c = '\t' then
      List.replicate (tw - col % tw) ' ' ++ untabify_string tw cs (col + (tw - col % tw))
    else c :: untabify_string tw cs (col + 1)

/-- Modelled from the spec: the tabs and spaces with which tabify fills the columns from
`ocol` to `dcol`: tabs as long as the next tab stop is not behind `dcol`, then spaces; a
single column is filled with a space, since the command converts `multiple spaces` (the
docstring of `tabify` in funcs.c). -/
def tabify_fill (tw : Nat) : Nat → Nat → Nat → List Char
  | 0, _, _ => []
  | fuel + 1, ocol, dcol =>
    if dcol ≤ ocol then []
    else if ocol + (tw - ocol % tw) ≤ dcol ∧ ocol + 1 ≠ dcol then
      '\t' :: tabify_fill tw fuel (ocol + (tw - ocol % tw)) dcol
    else ' ' :: tabify_fill tw fuel (ocol + 1) dcol

/-- Modelled from the spec: `tabify_string (dest, src, scol, tw)` (not among the sources)
gives the string with every group of spaces and tabs replaced by tabs and spaces that end
at the same column, with as many tabs as fit; `ocol` is the column the output has reached
and `dcol` the column the input has reached, both `scol` at the start. -/
def tabify_string (tw : Nat) : List Char → Nat → Nat → List Char
  | [], ocol, dcol => tabify_fill tw (dcol - ocol) ocol dcol
  | c :: cs, ocol, dcol =>
    if c = ' ' then tabify_string tw cs ocol (dcol + 1)
    else if c = '\t' then tabify_string tw cs ocol (dcol + (tw - dcol % tw))
    else tabify_fill tw (dcol - ocol) ocol dcol ++ c :: tabify_string tw cs (dcol + 1) (dcol + 1)

/-- Modelled from the spec: `make_point (lineno, offset)` (not among the sources) is the
position on the line `lineno` lines behind the first line of the current buffer. -/
def make_point (s : State) (lineno offset : Nat) : Point :=
  ⟨(fun q => (s.lineAt q).next)^[lineno] (s.lineAt s.cur.limitp).next, lineno, offset⟩

/-- Where a marker goes when `oldlen` characters at `offset` of the line `lp` are replaced
by `newlen` characters: a marker behind the replaced text moves with the text behind it,
and a marker in the replaced text stays inside the new text. -/
def line_replace_text_shift (lp : LinePtr) (offset oldlen newlen : Nat) (k : Marker) : Point :=
  if k.pt.p = lp then
    if offset + oldlen ≤ k.pt.o then { k.pt with o := k.pt.o + newlen - oldlen }
    else if offset + newlen < k.pt.o then { k.pt with o := offset + newlen }
    else k.pt
  else k.pt

/-- Modelled from the spec: `line_replace_text (lp, offset, oldlen, newtext, FALSE)`
(line.c is not among the sources) replaces the `oldlen` characters at `offset` of the line
by the new text, moves the markers of the buffer on the line and flags the buffer as
modified. The line keeps its address. -/
def line_replace_text (s : State) (lp : LinePtr) (offset oldlen : Nat) (newtext : List Char) :
    State :=
  set_modified
    (relocate_markers
      (s.setLine lp { s.lineAt lp with
        text := (s.lineAt lp).text.take offset ++ newtext
          ++ (s.lineAt lp).text.drop (offset + oldlen) })
      (line_replace_text_shift lp offset oldlen newtext.length))

/-- The string `src` of `edit_tab_line`: the `size` characters at `offset`, as the C string
that `strncpy` leaves (it ends at a NUL). -/
def edit_tab_line_src (text : List Char) (offset size : Nat) : List Char :=
  ((text.drop offset).take size).takeWhile fun c => c ≠ NUL

/-- The string `dest` of `edit_tab_line`; `cur_bp->tab_width` is the tab width of the
current buffer. -/
def edit_tab_line_dest (s : State) (lp : LinePtr) (offset size : Nat) (action : Int) :
    List Char :=
  if action = TAB_UNTABIFY then
    untabify_string (tab_width s s.cur_bp)
      (edit_tab_line_src (s.lineAt lp).text offset size)
      (edit_tab_line_col (tab_width s s.cur_bp) (s.lineAt lp).text offset)
  else
    tabify_string (tab_width s s.cur_bp)
      (edit_tab_line_src (s.lineAt lp).text offset size)
      (edit_tab_line_col (tab_width s s.cur_bp) (s.lineAt lp).text offset)
      (edit_tab_line_col (tab_width s s.cur_bp) (s.lineAt lp).text offset)

/-- Source `edit_tab_line (lp, lineno, offset, size, action)` (funcs.c). -/
def edit_tab_line (s : State) (lp : LinePtr) (lineno offset : Nat) (size action : Int) :
    Except Fault State :=
  if size = 0 then .ok s
  else if size < 1 then .error Fault.assertion
  else if edit_tab_line_src (s.lineAt lp).text offset size.toNat
      ≠ edit_tab_line_dest s lp offset size.toNat action then
    .ok (line_replace_text
      (undo_save s UndoType.UNDO_REPLACE_BLOCK (make_point s lineno offset) size
        ((edit_tab_line_dest s lp offset size.toNat action).length : Int))
      lp offset size.toNat (edit_tab_line_dest s lp offset size.toNat action))
  else .ok s

/-- The call of `edit_tab_line` that the loop of `edit_tab_region` makes for the line
`lp` with the number `lineno`. -/
def edit_tab_region_line (action : Int) (r : Region) (s : State) (lp : LinePtr)
    (lineno : Nat) : Except Fault State :=
  if lineno = r.start.n then
    if lineno = r.end_.n then edit_tab_line s lp lineno r.start.o r.size action
    else edit_tab_line s lp lineno r.start.o ((line_len s lp : Int) - (r.start.o : Int)) action
  else if lineno = r.end_.n then edit_tab_line s lp lineno 0 (r.end_.o : Int) action
  else edit_tab_line s lp lineno 0 (line_len s lp : Int) action

/-- The loop `for (lp = r.start.p, lineno = r.start.n; ; lp = lp->next, ++lineno)` of
`edit_tab_region`. -/
def edit_tab_region_loop (action : Int) (r : Region) :
    Nat → State → LinePtr → Nat → Except Fault State
  | 0, _, _, _ => .error Fault.fuel
  | fuel + 1, s, lp, lineno =>
    match edit_tab_region_line action r s lp lineno with
    | .error f => .error f
    | .ok s1 =>
      if lineno = r.end_.n then .ok s1
      else edit_tab_region_loop action r fuel s1 (get_line_next s1 lp) (lineno + 1)

/-- The end of `edit_tab_region`: point goes to the marker, the sequence is closed, the
marker is freed and the mark deactivated. -/
def edit_tab_region_close (s : State) (marker : MarkerPtr) : State :=
  deactivate_mark
    (free_marker
      (undo_save (s.setPt (get_marker_pt s marker)) UndoType.UNDO_END_SEQUENCE
        (get_marker_pt s marker) 0 0) marker)

/-- Source `edit_tab_region (action)` (funcs.c). -/
def edit_tab_region (fuel : Nat) (s : State) (action : Int) : Except Fault (State × Bool) :=
  if (warn_if_readonly_buffer s).2 then .ok ((warn_if_readonly_buffer s).1, false)
  else if (warn_if_no_mark (warn_if_readonly_buffer s).1).2 then
    .ok ((warn_if_no_mark (warn_if_readonly_buffer s).1).1, false)
  else
    match calculate_region fuel (warn_if_no_mark (warn_if_readonly_buffer s).1).1 region_new with
    | none => .error Fault.fuel
    | some c =>
      if c.2.2.size = 0 then .ok (c.1, true)
      else
        match edit_tab_region_loop action c.2.2 fuel
            (undo_save (point_marker c.1).1 UndoType.UNDO_START_SEQUENCE
              (get_marker_pt (point_marker c.1).1 (point_marker c.1).2) 0 0)
            c.2.2.start.p c.2.2.start.n with
        | .error f => .error f
        | .ok s2 => .ok (edit_tab_region_close s2 (point_marker c.1).2, true)

/-- From `s` to `t` the current buffer is the same one, with the same undo switches, and
its undo log got new records at its end that are all of the type `ty`, and none when the
buffer keeps no undo log. -/
def UndoOnly (ty : UndoType) (s t : State) : Prop :=
  t.cur_bp = s.cur_bp ∧ t.cur.noundo = s.cur.noundo ∧ t.undo_nosave = s.undo_nosave ∧
  ∃ ex, t.cur.undo = s.cur.undo ++ ex ∧ (∀ u ∈ ex, u.type = ty) ∧
    (s.cur.noundo = true → ex = [])

/-- The undo log of `t` is the one of `s` with a closed sequence at its end: one
`UNDO_START_SEQUENCE`, then records that are all `UNDO_REPLACE_BLOCK`, then one
`UNDO_END_SEQUENCE`; with the undo log switched off nothing is added. -/
def UndoBracket (s t : State) : Prop :=
  t.cur_bp = s.cur_bp ∧
  ∃ (mid : List Undo) (p1 p2 : Point),
    (∀ u ∈ mid, u.type = UndoType.UNDO_REPLACE_BLOCK) ∧
    t.cur.undo = s.cur.undo ++
      (if s.cur.noundo then []
       else ⟨UndoType.UNDO_START_SEQUENCE, p1, 0, 0⟩ :: mid
         ++ [⟨UndoType.UNDO_END_SEQUENCE, p2, 0, 0⟩])

/-- The variables of `forward_sexp` inside an expression at the bracket level `L`, with the
quote flags `dq` and `sq`. -/
def sexp_state (L : Nat) (dq sq : Bool) : SexpVars := ⟨true, (L : Int), dq, sq⟩

/-- The bracket count of `forward_sexp` across one character `c`, from the level `L` and
the quote flags `dq` (a double quote is open) and `sq` (a single quote is open): an open
bracket raises the level by one and a close bracket lowers it by one, whatever the kinds of
the brackets; a quote raises the level and sets its flag when its flag is clear, and lowers
the level and clears its flag when its flag is set. -/
def sexp_count (L : Nat) (dq sq : Bool) (c : Char) : Nat × Bool × Bool :=
  if is_open_bracket c then (L + 1, dq, sq)
  else if is_close_bracket c then (L - 1, dq, sq)
  else if c = DQUOTE then (if dq then L - 1 else L + 1, !dq, sq)
  else if c = SQUOTE then (if sq then L - 1 else L + 1, dq, !sq)
  else (L, dq, sq)

/-- The bracket count of `forward_sexp` over the text `cs`, from the level `L` and the quote
flags `dq` and `sq`, stays at 1 or above up to the end of the text: the expression that is
open before `cs` is not closed in it. A backslash right before a quote takes the quote out
of the count (`skip` says that the character at the head is such a quote). -/
def stays_open : List Char → Bool → Nat → Bool → Bool → Bool
  | [], _, _, _, _ => true
  | c :: cs, skip, L, dq, sq =>
    if skip then stays_open cs false L dq sq
    else if c = BACKSLASH ∧ (cs.head? = some DQUOTE ∨ cs.head? = some SQUOTE) then
      stays_open cs true L dq sq
    else
      decide (1 ≤ (sexp_count L dq sq c).1) &&
        stays_open cs false (sexp_count L dq sq c).1 (sexp_count L dq sq c).2.1
          (sexp_count L dq sq c).2.2
/-- An example buffer with brackets of two kinds and a quote: the lines `(]`, the empty
line, and an open parenthesis, a double quote and `z`; point on the first line before the
open parenthesis. -/
def exSexpMixed : State :=
  { exState.setPt ⟨10, 0, 0⟩ with
    lineAt := fun q =>
      if q = 10 then ⟨9, 11, ['(', ']']⟩
      else if q = 11 then ⟨10, 12, []⟩
      else if q = 12 then ⟨11, 9, ['(', DQUOTE, 'z']⟩
      else ⟨12, 10, []⟩ }

theorem lineChain_tail {s : State} {a : LinePtr} {l : List LinePtr}
    (h : LineChain s (a :: l)) : LineChain s l := by
  cases l with
  | nil => trivial
  | cons b rest => exact h.2.2

theorem lineChain_links {s : State} : ∀ {chain : List LinePtr} {i : Nat} {a b : LinePtr},
    LineChain s chain → chain[i]? = some a → chain[i + 1]? = some b →
    (s.lineAt a).next = b ∧ (s.lineAt b).prev = a := by
  intro chain
  induction chain with
  | nil => intro i a b _ h; simp at h
  | cons x l ih =>
    intro i a b hc ha hb
    cases i with
    | zero =>
      cases l with
      | nil => simp at hb
      | cons y rest =>
        simp at ha hb
        subst ha; subst hb
        exact ⟨hc.1, hc.2.1⟩
    | succ j =>
      simp at ha hb
      exact ih (lineChain_tail hc) ha hb

theorem linePath_of_chain {s : State} {chain : List LinePtr} (hc : LineChain s chain) :
    ∀ (d i j : Nat) (a b : LinePtr), j = i + d → chain[i]? = some a → chain[j]? = some b →
      ∃ path, LinePath s a path b ∧ path.length ≤ d := by
  intro d
  induction d with
  | zero =>
    intro i j a b hj ha hb
    subst hj
    rw [ha] at hb
    exact ⟨[], Option.some.inj hb, Nat.le_refl _⟩
  | succ d ih =>
    intro i j a b hj ha hb
    by_cases hab : a = b
    · exact ⟨[], hab, Nat.zero_le _⟩
    · have hlt : i + 1 < chain.length := by
        have := (List.getElem?_eq_some_iff.mp hb).1
        omega
      have hn : chain[i + 1]? = some (chain[i + 1]) := List.getElem?_eq_getElem hlt
      obtain ⟨path, hp, hl⟩ := ih (i + 1) j (chain[i + 1]) b (by omega) hn hb
      have hnext := (lineChain_links hc ha hn).1
      refine ⟨a :: path, ⟨rfl, hab, ?_⟩, by simpa using hl⟩
      simpa [get_line_next, hnext] using hp

theorem region_size_loop_path (s : State) (stop : LinePtr) :
    ∀ (path : List LinePtr) (fuel : Nat) (lp : LinePtr) (size : Int),
      LinePath s lp path stop → path.length < fuel →
      region_size_loop s stop fuel lp size = some (size + chars_of_lines s path) := by
  intro path
  induction path with
  | nil =>
    intro fuel lp size hp hf
    cases fuel with
    | zero => simp at hf
    | succ f => simp [region_size_loop, LinePath] at *; simp [hp, chars_of_lines]
  | cons x t ih =>
    intro fuel lp size hp hf
    obtain ⟨hx, hne, hrest⟩ := hp
    cases fuel with
    | zero => simp at hf
    | succ f =>
      have hf2 : t.length < f := by simpa using hf
      simp only [region_size_loop, if_neg hne]
      rw [ih f _ _ hrest hf2]
      subst hx
      simp [chars_of_lines]
      ring


theorem cmp_point_neg_iff (a b : Point) : cmp_point a b < 0 ↔ a.pos < b.pos := by
  rw [Point.pos, Point.pos, Prod.Lex.lt_iff]
  unfold cmp_point
  constructor
  · intro h
    split_ifs at h <;> omega
  · intro h
    split_ifs <;> omega

theorem warn_if_no_mark_state (s : State) (h : (warn_if_no_mark s).2 = false) :
    (warn_if_no_mark s).1 = s := by
  unfold warn_if_no_mark at *
  split_ifs at * with h1 h2
  rfl

theorem calculate_the_region_eq (s : State) (rp : Region) (fuel : Nat) (path : List LinePtr)
    (hmark : (warn_if_no_mark s).2 = false)
    (hp : LinePath s (earlier s.cur.pt (get_marker_pt s s.cur.mark)).p path
      (later s.cur.pt (get_marker_pt s s.cur.mark)).p)
    (hf : path.length < fuel) :
    calculate_the_region fuel s rp = some (s, true,
      { start := earlier s.cur.pt (get_marker_pt s s.cur.mark),
        end_ := later s.cur.pt (get_marker_pt s s.cur.mark),
        size := -((earlier s.cur.pt (get_marker_pt s s.cur.mark)).o : Int)
          + ((later s.cur.pt (get_marker_pt s s.cur.mark)).o : Int) + chars_of_lines s path }) := by
  have hs := warn_if_no_mark_state s hmark
  unfold calculate_the_region
  simp only [hmark, hs, Bool.false_eq_true, if_false]
  by_cases hcmp : cmp_point s.cur.pt (get_marker_pt s s.cur.mark) < 0
  · simp only [earlier, later, hcmp, if_true] at hp ⊢
    rw [region_size_loop_path s _ path fuel _ _ hp hf]
  · simp only [earlier, later, hcmp, if_false] at hp ⊢
    rw [region_size_loop_path s _ path fuel _ _ hp hf]


theorem earlier_later_path {s : State} {chain : List LinePtr} {pt mk : Point}
    (hc : LineChain s chain) (hpt : OnChain chain pt) (hmk : OnChain chain mk) :
    ∃ path, LinePath s (earlier pt mk).p path (later pt mk).p ∧ path.length < chain.length := by
  have hlen : ∀ q : Point, OnChain chain q → q.n < chain.length := fun q hq =>
    (List.getElem?_eq_some_iff.mp hq).1
  have h1 := hlen pt hpt
  have h2 := hlen mk hmk
  by_cases hcmp : cmp_point pt mk < 0
  · have hle : pt.n ≤ mk.n := by
      have := (cmp_point_neg_iff pt mk).mp hcmp
      rw [Point.pos, Point.pos, Prod.Lex.lt_iff] at this
      simp only at this
      omega
    obtain ⟨path, hp, hl⟩ := linePath_of_chain hc (mk.n - pt.n) pt.n mk.n pt.p mk.p
      (by omega) hpt hmk
    refine ⟨path, ?_, by omega⟩
    simpa [earlier, later, hcmp] using hp
  · have hle : mk.n ≤ pt.n := by
      have h := hcmp
      unfold cmp_point at h
      split_ifs at h <;> omega
    obtain ⟨path, hp, hl⟩ := linePath_of_chain hc (pt.n - mk.n) mk.n pt.n mk.p pt.p
      (by omega) hmk hpt
    refine ⟨path, ?_, by omega⟩
    simpa [earlier, later, hcmp] using hp

theorem earlier_le_later (pt mk : Point) : (earlier pt mk).pos ≤ (later pt mk).pos := by
  by_cases hcmp : cmp_point pt mk < 0
  · have := (cmp_point_neg_iff pt mk).mp hcmp
    simp only [earlier, later, hcmp, if_true]
    rw [Point.pos, Point.pos, Prod.Lex.lt_iff] at this
    rw [Point.pos, Point.pos, Prod.Lex.le_iff]
    simp only at this ⊢
    omega
  · simp only [earlier, later, hcmp, if_false]
    rw [Point.pos, Point.pos, Prod.Lex.le_iff]
    have h := hcmp
    unfold cmp_point at h
    simp only
    split_ifs at h <;> omega

theorem pos_le_earlier {chain : List LinePtr} {pt mk : Point}
    (hpt : OnChain chain pt) (hmk : OnChain chain mk) (h : pt.pos ≤ mk.pos) :
    earlier pt mk = pt ∧ later pt mk = mk := by
  rw [Point.pos, Point.pos, Prod.Lex.le_iff] at h
  simp only at h
  by_cases hcmp : cmp_point pt mk < 0
  · simp [earlier, later, hcmp]
  · have h2 := hcmp
    unfold cmp_point at h2
    have hn : pt.n = mk.n ∧ pt.o = mk.o := by split_ifs at h2 <;> omega
    have hp : pt.p = mk.p := by
      unfold OnChain at hpt hmk
      rw [hn.1, hmk] at hpt
      exact (Option.some.inj hpt).symm
    have : pt = mk := by
      cases pt; cases mk; simp_all
    simp [earlier, later, hcmp, this]

/-! ## Claims on regions -/

/-- C1: with a usable mark and point and mark on the line chain of the buffer,
`calculate_the_region` returns true, the region start and end are point and mark, start is
the one that comes first in buffer order and end the one that comes last, whichever of
the two is point; `region_new (o1, o2)` of region.c has start `min o1 o2` and end
`max o1 o2`, so the order of its two arguments does not matter. -/
theorem calculate_the_region_normalizes (s : State) (rp : Region) (chain : List LinePtr)
    (fuel : Nat)
    (hmark : (warn_if_no_mark s).2 = false)
    (hc : LineChain s chain)
    (hpt : OnChain chain s.cur.pt)
    (hmk : OnChain chain (get_marker_pt s s.cur.mark))
    (hfuel : chain.length ≤ fuel) :
    (∃ r, calculate_the_region fuel s rp = some (s, true, r) ∧
      r.start.pos ≤ r.end_.pos ∧
      cmp_point r.start r.end_ ≤ 0 ∧
      (s.cur.pt.pos ≤ (get_marker_pt s s.cur.mark).pos →
        r.start = s.cur.pt ∧ r.end_ = get_marker_pt s s.cur.mark) ∧
      ((get_marker_pt s s.cur.mark).pos ≤ s.cur.pt.pos →
        r.start = get_marker_pt s s.cur.mark ∧ r.end_ = s.cur.pt)) ∧
    (∀ o1 o2 : Nat,
      (RegionC.region_new o1 o2).start = min o1 o2 ∧
      (RegionC.region_new o1 o2).end_ = max o1 o2 ∧
      (RegionC.region_new o1 o2).start ≤ (RegionC.region_new o1 o2).end_ ∧
      RegionC.region_new o1 o2 = RegionC.region_new o2 o1) := by
  constructor
  · obtain ⟨path, hp, hl⟩ := earlier_later_path hc hpt hmk
    refine ⟨_, calculate_the_region_eq s rp fuel path hmark hp (by omega), ?_, ?_, ?_, ?_⟩
    · exact earlier_le_later _ _
    · have h := earlier_le_later s.cur.pt (get_marker_pt s s.cur.mark)
      by_contra hn
      have h2 : cmp_point (later s.cur.pt (get_marker_pt s s.cur.mark))
          (earlier s.cur.pt (get_marker_pt s s.cur.mark)) < 0 := by
        have hn2 := hn
        unfold cmp_point at hn2 ⊢
        split_ifs at hn2 ⊢ <;> omega
      exact absurd ((cmp_point_neg_iff _ _).mp h2) (not_lt.mpr h)
    · intro h
      exact pos_le_earlier hpt hmk h
    · intro h
      by_cases hcmp : cmp_point s.cur.pt (get_marker_pt s s.cur.mark) < 0
      · have h1 := (cmp_point_neg_iff _ _).mp hcmp
        exact absurd h1 (not_lt.mpr h)
      · simp [earlier, later, hcmp]
  · intro o1 o2
    refine ⟨rfl, rfl, ?_, ?_⟩
    · simp [RegionC.region_new]
    · simp [RegionC.region_new, min_comm, max_comm]


/-- C1 witness: the example state, with point at line 1 and the mark at line 0. -/
theorem calculate_the_region_normalizes_witness :
    ∃ r, calculate_the_region 3 exState region_new = some (exState, true, r) ∧
      r.start.pos ≤ r.end_.pos ∧ r.start = ⟨10, 0, 1⟩ ∧ r.end_ = ⟨11, 1, 0⟩ :=
  let ⟨r, h1, h2, _, _, h4⟩ :=
    (calculate_the_region_normalizes exState region_new [10, 11, 12] 3 (by decide)
      ⟨rfl, rfl, rfl, rfl, trivial⟩ rfl rfl (by decide)).1
  ⟨r, h1, h2, (h4 (by decide)).1, (h4 (by decide)).2⟩

theorem linePath_of_iterate (s : State) (b : LinePtr) :
    ∀ (k : Nat) (a : LinePtr), (get_line_next s)^[k] a = b →
      ∃ path, LinePath s a path b ∧ path.length ≤ k := by
  intro k
  induction k with
  | zero => intro a h; exact ⟨[], h, Nat.le_refl _⟩
  | succ k ih =>
    intro a h
    by_cases hab : a = b
    · exact ⟨[], hab, Nat.zero_le _⟩
    · rw [Function.iterate_succ_apply] at h
      obtain ⟨path, hp, hl⟩ := ih _ h
      exact ⟨a :: path, ⟨rfl, hab, hp⟩, by simpa using hl⟩

theorem calculate_the_region_size_core (s : State) (rp : Region) (fuel : Nat)
    (path : List LinePtr)
    (hmark : (warn_if_no_mark s).2 = false)
    (hp : LinePath s (earlier s.cur.pt (get_marker_pt s s.cur.mark)).p path
      (later s.cur.pt (get_marker_pt s s.cur.mark)).p)
    (hf : path.length < fuel) :
    ∃ r, calculate_the_region fuel s rp = some (s, true, r) ∧
      r.start = earlier s.cur.pt (get_marker_pt s s.cur.mark) ∧
      r.end_ = later s.cur.pt (get_marker_pt s s.cur.mark) ∧
      r.size = chars_of_lines s path + (r.end_.o : Int) - (r.start.o : Int) ∧
      (r.start.o ≤ line_len s r.start.p →
        (r.size = 0 ↔ (s.cur.pt.p = (get_marker_pt s s.cur.mark).p ∧
          s.cur.pt.o = (get_marker_pt s s.cur.mark).o))) := by
  refine ⟨_, calculate_the_region_eq s rp fuel path hmark hp hf, rfl, rfl, ?_, ?_⟩
  · simp only
    ring
  · simp only
    intro ho
    cases path with
    | nil =>
      have hpe : (earlier s.cur.pt (get_marker_pt s s.cur.mark)).p
          = (later s.cur.pt (get_marker_pt s s.cur.mark)).p := hp
      simp only [chars_of_lines, List.map_nil, List.sum_nil, add_zero]
      by_cases hcmp : cmp_point s.cur.pt (get_marker_pt s s.cur.mark) < 0
      · simp only [earlier, later, hcmp, if_true] at hpe ⊢
        constructor
        · intro h; exact ⟨hpe, by omega⟩
        · intro h; omega
      · simp only [earlier, later, hcmp, if_false] at hpe ⊢
        constructor
        · intro h; exact ⟨hpe.symm, by omega⟩
        · intro h; omega
    | cons x t =>
      obtain ⟨hx, hne, _⟩ := hp
      have hsum : (0 : Int) ≤ chars_of_lines s t := by
        unfold chars_of_lines
        apply List.sum_nonneg
        intro v hv
        simp only [List.mem_map] at hv
        obtain ⟨l, _, rfl⟩ := hv
        omega
      have hcons : chars_of_lines s (x :: t)
          = (line_len s x : Int) + 1 + chars_of_lines s t := by
        simp [chars_of_lines]
      rw [hcons, hx]
      constructor
      · intro h
        have ho2 : ((earlier s.cur.pt (get_marker_pt s s.cur.mark)).o : Int)
            ≤ (line_len s (earlier s.cur.pt (get_marker_pt s s.cur.mark)).p : Int) := by
          exact_mod_cast ho
        omega
      · intro h
        exfalso
        apply hne
        by_cases hcmp : cmp_point s.cur.pt (get_marker_pt s s.cur.mark) < 0
        · simp only [earlier, later, hcmp, if_true]; exact h.1
        · simp only [earlier, later, hcmp, if_false]; exact h.1.symm

/-- C2: when the end line is reached from the start line by `k` next-links, the size set
by `calculate_the_region` (fuel above `k`) is the number of characters of the lines passed
on the way (`path`: the start line first, the end line excluded, one more character per
line for its terminator) plus the end offset minus the start offset; with the start offset
inside its line the size is 0 exactly when point and mark are on the same line at the same
offset. In region.c the size of `region_new (o1, o2)` is the distance of the two offsets. -/
theorem calculate_the_region_size_exact (s : State) (rp : Region) (fuel k : Nat)
    (hmark : (warn_if_no_mark s).2 = false)
    (hreach : (get_line_next s)^[k] (earlier s.cur.pt (get_marker_pt s s.cur.mark)).p
      = (later s.cur.pt (get_marker_pt s s.cur.mark)).p)
    (hf : k < fuel) :
    (∃ path r, LinePath s (earlier s.cur.pt (get_marker_pt s s.cur.mark)).p path
        (later s.cur.pt (get_marker_pt s s.cur.mark)).p ∧
      calculate_the_region fuel s rp = some (s, true, r) ∧
      r.start = earlier s.cur.pt (get_marker_pt s s.cur.mark) ∧
      r.end_ = later s.cur.pt (get_marker_pt s s.cur.mark) ∧
      r.size = chars_of_lines s path + (r.end_.o : Int) - (r.start.o : Int) ∧
      (r.start.o ≤ line_len s r.start.p →
        (r.size = 0 ↔ (s.cur.pt.p = (get_marker_pt s s.cur.mark).p ∧
          s.cur.pt.o = (get_marker_pt s s.cur.mark).o)))) ∧
    (∀ o1 o2 : Nat,
      ((RegionC.get_region_size (RegionC.region_new o1 o2) : Nat) : Int)
        = |(o1 : Int) - (o2 : Int)|) := by
  constructor
  · obtain ⟨path, hp, hl⟩ := linePath_of_iterate s _ k _ hreach
    obtain ⟨r, hr⟩ := calculate_the_region_size_core s rp fuel path hmark hp (by omega)
    exact ⟨path, r, hp, hr⟩
  · intro o1 o2
    simp only [RegionC.get_region_size, RegionC.region_new]
    rcases le_total o1 o2 with h | h
    · rw [min_eq_left h, max_eq_right h, abs_of_nonpos (by omega)]
      omega
    · rw [min_eq_right h, max_eq_left h, abs_of_nonneg (by omega)]
      omega

/-- C2 witness: in the example state the region from line 0, offset 1 to line 1, offset 0
has size 2 (the character `b` and one line terminator). -/
theorem calculate_the_region_size_exact_witness :
    ∃ r, calculate_the_region 2 exState region_new = some (exState, true, r) ∧
      r.size = 2 :=
  let ⟨path, r, hp, h1, h2, h3, h4, _⟩ :=
    (calculate_the_region_size_exact exState region_new 2 1 (by decide) rfl (by decide)).1
  have hpath : path = [10] := by
    cases path with
    | nil => exact absurd (show (10 : Nat) = 11 from hp) (by decide)
    | cons x t =>
      obtain ⟨hx, _, ht⟩ := hp
      cases t with
      | nil => rw [hx]; rfl
      | cons y u => exact (ht.2.1 rfl).elim
  ⟨r, h1, by rw [h4, h2, h3, hpath]; decide⟩

/-- C3: `calculate_the_region` returns false, with the region argument as it was, when
the current buffer has no mark (message "The mark is not set now") and when the mark is
set but not active while `transient-mark-mode` is true (message "The mark is not active
now"); in every other case it never returns false, and it returns true when point and
mark are on the line chain of the buffer. -/
theorem calculate_the_region_mark_checks (s : State) (rp : Region) (fuel : Nat) :
    (s.cur.mark = NULL →
      calculate_the_region fuel s rp
        = some (minibuf_error s "The mark is not set now", false, rp)) ∧
    (s.cur.mark ≠ NULL → s.cur.mark_active = false →
      get_variable_bool s "transient-mark-mode" = true →
      calculate_the_region fuel s rp
        = some (minibuf_error s "The mark is not active now", false, rp)) ∧
    (s.cur.mark ≠ NULL →
      (s.cur.mark_active = true ∨ get_variable_bool s "transient-mark-mode" = false) →
      (∀ st r, calculate_the_region fuel s rp ≠ some (st, false, r)) ∧
      (∀ chain : List LinePtr, LineChain s chain → OnChain chain s.cur.pt →
        OnChain chain (get_marker_pt s s.cur.mark) → chain.length ≤ fuel →
        ∃ r, calculate_the_region fuel s rp = some (s, true, r))) := by
  refine ⟨?_, ?_, ?_⟩
  · intro h
    simp [calculate_the_region, warn_if_no_mark, h]
  · intro h1 h2 h3
    simp [calculate_the_region, warn_if_no_mark, h1, h2, h3]
  · intro h1 h2
    have hw : (warn_if_no_mark s).2 = false := by
      unfold warn_if_no_mark
      rcases h2 with h2 | h2 <;> simp [h1, h2]
    constructor
    · intro st r
      unfold calculate_the_region
      simp only [hw, Bool.false_eq_true, if_false]
      split <;> simp
    · intro chain hc hpt hmk hfuel
      obtain ⟨path, hp, hl⟩ := earlier_later_path hc hpt hmk
      exact ⟨_, calculate_the_region_eq s rp fuel path hw hp (by omega)⟩

/-- C3 witness: the example state without a mark fails with the region untouched, and
the example state itself (active mark) succeeds. -/
theorem calculate_the_region_mark_checks_witness :
    calculate_the_region 3 (exState.setBuf 1 { exState.cur with mark := NULL }) region_new
      = some (minibuf_error (exState.setBuf 1 { exState.cur with mark := NULL })
          "The mark is not set now", false, region_new) ∧
    ∃ r, calculate_the_region 3 exState region_new = some (exState, true, r) :=
  ⟨(calculate_the_region_mark_checks (exState.setBuf 1 { exState.cur with mark := NULL })
      region_new 3).1 rfl,
   ((calculate_the_region_mark_checks exState region_new 3).2.2 (by decide)
      (Or.inl rfl)).2 [10, 11, 12] ⟨rfl, rfl, rfl, rfl, trivial⟩ rfl rfl (by decide)⟩

/-- C4: `in_region (lineno, x, r)` is true exactly when the position `(lineno, x)` is at
or after the start of `r` and strictly before its end, in the lexicographic order on line
number and offset; a region whose start and end are the same position contains nothing,
and the end position of a region is never inside it. -/
theorem in_region_iff_lex (lineno x : Nat) (rp : Region) :
    (in_region lineno x rp = true ↔
      (rp.start.pos ≤ toLex (lineno, x) ∧ toLex (lineno, x) < rp.end_.pos)) ∧
    in_region lineno x { rp with end_ := { rp.end_ with n := rp.start.n, o := rp.start.o } }
      = false ∧
    in_region rp.end_.n rp.end_.o rp = false := by
  refine ⟨?_, ?_, ?_⟩
  · rw [Point.pos, Point.pos, Prod.Lex.le_iff, Prod.Lex.lt_iff]
    unfold in_region
    simp only
    split_ifs <;> first | (simp; done) | (simp; omega)
  · unfold in_region
    simp only
    split_ifs <;> first | rfl | simp
  · unfold in_region
    split_ifs <;> first | rfl | (simp; done) | (simp; omega) | omega


/-! ## Claims on movement -/

theorem setBuf_setBuf (s : State) (bp : BufPtr) (b1 b2 : Buffer) :
    (s.setBuf bp b1).setBuf bp b2 = s.setBuf bp b2 := by
  unfold State.setBuf
  simp only
  congr 1
  funext q
  split <;> rfl

theorem cur_setPt (s : State) (pt : Point) : (s.setPt pt).cur = { s.cur with pt := pt } := by
  simp [State.setPt, State.setBuf, State.cur]

theorem setPt_setPt (s : State) (p1 p2 : Point) : (s.setPt p1).setPt p2 = s.setPt p2 := by
  have h : (s.setPt p1).cur_bp = s.cur_bp := rfl
  rw [State.setPt, cur_setPt, h, State.setPt, setBuf_setBuf, State.setPt]

theorem setPt_self (s : State) : s.setPt s.cur.pt = s := by
  unfold State.setPt State.setBuf State.cur
  cases s
  simp only
  congr 1
  funext q
  split
  · next h => rw [h]
  · rfl

theorem validBuffer_index {s : State} {chain : List LinePtr} (hv : ValidBuffer s chain) :
    ∃ h : s.cur.pt.n < chain.length, chain[s.cur.pt.n] = s.cur.pt.p := by
  have := List.getElem?_eq_some_iff.mp hv.point
  exact this

theorem validBuffer_next {s : State} {chain : List LinePtr} (hv : ValidBuffer s chain)
    {nxt : LinePtr} (h : chain[s.cur.pt.n + 1]? = some nxt) :
    (s.lineAt s.cur.pt.p).next = nxt ∧ nxt ≠ s.cur.limitp := by
  refine ⟨(lineChain_links hv.linked hv.point h).1, ?_⟩
  intro he
  apply hv.limit
  rw [← he]
  exact List.getElem?_mem h

theorem validBuffer_prev {s : State} {chain : List LinePtr} (hv : ValidBuffer s chain)
    {prv : LinePtr} (hn : 0 < s.cur.pt.n) (h : chain[s.cur.pt.n - 1]? = some prv) :
    (s.lineAt s.cur.pt.p).prev = prv ∧ prv ≠ s.cur.limitp := by
  have hp : chain[s.cur.pt.n - 1 + 1]? = some s.cur.pt.p := by
    rw [Nat.sub_add_cancel hn]; exact hv.point
  refine ⟨(lineChain_links hv.linked h hp).2, ?_⟩
  intro he
  apply hv.limit
  rw [← he]
  exact List.getElem?_mem h

theorem eobp_iff {s : State} {chain : List LinePtr} (hv : ValidBuffer s chain) :
    eobp s = true ↔ AtEob s chain := by
  obtain ⟨hlt, hidx⟩ := validBuffer_index hv
  unfold eobp AtEob line_len
  simp only [Bool.and_eq_true, decide_eq_true_eq]
  constructor
  · rintro ⟨h1, h2⟩
    refine ⟨?_, h2⟩
    by_contra hne
    have hlt2 : s.cur.pt.n + 1 < chain.length := by omega
    have := validBuffer_next hv (List.getElem?_eq_getElem hlt2)
    exact this.2 (this.1 ▸ h1)
  · rintro ⟨h1, h2⟩
    refine ⟨?_, h2⟩
    apply hv.last
    have : chain.length - 1 = s.cur.pt.n := by omega
    rw [this]
    exact hv.point

theorem bobp_iff {s : State} {chain : List LinePtr} (hv : ValidBuffer s chain) :
    bobp s = true ↔ AtBob s := by
  unfold bobp AtBob
  simp only [Bool.and_eq_true, decide_eq_true_eq]
  constructor
  · rintro ⟨h1, h2⟩
    refine ⟨?_, h2⟩
    by_contra hne
    have hpos : 0 < s.cur.pt.n := Nat.pos_of_ne_zero hne
    obtain ⟨hlt, _⟩ := validBuffer_index hv
    have hlt2 : s.cur.pt.n - 1 < chain.length := by omega
    have := validBuffer_prev hv hpos (List.getElem?_eq_getElem hlt2)
    exact this.2 (this.1 ▸ h1)
  · rintro ⟨h1, h2⟩
    refine ⟨?_, h2⟩
    apply hv.first
    have := hv.point
    unfold OnChain at this
    rwa [h1] at this


theorem lineChain_congr {s t : State} (h : t.lineAt = s.lineAt) :
    ∀ chain : List LinePtr, LineChain s chain → LineChain t chain := by
  intro chain
  induction chain with
  | nil => intro _; trivial
  | cons a l ih =>
    intro hc
    cases l with
    | nil => trivial
    | cons b rest =>
      refine ⟨?_, ?_, ih hc.2.2⟩
      · rw [h]; exact hc.1
      · rw [h]; exact hc.2.1

theorem lineChain_setPt {s : State} {chain : List LinePtr} (pt : Point)
    (h : LineChain s chain) : LineChain (s.setPt pt) chain :=
  lineChain_congr (show (s.setPt pt).lineAt = s.lineAt from rfl) chain h

theorem validBuffer_setPt {s : State} {chain : List LinePtr} (hv : ValidBuffer s chain)
    (pt : Point) (h1 : OnChain chain pt) (h2 : pt.o ≤ line_len s pt.p) :
    ValidBuffer (s.setPt pt) chain where
  linked := lineChain_congr (show (s.setPt pt).lineAt = s.lineAt from rfl) chain hv.linked
  first := by rw [cur_setPt]; exact hv.first
  last := by rw [cur_setPt]; exact hv.last
  limit := by rw [cur_setPt]; exact hv.limit
  point := by rw [cur_setPt]; exact h1
  offset := by rw [cur_setPt]; exact h2
  count := by rw [cur_setPt]; exact hv.count

theorem validBuffer_needResync {s : State} {chain : List LinePtr}
    (hv : ValidBuffer s chain) : ValidBuffer s.needResync chain where
  linked := lineChain_congr (show s.needResync.lineAt = s.lineAt from rfl) chain hv.linked
  first := hv.first
  last := hv.last
  limit := hv.limit
  point := hv.point
  offset := hv.offset
  count := hv.count

theorem move_char_forward_inline (s : State)
    (h : s.cur.pt.o < line_len s s.cur.pt.p) :
    move_char s 1 = (s.setPt { s.cur.pt with o := s.cur.pt.o + 1 }, true) := by
  have hne : ¬ s.cur.pt.o = (s.lineAt s.cur.pt.p).text.length := by
    unfold line_len at h; omega
  simp [move_char, eolp, hne, size_add]

theorem move_char_backward_inline (s : State) (h : 0 < s.cur.pt.o) :
    move_char s (-1) = (s.setPt { s.cur.pt with o := s.cur.pt.o - 1 }, true) := by
  have hne : ¬ s.cur.pt.o = 0 := by omega
  have hsz : size_add s.cur.pt.o (-1) = s.cur.pt.o - 1 := by
    unfold size_add; omega
  simp [move_char, bolp, hne, hsz]

theorem move_char_forward_cross (s : State) (nxt : LinePtr)
    (ho : s.cur.pt.o = line_len s s.cur.pt.p)
    (hn : (s.lineAt s.cur.pt.p).next = nxt) (hl : nxt ≠ s.cur.limitp) :
    move_char s 1 = (s.needResync.setPt ⟨nxt, s.cur.pt.n + 1, 0⟩, true) := by
  have ho2 : s.cur.pt.o = (s.lineAt s.cur.pt.p).text.length := ho
  have hl2 : ¬ (s.lineAt s.cur.pt.p).next = s.cur.limitp := by rw [hn]; exact hl
  have hc : s.needResync.cur = s.cur := rfl
  have hla : s.needResync.lineAt = s.lineAt := rfl
  simp only [move_char, eolp, eobp, ho2, hl2, beginning_of_line, get_line_next,
    cur_setPt, setPt_setPt, hc, hla, hn, size_add]
  simp [hl]

theorem move_char_backward_cross (s : State) (prv : LinePtr)
    (ho : s.cur.pt.o = 0) (hpos : 0 < s.cur.pt.n)
    (hn : (s.lineAt s.cur.pt.p).prev = prv) (hl : prv ≠ s.cur.limitp) :
    move_char s (-1)
      = (s.needResync.setPt ⟨prv, s.cur.pt.n - 1, line_len s prv⟩, true) := by
  have hl2 : ¬ (s.lineAt s.cur.pt.p).prev = s.cur.limitp := by rw [hn]; exact hl
  have hc : s.needResync.cur = s.cur := rfl
  have hla : s.needResync.lineAt = s.lineAt := rfl
  have hsz : size_add s.cur.pt.n (-1) = s.cur.pt.n - 1 := by
    unfold size_add; omega
  have hla2 : ∀ (t : State) (q : Point), (t.setPt q).lineAt = t.lineAt := fun _ _ => rfl
  simp only [move_char, bolp, bobp, ho, hl2, end_of_line, get_line_prev, line_len,
    cur_setPt, setPt_setPt, hc, hla, hla2, hn, hsz]
  simp [hl]

theorem move_char_forward_eob (s : State) (h : eobp s = true) :
    move_char s 1 = (s, false) := by
  have h2 : eolp s = true := by
    unfold eobp at h; unfold eolp
    simp only [Bool.and_eq_true] at h
    exact h.2
  simp [move_char, h, h2]

theorem move_char_backward_bob (s : State) (h : bobp s = true) :
    move_char s (-1) = (s, false) := by
  have h2 : bolp s = true := by
    unfold bobp at h; unfold bolp
    simp only [Bool.and_eq_true] at h
    exact h.2
  simp [move_char, h, h2]


/-- C5: for `dir` +1 or -1 and a well-formed buffer, `move_char (dir)` returns false
exactly when `dir` is +1 at the end of the buffer or -1 at its beginning, and then the
state is untouched; otherwise it returns true: inside a line only the offset changes, by
`dir`; at the end of a line (+1) point goes to offset 0 of the next line, line number + 1;
at the beginning of a line (-1) point goes to the end of the previous line, line
number - 1; the buffer stays well formed. -/
theorem move_char_adjacent (s : State) (chain : List LinePtr) (dir : Int)
    (hdir : dir = 1 ∨ dir = -1) (hv : ValidBuffer s chain) :
    ((move_char s dir).2 = false ↔ (dir = 1 ∧ AtEob s chain) ∨ (dir = -1 ∧ AtBob s)) ∧
    ((move_char s dir).2 = false → (move_char s dir).1 = s) ∧
    (dir = 1 → s.cur.pt.o < line_len s s.cur.pt.p →
      move_char s dir = (s.setPt { s.cur.pt with o := s.cur.pt.o + 1 }, true)) ∧
    (dir = -1 → 0 < s.cur.pt.o →
      move_char s dir = (s.setPt { s.cur.pt with o := s.cur.pt.o - 1 }, true)) ∧
    (dir = 1 → s.cur.pt.o = line_len s s.cur.pt.p → s.cur.pt.n + 1 < chain.length →
      ∃ nxt, chain[s.cur.pt.n + 1]? = some nxt ∧
        move_char s dir = (s.needResync.setPt ⟨nxt, s.cur.pt.n + 1, 0⟩, true)) ∧
    (dir = -1 → s.cur.pt.o = 0 → 0 < s.cur.pt.n →
      ∃ prv, chain[s.cur.pt.n - 1]? = some prv ∧
        move_char s dir
          = (s.needResync.setPt ⟨prv, s.cur.pt.n - 1, line_len s prv⟩, true)) ∧
    ValidBuffer (move_char s dir).1 chain := by
  obtain ⟨hlt, hidx⟩ := validBuffer_index hv
  have hoff := hv.offset
  rcases hdir with rfl | rfl
  · by_cases ho : s.cur.pt.o < line_len s s.cur.pt.p
    · have hm := move_char_forward_inline s ho
      refine ⟨?_, ?_, ?_, ?_, ?_, ?_, ?_⟩
      · rw [hm]; simp [AtEob]; omega
      · rw [hm]; simp
      · intro _ _; exact hm
      · intro h; simp at h
      · intro _ h; omega
      · intro h; simp at h
      · rw [hm]
        exact validBuffer_setPt hv _ hv.point (by simp only; omega)
    · have ho2 : s.cur.pt.o = line_len s s.cur.pt.p := by omega
      by_cases hlast : s.cur.pt.n + 1 = chain.length
      · have hm := move_char_forward_eob s ((eobp_iff hv).mpr ⟨hlast, ho2⟩)
        refine ⟨?_, ?_, ?_, ?_, ?_, ?_, ?_⟩
        · rw [hm]; simp [AtEob, hlast, ho2]
        · rw [hm]; simp
        · intro _ h; omega
        · intro h; simp at h
        · intro _ _ h; omega
        · intro h; simp at h
        · rw [hm]; exact hv
      · have hlt2 : s.cur.pt.n + 1 < chain.length := by omega
        have hnx : chain[s.cur.pt.n + 1]? = some chain[s.cur.pt.n + 1] :=
          List.getElem?_eq_getElem hlt2
        have hn := validBuffer_next hv hnx
        have hm := move_char_forward_cross s _ ho2 hn.1 hn.2
        refine ⟨?_, ?_, ?_, ?_, ?_, ?_, ?_⟩
        · rw [hm]; simp [AtEob, hlast]
        · rw [hm]; simp
        · intro _ h; omega
        · intro h; simp at h
        · intro _ _ _; exact ⟨_, hnx, hm⟩
        · intro h; simp at h
        · rw [hm]
          exact validBuffer_setPt (validBuffer_needResync hv) _ hnx (Nat.zero_le _)
  · by_cases ho : 0 < s.cur.pt.o
    · have hm := move_char_backward_inline s ho
      refine ⟨?_, ?_, ?_, ?_, ?_, ?_, ?_⟩
      · rw [hm]; simp [AtBob]; omega
      · rw [hm]; simp
      · intro h; simp at h
      · intro _ _; exact hm
      · intro h; simp at h
      · intro _ h; omega
      · rw [hm]
        exact validBuffer_setPt hv _ hv.point (by simp only; omega)
    · have ho2 : s.cur.pt.o = 0 := by omega
      by_cases hfirst : s.cur.pt.n = 0
      · have hm := move_char_backward_bob s ((bobp_iff hv).mpr ⟨hfirst, ho2⟩)
        refine ⟨?_, ?_, ?_, ?_, ?_, ?_, ?_⟩
        · rw [hm]; simp [AtBob, hfirst, ho2]
        · rw [hm]; simp
        · intro h; simp at h
        · intro _ h; omega
        · intro h; simp at h
        · intro _ _ h; omega
        · rw [hm]; exact hv
      · have hpos : 0 < s.cur.pt.n := Nat.pos_of_ne_zero hfirst
        have hlt2 : s.cur.pt.n - 1 < chain.length := by omega
        have hpv : chain[s.cur.pt.n - 1]? = some chain[s.cur.pt.n - 1] :=
          List.getElem?_eq_getElem hlt2
        have hn := validBuffer_prev hv hpos hpv
        have hm := move_char_backward_cross s _ ho2 hpos hn.1 hn.2
        refine ⟨?_, ?_, ?_, ?_, ?_, ?_, ?_⟩
        · rw [hm]; simp [AtBob, hfirst]
        · rw [hm]; simp
        · intro h; simp at h
        · intro _ h; omega
        · intro h; simp at h
        · intro _ _ _; exact ⟨_, hpv, hm⟩
        · rw [hm]
          exact validBuffer_setPt (validBuffer_needResync hv) _ hpv (Nat.le_refl _)

/-- C5 witness: in the example state point is at the start of line 1, so `move_char (-1)`
goes to the end of line 0 (offset 2) and returns true. -/
theorem move_char_adjacent_witness :
    ∃ prv, [10, 11, 12][0]? = some prv ∧
      move_char exState (-1)
        = (exState.needResync.setPt ⟨prv, 0, line_len exState prv⟩, true) :=
  (move_char_adjacent exState [10, 11, 12] (-1) (Or.inr rfl)
    { linked := ⟨rfl, rfl, rfl, rfl, trivial⟩
      first := by intro a h; cases h; rfl
      last := by intro a h; cases h; rfl
      limit := by decide
      point := rfl
      offset := by decide
      count := rfl }).2.2.2.2.2.1 rfl rfl (by decide)


theorem move_line_loop_forward {chain : List LinePtr} :
    ∀ (k : Nat) (s : State) (q : LinePtr), LineChain s chain → OnChain chain s.cur.pt →
      chain[s.cur.pt.n + k]? = some q →
      move_line_loop 1 k s = s.setPt ⟨q, s.cur.pt.n + k, s.cur.pt.o⟩ := by
  intro k
  induction k with
  | zero =>
    intro s q _ hp hq
    have hpq : s.cur.pt.p = q := by
      unfold OnChain at hp
      rw [Nat.add_zero, hp] at hq
      exact Option.some.inj hq
    rw [move_line_loop, ← hpq]
    exact (setPt_self s).symm
  | succ k ih =>
    intro s q hc hp hq
    have hlt : s.cur.pt.n + 1 < chain.length := by
      have := (List.getElem?_eq_some_iff.mp hq).1
      omega
    have hnx : chain[s.cur.pt.n + 1]? = some chain[s.cur.pt.n + 1] :=
      List.getElem?_eq_getElem hlt
    have hnext := (lineChain_links hc hp hnx).1
    have hsz : size_add s.cur.pt.n 1 = s.cur.pt.n + 1 := by unfold size_add; omega
    have hstep : move_line_loop 1 (k + 1) s
        = move_line_loop 1 k (s.setPt ⟨chain[s.cur.pt.n + 1], s.cur.pt.n + 1, s.cur.pt.o⟩) := by
      simp [move_line_loop, cur_setPt, setPt_setPt, get_line_next, hnext, hsz]
    have he : s.cur.pt.n + 1 + k = s.cur.pt.n + (k + 1) := by omega
    rw [hstep, ih (s.setPt ⟨chain[s.cur.pt.n + 1], s.cur.pt.n + 1, s.cur.pt.o⟩) q
      (lineChain_setPt _ hc)
      (by rw [cur_setPt]; exact hnx)
      (by rw [cur_setPt]; simp only; rw [he]; exact hq)]
    rw [setPt_setPt, cur_setPt]
    simp only
    rw [he]

theorem move_line_loop_backward {chain : List LinePtr} :
    ∀ (k : Nat) (s : State) (q : LinePtr), LineChain s chain → OnChain chain s.cur.pt →
      k ≤ s.cur.pt.n → chain[s.cur.pt.n - k]? = some q →
      move_line_loop (-1) k s = s.setPt ⟨q, s.cur.pt.n - k, s.cur.pt.o⟩ := by
  intro k
  induction k with
  | zero =>
    intro s q _ hp _ hq
    have hpq : s.cur.pt.p = q := by
      unfold OnChain at hp
      rw [Nat.sub_zero, hp] at hq
      exact Option.some.inj hq
    rw [move_line_loop, ← hpq]
    exact (setPt_self s).symm
  | succ k ih =>
    intro s q hc hp hk hq
    have hlt : s.cur.pt.n < chain.length := (List.getElem?_eq_some_iff.mp hp).1
    have hlt2 : s.cur.pt.n - 1 < chain.length := by omega
    have hpv : chain[s.cur.pt.n - 1]? = some chain[s.cur.pt.n - 1] :=
      List.getElem?_eq_getElem hlt2
    have hp2 : chain[s.cur.pt.n - 1 + 1]? = some s.cur.pt.p := by
      rw [Nat.sub_add_cancel (by omega)]; exact hp
    have hprev := (lineChain_links hc hpv hp2).2
    have hsz : size_add s.cur.pt.n (-1) = s.cur.pt.n - 1 := by unfold size_add; omega
    have hstep : move_line_loop (-1) (k + 1) s
        = move_line_loop (-1) k
            (s.setPt ⟨chain[s.cur.pt.n - 1], s.cur.pt.n - 1, s.cur.pt.o⟩) := by
      simp [move_line_loop, cur_setPt, setPt_setPt, get_line_prev, hprev, hsz]
    have he : s.cur.pt.n - 1 - k = s.cur.pt.n - (k + 1) := by omega
    rw [hstep, ih (s.setPt ⟨chain[s.cur.pt.n - 1], s.cur.pt.n - 1, s.cur.pt.o⟩) q
      (lineChain_setPt _ hc)
      (by rw [cur_setPt]; exact hpv)
      (by rw [cur_setPt]; simp only; omega)
      (by rw [cur_setPt]; simp only; rw [he]; exact hq)]
    rw [setPt_setPt, cur_setPt]
    simp only
    rw [he]

theorem move_line_point (s : State) (n : Int) (hn : n ≠ 0) (q : LinePtr) (t : Nat)
    (h : move_line_loop (move_line_clamp s n).2.1 (move_line_clamp s n).2.2.toNat s
      = s.setPt ⟨q, t, s.cur.pt.o⟩) :
    (move_line s n).1.cur.pt.p = q ∧ (move_line s n).1.cur.pt.n = t ∧
    (move_line s n).2 = (move_line_clamp s n).1 ∧
    (move_line s n).1.thisflag.need_resync = true := by
  unfold move_line
  simp only [hn, if_false, h]
  refine ⟨?_, ?_, trivial, rfl⟩
  · split_ifs <;> simp [goto_goalc, State.needResync, State.cur, State.setPt, State.setBuf]
  · split_ifs <;> simp [goto_goalc, State.needResync, State.cur, State.setPt, State.setBuf]


theorem move_line_core (s : State) (chain : List LinePtr) (n : Int) (hn : n ≠ 0)
    (hv : ValidBuffer s chain) :
    ∃ q, chain[(max 0 (min ((s.cur.pt.n : Int) + n) (s.cur.last_line : Int))).toNat]? = some q ∧
      (move_line s n).1.cur.pt.p = q ∧
      (move_line s n).1.cur.pt.n
        = (max 0 (min ((s.cur.pt.n : Int) + n) (s.cur.last_line : Int))).toNat ∧
      ((move_line s n).2 = true ↔
        (0 ≤ (s.cur.pt.n : Int) + n ∧ (s.cur.pt.n : Int) + n ≤ (s.cur.last_line : Int))) ∧
      (move_line s n).1.thisflag.need_resync = true := by
  obtain ⟨hlt, _⟩ := validBuffer_index hv
  have hcount := hv.count
  have key : ∀ (ok : Bool) (dir c : Int) (t : Nat), move_line_clamp s n = (ok, dir, c) →
      t < chain.length →
      move_line_loop dir c.toNat s = s.setPt ⟨chain[t]?.getD 0, t, s.cur.pt.o⟩ →
      (move_line s n).1.cur.pt.p = chain[t]?.getD 0 ∧ (move_line s n).1.cur.pt.n = t ∧
      (move_line s n).2 = ok ∧ (move_line s n).1.thisflag.need_resync = true := by
    intro ok dir c t hcl _ hloop
    have := move_line_point s n hn (chain[t]?.getD 0) t (by rw [hcl]; exact hloop)
    rw [hcl] at this
    exact this
  have hget : ∀ t, t < chain.length → chain[t]? = some (chain[t]?.getD 0) := by
    intro t ht
    rw [List.getElem?_eq_getElem ht]; rfl
  by_cases hpos : n > 0
  · by_cases hbig : n.toNat > s.cur.last_line - s.cur.pt.n
    · have hcl : move_line_clamp s n
          = (false, 1, ((s.cur.last_line - s.cur.pt.n : Nat) : Int)) := by
        simp [move_line_clamp, hpos, hbig]
      have ht : (max 0 (min ((s.cur.pt.n : Int) + n) (s.cur.last_line : Int))).toNat
          = s.cur.pt.n + (s.cur.last_line - s.cur.pt.n) := by omega
      have htl : s.cur.pt.n + (s.cur.last_line - s.cur.pt.n) < chain.length := by omega
      have hloop := move_line_loop_forward (s.cur.last_line - s.cur.pt.n) s _ hv.linked
        hv.point (hget _ htl)
      obtain ⟨h1, h2, h3, h4⟩ := key _ _ _ _ hcl htl (by simpa using hloop)
      rw [ht]
      refine ⟨_, hget _ htl, h1, h2, ?_, h4⟩
      rw [h3]
      simp
      omega
    · have hcl : move_line_clamp s n = (true, 1, n) := by
        simp [move_line_clamp, hpos, hbig]
      have ht : (max 0 (min ((s.cur.pt.n : Int) + n) (s.cur.last_line : Int))).toNat
          = s.cur.pt.n + n.toNat := by omega
      have htl : s.cur.pt.n + n.toNat < chain.length := by omega
      have hloop := move_line_loop_forward n.toNat s _ hv.linked hv.point (hget _ htl)
      obtain ⟨h1, h2, h3, h4⟩ := key _ _ _ _ hcl htl hloop
      rw [ht]
      refine ⟨_, hget _ htl, h1, h2, ?_, h4⟩
      rw [h3]
      simp
      omega
  · have hneg : n < 0 := by omega
    by_cases hbig : (-n).toNat > s.cur.pt.n
    · have hcl : move_line_clamp s n = (false, -1, (s.cur.pt.n : Int)) := by
        simp [move_line_clamp, hpos, hbig]
      have ht : (max 0 (min ((s.cur.pt.n : Int) + n) (s.cur.last_line : Int))).toNat
          = s.cur.pt.n - s.cur.pt.n := by omega
      have htl : s.cur.pt.n - s.cur.pt.n < chain.length := by omega
      have hloop := move_line_loop_backward s.cur.pt.n s _ hv.linked hv.point
        (Nat.le_refl _) (hget _ htl)
      obtain ⟨h1, h2, h3, h4⟩ := key _ _ _ _ hcl htl (by simpa using hloop)
      rw [ht]
      refine ⟨_, hget _ htl, h1, h2, ?_, h4⟩
      rw [h3]
      simp
      omega
    · have hcl : move_line_clamp s n = (true, -1, -n) := by
        simp [move_line_clamp, hpos, hbig]
      have ht : (max 0 (min ((s.cur.pt.n : Int) + n) (s.cur.last_line : Int))).toNat
          = s.cur.pt.n - (-n).toNat := by omega
      have htl : s.cur.pt.n - (-n).toNat < chain.length := by omega
      have hloop := move_line_loop_backward (-n).toNat s _ hv.linked hv.point
        (by omega) (hget _ htl)
      obtain ⟨h1, h2, h3, h4⟩ := key _ _ _ _ hcl htl hloop
      rw [ht]
      refine ⟨_, hget _ htl, h1, h2, ?_, h4⟩
      rw [h3]
      simp
      omega


/-- C6: for `n` not 0 and a well-formed buffer with point on line `i`, after
`move_line (n)` point is on the line with index `clamp (i + n, 0, last_line)`, the cached
line number is that index, the resync flag is set, and the result is true exactly when
`0 <= i + n <= last_line`; in a buffer of five lines `move_line (1000)` ends on line 4, the
last one, and returns false. -/
theorem move_line_clamping (s : State) (chain : List LinePtr) (n : Int) (hn : n ≠ 0)
    (hv : ValidBuffer s chain) :
    (∃ q, chain[(max 0 (min ((s.cur.pt.n : Int) + n) (s.cur.last_line : Int))).toNat]? = some q ∧
      (move_line s n).1.cur.pt.p = q ∧
      (move_line s n).1.cur.pt.n
        = (max 0 (min ((s.cur.pt.n : Int) + n) (s.cur.last_line : Int))).toNat ∧
      ((move_line s n).2 = true ↔
        (0 ≤ (s.cur.pt.n : Int) + n ∧ (s.cur.pt.n : Int) + n ≤ (s.cur.last_line : Int))) ∧
      (move_line s n).1.thisflag.need_resync = true) ∧
    (chain.length = 5 →
      chain[4]? = some (move_line s 1000).1.cur.pt.p ∧
      (move_line s 1000).1.cur.pt.n = 4 ∧ (move_line s 1000).2 = false) := by
  refine ⟨move_line_core s chain n hn hv, ?_⟩
  intro h5
  obtain ⟨hlt, _⟩ := validBuffer_index hv
  have hcount := hv.count
  obtain ⟨q, hq, hp, hnum, hok, _⟩ := move_line_core s chain 1000 (by decide) hv
  have ht : (max 0 (min ((s.cur.pt.n : Int) + 1000) (s.cur.last_line : Int))).toNat = 4 := by
    omega
  rw [ht] at hq hnum
  refine ⟨by rw [hp]; exact hq, hnum, ?_⟩
  cases hr : (move_line s 1000).2
  · rfl
  · have := hok.mp hr
    omega

/-- C6 witness: the five-line example buffer with point on line 1: `move_line (1000)`
stops on line 4 and reports false. -/
theorem move_line_clamping_witness :
    chain_of_example5[4]? = some (move_line exState5 1000).1.cur.pt.p ∧
    (move_line exState5 1000).1.cur.pt.n = 4 ∧ (move_line exState5 1000).2 = false :=
  (move_line_clamping exState5 chain_of_example5 1000 (by decide)
    { linked := ⟨rfl, rfl, rfl, rfl, rfl, rfl, rfl, rfl, trivial⟩
      first := by intro a h; cases h; rfl
      last := by intro a h; cases h; rfl
      limit := by decide
      point := rfl
      offset := by decide
      count := rfl }).2 rfl


/-! ## Claims on buffer names -/

theorem find_buffer_loop_spec (s : State) (name : CStr) :
    ∀ (l : List BufPtr) (h : BufPtr) (fuel : Nat), BufList s h l → l.length < fuel →
      ∃ r, find_buffer_loop s name fuel h = some r ∧ (r = NULL ↔ ¬ Named s l name) := by
  intro l
  induction l with
  | nil =>
    intro h fuel hl hf
    cases fuel with
    | zero => simp at hf
    | succ f =>
      have hh : h = NULL := hl
      refine ⟨NULL, by simp [find_buffer_loop, hh], ?_⟩
      simp [Named]
  | cons b t ih =>
    intro h fuel hl hf
    obtain ⟨hb, hnn, hrest⟩ := hl
    cases fuel with
    | zero => simp at hf
    | succ f =>
      subst hb
      by_cases hname : (s.bufAt h).name = some name
      · refine ⟨h, by simp [find_buffer_loop, hnn, hname], ?_⟩
        constructor
        · intro h0; exact absurd h0 hnn
        · intro hno; exact absurd ⟨h, List.mem_cons_self _ _, hname⟩ hno
      · obtain ⟨r, hr, hiff⟩ := ih (s.bufAt h).next f hrest (by simpa using hf)
        refine ⟨r, by simp [find_buffer_loop, hnn, hname, hr], ?_⟩
        rw [hiff]
        constructor
        · rintro hno ⟨c, hc, hcn⟩
          rcases List.mem_cons.mp hc with rfl | hc
          · exact hname hcn
          · exact hno ⟨c, hc, hcn⟩
        · rintro hno ⟨c, hc, hcn⟩
          exact hno ⟨c, List.mem_cons_of_mem _ hc, hcn⟩

theorem digitChar_value (m : Nat) (h : m < 10) : (Nat.digitChar m).toNat - 48 = m := by
  interval_cases m <;> rfl

theorem toDigitsCore_decode :
    ∀ (fuel n : Nat) (acc : List Char), n < fuel →
      ∃ ds, Nat.toDigitsCore 10 fuel n acc = ds ++ acc ∧
        ds.foldl (fun a c => 10 * a + (c.toNat - 48)) 0 = n := by
  intro fuel
  induction fuel with
  | zero => intro n acc h; simp at h
  | succ f ih =>
    intro n acc h
    by_cases h0 : n / 10 = 0
    · refine ⟨[Nat.digitChar (n % 10)], by simp [Nat.toDigitsCore, h0], ?_⟩
      have hlt : n < 10 := by omega
      simp only [List.foldl_cons, List.foldl_nil]
      rw [Nat.mod_eq_of_lt hlt, digitChar_value n hlt]
      omega
    · obtain ⟨ds, hds, hval⟩ := ih (n / 10) (Nat.digitChar (n % 10) :: acc) (by omega)
      refine ⟨ds ++ [Nat.digitChar (n % 10)], by simp [Nat.toDigitsCore, h0, hds], ?_⟩
      rw [List.foldl_append, hval]
      simp only [List.foldl_cons, List.foldl_nil]
      rw [digitChar_value (n % 10) (Nat.mod_lt _ (by decide))]
      omega

theorem toDigits_injective (a b : Nat) (h : Nat.toDigits 10 a = Nat.toDigits 10 b) :
    a = b := by
  obtain ⟨da, ha, va⟩ := toDigitsCore_decode (a + 1) a [] (Nat.lt_succ_self a)
  obtain ⟨db, hb, vb⟩ := toDigitsCore_decode (b + 1) b [] (Nat.lt_succ_self b)
  unfold Nat.toDigits at h
  rw [ha, hb] at h
  simp only [List.append_nil] at h
  rw [← va, ← vb, h]

theorem xasprintf_name_injective (p : CStr) (i j : Nat)
    (h : xasprintf_name p i = xasprintf_name p j) : i = j := by
  unfold xasprintf_name at h
  have h1 := List.append_cancel_left h
  have h2 := (List.cons.inj h1).2
  exact toDigits_injective i j (List.append_cancel_right h2)

theorem exists_free_name (s : State) (l : List BufPtr) (p : CStr) :
    ∃ i, 2 ≤ i ∧ i < l.length + 3 ∧ ¬ Named s l (xasprintf_name p i) := by
  by_contra hcon
  have hall : ∀ i, 2 ≤ i → i < l.length + 3 → Named s l (xasprintf_name p i) := by
    intro i h1 h2
    by_contra hn
    exact hcon ⟨i, h1, h2, hn⟩
  let cand : List (Option CStr) :=
    (List.range (l.length + 1)).map (fun k => some (xasprintf_name p (k + 2)))
  have hnd : cand.Nodup := by
    apply List.Nodup.map _ (List.nodup_range _)
    intro a b hab
    have := xasprintf_name_injective p _ _ (Option.some.inj hab)
    omega
  have hsub : cand ⊆ l.map (fun b => (s.bufAt b).name) := by
    intro x hx
    obtain ⟨k, hk, rfl⟩ := List.mem_map.mp hx
    have hk2 := List.mem_range.mp hk
    obtain ⟨b, hb, hbn⟩ := hall (k + 2) (by omega) (by omega)
    exact List.mem_map.mpr ⟨b, hb, hbn⟩
  have hlen := (List.subperm_of_subset hnd hsub).length_le
  simp [cand] at hlen


theorem make_buffer_name_loop_spec (s : State) (l : List BufPtr) (p : CStr) (ffuel : Nat)
    (hl : BufList s s.head_bp l) (hff : l.length < ffuel) :
    ∀ (fuel i i0 : Nat), i ≤ i0 → i0 < i + fuel → ¬ Named s l (xasprintf_name p i0) →
      (∀ j, i ≤ j → j < i0 → Named s l (xasprintf_name p j)) →
      make_buffer_name_loop ffuel s p fuel i = some (xasprintf_name p i0) := by
  intro fuel
  induction fuel with
  | zero => intro i i0 h1 h2; omega
  | succ f ih =>
    intro i i0 h1 h2 hfree hused
    obtain ⟨r, hr, hiff⟩ := find_buffer_loop_spec s (xasprintf_name p i) l s.head_bp ffuel hl hff
    have hr2 : find_buffer ffuel s (xasprintf_name p i) = some r := hr
    by_cases hi : i = i0
    · subst hi
      have : r = NULL := hiff.mpr hfree
      simp [make_buffer_name_loop, hr2, this]
    · have hne : ¬ r = NULL := fun h0 => hiff.mp h0 (hused i (Nat.le_refl _) (by omega))
      simp only [make_buffer_name_loop, hr2, hne, if_false]
      exact ih (i + 1) i0 (by omega) (by omega) hfree
        (fun j hj1 hj2 => hused j (by omega) hj2)

theorem strrchr_none (c : Char) : ∀ t : CStr, strrchr t c = none → c ∉ t := by
  intro t
  induction t with
  | nil => intro _; simp
  | cons x xs ih =>
    intro h
    unfold strrchr at h
    cases hx : strrchr xs c with
    | some r => rw [hx] at h; simp at h
    | none =>
      rw [hx] at h
      simp only at h
      by_cases hxc : x = c
      · simp [hxc] at h
      · simp only [List.mem_cons, not_or]
        exact ⟨fun e => hxc e.symm, ih hx⟩

theorem strrchr_some (c : Char) : ∀ (t r : CStr), strrchr t c = some r →
    ∃ q, t = q ++ r ∧ r.head? = some c ∧ c ∉ r.tail := by
  intro t
  induction t with
  | nil => intro r h; simp [strrchr] at h
  | cons x xs ih =>
    intro r h
    unfold strrchr at h
    cases hx : strrchr xs c with
    | some r2 =>
      rw [hx] at h
      simp only [Option.some.injEq] at h
      subst h
      obtain ⟨q, hq, h1, h2⟩ := ih r2 hx
      exact ⟨x :: q, by rw [hq]; rfl, h1, h2⟩
    | none =>
      rw [hx] at h
      simp only at h
      by_cases hxc : x = c
      · subst hxc
        simp only [if_true, Option.some.injEq] at h
        subst h
        exact ⟨[], rfl, rfl, strrchr_none x xs hx⟩
      · simp [hxc] at h

theorem last_component_spec (filename : CStr) :
    '/' ∉ last_component filename ∧
      (filename = last_component filename ∨
        ∃ q, filename = q ++ '/' :: last_component filename) := by
  unfold last_component
  cases h : strrchr filename '/' with
  | none => exact ⟨strrchr_none _ _ h, Or.inl rfl⟩
  | some r =>
    obtain ⟨q, hq, h1, h2⟩ := strrchr_some _ _ _ h
    refine ⟨h2, Or.inr ⟨q, ?_⟩⟩
    cases r with
    | nil => simp at h1
    | cons y ys =>
      simp only [List.head?_cons, Option.some.injEq] at h1
      subst h1
      exact hq

theorem make_buffer_name_spec (s : State) (l : List BufPtr) (filename : CStr)
    (fuel : Nat) (hl : BufList s s.head_bp l) (hf : l.length < fuel) :
    ∃ name, make_buffer_name fuel s filename = some name ∧
      ¬ Named s l name ∧
      (¬ Named s l (last_component filename) → name = last_component filename) ∧
      (Named s l (last_component filename) →
        ∃ i, 2 ≤ i ∧ name = xasprintf_name (last_component filename) i ∧
          ∀ j, 2 ≤ j → j < i → Named s l (xasprintf_name (last_component filename) j)) := by
  obtain ⟨r, hr, hiff⟩ :=
    find_buffer_loop_spec s (last_component filename) l s.head_bp fuel hl hf
  have hr2 : find_buffer fuel s (last_component filename) = some r := hr
  by_cases hN : Named s l (last_component filename)
  · have hne : ¬ r = NULL := fun h0 => hiff.mp h0 hN
    classical
    have hex : ∃ i, 2 ≤ i ∧ ¬ Named s l (xasprintf_name (last_component filename) i) := by
      obtain ⟨i, h1, _, h3⟩ := exists_free_name s l (last_component filename)
      exact ⟨i, h1, h3⟩
    have hspec := Nat.find_spec hex
    have hbound : Nat.find hex < l.length + 3 := by
      obtain ⟨i, h1, h2, h3⟩ := exists_free_name s l (last_component filename)
      exact lt_of_le_of_lt (Nat.find_min' hex ⟨h1, h3⟩) h2
    have hmin : ∀ j, 2 ≤ j → j < Nat.find hex →
        Named s l (xasprintf_name (last_component filename) j) := by
      intro j hj1 hj2
      by_contra hn
      exact Nat.find_min hex hj2 ⟨hj1, hn⟩
    have hloop := make_buffer_name_loop_spec s l (last_component filename) fuel hl hf
      fuel 2 (Nat.find hex) hspec.1 (by omega) hspec.2 hmin
    refine ⟨_, by simp only [make_buffer_name, hr2, hne, if_false]; exact hloop,
      hspec.2, fun h => absurd hN h, fun _ => ⟨_, hspec.1, rfl, hmin⟩⟩
  · have h0 : r = NULL := hiff.mpr hN
    refine ⟨_, by simp only [make_buffer_name, hr2, h0, if_true], hN, fun _ => rfl,
      fun h => absurd h hN⟩

/-- C7: for every file name and every buffer list `l` (finite, ending with `NULL`),
`make_buffer_name` returns, with fuel above the length of the list: the last path component
`p` of the file name when no buffer is named `p`, otherwise `p<i>` for the least `i >= 2`
such that no buffer is named `p<i>`; the result is the name of no buffer of the list. Three
buffers given in turn the file names `d1/foo.txt`, `d2/foo.txt`, `d3/foo.txt` get the names
`foo.txt`, `foo.txt<2>`, `foo.txt<3>`. -/
theorem make_buffer_name_disambiguates (s : State) (l : List BufPtr) (filename : CStr)
    (fuel : Nat) (hl : BufList s s.head_bp l) (hf : l.length < fuel) :
    (∃ name, make_buffer_name fuel s filename = some name ∧
      ¬ Named s l name ∧
      (¬ Named s l (last_component filename) → name = last_component filename) ∧
      (Named s l (last_component filename) →
        ∃ i, 2 ≤ i ∧ name = xasprintf_name (last_component filename) i ∧
          ∀ j, 2 ≤ j → j < i → Named s l (xasprintf_name (last_component filename) j))) ∧
    ('/' ∉ last_component filename ∧
      (filename = last_component filename ∨
        ∃ q, filename = q ++ '/' :: last_component filename)) ∧
    (∀ i, xasprintf_name (last_component filename) i
      = last_component filename ++ "<".toList ++ (Nat.repr i).toList ++ ">".toList) ∧
    three_foo_names = some [some "foo.txt".toList, some "foo.txt<2>".toList,
      some "foo.txt<3>".toList] := by
  refine ⟨?_, last_component_spec filename, ?_, by decide⟩
  · exact make_buffer_name_spec s l filename fuel hl hf
  · intro i
    simp [xasprintf_name, Nat.repr, List.asString]

/-- C7 witness: in the example state (buffers `a.txt` and `b.txt`) the file name
`/home/b.txt` gives the name `b.txt<2>`, the name of no buffer. -/
theorem make_buffer_name_disambiguates_witness :
    ∃ name, make_buffer_name 3 exState "/home/b.txt".toList = some name ∧
      ¬ Named exState [1, 2] name :=
  let ⟨name, h1, h2, _⟩ :=
    (make_buffer_name_disambiguates exState [1, 2] "/home/b.txt".toList 3
      ⟨rfl, by decide, rfl, by decide, rfl⟩ (by decide)).1
  ⟨name, h1, h2⟩


theorem bufList_congr {s t : State} (h : ∀ b, (t.bufAt b).next = (s.bufAt b).next) :
    ∀ (l : List BufPtr) (hd : BufPtr), BufList s hd l → BufList t hd l := by
  intro l
  induction l with
  | nil => intro hd hl; exact hl
  | cons b r ih =>
    intro hd hl
    exact ⟨hl.1, hl.2.1, by rw [h]; exact ih _ hl.2.2⟩

theorem set_buffer_names_spec (s : State) (l : List BufPtr) (bp : BufPtr) (filename : CStr)
    (fuel : Nat) (hl : BufList s s.head_bp l) (hf : l.length < fuel) :
    ∃ t, set_buffer_names fuel s bp filename = some t ∧
      (t.bufAt bp).filename
        = some (if filename.head? ≠ some '/' then agetcwd s ++ ['/'] ++ filename
                else filename) := by
  have hr : (if filename.head? ≠ some '/' then
        (set_buffer_filename s bp (agetcwd s ++ ['/'] ++ filename),
          agetcwd s ++ ['/'] ++ filename)
      else (set_buffer_filename s bp filename, filename))
      = (set_buffer_filename s bp
          (if filename.head? ≠ some '/' then agetcwd s ++ ['/'] ++ filename else filename),
         if filename.head? ≠ some '/' then agetcwd s ++ ['/'] ++ filename else filename) := by
    split <;> rfl
  unfold set_buffer_names
  simp only [hr]
  generalize (if filename.head? ≠ some '/' then agetcwd s ++ ['/'] ++ filename
    else filename) = resolved
  have hl2 : BufList (set_buffer_filename s bp resolved)
      (set_buffer_filename s bp resolved).head_bp l := by
    apply bufList_congr _ l _ hl
    intro b
    simp only [set_buffer_filename, State.setBuf]
    split
    · next hb => rw [hb]
    · rfl
  obtain ⟨name, hname, _⟩ := make_buffer_name_spec _ l resolved fuel hl2 hf
  rw [hname]
  exact ⟨_, rfl, by simp [set_buffer_name, set_buffer_filename, State.setBuf]⟩

/-- C8, as the code has it: `set_buffer_names (bp, filename)` stores, for a file name that
does not start with `/`, the working directory of the process (`agetcwd`), then `/`, then
the file name; this is the directory of the buffer followed by `/` and the file name when
the working directory is `bp->dir`; a file name that starts with `/` is stored as it is. -/
theorem set_buffer_names_resolves_against_cwd (s : State) (l : List BufPtr) (bp : BufPtr)
    (filename : CStr) (fuel : Nat) (hl : BufList s s.head_bp l) (hf : l.length < fuel) :
    ∃ t, set_buffer_names fuel s bp filename = some t ∧
      (filename.head? ≠ some '/' →
        (t.bufAt bp).filename = some (agetcwd s ++ ['/'] ++ filename)) ∧
      (filename.head? ≠ some '/' → agetcwd s = (s.bufAt bp).dir →
        (t.bufAt bp).filename = some ((s.bufAt bp).dir ++ ['/'] ++ filename)) ∧
      (filename.head? = some '/' → (t.bufAt bp).filename = some filename) := by
  obtain ⟨t, ht, hfn⟩ := set_buffer_names_spec s l bp filename fuel hl hf
  refine ⟨t, ht, ?_, ?_, ?_⟩
  · intro h; rw [hfn, if_pos h]
  · intro h hd; rw [hfn, if_pos h, hd]
  · intro h; rw [hfn, if_neg (not_not.mpr h)]

/-- C8 witness: buffer 1 of the example state, whose directory is the working directory
`/home`, gets the file name `/home/f.txt` from `f.txt`. -/
theorem set_buffer_names_resolves_against_cwd_witness :
    ∃ t, set_buffer_names 3 exState 1 "f.txt".toList = some t ∧
      (t.bufAt 1).filename = some "/home/f.txt".toList :=
  let ⟨t, h1, h2, _⟩ :=
    set_buffer_names_resolves_against_cwd exState [1, 2] 1 "f.txt".toList 3
      ⟨rfl, by decide, rfl, by decide, rfl⟩ (by decide)
  ⟨t, h1, h2 (by decide)⟩

/-- C8 counterexample: buffer 2 of the example state has the directory `/tmp` while the
working directory of the process is `/home`; `set_buffer_names` with `f.txt` stores
`/home/f.txt`, not the directory of the buffer followed by `/f.txt`. -/
theorem set_buffer_names_ignores_buffer_dir :
    ∃ t, set_buffer_names 3 exState 2 "f.txt".toList = some t ∧
      (exState.bufAt 2).dir = "/tmp".toList ∧
      (t.bufAt 2).filename = some "/home/f.txt".toList ∧
      (t.bufAt 2).filename ≠ some ((exState.bufAt 2).dir ++ ['/'] ++ "f.txt".toList) := by
  obtain ⟨t, ht, hfn⟩ := set_buffer_names_spec exState [1, 2] 2 "f.txt".toList 3
    ⟨rfl, by decide, rfl, by decide, rfl⟩ (by decide)
  refine ⟨t, ht, rfl, ?_, ?_⟩
  · rw [hfn]; decide
  · rw [hfn]; decide


/-! ## Claims on the buffer list -/

theorem bufList_iff (s : State) : ∀ (l : List BufPtr) (h : BufPtr),
    BufList s h l ↔
      (∀ b ∈ l, b ≠ NULL) ∧ h :: l.map (fun b => (s.bufAt b).next) = l ++ [NULL] := by
  intro l
  induction l with
  | nil => intro h; simp [BufList]
  | cons b t ih =>
    intro h
    simp only [BufList, ih, List.mem_cons, forall_eq_or_imp, List.map_cons, List.cons_append,
      List.cons.injEq]
    tauto

theorem bufList_unique (s : State) : ∀ (l1 l2 : List BufPtr) (h : BufPtr),
    BufList s h l1 → BufList s h l2 → l1 = l2 := by
  intro l1
  induction l1 with
  | nil =>
    intro l2 h h1 h2
    cases l2 with
    | nil => rfl
    | cons c r => exact absurd (h2.1 ▸ h1 : c = NULL) h2.2.1
  | cons b t ih =>
    intro l2 h h1 h2
    cases l2 with
    | nil => exact absurd (h1.1 ▸ h2 : b = NULL) h1.2.1
    | cons c r =>
      have hbc : b = c := h1.1 ▸ h2.1
      subst hbc
      rw [ih r _ h1.2.2 h2.2.2]

theorem bufList_suffix (s : State) : ∀ (a c : List BufPtr) (h : BufPtr),
    BufList s h (a ++ c) → ∃ m, BufList s m c := by
  intro a
  induction a with
  | nil => intro c h hl; exact ⟨h, hl⟩
  | cons x a ih => intro c h hl; exact ih c _ hl.2.2

theorem bufList_nodup (s : State) : ∀ (l : List BufPtr) (h : BufPtr),
    BufList s h l → l.Nodup := by
  intro l
  induction l with
  | nil => intro _ _; exact List.nodup_nil
  | cons b t ih =>
    intro h hl
    refine List.nodup_cons.mpr ⟨?_, ih _ hl.2.2⟩
    intro hb
    obtain ⟨t1, t2, ht⟩ := List.append_of_mem hb
    have h1 := hl.2.2
    rw [ht] at h1
    obtain ⟨m, hm⟩ := bufList_suffix s t1 (b :: t2) _ h1
    have h2 : BufList s (s.bufAt b).next t2 := hm.2.2
    have := bufList_unique s t t2 _ hl.2.2 h2
    have hlen := congrArg List.length this
    rw [ht] at hlen
    simp at hlen
    omega


theorem move_buffer_to_head_loop_found (s : State) (bp : BufPtr) (post : List BufPtr) :
    ∀ (pre : List BufPtr) (it prev : BufPtr) (fuel : Nat),
      BufList s it (pre ++ bp :: post) → bp ∉ pre → pre.length < fuel →
      move_buffer_to_head_loop bp fuel s it prev
        = some (if pre.getLast?.getD prev ≠ NULL then
            move_buffer_to_head_relink s bp (pre.getLast?.getD prev) else s) := by
  intro pre
  induction pre with
  | nil =>
    intro it prev fuel hl _ hf
    cases fuel with
    | zero => simp at hf
    | succ f =>
      have h1 : it = bp := hl.1
      have h2 : bp ≠ NULL := hl.2.1
      subst h1
      simp only [move_buffer_to_head_loop, if_neg h2, if_true, List.getLast?_nil,
        Option.getD_none]
      split <;> rfl
  | cons x pre ih =>
    intro it prev fuel hl hnot hf
    cases fuel with
    | zero => simp at hf
    | succ f =>
      have h1 : it = x := hl.1
      have h2 : x ≠ NULL := hl.2.1
      have h3 : ¬ bp = x := fun e => hnot (e ▸ List.mem_cons_self _ _)
      subst h1
      simp only [move_buffer_to_head_loop, if_neg h2, if_neg h3]
      rw [ih _ it f hl.2.2 (fun hm => hnot (List.mem_cons_of_mem _ hm)) (by simpa using hf)]
      rw [List.getLast?_cons]
      rfl

theorem move_buffer_to_head_relink_list (s : State) (bp prev : BufPtr)
    (pre0 post : List BufPtr) (hl : BufList s s.head_bp (pre0 ++ prev :: bp :: post)) :
    BufList (move_buffer_to_head_relink s bp prev) bp (bp :: (pre0 ++ prev :: post)) := by
  have hnd := bufList_nodup s _ _ hl
  have hold := (bufList_iff s _ _).mp hl
  obtain ⟨hnn, heq⟩ := hold
  -- facts from distinctness
  have hnd2 : (bp :: (pre0 ++ prev :: post)).Nodup := by
    have hp : (pre0 ++ prev :: bp :: post).Perm (bp :: (pre0 ++ prev :: post)) := by
      have : pre0 ++ prev :: bp :: post = (pre0 ++ [prev]) ++ bp :: post := by simp
      rw [this]
      have h2 : pre0 ++ prev :: post = (pre0 ++ [prev]) ++ post := by simp
      rw [h2]
      exact List.perm_middle
    exact (List.Perm.nodup_iff hp).mp hnd
  have hbp_not : bp ∉ pre0 ++ prev :: post := (List.nodup_cons.mp hnd2).1
  have hprev_ne : prev ≠ bp := by
    intro e
    apply hbp_not
    rw [e]
    simp
  have hnd3 : (pre0 ++ prev :: post).Nodup := (List.nodup_cons.mp hnd2).2
  have hprev_pre : prev ∉ pre0 := by
    intro hm
    have := List.nodup_append.mp hnd3
    exact this.2.2 hm (List.mem_cons_self _ _)
  have hprev_post : prev ∉ post := by
    have := (List.nodup_append.mp hnd3).2.1
    exact (List.nodup_cons.mp this).1
  -- the new next fields
  have hnext : ∀ x, ((move_buffer_to_head_relink s bp prev).bufAt x).next
      = if x = bp then s.head_bp else if x = prev then (s.bufAt bp).next
        else (s.bufAt x).next := by
    intro x
    simp only [move_buffer_to_head_relink, State.setBuf]
    by_cases h1 : x = bp
    · simp [h1]
    · by_cases h2 : x = prev
      · subst h2
        simp [hprev_ne]
      · simp [h1, h2]
  -- split the old equation
  have hsplit : (s.head_bp :: pre0.map (fun b => (s.bufAt b).next))
        ++ ((s.bufAt prev).next :: (s.bufAt bp).next :: post.map (fun b => (s.bufAt b).next))
      = (pre0 ++ [prev]) ++ (bp :: (post ++ [NULL])) := by
    simpa using heq
  obtain ⟨hA, hB⟩ := List.append_inj hsplit (by simp)
  have hC : (s.bufAt bp).next :: post.map (fun b => (s.bufAt b).next) = post ++ [NULL] :=
    (List.cons.inj hB).2
  apply (bufList_iff _ _ _).mpr
  constructor
  · intro b hb
    rcases List.mem_cons.mp hb with rfl | hb
    · exact hnn _ (by simp)
    · apply hnn
      rcases List.mem_append.mp hb with h | h
      · exact List.mem_append_left _ h
      · rcases List.mem_cons.mp h with rfl | h
        · simp
        · simp [h]
  · have hmap_pre : pre0.map (fun b => ((move_buffer_to_head_relink s bp prev).bufAt b).next)
        = pre0.map (fun b => (s.bufAt b).next) := by
      apply List.map_congr_left
      intro x hx
      rw [hnext]
      have h1 : x ≠ bp := fun e => hbp_not (e ▸ List.mem_append_left _ hx)
      have h2 : x ≠ prev := fun e => hprev_pre (e ▸ hx)
      simp [h1, h2]
    have hmap_post : post.map (fun b => ((move_buffer_to_head_relink s bp prev).bufAt b).next)
        = post.map (fun b => (s.bufAt b).next) := by
      apply List.map_congr_left
      intro x hx
      rw [hnext]
      have h1 : x ≠ bp := fun e =>
        hbp_not (e ▸ List.mem_append_right _ (List.mem_cons_of_mem _ hx))
      have h2 : x ≠ prev := fun e => hprev_post (e ▸ hx)
      simp [h1, h2]
    simp only [List.map_cons, List.map_append]
    rw [hmap_pre, hmap_post, hnext bp, hnext prev]
    simp only [if_true, if_neg hprev_ne]
    rw [List.cons_append, List.cons.injEq]
    refine ⟨rfl, ?_⟩
    have h1 : s.head_bp :: (pre0.map (fun b => (s.bufAt b).next)
          ++ (s.bufAt bp).next :: post.map (fun b => (s.bufAt b).next))
        = (s.head_bp :: pre0.map (fun b => (s.bufAt b).next))
          ++ ((s.bufAt bp).next :: post.map (fun b => (s.bufAt b).next)) := rfl
    rw [h1, hA, hC]
    simp


theorem bufList_same_bufAt (s t : State) (h : t.bufAt = s.bufAt) (l : List BufPtr)
    (hd : BufPtr) (hl : BufList s hd l) : BufList t hd l :=
  bufList_congr (fun b => by rw [h]) l hd hl

theorem move_buffer_to_head_spec (s : State) (l : List BufPtr) (bp : BufPtr) (fuel : Nat)
    (hl : BufList s s.head_bp l) (hbp : bp ∈ l) (hf : l.length < fuel) :
    ∃ t, move_buffer_to_head fuel s bp = some t ∧
      BufList t t.head_bp (bp :: l.erase bp) ∧ t.head_bp = bp ∧
      t.winAt = s.winAt ∧ t.cur_bp = s.cur_bp ∧ t.cur_wp = s.cur_wp ∧
      t.thisflag = s.thisflag := by
  obtain ⟨pre, post, hsplit, hnot⟩ := List.eq_append_cons_of_mem hbp
  subst hsplit
  have hloop := move_buffer_to_head_loop_found s bp post pre s.head_bp NULL fuel hl hnot
    (by simp at hf; omega)
  have herase : (pre ++ bp :: post).erase bp = pre ++ post := by
    rw [List.erase_append_right _ hnot, List.erase_cons_head]
  rw [herase]
  rcases List.eq_nil_or_concat pre with hnil | ⟨pre0, prev, hpre⟩
  · subst hnil
    have hh : s.head_bp = bp := hl.1
    refine ⟨s, ?_, ?_, hh, rfl, rfl, rfl, rfl⟩
    · rw [move_buffer_to_head, hloop]
      simp [NULL]
    · simpa using hl
  · rw [List.concat_eq_append] at hpre
    subst hpre
    have hprev_nn : prev ≠ NULL := by
      have := (bufList_iff s _ _).mp hl
      exact this.1 prev (by simp)
    have hlast : (pre0 ++ [prev]).getLast?.getD NULL = prev := by simp
    rw [hlast, if_pos hprev_nn] at hloop
    refine ⟨_, hloop, ?_, rfl, rfl, rfl, rfl, rfl⟩
    have hl2 : BufList s s.head_bp (pre0 ++ prev :: bp :: post) := by simpa using hl
    have := move_buffer_to_head_relink_list s bp prev pre0 post hl2
    simpa [move_buffer_to_head_relink] using this

/-- C9: `switch_to_buffer (bp)`, the current window showing the current buffer: when `bp`
is the current buffer the state is unchanged; otherwise, for `bp` in the buffer list `l`,
afterwards `bp` is the current buffer, the current window shows it, the buffer list is `bp`
followed by the other buffers of `l` in their old order (a permutation of `l`), and the
resync flag is set. -/
theorem switch_to_buffer_moves_to_head (s : State) (l : List BufPtr) (bp : BufPtr)
    (fuel : Nat) (hwin : (s.winAt s.cur_wp).bp = s.cur_bp)
    (hl : BufList s s.head_bp l) (hf : l.length < fuel) :
    (s.cur_bp = bp → switch_to_buffer fuel s bp = Except.ok s) ∧
    (s.cur_bp ≠ bp → bp ∈ l →
      ∃ t, switch_to_buffer fuel s bp = Except.ok t ∧
        t.cur_bp = bp ∧ t.cur_wp = s.cur_wp ∧ (t.winAt t.cur_wp).bp = bp ∧
        t.head_bp = bp ∧ BufList t t.head_bp (bp :: l.erase bp) ∧
        (l.erase bp).Sublist l ∧ (bp :: l.erase bp).Perm l ∧
        t.thisflag.need_resync = true) := by
  constructor
  · intro h
    simp [switch_to_buffer, hwin, h]
  · intro hne hbp
    have hl2 : BufList (switch_to_buffer_bind s bp) (switch_to_buffer_bind s bp).head_bp l :=
      bufList_same_bufAt s (switch_to_buffer_bind s bp) rfl l _ hl
    obtain ⟨t, ht, hlist, hhead, hw, hc, hcw, hfl⟩ :=
      move_buffer_to_head_spec _ l bp fuel hl2 hbp hf
    refine ⟨(chdir t (t.bufAt bp).dir).needResync, ?_, ?_, ?_, ?_, ?_, ?_,
      List.erase_sublist _ _, (List.perm_cons_erase hbp).symm, rfl⟩
    · simp only [switch_to_buffer, hwin, ne_eq, not_true_eq_false, if_false, hne]
      rw [ht]
    · have : (chdir t (t.bufAt bp).dir).needResync.cur_bp = t.cur_bp := by
        unfold chdir State.needResync; split <;> rfl
      rw [this, hc]
      rfl
    · have : (chdir t (t.bufAt bp).dir).needResync.cur_wp = t.cur_wp := by
        unfold chdir State.needResync; split <;> rfl
      rw [this, hcw]
      rfl
    · have h1 : (chdir t (t.bufAt bp).dir).needResync.cur_wp = t.cur_wp := by
        unfold chdir State.needResync; split <;> rfl
      have h2 : (chdir t (t.bufAt bp).dir).needResync.winAt = t.winAt := by
        unfold chdir State.needResync; split <;> rfl
      rw [h1, h2, hw, hcw]
      simp [switch_to_buffer_bind, State.setWin]
    · have : (chdir t (t.bufAt bp).dir).needResync.head_bp = t.head_bp := by
        unfold chdir State.needResync; split <;> rfl
      rw [this, hhead]
    · have h1 : (chdir t (t.bufAt bp).dir).needResync.head_bp = t.head_bp := by
        unfold chdir State.needResync; split <;> rfl
      rw [h1]
      apply bufList_congr _ _ _ hlist
      intro b
      unfold chdir State.needResync
      split <;> rfl

/-- C9 witness: in the example state (list 1, 2; buffer 1 current) switching to buffer 2
makes it current and moves it to the head of the list. -/
theorem switch_to_buffer_moves_to_head_witness :
    ∃ t, switch_to_buffer 3 exState 2 = Except.ok t ∧ t.cur_bp = 2 ∧
      BufList t t.head_bp [2, 1] :=
  let ⟨t, h1, h2, _, _, _, h6, _⟩ :=
    (switch_to_buffer_moves_to_head exState [1, 2] 2 3 rfl
      ⟨rfl, by decide, rfl, by decide, rfl⟩ (by decide)).2 (by decide) (by decide)
  ⟨t, h1, h2, h6⟩


/-! ## Claims on killing buffers -/

theorem winList_congr {s t : State} (h : ∀ w, (t.winAt w).next = (s.winAt w).next) :
    ∀ (l : List WinPtr) (hd : WinPtr), WinList s hd l → WinList t hd l := by
  intro l
  induction l with
  | nil => intro hd hl; exact hl
  | cons w r ih =>
    intro hd hl
    exact ⟨hl.1, hl.2.1, by rw [h]; exact ih _ hl.2.2⟩

theorem for_windows_eq_foldl (body : State → WinPtr → State)
    (hb : ∀ t wp q, ((body t wp).winAt q).next = (t.winAt q).next) :
    ∀ (ws : List WinPtr) (s : State) (h : WinPtr) (fuel : Nat),
      WinList s h ws → ws.length < fuel →
      for_windows body fuel s h = some (ws.foldl body s) := by
  intro ws
  induction ws with
  | nil =>
    intro s h fuel hl hf
    cases fuel with
    | zero => simp at hf
    | succ f =>
      have : h = NULL := hl
      simp [for_windows, this]
  | cons w r ih =>
    intro s h fuel hl hf
    cases fuel with
    | zero => simp at hf
    | succ f =>
      obtain ⟨h1, h2, h3⟩ := hl
      subst h1
      simp only [for_windows, if_neg h2, List.foldl_cons]
      apply ih
      · rw [hb]
        exact winList_congr (fun q => hb s h q) r _ h3
      · simpa using hf

theorem foldl_preserves {α : Type} (g : State → α) (body : State → WinPtr → State)
    (hb : ∀ t wp, g (body t wp) = g t) :
    ∀ (ws : List WinPtr) (s : State), g (ws.foldl body s) = g s := by
  intro ws
  induction ws with
  | nil => intro s; rfl
  | cons w r ih => intro s; rw [List.foldl_cons, ih, hb]

theorem foldl_winList (body : State → WinPtr → State)
    (hb : ∀ t wp q, ((body t wp).winAt q).next = (t.winAt q).next) :
    ∀ (ws : List WinPtr) (s : State) (l : List WinPtr) (hd : WinPtr),
      WinList s hd l → WinList (ws.foldl body s) hd l := by
  intro ws
  induction ws with
  | nil => intro s l hd hl; exact hl
  | cons w r ih =>
    intro s l hd hl
    rw [List.foldl_cons]
    exact ih _ l hd (winList_congr (fun q => hb s w q) l hd hl)

theorem retarget_next (kill_bp next_bp : BufPtr) (t : State) (wp q : WinPtr) :
    ((kill_buffer_retarget kill_bp next_bp t wp).winAt q).next = (t.winAt q).next := by
  unfold kill_buffer_retarget
  split
  · simp only [State.setWin]
    by_cases hq : q = wp
    · simp [hq]
    · simp [hq]
  · rfl

theorem show_head_next (t : State) (wp q : WinPtr) :
    ((kill_buffer_show_head t wp).winAt q).next = (t.winAt q).next := by
  simp only [kill_buffer_show_head, State.setWin]
  by_cases hq : q = wp
  · simp [hq]
  · simp [hq]

theorem resync_next (next_bp : BufPtr) (t : State) (wp q : WinPtr) :
    ((kill_buffer_resync next_bp t wp).winAt q).next = (t.winAt q).next := by
  unfold kill_buffer_resync
  split
  · simp only [resync_redisplay, State.setWin]
    by_cases hq : q = wp
    · simp [hq]
    · simp [hq]
  · rfl

theorem resync_bp (next_bp : BufPtr) (t : State) (wp q : WinPtr) :
    ((kill_buffer_resync next_bp t wp).winAt q).bp = (t.winAt q).bp := by
  unfold kill_buffer_resync
  split
  · simp only [resync_redisplay, State.setWin]
    by_cases hq : q = wp
    · simp [hq]
    · simp [hq]
  · rfl

theorem foldl_show_head : ∀ (ws : List WinPtr) (t : State) (w : WinPtr),
    (w ∈ ws ∨ (t.winAt w).bp = t.head_bp) →
    ((ws.foldl kill_buffer_show_head t).winAt w).bp = t.head_bp := by
  intro ws
  induction ws with
  | nil =>
    intro t w h
    rcases h with h | h
    · simp at h
    · exact h
  | cons x r ih =>
    intro t w h
    rw [List.foldl_cons]
    have hh : (kill_buffer_show_head t x).head_bp = t.head_bp := rfl
    rw [← hh]
    apply ih
    by_cases hwx : w = x
    · right
      subst hwx
      simp [kill_buffer_show_head, State.setWin]
    · rcases h with h | h
      · rcases List.mem_cons.mp h with h | h
        · exact absurd h hwx
        · exact Or.inl h
      · right
        simp only [kill_buffer_show_head, State.setWin, if_neg hwx]
        exact h


theorem free_buffer_spec (b : BufPtr) (hb : b ≠ NULL) :
    ∀ (ms : List MarkerPtr) (s : State) (fuel : Nat),
      (s.bufAt b).markers = ms → MarkersOwned s b → ms.length < fuel →
      ∃ t, free_buffer fuel s b = some t ∧ (t.bufAt b).markers = [] ∧
        t.winAt = s.winAt ∧ t.head_wp = s.head_wp ∧ t.head_bp = s.head_bp ∧
        t.cur_bp = s.cur_bp ∧ t.fresh_buf = s.fresh_buf ∧
        (∀ q, (t.bufAt q).next = (s.bufAt q).next) := by
  intro ms
  induction ms with
  | nil =>
    intro s fuel hms _ hf
    cases fuel with
    | zero => simp at hf
    | succ f =>
      refine ⟨s, ?_, hms, rfl, rfl, rfl, rfl, rfl, fun _ => rfl⟩
      simp [free_buffer, hms]
  | cons m rest ih =>
    intro s fuel hms hown hf
    cases fuel with
    | zero => simp at hf
    | succ f =>
      have hmb : (s.markerAt m).bp = b := hown.2 m (by rw [hms]; simp)
      have hnd : (m :: rest).Nodup := hms ▸ hown.1
      have hm_rest : m ∉ rest := (List.nodup_cons.mp hnd).1
      have hbuf : ∀ q, (unchain_marker s m).bufAt q
          = if q = b then { s.bufAt b with markers := rest } else s.bufAt q := by
        intro q
        simp only [unchain_marker, hmb, if_neg hb, State.setBuf, hms, List.erase_cons_head]
      have hmk : ∀ q, (unchain_marker s m).markerAt q
          = if q = m then { s.markerAt m with bp := NULL } else s.markerAt q := by
        intro q
        simp only [unchain_marker, hmb, if_neg hb, State.setBuf]
      have hms2 : ((unchain_marker s m).bufAt b).markers = rest := by
        rw [hbuf]; simp
      have hown2 : MarkersOwned (unchain_marker s m) b := by
        refine ⟨by rw [hms2]; exact (List.nodup_cons.mp hnd).2, ?_⟩
        intro x hx
        rw [hms2] at hx
        have hxm : x ≠ m := fun e => hm_rest (e ▸ hx)
        rw [hmk, if_neg hxm]
        exact hown.2 x (by rw [hms]; exact List.mem_cons_of_mem _ hx)
      obtain ⟨t, ht, h1, h2, h3, h4, h5, h6, h7⟩ :=
        ih (unchain_marker s m) f hms2 hown2 (by simpa using hf)
      have hrest : (unchain_marker s m).winAt = s.winAt ∧
          (unchain_marker s m).head_wp = s.head_wp ∧
          (unchain_marker s m).head_bp = s.head_bp ∧
          (unchain_marker s m).cur_bp = s.cur_bp ∧
          (unchain_marker s m).fresh_buf = s.fresh_buf := by
        simp [unchain_marker, hmb, hb, State.setBuf]
      refine ⟨t, ?_, h1, by rw [h2, hrest.1], by rw [h3, hrest.2.1], by rw [h4, hrest.2.2.1],
        by rw [h5, hrest.2.2.2.1], by rw [h6, hrest.2.2.2.2], ?_⟩
      · simp only [free_buffer, hms]
        exact ht
      · intro q
        rw [h7, hbuf]
        split
        · next hq => rw [hq]
        · rfl

theorem buffer_new_spec (s : State) :
    (buffer_new s).2 = s.fresh_buf ∧
    ((buffer_new s).1.bufAt s.fresh_buf).next = s.head_bp ∧
    (buffer_new s).1.winAt = s.winAt ∧
    (buffer_new s).1.head_wp = s.head_wp := by
  unfold buffer_new init_buffer
  simp only [State.setBuf, line_new, get_variable_bool]
  split <;> simp

theorem create_scratch_buffer_spec (s : State) :
    (create_scratch_buffer s).2 = s.fresh_buf ∧
    ((create_scratch_buffer s).1.bufAt s.fresh_buf).name = some "*scratch*".toList ∧
    ((create_scratch_buffer s).1.bufAt s.fresh_buf).needname = true ∧
    ((create_scratch_buffer s).1.bufAt s.fresh_buf).temporary = true ∧
    ((create_scratch_buffer s).1.bufAt s.fresh_buf).nosave = true ∧
    ((create_scratch_buffer s).1.bufAt s.fresh_buf).next = s.head_bp ∧
    (create_scratch_buffer s).1.winAt = s.winAt ∧
    (create_scratch_buffer s).1.head_wp = s.head_wp := by
  obtain ⟨h1, h2, h3, h4⟩ := buffer_new_spec s
  unfold create_scratch_buffer
  generalize buffer_new s = r at h1 h2 h3 h4 ⊢
  obtain ⟨r1, r2⟩ := r
  simp only at h1 h2 h3 h4
  subst h1
  simp [set_buffer_name, State.setBuf, h2, h3, h4]


theorem kill_buffer_sole_phase (s : State) (b : BufPtr) (ws : List WinPtr) (fuel : Nat)
    (hl : BufList s s.head_bp [b]) (hw : WinList s s.head_wp ws) (hm : MarkersOwned s b)
    (hf1 : ws.length < fuel) (hf2 : (s.bufAt b).markers.length < fuel) :
    ∃ s5, kill_buffer fuel s b
        = (for_windows kill_buffer_show_head fuel
            { (create_scratch_buffer s5).1 with
              head_bp := (create_scratch_buffer s5).2, cur_bp := (create_scratch_buffer s5).2 }
            (create_scratch_buffer s5).1.head_wp).bind
          (fun u => for_windows (kill_buffer_resync (create_scratch_buffer s5).2) fuel u
            u.head_wp) ∧
      s5.head_bp = NULL ∧ s5.head_wp = s.head_wp ∧ WinList s5 s.head_wp ws ∧
      s5.fresh_buf = s.fresh_buf := by
  have hhead : s.head_bp = b := hl.1
  have hbn : b ≠ NULL := hl.2.1
  have hnext : (s.bufAt b).next = NULL := hl.2.2
  have hsucc : kill_buffer_successor s b = NULL := by
    simp [kill_buffer_successor, hnext, hhead]
  have h1 := for_windows_eq_foldl (kill_buffer_retarget b NULL) (retarget_next b NULL)
    ws s s.head_wp fuel hw hf1
  have hpres : ∀ {α : Type} (g : State → α),
      (∀ (t : State) (w : Window) (wp : WinPtr), g (t.setWin wp w) = g t) →
      g (ws.foldl (kill_buffer_retarget b NULL) s) = g s := by
    intro α g hg
    apply foldl_preserves g
    intro t wp
    unfold kill_buffer_retarget
    split
    · simp only [hg]
    · rfl
  have s1_buf := hpres (fun t => t.bufAt) (fun _ _ _ => rfl)
  have s1_mk := hpres (fun t => t.markerAt) (fun _ _ _ => rfl)
  have s1_head := hpres (fun t => t.head_bp) (fun _ _ _ => rfl)
  have s1_hwp := hpres (fun t => t.head_wp) (fun _ _ _ => rfl)
  have s1_fresh := hpres (fun t => t.fresh_buf) (fun _ _ _ => rfl)
  have s1_wl : WinList (ws.foldl (kill_buffer_retarget b NULL) s) s.head_wp ws :=
    foldl_winList _ (retarget_next b NULL) ws s ws _ hw
  simp only at s1_buf s1_mk s1_head s1_hwp s1_fresh
  have hg : ∀ t : State, t.head_bp = b → t.bufAt = s.bufAt →
      (kill_buffer_globals b NULL t).head_bp = NULL ∧
      (kill_buffer_globals b NULL t).bufAt = t.bufAt ∧
      (kill_buffer_globals b NULL t).markerAt = t.markerAt ∧
      (kill_buffer_globals b NULL t).winAt = t.winAt ∧
      (kill_buffer_globals b NULL t).head_wp = t.head_wp ∧
      (kill_buffer_globals b NULL t).fresh_buf = t.fresh_buf := by
    intro t ht hbt
    unfold kill_buffer_globals
    by_cases hc : t.cur_bp = b
    · simp [hc, ht, hbt, hnext]
    · simp [hc, ht, hbt, hnext]
  unfold kill_buffer
  simp only [hsucc, h1, Option.some_bind, if_true]
  generalize ws.foldl (kill_buffer_retarget b NULL) s = s1 at *
  obtain ⟨g1, g2, g3, g4, g5, g6⟩ := hg s1 (s1_head.trans hhead) s1_buf
  generalize kill_buffer_globals b NULL s1 = s3 at *
  have hunlink : kill_buffer_unlink b fuel s3 s3.head_bp = some s3 := by
    cases fuel with
    | zero => simp at hf1
    | succ f => simp [kill_buffer_unlink, g1]
  rw [hunlink, Option.some_bind]
  have hown3 : MarkersOwned s3 b := by
    unfold MarkersOwned at hm ⊢
    rw [g2, g3, s1_buf, s1_mk]
    exact hm
  obtain ⟨s5, h5, _, f2, f3, f4, _, f6, _⟩ :=
    free_buffer_spec b hbn (s3.bufAt b).markers s3 fuel rfl hown3
      (by rw [g2, s1_buf]; exact hf2)
  rw [h5, Option.some_bind]
  refine ⟨s5, rfl, by rw [f4, g1], by rw [f3, g5, s1_hwp], ?_, by rw [f6, g6, s1_fresh]⟩
  apply winList_congr _ ws _ s1_wl
  intro w
  rw [f2, g4]


/-- C10: when the buffer list is the single buffer `b` (its marker chain well formed, the
allocator not returning `NULL`), `kill_buffer (b)` ends with a buffer list of exactly one
buffer; it is named `*scratch*`, has the needname, temporary and nosave flags set, is both
`head_bp` and `cur_bp`, and every window of the window list displays it. -/
theorem kill_buffer_recreates_scratch (s : State) (b : BufPtr) (ws : List WinPtr)
    (fuel : Nat) (hl : BufList s s.head_bp [b]) (hw : WinList s s.head_wp ws)
    (hm : MarkersOwned s b) (halloc : s.fresh_buf ≠ NULL)
    (hf1 : ws.length < fuel) (hf2 : (s.bufAt b).markers.length < fuel) :
    ∃ t nb, kill_buffer fuel s b = some t ∧ BufList t t.head_bp [nb] ∧
      (t.bufAt nb).name = some "*scratch*".toList ∧
      (t.bufAt nb).needname = true ∧ (t.bufAt nb).temporary = true ∧
      (t.bufAt nb).nosave = true ∧
      t.head_bp = nb ∧ t.cur_bp = nb ∧
      WinList t t.head_wp ws ∧ ∀ w ∈ ws, (t.winAt w).bp = nb := by
  obtain ⟨s5, hk, e1, e2, e3, e4⟩ := kill_buffer_sole_phase s b ws fuel hl hw hm hf1 hf2
  obtain ⟨c1, c2, c3, c4, c5, c6, c7, c8⟩ := create_scratch_buffer_spec s5
  rw [hk]
  generalize create_scratch_buffer s5 = c at *
  obtain ⟨cs, nb⟩ := c
  simp only at c1 c2 c3 c4 c5 c6 c7 c8 ⊢
  rw [e4] at c1
  subst c1
  rw [e4] at c2 c3 c4 c5 c6
  rw [e1] at c6
  have hwl0 : WinList { cs with head_bp := s.fresh_buf, cur_bp := s.fresh_buf } cs.head_wp ws := by
    rw [c8, e2]
    exact winList_congr (fun w => by rw [c7]) ws _ e3
  have hu := for_windows_eq_foldl kill_buffer_show_head show_head_next ws
    { cs with head_bp := s.fresh_buf, cur_bp := s.fresh_buf } cs.head_wp fuel hwl0 hf1
  rw [hu, Option.some_bind]
  have hshow : ∀ {α : Type} (g : State → α),
      (∀ (t : State) (w : Window) (wp : WinPtr), g (t.setWin wp w) = g t) →
      g (ws.foldl kill_buffer_show_head
        { cs with head_bp := s.fresh_buf, cur_bp := s.fresh_buf })
        = g { cs with head_bp := s.fresh_buf, cur_bp := s.fresh_buf } := by
    intro α g hg
    apply foldl_preserves g
    intro t wp
    simp only [kill_buffer_show_head, hg]
  have u_hwp := hshow (fun t => t.head_wp) (fun _ _ _ => rfl)
  have u_head := hshow (fun t => t.head_bp) (fun _ _ _ => rfl)
  have u_cur := hshow (fun t => t.cur_bp) (fun _ _ _ => rfl)
  have u_buf := hshow (fun t => t.bufAt) (fun _ _ _ => rfl)
  have u_wl : WinList (ws.foldl kill_buffer_show_head
      { cs with head_bp := s.fresh_buf, cur_bp := s.fresh_buf }) cs.head_wp ws :=
    foldl_winList _ show_head_next ws _ ws _ hwl0
  have u_bp : ∀ w ∈ ws, ((ws.foldl kill_buffer_show_head
      { cs with head_bp := s.fresh_buf, cur_bp := s.fresh_buf }).winAt w).bp = s.fresh_buf :=
    fun w hw2 => foldl_show_head ws _ w (Or.inl hw2)
  simp only at u_hwp u_head u_cur u_buf
  generalize ws.foldl kill_buffer_show_head
    { cs with head_bp := s.fresh_buf, cur_bp := s.fresh_buf } = u at *
  have ht := for_windows_eq_foldl (kill_buffer_resync s.fresh_buf) (resync_next s.fresh_buf)
    ws u u.head_wp fuel (by rw [u_hwp]; exact u_wl) hf1
  rw [ht]
  have hres : ∀ {α : Type} (g : State → α),
      (∀ (t : State) (w : Window) (wp : WinPtr), g (t.setWin wp w) = g t) →
      g (ws.foldl (kill_buffer_resync s.fresh_buf) u) = g u := by
    intro α g hg
    apply foldl_preserves g
    intro t wp
    unfold kill_buffer_resync resync_redisplay
    split
    · simp only [hg]
    · rfl
  have t_hwp := hres (fun t => t.head_wp) (fun _ _ _ => rfl)
  have t_head := hres (fun t => t.head_bp) (fun _ _ _ => rfl)
  have t_cur := hres (fun t => t.cur_bp) (fun _ _ _ => rfl)
  have t_buf := hres (fun t => t.bufAt) (fun _ _ _ => rfl)
  have t_wl : WinList (ws.foldl (kill_buffer_resync s.fresh_buf) u) cs.head_wp ws :=
    foldl_winList _ (resync_next s.fresh_buf) ws _ ws _ u_wl
  have t_bp : ∀ w, ((ws.foldl (kill_buffer_resync s.fresh_buf) u).winAt w).bp
      = (u.winAt w).bp := fun w =>
    foldl_preserves (fun t => (t.winAt w).bp) _ (fun t wp => resync_bp _ t wp w) ws u
  simp only at t_hwp t_head t_cur t_buf
  refine ⟨_, s.fresh_buf, rfl, ?_, ?_, ?_, ?_, ?_, ?_, ?_, ?_, ?_⟩
  · rw [t_head, u_head]
    refine ⟨rfl, halloc, ?_⟩
    rw [t_buf, u_buf, c6]
    rfl
  · rw [t_buf, u_buf]; exact c2
  · rw [t_buf, u_buf]; exact c3
  · rw [t_buf, u_buf]; exact c4
  · rw [t_buf, u_buf]; exact c5
  · rw [t_head, u_head]
  · rw [t_cur, u_cur]
  · rw [t_hwp, u_hwp]; exact t_wl
  · intro w hw2
    rw [t_bp, u_bp w hw2]

/-- C10 witness: the example state with buffer 1 as the only buffer of the list: after
`kill_buffer (1)` the list is one buffer named `*scratch*`, shown by windows 1 and 2. -/
theorem kill_buffer_recreates_scratch_witness :
    ∃ t nb, kill_buffer 3 (exState.setBuf 1 { exState.bufAt 1 with next := NULL }) 1 = some t ∧
      BufList t t.head_bp [nb] ∧ (t.bufAt nb).name = some "*scratch*".toList ∧
      ∀ w ∈ [1, 2], (t.winAt w).bp = nb :=
  let ⟨t, nb, h1, h2, h3, _, _, _, _, _, _, h10⟩ :=
    kill_buffer_recreates_scratch (exState.setBuf 1 { exState.bufAt 1 with next := NULL }) 1
      [1, 2] 3 ⟨rfl, by decide, rfl⟩ ⟨rfl, by decide, rfl, by decide, rfl⟩
      ⟨by decide, by decide⟩ (by decide) (by decide) (by decide)
  ⟨t, nb, h1, h2, h3, h10⟩

/-! ## Claims on killing one of several buffers -/

theorem bufList_head (s : State) (h y : BufPtr) (r : List BufPtr)
    (hl : BufList s h (y :: r)) : h = y ∧ y ≠ NULL := ⟨hl.1, hl.2.1⟩

theorem bufList_append_head (s : State) (a rest : List BufPtr) (prev h : BufPtr)
    (hl : BufList s h (a ++ prev :: rest)) : h ∈ a ++ [prev] ∧ h ≠ NULL := by
  cases a with
  | nil => exact ⟨by rw [hl.1]; simp, hl.1 ▸ hl.2.1⟩
  | cons x a => exact ⟨by rw [hl.1]; simp, hl.1 ▸ hl.2.1⟩

theorem kill_buffer_unlink_found (s : State) (kill prev : BufPtr) (post : List BufPtr) :
    ∀ (a : List BufPtr) (it : BufPtr) (fuel : Nat),
      BufList s it (a ++ prev :: kill :: post) → a.length < fuel →
      kill_buffer_unlink kill fuel s it
        = some (s.setBuf prev { s.bufAt prev with next := (s.bufAt kill).next }) := by
  intro a
  induction a with
  | nil =>
    intro it fuel hl hf
    cases fuel with
    | zero => simp at hf
    | succ f =>
      have h1 : it = prev := hl.1
      have h2 : prev ≠ NULL := hl.2.1
      have h3 : (s.bufAt prev).next = kill := hl.2.2.1
      have h4 : kill ≠ NULL := hl.2.2.2.1
      subst h1
      simp [kill_buffer_unlink, h2, h3, h4]
  | cons x a ih =>
    intro it fuel hl hf
    cases fuel with
    | zero => simp at hf
    | succ f =>
      have hnd := bufList_nodup s _ _ hl
      have h1 : it = x := hl.1
      have h2 : x ≠ NULL := hl.2.1
      subst h1
      obtain ⟨hmem, hnn⟩ := bufList_append_head s a (kill :: post) prev _ hl.2.2
      have hne : ¬ (s.bufAt it).next = kill := by
        intro e
        rw [e] at hmem
        have hnd2 : (a ++ prev :: kill :: post).Nodup := (List.nodup_cons.mp hnd).2
        have : a ++ prev :: kill :: post = (a ++ [prev]) ++ kill :: post := by simp
        rw [this] at hnd2
        have hd := (List.nodup_append.mp hnd2).2.2
        exact hd hmem (List.mem_cons_self _ _)
      simp only [kill_buffer_unlink, ne_eq, h2, not_false_eq_true, hnn, and_self, if_true,
        if_neg hne]
      exact ih _ f hl.2.2 (by simpa using hf)

theorem kill_buffer_unlink_absent (s : State) (kill : BufPtr) :
    ∀ (l : List BufPtr) (it : BufPtr) (fuel : Nat),
      BufList s it l → kill ∉ l → l.length < fuel →
      kill_buffer_unlink kill fuel s it = some s := by
  intro l
  induction l with
  | nil =>
    intro it fuel hl _ hf
    cases fuel with
    | zero => simp at hf
    | succ f =>
      have : it = NULL := hl
      simp [kill_buffer_unlink, this]
  | cons x l ih =>
    intro it fuel hl hno hf
    cases fuel with
    | zero => simp at hf
    | succ f =>
      have h1 : it = x := hl.1
      subst h1
      by_cases hn : (s.bufAt it).next = NULL
      · simp [kill_buffer_unlink, hn]
      · have hne : ¬ (s.bufAt it).next = kill := by
          intro e
          cases l with
          | nil => exact hn hl.2.2
          | cons y r =>
            have : (s.bufAt it).next = y := hl.2.2.1
            apply hno
            rw [← e, this]
            simp
        simp only [kill_buffer_unlink, ne_eq, hl.2.1, not_false_eq_true, hn, and_self, if_true,
          if_neg hne]
        exact ih _ f hl.2.2 (fun hm => hno (List.mem_cons_of_mem _ hm)) (by simpa using hf)

theorem unlink_list (s : State) (kill prev hd : BufPtr) (a post : List BufPtr)
    (hl : BufList s hd (a ++ prev :: kill :: post)) :
    BufList (s.setBuf prev { s.bufAt prev with next := (s.bufAt kill).next }) hd
      (a ++ prev :: post) := by
  have hnd := bufList_nodup s _ _ hl
  obtain ⟨hnn, heq⟩ := (bufList_iff s _ _).mp hl
  have hsplit : (hd :: a.map (fun b => (s.bufAt b).next))
        ++ ((s.bufAt prev).next :: (s.bufAt kill).next :: post.map (fun b => (s.bufAt b).next))
      = (a ++ [prev]) ++ (kill :: (post ++ [NULL])) := by
    simpa using heq
  obtain ⟨hA, hB⟩ := List.append_inj hsplit (by simp)
  have hC : (s.bufAt kill).next :: post.map (fun b => (s.bufAt b).next) = post ++ [NULL] :=
    (List.cons.inj hB).2
  have hnd2 : ((a ++ [prev]) ++ kill :: post).Nodup := by simpa using hnd
  have hprev_a : prev ∉ a := by
    have := (List.nodup_append.mp hnd2).1
    have h3 := List.nodup_append.mp this
    intro hm
    exact h3.2.2 hm (List.mem_singleton_self _)
  have hprev_post : prev ∉ post := by
    intro hm
    exact (List.nodup_append.mp hnd2).2.2 (by simp) (List.mem_cons_of_mem _ hm)
  have hnext : ∀ x, x ≠ prev →
      ((s.setBuf prev { s.bufAt prev with next := (s.bufAt kill).next }).bufAt x).next
        = (s.bufAt x).next := by
    intro x hx
    simp [State.setBuf, hx]
  have hnextp :
      ((s.setBuf prev { s.bufAt prev with next := (s.bufAt kill).next }).bufAt prev).next
        = (s.bufAt kill).next := by
    simp [State.setBuf]
  apply (bufList_iff _ _ _).mpr
  constructor
  · intro b hb
    apply hnn
    rcases List.mem_append.mp hb with h | h
    · exact List.mem_append_left _ h
    · rcases List.mem_cons.mp h with rfl | h
      · simp
      · simp [h]
  · have hmap_a : a.map (fun b =>
          ((s.setBuf prev { s.bufAt prev with next := (s.bufAt kill).next }).bufAt b).next)
        = a.map (fun b => (s.bufAt b).next) :=
      List.map_congr_left (fun x hx => hnext x (fun e => hprev_a (e ▸ hx)))
    have hmap_post : post.map (fun b =>
          ((s.setBuf prev { s.bufAt prev with next := (s.bufAt kill).next }).bufAt b).next)
        = post.map (fun b => (s.bufAt b).next) :=
      List.map_congr_left (fun x hx => hnext x (fun e => hprev_post (e ▸ hx)))
    simp only [List.map_cons, List.map_append]
    rw [hmap_a, hmap_post, hnextp]
    have h1 : hd :: (a.map (fun b => (s.bufAt b).next)
          ++ (s.bufAt kill).next :: post.map (fun b => (s.bufAt b).next))
        = (hd :: a.map (fun b => (s.bufAt b).next))
          ++ ((s.bufAt kill).next :: post.map (fun b => (s.bufAt b).next)) := rfl
    rw [h1, hA, hC]
    simp


theorem retarget_winAt (kill succ : BufPtr) (t : State) (x w : WinPtr) :
    (kill_buffer_retarget kill succ t x).winAt w
      = if w = x ∧ (t.winAt x).bp = kill then
          { t.winAt x with bp := succ, topdelta := 0, saved_pt := NULL }
        else t.winAt w := by
  unfold kill_buffer_retarget
  by_cases hk : (t.winAt x).bp = kill
  · by_cases hw : w = x
    · simp [hk, hw, State.setWin]
    · simp [hk, hw, State.setWin]
  · simp [hk]

theorem foldl_retarget (kill succ : BufPtr) (hne : succ ≠ kill) :
    ∀ (ws : List WinPtr) (t : State) (w : WinPtr),
      (ws.foldl (kill_buffer_retarget kill succ) t).winAt w
        = if w ∈ ws ∧ (t.winAt w).bp = kill then
            { t.winAt w with bp := succ, topdelta := 0, saved_pt := NULL }
          else t.winAt w := by
  intro ws
  induction ws with
  | nil => intro t w; simp
  | cons x r ih =>
    intro t w
    rw [List.foldl_cons, ih]
    simp only [retarget_winAt]
    by_cases hw : w = x
    · subst hw
      by_cases hk : (t.winAt w).bp = kill
      · simp [hk, hne]
      · simp [hk]
    · by_cases hk : (t.winAt w).bp = kill
      · simp [hw, hk]
      · simp [hw, hk]

theorem resync_saved_pt (next_bp : BufPtr) (t : State) (wp q : WinPtr) :
    ((kill_buffer_resync next_bp t wp).winAt q).saved_pt = (t.winAt q).saved_pt := by
  unfold kill_buffer_resync
  split
  · simp only [resync_redisplay, State.setWin]
    by_cases hq : q = wp
    · simp [hq]
    · simp [hq]
  · rfl


theorem kill_buffer_unlink_spec (u : State) (kill hd0 : BufPtr) (pre post : List BufPtr)
    (fuel : Nat) (hl : BufList u hd0 (pre ++ kill :: post))
    (hhead : u.head_bp = if pre = [] then (u.bufAt kill).next else hd0)
    (hf : (pre ++ kill :: post).length < fuel) :
    ∃ v, kill_buffer_unlink kill fuel u u.head_bp = some v ∧
      BufList v v.head_bp (pre ++ post) ∧ v.head_bp = u.head_bp ∧
      v.winAt = u.winAt ∧ v.markerAt = u.markerAt ∧ v.head_wp = u.head_wp ∧
      v.cur_bp = u.cur_bp ∧ v.bufAt kill = u.bufAt kill := by
  have hnd := bufList_nodup u _ _ hl
  have hlen : pre.length + post.length + 1 < fuel := by
    simp at hf; omega
  obtain ⟨m, hm⟩ := bufList_suffix u pre (kill :: post) _ hl
  have hpost : BufList u (u.bufAt kill).next post := hm.2.2
  have hkpost : kill ∉ post := by
    have := (List.nodup_append.mp hnd).2.1
    exact (List.nodup_cons.mp this).1
  have hkpre : kill ∉ pre := by
    intro hmem
    exact (List.nodup_append.mp hnd).2.2 hmem (List.mem_cons_self _ _)
  rcases List.eq_nil_or_concat pre with hnil | ⟨a, prev, hpre⟩
  · subst hnil
    simp only [if_true] at hhead
    refine ⟨u, ?_, ?_, rfl, rfl, rfl, rfl, rfl, rfl⟩
    · rw [hhead]
      exact kill_buffer_unlink_absent u kill post _ fuel hpost hkpost (by omega)
    · rw [hhead]; simpa using hpost
  · rw [List.concat_eq_append] at hpre
    subst hpre
    have hne : ¬ (a ++ [prev] = []) := by simp
    rw [if_neg hne] at hhead
    have hl2 : BufList u hd0 (a ++ prev :: kill :: post) := by simpa using hl
    have hprev : prev ≠ kill := by
      intro e
      apply hkpre
      rw [e]; simp
    refine ⟨u.setBuf prev { u.bufAt prev with next := (u.bufAt kill).next },
      ?_, ?_, rfl, rfl, rfl, rfl, rfl, ?_⟩
    · rw [hhead]
      exact kill_buffer_unlink_found u kill prev post a hd0 fuel hl2 (by simp at hlen; omega)
    · have := unlink_list u kill prev hd0 a post hl2
      have hh : (u.setBuf prev { u.bufAt prev with next := (u.bufAt kill).next }).head_bp
          = hd0 := hhead
      rw [hh]
      simpa using this
    · simp [State.setBuf, hprev.symm]


theorem kill_buffer_successor_spec (s : State) (kill : BufPtr) (pre post : List BufPtr)
    (hl : BufList s s.head_bp (pre ++ kill :: post)) (h2 : 1 ≤ pre.length + post.length) :
    kill_buffer_successor s kill = post.head?.getD s.head_bp ∧
    kill_buffer_successor s kill ∈ pre ++ post ∧
    kill_buffer_successor s kill ≠ kill ∧ kill_buffer_successor s kill ≠ NULL := by
  have hnd := bufList_nodup s _ _ hl
  have hnn := ((bufList_iff s _ _).mp hl).1
  obtain ⟨m, hm⟩ := bufList_suffix s pre (kill :: post) _ hl
  have hpost : BufList s (s.bufAt kill).next post := hm.2.2
  have hkpost : kill ∉ post := by
    have := (List.nodup_append.mp hnd).2.1
    exact (List.nodup_cons.mp this).1
  have hkpre : kill ∉ pre := by
    intro hmem
    exact (List.nodup_append.mp hnd).2.2 hmem (List.mem_cons_self _ _)
  cases post with
  | cons y r =>
    have hy : (s.bufAt kill).next = y := hpost.1
    have hyn : y ≠ NULL := hpost.2.1
    have hsucc : kill_buffer_successor s kill = y := by
      simp [kill_buffer_successor, hy, hyn]
    rw [hsucc]
    refine ⟨by simp, by simp, ?_, hyn⟩
    intro e
    apply hkpost
    rw [← e]; simp
  | nil =>
    have hnx : (s.bufAt kill).next = NULL := hpost
    cases pre with
    | nil => simp at h2
    | cons x p =>
      have hx : s.head_bp = x := hl.1
      have hxk : x ≠ kill := by
        intro e
        apply hkpre
        rw [e]; simp
      have hsucc : kill_buffer_successor s kill = s.head_bp := by
        simp [kill_buffer_successor, hnx, hx, hxk]
      rw [hsucc]
      refine ⟨by simp, by rw [hx]; simp, by rw [hx]; exact hxk, by rw [hx]; exact hl.2.1⟩

theorem kill_buffer_many_spec (s : State) (kill : BufPtr) (pre post : List BufPtr)
    (ws : List WinPtr) (fuel : Nat)
    (hl : BufList s s.head_bp (pre ++ kill :: post)) (h2 : 1 ≤ pre.length + post.length)
    (hw : WinList s s.head_wp ws) (hm : MarkersOwned s kill)
    (hf0 : (pre ++ kill :: post).length < fuel) (hf1 : ws.length < fuel)
    (hf2 : (s.bufAt kill).markers.length < fuel) :
    ∃ t, kill_buffer fuel s kill = some t ∧
      BufList t t.head_bp (pre ++ post) ∧
      WinList t t.head_wp ws ∧
      (∀ w ∈ ws, (s.winAt w).bp = kill →
        (t.winAt w).bp = kill_buffer_successor s kill ∧ (t.winAt w).saved_pt = NULL) ∧
      (∀ w, (s.winAt w).bp ≠ kill → (t.winAt w).bp = (s.winAt w).bp) ∧
      t.cur_bp = (if s.cur_bp = kill then kill_buffer_successor s kill else s.cur_bp) ∧
      (t.bufAt kill).markers = [] := by
  obtain ⟨_, hsmem, hsk, hsn⟩ := kill_buffer_successor_spec s kill pre post hl h2
  have hnd := bufList_nodup s _ _ hl
  have hkn : kill ≠ NULL := ((bufList_iff s _ _).mp hl).1 kill (by simp)
  have hkpre : kill ∉ pre := by
    intro hmem
    exact (List.nodup_append.mp hnd).2.2 hmem (List.mem_cons_self _ _)
  generalize hsuc : kill_buffer_successor s kill = succ at *
  -- phase 1
  have h1 := for_windows_eq_foldl (kill_buffer_retarget kill succ) (retarget_next kill succ)
    ws s s.head_wp fuel hw hf1
  have hpres : ∀ {α : Type} (g : State → α),
      (∀ (t : State) (w : Window) (wp : WinPtr), g (t.setWin wp w) = g t) →
      g (ws.foldl (kill_buffer_retarget kill succ) s) = g s := by
    intro α g hg
    apply foldl_preserves g
    intro t wp
    unfold kill_buffer_retarget
    split
    · simp only [hg]
    · rfl
  have s1_buf := hpres (fun t => t.bufAt) (fun _ _ _ => rfl)
  have s1_mk := hpres (fun t => t.markerAt) (fun _ _ _ => rfl)
  have s1_head := hpres (fun t => t.head_bp) (fun _ _ _ => rfl)
  have s1_hwp := hpres (fun t => t.head_wp) (fun _ _ _ => rfl)
  have s1_cur := hpres (fun t => t.cur_bp) (fun _ _ _ => rfl)
  have s1_wl : WinList (ws.foldl (kill_buffer_retarget kill succ) s) s.head_wp ws :=
    foldl_winList _ (retarget_next kill succ) ws s ws _ hw
  have s1_win := foldl_retarget kill succ hsk ws s
  simp only at s1_buf s1_mk s1_head s1_hwp s1_cur
  unfold kill_buffer
  simp only [hsuc, h1, Option.some_bind, if_neg hsn]
  generalize ws.foldl (kill_buffer_retarget kill succ) s = s1 at *
  -- phase 2
  have hg : (kill_buffer_globals kill succ s1).head_bp
        = (if pre = [] then (s1.bufAt kill).next else s.head_bp) ∧
      (kill_buffer_globals kill succ s1).bufAt = s1.bufAt ∧
      (kill_buffer_globals kill succ s1).markerAt = s1.markerAt ∧
      (kill_buffer_globals kill succ s1).winAt = s1.winAt ∧
      (kill_buffer_globals kill succ s1).head_wp = s1.head_wp ∧
      (kill_buffer_globals kill succ s1).cur_bp
        = (if s1.cur_bp = kill then succ else s1.cur_bp) := by
    have hhd : s.head_bp = kill ↔ pre = [] := by
      constructor
      · intro e
        cases pre with
        | nil => rfl
        | cons x p =>
          exfalso
          apply hkpre
          rw [← e, hl.1]; simp
      · intro e
        subst e
        exact hl.1
    unfold kill_buffer_globals
    by_cases hc : s1.cur_bp = kill
    · by_cases hp : pre = []
      · simp [hc, s1_head, hhd.mpr hp, hp]
      · simp [hc, s1_head, mt hhd.mp hp, hp]
    · by_cases hp : pre = []
      · simp [hc, s1_head, hhd.mpr hp, hp]
      · simp [hc, s1_head, mt hhd.mp hp, hp]
  obtain ⟨g1, g2, g3, g4, g5, g6⟩ := hg
  generalize kill_buffer_globals kill succ s1 = s3 at *
  -- phase 3
  have hl3 : BufList s3 s.head_bp (pre ++ kill :: post) :=
    bufList_same_bufAt s s3 (by rw [g2, s1_buf]) _ _ hl
  obtain ⟨s4, h4, l4, e1, e2, e3, e4, e5, e6⟩ :=
    kill_buffer_unlink_spec s3 kill s.head_bp pre post fuel hl3
      (by rw [g1, g2]) hf0
  rw [h4, Option.some_bind]
  -- phase 4
  have hown4 : MarkersOwned s4 kill := by
    unfold MarkersOwned at hm ⊢
    rw [e6, e3, g2, g3, s1_buf, s1_mk]
    exact hm
  obtain ⟨s5, h5, m5, f2, f3, f4, f5, _, f7⟩ :=
    free_buffer_spec kill hkn (s4.bufAt kill).markers s4 fuel rfl hown4
      (by rw [e6, g2, s1_buf]; exact hf2)
  rw [h5, Option.some_bind]
  -- phase 5
  have hwl5 : WinList s5 s5.head_wp ws := by
    rw [f3, e4, g5, s1_hwp]
    apply winList_congr _ ws _ s1_wl
    intro w
    rw [f2, e2, g4]
  have ht := for_windows_eq_foldl (kill_buffer_resync succ) (resync_next succ)
    ws s5 s5.head_wp fuel hwl5 hf1
  rw [ht]
  have hres : ∀ {α : Type} (g : State → α),
      (∀ (t : State) (w : Window) (wp : WinPtr), g (t.setWin wp w) = g t) →
      g (ws.foldl (kill_buffer_resync succ) s5) = g s5 := by
    intro α g hg
    apply foldl_preserves g
    intro t wp
    unfold kill_buffer_resync resync_redisplay
    split
    · simp only [hg]
    · rfl
  have t_hwp := hres (fun t => t.head_wp) (fun _ _ _ => rfl)
  have t_head := hres (fun t => t.head_bp) (fun _ _ _ => rfl)
  have t_cur := hres (fun t => t.cur_bp) (fun _ _ _ => rfl)
  have t_buf := hres (fun t => t.bufAt) (fun _ _ _ => rfl)
  have t_wl : WinList (ws.foldl (kill_buffer_resync succ) s5) s5.head_wp ws :=
    foldl_winList _ (resync_next succ) ws _ ws _ hwl5
  have t_bp : ∀ w, ((ws.foldl (kill_buffer_resync succ) s5).winAt w).bp
      = (s5.winAt w).bp := fun w =>
    foldl_preserves (fun t => (t.winAt w).bp) _ (fun t wp => resync_bp _ t wp w) ws s5
  have t_sp : ∀ w, ((ws.foldl (kill_buffer_resync succ) s5).winAt w).saved_pt
      = (s5.winAt w).saved_pt := fun w =>
    foldl_preserves (fun t => (t.winAt w).saved_pt) _
      (fun t wp => resync_saved_pt _ t wp w) ws s5
  simp only at t_hwp t_head t_cur t_buf
  have hwin5 : s5.winAt = s1.winAt := by rw [f2, e2, g4]
  refine ⟨_, rfl, ?_, ?_, ?_, ?_, ?_, ?_⟩
  · rw [t_head, f4]
    apply bufList_congr _ _ _ l4
    intro b
    rw [t_buf, f7]
  · rw [t_hwp]; exact t_wl
  · intro w hwm hk
    rw [t_bp, t_sp, hwin5, s1_win]
    simp [hwm, hk]
  · intro w hk
    rw [t_bp, hwin5, s1_win]
    simp [hk]
  · rw [t_cur, f5, e5, g6, s1_cur]
  · rw [t_buf]; exact m5


/-- C11: for a buffer list `pre ++ kill_bp :: post` (duplicate-free as every `NULL`-ended
list is) with at least two buffers, a window list `ws` and a well-formed marker chain of
`kill_bp`, `kill_buffer (kill_bp)` leaves the buffer list `pre ++ post`: the old list
without `kill_bp`, the others in their old order. The successor is the first buffer of
`post` if there is one and the list head otherwise; every window of `ws` that displayed
`kill_bp` displays the successor and has no saved point, every other window keeps its
buffer, so no window of `ws` displays `kill_bp`; `cur_bp` is the successor if it was
`kill_bp` and unchanged otherwise; the marker chain of `kill_bp` is empty. -/
theorem kill_buffer_removes_and_retargets (s : State) (kill : BufPtr)
    (pre post : List BufPtr) (ws : List WinPtr) (fuel : Nat)
    (hl : BufList s s.head_bp (pre ++ kill :: post)) (h2 : 1 ≤ pre.length + post.length)
    (hw : WinList s s.head_wp ws) (hm : MarkersOwned s kill)
    (hf0 : (pre ++ kill :: post).length < fuel) (hf1 : ws.length < fuel)
    (hf2 : (s.bufAt kill).markers.length < fuel) :
    ∃ t, kill_buffer fuel s kill = some t ∧
      BufList t t.head_bp (pre ++ post) ∧
      pre ++ post = (pre ++ kill :: post).erase kill ∧
      (pre ++ kill :: post).Nodup ∧
      kill_buffer_successor s kill = post.head?.getD s.head_bp ∧
      kill_buffer_successor s kill ∈ pre ++ post ∧
      (∀ w ∈ ws, (s.winAt w).bp = kill →
        (t.winAt w).bp = kill_buffer_successor s kill ∧ (t.winAt w).saved_pt = NULL) ∧
      (∀ w, (s.winAt w).bp ≠ kill → (t.winAt w).bp = (s.winAt w).bp) ∧
      (∀ w ∈ ws, (t.winAt w).bp ≠ kill) ∧
      t.cur_bp = (if s.cur_bp = kill then kill_buffer_successor s kill else s.cur_bp) ∧
      (t.bufAt kill).markers = [] := by
  obtain ⟨t, ht, h1, _, h3, h4, h5, h6⟩ :=
    kill_buffer_many_spec s kill pre post ws fuel hl h2 hw hm hf0 hf1 hf2
  obtain ⟨k1, k2, k3, _⟩ := kill_buffer_successor_spec s kill pre post hl h2
  have hnd := bufList_nodup s _ _ hl
  have hkpre : kill ∉ pre := by
    intro hmem
    exact (List.nodup_append.mp hnd).2.2 hmem (List.mem_cons_self _ _)
  refine ⟨t, ht, h1, ?_, hnd, k1, k2, h3, h4, ?_, h5, h6⟩
  · rw [List.erase_append_right _ hkpre, List.erase_cons_head]
  · intro w hwm
    by_cases hk : (s.winAt w).bp = kill
    · rw [(h3 w hwm hk).1]; exact k3
    · rw [h4 w hk]; exact hk

/-- C11 witness: in the example state (buffers 1, 2; windows 1, 2) killing buffer 1 leaves
the list of buffer 2 alone, which window 1 then displays. -/
theorem kill_buffer_removes_and_retargets_witness :
    ∃ t, kill_buffer 3 exState 1 = some t ∧ BufList t t.head_bp [2] ∧
      (t.winAt 1).bp = 2 ∧ t.cur_bp = 2 :=
  let ⟨t, h1, h2, _, _, _, _, h7, _, _, h10, _⟩ :=
    kill_buffer_removes_and_retargets exState 1 [] [2] [1, 2] 3 (by decide) (by decide)
      (by decide) (by decide) (by decide) (by decide) (by decide)
  ⟨t, h1, h2, (h7 1 (by decide) rfl).1, h10⟩

/-! ## Claims on temporary buffers -/

theorem set_temporary_buffer_unlink_found (s : State) (bp prev : BufPtr)
    (post : List BufPtr) :
    ∀ (a : List BufPtr) (it : BufPtr) (fuel : Nat),
      BufList s it (a ++ prev :: bp :: post) → a.length < fuel →
      set_temporary_buffer_unlink bp fuel s it
        = some (s.setBuf prev { s.bufAt prev with next := (s.bufAt bp).next }) := by
  intro a
  induction a with
  | nil =>
    intro it fuel hl hf
    cases fuel with
    | zero => simp at hf
    | succ f =>
      have h1 : it = prev := hl.1
      have h2 : prev ≠ NULL := hl.2.1
      have h3 : (s.bufAt prev).next = bp := hl.2.2.1
      subst h1
      simp [set_temporary_buffer_unlink, h2, h3]
  | cons x a ih =>
    intro it fuel hl hf
    cases fuel with
    | zero => simp at hf
    | succ f =>
      have hnd := bufList_nodup s _ _ hl
      have h1 : it = x := hl.1
      have h2 : x ≠ NULL := hl.2.1
      subst h1
      obtain ⟨hmem, _⟩ := bufList_append_head s a (bp :: post) prev _ hl.2.2
      have hne : ¬ (s.bufAt it).next = bp := by
        intro e
        rw [e] at hmem
        have hnd2 : (a ++ prev :: bp :: post).Nodup := (List.nodup_cons.mp hnd).2
        have : a ++ prev :: bp :: post = (a ++ [prev]) ++ bp :: post := by simp
        rw [this] at hnd2
        exact (List.nodup_append.mp hnd2).2.2 hmem (List.mem_cons_self _ _)
      simp only [set_temporary_buffer_unlink, if_neg h2, if_neg hne]
      exact ih _ f hl.2.2 (by simpa using hf)

theorem set_temporary_buffer_unlink_absent (s : State) (bp : BufPtr) (hbp : bp ≠ NULL) :
    ∀ (l : List BufPtr) (it : BufPtr) (fuel : Nat),
      BufList s it l → bp ∉ l → l.length < fuel →
      set_temporary_buffer_unlink bp fuel s it = some s := by
  intro l
  induction l with
  | nil =>
    intro it fuel hl _ hf
    cases fuel with
    | zero => simp at hf
    | succ f =>
      have : it = NULL := hl
      simp [set_temporary_buffer_unlink, this]
  | cons x l ih =>
    intro it fuel hl hno hf
    cases fuel with
    | zero => simp at hf
    | succ f =>
      have h1 : it = x := hl.1
      subst h1
      have hne : ¬ (s.bufAt it).next = bp := by
        intro e
        cases l with
        | nil =>
          have : (s.bufAt it).next = NULL := hl.2.2
          exact hbp (e ▸ this)
        | cons y r =>
          have : (s.bufAt it).next = y := hl.2.2.1
          apply hno
          rw [← e, this]
          simp
      simp only [set_temporary_buffer_unlink, if_neg hl.2.1, if_neg hne]
      exact ih _ f hl.2.2 (fun hm => hno (List.mem_cons_of_mem _ hm)) (by simpa using hf)

theorem set_temporary_buffer_last_spec (s : State) (lst : BufPtr) :
    ∀ (a : List BufPtr) (it : BufPtr) (fuel : Nat),
      BufList s it (a ++ [lst]) → a.length < fuel →
      set_temporary_buffer_last fuel s it = some lst := by
  intro a
  induction a with
  | nil =>
    intro it fuel hl hf
    cases fuel with
    | zero => simp at hf
    | succ f =>
      have h1 : it = lst := hl.1
      have h3 : (s.bufAt lst).next = NULL := hl.2.2
      subst h1
      simp [set_temporary_buffer_last, h3]
  | cons x a ih =>
    intro it fuel hl hf
    cases fuel with
    | zero => simp at hf
    | succ f =>
      have h1 : it = x := hl.1
      subst h1
      obtain ⟨_, hnn⟩ := bufList_append_head s a [] lst _ hl.2.2
      simp only [set_temporary_buffer_last, ne_eq, hnn, not_false_eq_true, if_true]
      exact ih _ f hl.2.2 (by simpa using hf)

theorem set_buffer_next_next (s : State) (b v x : BufPtr) :
    ((set_buffer_next s b v).bufAt x).next = if x = b then v else (s.bufAt x).next := by
  unfold set_buffer_next State.setBuf
  by_cases h : x = b
  · simp [h]
  · simp [h]

theorem append_tail_list (u : State) (hd bp lst : BufPtr) (a : List BufPtr)
    (hl : BufList u hd (a ++ [lst])) (hno : bp ∉ a ++ [lst]) (hbp : bp ≠ NULL) :
    BufList (set_buffer_next (set_buffer_next u lst bp) bp NULL) hd (a ++ [lst, bp]) := by
  have hnd := bufList_nodup u _ _ hl
  obtain ⟨hnn, heq⟩ := (bufList_iff u _ _).mp hl
  have hbl : bp ≠ lst := fun e => hno (by rw [e]; simp)
  have hba : bp ∉ a := fun hm => hno (List.mem_append_left _ hm)
  have hla : lst ∉ a := by
    intro hm
    exact (List.nodup_append.mp hnd).2.2 hm (List.mem_singleton_self _)
  have hsplit : (hd :: a.map (fun b => (u.bufAt b).next)) ++ [(u.bufAt lst).next]
      = (a ++ [lst]) ++ [NULL] := by
    simpa using heq
  obtain ⟨hA, _⟩ := List.append_inj hsplit (by simp)
  apply (bufList_iff _ _ _).mpr
  constructor
  · intro b hb
    rcases List.mem_append.mp hb with h | h
    · exact hnn b (List.mem_append_left _ h)
    · simp only [List.mem_cons, List.mem_singleton, List.not_mem_nil, or_false] at h
      rcases h with rfl | rfl
      · exact hnn _ (by simp)
      · exact hbp
  · have hmap_a : a.map (fun b =>
          ((set_buffer_next (set_buffer_next u lst bp) bp NULL).bufAt b).next)
        = a.map (fun b => (u.bufAt b).next) := by
      apply List.map_congr_left
      intro x hx
      have h1 : x ≠ bp := fun e => hba (e ▸ hx)
      have h2 : x ≠ lst := fun e => hla (e ▸ hx)
      simp [set_buffer_next_next, h1, h2]
    simp only [List.map_cons, List.map_append, List.map_nil]
    rw [hmap_a, ← List.cons_append, hA]
    simp [set_buffer_next_next, hbl.symm]


theorem set_buffer_next_temporary (s : State) (b v x : BufPtr) :
    ((set_buffer_next s b v).bufAt x).temporary = (s.bufAt x).temporary := by
  unfold set_buffer_next State.setBuf
  by_cases h : x = b
  · simp [h]
  · simp [h]

theorem set_temporary_buffer_move_spec (u : State) (bp hd0 : BufPtr)
    (pre post : List BufPtr) (lst : BufPtr) (fuel : Nat)
    (hl : BufList u hd0 (pre ++ bp :: (post ++ [lst])))
    (hhead : u.head_bp = if pre = [] then (u.bufAt bp).next else hd0)
    (hf : (pre ++ bp :: (post ++ [lst])).length < fuel) :
    ∃ t, set_temporary_buffer_move fuel u bp = some t ∧
      BufList t t.head_bp (pre ++ (post ++ [lst]) ++ [bp]) ∧ t.head_bp = u.head_bp ∧
      (t.bufAt bp).temporary = (u.bufAt bp).temporary ∧
      t.cur_bp = u.cur_bp ∧ t.winAt = u.winAt := by
  have hnd := bufList_nodup u _ _ hl
  have hnn := ((bufList_iff u _ _).mp hl).1
  have hbpn : bp ≠ NULL := hnn bp (by simp)
  have hlen : pre.length + post.length + 2 < fuel := by
    simp at hf; omega
  obtain ⟨m, hm⟩ := bufList_suffix u pre (bp :: (post ++ [lst])) _ hl
  have hpost : BufList u (u.bufAt bp).next (post ++ [lst]) := hm.2.2
  have hkpost : bp ∉ post ++ [lst] := by
    have := (List.nodup_append.mp hnd).2.1
    exact (List.nodup_cons.mp this).1
  have hkpre : bp ∉ pre := by
    intro hmem
    exact (List.nodup_append.mp hnd).2.2 hmem (List.mem_cons_self _ _)
  unfold set_temporary_buffer_move
  rcases List.eq_nil_or_concat pre with hnil | ⟨a, prev, hpre⟩
  · subst hnil
    simp only [if_true] at hhead
    have h1 := set_temporary_buffer_unlink_absent u bp hbpn (post ++ [lst]) _ fuel hpost
      hkpost (by simp; omega)
    rw [hhead, h1, Option.some_bind, hhead]
    have h2 := set_temporary_buffer_last_spec u lst post _ fuel hpost (by omega)
    rw [h2, Option.some_bind]
    refine ⟨_, rfl, ?_, hhead, ?_, rfl, rfl⟩
    · have := append_tail_list u _ bp lst post hpost hkpost hbpn
      have hh : (set_buffer_next (set_buffer_next u lst bp) bp NULL).head_bp
          = (u.bufAt bp).next := hhead
      rw [hh]
      simpa using this
    · rw [set_buffer_next_temporary, set_buffer_next_temporary]
  · rw [List.concat_eq_append] at hpre
    subst hpre
    have hne : ¬ (a ++ [prev] = []) := by simp
    rw [if_neg hne] at hhead
    have hl2 : BufList u hd0 (a ++ prev :: bp :: (post ++ [lst])) := by simpa using hl
    have h1 := set_temporary_buffer_unlink_found u bp prev (post ++ [lst]) a hd0 fuel hl2
      (by simp at hlen; omega)
    rw [hhead, h1, Option.some_bind]
    have hl3 := unlink_list u bp prev hd0 a (post ++ [lst]) hl2
    have hl4 : BufList (u.setBuf prev { u.bufAt prev with next := (u.bufAt bp).next }) hd0
        ((a ++ prev :: post) ++ [lst]) := by simpa using hl3
    have hh : (u.setBuf prev { u.bufAt prev with next := (u.bufAt bp).next }).head_bp
        = hd0 := hhead
    have h2 := set_temporary_buffer_last_spec _ lst (a ++ prev :: post) _ fuel hl4
      (by simp at hlen ⊢; omega)
    rw [hh, h2, Option.some_bind]
    have hno : bp ∉ (a ++ prev :: post) ++ [lst] := by
      intro hmem
      rcases List.mem_append.mp hmem with h | h
      · rcases List.mem_append.mp h with h | h
        · exact hkpre (List.mem_append_left _ h)
        · rcases List.mem_cons.mp h with h | h
          · exact hkpre (by rw [h]; simp)
          · exact hkpost (List.mem_append_left _ h)
      · exact hkpost (List.mem_append_right _ h)
    have hprev : prev ≠ bp := fun e => hkpre (by rw [e]; simp)
    refine ⟨_, rfl, ?_, hhead, ?_, rfl, rfl⟩
    · have := append_tail_list _ hd0 bp lst (a ++ prev :: post) hl4 hno hbpn
      have hh2 : (set_buffer_next (set_buffer_next
          (u.setBuf prev { u.bufAt prev with next := (u.bufAt bp).next }) lst bp) bp
          NULL).head_bp = hd0 := hhead
      rw [hh2]
      simpa using this
    · rw [set_buffer_next_temporary, set_buffer_next_temporary]
      simp [State.setBuf, hprev.symm]


theorem set_temporary_buffer_spec (s : State) (bp : BufPtr) (pre post : List BufPtr)
    (fuel : Nat) (hl : BufList s s.head_bp (pre ++ bp :: post))
    (hf : (pre ++ bp :: post).length < fuel) :
    ∃ t, set_temporary_buffer fuel s bp = some t ∧
      (t.bufAt bp).temporary = true ∧
      BufList t t.head_bp (pre ++ post ++ [bp]) ∧
      t.cur_bp = s.cur_bp ∧ t.winAt = s.winAt := by
  have hnd := bufList_nodup s _ _ hl
  have hkpre : bp ∉ pre := by
    intro hmem
    exact (List.nodup_append.mp hnd).2.2 hmem (List.mem_cons_self _ _)
  have hnext : ∀ x, ((set_buffer_temporary s bp true).bufAt x).next = (s.bufAt x).next := by
    intro x
    unfold set_buffer_temporary State.setBuf
    by_cases h : x = bp
    · simp [h]
    · simp [h]
  have htemp : ((set_buffer_temporary s bp true).bufAt bp).temporary = true := by
    simp [set_buffer_temporary, State.setBuf]
  have hhd : (set_buffer_temporary s bp true).head_bp = s.head_bp := rfl
  have hcur : (set_buffer_temporary s bp true).cur_bp = s.cur_bp := rfl
  have hwin : (set_buffer_temporary s bp true).winAt = s.winAt := rfl
  have hl1 : BufList (set_buffer_temporary s bp true) s.head_bp (pre ++ bp :: post) :=
    bufList_congr hnext _ _ hl
  unfold set_temporary_buffer
  simp only
  generalize set_buffer_temporary s bp true = s1 at *
  obtain ⟨m, hm⟩ := bufList_suffix s1 pre (bp :: post) _ hl1
  have hpost : BufList s1 (s1.bufAt bp).next post := hm.2.2
  have hheadbp : bp = s1.head_bp ↔ pre = [] := by
    rw [hhd]
    constructor
    · intro e
      cases pre with
      | nil => rfl
      | cons x p =>
        exfalso
        apply hkpre
        rw [e, hl1.1]; simp
    · intro e
      subst e
      exact hl1.1.symm
  rcases List.eq_nil_or_concat post with hnil | ⟨q, lst, hq⟩
  · subst hnil
    have hnx : (s1.bufAt bp).next = NULL := hpost
    by_cases hp : pre = []
    · have hb := hheadbp.mpr hp
      rw [if_pos hb, ← hb, if_pos hnx]
      refine ⟨s1, rfl, htemp, ?_, hcur, hwin⟩
      rw [hhd]
      simpa using hl1
    · have hb := mt hheadbp.mp hp
      rw [if_neg hb, if_pos hnx]
      refine ⟨s1, rfl, htemp, ?_, hcur, hwin⟩
      rw [hhd]
      simpa using hl1
  · rw [List.concat_eq_append] at hq
    subst hq
    obtain ⟨_, hnn⟩ := bufList_append_head s1 q [] lst _ hpost
    by_cases hp : pre = []
    · have hb := hheadbp.mpr hp
      rw [if_pos hb, ← hb, if_neg hnn]
      obtain ⟨t, ht, h1, _, h3, h4, h5⟩ :=
        set_temporary_buffer_move_spec { s1 with head_bp := (s1.bufAt bp).next } bp s.head_bp
          pre q lst fuel
          (bufList_same_bufAt s1 { s1 with head_bp := (s1.bufAt bp).next } rfl _ _ hl1)
          (by simp [hp]) hf
      exact ⟨t, ht, by rw [h3]; exact htemp, by simpa using h1, by rw [h4]; exact hcur,
        by rw [h5]; exact hwin⟩
    · have hb := mt hheadbp.mp hp
      rw [if_neg hb, if_neg hnn]
      obtain ⟨t, ht, h1, _, h3, h4, h5⟩ :=
        set_temporary_buffer_move_spec s1 bp s.head_bp pre q lst fuel hl1
          (by simp [hp, hhd]) hf
      exact ⟨t, ht, by rw [h3]; exact htemp, by simpa using h1, by rw [h4]; exact hcur,
        by rw [h5]; exact hwin⟩

/-- C12: for a buffer list `pre ++ bp :: post` (duplicate-free as every `NULL`-ended list
is), `set_temporary_buffer (bp)` sets the temporary flag of `bp` and leaves the list
`pre ++ post ++ [bp]`: `bp` is last, the other buffers keep their order, nothing is lost or
doubled (a permutation of the old list). When `bp` was the head and not alone, the head is
the old second buffer; when `bp` was already the tail, or the only buffer, the list is the
old one. -/
theorem set_temporary_buffer_moves_to_tail (s : State) (bp : BufPtr)
    (pre post : List BufPtr) (fuel : Nat)
    (hl : BufList s s.head_bp (pre ++ bp :: post))
    (hf : (pre ++ bp :: post).length < fuel) :
    ∃ t, set_temporary_buffer fuel s bp = some t ∧
      (t.bufAt bp).temporary = true ∧
      BufList t t.head_bp (pre ++ post ++ [bp]) ∧
      (pre ++ post ++ [bp]).getLast? = some bp ∧
      pre ++ post = (pre ++ bp :: post).erase bp ∧
      (pre ++ post ++ [bp]).Perm (pre ++ bp :: post) ∧
      (pre ++ bp :: post).Nodup ∧
      (pre = [] → ∀ y r, post = y :: r → t.head_bp = y) ∧
      (post = [] → pre ++ post ++ [bp] = pre ++ bp :: post) := by
  obtain ⟨t, ht, h1, h2, _, _⟩ := set_temporary_buffer_spec s bp pre post fuel hl hf
  have hnd := bufList_nodup s _ _ hl
  have hkpre : bp ∉ pre := by
    intro hmem
    exact (List.nodup_append.mp hnd).2.2 hmem (List.mem_cons_self _ _)
  refine ⟨t, ht, h1, h2, by simp, ?_, ?_, hnd, ?_, ?_⟩
  · rw [List.erase_append_right _ hkpre, List.erase_cons_head]
  · rw [List.append_assoc]
    exact List.Perm.append_left pre (List.perm_append_singleton bp post)
  · intro hp y r hpost
    subst hp; subst hpost
    exact h2.1
  · intro hp
    subst hp
    simp

/-- C12 witness: in the example state (list 1, 2) making buffer 1 temporary moves it
behind buffer 2. -/
theorem set_temporary_buffer_moves_to_tail_witness :
    ∃ t, set_temporary_buffer 3 exState 1 = some t ∧ (t.bufAt 1).temporary = true ∧
      BufList t t.head_bp [2, 1] :=
  let ⟨t, h1, h2, h3, _⟩ :=
    set_temporary_buffer_moves_to_tail exState 1 [] [2] 3 (by decide) (by decide)
  ⟨t, h1, h2, h3⟩

/-! ## Claims on the confirmation before a buffer is killed -/

/-- An unmodified buffer, or one flagged nosave, is killed without a prompt. -/
theorem check_modified_buffer_silent (s : State) (bp : BufPtr)
    (h : (s.bufAt bp).modified = false ∨ (s.bufAt bp).nosave = true) :
    check_modified_buffer s bp = (s, true) := by
  unfold check_modified_buffer
  rcases h with h | h <;> simp [h]

/-- A modified buffer not flagged nosave: the prompt is shown once and the three answers
give the three outcomes; a cancelled prompt runs `keyboard-quit`. -/
theorem check_modified_buffer_asked (s : State) (bp : BufPtr) (a : Option Bool)
    (rest : List (Option Bool))
    (hmod : (s.bufAt bp).modified = true) (hsave : (s.bufAt bp).nosave = false)
    (hans : s.yesno = a :: rest) :
    check_modified_buffer s bp =
      match a with
      | none => (minibuf_error (deactivate_mark
          { s with prompts := s.prompts ++ [kill_anyway_prompt s bp], yesno := rest }) "Quit",
          false)
      | some false =>
        ({ s with prompts := s.prompts ++ [kill_anyway_prompt s bp], yesno := rest }, false)
      | some true =>
        ({ s with prompts := s.prompts ++ [kill_anyway_prompt s bp], yesno := rest }, true) := by
  unfold check_modified_buffer minibuf_read_yesno
  rcases a with _ | _ | _ <;> simp [hmod, hsave, hans, F_keyboard_quit, cancel]

/-- The lookup of `kill-buffer` for a name that is empty or names a buffer. -/
theorem kill_buffer_find_target (fuel : Nat) (s : State) (name : CStr) (bp : BufPtr)
    (htarget : (name ≠ [] ∧ find_buffer fuel s name = some bp ∧ bp ≠ NULL) ∨
      (name = [] ∧ bp = s.cur_bp)) :
    kill_buffer_find fuel s (some name) true = some (s, bp, true) := by
  rcases htarget with ⟨hne, hf, hb⟩ | ⟨hnil, hb⟩
  · cases name with
    | nil => exact absurd rfl hne
    | cons c cs => simp [kill_buffer_find, hf, hb]
  · subst hnil; subst hb
    rfl

/-- C13 (amended): `check_modified_buffer (bp)` returns true without a prompt when `bp` is
unmodified or flagged nosave. When `bp` is modified and not nosave it prompts once and
returns true iff the answer is yes. On the answer no the `kill-buffer` command returns
false and the state is the one before the command, the answered prompt apart. When the
prompt is cancelled the command returns false after `keyboard-quit` has run: the mark of
the current buffer is deactivated and the message is `Quit`; the buffer list, the current
buffer, the windows, the lines, the markers, every other buffer and every other field of
the current buffer are as before. -/
theorem kill_buffer_confirmation (fuel : Nat) (s : State) (name : CStr) (bp : BufPtr)
    (a : Option Bool) (rest : List (Option Bool))
    (hmod : (s.bufAt bp).modified = true) (hsave : (s.bufAt bp).nosave = false)
    (hans : s.yesno = a :: rest)
    (htarget : (name ≠ [] ∧ find_buffer fuel s name = some bp ∧ bp ≠ NULL) ∨
      (name = [] ∧ bp = s.cur_bp)) :
    (∀ s0 b0, (s0.bufAt b0).modified = false ∨ (s0.bufAt b0).nosave = true →
        check_modified_buffer s0 b0 = (s0, true)) ∧
    ((check_modified_buffer s bp).2 = true ↔ a = some true) ∧
    (check_modified_buffer s bp).1.prompts = s.prompts ++ [kill_anyway_prompt s bp] ∧
    (a = some true → F_kill_buffer fuel s (some name) =
        (kill_buffer fuel
          { s with prompts := s.prompts ++ [kill_anyway_prompt s bp], yesno := rest } bp).map
          fun t => (t, true)) ∧
    (a = some false → F_kill_buffer fuel s (some name) =
        some ({ s with prompts := s.prompts ++ [kill_anyway_prompt s bp], yesno := rest },
          false)) ∧
    (a = none → ∃ t, F_kill_buffer fuel s (some name) = some (t, false) ∧
        t.head_bp = s.head_bp ∧ t.cur_bp = s.cur_bp ∧ t.head_wp = s.head_wp ∧
        t.winAt = s.winAt ∧ t.lineAt = s.lineAt ∧ t.markerAt = s.markerAt ∧
        (∀ b, b ≠ s.cur_bp → t.bufAt b = s.bufAt b) ∧
        t.bufAt s.cur_bp = { s.cur with mark_active := false } ∧
        t.minibuf = some "Quit") := by
  have hask := check_modified_buffer_asked s bp a rest hmod hsave hans
  have hfind := kill_buffer_find_target fuel s name bp htarget
  have hcmd : F_kill_buffer fuel s (some name) =
      if !(check_modified_buffer s bp).2 then some ((check_modified_buffer s bp).1, false)
      else (kill_buffer fuel (check_modified_buffer s bp).1 bp).map fun t => (t, true) := by
    simp only [F_kill_buffer, kill_buffer_read, hfind, Option.some_bind, if_true]
  refine ⟨check_modified_buffer_silent, ?_, ?_, ?_, ?_, ?_⟩
  · rw [hask]; rcases a with _ | _ | _ <;> simp
  · rw [hask]; rcases a with _ | _ | _ <;> simp [minibuf_error, deactivate_mark, State.setBuf]
  · intro ha; subst ha
    rw [hcmd, hask]; simp
  · intro ha; subst ha
    rw [hcmd, hask]; simp
  · intro ha; subst ha
    refine ⟨_, by rw [hcmd, hask]; simp; rfl, ?_⟩
    simp [minibuf_error, deactivate_mark, State.setBuf, State.cur]
    intro b hb
    simp [hb]

/-- C13 witness: buffer 1 of the example is modified and the user cancels the prompt. -/
theorem kill_buffer_confirmation_witness :
    ∃ t, F_kill_buffer 3 exModified (some []) = some (t, false) ∧
      t.head_bp = exModified.head_bp ∧ t.cur_bp = exModified.cur_bp ∧
      t.winAt = exModified.winAt ∧ t.minibuf = some "Quit" :=
  let ⟨t, h1, h2, h3, _, h5, _, _, _, _, h10⟩ :=
    (kill_buffer_confirmation 3 exModified [] 1 none [] rfl rfl rfl
      (Or.inr ⟨rfl, rfl⟩)).2.2.2.2.2 rfl
  ⟨t, h1, h2, h3, h5, h10⟩

/-- C13 counterexample: buffer 1 of the example is current and modified and its mark is
active; the user cancels the prompt of `kill-buffer`. The command returns false and the
mark of buffer 1 is no longer active: the state of the buffer is not as before. -/
theorem kill_buffer_cancel_deactivates_mark :
    (exModified.bufAt 1).mark_active = true ∧
    (check_modified_buffer exModified 1).2 = false ∧
    ((check_modified_buffer exModified 1).1.bufAt 1).mark_active = false ∧
    (F_kill_buffer 3 exModified (some [])).map
      (fun r => (r.2, (r.1.bufAt 1).mark_active)) = some (false, false) := by
  decide

/-! ## The fields of the state after a primitive step -/

@[simp] theorem setBuf_lineAt (s : State) (bp : BufPtr) (b : Buffer) :
    (s.setBuf bp b).lineAt = s.lineAt := rfl

@[simp] theorem setBuf_markerAt (s : State) (bp : BufPtr) (b : Buffer) :
    (s.setBuf bp b).markerAt = s.markerAt := rfl

@[simp] theorem setBuf_cur_bp (s : State) (bp : BufPtr) (b : Buffer) :
    (s.setBuf bp b).cur_bp = s.cur_bp := rfl

@[simp] theorem setBuf_fresh_marker (s : State) (bp : BufPtr) (b : Buffer) :
    (s.setBuf bp b).fresh_marker = s.fresh_marker := rfl

@[simp] theorem setBuf_fresh_line (s : State) (bp : BufPtr) (b : Buffer) :
    (s.setBuf bp b).fresh_line = s.fresh_line := rfl

@[simp] theorem setBuf_undo_nosave (s : State) (bp : BufPtr) (b : Buffer) :
    (s.setBuf bp b).undo_nosave = s.undo_nosave := rfl

@[simp] theorem setBuf_mark_ring (s : State) (bp : BufPtr) (b : Buffer) :
    (s.setBuf bp b).mark_ring = s.mark_ring := rfl

@[simp] theorem setPt_lineAt (s : State) (pt : Point) :
    (s.setPt pt).lineAt = s.lineAt := rfl

@[simp] theorem setPt_markerAt (s : State) (pt : Point) :
    (s.setPt pt).markerAt = s.markerAt := rfl

@[simp] theorem setPt_cur_bp (s : State) (pt : Point) :
    (s.setPt pt).cur_bp = s.cur_bp := rfl

@[simp] theorem setPt_fresh_marker (s : State) (pt : Point) :
    (s.setPt pt).fresh_marker = s.fresh_marker := rfl

@[simp] theorem setPt_fresh_line (s : State) (pt : Point) :
    (s.setPt pt).fresh_line = s.fresh_line := rfl

@[simp] theorem setPt_undo_nosave (s : State) (pt : Point) :
    (s.setPt pt).undo_nosave = s.undo_nosave := rfl

@[simp] theorem setPt_mark_ring (s : State) (pt : Point) :
    (s.setPt pt).mark_ring = s.mark_ring := rfl

@[simp] theorem needResync_lineAt (s : State) :
    (s.needResync).lineAt = s.lineAt := rfl

@[simp] theorem needResync_markerAt (s : State) :
    (s.needResync).markerAt = s.markerAt := rfl

@[simp] theorem needResync_cur_bp (s : State) :
    (s.needResync).cur_bp = s.cur_bp := rfl

@[simp] theorem needResync_fresh_marker (s : State) :
    (s.needResync).fresh_marker = s.fresh_marker := rfl

@[simp] theorem needResync_fresh_line (s : State) :
    (s.needResync).fresh_line = s.fresh_line := rfl

@[simp] theorem needResync_undo_nosave (s : State) :
    (s.needResync).undo_nosave = s.undo_nosave := rfl

@[simp] theorem needResync_mark_ring (s : State) :
    (s.needResync).mark_ring = s.mark_ring := rfl

@[simp] theorem minibuf_error_lineAt (s : State) (msg : String) :
    (minibuf_error s msg).lineAt = s.lineAt := rfl

@[simp] theorem minibuf_error_markerAt (s : State) (msg : String) :
    (minibuf_error s msg).markerAt = s.markerAt := rfl

@[simp] theorem minibuf_error_cur_bp (s : State) (msg : String) :
    (minibuf_error s msg).cur_bp = s.cur_bp := rfl

@[simp] theorem minibuf_error_fresh_marker (s : State) (msg : String) :
    (minibuf_error s msg).fresh_marker = s.fresh_marker := rfl

@[simp] theorem minibuf_error_fresh_line (s : State) (msg : String) :
    (minibuf_error s msg).fresh_line = s.fresh_line := rfl

@[simp] theorem minibuf_error_undo_nosave (s : State) (msg : String) :
    (minibuf_error s msg).undo_nosave = s.undo_nosave := rfl

@[simp] theorem minibuf_error_mark_ring (s : State) (msg : String) :
    (minibuf_error s msg).mark_ring = s.mark_ring := rfl

@[simp] theorem set_undo_nosave_lineAt (s : State) (v : Bool) :
    (set_undo_nosave s v).lineAt = s.lineAt := rfl

@[simp] theorem set_undo_nosave_markerAt (s : State) (v : Bool) :
    (set_undo_nosave s v).markerAt = s.markerAt := rfl

@[simp] theorem set_undo_nosave_cur_bp (s : State) (v : Bool) :
    (set_undo_nosave s v).cur_bp = s.cur_bp := rfl

@[simp] theorem set_undo_nosave_fresh_marker (s : State) (v : Bool) :
    (set_undo_nosave s v).fresh_marker = s.fresh_marker := rfl

@[simp] theorem set_undo_nosave_fresh_line (s : State) (v : Bool) :
    (set_undo_nosave s v).fresh_line = s.fresh_line := rfl

@[simp] theorem set_undo_nosave_mark_ring (s : State) (v : Bool) :
    (set_undo_nosave s v).mark_ring = s.mark_ring := rfl

@[simp] theorem setLine_markerAt (s : State) (p : LinePtr) (l : Line) :
    (s.setLine p l).markerAt = s.markerAt := rfl

@[simp] theorem setLine_cur_bp (s : State) (p : LinePtr) (l : Line) :
    (s.setLine p l).cur_bp = s.cur_bp := rfl

@[simp] theorem setLine_fresh_marker (s : State) (p : LinePtr) (l : Line) :
    (s.setLine p l).fresh_marker = s.fresh_marker := rfl

@[simp] theorem setLine_fresh_line (s : State) (p : LinePtr) (l : Line) :
    (s.setLine p l).fresh_line = s.fresh_line := rfl

@[simp] theorem setLine_undo_nosave (s : State) (p : LinePtr) (l : Line) :
    (s.setLine p l).undo_nosave = s.undo_nosave := rfl

@[simp] theorem setLine_mark_ring (s : State) (p : LinePtr) (l : Line) :
    (s.setLine p l).mark_ring = s.mark_ring := rfl

@[simp] theorem setMarker_lineAt (s : State) (m : MarkerPtr) (k : Marker) :
    (s.setMarker m k).lineAt = s.lineAt := rfl

@[simp] theorem setMarker_cur_bp (s : State) (m : MarkerPtr) (k : Marker) :
    (s.setMarker m k).cur_bp = s.cur_bp := rfl

@[simp] theorem setMarker_fresh_marker (s : State) (m : MarkerPtr) (k : Marker) :
    (s.setMarker m k).fresh_marker = s.fresh_marker := rfl

@[simp] theorem setMarker_fresh_line (s : State) (m : MarkerPtr) (k : Marker) :
    (s.setMarker m k).fresh_line = s.fresh_line := rfl

@[simp] theorem setMarker_undo_nosave (s : State) (m : MarkerPtr) (k : Marker) :
    (s.setMarker m k).undo_nosave = s.undo_nosave := rfl

@[simp] theorem setMarker_mark_ring (s : State) (m : MarkerPtr) (k : Marker) :
    (s.setMarker m k).mark_ring = s.mark_ring := rfl

@[simp] theorem relocate_markers_lineAt (s : State) (f : Marker → Point) :
    (relocate_markers s f).lineAt = s.lineAt := rfl

@[simp] theorem relocate_markers_cur_bp (s : State) (f : Marker → Point) :
    (relocate_markers s f).cur_bp = s.cur_bp := rfl

@[simp] theorem relocate_markers_fresh_marker (s : State) (f : Marker → Point) :
    (relocate_markers s f).fresh_marker = s.fresh_marker := rfl

@[simp] theorem relocate_markers_fresh_line (s : State) (f : Marker → Point) :
    (relocate_markers s f).fresh_line = s.fresh_line := rfl

@[simp] theorem relocate_markers_undo_nosave (s : State) (f : Marker → Point) :
    (relocate_markers s f).undo_nosave = s.undo_nosave := rfl

@[simp] theorem relocate_markers_mark_ring (s : State) (f : Marker → Point) :
    (relocate_markers s f).mark_ring = s.mark_ring := rfl

@[simp] theorem undo_save_lineAt (s : State) (ty : UndoType) (pt : Point) (a1 a2 : Int) :
    (undo_save s ty pt a1 a2).lineAt = s.lineAt := by
  unfold undo_save; split <;> rfl

@[simp] theorem undo_save_markerAt (s : State) (ty : UndoType) (pt : Point) (a1 a2 : Int) :
    (undo_save s ty pt a1 a2).markerAt = s.markerAt := by
  unfold undo_save; split <;> rfl

@[simp] theorem undo_save_cur_bp (s : State) (ty : UndoType) (pt : Point) (a1 a2 : Int) :
    (undo_save s ty pt a1 a2).cur_bp = s.cur_bp := by
  unfold undo_save; split <;> rfl

@[simp] theorem undo_save_fresh_marker (s : State) (ty : UndoType) (pt : Point) (a1 a2 : Int) :
    (undo_save s ty pt a1 a2).fresh_marker = s.fresh_marker := by
  unfold undo_save; split <;> rfl

@[simp] theorem undo_save_fresh_line (s : State) (ty : UndoType) (pt : Point) (a1 a2 : Int) :
    (undo_save s ty pt a1 a2).fresh_line = s.fresh_line := by
  unfold undo_save; split <;> rfl

@[simp] theorem undo_save_undo_nosave (s : State) (ty : UndoType) (pt : Point) (a1 a2 : Int) :
    (undo_save s ty pt a1 a2).undo_nosave = s.undo_nosave := by
  unfold undo_save; split <;> rfl

@[simp] theorem undo_save_mark_ring (s : State) (ty : UndoType) (pt : Point) (a1 a2 : Int) :
    (undo_save s ty pt a1 a2).mark_ring = s.mark_ring := by
  unfold undo_save; split <;> rfl

@[simp] theorem marker_new_at_lineAt (s : State) (bp : BufPtr) (pt : Point) (ty : Bool) :
    ((marker_new_at s bp pt ty).1).lineAt = s.lineAt := rfl

@[simp] theorem marker_new_at_cur_bp (s : State) (bp : BufPtr) (pt : Point) (ty : Bool) :
    ((marker_new_at s bp pt ty).1).cur_bp = s.cur_bp := rfl

@[simp] theorem marker_new_at_fresh_line (s : State) (bp : BufPtr) (pt : Point) (ty : Bool) :
    ((marker_new_at s bp pt ty).1).fresh_line = s.fresh_line := rfl

@[simp] theorem marker_new_at_undo_nosave (s : State) (bp : BufPtr) (pt : Point) (ty : Bool) :
    ((marker_new_at s bp pt ty).1).undo_nosave = s.undo_nosave := rfl

@[simp] theorem marker_new_at_mark_ring (s : State) (bp : BufPtr) (pt : Point) (ty : Bool) :
    ((marker_new_at s bp pt ty).1).mark_ring = s.mark_ring := rfl

@[simp] theorem point_marker_lineAt (s : State) :
    ((point_marker s).1).lineAt = s.lineAt := rfl

@[simp] theorem point_marker_cur_bp (s : State) :
    ((point_marker s).1).cur_bp = s.cur_bp := rfl

@[simp] theorem point_marker_fresh_line (s : State) :
    ((point_marker s).1).fresh_line = s.fresh_line := rfl

@[simp] theorem point_marker_undo_nosave (s : State) :
    ((point_marker s).1).undo_nosave = s.undo_nosave := rfl

@[simp] theorem point_marker_mark_ring (s : State) :
    ((point_marker s).1).mark_ring = s.mark_ring := rfl

@[simp] theorem unchain_marker_lineAt (s : State) (m : MarkerPtr) :
    (unchain_marker s m).lineAt = s.lineAt := by
  unfold unchain_marker; simp only []; split <;> rfl

@[simp] theorem unchain_marker_cur_bp (s : State) (m : MarkerPtr) :
    (unchain_marker s m).cur_bp = s.cur_bp := by
  unfold unchain_marker; simp only []; split <;> rfl

@[simp] theorem unchain_marker_fresh_marker (s : State) (m : MarkerPtr) :
    (unchain_marker s m).fresh_marker = s.fresh_marker := by
  unfold unchain_marker; simp only []; split <;> rfl

@[simp] theorem unchain_marker_fresh_line (s : State) (m : MarkerPtr) :
    (unchain_marker s m).fresh_line = s.fresh_line := by
  unfold unchain_marker; simp only []; split <;> rfl

@[simp] theorem unchain_marker_undo_nosave (s : State) (m : MarkerPtr) :
    (unchain_marker s m).undo_nosave = s.undo_nosave := by
  unfold unchain_marker; simp only []; split <;> rfl

@[simp] theorem unchain_marker_mark_ring (s : State) (m : MarkerPtr) :
    (unchain_marker s m).mark_ring = s.mark_ring := by
  unfold unchain_marker; simp only []; split <;> rfl


@[simp] theorem cur_setBuf_cur (s : State) (b : Buffer) : (s.setBuf s.cur_bp b).cur = b := by
  simp [State.cur, State.setBuf]

@[simp] theorem needResync_cur (s : State) : s.needResync.cur = s.cur := rfl

@[simp] theorem minibuf_error_cur (s : State) (msg : String) :
    (minibuf_error s msg).cur = s.cur := rfl

@[simp] theorem set_undo_nosave_cur (s : State) (v : Bool) :
    (set_undo_nosave s v).cur = s.cur := rfl

@[simp] theorem set_undo_nosave_flag (s : State) (v : Bool) :
    (set_undo_nosave s v).undo_nosave = v := rfl

@[simp] theorem setLine_cur (s : State) (p : LinePtr) (l : Line) :
    (s.setLine p l).cur = s.cur := rfl

@[simp] theorem setMarker_cur (s : State) (m : MarkerPtr) (k : Marker) :
    (s.setMarker m k).cur = s.cur := rfl

@[simp] theorem relocate_markers_cur (s : State) (f : Marker → Point) :
    (relocate_markers s f).cur = s.cur := rfl

theorem setLine_apply (s : State) (p q : LinePtr) (l : Line) :
    (s.setLine p l).lineAt q = if q = p then l else s.lineAt q := rfl

theorem setMarker_apply (s : State) (m q : MarkerPtr) (k : Marker) :
    (s.setMarker m k).markerAt q = if q = m then k else s.markerAt q := rfl

theorem relocate_markers_apply (s : State) (f : Marker → Point) (q : MarkerPtr) :
    (relocate_markers s f).markerAt q =
      if q ∈ s.cur.markers then { s.markerAt q with pt := f (s.markerAt q) }
      else s.markerAt q := rfl

theorem undo_save_cur (s : State) (ty : UndoType) (pt : Point) (a1 a2 : Int) :
    (undo_save s ty pt a1 a2).cur =
      { s.cur with undo := if s.cur.noundo || s.undo_nosave then s.cur.undo
                           else s.cur.undo ++ [⟨ty, pt, a1, a2⟩] } := by
  unfold undo_save
  split
  · rfl
  · simp

theorem point_marker_cur (s : State) :
    (point_marker s).1.cur = { s.cur with markers := s.fresh_marker :: s.cur.markers } := by
  simp [point_marker, marker_new_at, State.cur, State.setBuf, State.setMarker]

@[simp] theorem point_marker_snd (s : State) : (point_marker s).2 = s.fresh_marker := rfl

@[simp] theorem point_marker_fresh (s : State) :
    (point_marker s).1.fresh_marker = s.fresh_marker + 1 := rfl

theorem point_marker_apply (s : State) (q : MarkerPtr) :
    (point_marker s).1.markerAt q =
      if q = s.fresh_marker then { bp := s.cur_bp, pt := s.cur.pt } else s.markerAt q := rfl

theorem unchain_marker_cur (s : State) (m : MarkerPtr) (h : (s.markerAt m).bp = s.cur_bp)
    (hc : s.cur_bp ≠ NULL) :
    (unchain_marker s m).cur = { s.cur with markers := s.cur.markers.erase m } := by
  have hc2 : ¬ s.cur_bp = NULL := hc
  simp [unchain_marker, h, hc2, State.cur, State.setBuf]

theorem unchain_marker_apply (s : State) (m q : MarkerPtr) (hq : q ≠ m) :
    (unchain_marker s m).markerAt q = s.markerAt q := by
  unfold unchain_marker
  simp only []
  split
  · rfl
  · simp [hq]

theorem unchain_marker_pt (s : State) (m q : MarkerPtr) :
    ((unchain_marker s m).markerAt q).pt = (s.markerAt q).pt := by
  unfold unchain_marker
  simp only []
  split
  · rfl
  · by_cases hq : q = m
    · subst hq; simp
    · simp [hq]

/-! ## Claims on `delete_region` -/

/-- In a read-only buffer `delete_region` of buffer.c stops after `point_marker`. -/
theorem delete_region_readonly (s : State) (r : Region) (hro : s.cur.readonly = true) :
    delete_region s r =
      (minibuf_error (point_marker s).1
        ("Buffer is readonly: " ++ String.mk ((point_marker s).1.cur.name.getD [])), false) := by
  have h : (point_marker s).1.cur.readonly = true := by rw [point_marker_cur]; exact hro
  simp [delete_region, warn_if_readonly_buffer, h]

/-- C14: in a read-only current buffer `delete_region (r)` returns false for every region
`r` and changes neither the lines of the text, nor point, nor the undo log, nor the
undo-suppression flag; this holds for `delete_region` of buffer.c and for the one of
region.c (text as one string, point as an offset). -/
theorem delete_region_readonly_no_mutation (s : State) (r : Region) (b : RegionC.Buf)
    (r2 : RegionC.Region) (hro : s.cur.readonly = true) (hro2 : b.readonly = true) :
    ((delete_region s r).2 = false ∧
      (delete_region s r).1.lineAt = s.lineAt ∧
      (delete_region s r).1.cur_bp = s.cur_bp ∧
      (delete_region s r).1.cur.pt = s.cur.pt ∧
      (delete_region s r).1.cur.undo = s.cur.undo ∧
      (delete_region s r).1.undo_nosave = s.undo_nosave) ∧
    ((RegionC.delete_region b r2).2 = false ∧
      (RegionC.delete_region b r2).1.text = b.text ∧
      (RegionC.delete_region b r2).1.pt = b.pt ∧
      (RegionC.delete_region b r2).1.undo = b.undo) := by
  constructor
  · rw [delete_region_readonly s r hro]
    have hc : (minibuf_error (point_marker s).1
        ("Buffer is readonly: " ++ String.mk ((point_marker s).1.cur.name.getD []))).cur
        = (point_marker s).1.cur := rfl
    refine ⟨rfl, rfl, rfl, ?_, ?_, rfl⟩
    · rw [hc, point_marker_cur]
    · rw [hc, point_marker_cur]
  · simp [RegionC.delete_region, RegionC.warn_if_readonly_buffer, hro2]

/-- C14 witness: the read-only example buffer and the read-only `hello` buffer. -/
theorem delete_region_readonly_no_mutation_witness :
    (delete_region exReadonly ⟨⟨10, 0, 1⟩, ⟨11, 1, 0⟩, 2⟩).2 = false ∧
    (delete_region exReadonly ⟨⟨10, 0, 1⟩, ⟨11, 1, 0⟩, 2⟩).1.cur.pt = exReadonly.cur.pt ∧
    (RegionC.delete_region { RegionC.exBuf with readonly := true } ⟨1, 3⟩).1.text
      = "hello".toList :=
  let h := delete_region_readonly_no_mutation exReadonly ⟨⟨10, 0, 1⟩, ⟨11, 1, 0⟩, 2⟩
    { RegionC.exBuf with readonly := true } ⟨1, 3⟩ rfl rfl
  ⟨h.1.1, h.1.2.2.2.1, h.2.2.1⟩

/-- C15: `delete_region` of buffer.c calls `point_marker` before the read-only check and
returns false without unchaining the marker. In the read-only example buffer, whose marker
chain holds the marker 5, the chain after the call is 100, 5: the temporary marker 100 is
still chained to the buffer. The sibling `delete_region` of region.c checks first and
leaves the chain as it was. -/
theorem delete_region_readonly_leaks_marker :
    exReadonly.cur.markers = [5] ∧
    (delete_region exReadonly ⟨⟨10, 0, 1⟩, ⟨11, 1, 0⟩, 2⟩).2 = false ∧
    (delete_region exReadonly ⟨⟨10, 0, 1⟩, ⟨11, 1, 0⟩, 2⟩).1.cur.markers = [100, 5] ∧
    ((delete_region exReadonly ⟨⟨10, 0, 1⟩, ⟨11, 1, 0⟩, 2⟩).1.markerAt 100).bp = 1 ∧
    (RegionC.delete_region { RegionC.exBuf with readonly := true } ⟨1, 3⟩).1.markers
      = RegionC.exBuf.markers := by
  decide

/-- What `delete_region` of buffer.c does in a writable buffer, step by step. -/
theorem delete_region_writable (s : State) (r : Region) (hw : s.cur.readonly = false) :
    delete_region s r =
      (unchain_marker
        (goto_point
          (set_undo_nosave
            (delete_char_loop r.size.toNat
              (set_undo_nosave
                (undo_save (goto_point (point_marker s).1 r.start)
                  UndoType.UNDO_REPLACE_BLOCK r.start (r.size.toNat : Int) 0) true)) false)
          (get_marker_pt
            (set_undo_nosave
              (delete_char_loop r.size.toNat
                (set_undo_nosave
                  (undo_save (goto_point (point_marker s).1 r.start)
                    UndoType.UNDO_REPLACE_BLOCK r.start (r.size.toNat : Int) 0) true)) false)
            s.fresh_marker))
        s.fresh_marker, true) := by
  have h : (point_marker s).1.cur.readonly = false := by rw [point_marker_cur]; exact hw
  simp [delete_region, warn_if_readonly_buffer, h]

/-- The state after `delete_region` of buffer.c for an empty region in a writable buffer:
the state before with, at most, one undo record more and the temporary marker unchained. -/
theorem delete_region_empty_spec (s : State) (r : Region) (hw : s.cur.readonly = false)
    (hsz : r.size = 0) (hcur : s.cur_bp ≠ NULL) :
    (delete_region s r).2 = true ∧
    (delete_region s r).1.lineAt = s.lineAt ∧
    (delete_region s r).1.cur_bp = s.cur_bp ∧
    (delete_region s r).1.cur.pt = s.cur.pt ∧
    (delete_region s r).1.cur.markers = s.cur.markers ∧
    (∀ m, m ≠ s.fresh_marker → (delete_region s r).1.markerAt m = s.markerAt m) := by
  rw [delete_region_writable s r hw, hsz]
  simp only [Int.toNat_zero, delete_char_loop, goto_point, get_marker_pt]
  refine ⟨trivial, by simp, by simp, ?_, ?_, ?_⟩
  · rw [unchain_marker_cur _ _ (by simp [point_marker_apply]) (by simpa using hcur)]
    simp [cur_setPt, point_marker_apply]
  · rw [unchain_marker_cur _ _ (by simp [point_marker_apply]) (by simpa using hcur)]
    simp [cur_setPt, undo_save_cur, point_marker_cur]
  · intro m hm
    rw [unchain_marker_apply _ _ _ hm]
    simp [point_marker_apply, hm]

/-- With nothing deleted and nothing inserted `replace_estr` relocates no marker. -/
theorem regionc_relocate_none (pt : Nat) (l : List (Nat × Nat)) :
    l.map (fun k => if k.2 > pt then (k.1, max pt (k.2 + ([] : List Char).length - 0)) else k)
      = l := by
  conv => rhs; rw [← List.map_id l]
  apply List.map_congr_left
  intro k _
  by_cases h : k.2 > pt
  · simp [h, Nat.max_eq_right (Nat.le_of_lt h)]
  · simp [h]

/-- The buffer after `delete_region` of region.c for an empty region in a writable buffer
is the buffer before, with one undo record more. -/
theorem regionc_delete_region_empty (b : RegionC.Buf) (r : RegionC.Region)
    (hw : b.readonly = false) (hsz : RegionC.get_region_size r = 0)
    (hfresh : ∀ k ∈ b.markers, k.1 ≠ b.fresh) :
    (RegionC.delete_region b r).2 = true ∧
    (RegionC.delete_region b r).1.text = b.text ∧
    (RegionC.delete_region b r).1.pt = b.pt ∧
    (RegionC.delete_region b r).1.markers = b.markers := by
  have hrel := regionc_relocate_none r.start ((b.fresh, b.pt) :: b.markers)
  simp only [RegionC.delete_region, RegionC.warn_if_readonly_buffer, hw, hsz,
    RegionC.point_marker, RegionC.goto_offset, RegionC.replace_estr,
    RegionC.unchain_marker, RegionC.get_marker_o, Bool.false_eq_true, if_false, hrel]
  refine ⟨trivial, by simp, by simp, ?_⟩
  simp only [List.filter_cons]
  simp
  intro a c hk
  exact hfresh (a, c) hk

/-- C16: deleting a region of size 0 with `delete_region` in a writable buffer returns
true and leaves the lines of the text, point (line, line number, offset), the marker chain
of the buffer and the record of every marker but the temporary one, which is unchained
again, as they were; for region.c the text, the offset of point and the chain with the
offsets of its markers are as they were. -/
theorem delete_region_empty_is_identity (s : State) (r : Region) (b : RegionC.Buf)
    (r2 : RegionC.Region) (hw : s.cur.readonly = false) (hsz : r.size = 0)
    (hcur : s.cur_bp ≠ NULL) (hw2 : b.readonly = false)
    (hsz2 : RegionC.get_region_size r2 = 0) (hfresh : ∀ k ∈ b.markers, k.1 ≠ b.fresh) :
    ((delete_region s r).2 = true ∧
      (delete_region s r).1.lineAt = s.lineAt ∧
      (delete_region s r).1.cur_bp = s.cur_bp ∧
      (delete_region s r).1.cur.pt = s.cur.pt ∧
      (delete_region s r).1.cur.markers = s.cur.markers ∧
      (∀ m, m ≠ s.fresh_marker → (delete_region s r).1.markerAt m = s.markerAt m)) ∧
    ((RegionC.delete_region b r2).2 = true ∧
      (RegionC.delete_region b r2).1.text = b.text ∧
      (RegionC.delete_region b r2).1.pt = b.pt ∧
      (RegionC.delete_region b r2).1.markers = b.markers) :=
  ⟨delete_region_empty_spec s r hw hsz hcur, regionc_delete_region_empty b r2 hw2 hsz2 hfresh⟩

/-- C16 witness: the empty region at line 0, offset 1 of the example buffer, and the empty
region at offset 3 of the `hello` buffer. -/
theorem delete_region_empty_is_identity_witness :
    (delete_region exState ⟨⟨10, 0, 1⟩, ⟨10, 0, 1⟩, 0⟩).1.cur.pt = ⟨11, 1, 0⟩ ∧
    (delete_region exState ⟨⟨10, 0, 1⟩, ⟨10, 0, 1⟩, 0⟩).1.cur.markers = [5] ∧
    (RegionC.delete_region RegionC.exBuf ⟨3, 3⟩).1.text = "hello".toList ∧
    (RegionC.delete_region RegionC.exBuf ⟨3, 3⟩).1.markers = [(1, 2)] :=
  let h := delete_region_empty_is_identity exState ⟨⟨10, 0, 1⟩, ⟨10, 0, 1⟩, 0⟩
    RegionC.exBuf ⟨3, 3⟩ rfl rfl (by decide) rfl rfl (by decide)
  ⟨h.1.2.2.2.1, h.1.2.2.2.2.1, h.2.2.1, h.2.2.2.2⟩

/-! ## Lemmas on the text of a buffer -/

theorem join_text_cons (x : List Char) (B : List (List Char)) :
    join_text (x :: B) = x ++ join_tail B := by
  cases B <;> simp [join_text, join_tail]

theorem join_tail_cons (y : List Char) (B : List (List Char)) :
    join_tail (y :: B) = '\n' :: (y ++ join_tail B) := by
  show '\n' :: join_text (y :: B) = _
  rw [join_text_cons]

theorem join_tail_of_ne_nil (L : List (List Char)) (h : L ≠ []) :
    join_tail L = '\n' :: join_text L := by
  cases L with
  | nil => exact absurd rfl h
  | cons _ _ => rfl

/-- The text around one line: what is before it, the line, what is after it. -/
theorem join_text_split (A : List (List Char)) (x : List Char) (B : List (List Char)) :
    join_text (A ++ x :: B) = pre_text A ++ (x ++ join_tail B) := by
  induction A with
  | nil => simp [pre_text, join_text_cons]
  | cons a A ih =>
    rw [List.cons_append, join_text_cons, join_tail_of_ne_nil _ (by simp), ih]
    simp [pre_text]

theorem line_start_zero (l : List Nat) : line_start l 0 = 0 := by
  cases l <;> rfl

theorem line_start_append_le (A L : List Nat) : ∀ n, n ≤ A.length →
    line_start (A ++ L) n = line_start A n := by
  induction A with
  | nil => intro n hn; simp at hn; subst hn; simp [line_start_zero]
  | cons a A ih =>
    intro n hn
    cases n with
    | zero => rfl
    | succ k =>
      simp only [List.cons_append, line_start, List.append_eq]
      rw [ih k (by simpa using hn)]

theorem line_start_append_cons (A : List Nat) (a : Nat) (B : List Nat) (k : Nat) :
    line_start (A ++ a :: B) (A.length + 1 + k) =
      line_start A A.length + (a + 1) + line_start B k := by
  induction A with
  | nil =>
    show line_start (a :: B) (0 + 1 + k) = _
    rw [show 0 + 1 + k = k + 1 by omega]
    simp [line_start]
  | cons c A ih =>
    have : (c :: A).length + 1 + k = (A.length + 1 + k) + 1 := by simp; omega
    rw [this]
    simp only [List.cons_append, line_start, List.length_cons, List.append_eq]
    rw [ih]
    omega

theorem line_start_mono (l : List Nat) : ∀ n m, n ≤ m → line_start l n ≤ line_start l m := by
  induction l with
  | nil => intro n m _; simp [line_start]
  | cons a l ih =>
    intro n m h
    cases n with
    | zero => simp [line_start]
    | succ n =>
      cases m with
      | zero => omega
      | succ m =>
        simp only [line_start]
        have := ih n m (by omega)
        omega

theorem line_start_succ (l : List Nat) : ∀ (n : Nat) (h : n < l.length),
    line_start l (n + 1) = line_start l n + l[n] + 1 := by
  induction l with
  | nil => intro n h; simp at h
  | cons a l ih =>
    intro n h
    cases n with
    | zero => simp [line_start, line_start_zero]
    | succ n =>
      simp only [line_start, List.getElem_cons_succ]
      rw [ih n (by simpa using h)]
      omega

theorem pre_text_length (A : List (List Char)) :
    (pre_text A).length = line_start (A.map List.length) A.length := by
  induction A with
  | nil => rfl
  | cons a A ih =>
    simp only [pre_text, List.length_append, List.length_cons, List.map_cons, line_start, ih]
    omega

/-- Deleting `k` times at the same offset takes a block of `k` characters out. -/
theorem iterate_eraseIdx (P : Nat) : ∀ (k : Nat) (l : List Char),
    (fun x : List Char => x.eraseIdx P)^[k] l = l.take P ++ l.drop (P + k) := by
  intro k
  induction k with
  | zero => intro l; simp
  | succ k ih =>
    intro l
    rw [Function.iterate_succ_apply, ih, List.eraseIdx_eq_take_drop_succ]
    rcases Nat.lt_or_ge P l.length with h | h
    · have hlen : (l.take P).length = P := by simp [Nat.le_of_lt h]
      rw [List.take_left' hlen, List.drop_append_eq_append_drop, hlen,
        List.drop_of_length_le (by omega), List.drop_drop]
      simp only [List.nil_append]
      congr 2
      omega
    · simp [List.take_of_length_le h, List.drop_of_length_le (Nat.le_trans h (Nat.le_succ _)),
        List.drop_of_length_le (Nat.le_trans h (Nat.le_add_right _ _)),
        List.drop_of_length_le (Nat.le_trans h (Nat.le_add_right _ (k + 1)))]

theorem nextList_unique (nx : Nat → Nat) (z : Nat) : ∀ (l1 l2 : List Nat) (h : Nat),
    NextList nx z h l1 → NextList nx z h l2 → l1 = l2 := by
  intro l1
  induction l1 with
  | nil =>
    intro l2 h h1 h2
    cases l2 with
    | nil => rfl
    | cons c r => exact absurd (h2.1 ▸ h1 : c = z) h2.2.1
  | cons b t ih =>
    intro l2 h h1 h2
    cases l2 with
    | nil => exact absurd (h1.1 ▸ h2 : b = z) h1.2.1
    | cons c r =>
      have hbc : b = c := h1.1 ▸ h2.1
      subst hbc
      rw [ih r _ h1.2.2 h2.2.2]

theorem nextList_suffix (nx : Nat → Nat) (z : Nat) : ∀ (a c : List Nat) (h : Nat),
    NextList nx z h (a ++ c) → ∃ m, NextList nx z m c := by
  intro a
  induction a with
  | nil => intro c h hl; exact ⟨h, hl⟩
  | cons x a ih => intro c h hl; exact ih c _ hl.2.2

theorem nextList_nodup (nx : Nat → Nat) (z : Nat) : ∀ (l : List Nat) (h : Nat),
    NextList nx z h l → l.Nodup := by
  intro l
  induction l with
  | nil => intro _ _; exact List.nodup_nil
  | cons b t ih =>
    intro h hl
    refine List.nodup_cons.mpr ⟨?_, ih _ hl.2.2⟩
    intro hb
    obtain ⟨t1, t2, ht⟩ := List.append_of_mem hb
    have h1 := hl.2.2
    rw [ht] at h1
    obtain ⟨m, hm⟩ := nextList_suffix nx z t1 (b :: t2) _ h1
    have h2 : NextList nx z (nx b) t2 := hm.2.2
    have := nextList_unique nx z t t2 _ hl.2.2 h2
    have hlen := congrArg List.length this
    rw [ht] at hlen
    simp at hlen
    omega

/-- A line chain that ends at a line outside it is a list of next-links. -/
theorem lineChain_nextList (s : State) (z : LinePtr) : ∀ (chain : List LinePtr) (a : LinePtr),
    LineChain s (a :: chain) → z ∉ a :: chain →
    (s.lineAt ((a :: chain).getLast (List.cons_ne_nil _ _))).next = z →
    NextList (fun q => (s.lineAt q).next) z a (a :: chain) := by
  intro chain
  induction chain with
  | nil =>
    intro a _ hz hl
    refine ⟨rfl, ?_, ?_⟩
    · intro h; exact hz (by simp [h])
    · simpa [NextList] using hl
  | cons b rest ih =>
    intro a hc hz hl
    refine ⟨rfl, ?_, ?_⟩
    · intro h; exact hz (by simp [h])
    · have h1 : (s.lineAt a).next = b := hc.1
      show NextList (fun q => (s.lineAt q).next) z (s.lineAt a).next (b :: rest)
      rw [h1]
      apply ih b hc.2.2
      · intro h; exact hz (List.mem_cons_of_mem _ h)
      · simpa [List.getLast_cons] using hl

/-- The lines of a well-formed buffer are pairwise different. -/
theorem validBuffer_nodup {s : State} {chain : List LinePtr} (hv : ValidBuffer s chain) :
    chain.Nodup := by
  cases chain with
  | nil => exact List.nodup_nil
  | cons a rest =>
    apply nextList_nodup _ s.cur.limitp _ a
    apply lineChain_nextList s _ rest a hv.linked hv.limit
    apply hv.last
    rw [List.getLast_eq_getElem, List.getElem?_eq_getElem]

/-! ## Deleting one character in a well-formed buffer -/

theorem lineChain_append_cons (s : State) (p : LinePtr) (B : List LinePtr) :
    ∀ A : List LinePtr,
      LineChain s (A ++ p :: B) ↔ LineChain s (A ++ [p]) ∧ LineChain s (p :: B) := by
  intro A
  induction A with
  | nil => simp [LineChain]
  | cons a A ih =>
    cases A with
    | nil =>
      simp only [List.cons_append, List.nil_append, LineChain]
      tauto
    | cons c A =>
      simp only [List.cons_append] at ih ⊢
      have e1 : LineChain s (a :: c :: (A ++ p :: B)) ↔
          (s.lineAt a).next = c ∧ (s.lineAt c).prev = a ∧ LineChain s (c :: (A ++ p :: B)) :=
        Iff.rfl
      have e2 : LineChain s (a :: c :: (A ++ [p])) ↔
          (s.lineAt a).next = c ∧ (s.lineAt c).prev = a ∧ LineChain s (c :: (A ++ [p])) :=
        Iff.rfl
      rw [e1, e2, ih]
      tauto

/-- A line chain stays one when the links that it uses stay. -/
theorem lineChain_transfer {s t : State} : ∀ (l : List LinePtr),
    (∀ q ∈ l.dropLast, (t.lineAt q).next = (s.lineAt q).next) →
    (∀ q ∈ l.tail, (t.lineAt q).prev = (s.lineAt q).prev) →
    LineChain s l → LineChain t l := by
  intro l
  induction l with
  | nil => intro _ _ _; trivial
  | cons a l ih =>
    intro hn hp hc
    cases l with
    | nil => trivial
    | cons b rest =>
      refine ⟨?_, ?_, ?_⟩
      · rw [hn a (by simp [List.dropLast]), hc.1]
      · rw [hp b (by simp), hc.2.1]
      · apply ih
        · intro q hq
          apply hn
          simp only [List.dropLast_cons₂, List.mem_cons]
          exact Or.inr hq
        · intro q hq
          apply hp
          simp only [List.tail_cons, List.mem_cons]
          exact Or.inr (by simpa using hq)
        · exact hc.2.2

/-- The chain around the line of a position on it. -/
theorem chain_split {chain : List LinePtr} {n : Nat} {p : LinePtr} (h : chain[n]? = some p) :
    ∃ A B, chain = A ++ p :: B ∧ A.length = n := by
  obtain ⟨hlt, hp⟩ := List.getElem?_eq_some_iff.mp h
  refine ⟨chain.take n, chain.drop (n + 1), ?_, ?_⟩
  · conv => lhs; rw [← List.take_append_drop n chain]
    rw [List.drop_eq_getElem_cons hlt, hp]
  · simp [Nat.le_of_lt hlt]

/-- Where an index of a chain around a line falls: before the line, on it, or behind it. -/
theorem getElem?_split_cases {α : Type} (A : List α) (p : α) (B : List α) (i : Nat) (q : α)
    (h : (A ++ p :: B)[i]? = some q) :
    (i < A.length ∧ A[i]? = some q) ∨ (i = A.length ∧ q = p) ∨
      (∃ k, i = A.length + 1 + k ∧ B[k]? = some q) := by
  rcases Nat.lt_trichotomy i A.length with hlt | heq | hgt
  · left
    rw [List.getElem?_append_left hlt] at h
    exact ⟨hlt, h⟩
  · right; left
    subst heq
    rw [List.getElem?_append_right (Nat.le_refl _), Nat.sub_self] at h
    rw [List.getElem?_cons_zero] at h
    exact ⟨rfl, (Option.some.inj h).symm⟩
  · right; right
    refine ⟨i - A.length - 1, by omega, ?_⟩
    rw [List.getElem?_append_right (by omega)] at h
    have : i - A.length = (i - A.length - 1) + 1 := by omega
    rw [this, List.getElem?_cons_succ] at h
    exact h

/-- A line before line `n` ends before line `n` starts. -/
theorem line_start_before (L : List Nat) (i : Nat) (x : Nat) (h : L[i]? = some x) :
    line_start L i + x + 1 ≤ line_start L L.length := by
  obtain ⟨hlt, hx⟩ := List.getElem?_eq_some_iff.mp h
  have h1 := line_start_succ L i hlt
  have h2 := line_start_mono L (i + 1) L.length hlt
  rw [hx] at h1
  omega

theorem map_off (f g : LinePtr → α) (p : LinePtr) (A B : List LinePtr)
    (hA : p ∉ A) (hB : p ∉ B) (h : ∀ q, q ≠ p → g q = f q) :
    (A ++ p :: B).map g = A.map f ++ g p :: B.map f := by
  rw [List.map_append, List.map_cons]
  congr 1
  · apply List.map_congr_left
    intro q hq
    exact h q (fun e => hA (e ▸ hq))
  · congr 1
    apply List.map_congr_left
    intro q hq
    exact h q (fun e => hB (e ▸ hq))

@[simp] theorem cur_setBuf_eq (s : State) (bp : BufPtr) (b : Buffer) (h : s.cur_bp = bp) :
    (s.setBuf bp b).cur = b := by
  subst h
  simp

/-- The state after `delete_char` inside a line of a writable buffer. -/
theorem delete_char_inline (s : State) (h : s.cur.pt.o < line_len s s.cur.pt.p)
    (hw : s.cur.readonly = false) :
    (delete_char s).2 = true ∧
    (∀ q, (delete_char s).1.lineAt q =
      if q = s.cur.pt.p then
        { s.lineAt s.cur.pt.p with text := (s.lineAt s.cur.pt.p).text.eraseIdx s.cur.pt.o }
      else s.lineAt q) ∧
    (delete_char s).1.cur =
      { s.cur with
        undo := if s.cur.noundo || s.undo_nosave then s.cur.undo
                else s.cur.undo ++ [⟨UndoType.UNDO_INSERT_CHAR, s.cur.pt,
                  (((s.lineAt s.cur.pt.p).text.getD s.cur.pt.o ' ').toNat : Int), 0⟩]
        modified := true } ∧
    (delete_char s).1.cur_bp = s.cur_bp ∧
    (delete_char s).1.undo_nosave = s.undo_nosave ∧
    (∀ m, (delete_char s).1.markerAt m =
      if m ∈ s.cur.markers then
        { s.markerAt m with pt := delete_char_shift s.cur.pt (s.markerAt m) }
      else s.markerAt m) := by
  have he : eolp s = false := by
    simp only [eolp, decide_eq_false_iff_not]
    exact Nat.ne_of_lt h
  simp only [delete_char, he, warn_if_readonly_buffer, hw, Bool.not_false, if_true,
    Bool.false_eq_true, if_false]
  refine ⟨trivial, ?_, ?_, by simp, by simp, ?_⟩
  · intro q
    simp [setLine_apply]
  · simp [undo_save_cur, hw]
  · intro m
    simp [relocate_markers_apply, undo_save_cur]

theorem join_lines_text (s : State) (p q : LinePtr) :
    ((join_lines s p).lineAt q).text =
      if q = p then (s.lineAt p).text ++ (s.lineAt (s.lineAt p).next).text
      else (s.lineAt q).text := by
  simp only [join_lines, setLine_apply]
  by_cases h2 : q = p
  · subst h2
    by_cases h1 : q = (s.lineAt (s.lineAt q).next).next
    · rw [if_pos h1]; simp [h1.symm]
    · rw [if_neg h1]; simp
  · by_cases h1 : q = (s.lineAt (s.lineAt p).next).next
    · rw [if_pos h1, if_neg h2]
      simp only []
      rw [if_neg (h1 ▸ h2), h1]
    · rw [if_neg h1, if_neg h2, if_neg h2]

theorem join_lines_next (s : State) (p q : LinePtr) :
    ((join_lines s p).lineAt q).next =
      if q = p then (s.lineAt (s.lineAt p).next).next else (s.lineAt q).next := by
  simp only [join_lines, setLine_apply]
  by_cases h2 : q = p
  · subst h2
    by_cases h1 : q = (s.lineAt (s.lineAt q).next).next
    · rw [if_pos h1]; simp [h1.symm]
    · rw [if_neg h1]; simp
  · by_cases h1 : q = (s.lineAt (s.lineAt p).next).next
    · rw [if_pos h1, if_neg h2]
      simp only []
      rw [if_neg (h1 ▸ h2), h1]
    · rw [if_neg h1, if_neg h2, if_neg h2]

theorem join_lines_prev (s : State) (p q : LinePtr) :
    ((join_lines s p).lineAt q).prev =
      if q = (s.lineAt (s.lineAt p).next).next then p else (s.lineAt q).prev := by
  simp only [join_lines, setLine_apply]
  by_cases h1 : q = (s.lineAt (s.lineAt p).next).next
  · rw [if_pos h1, if_pos h1]
  · rw [if_neg h1, if_neg h1]
    by_cases h2 : q = p
    · rw [if_pos h2, h2]
    · rw [if_neg h2]

@[simp] theorem join_lines_cur (s : State) (p : LinePtr) : (join_lines s p).cur = s.cur := rfl

@[simp] theorem join_lines_cur_bp (s : State) (p : LinePtr) :
    (join_lines s p).cur_bp = s.cur_bp := rfl

@[simp] theorem join_lines_markerAt (s : State) (p : LinePtr) :
    (join_lines s p).markerAt = s.markerAt := rfl

@[simp] theorem join_lines_undo_nosave (s : State) (p : LinePtr) :
    (join_lines s p).undo_nosave = s.undo_nosave := rfl

/-- The state after `delete_char` at the end of a line that is not the last one, in a
writable buffer: the next line is joined to the line of point. -/
theorem delete_char_joined (s : State) (h : s.cur.pt.o = line_len s s.cur.pt.p)
    (hne : (s.lineAt s.cur.pt.p).next ≠ s.cur.limitp) (hw : s.cur.readonly = false) :
    (delete_char s).2 = true ∧
    (∀ q, ((delete_char s).1.lineAt q).text =
      if q = s.cur.pt.p then
        (s.lineAt s.cur.pt.p).text ++ (s.lineAt (s.lineAt s.cur.pt.p).next).text
      else (s.lineAt q).text) ∧
    (∀ q, ((delete_char s).1.lineAt q).next =
      if q = s.cur.pt.p then (s.lineAt (s.lineAt s.cur.pt.p).next).next
      else (s.lineAt q).next) ∧
    (∀ q, ((delete_char s).1.lineAt q).prev =
      if q = (s.lineAt (s.lineAt s.cur.pt.p).next).next then s.cur.pt.p
      else (s.lineAt q).prev) ∧
    (delete_char s).1.cur =
      { s.cur with
        undo := if s.cur.noundo || s.undo_nosave then s.cur.undo
                else s.cur.undo ++ [⟨UndoType.UNDO_INSERT_CHAR, s.cur.pt, 10, 0⟩]
        last_line := s.cur.last_line - 1
        modified := true } ∧
    (delete_char s).1.cur_bp = s.cur_bp ∧
    (delete_char s).1.undo_nosave = s.undo_nosave ∧
    (∀ m, (delete_char s).1.markerAt m =
      if m ∈ s.cur.markers then
        { s.markerAt m with
          pt := delete_char_join s.cur.pt (s.lineAt s.cur.pt.p).next (line_len s s.cur.pt.p)
            (s.markerAt m) }
      else s.markerAt m) := by
  have he : eolp s = true := by
    simp only [eolp, decide_eq_true_eq]
    exact h
  have hb : eobp s = false := by
    simp [eobp, hne]
  simp only [delete_char, he, hb, warn_if_readonly_buffer, hw, Bool.not_false, if_true,
    Bool.false_eq_true, if_false, Bool.not_true]
  refine ⟨trivial, ?_, ?_, ?_, ?_, by simp [join_lines], by simp [join_lines], ?_⟩
  · intro q
    simp only [needResync_lineAt, setBuf_lineAt, relocate_markers_lineAt, undo_save_lineAt,
      join_lines_text]
  · intro q
    simp only [needResync_lineAt, setBuf_lineAt, relocate_markers_lineAt, undo_save_lineAt,
      join_lines_next]
  · intro q
    simp only [needResync_lineAt, setBuf_lineAt, relocate_markers_lineAt, undo_save_lineAt,
      join_lines_prev]
  · simp [undo_save_cur, hw, join_lines]
  · intro m
    simp [relocate_markers_apply, undo_save_cur, join_lines]

theorem map_len_text (s : State) (A : List LinePtr) :
    (A.map fun q => (s.lineAt q).text).map List.length = A.map (line_len s) := by
  rw [List.map_map]
  rfl

/-- The offset of a position on the line `p` between the lines `A` and `B`. -/
theorem point_offset_split (s : State) (A B : List LinePtr) (p : LinePtr) (pt : Point)
    (hn : pt.n = A.length) :
    point_offset s (A ++ p :: B) pt =
      line_start (A.map (line_len s)) A.length + pt.o := by
  unfold point_offset
  rw [List.map_append, hn, line_start_append_le _ _ _ (by simp)]

/-- `delete_char` inside a line of a well-formed writable buffer. -/
theorem delete_char_inline_step (s : State) (chain : List LinePtr) (hv : ValidBuffer s chain)
    (hw : s.cur.readonly = false) (h : s.cur.pt.o < line_len s s.cur.pt.p) :
    DeletedOne s chain (delete_char s).1 chain := by
  obtain ⟨_, hline, hcur, hbp, hns, hmk⟩ := delete_char_inline s h hw
  generalize (delete_char s).1 = t at *
  have hnd := validBuffer_nodup hv
  obtain ⟨A, B, hsplit, hlenA⟩ := chain_split hv.point
  subst hsplit
  have hpA : s.cur.pt.p ∉ A := by
    intro hm
    exact (List.nodup_append.mp hnd).2.2 hm (List.mem_cons_self _ _)
  have hpB : s.cur.pt.p ∉ B := (List.nodup_cons.mp (List.nodup_append.mp hnd).2.1).1
  have hnext : ∀ q, (t.lineAt q).next = (s.lineAt q).next := by
    intro q; rw [hline]; split <;> simp_all
  have hprev : ∀ q, (t.lineAt q).prev = (s.lineAt q).prev := by
    intro q; rw [hline]; split <;> simp_all
  have htext : ∀ q, q ≠ s.cur.pt.p → (t.lineAt q).text = (s.lineAt q).text := by
    intro q hq; rw [hline, if_neg hq]
  have htextp : (t.lineAt s.cur.pt.p).text = (s.lineAt s.cur.pt.p).text.eraseIdx s.cur.pt.o := by
    rw [hline, if_pos rfl]
  have hlen : ∀ q, q ≠ s.cur.pt.p → line_len t q = line_len s q := by
    intro q hq; simp [line_len, htext q hq]
  have hlenp : line_len t s.cur.pt.p = line_len s s.cur.pt.p - 1 := by
    simp only [line_len, htextp]
    rw [List.length_eraseIdx]
    simp [line_len] at h
    simp [h]
  have hpt : t.cur.pt = s.cur.pt := by rw [hcur]
  have hlim : t.cur.limitp = s.cur.limitp := by rw [hcur]
  have hLt : (A ++ s.cur.pt.p :: B).map (line_len t) =
      A.map (line_len s) ++ (line_len s s.cur.pt.p - 1) :: B.map (line_len s) := by
    rw [map_off (line_len s) (line_len t) s.cur.pt.p A B hpA hpB hlen, hlenp]
  have hLs : (A ++ s.cur.pt.p :: B).map (line_len s) =
      A.map (line_len s) ++ line_len s s.cur.pt.p :: B.map (line_len s) := by simp
  refine ⟨⟨?_, ?_, ?_, ?_, ?_, ?_, ?_⟩, ?_, hpt, hbp, by rw [hcur], by rw [hcur], hns, ?_, ?_, ?_,
    ?_⟩
  · exact lineChain_transfer _ (fun q _ => hnext q) (fun q _ => hprev q) hv.linked
  · intro a ha; rw [hprev, hlim]; exact hv.first a ha
  · intro a ha; rw [hnext, hlim]; exact hv.last a ha
  · rw [hlim]; exact hv.limit
  · rw [hpt]; exact hv.point
  · rw [hpt, hlenp]; omega
  · rw [hcur]; exact hv.count
  · -- the text
    unfold buffer_text
    rw [map_off (fun q => (s.lineAt q).text) (fun q => (t.lineAt q).text) s.cur.pt.p A B hpA hpB
      htext, List.map_append, List.map_cons, join_text_split, join_text_split,
      point_offset_split s A B _ _ hlenA.symm]
    simp only [htextp]
    have hpre : (pre_text (A.map fun q => (s.lineAt q).text)).length =
        line_start (A.map (line_len s)) A.length := by
      rw [pre_text_length, map_len_text, List.length_map]
    rw [← hpre, List.eraseIdx_append_of_length_le (Nat.le_add_right _ _), Nat.add_sub_cancel_left,
      List.eraseIdx_append_of_lt_length (by simpa [line_len] using h)]
  · intro hs
    rw [hcur]
    simp [hs]
  · rw [hpt, point_offset_split s A B _ _ hlenA.symm, point_offset, hLt,
      line_start_append_le _ _ _ (by simp [hlenA]), hlenA]
  · -- the markers
    intro m hm hval
    have hmm : (t.markerAt m).pt = delete_char_shift s.cur.pt (s.markerAt m) := by
      rw [hmk, if_pos hm]
    rw [hmm, point_offset_split s A B _ _ hlenA.symm]
    obtain ⟨hon, hoff⟩ := hval
    generalize (s.markerAt m) = k at *
    rcases getElem?_split_cases A _ B _ _ hon with ⟨hlt, hq⟩ | ⟨heq, hq⟩ | ⟨j, hj, hq⟩
    · -- a marker on a line before the line of point
      have hne : k.pt.p ≠ s.cur.pt.p := fun e => hpA (e ▸ List.getElem?_mem hq)
      have hsh : delete_char_shift s.cur.pt k = k.pt := by simp [delete_char_shift, hne]
      have hb := line_start_before (A.map (line_len s)) k.pt.n (line_len s k.pt.p)
        (by rw [List.getElem?_map, hq]; rfl)
      rw [hsh]
      refine ⟨⟨hon, by rw [hlen _ hne]; exact hoff⟩, ?_⟩
      simp only [point_offset, hLt, hLs]
      rw [line_start_append_le _ _ _ (by simpa using Nat.le_of_lt hlt),
        line_start_append_le _ _ _ (by simpa using Nat.le_of_lt hlt)]
      simp only [List.length_map] at hb
      rw [if_neg (by omega)]
    · -- a marker on the line of point
      by_cases ho : k.pt.o > s.cur.pt.o
      · have hsh : delete_char_shift s.cur.pt k = { k.pt with o := k.pt.o - 1 } := by
          simp [delete_char_shift, hq, ho]
        rw [hsh]
        refine ⟨⟨hon, ?_⟩, ?_⟩
        · show k.pt.o - 1 ≤ line_len t k.pt.p
          rw [hq, hlenp]; rw [hq] at hoff; omega
        · simp only [point_offset, hLt, hLs]
          rw [line_start_append_le _ _ _ (by simp [heq]),
            line_start_append_le _ _ _ (by simp [heq]), heq]
          rw [if_pos (by omega)]
          omega
      · have hsh : delete_char_shift s.cur.pt k = k.pt := by
          simp [delete_char_shift, ho]
        rw [hsh]
        refine ⟨⟨hon, ?_⟩, ?_⟩
        · rw [hq, hlenp]; omega
        · simp only [point_offset, hLt, hLs]
          rw [line_start_append_le _ _ _ (by simp [heq]),
            line_start_append_le _ _ _ (by simp [heq]), heq]
          rw [if_neg (by omega)]
    · -- a marker on a line behind the line of point
      have hne : k.pt.p ≠ s.cur.pt.p := fun e => hpB (e ▸ List.getElem?_mem hq)
      have hsh : delete_char_shift s.cur.pt k = k.pt := by simp [delete_char_shift, hne]
      rw [hsh]
      refine ⟨⟨hon, by rw [hlen _ hne]; exact hoff⟩, ?_⟩
      simp only [point_offset, hLt, hLs]
      have e1 := line_start_append_cons (A.map (line_len s)) (line_len s s.cur.pt.p - 1)
        (B.map (line_len s)) j
      have e2 := line_start_append_cons (A.map (line_len s)) (line_len s s.cur.pt.p)
        (B.map (line_len s)) j
      simp only [List.length_map] at e1 e2
      rw [hj, e1, e2, if_pos (by omega)]
      omega
  · intro m
    rw [hmk]
    split <;> rfl

/-- `delete_char` at the end of a line that is not the last one, in a well-formed writable
buffer: the chain afterwards is the old one without the line after the line of point. -/
theorem delete_char_join_step (s : State) (chain : List LinePtr) (hv : ValidBuffer s chain)
    (hw : s.cur.readonly = false) (h : s.cur.pt.o = line_len s s.cur.pt.p)
    (hnl : s.cur.pt.n + 1 < chain.length) :
    ∃ chain2, DeletedOne s chain (delete_char s).1 chain2 := by
  have hnd := validBuffer_nodup hv
  obtain ⟨A, B, hsplit, hlenA⟩ := chain_split hv.point
  subst hsplit
  cases B with
  | nil => simp at hnl; omega
  | cons nx B2 =>
  have hlinkp : (s.lineAt s.cur.pt.p).next = nx ∧ nx ≠ s.cur.limitp :=
    validBuffer_next hv (by
      rw [← hlenA, List.getElem?_append_right (Nat.le_add_right _ _)]
      simp)
  obtain ⟨_, htext, hnext, hprev, hcur, hbp, hns, hmk⟩ :=
    delete_char_joined s h (by rw [hlinkp.1]; exact hlinkp.2) hw
  rw [hlinkp.1] at htext hnext hprev hmk
  generalize (delete_char s).1 = t at *
  -- the lines are pairwise different
  have hnd1 := List.nodup_append.mp hnd
  have hpA : s.cur.pt.p ∉ A := fun hm => hnd1.2.2 hm (List.mem_cons_self _ _)
  have hnd2 := List.nodup_cons.mp hnd1.2.1
  have hpB : s.cur.pt.p ∉ B2 := fun hm => hnd2.1 (List.mem_cons_of_mem _ hm)
  have hpnx : s.cur.pt.p ≠ nx := fun e => hnd2.1 (e ▸ List.mem_cons_self _ _)
  have hnxA : nx ∉ A := fun hm =>
    hnd1.2.2 hm (List.mem_cons_of_mem _ (List.mem_cons_self _ _))
  have hnd3 := List.nodup_cons.mp hnd2.2
  have hnxB : nx ∉ B2 := hnd3.1
  have hlc := (lineChain_append_cons s _ _ A).mp hv.linked
  -- the line behind the joined line is not among the lines before it
  have hz : (∀ q ∈ A ++ [s.cur.pt.p], q ≠ (s.lineAt nx).next) ∧
      (∀ q ∈ B2.tail, q ≠ (s.lineAt nx).next) ∧
      (∀ b R, B2 = b :: R → (s.lineAt nx).next = b) ∧
      (B2 = [] → (s.lineAt nx).next = s.cur.limitp) := by
    cases B2 with
    | nil =>
      have hl : (s.lineAt nx).next = s.cur.limitp := by
        apply hv.last
        rw [← List.getLast?_eq_getElem?]
        simp
      refine ⟨?_, by simp, by simp, fun _ => hl⟩
      intro q hq e
      apply hv.limit
      rw [← hl, ← e]
      simp at hq ⊢
      tauto
    | cons b R =>
      have hl : (s.lineAt nx).next = b := hlc.2.2.2.1
      refine ⟨?_, ?_, ?_, by simp⟩
      · intro q hq e
        rw [hl] at e
        subst e
        simp at hq
        rcases hq with hq | hq
        · exact hnd1.2.2 hq (by simp)
        · exact hpB (hq ▸ List.mem_cons_self _ _)
      · intro q hq e
        rw [hl] at e
        subst e
        exact (List.nodup_cons.mp hnd3.2).1 (by simpa using hq)
      · intro b2 R2 e
        rw [hl]
        exact (List.cons.inj e).1
  have hlim : t.cur.limitp = s.cur.limitp := by rw [hcur]
  have hpt : t.cur.pt = s.cur.pt := by rw [hcur]
  have hlen : ∀ q, q ≠ s.cur.pt.p → line_len t q = line_len s q := by
    intro q hq; simp [line_len, htext q, hq]
  have hlenp : line_len t s.cur.pt.p = line_len s s.cur.pt.p + line_len s nx := by
    simp [line_len, htext]
  have hLt : (A ++ s.cur.pt.p :: B2).map (line_len t) =
      A.map (line_len s) ++ (line_len s s.cur.pt.p + line_len s nx) :: B2.map (line_len s) := by
    rw [map_off (line_len s) (line_len t) s.cur.pt.p A B2 hpA hpB hlen, hlenp]
  have hLs : (A ++ s.cur.pt.p :: nx :: B2).map (line_len s) =
      A.map (line_len s) ++ line_len s s.cur.pt.p :: line_len s nx :: B2.map (line_len s) := by
    simp
  refine ⟨A ++ s.cur.pt.p :: B2, ⟨?_, ?_, ?_, ?_, ?_, ?_, ?_⟩, ?_, hpt, hbp, by rw [hcur],
    by rw [hcur], hns, ?_, ?_, ?_, ?_⟩
  · -- the chain is linked
    rw [lineChain_append_cons]
    constructor
    · apply lineChain_transfer _ _ _ hlc.1
      · intro q hq
        rw [List.dropLast_concat] at hq
        rw [hnext, if_neg (fun (e : q = s.cur.pt.p) => hpA (e ▸ hq))]
      · intro q hq
        rw [hprev, if_neg (hz.1 q (List.mem_of_mem_tail hq))]
    · cases B2 with
      | nil => trivial
      | cons b R =>
        have hl := hz.2.2.1 b R rfl
        refine ⟨?_, ?_, ?_⟩
        · rw [hnext, if_pos rfl, hl]
        · rw [hprev, if_pos hl.symm]
        · apply lineChain_transfer _ _ _ hlc.2.2.2.2.2
          · intro q hq
            rw [hnext, if_neg (fun (e : q = s.cur.pt.p) =>
              hpB (e ▸ List.mem_of_mem_dropLast hq))]
          · intro q hq
            rw [hprev, if_neg (hz.2.1 q hq)]
  · intro a ha
    have ha2 : (A ++ s.cur.pt.p :: nx :: B2)[0]? = some a := by
      cases A <;> simpa using ha
    have hmem : a ∈ A ++ [s.cur.pt.p] := by
      cases A with
      | nil => simp at ha; simp [ha]
      | cons c A => simp at ha; simp [ha]
    rw [hprev, if_neg (hz.1 a hmem), hlim]
    exact hv.first a ha2
  · intro a ha
    rw [hlim]
    cases B2 with
    | nil =>
      have : a = s.cur.pt.p := by simpa using ha.symm
      rw [this, hnext, if_pos rfl]
      exact hz.2.2.2 rfl
    | cons b R =>
      rw [← List.getLast?_eq_getElem?] at ha
      have ha2 : (A ++ s.cur.pt.p :: nx :: b :: R).getLast? = some a := by
        simpa [List.getLast?_append, List.getLast?_cons_cons] using ha
      have hmem : a ∈ b :: R := by
        have : (b :: R).getLast? = some a := by
          simpa [List.getLast?_append, List.getLast?_cons_cons] using ha
        exact List.mem_of_getLast?_eq_some this
      rw [hnext, if_neg (fun (e : a = s.cur.pt.p) => hpB (e ▸ hmem))]
      apply hv.last
      rw [← List.getLast?_eq_getElem?]
      exact ha2
  · rw [hlim]
    intro hm
    apply hv.limit
    simp at hm ⊢
    tauto
  · rw [hpt]
    show (A ++ s.cur.pt.p :: B2)[s.cur.pt.n]? = some s.cur.pt.p
    rw [← hlenA, List.getElem?_append_right (Nat.le_refl _), Nat.sub_self,
      List.getElem?_cons_zero]
  · rw [hpt, hlenp]; omega
  · rw [hcur]
    have := hv.count
    simp at this ⊢
    omega
  · -- the text
    unfold buffer_text
    rw [map_off (fun q => (s.lineAt q).text) (fun q => (t.lineAt q).text) s.cur.pt.p A B2 hpA hpB
      (fun q hq => by simp [htext q, hq]), List.map_append, List.map_cons, List.map_cons,
      join_text_split, join_text_split, join_tail_cons,
      point_offset_split s A _ _ _ hlenA.symm]
    simp only [htext, if_true]
    have hpre : (pre_text (A.map fun q => (s.lineAt q).text)).length =
        line_start (A.map (line_len s)) A.length := by
      rw [pre_text_length, map_len_text, List.length_map]
    rw [← hpre, h, List.eraseIdx_append_of_length_le (Nat.le_add_right _ _),
      Nat.add_sub_cancel_left]
    show _ = _ ++ List.eraseIdx _ (s.lineAt s.cur.pt.p).text.length
    rw [List.eraseIdx_append_of_length_le (Nat.le_refl _), Nat.sub_self, List.eraseIdx_cons_zero,
      List.append_assoc]
  · intro hs
    rw [hcur]
    simp [hs]
  · rw [hpt, point_offset_split s A _ _ _ hlenA.symm, point_offset, hLt,
      line_start_append_le _ _ _ (by simp [hlenA]), hlenA]
  · -- the markers
    intro m hm hval
    have hmm : (t.markerAt m).pt =
        delete_char_join s.cur.pt nx (line_len s s.cur.pt.p) (s.markerAt m) := by
      rw [hmk, if_pos hm]
    rw [hmm, point_offset_split s A _ _ _ hlenA.symm]
    obtain ⟨hon, hoff⟩ := hval
    generalize (s.markerAt m) = k at *
    rcases getElem?_split_cases A _ _ _ _ hon with ⟨hlt, hq⟩ | ⟨heq, hq⟩ | ⟨j, hj, hq⟩
    · -- a marker on a line before the line of point
      have hne : k.pt.p ≠ s.cur.pt.p := fun e => hpA (e ▸ List.getElem?_mem hq)
      have hne2 : k.pt.p ≠ nx := fun e => hnxA (e ▸ List.getElem?_mem hq)
      have hsh : delete_char_join s.cur.pt nx (line_len s s.cur.pt.p) k = k.pt := by
        simp [delete_char_join, hne2]
        omega
      have hb := line_start_before (A.map (line_len s)) k.pt.n (line_len s k.pt.p)
        (by rw [List.getElem?_map, hq]; rfl)
      rw [hsh]
      refine ⟨⟨?_, by rw [hlen _ hne]; exact hoff⟩, ?_⟩
      · show (A ++ s.cur.pt.p :: B2)[k.pt.n]? = some k.pt.p
        rw [List.getElem?_append_left hlt]; exact hq
      · simp only [point_offset, hLt, hLs]
        rw [line_start_append_le _ _ _ (by simpa using Nat.le_of_lt hlt),
          line_start_append_le _ _ _ (by simpa using Nat.le_of_lt hlt)]
        simp only [List.length_map] at hb
        rw [if_neg (by omega)]
    · -- a marker on the line of point
      have hsh : delete_char_join s.cur.pt nx (line_len s s.cur.pt.p) k = k.pt := by
        simp [delete_char_join, hq, hpnx]
        omega
      rw [hsh]
      refine ⟨⟨?_, ?_⟩, ?_⟩
      · show (A ++ s.cur.pt.p :: B2)[k.pt.n]? = some k.pt.p
        rw [heq, hq, List.getElem?_append_right (Nat.le_refl _), Nat.sub_self,
          List.getElem?_cons_zero]
      · rw [hq, hlenp]; rw [hq] at hoff; omega
      · simp only [point_offset, hLt, hLs]
        rw [line_start_append_le _ _ _ (by simp [heq]),
          line_start_append_le _ _ _ (by simp [heq]), heq]
        rw [hq] at hoff
        rw [if_neg (by omega)]
    · cases j with
      | zero =>
        -- a marker on the line that is joined
        rw [List.getElem?_cons_zero] at hq
        have hq2 : k.pt.p = nx := (Option.some.inj hq).symm
        have hsh : delete_char_join s.cur.pt nx (line_len s s.cur.pt.p) k =
            ⟨s.cur.pt.p, k.pt.n - 1, k.pt.o + line_len s s.cur.pt.p⟩ := by
          simp [delete_char_join, hq2]
        rw [hsh]
        refine ⟨⟨?_, ?_⟩, ?_⟩
        · show (A ++ s.cur.pt.p :: B2)[k.pt.n - 1]? = some s.cur.pt.p
          rw [hj, show A.length + 1 + 0 - 1 = A.length by omega,
            List.getElem?_append_right (Nat.le_refl _), Nat.sub_self, List.getElem?_cons_zero]
        · show k.pt.o + line_len s s.cur.pt.p ≤ line_len t s.cur.pt.p
          rw [hlenp]; rw [hq2] at hoff; omega
        · simp only [point_offset, hLt, hLs]
          have e2 := line_start_append_cons (A.map (line_len s)) (line_len s s.cur.pt.p)
            (line_len s nx :: B2.map (line_len s)) 0
          simp only [List.length_map, line_start_zero] at e2
          rw [hj, e2, show A.length + 1 + 0 - 1 = A.length by omega,
            line_start_append_le _ _ _ (by simp), if_pos (by omega)]
          omega
      | succ j =>
        -- a marker on a line behind the joined line
        rw [List.getElem?_cons_succ] at hq
        have hne : k.pt.p ≠ s.cur.pt.p := fun e => hpB (e ▸ List.getElem?_mem hq)
        have hne2 : k.pt.p ≠ nx := fun e => hnxB (e ▸ List.getElem?_mem hq)
        have hsh : delete_char_join s.cur.pt nx (line_len s s.cur.pt.p) k =
            { k.pt with n := k.pt.n - 1 } := by
          simp [delete_char_join, hne2]
          omega
        rw [hsh]
        refine ⟨⟨?_, ?_⟩, ?_⟩
        · show (A ++ s.cur.pt.p :: B2)[k.pt.n - 1]? = some k.pt.p
          rw [hj, show A.length + 1 + (j + 1) - 1 = A.length + (j + 1) by omega,
            List.getElem?_append_right (Nat.le_add_right _ _), Nat.add_sub_cancel_left,
            List.getElem?_cons_succ]
          exact hq
        · show k.pt.o ≤ line_len t k.pt.p
          rw [hlen _ hne]; exact hoff
        · simp only [point_offset, hLt, hLs]
          have e1 := line_start_append_cons (A.map (line_len s))
            (line_len s s.cur.pt.p + line_len s nx) (B2.map (line_len s)) j
          have e2 := line_start_append_cons (A.map (line_len s)) (line_len s s.cur.pt.p)
            (line_len s nx :: B2.map (line_len s)) (j + 1)
          simp only [List.length_map, line_start] at e1 e2
          rw [hj, e2, show A.length + 1 + (j + 1) - 1 = A.length + 1 + j by omega, e1,
            if_pos (by omega)]
          omega
  · intro m
    rw [hmk]
    split <;> rfl

/-- The offset of a valid position is inside the text. -/
theorem point_offset_le (s : State) (chain : List LinePtr) (pt : Point)
    (h : ValidPoint s chain pt) : point_offset s chain pt ≤ (buffer_text s chain).length := by
  obtain ⟨A, B, hsplit, hlenA⟩ := chain_split h.1
  subst hsplit
  rw [point_offset_split s A B _ _ hlenA.symm]
  unfold buffer_text
  rw [List.map_append, List.map_cons, join_text_split]
  simp only [List.length_append]
  rw [pre_text_length, map_len_text, List.length_map]
  have := h.2
  simp only [line_len] at this
  omega

/-- The position at the end of the text is on the last line. -/
theorem point_offset_lt_last (s : State) (chain : List LinePtr) (pt : Point)
    (h : ValidPoint s chain pt) (hlt : point_offset s chain pt < (buffer_text s chain).length)
    (ho : pt.o = line_len s pt.p) : pt.n + 1 < chain.length := by
  obtain ⟨A, B, hsplit, hlenA⟩ := chain_split h.1
  subst hsplit
  cases B with
  | nil =>
    exfalso
    rw [point_offset_split s A _ _ _ hlenA.symm] at hlt
    unfold buffer_text at hlt
    rw [List.map_append, List.map_cons, join_text_split] at hlt
    simp only [List.length_append, List.map_nil, join_tail, List.length_nil] at hlt
    rw [pre_text_length, map_len_text, List.length_map] at hlt
    simp only [line_len] at ho
    omega
  | cons b B => simp [← hlenA]

/-- `delete_char` before the end of the text of a well-formed writable buffer. -/
theorem delete_char_step (s : State) (chain : List LinePtr) (hv : ValidBuffer s chain)
    (hw : s.cur.readonly = false)
    (hlt : point_offset s chain s.cur.pt < (buffer_text s chain).length) :
    ∃ chain2, DeletedOne s chain (delete_char s).1 chain2 := by
  rcases Nat.lt_or_ge s.cur.pt.o (line_len s s.cur.pt.p) with h | h
  · exact ⟨chain, delete_char_inline_step s chain hv hw h⟩
  · have ho : s.cur.pt.o = line_len s s.cur.pt.p := Nat.le_antisymm hv.offset h
    exact delete_char_join_step s chain hv hw ho
      (point_offset_lt_last s chain _ ⟨hv.point, hv.offset⟩ hlt ho)

/-- The loop `while (size--) delete_char ();` in a well-formed writable buffer with at
least `k` characters behind point. -/
theorem delete_char_loop_spec : ∀ (k : Nat) (s : State) (chain : List LinePtr),
    ValidBuffer s chain → s.cur.readonly = false →
    point_offset s chain s.cur.pt + k ≤ (buffer_text s chain).length →
    ∃ chain2, DeletedMany k s chain (delete_char_loop k s) chain2 := by
  intro k
  induction k with
  | zero =>
    intro s chain hv _ _
    exact ⟨chain, ⟨hv, rfl, rfl, rfl, rfl, rfl, rfl, fun _ => rfl, rfl,
      fun m _ hval => ⟨hval, rfl⟩, fun _ => rfl⟩⟩
  | succ k ih =>
    intro s chain hv hw hle
    obtain ⟨c1, h1⟩ := delete_char_step s chain hv hw (by omega)
    have hle1 : point_offset (delete_char s).1 c1 (delete_char s).1.cur.pt + k ≤
        (buffer_text (delete_char s).1 c1).length := by
      rw [h1.offset, h1.text, List.length_eraseIdx]
      split <;> omega
    obtain ⟨c2, h2⟩ := ih (delete_char s).1 c1 h1.valid (by rw [h1.readonly]; exact hw) hle1
    refine ⟨c2, ⟨h2.valid, ?_, ?_, ?_, ?_, ?_, ?_, ?_, ?_, ?_, ?_⟩⟩
    · show buffer_text (delete_char_loop k (delete_char s).1) c2 = _
      rw [h2.text, h1.offset, h1.text, Function.iterate_succ_apply]
    · exact h2.pt.trans h1.pt
    · exact h2.cur_bp.trans h1.cur_bp
    · exact h2.markers.trans h1.markers
    · exact h2.readonly.trans h1.readonly
    · exact h2.nosave.trans h1.nosave
    · intro hs
      exact (h2.undo (by rw [h1.nosave]; exact hs)).trans (h1.undo hs)
    · exact h2.offset.trans h1.offset
    · intro m hm hval
      obtain ⟨hv1, ho1⟩ := h1.marker m hm hval
      obtain ⟨hv2, ho2⟩ := h2.marker m (by rw [h1.markers]; exact hm) hv1
      refine ⟨hv2, ?_⟩
      show point_offset (delete_char_loop k (delete_char s).1) c2
        ((delete_char_loop k (delete_char s).1).markerAt m).pt = _
      rw [ho2, h1.offset, ho1, Function.iterate_succ_apply]
      rfl
    · intro m
      exact (h2.owner m).trans (h1.owner m)

theorem marker_shift_fix (P : Nat) : ∀ k, (marker_shift P)^[k] P = P := by
  intro k
  induction k with
  | zero => rfl
  | succ k ih =>
    rw [Function.iterate_succ_apply]
    simpa [marker_shift] using ih

theorem marker_shift_down (P : Nat) : ∀ k, (marker_shift P)^[k] (P + k) = P := by
  intro k
  induction k with
  | zero => rfl
  | succ k ih =>
    rw [Function.iterate_succ_apply]
    have : marker_shift P (P + (k + 1)) = P + k := by
      unfold marker_shift
      rw [if_pos (by omega)]
      omega
    rw [this, ih]

/-- A position on an earlier line has a smaller offset in the text. -/
theorem point_offset_lt_of_line (s : State) (chain : List LinePtr) (q1 q2 : Point)
    (h1 : ValidPoint s chain q1) (hn : q1.n < q2.n) :
    point_offset s chain q1 < point_offset s chain q2 := by
  unfold point_offset
  obtain ⟨hlt, hp⟩ := List.getElem?_eq_some_iff.mp h1.1
  have e1 := line_start_succ (chain.map (line_len s)) q1.n (by simpa using hlt)
  have e2 := line_start_mono (chain.map (line_len s)) (q1.n + 1) q2.n hn
  have hlt2 : q1.n < (chain.map (line_len s)).length := by simpa using hlt
  have e3 : (chain.map (line_len s))[q1.n] = line_len s q1.p := by
    simp [hp]
  have := h1.2
  omega

/-- Two positions of the buffer with the same offset in the text are the same. -/
theorem point_offset_inj (s : State) (chain : List LinePtr) (q1 q2 : Point)
    (h1 : ValidPoint s chain q1) (h2 : ValidPoint s chain q2)
    (h : point_offset s chain q1 = point_offset s chain q2) : q1 = q2 := by
  have hn : q1.n = q2.n := by
    rcases Nat.lt_trichotomy q1.n q2.n with hlt | heq | hgt
    · have := point_offset_lt_of_line s chain q1 q2 h1 hlt
      omega
    · exact heq
    · have := point_offset_lt_of_line s chain q2 q1 h2 hgt
      omega
  have ho : q1.o = q2.o := by
    unfold point_offset at h
    rw [hn] at h
    omega
  have hp : q1.p = q2.p := by
    have a := h1.1
    have b := h2.1
    unfold OnChain at a b
    rw [hn, b] at a
    exact (Option.some.inj a).symm
  cases q1; cases q2; simp_all

/-- The lines from line `i` to line `i + d` of a chain of different lines are a path. -/
theorem linePath_slice {s : State} {chain : List LinePtr} (hc : LineChain s chain)
    (hnd : chain.Nodup) : ∀ (d i : Nat) (a b : LinePtr),
    chain[i]? = some a → chain[i + d]? = some b →
    LinePath s a ((chain.drop i).take d) b := by
  intro d
  induction d with
  | zero =>
    intro i a b ha hb
    rw [Nat.add_zero, ha] at hb
    simpa [LinePath] using hb
  | succ d ih =>
    intro i a b ha hb
    obtain ⟨hi, hai⟩ := List.getElem?_eq_some_iff.mp ha
    obtain ⟨hj, hbj⟩ := List.getElem?_eq_some_iff.mp hb
    have hi1 : i + 1 < chain.length := by omega
    rw [List.drop_eq_getElem_cons hi, List.take_succ_cons, hai]
    refine ⟨rfl, ?_, ?_⟩
    · intro e
      have := (@List.Nodup.getElem_inj_iff _ chain hnd i hi (i + (d + 1)) hj).mp
        (by rw [hai, hbj, e])
      omega
    · have hn := (lineChain_links hc ha (List.getElem?_eq_getElem hi1)).1
      rw [get_line_next, hn]
      apply ih (i + 1) _ b (List.getElem?_eq_getElem hi1)
      rw [show i + 1 + d = i + (d + 1) by omega]
      exact hb

/-- The characters of the lines from line `i` to line `i + d`, each with its newline. -/
theorem chars_of_lines_slice (s : State) (chain : List LinePtr) : ∀ (d i : Nat),
    i + d ≤ chain.length →
    chars_of_lines s ((chain.drop i).take d) =
      (line_start (chain.map (line_len s)) (i + d) : Int) -
        (line_start (chain.map (line_len s)) i : Int) := by
  intro d
  induction d with
  | zero => intro i _; simp [chars_of_lines]
  | succ d ih =>
    intro i h
    have hi : i < chain.length := by omega
    rw [List.drop_eq_getElem_cons hi, List.take_succ_cons]
    have e := ih (i + 1) (by omega)
    have e1 := line_start_succ (chain.map (line_len s)) i (by simpa using hi)
    simp only [chars_of_lines, List.map_cons, List.sum_cons] at e ⊢
    rw [e, show i + 1 + d = i + (d + 1) by omega, e1]
    simp only [List.getElem_map]
    push_cast
    ring

/-- The region of `calculate_the_region` in a well-formed buffer with a valid mark: its
ends are valid positions, point is one of them, and its size is the distance of their
offsets in the text. -/
theorem calculate_the_region_offsets (s : State) (rp : Region) (chain : List LinePtr)
    (fuel : Nat) (hv : ValidBuffer s chain) (hmark : (warn_if_no_mark s).2 = false)
    (hmv : ValidPoint s chain (get_marker_pt s s.cur.mark)) (hf : chain.length < fuel) :
    ∃ r, calculate_the_region fuel s rp = some (s, true, r) ∧
      ValidPoint s chain r.start ∧ ValidPoint s chain r.end_ ∧
      (s.cur.pt = r.start ∨ s.cur.pt = r.end_) ∧
      point_offset s chain r.start ≤ point_offset s chain r.end_ ∧
      r.size = (point_offset s chain r.end_ : Int) - (point_offset s chain r.start : Int) := by
  have hpv : ValidPoint s chain s.cur.pt := ⟨hv.point, hv.offset⟩
  generalize hmk : get_marker_pt s s.cur.mark = mk at hmv
  have hse : ValidPoint s chain (earlier s.cur.pt mk) ∧ ValidPoint s chain (later s.cur.pt mk) ∧
      (s.cur.pt = earlier s.cur.pt mk ∨ s.cur.pt = later s.cur.pt mk) := by
    unfold earlier later
    split <;> simp [hpv, hmv]
  have hle := earlier_le_later s.cur.pt mk
  rw [Point.pos, Point.pos, Prod.Lex.le_iff] at hle
  simp only at hle
  have hn : (earlier s.cur.pt mk).n ≤ (later s.cur.pt mk).n := by omega
  have hlast := (List.getElem?_eq_some_iff.mp hse.2.1.1).1
  have hp := linePath_slice hv.linked (validBuffer_nodup hv)
    ((later s.cur.pt mk).n - (earlier s.cur.pt mk).n) (earlier s.cur.pt mk).n _ _ hse.1.1
    (by rw [Nat.add_sub_cancel' hn]; exact hse.2.1.1)
  have hcalc := calculate_the_region_eq s rp fuel _ hmark (by rw [hmk]; exact hp)
    (by simp; omega)
  have hchars := chars_of_lines_slice s chain
    ((later s.cur.pt mk).n - (earlier s.cur.pt mk).n) (earlier s.cur.pt mk).n (by omega)
  rw [Nat.add_sub_cancel' hn] at hchars
  rw [hmk] at hcalc
  refine ⟨_, hcalc, hse.1, hse.2.1, hse.2.2, ?_, ?_⟩
  · rcases Nat.lt_or_ge (earlier s.cur.pt mk).n (later s.cur.pt mk).n with h | h
    · exact Nat.le_of_lt (point_offset_lt_of_line s chain _ _ hse.1 h)
    · have : (earlier s.cur.pt mk).n = (later s.cur.pt mk).n := by omega
      simp only [point_offset]
      rw [this]
      omega
  · simp only [hchars, point_offset]
    push_cast
    ring

/-- A state with the same lines and a valid point is well formed again. -/
theorem validBuffer_of_eq {s t : State} {chain : List LinePtr} (hv : ValidBuffer s chain)
    (hl : t.lineAt = s.lineAt) (hlim : t.cur.limitp = s.cur.limitp)
    (hcount : t.cur.last_line = s.cur.last_line) (hpt : ValidPoint s chain t.cur.pt) :
    ValidBuffer t chain := by
  refine ⟨lineChain_congr hl chain hv.linked, ?_, ?_, ?_, hpt.1, ?_, ?_⟩
  · intro a ha; rw [hl, hlim]; exact hv.first a ha
  · intro a ha; rw [hl, hlim]; exact hv.last a ha
  · rw [hlim]; exact hv.limit
  · simpa [line_len, hl] using hpt.2
  · rw [hcount]; exact hv.count

theorem buffer_text_congr {s t : State} (hl : t.lineAt = s.lineAt) (chain : List LinePtr) :
    buffer_text t chain = buffer_text s chain := by
  simp [buffer_text, hl]

theorem point_offset_congr {s t : State} (hl : t.lineAt = s.lineAt) (chain : List LinePtr)
    (pt : Point) : point_offset t chain pt = point_offset s chain pt := by
  have : line_len t = line_len s := by funext q; simp [line_len, hl]
  simp [point_offset, this]

theorem validPoint_congr {s t : State} (hl : t.lineAt = s.lineAt) (chain : List LinePtr)
    (pt : Point) : ValidPoint t chain pt ↔ ValidPoint s chain pt := by
  simp [ValidPoint, line_len, hl]

/-- The second half of `delete_region` of buffer.c: the deletion loop, the return of point
to the temporary marker `m` and the release of `m`. -/
theorem delete_region_tail (s3 : State) (chain : List LinePtr) (m : MarkerPtr) (k : Nat)
    (hv : ValidBuffer s3 chain) (hw : s3.cur.readonly = false) (hcur : s3.cur_bp ≠ NULL)
    (hm : m ∈ s3.cur.markers) (hmbp : (s3.markerAt m).bp = s3.cur_bp)
    (hmv : ValidPoint s3 chain (s3.markerAt m).pt)
    (hmo : point_offset s3 chain (s3.markerAt m).pt = point_offset s3 chain s3.cur.pt ∨
      point_offset s3 chain (s3.markerAt m).pt = point_offset s3 chain s3.cur.pt + k)
    (hle : point_offset s3 chain s3.cur.pt + k ≤ (buffer_text s3 chain).length)
    (hns : s3.undo_nosave = true) :
    ∃ chain2,
      ValidBuffer (unchain_marker (goto_point (set_undo_nosave (delete_char_loop k s3) false)
        (get_marker_pt (set_undo_nosave (delete_char_loop k s3) false) m)) m) chain2 ∧
      buffer_text (unchain_marker (goto_point (set_undo_nosave (delete_char_loop k s3) false)
        (get_marker_pt (set_undo_nosave (delete_char_loop k s3) false) m)) m) chain2 =
        (buffer_text s3 chain).take (point_offset s3 chain s3.cur.pt) ++
          (buffer_text s3 chain).drop (point_offset s3 chain s3.cur.pt + k) ∧
      (unchain_marker (goto_point (set_undo_nosave (delete_char_loop k s3) false)
        (get_marker_pt (set_undo_nosave (delete_char_loop k s3) false) m)) m).cur.pt
        = s3.cur.pt ∧
      (unchain_marker (goto_point (set_undo_nosave (delete_char_loop k s3) false)
        (get_marker_pt (set_undo_nosave (delete_char_loop k s3) false) m)) m).cur.undo
        = s3.cur.undo ∧
      (unchain_marker (goto_point (set_undo_nosave (delete_char_loop k s3) false)
        (get_marker_pt (set_undo_nosave (delete_char_loop k s3) false) m)) m).cur.markers
        = s3.cur.markers.erase m ∧
      (unchain_marker (goto_point (set_undo_nosave (delete_char_loop k s3) false)
        (get_marker_pt (set_undo_nosave (delete_char_loop k s3) false) m)) m).undo_nosave
        = false ∧
      (unchain_marker (goto_point (set_undo_nosave (delete_char_loop k s3) false)
        (get_marker_pt (set_undo_nosave (delete_char_loop k s3) false) m)) m).cur_bp
        = s3.cur_bp := by
  obtain ⟨chain2, hd⟩ := delete_char_loop_spec k s3 chain hv hw hle
  generalize delete_char_loop k s3 = t4 at *
  obtain ⟨hmv4, hmo4⟩ := hd.marker m hm hmv
  have hP : point_offset t4 chain2 (t4.markerAt m).pt = point_offset t4 chain2 t4.cur.pt := by
    rw [hmo4, hd.offset]
    rcases hmo with e | e
    · rw [e, marker_shift_fix]
    · rw [e, marker_shift_down]
  have hmpt : (t4.markerAt m).pt = t4.cur.pt :=
    point_offset_inj t4 chain2 _ _ hmv4 ⟨hd.valid.point, hd.valid.offset⟩ hP
  have hbp4 : (t4.markerAt m).bp = t4.cur_bp := by rw [hd.owner, hmbp, hd.cur_bp]
  have hcur4 : t4.cur_bp ≠ NULL := by rw [hd.cur_bp]; exact hcur
  have hc : (unchain_marker (goto_point (set_undo_nosave t4 false)
      (get_marker_pt (set_undo_nosave t4 false) m)) m).cur =
      { t4.cur with markers := t4.cur.markers.erase m } := by
    rw [unchain_marker_cur _ _ (by simpa [goto_point] using hbp4)
      (by simpa [goto_point] using hcur4)]
    simp [goto_point, cur_setPt, get_marker_pt, hmpt]
  refine ⟨chain2, ?_, ?_, ?_, ?_, ?_, by simp [goto_point], by simp [goto_point, hd.cur_bp]⟩
  · apply validBuffer_of_eq hd.valid (by simp [goto_point]) (by rw [hc]) (by rw [hc])
    rw [hc]
    exact ⟨hd.valid.point, hd.valid.offset⟩
  · rw [buffer_text_congr (by simp [goto_point] : _ = t4.lineAt), hd.text, iterate_eraseIdx]
  · rw [hc]; exact hd.pt
  · rw [hc]; exact hd.undo hns
  · rw [hc]; simp [hd.markers]

/-- What `delete_region` of buffer.c does in a well-formed writable buffer for a region
between two valid positions, one of them point, whose size is the distance of their
offsets in the text. -/
theorem delete_region_spec (s : State) (chain : List LinePtr) (r : Region)
    (hv : ValidBuffer s chain) (hw : s.cur.readonly = false) (hcur : s.cur_bp ≠ NULL)
    (hs : ValidPoint s chain r.start) (he : ValidPoint s chain r.end_)
    (hpt : s.cur.pt = r.start ∨ s.cur.pt = r.end_)
    (hle : point_offset s chain r.start ≤ point_offset s chain r.end_)
    (hsz : r.size = (point_offset s chain r.end_ : Int) - (point_offset s chain r.start : Int)) :
    ∃ chain2, (delete_region s r).2 = true ∧ ValidBuffer (delete_region s r).1 chain2 ∧
      buffer_text (delete_region s r).1 chain2 =
        (buffer_text s chain).take (point_offset s chain r.start) ++
          (buffer_text s chain).drop (point_offset s chain r.start + r.size.toNat) ∧
      (delete_region s r).1.cur.pt = r.start ∧
      (delete_region s r).1.cur.undo =
        (if s.cur.noundo || s.undo_nosave then s.cur.undo
         else s.cur.undo ++ [⟨UndoType.UNDO_REPLACE_BLOCK, r.start, r.size, 0⟩]) ∧
      (delete_region s r).1.undo_nosave = false ∧
      (delete_region s r).1.cur.markers = s.cur.markers ∧
      (delete_region s r).1.cur_bp = s.cur_bp := by
  have hk : r.size.toNat = point_offset s chain r.end_ - point_offset s chain r.start := by
    rw [hsz]; omega
  have hk2 : ((r.size.toNat : Nat) : Int) = r.size := by rw [hsz]; omega
  rw [delete_region_writable s r hw]
  have hl3 : (set_undo_nosave (undo_save (goto_point (point_marker s).1 r.start)
      UndoType.UNDO_REPLACE_BLOCK r.start (r.size.toNat : Int) 0) true).lineAt = s.lineAt := by
    simp [goto_point]
  have hc3 : (set_undo_nosave (undo_save (goto_point (point_marker s).1 r.start)
      UndoType.UNDO_REPLACE_BLOCK r.start (r.size.toNat : Int) 0) true).cur =
      { s.cur with
        markers := s.fresh_marker :: s.cur.markers
        pt := r.start
        undo := if s.cur.noundo || s.undo_nosave then s.cur.undo
                else s.cur.undo ++ [⟨UndoType.UNDO_REPLACE_BLOCK, r.start, r.size, 0⟩] } := by
    simp [goto_point, undo_save_cur, cur_setPt, point_marker_cur, hk2]
  have hm3 : (set_undo_nosave (undo_save (goto_point (point_marker s).1 r.start)
      UndoType.UNDO_REPLACE_BLOCK r.start (r.size.toNat : Int) 0) true).markerAt
      s.fresh_marker = { bp := s.cur_bp, pt := s.cur.pt } := by
    simp [goto_point, point_marker_apply]
  have hb3 : (set_undo_nosave (undo_save (goto_point (point_marker s).1 r.start)
      UndoType.UNDO_REPLACE_BLOCK r.start (r.size.toNat : Int) 0) true).cur_bp = s.cur_bp := by
    simp [goto_point]
  have hn3 : (set_undo_nosave (undo_save (goto_point (point_marker s).1 r.start)
      UndoType.UNDO_REPLACE_BLOCK r.start (r.size.toNat : Int) 0) true).undo_nosave = true := by
    simp
  generalize set_undo_nosave (undo_save (goto_point (point_marker s).1 r.start)
      UndoType.UNDO_REPLACE_BLOCK r.start (r.size.toNat : Int) 0) true = s3 at *
  have hv3 : ValidBuffer s3 chain :=
    validBuffer_of_eq hv hl3 (by rw [hc3]) (by rw [hc3]) (by rw [hc3]; exact hs)
  have hpt3 : s3.cur.pt = r.start := by rw [hc3]
  have hend := point_offset_le s chain r.end_ he
  have hm3pt : (s3.markerAt s.fresh_marker).pt = s.cur.pt := by rw [hm3]
  obtain ⟨chain2, h1, h2, h3, h4, h5, h6, h7⟩ := delete_region_tail s3 chain s.fresh_marker
    r.size.toNat hv3 (by rw [hc3]; exact hw) (by rw [hb3]; exact hcur)
    (by rw [hc3]; simp) (by rw [hm3, hb3])
    (by rw [hm3pt]; exact (validPoint_congr hl3 chain _).mpr ⟨hv.point, hv.offset⟩)
    (by
      rw [hm3pt, hpt3, point_offset_congr hl3, point_offset_congr hl3]
      rcases hpt with e | e
      · left; rw [e]
      · right; rw [e]; omega)
    (by rw [hpt3, point_offset_congr hl3, buffer_text_congr hl3]; omega)
    hn3
  refine ⟨chain2, rfl, h1, ?_, by rw [h3, hpt3], by rw [h4, hc3], h6, ?_, by rw [h7, hb3]⟩
  · rw [h2, hpt3, point_offset_congr hl3, buffer_text_congr hl3]
  · rw [h5, hc3]
    simp

/-- What `delete_region` of region.c does in a writable buffer for the region between
point and a mark at the offset `mo`. -/
theorem regionc_delete_region_spec (b : RegionC.Buf) (mo : Nat) (hw : b.readonly = false) :
    (RegionC.delete_region b (RegionC.region_new b.pt mo)).2 = true ∧
    (RegionC.delete_region b (RegionC.region_new b.pt mo)).1.text =
      b.text.take (RegionC.region_new b.pt mo).start ++
        b.text.drop ((RegionC.region_new b.pt mo).start +
          RegionC.get_region_size (RegionC.region_new b.pt mo)) ∧
    (RegionC.delete_region b (RegionC.region_new b.pt mo)).1.pt =
      (RegionC.region_new b.pt mo).start ∧
    (RegionC.delete_region b (RegionC.region_new b.pt mo)).1.undo =
      b.undo ++ [((RegionC.region_new b.pt mo).start,
        RegionC.get_region_size (RegionC.region_new b.pt mo), 0)] := by
  simp only [RegionC.delete_region, RegionC.warn_if_readonly_buffer, hw,
    RegionC.point_marker, RegionC.goto_offset, RegionC.replace_estr,
    RegionC.unchain_marker, RegionC.get_marker_o, RegionC.region_new,
    RegionC.get_region_size, Bool.false_eq_true, if_false, List.map_cons, List.find?_cons]
  refine ⟨trivial, by simp, ?_, by simp⟩
  by_cases h : b.pt > min b.pt mo
  · simp only [h, if_true, decide_True]
    simp
    omega
  · simp only [h, if_false, decide_True]
    simp at h ⊢
    omega

/-- C17: in a well-formed writable buffer with a usable mark at a valid position,
`calculate_the_region` gives a region `r` with point at its start or its end, and
`delete_region (r)` of buffer.c returns true; the text afterwards is the text before
without the `size (r)` characters from the offset of `r.start` on, the buffer is well
formed again, point is `r.start`, the undo log has one record more, a replace-block at
`r.start` with the deleted length `size (r)` and the new length 0, and `undo_nosave` is
false. `delete_region` of region.c does the same on the text as one string. -/
theorem delete_region_removes_block (s : State) (chain : List LinePtr) (rp : Region)
    (fuel : Nat) (b : RegionC.Buf) (mo : Nat)
    (hv : ValidBuffer s chain) (hw : s.cur.readonly = false) (hcur : s.cur_bp ≠ NULL)
    (hmark : (warn_if_no_mark s).2 = false)
    (hmv : ValidPoint s chain (get_marker_pt s s.cur.mark)) (hf : chain.length < fuel)
    (hnu : s.cur.noundo = false) (hns : s.undo_nosave = false)
    (hw2 : b.readonly = false) :
    (∃ r chain2, calculate_the_region fuel s rp = some (s, true, r) ∧
      (s.cur.pt = r.start ∨ s.cur.pt = r.end_) ∧ 0 ≤ r.size ∧
      (delete_region s r).2 = true ∧ ValidBuffer (delete_region s r).1 chain2 ∧
      buffer_text (delete_region s r).1 chain2 =
        (buffer_text s chain).take (point_offset s chain r.start) ++
          (buffer_text s chain).drop (point_offset s chain r.start + r.size.toNat) ∧
      (buffer_text (delete_region s r).1 chain2).length + r.size.toNat =
        (buffer_text s chain).length ∧
      (delete_region s r).1.cur.pt = r.start ∧
      (delete_region s r).1.cur.undo =
        s.cur.undo ++ [⟨UndoType.UNDO_REPLACE_BLOCK, r.start, r.size, 0⟩] ∧
      (delete_region s r).1.undo_nosave = false) ∧
    ((RegionC.delete_region b (RegionC.region_new b.pt mo)).2 = true ∧
      (RegionC.delete_region b (RegionC.region_new b.pt mo)).1.text =
        b.text.take (RegionC.region_new b.pt mo).start ++
          b.text.drop ((RegionC.region_new b.pt mo).start +
            RegionC.get_region_size (RegionC.region_new b.pt mo)) ∧
      (RegionC.delete_region b (RegionC.region_new b.pt mo)).1.pt =
        (RegionC.region_new b.pt mo).start ∧
      (RegionC.delete_region b (RegionC.region_new b.pt mo)).1.undo =
        b.undo ++ [((RegionC.region_new b.pt mo).start,
          RegionC.get_region_size (RegionC.region_new b.pt mo), 0)]) := by
  refine ⟨?_, regionc_delete_region_spec b mo hw2⟩
  obtain ⟨r, hcalc, hs, he, hpt, hle, hsz⟩ :=
    calculate_the_region_offsets s rp chain fuel hv hmark hmv hf
  obtain ⟨chain2, h1, h2, h3, h4, h5, h6, _, _⟩ :=
    delete_region_spec s chain r hv hw hcur hs he hpt hle hsz
  have hend := point_offset_le s chain r.end_ he
  refine ⟨r, chain2, hcalc, hpt, by rw [hsz]; omega, h1, h2, h3, ?_, h4, ?_, h6⟩
  · rw [h3]
    simp only [List.length_append, List.length_take, List.length_drop]
    have : r.size.toNat = point_offset s chain r.end_ - point_offset s chain r.start := by
      rw [hsz]; omega
    omega
  · rw [h5]
    simp [hnu, hns]

/-- C17 witness: in the example buffer (the text `ab`, an empty line, `xyz`; point at the
start of the empty line and the mark behind `a`) the region is `b` and the newline. -/
theorem delete_region_removes_block_witness :
    (∃ r chain2, calculate_the_region 4 exState region_new = some (exState, true, r) ∧
      (delete_region exState r).2 = true ∧
      buffer_text (delete_region exState r).1 chain2 =
        (buffer_text exState [10, 11, 12]).take (point_offset exState [10, 11, 12] r.start) ++
          (buffer_text exState [10, 11, 12]).drop
            (point_offset exState [10, 11, 12] r.start + r.size.toNat) ∧
      (delete_region exState r).1.cur.pt = r.start) ∧
    (RegionC.delete_region RegionC.exBuf (RegionC.region_new RegionC.exBuf.pt 1)).1.pt =
      (RegionC.region_new RegionC.exBuf.pt 1).start :=
  let h := delete_region_removes_block exState [10, 11, 12] region_new 4 RegionC.exBuf 1
    { linked := ⟨rfl, rfl, rfl, rfl, trivial⟩
      first := by intro a h; cases h; rfl
      last := by intro a h; cases h; rfl
      limit := by decide
      point := rfl
      offset := by decide
      count := rfl }
    rfl (by decide) rfl ⟨rfl, by decide⟩ (by decide) rfl rfl rfl
  let ⟨r, chain2, h1, _, _, h4, _, h6, _, h8, _⟩ := h.1
  ⟨⟨r, chain2, h1, h4, h6, h8⟩, h.2.2.2.1⟩

/-- An evaluation of `delete_region` of buffer.c on the example buffer: the region `b` and
the newline is deleted, the lines `ab` and the empty line become the line `a`. -/
theorem delete_region_example :
    buffer_text exState [10, 11, 12] = "ab\n\nxyz".toList ∧
    buffer_text (delete_region exState ⟨⟨10, 0, 1⟩, ⟨11, 1, 0⟩, 2⟩).1 [10, 12]
      = "a\nxyz".toList ∧
    (delete_region exState ⟨⟨10, 0, 1⟩, ⟨11, 1, 0⟩, 2⟩).1.cur.pt = ⟨10, 0, 1⟩ ∧
    (delete_region exState ⟨⟨10, 0, 1⟩, ⟨11, 1, 0⟩, 2⟩).1.cur.markers = [5] := by
  decide

/-! ## Movements change point only -/

theorem motionFrame_refl (s : State) : MotionFrame s s := by
  refine ⟨rfl, rfl, rfl, rfl, rfl, rfl, rfl, rfl, s.cur.pt, s.cur.goalc, ?_⟩
  funext q
  by_cases h : q = s.cur_bp
  · subst h; simp [State.setBuf, State.cur]
  · simp [State.setBuf, h]

theorem motionFrame_trans {s t u : State} (h1 : MotionFrame s t) (h2 : MotionFrame t u) :
    MotionFrame s u := by
  obtain ⟨a1, a2, a3, a4, a5, a6, a7, a8, pt1, g1, a9⟩ := h1
  obtain ⟨b1, b2, b3, b4, b5, b6, b7, b8, pt2, g2, b9⟩ := h2
  refine ⟨b1.trans a1, b2.trans a2, b3.trans a3, b4.trans a4, b5.trans a5, b6.trans a6,
    b7.trans a7, b8.trans a8, pt2, g2, ?_⟩
  rw [b9]
  funext q
  by_cases h : q = s.cur_bp
  · subst h
    simp [State.setBuf, State.cur, a3, a9]
  · simp [State.setBuf, State.cur, a3, a9, h]

theorem motionFrame_cur {s t : State} (h : MotionFrame s t) :
    ∃ pt goalc, t.cur = { s.cur with pt := pt, goalc := goalc } := by
  obtain ⟨_, _, a3, _, _, _, _, _, pt, g, a9⟩ := h
  refine ⟨pt, g, ?_⟩
  simp [State.cur, a3, a9, State.setBuf]

theorem motionFrame_setPt (s : State) (pt : Point) : MotionFrame s (s.setPt pt) :=
  ⟨rfl, rfl, rfl, rfl, rfl, rfl, rfl, rfl, pt, s.cur.goalc, rfl⟩

theorem motionFrame_set_offset (s : State) (o : Nat) : MotionFrame s (set_offset s o) :=
  motionFrame_setPt s _

theorem motionFrame_goto_point (s : State) (pt : Point) : MotionFrame s (goto_point s pt) :=
  motionFrame_setPt s _

theorem motionFrame_needResync (s : State) : MotionFrame s s.needResync := by
  have h := motionFrame_refl s
  exact h

theorem motionFrame_minibuf_error (s : State) (msg : String) :
    MotionFrame s (minibuf_error s msg) := by
  have h := motionFrame_refl s
  exact h

theorem motionFrame_update_goalc (s : State) : MotionFrame s (update_goalc s) := by
  unfold update_goalc
  split
  · exact ⟨rfl, rfl, rfl, rfl, rfl, rfl, rfl, rfl, s.cur.pt, get_goalc s, rfl⟩
  · exact motionFrame_refl s

theorem motionFrame_goto_goalc (s : State) : MotionFrame s (goto_goalc s) :=
  motionFrame_setPt s _

theorem motionFrame_beginning_of_line (s : State) : MotionFrame s (beginning_of_line s) :=
  motionFrame_setPt s _

theorem motionFrame_end_of_line (s : State) : MotionFrame s (end_of_line s) :=
  motionFrame_setPt s _

theorem motionFrame_move_char (s : State) (dir : Int) : MotionFrame s (move_char s dir).1 := by
  unfold move_char
  by_cases h1 : (if dir > 0 then !eolp s else !bolp s) = true
  · rw [if_pos h1]; exact motionFrame_setPt s _
  · rw [if_neg h1]
    by_cases h2 : (if dir > 0 then !eobp s else !bobp s) = true
    · rw [if_pos h2]
      by_cases hd : dir > 0
      · simp only [hd, if_true]
        exact motionFrame_trans (motionFrame_trans (motionFrame_trans
          (motionFrame_needResync s) (motionFrame_setPt _ _)) (motionFrame_setPt _ _))
          (motionFrame_beginning_of_line _)
      · simp only [hd, if_false]
        exact motionFrame_trans (motionFrame_trans (motionFrame_trans
          (motionFrame_needResync s) (motionFrame_setPt _ _)) (motionFrame_setPt _ _))
          (motionFrame_end_of_line _)
    · rw [if_neg h2]; exact motionFrame_refl s

theorem motionFrame_forward_char_loop : ∀ (k : Nat) (s : State),
    MotionFrame s (forward_char_loop k s).1 := by
  intro k
  induction k with
  | zero => intro s; exact motionFrame_refl s
  | succ k ih =>
    intro s
    unfold forward_char_loop
    simp only []
    split
    · exact motionFrame_trans (motionFrame_move_char s 1) (motionFrame_minibuf_error _ _)
    · exact motionFrame_trans (motionFrame_move_char s 1) (ih _)

theorem motionFrame_backward_char_loop : ∀ (k : Nat) (s : State),
    MotionFrame s (backward_char_loop k s).1 := by
  intro k
  induction k with
  | zero => intro s; exact motionFrame_refl s
  | succ k ih =>
    intro s
    unfold backward_char_loop
    simp only []
    split
    · exact motionFrame_trans (motionFrame_move_char s (-1)) (motionFrame_minibuf_error _ _)
    · exact motionFrame_trans (motionFrame_move_char s (-1)) (ih _)

theorem motionFrame_F_forward_char (s : State) (u : Int) :
    MotionFrame s (F_forward_char s u).1 := by
  unfold F_forward_char
  split
  · exact motionFrame_backward_char_loop _ s
  · exact motionFrame_forward_char_loop _ s

theorem motionFrame_next_line (s : State) : MotionFrame s (next_line s).1 := by
  unfold next_line
  split
  · exact motionFrame_refl s
  · exact motionFrame_trans (motionFrame_update_goalc s)
      (motionFrame_trans (motionFrame_setPt _ _)
        (motionFrame_trans (motionFrame_goto_goalc _) (motionFrame_needResync _)))

theorem motionFrame_previous_line (s : State) : MotionFrame s (previous_line s).1 := by
  unfold previous_line
  split
  · exact motionFrame_refl s
  · exact motionFrame_trans (motionFrame_update_goalc s)
      (motionFrame_trans (motionFrame_setPt _ _)
        (motionFrame_trans (motionFrame_goto_goalc _) (motionFrame_needResync _)))

theorem motionFrame_line_loop (step : State → State × Bool)
    (hstep : ∀ s, MotionFrame s (step s).1) : ∀ (k : Nat) (s : State),
    MotionFrame s (line_loop step k s).1 := by
  intro k
  induction k with
  | zero => intro s; exact motionFrame_refl s
  | succ k ih =>
    intro s
    unfold line_loop
    simp only []
    split
    · exact hstep s
    · exact motionFrame_trans (hstep s) (ih _)

theorem motionFrame_F_forward_line (s : State) (u : Int) :
    MotionFrame s (F_forward_line s u).1 := by
  unfold F_forward_line
  simp only []
  generalize (if u = 0 then 1 else u) = v
  by_cases h1 : v < 0
  · rw [if_pos h1]
    exact motionFrame_trans (motionFrame_beginning_of_line s)
      (motionFrame_line_loop _ motionFrame_previous_line _ _)
  · rw [if_neg h1]
    by_cases h2 : v > 0
    · rw [if_pos h2]
      exact motionFrame_trans (motionFrame_beginning_of_line s)
        (motionFrame_line_loop _ motionFrame_next_line _ _)
    · rw [if_neg h2]
      exact motionFrame_beginning_of_line s

theorem motionFrame_forward_word_line : ∀ (k : Nat) (s : State) (g : Bool),
    MotionFrame s (forward_word_line k s g).1 := by
  intro k
  induction k with
  | zero => intro s g; exact motionFrame_refl s
  | succ k ih =>
    intro s g
    unfold forward_word_line
    by_cases h1 : (!eolp s) = true
    · rw [if_pos h1]
      by_cases h2 : (!ISWORDCHAR (following_char s)) = true
      · rw [if_pos h2]
        by_cases h3 : g = true
        · rw [if_pos h3]; exact motionFrame_refl s
        · rw [if_neg h3]
          exact motionFrame_trans (motionFrame_set_offset s _) (ih _ _)
      · rw [if_neg h2]
        exact motionFrame_trans (motionFrame_set_offset s _) (ih _ _)
    · rw [if_neg h1]; exact motionFrame_refl s

theorem motionFrame_backward_word_line : ∀ (k : Nat) (s : State) (g : Bool),
    MotionFrame s (backward_word_line k s g).1 := by
  intro k
  induction k with
  | zero => intro s g; exact motionFrame_refl s
  | succ k ih =>
    intro s g
    unfold backward_word_line
    by_cases h1 : (!bolp s) = true
    · rw [if_pos h1]
      by_cases h2 : (!ISWORDCHAR (preceding_char s)) = true
      · rw [if_pos h2]
        by_cases h3 : g = true
        · rw [if_pos h3]; exact motionFrame_refl s
        · rw [if_neg h3]
          exact motionFrame_trans (motionFrame_set_offset s _) (ih _ _)
      · rw [if_neg h2]
        exact motionFrame_trans (motionFrame_set_offset s _) (ih _ _)
    · rw [if_neg h1]; exact motionFrame_refl s

theorem motionFrame_forward_word_loop : ∀ (fuel : Nat) (s : State) (g : Bool) (t : State)
    (r : Bool), forward_word_loop fuel s g = some (t, r) → MotionFrame s t := by
  intro fuel
  induction fuel with
  | zero => intro s g t r h; simp [forward_word_loop] at h
  | succ fuel ih =>
    intro s g t r h
    unfold forward_word_loop at h
    simp only [] at h
    have hl := motionFrame_forward_word_line (line_len s s.cur.pt.p - s.cur.pt.o) s g
    generalize forward_word_line (line_len s s.cur.pt.p - s.cur.pt.o) s g = w at h hl
    by_cases h1 : w.2.1 = true
    · rw [if_pos h1] at h
      cases h; exact hl
    · rw [if_neg h1] at h
      by_cases h2 : w.2.2 = true
      · rw [if_pos h2] at h
        cases h; exact hl
      · rw [if_neg h2] at h
        have hn : MotionFrame s (next_line (set_offset w.1 (line_len w.1 w.1.cur.pt.p))).1 :=
          motionFrame_trans (motionFrame_trans hl (motionFrame_set_offset w.1 _))
            (motionFrame_next_line _)
        by_cases h3 : (!(next_line (set_offset w.1 (line_len w.1 w.1.cur.pt.p))).2) = true
        · rw [if_pos h3] at h
          cases h; exact hn
        · rw [if_neg h3] at h
          exact motionFrame_trans (motionFrame_trans hn (motionFrame_set_offset _ _))
            (ih _ _ _ _ h)

theorem motionFrame_backward_word_loop : ∀ (fuel : Nat) (s : State) (g : Bool) (t : State)
    (r : Bool), backward_word_loop fuel s g = some (t, r) → MotionFrame s t := by
  intro fuel
  induction fuel with
  | zero => intro s g t r h; simp [backward_word_loop] at h
  | succ fuel ih =>
    intro s g t r h
    unfold backward_word_loop at h
    simp only [] at h
    have hp : MotionFrame s (if bolp s then previous_line s else (s, true)).1 := by
      split
      · exact motionFrame_previous_line s
      · exact motionFrame_refl s
    generalize (if bolp s then previous_line s else (s, true)) = p at h hp
    by_cases h0 : (!p.2) = true
    · rw [if_pos h0] at h
      cases h; exact hp
    · rw [if_neg h0] at h
      have hs1 : MotionFrame s
          (if bolp s then set_offset p.1 (line_len p.1 p.1.cur.pt.p) else p.1) := by
        split
        · exact motionFrame_trans hp (motionFrame_set_offset _ _)
        · exact hp
      generalize (if bolp s then set_offset p.1 (line_len p.1 p.1.cur.pt.p) else p.1) = s1
        at h hs1
      have hl := motionFrame_trans hs1 (motionFrame_backward_word_line s1.cur.pt.o s1 g)
      generalize backward_word_line s1.cur.pt.o s1 g = w at h hl
      by_cases h1 : w.2.1 = true
      · rw [if_pos h1] at h
        cases h; exact hl
      · rw [if_neg h1] at h
        by_cases h2 : w.2.2 = true
        · rw [if_pos h2] at h
          cases h; exact hl
        · rw [if_neg h2] at h
          exact motionFrame_trans hl (ih _ _ _ _ h)

theorem motionFrame_repeat_loop (step : State → Option (State × Bool))
    (hstep : ∀ s t r, step s = some (t, r) → MotionFrame s t) :
    ∀ (k : Nat) (s t : State) (r : Bool), repeat_loop step k s = some (t, r) →
      MotionFrame s t := by
  intro k
  induction k with
  | zero =>
    intro s t r h
    simp [repeat_loop] at h
    rw [← h.1]; exact motionFrame_refl s
  | succ k ih =>
    intro s t r h
    unfold repeat_loop at h
    cases hs : step s with
    | none => rw [hs] at h; simp at h
    | some a =>
      rw [hs] at h
      simp only [Option.some_bind] at h
      have ha := hstep s a.1 a.2 hs
      by_cases h1 : (!a.2) = true
      · rw [if_pos h1] at h
        cases h; exact ha
      · rw [if_neg h1] at h
        exact motionFrame_trans ha (ih _ _ _ h)

theorem motionFrame_F_forward_word (fuel : Nat) (s : State) (u : Int) (t : State) (r : Bool)
    (h : F_forward_word fuel s u = some (t, r)) : MotionFrame s t := by
  unfold F_forward_word at h
  split at h
  · exact motionFrame_repeat_loop _
      (fun a b c hh => motionFrame_backward_word_loop fuel a false b c hh) _ _ _ _ h
  · exact motionFrame_repeat_loop _
      (fun a b c hh => motionFrame_forward_word_loop fuel a false b c hh) _ _ _ _ h

theorem motionFrame_CONTROL_SEXP_LEVEL (opn cls : SexpVars → Char → Bool) (s : State)
    (v : SexpVars) (c : Char) : MotionFrame s (CONTROL_SEXP_LEVEL opn cls s v c).1 := by
  unfold CONTROL_SEXP_LEVEL
  split
  · split
    · exact motionFrame_refl s
    · exact motionFrame_refl s
  · split
    · split
      · exact motionFrame_refl s
      · split
        · exact motionFrame_minibuf_error s _
        · exact motionFrame_refl s
    · exact motionFrame_refl s

theorem motionFrame_forward_sexp_char (s : State) (v : SexpVars) :
    MotionFrame s (forward_sexp_char s v).1 := by
  unfold forward_sexp_char
  simp only []
  have hs1 : MotionFrame s
      (if forward_sexp_escape s = true then set_offset s (s.cur.pt.o + 1) else s) := by
    split
    · exact motionFrame_set_offset s _
    · exact motionFrame_refl s
  generalize (if forward_sexp_escape s = true then set_offset s (s.cur.pt.o + 1) else s)
    = s1 at hs1
  generalize (if forward_sexp_escape s = true then 'a' else following_char s) = c
  have hr := motionFrame_trans hs1
    (motionFrame_CONTROL_SEXP_LEVEL ISOPENBRACKETCHAR ISCLOSEBRACKETCHAR s1 v c)
  generalize CONTROL_SEXP_LEVEL ISOPENBRACKETCHAR ISCLOSEBRACKETCHAR s1 v c = r at hr
  obtain ⟨r1, r2, r3⟩ := r
  cases r3 with
  | some b => exact hr
  | none =>
    simp only []
    have h2 : MotionFrame s (set_offset r1 (r1.cur.pt.o + 1)) :=
      motionFrame_trans hr (motionFrame_set_offset _ _)
    split
    · split
      · split
        · exact motionFrame_trans h2 (motionFrame_set_offset _ _)
        · exact h2
      · exact h2
    · exact h2

theorem motionFrame_backward_sexp_char (s : State) (v : SexpVars) :
    MotionFrame s (backward_sexp_char s v).1 := by
  unfold backward_sexp_char
  simp only []
  have hs1 : MotionFrame s
      (if backward_sexp_escape s = true then set_offset s (s.cur.pt.o - 1) else s) := by
    split
    · exact motionFrame_set_offset s _
    · exact motionFrame_refl s
  generalize (if backward_sexp_escape s = true then set_offset s (s.cur.pt.o - 1) else s)
    = s1 at hs1
  generalize (if backward_sexp_escape s = true then 'a' else preceding_char s) = c
  have hr := motionFrame_trans hs1
    (motionFrame_CONTROL_SEXP_LEVEL ISCLOSEBRACKETCHAR ISOPENBRACKETCHAR s1 v c)
  generalize CONTROL_SEXP_LEVEL ISCLOSEBRACKETCHAR ISOPENBRACKETCHAR s1 v c = r at hr
  obtain ⟨r1, r2, r3⟩ := r
  cases r3 with
  | some b => exact hr
  | none =>
    simp only []
    have h2 : MotionFrame s (set_offset r1 (r1.cur.pt.o - 1)) :=
      motionFrame_trans hr (motionFrame_set_offset _ _)
    split
    · split
      · split
        · exact motionFrame_trans h2 (motionFrame_set_offset _ _)
        · exact h2
      · exact h2
    · exact h2

theorem forward_sexp_line_succ (k : Nat) (s : State) (v : SexpVars) :
    forward_sexp_line (k + 1) s v =
      if !eolp s then
        match (forward_sexp_char s v).2.2 with
        | some b => ((forward_sexp_char s v).1, (forward_sexp_char s v).2.1, some b)
        | none => forward_sexp_line k (forward_sexp_char s v).1 (forward_sexp_char s v).2.1
      else (s, v, none) := rfl

theorem backward_sexp_line_succ (k : Nat) (s : State) (v : SexpVars) :
    backward_sexp_line (k + 1) s v =
      if !bolp s then
        match (backward_sexp_char s v).2.2 with
        | some b => ((backward_sexp_char s v).1, (backward_sexp_char s v).2.1, some b)
        | none => backward_sexp_line k (backward_sexp_char s v).1 (backward_sexp_char s v).2.1
      else (s, v, none) := rfl

theorem motionFrame_forward_sexp_line : ∀ (k : Nat) (s : State) (v : SexpVars),
    MotionFrame s (forward_sexp_line k s v).1 := by
  intro k
  induction k with
  | zero => intro s v; exact motionFrame_refl s
  | succ k ih =>
    intro s v
    rw [forward_sexp_line_succ]
    have hc := motionFrame_forward_sexp_char s v
    have hi := ih (forward_sexp_char s v).1 (forward_sexp_char s v).2.1
    generalize forward_sexp_char s v = w at hc hi
    obtain ⟨w1, w2, w3⟩ := w
    by_cases h1 : (!eolp s) = true
    · rw [if_pos h1]
      cases w3 with
      | some b => exact hc
      | none => exact motionFrame_trans hc hi
    · rw [if_neg h1]; exact motionFrame_refl s

theorem motionFrame_backward_sexp_line : ∀ (k : Nat) (s : State) (v : SexpVars),
    MotionFrame s (backward_sexp_line k s v).1 := by
  intro k
  induction k with
  | zero => intro s v; exact motionFrame_refl s
  | succ k ih =>
    intro s v
    rw [backward_sexp_line_succ]
    have hc := motionFrame_backward_sexp_char s v
    have hi := ih (backward_sexp_char s v).1 (backward_sexp_char s v).2.1
    generalize backward_sexp_char s v = w at hc hi
    obtain ⟨w1, w2, w3⟩ := w
    by_cases h1 : (!bolp s) = true
    · rw [if_pos h1]
      cases w3 with
      | some b => exact hc
      | none => exact motionFrame_trans hc hi
    · rw [if_neg h1]; exact motionFrame_refl s

theorem motionFrame_forward_sexp_loop : ∀ (fuel : Nat) (s : State) (v : SexpVars) (t : State)
    (r : Bool), forward_sexp_loop fuel s v = some (t, r) → MotionFrame s t := by
  intro fuel
  induction fuel with
  | zero => intro s v t r h; simp [forward_sexp_loop] at h
  | succ fuel ih =>
    intro s v t r h
    unfold forward_sexp_loop at h
    simp only [] at h
    have hl := motionFrame_forward_sexp_line (line_len s s.cur.pt.p - s.cur.pt.o) s v
    generalize forward_sexp_line (line_len s s.cur.pt.p - s.cur.pt.o) s v = w at h hl
    obtain ⟨w1, w2, w3⟩ := w
    cases w3 with
    | some b =>
      simp only [] at h
      cases h; exact hl
    | none =>
      simp only [] at h
      by_cases h1 : w2.gotsexp = true ∧ w2.level = 0
      · rw [if_pos h1] at h
        cases h; exact hl
      · rw [if_neg h1] at h
        have hn : MotionFrame s (next_line (set_offset w1 (line_len w1 w1.cur.pt.p))).1 :=
          motionFrame_trans (motionFrame_trans hl (motionFrame_set_offset w1 _))
            (motionFrame_next_line _)
        by_cases h3 : (!(next_line (set_offset w1 (line_len w1 w1.cur.pt.p))).2) = true
        · rw [if_pos h3] at h
          cases h
          split
          · exact motionFrame_trans hn (motionFrame_minibuf_error _ _)
          · exact hn
        · rw [if_neg h3] at h
          exact motionFrame_trans (motionFrame_trans hn (motionFrame_set_offset _ _))
            (ih _ _ _ _ h)

theorem motionFrame_backward_sexp_loop : ∀ (fuel : Nat) (s : State) (v : SexpVars) (t : State)
    (r : Bool), backward_sexp_loop fuel s v = some (t, r) → MotionFrame s t := by
  intro fuel
  induction fuel with
  | zero => intro s v t r h; simp [backward_sexp_loop] at h
  | succ fuel ih =>
    intro s v t r h
    unfold backward_sexp_loop at h
    simp only [] at h
    have hp : MotionFrame s (if bolp s then previous_line s else (s, true)).1 := by
      split
      · exact motionFrame_previous_line s
      · exact motionFrame_refl s
    generalize (if bolp s then previous_line s else (s, true)) = p at h hp
    by_cases h0 : (!p.2) = true
    · rw [if_pos h0] at h
      cases h
      split
      · exact motionFrame_trans hp (motionFrame_minibuf_error _ _)
      · exact hp
    · rw [if_neg h0] at h
      have hs1 : MotionFrame s
          (if bolp s then set_offset p.1 (line_len p.1 p.1.cur.pt.p) else p.1) := by
        split
        · exact motionFrame_trans hp (motionFrame_set_offset _ _)
        · exact hp
      generalize (if bolp s then set_offset p.1 (line_len p.1 p.1.cur.pt.p) else p.1) = s1
        at h hs1
      have hl := motionFrame_trans hs1 (motionFrame_backward_sexp_line s1.cur.pt.o s1 v)
      generalize backward_sexp_line s1.cur.pt.o s1 v = w at h hl
      obtain ⟨w1, w2, w3⟩ := w
      cases w3 with
      | some b =>
        simp only [] at h
        cases h; exact hl
      | none =>
        simp only [] at h
        by_cases h1 : w2.gotsexp = true ∧ w2.level = 0
        · rw [if_pos h1] at h
          cases h; exact hl
        · rw [if_neg h1] at h
          exact motionFrame_trans hl (ih _ _ _ _ h)

theorem motionFrame_F_forward_sexp (fuel : Nat) (s : State) (u : Int) (t : State) (r : Bool)
    (h : F_forward_sexp fuel s u = some (t, r)) : MotionFrame s t := by
  unfold F_forward_sexp at h
  split at h
  · exact motionFrame_repeat_loop _
      (fun a b c hh => motionFrame_backward_sexp_loop fuel a _ b c hh) _ _ _ _ h
  · exact motionFrame_repeat_loop _
      (fun a b c hh => motionFrame_forward_sexp_loop fuel a _ b c hh) _ _ _ _ h

/-- Every motion command that `transpose_subr` is called with moves point only. -/
theorem motionFrame_call (f : Motion) (fuel : Nat) (s : State) (u : Int) (t : State)
    (r : Bool) (h : f.call fuel s u = some (t, r)) : MotionFrame s t := by
  cases f with
  | F_forward_char =>
    simp only [Motion.call, Option.some.injEq] at h
    have := motionFrame_F_forward_char s u
    rw [h] at this; exact this
  | F_forward_word => exact motionFrame_F_forward_word fuel s u t r h
  | F_forward_sexp => exact motionFrame_F_forward_sexp fuel s u t r h
  | F_forward_line =>
    simp only [Motion.call, Option.some.injEq] at h
    have := motionFrame_F_forward_line s u
    rw [h] at this; exact this

/-! ## Steps that leave the text and the undo log alone -/

theorem cur_setBuf (s : State) (bp : BufPtr) (b : Buffer) :
    (s.setBuf bp b).cur = if s.cur_bp = bp then b else s.cur := by
  by_cases h : s.cur_bp = bp
  · subst h; simp
  · simp [State.cur, State.setBuf, h]

theorem sequence_records_append (a b : List Undo) :
    sequence_records (a ++ b) = sequence_records a ++ sequence_records b := by
  simp [sequence_records]

theorem undoAdds_trans {L1 L2 : List UndoType} {s t u : State} (h1 : UndoAdds L1 s t)
    (h2 : UndoAdds L2 t u) : UndoAdds (L1 ++ L2) s u := by
  obtain ⟨a1, a2, e1, a3, a4⟩ := h1
  obtain ⟨b1, b2, e2, b3, b4⟩ := h2
  refine ⟨b1.trans a1, b2.trans a2, e1 ++ e2, ?_, ?_⟩
  · rw [b3, a3, List.append_assoc]
  · rw [sequence_records_append, a4, b4]

theorem unedited_refl (s : State) : Unedited s s := ⟨rfl, rfl, rfl, rfl, rfl, rfl, rfl⟩

theorem unedited_trans {s t u : State} (h1 : Unedited s t) (h2 : Unedited t u) :
    Unedited s u :=
  ⟨h2.1.trans h1.1, h2.2.1.trans h1.2.1, h2.2.2.1.trans h1.2.2.1,
    h2.2.2.2.1.trans h1.2.2.2.1, h2.2.2.2.2.1.trans h1.2.2.2.2.1,
    h2.2.2.2.2.2.1.trans h1.2.2.2.2.2.1, h2.2.2.2.2.2.2.trans h1.2.2.2.2.2.2⟩

theorem unedited_of_motionFrame {s t : State} (h : MotionFrame s t) : Unedited s t := by
  obtain ⟨pt, g, hc⟩ := motionFrame_cur h
  obtain ⟨a1, _, a3, _, _, _, a7, _, _⟩ := h
  exact ⟨a1, a3, by rw [hc], by rw [hc], a7, by rw [hc], by rw [hc]⟩

theorem unedited_setBuf {s : State} {bp : BufPtr} {b : Buffer}
    (h1 : b.undo = (s.bufAt bp).undo) (h2 : b.noundo = (s.bufAt bp).noundo)
    (h3 : b.lines = (s.bufAt bp).lines) (h4 : b.limitp = (s.bufAt bp).limitp) :
    Unedited s (s.setBuf bp b) := by
  refine ⟨rfl, rfl, ?_, ?_, rfl, ?_, ?_⟩
  · rw [cur_setBuf]
    split
    · next h => subst h; exact h2
    · rfl
  · rw [cur_setBuf]
    split
    · next h => subst h; exact h1
    · rfl
  · rw [cur_setBuf]
    split
    · next h => subst h; exact h3
    · rfl
  · rw [cur_setBuf]
    split
    · next h => subst h; exact h4
    · rfl

theorem unedited_of_bufAt {s t : State} (h0 : t.lineAt = s.lineAt) (h1 : t.bufAt = s.bufAt)
    (h2 : t.cur_bp = s.cur_bp) (h3 : t.undo_nosave = s.undo_nosave) : Unedited s t :=
  ⟨h0, h2, by simp [State.cur, h1, h2], by simp [State.cur, h1, h2], h3,
    by simp [State.cur, h1, h2], by simp [State.cur, h1, h2]⟩

theorem unedited_setMarker (s : State) (m : MarkerPtr) (k : Marker) :
    Unedited s (s.setMarker m k) := unedited_of_bufAt rfl rfl rfl rfl

theorem unedited_relocate_markers (s : State) (f : Marker → Point) :
    Unedited s (relocate_markers s f) := unedited_of_bufAt rfl rfl rfl rfl

theorem unedited_minibuf_error (s : State) (msg : String) : Unedited s (minibuf_error s msg) :=
  unedited_of_bufAt rfl rfl rfl rfl

theorem unedited_needResync (s : State) : Unedited s s.needResync :=
  unedited_of_bufAt rfl rfl rfl rfl

theorem unedited_mark_ring_append (s : State) (m : MarkerPtr) :
    Unedited s (mark_ring_append s m) := unedited_of_bufAt rfl rfl rfl rfl

theorem unedited_mark_ring_betail (s : State) : Unedited s (mark_ring_betail s) :=
  unedited_of_bufAt rfl rfl rfl rfl

theorem unedited_goto_point (s : State) (pt : Point) : Unedited s (goto_point s pt) :=
  unedited_of_motionFrame (motionFrame_goto_point s pt)

theorem unedited_setPt (s : State) (pt : Point) : Unedited s (s.setPt pt) :=
  unedited_of_motionFrame (motionFrame_setPt s pt)

theorem unedited_marker_new_at (s : State) (bp : BufPtr) (pt : Point) (ty : Bool) :
    Unedited s (marker_new_at s bp pt ty).1 := by
  unfold marker_new_at
  refine unedited_trans ?_ (unedited_setBuf rfl rfl rfl rfl)
  exact unedited_of_bufAt rfl rfl rfl rfl

theorem unedited_point_marker (s : State) : Unedited s (point_marker s).1 :=
  unedited_marker_new_at s _ _ _

theorem unedited_copy_marker (s : State) (m : MarkerPtr) : Unedited s (copy_marker s m).1 :=
  unedited_marker_new_at s _ _ _

theorem unedited_point_min_marker (s : State) : Unedited s (point_min_marker s).1 :=
  unedited_marker_new_at s _ _ _

theorem unedited_unchain_marker (s : State) (m : MarkerPtr) :
    Unedited s (unchain_marker s m) := by
  unfold unchain_marker
  simp only []
  split
  · exact unedited_refl s
  · refine unedited_trans (@unedited_setBuf s (s.markerAt m).bp
      { s.bufAt (s.markerAt m).bp with
        markers := (s.bufAt (s.markerAt m).bp).markers.erase m } rfl rfl rfl rfl) ?_
    exact unedited_of_bufAt rfl rfl rfl rfl

theorem unedited_free_marker (s : State) (m : MarkerPtr) : Unedited s (free_marker s m) :=
  unedited_unchain_marker s m

theorem unedited_set_buffer_mark (s : State) (bp : BufPtr) (m : MarkerPtr) :
    Unedited s (set_buffer_mark s bp m) :=
  unedited_setBuf rfl rfl rfl rfl

theorem unedited_activate_mark (s : State) : Unedited s (activate_mark s) :=
  unedited_setBuf rfl rfl rfl rfl

theorem unedited_deactivate_mark (s : State) : Unedited s (deactivate_mark s) :=
  unedited_setBuf rfl rfl rfl rfl

theorem unedited_set_marker_insertion_type (s : State) (m : MarkerPtr) (ty : Bool) :
    Unedited s (set_marker_insertion_type s m ty) := unedited_setMarker _ _ _

theorem unedited_push_mark (s : State) : Unedited s (push_mark s) := by
  unfold push_mark
  split
  · exact unedited_trans (unedited_copy_marker s _) (unedited_mark_ring_append _ _)
  · refine unedited_trans ?_ (unedited_mark_ring_append _ _)
    exact unedited_trans (unedited_point_min_marker s) (unedited_setMarker _ _ _)

theorem unedited_move_marker (s : State) (m : MarkerPtr) (bp : BufPtr) (pt : Point) :
    Unedited s (move_marker s m bp pt) := by
  unfold move_marker
  refine unedited_trans ?_ (unedited_setMarker _ _ _)
  split
  · refine unedited_trans ?_ (unedited_setBuf rfl rfl rfl rfl)
    exact unedited_trans (unedited_unchain_marker s m) (unedited_setMarker _ _ _)
  · exact unedited_refl s

theorem unedited_set_mark (s : State) : Unedited s (set_mark s) := by
  unfold set_mark
  split
  · exact unedited_trans (unedited_point_marker s) (unedited_set_buffer_mark _ _ _)
  · exact unedited_move_marker s _ _ _

theorem unedited_pop_mark (s : State) : Unedited s (pop_mark s) := by
  unfold pop_mark
  cases s.mark_ring.getLast? with
  | none => exact unedited_refl s
  | some m =>
    simp only []
    refine unedited_trans ?_ (unedited_free_marker _ _)
    refine unedited_trans ?_ (unedited_mark_ring_betail _)
    have h1 : Unedited s (if (s.bufAt (s.markerAt m).bp).mark ≠ NULL then
        free_marker s (s.bufAt (s.markerAt m).bp).mark else s) := by
      split
      · exact unedited_free_marker s _
      · exact unedited_refl s
    generalize (if (s.bufAt (s.markerAt m).bp).mark ≠ NULL then
        free_marker s (s.bufAt (s.markerAt m).bp).mark else s) = s1 at h1 ⊢
    refine unedited_trans h1 ?_
    split
    · exact unedited_trans (unedited_copy_marker s1 m) (unedited_set_buffer_mark _ _ _)
    · exact unedited_set_buffer_mark _ _ _

theorem unedited_warn_if_no_mark (s : State) : Unedited s (warn_if_no_mark s).1 := by
  unfold warn_if_no_mark
  split
  · exact unedited_minibuf_error _ _
  · split
    · exact unedited_minibuf_error _ _
    · exact unedited_refl s

theorem unedited_warn_if_readonly_buffer (s : State) :
    Unedited s (warn_if_readonly_buffer s).1 := by
  unfold warn_if_readonly_buffer
  split
  · exact unedited_minibuf_error _ _
  · exact unedited_refl s

theorem calculate_the_region_state (fuel : Nat) (s : State) (rp : Region) (t : State)
    (b : Bool) (r : Region) (h : calculate_the_region fuel s rp = some (t, b, r)) :
    t = (warn_if_no_mark s).1 := by
  unfold calculate_the_region at h
  by_cases hw : (warn_if_no_mark s).2 = true
  · simp only [hw, if_true, Option.some.injEq, Prod.mk.injEq] at h
    exact h.1.symm
  · simp only [hw, if_false] at h
    split at h
    · rename_i hc; cases hc
    · split at h
      · cases h
      · simp only [Option.some.injEq, Prod.mk.injEq] at h
        exact h.1.symm

theorem unedited_calculate_region (fuel : Nat) (s : State) (rp : Region) (t : State)
    (b : Bool) (r : Region) (h : calculate_region fuel s rp = some (t, b, r)) :
    Unedited s t := by
  rw [calculate_the_region_state fuel s rp t b r h]
  exact unedited_warn_if_no_mark s

theorem unedited_astr_append_region (fuel : Nat) (s : State) (a : List Char) (t : State)
    (r : List Char) (h : astr_append_region fuel s a = some (t, r)) : Unedited s t := by
  unfold astr_append_region at h
  cases hc : calculate_region fuel (activate_mark s) region_new with
  | none => rw [hc] at h; cases h
  | some c =>
    obtain ⟨c1, c2, c3⟩ := c
    rw [hc] at h
    have h1 := unedited_calculate_region _ _ _ _ _ _ hc
    have h2 : t = c1 := by
      simp only [Option.some_bind] at h
      split at h
      · cases hk : copy_text_block fuel c1 c3.start c3.size.toNat with
        | none => rw [hk] at h; cases h
        | some k =>
          rw [hk] at h
          simp only [Option.map_some', Option.some.injEq, Prod.mk.injEq] at h
          exact h.1.symm
      · simp only [Option.some.injEq, Prod.mk.injEq] at h
        exact h.1.symm
    rw [h2]
    exact unedited_trans (unedited_activate_mark s) h1

theorem unedited_exchange_point_and_mark (s : State) :
    Unedited s (exchange_point_and_mark s).1 := by
  unfold exchange_point_and_mark
  split
  · exact unedited_minibuf_error _ _
  · exact unedited_trans (unedited_setPt s _) (unedited_setMarker _ _ _)

theorem unedited_F_exchange_point_and_mark (s : State) :
    Unedited s (F_exchange_point_and_mark s).1 := by
  unfold F_exchange_point_and_mark
  simp only []
  split
  · exact unedited_exchange_point_and_mark s
  · refine unedited_trans ?_ (unedited_needResync _)
    split
    · exact unedited_trans (unedited_exchange_point_and_mark s) (unedited_activate_mark _)
    · exact unedited_exchange_point_and_mark s

theorem unedited_call (f : Motion) (fuel : Nat) (s : State) (u : Int) (t : State) (r : Bool)
    (h : f.call fuel s u = some (t, r)) : Unedited s t :=
  unedited_of_motionFrame (motionFrame_call f fuel s u t r h)

theorem unedited_transpose_subr_adjust (fuel : Nat) (f : Motion) (s t : State)
    (h : transpose_subr_adjust fuel f s = some t) : Unedited s t := by
  unfold transpose_subr_adjust at h
  split at h
  · split at h
    · cases hc : f.call fuel s (-1) with
      | none => rw [hc] at h; cases h
      | some c =>
        rw [hc] at h
        simp only [Option.map_some', Option.some.injEq] at h
        rw [← h]; exact unedited_call f fuel s _ c.1 c.2 hc
    · cases h; exact unedited_refl s
  · split at h
    · split at h
      · cases hc : f.call fuel s 1 with
        | none => rw [hc] at h; cases h
        | some c =>
          rw [hc] at h
          simp only [Option.map_some', Option.some.injEq] at h
          rw [← h]; exact unedited_call f fuel s _ c.1 c.2 hc
      · cases h; exact unedited_refl s
    · cases h; exact unedited_refl s

theorem unedited_transpose_subr_fail_end (s : State) (p0 p1 : MarkerPtr) :
    Unedited s (transpose_subr_fail_end s p0 p1) := by
  unfold transpose_subr_fail_end
  refine unedited_trans ?_ (unedited_free_marker _ _)
  refine unedited_trans ?_ (unedited_free_marker _ _)
  refine unedited_trans ?_ (unedited_minibuf_error _ _)
  exact unedited_trans (unedited_pop_mark s) (unedited_goto_point _ _)

/-! ## The undo records of the editing steps -/

theorem undoKeep_of_unedited {s t : State} (h : Unedited s t) : UndoKeep s t :=
  ⟨⟨h.2.1, h.2.2.1, [], by rw [h.2.2.2.1]; simp, rfl⟩, h.2.2.2.2.1⟩

theorem undoKeep_refl (s : State) : UndoKeep s s := undoKeep_of_unedited (unedited_refl s)

theorem undoKeep_trans {s t u : State} (h1 : UndoKeep s t) (h2 : UndoKeep t u) :
    UndoKeep s u :=
  ⟨undoAdds_trans h1.1 h2.1, h2.2.trans h1.2⟩

theorem undoQuiet_of_keep {s t : State} (h : UndoKeep s t) : UndoQuiet s t :=
  ⟨h.1, fun hs => by rw [h.2]; exact hs⟩

theorem undoQuiet_of_unedited {s t : State} (h : Unedited s t) : UndoQuiet s t :=
  undoQuiet_of_keep (undoKeep_of_unedited h)

theorem undoQuiet_refl (s : State) : UndoQuiet s s := undoQuiet_of_keep (undoKeep_refl s)

theorem undoQuiet_trans {s t u : State} (h1 : UndoQuiet s t) (h2 : UndoQuiet t u) :
    UndoQuiet s u :=
  ⟨undoAdds_trans h1.1 h2.1, fun hs => h2.2 (h1.2 hs)⟩

theorem undoAdds_undo_save (s : State) (ty : UndoType) (pt : Point) (a1 a2 : Int) :
    UndoAdds (if s.cur.noundo || s.undo_nosave then [] else sequence_records [⟨ty, pt, a1, a2⟩])
      s (undo_save s ty pt a1 a2) := by
  refine ⟨undo_save_cur_bp s ty pt a1 a2, by rw [undo_save_cur], ?_⟩
  rw [undo_save_cur]
  by_cases h : (s.cur.noundo || s.undo_nosave) = true
  · exact ⟨[], by simp [h], by rw [if_pos h]; rfl⟩
  · exact ⟨[⟨ty, pt, a1, a2⟩], by simp [h], by rw [if_neg h]⟩

theorem undoKeep_undo_save (s : State) (ty : UndoType) (pt : Point) (a1 a2 : Int)
    (h1 : ty ≠ UndoType.UNDO_START_SEQUENCE) (h2 : ty ≠ UndoType.UNDO_END_SEQUENCE) :
    UndoKeep s (undo_save s ty pt a1 a2) := by
  refine ⟨?_, undo_save_undo_nosave s ty pt a1 a2⟩
  have h := undoAdds_undo_save s ty pt a1 a2
  have e : (if s.cur.noundo || s.undo_nosave then []
      else sequence_records [⟨ty, pt, a1, a2⟩]) = ([] : List UndoType) := by
    split
    · rfl
    · simp [sequence_records, is_sequence_record, h1, h2]
  rw [e] at h
  exact h

theorem undoKeep_of_cur {s t : State} (h1 : t.cur_bp = s.cur_bp) (h2 : t.cur = s.cur)
    (h3 : t.undo_nosave = s.undo_nosave) : UndoKeep s t :=
  ⟨⟨h1, by rw [h2], [], by rw [h2]; simp, rfl⟩, h3⟩

theorem undoKeep_setLine (s : State) (p : LinePtr) (l : Line) : UndoKeep s (s.setLine p l) :=
  undoKeep_of_cur rfl rfl rfl

theorem undoKeep_setBuf_cur {s : State} {b : Buffer} (h1 : b.undo = s.cur.undo)
    (h2 : b.noundo = s.cur.noundo) : UndoKeep s (s.setBuf s.cur_bp b) :=
  ⟨⟨rfl, by rw [cur_setBuf_cur]; exact h2, [], by rw [cur_setBuf_cur, h1]; simp, rfl⟩, rfl⟩

theorem undoKeep_join_lines (s : State) (p : LinePtr) : UndoKeep s (join_lines s p) :=
  undoKeep_of_cur rfl rfl rfl

theorem undoKeep_split_line (s : State) (p : LinePtr) (o : Nat) :
    UndoKeep s (split_line s p o).1 :=
  undoKeep_of_cur rfl rfl rfl

theorem undoKeep_delete_char (s : State) : UndoKeep s (delete_char s).1 := by
  unfold delete_char
  split
  · simp only []
    split
    · exact undoKeep_of_unedited (unedited_warn_if_readonly_buffer s)
    · refine undoKeep_trans ?_ (undoKeep_setBuf_cur rfl rfl)
      refine undoKeep_trans ?_ (undoKeep_of_unedited (unedited_relocate_markers _ _))
      refine undoKeep_trans ?_ (undoKeep_setLine _ _ _)
      exact undoKeep_undo_save s _ _ _ _ (by decide) (by decide)
  · split
    · simp only []
      split
      · exact undoKeep_of_unedited (unedited_warn_if_readonly_buffer s)
      · refine undoKeep_trans ?_ (undoKeep_of_unedited (unedited_needResync _))
        refine undoKeep_trans ?_ (undoKeep_setBuf_cur rfl rfl)
        refine undoKeep_trans ?_ (undoKeep_of_unedited (unedited_relocate_markers _ _))
        refine undoKeep_trans ?_ (undoKeep_join_lines _ _)
        exact undoKeep_undo_save s _ _ _ _ (by decide) (by decide)
    · exact undoKeep_of_unedited (unedited_minibuf_error _ _)

theorem undoKeep_delete_char_loop : ∀ (k : Nat) (s : State),
    UndoKeep s (delete_char_loop k s)
  | 0, s => undoKeep_refl s
  | k + 1, s => undoKeep_trans (undoKeep_delete_char s) (undoKeep_delete_char_loop k _)

theorem undoKeep_insert_char (s : State) (c : Char) : UndoKeep s (insert_char s c).1 := by
  unfold insert_char
  simp only []
  split
  · exact undoKeep_of_unedited (unedited_warn_if_readonly_buffer s)
  · refine undoKeep_trans ?_ (undoKeep_setBuf_cur rfl rfl)
    refine undoKeep_trans ?_ (undoKeep_of_unedited (unedited_setPt _ _))
    refine undoKeep_trans ?_ (undoKeep_of_unedited (unedited_relocate_markers _ _))
    refine undoKeep_trans ?_ (undoKeep_setLine _ _ _)
    exact undoKeep_undo_save s _ _ _ _ (by decide) (by decide)

theorem undoKeep_insert_newline (s : State) : UndoKeep s (insert_newline s).1 := by
  unfold insert_newline
  simp only []
  split
  · exact undoKeep_of_unedited (unedited_warn_if_readonly_buffer s)
  · refine undoKeep_trans ?_ (undoKeep_of_unedited (unedited_needResync _))
    refine undoKeep_trans ?_ (undoKeep_setBuf_cur rfl rfl)
    refine undoKeep_trans ?_ (undoKeep_of_unedited (unedited_setPt _ _))
    refine undoKeep_trans ?_ (undoKeep_of_unedited (unedited_relocate_markers _ _))
    refine undoKeep_trans ?_ (undoKeep_split_line _ _ _)
    exact undoKeep_undo_save s _ _ _ _ (by decide) (by decide)

theorem undoKeep_insert_string_loop : ∀ (l : List Char) (s : State),
    UndoKeep s (insert_string_loop l s)
  | [], s => undoKeep_refl s
  | c :: cs, s => by
    unfold insert_string_loop
    refine undoKeep_trans ?_ (undoKeep_insert_string_loop cs _)
    split
    · exact undoKeep_insert_newline s
    · exact undoKeep_insert_char s c

theorem undoAdds_set_undo_nosave (s : State) (v : Bool) :
    UndoAdds [] s (set_undo_nosave s v) := ⟨rfl, rfl, [], by simp, rfl⟩

/-- A block operation between `undo_nosave = true` and `undo_nosave = false`. -/
theorem undoQuiet_block (s : State) (body : State → State)
    (hb : ∀ u, UndoKeep u (body u)) :
    UndoQuiet s (set_undo_nosave (body (set_undo_nosave s true)) false) :=
  ⟨undoAdds_trans (undoAdds_trans (undoAdds_set_undo_nosave s true) (hb _).1)
    (undoAdds_set_undo_nosave _ false), fun _ => rfl⟩

theorem undoQuiet_insert_string (s : State) (str : List Char) :
    UndoQuiet s (insert_string s str) := by
  unfold insert_string
  exact undoQuiet_trans (undoQuiet_of_keep (undoKeep_undo_save s _ _ _ _ (by decide) (by decide)))
    (undoQuiet_block _ (insert_string_loop str) (undoKeep_insert_string_loop str))

theorem undoQuiet_F_delete_region (fuel : Nat) (s t : State) (r : Bool)
    (h : F_delete_region fuel s = some (t, r)) : UndoQuiet s t := by
  unfold F_delete_region at h
  simp only [] at h
  split at h
  · simp only [Option.some.injEq, Prod.mk.injEq] at h
    rw [← h.1]; exact undoQuiet_of_unedited (unedited_warn_if_no_mark s)
  · cases hc : calculate_region fuel (warn_if_no_mark s).1 region_new with
    | none => rw [hc] at h; cases h
    | some c =>
      obtain ⟨c1, c2, c3⟩ := c
      rw [hc] at h
      simp only [Option.some_bind, Option.some.injEq, Prod.mk.injEq] at h
      have h0 : UndoQuiet s c1 := undoQuiet_of_unedited
        (unedited_trans (unedited_warn_if_no_mark s) (unedited_calculate_region _ _ _ _ _ _ hc))
      rw [← h.1]
      refine undoQuiet_trans h0 ?_
      refine undoQuiet_trans ?_ (undoQuiet_of_unedited (unedited_deactivate_mark _))
      split
      · exact undoQuiet_of_unedited (unedited_warn_if_readonly_buffer c1)
      · have h1 : Unedited c1 (if c1.cur.pt.p ≠ c3.start.p ∨ c3.start.o ≠ c1.cur.pt.o then
            (F_exchange_point_and_mark c1).1 else c1) := by
          split
          · exact unedited_F_exchange_point_and_mark c1
          · exact unedited_refl c1
        generalize (if c1.cur.pt.p ≠ c3.start.p ∨ c3.start.o ≠ c1.cur.pt.o then
            (F_exchange_point_and_mark c1).1 else c1) = s3 at h1 ⊢
        refine undoQuiet_trans (undoQuiet_of_unedited h1) ?_
        exact undoQuiet_trans
          (undoQuiet_of_keep (undoKeep_undo_save s3 _ _ _ _ (by decide) (by decide)))
          (undoQuiet_block _ (delete_char_loop c3.size.toNat)
            (undoKeep_delete_char_loop c3.size.toNat))

theorem undoQuiet_call (f : Motion) (fuel : Nat) (s : State) (u : Int) (t : State) (r : Bool)
    (h : f.call fuel s u = some (t, r)) : UndoQuiet s t :=
  undoQuiet_of_unedited (unedited_call f fuel s u t r h)

/-! ## The undo sequence of a transposition -/

theorem undoQuiet_fields {s t : State} (h : UndoQuiet s t) (hns : s.undo_nosave = false) :
    t.undo_nosave = false ∧ t.cur.noundo = s.cur.noundo := ⟨h.2 hns, h.1.2.1⟩

theorem undoAdds_of_quiet_left {L : List UndoType} {s t u : State} (h1 : UndoQuiet s t)
    (h2 : UndoAdds L t u) : UndoAdds L s u := by
  have h := undoAdds_trans h1.1 h2
  rwa [List.nil_append] at h

theorem undoAdds_of_quiet_right {L : List UndoType} {s t u : State} (h1 : UndoAdds L s t)
    (h2 : UndoQuiet t u) : UndoAdds L s u := by
  have h := undoAdds_trans h1 h2.1
  rwa [List.append_nil] at h

theorem undoAdds_sequence_record (s : State) (ty : UndoType) (pt : Point) (a1 a2 : Int)
    (hns : s.undo_nosave = false)
    (hty : ty = UndoType.UNDO_START_SEQUENCE ∨ ty = UndoType.UNDO_END_SEQUENCE) :
    UndoAdds (if s.cur.noundo then [] else [ty]) s (undo_save s ty pt a1 a2) := by
  have h := undoAdds_undo_save s ty pt a1 a2
  have e : (if s.cur.noundo || s.undo_nosave then []
      else sequence_records [⟨ty, pt, a1, a2⟩]) = (if s.cur.noundo then [] else [ty]) := by
    rw [hns, Bool.or_false]
    split
    · rfl
    · rcases hty with e | e <;> subst e <;> rfl
  rw [e] at h
  exact h

theorem undo_transpose_subr_last_line (s : State) (p0 : MarkerPtr)
    (hns : s.undo_nosave = false) :
    UndoAdds (if s.cur.noundo then [] else [UndoType.UNDO_START_SEQUENCE]) s
      (transpose_subr_last_line s p0) ∧
    (transpose_subr_last_line s p0).undo_nosave = false := by
  have h1 := undoAdds_sequence_record s UndoType.UNDO_START_SEQUENCE (get_marker_pt s p0) 0 0
    hns (Or.inl rfl)
  have hn1 : (undo_save s UndoType.UNDO_START_SEQUENCE (get_marker_pt s p0) 0 0).undo_nosave
      = false := by rw [undo_save_undo_nosave]; exact hns
  unfold transpose_subr_last_line
  simp only []
  generalize undo_save s UndoType.UNDO_START_SEQUENCE (get_marker_pt s p0) 0 0 = s1 at h1 hn1 ⊢
  have h3 : UndoQuiet s1
      (F_newline (if (!is_empty_line s1) = true then (F_end_of_line s1).1 else s1)).1 := by
    refine undoQuiet_trans ?_ (undoQuiet_of_keep (undoKeep_insert_newline _))
    split
    · exact undoQuiet_of_unedited (unedited_of_motionFrame (motionFrame_end_of_line s1))
    · exact undoQuiet_refl s1
  exact ⟨undoAdds_of_quiet_right h1 h3, h3.2 hn1⟩

theorem undoQuiet_transpose_subr_second (fuel : Nat) (f : Motion) (s : State)
    (q : State × MarkerPtr × Option (List Char))
    (h : transpose_subr_second fuel f s = some q) : UndoQuiet s q.1 := by
  unfold transpose_subr_second at h
  cases hb : f.call fuel s 1 with
  | none => rw [hb] at h; cases h
  | some b =>
    rw [hb] at h
    simp only [Option.some_bind] at h
    have h1 := undoQuiet_call f fuel s 1 b.1 b.2 hb
    split at h
    · cases h
      exact undoQuiet_trans h1 (undoQuiet_of_unedited (unedited_point_marker _))
    · cases hc : f.call fuel (set_mark b.1) (-1) with
      | none => rw [hc] at h; cases h
      | some c =>
        rw [hc] at h
        simp only [Option.some_bind] at h
        have h2 := undoQuiet_call f fuel _ _ c.1 c.2 hc
        cases hr : astr_append_region fuel (point_marker c.1).1 [] with
        | none => rw [hr] at h; cases h
        | some r2 =>
          rw [hr] at h
          simp only [Option.some_bind] at h
          have h3 := unedited_astr_append_region fuel _ _ r2.1 r2.2 hr
          cases hd : F_delete_region fuel r2.1 with
          | none => rw [hd] at h; cases h
          | some d2 =>
            rw [hd] at h
            simp only [Option.map_some', Option.some.injEq] at h
            have h4 := undoQuiet_F_delete_region fuel r2.1 d2.1 d2.2 hd
            rw [← h]
            refine undoQuiet_trans h1 ?_
            refine undoQuiet_trans (undoQuiet_of_unedited (unedited_set_mark _)) ?_
            refine undoQuiet_trans h2 ?_
            refine undoQuiet_trans (undoQuiet_of_unedited (unedited_point_marker _)) ?_
            exact undoQuiet_trans (undoQuiet_of_unedited h3) h4

theorem undoQuiet_transpose_subr_put (s : State) (p : MarkerPtr) (str : List Char) :
    UndoQuiet s (transpose_subr_put s p str) := by
  unfold transpose_subr_put
  simp only []
  split
  · exact undoQuiet_trans (undoQuiet_of_unedited (unedited_goto_point _ _))
      (undoQuiet_insert_string _ _)
  · exact undoQuiet_of_unedited (unedited_goto_point _ _)

theorem undo_transpose_subr_close (s4 : State) (p0 p1 p2 : MarkerPtr)
    (hns : s4.undo_nosave = false) :
    UndoAdds (if s4.cur.noundo then [] else [UndoType.UNDO_END_SEQUENCE]) s4
      (free_marker (free_marker (free_marker (deactivate_mark (pop_mark
        (undo_save s4 UndoType.UNDO_END_SEQUENCE s4.cur.pt 0 0))) p0) p1) p2) := by
  have h5 := undoAdds_sequence_record s4 UndoType.UNDO_END_SEQUENCE s4.cur.pt 0 0 hns
    (Or.inr rfl)
  refine undoAdds_of_quiet_right h5 ?_
  refine undoQuiet_of_unedited ?_
  refine unedited_trans ?_ (unedited_free_marker _ _)
  refine unedited_trans ?_ (unedited_free_marker _ _)
  refine unedited_trans ?_ (unedited_free_marker _ _)
  exact unedited_trans (unedited_pop_mark _) (unedited_deactivate_mark _)

theorem undo_transpose_subr_insert (s : State) (p0 p1 p2 : MarkerPtr) (str1 : List Char)
    (str2 : Option (List Char)) (hns : s.undo_nosave = false) :
    UndoAdds (if s.cur.noundo then [] else [UndoType.UNDO_END_SEQUENCE]) s
      (transpose_subr_insert s p0 p1 p2 str1 str2) := by
  have h1 : UndoQuiet s (set_marker_insertion_type s p2 true) :=
    undoQuiet_of_unedited (unedited_set_marker_insertion_type s p2 true)
  cases str2 with
  | none =>
    unfold transpose_subr_insert
    simp only []
    have hq := undoQuiet_trans h1 (undoQuiet_transpose_subr_put
      (set_marker_insertion_type s p2 true) p2 str1)
    obtain ⟨hn4, hu4⟩ := undoQuiet_fields hq hns
    have h5 := undo_transpose_subr_close _ p0 p1 p2 hn4
    rw [hu4] at h5
    exact undoAdds_of_quiet_left hq h5
  | some t =>
    unfold transpose_subr_insert
    simp only []
    have hq := undoQuiet_trans (undoQuiet_trans h1 (undoQuiet_transpose_subr_put
      (set_marker_insertion_type s p2 true) p1 t)) (undoQuiet_transpose_subr_put _ p2 str1)
    obtain ⟨hn4, hu4⟩ := undoQuiet_fields hq hns
    have h5 := undo_transpose_subr_close _ p0 p1 p2 hn4
    rw [hu4] at h5
    exact undoAdds_of_quiet_left hq h5

theorem undo_transpose_subr_swap (fuel : Nat) (f : Motion) (s : State) (p0 p1 : MarkerPtr)
    (started : Bool) (t : State) (r : Bool) (hns : s.undo_nosave = false)
    (h : transpose_subr_swap fuel f s p0 p1 started = some (t, r)) :
    r = true ∧
    UndoAdds ((if started || s.cur.noundo then [] else [UndoType.UNDO_START_SEQUENCE]) ++
      (if s.cur.noundo then [] else [UndoType.UNDO_END_SEQUENCE])) s t := by
  unfold transpose_subr_swap at h
  cases ha : f.call fuel (goto_point s (get_marker_pt s p1)) 1 with
  | none => rw [ha] at h; cases h
  | some a =>
    rw [ha] at h
    simp only [Option.some_bind] at h
    have h1 : UndoQuiet s a.1 := undoQuiet_trans
      (undoQuiet_of_unedited (unedited_goto_point _ _)) (undoQuiet_call f fuel _ _ a.1 a.2 ha)
    cases hr : astr_append_region fuel a.1 [] with
    | none => rw [hr] at h; cases h
    | some r1 =>
      rw [hr] at h
      simp only [Option.some_bind] at h
      have h2 : UndoQuiet s r1.1 := undoQuiet_trans h1
        (undoQuiet_of_unedited (unedited_astr_append_region fuel _ _ r1.1 r1.2 hr))
      obtain ⟨hn2, hu2⟩ := undoQuiet_fields h2 hns
      have h3 : UndoAdds (if started || s.cur.noundo then []
          else [UndoType.UNDO_START_SEQUENCE]) r1.1
          (if (!started) = true then
            undo_save r1.1 UndoType.UNDO_START_SEQUENCE (get_marker_pt r1.1 p0) 0 0
           else r1.1) ∧
          (if (!started) = true then
            undo_save r1.1 UndoType.UNDO_START_SEQUENCE (get_marker_pt r1.1 p0) 0 0
           else r1.1).undo_nosave = false := by
        cases started with
        | true => exact ⟨(undoQuiet_refl r1.1).1, hn2⟩
        | false =>
          have h5 := undoAdds_sequence_record r1.1 UndoType.UNDO_START_SEQUENCE
            (get_marker_pt r1.1 p0) 0 0 hn2 (Or.inl rfl)
          rw [hu2] at h5
          refine ⟨?_, ?_⟩
          · simpa using h5
          · simp only [Bool.not_false, if_true]
            rw [undo_save_undo_nosave]; exact hn2
      generalize (if (!started) = true then
            undo_save r1.1 UndoType.UNDO_START_SEQUENCE (get_marker_pt r1.1 p0) 0 0
           else r1.1) = s3 at h h3
      cases hd : F_delete_region fuel s3 with
      | none => rw [hd] at h; cases h
      | some d1 =>
        rw [hd] at h
        simp only [Option.some_bind] at h
        have h4 := undoQuiet_F_delete_region fuel s3 d1.1 d1.2 hd
        cases hq : transpose_subr_second fuel f d1.1 with
        | none => rw [hq] at h; cases h
        | some q =>
          rw [hq] at h
          simp only [Option.map_some', Option.some.injEq, Prod.mk.injEq] at h
          have h5 := undoQuiet_transpose_subr_second fuel f d1.1 q hq
          have h45 : UndoQuiet s3 q.1 := undoQuiet_trans h4 h5
          have hs3 : UndoAdds (if started || s.cur.noundo then []
              else [UndoType.UNDO_START_SEQUENCE]) s q.1 :=
            undoAdds_of_quiet_right (undoAdds_of_quiet_left h2 h3.1) h45
          have hnq : q.1.undo_nosave = false := h45.2 h3.2
          have h6 := undo_transpose_subr_insert q.1 p0 p1 q.2.1 r1.2 q.2.2 hnq
          rw [hs3.2.1] at h6
          refine ⟨h.2.symm, ?_⟩
          rw [← h.1]
          exact undoAdds_trans hs3 h6

/-- What one call of `transpose_subr` does to the undo log: a failure return leaves it
alone, a success adds one sequence (when the buffer keeps an undo log). -/
theorem transpose_subr_undo (fuel : Nat) (f : Motion) (s t : State) (r : Bool)
    (hns : s.undo_nosave = false) (h : transpose_subr fuel f s = some (t, r)) :
    (r = false ∧ Unedited s t) ∨
    (r = true ∧ UndoAdds (if s.cur.noundo then []
      else [UndoType.UNDO_START_SEQUENCE, UndoType.UNDO_END_SEQUENCE]) s t) := by
  unfold transpose_subr at h
  have h0 := unedited_point_marker s
  generalize (point_marker s).1 = s0 at h h0
  generalize (point_marker s).2 = p0 at h
  cases ha : transpose_subr_adjust fuel f s0 with
  | none => rw [ha] at h; cases h
  | some s1 =>
    rw [ha] at h
    simp only [Option.some_bind] at h
    have h1 := unedited_trans h0 (unedited_transpose_subr_adjust fuel f s0 s1 ha)
    cases hb : f.call fuel s1 (-1) with
    | none => rw [hb] at h; cases h
    | some b =>
      rw [hb] at h
      simp only [Option.some_bind] at h
      have h2 := unedited_trans h1 (unedited_call f fuel s1 _ b.1 b.2 hb)
      split at h
      · simp only [Option.some.injEq, Prod.mk.injEq] at h
        refine Or.inl ⟨h.2.symm, ?_⟩
        rw [← h.1]
        refine unedited_trans h2 ?_
        exact unedited_trans (unedited_minibuf_error _ _) (unedited_free_marker _ _)
      · have h3 : Unedited s (point_marker (set_mark (push_mark b.1))).1 := by
          refine unedited_trans h2 ?_
          refine unedited_trans ?_ (unedited_point_marker _)
          exact unedited_trans (unedited_push_mark _) (unedited_set_mark _)
        generalize (point_marker (set_mark (push_mark b.1))).1 = s3 at h h3
        generalize (point_marker (set_mark (push_mark b.1))).2 = p1 at h
        cases he : f.call fuel s3 2 with
        | none => rw [he] at h; cases h
        | some e =>
          rw [he] at h
          simp only [Option.some_bind] at h
          have h4 := unedited_trans h3 (unedited_call f fuel s3 _ e.1 e.2 he)
          have hne : e.1.undo_nosave = false := by rw [h4.2.2.2.2.1]; exact hns
          have hue : e.1.cur.noundo = s.cur.noundo := h4.2.2.1
          split at h
          · split at h
            · obtain ⟨hl1, hl2⟩ := undo_transpose_subr_last_line e.1 p0 hne
              obtain ⟨hr, hsw⟩ := undo_transpose_subr_swap fuel f _ p0 p1 true t r hl2 h
              refine Or.inr ⟨hr, ?_⟩
              have hall := undoAdds_trans (undoAdds_of_quiet_left (undoQuiet_of_unedited h4) hl1)
                hsw
              rw [hl1.2.1, hue] at hall
              cases hnu : s.cur.noundo <;> simpa [hnu] using hall
            · simp only [Option.some.injEq, Prod.mk.injEq] at h
              refine Or.inl ⟨h.2.symm, ?_⟩
              rw [← h.1]
              exact unedited_trans h4 (unedited_transpose_subr_fail_end _ _ _)
          · obtain ⟨hr, hsw⟩ := undo_transpose_subr_swap fuel f e.1 p0 p1 false t r hne h
            refine Or.inr ⟨hr, ?_⟩
            have hall := undoAdds_of_quiet_left (undoQuiet_of_unedited h4) hsw
            rw [hue] at hall
            cases hnu : s.cur.noundo <;> simpa [hnu] using hall

theorem exLine_transpose_subr :
    transpose_subr 5 Motion.F_forward_char exLine = some (exLineSwapped, true) := rfl

/-- C18: the undo records that one call of `transpose_subr (f)` adds to the undo log of the
current buffer hold either no sequence record or exactly one `UNDO_START_SEQUENCE` followed
by one `UNDO_END_SEQUENCE`, for each of the four motion commands; on a failure return
(`Beginning of buffer`, `End of buffer`) no record at all has been added, and on success
the pair is there whenever the buffer keeps an undo log. -/
theorem transpose_subr_undo_pairing (fuel : Nat) (f : Motion) (s t : State) (r : Bool)
    (hns : s.undo_nosave = false) (h : transpose_subr fuel f s = some (t, r)) :
    t.cur_bp = s.cur_bp ∧ ∃ ex, t.cur.undo = s.cur.undo ++ ex ∧
      (sequence_records ex = [] ∨
        sequence_records ex = [UndoType.UNDO_START_SEQUENCE, UndoType.UNDO_END_SEQUENCE]) ∧
      (r = false → ex = []) ∧
      (r = true → sequence_records ex =
        if s.cur.noundo then [] else [UndoType.UNDO_START_SEQUENCE, UndoType.UNDO_END_SEQUENCE]) := by
  rcases transpose_subr_undo fuel f s t r hns h with ⟨hr, hu⟩ | ⟨hr, hc, _, ex, he, hs⟩
  · refine ⟨hu.2.1, [], by rw [hu.2.2.2.1]; simp, Or.inl rfl, fun _ => rfl, ?_⟩
    intro h2; rw [hr] at h2; cases h2
  · refine ⟨hc, ex, he, ?_, ?_, fun _ => hs⟩
    · rw [hs]; split
      · exact Or.inl rfl
      · exact Or.inr rfl
    · intro h2; rw [hr] at h2; cases h2

theorem transpose_subr_undo_pairing_witness :
    exLine.undo_nosave = false ∧
    transpose_subr 5 Motion.F_forward_char exLine = some (exLineSwapped, true) ∧
    ∃ ex, exLineSwapped.cur.undo = exLine.cur.undo ++ ex ∧
      sequence_records ex = [UndoType.UNDO_START_SEQUENCE, UndoType.UNDO_END_SEQUENCE] :=
  ⟨rfl, exLine_transpose_subr,
    let ⟨_, ex, h1, _, _, h2⟩ := transpose_subr_undo_pairing 5 Motion.F_forward_char exLine
      exLineSwapped true rfl exLine_transpose_subr
    ⟨ex, h1, h2 rfl⟩⟩

theorem exLineSwapped_text :
    (exLineSwapped.lineAt 10).text = ['a', 'c', 'b', 'd'] ∧ exLineSwapped.cur.pt = ⟨10, 0, 3⟩ ∧
    exLineSwapped.cur.undo.map (fun u => u.type) =
      [UndoType.UNDO_START_SEQUENCE, UndoType.UNDO_INSERT_BLOCK, UndoType.UNDO_INSERT_BLOCK,
       UndoType.UNDO_REMOVE_BLOCK, UndoType.UNDO_REMOVE_BLOCK, UndoType.UNDO_END_SEQUENCE] := by
  decide

/-! ## The markers through the mark commands -/

theorem view_self (s : State) :
    View s s.cur_bp s.cur.markers s.markerAt s.cur.mark s.mark_ring s.fresh_marker :=
  ⟨rfl, rfl, rfl, rfl, rfl, rfl⟩

theorem marker_new_at_cur (s : State) (pt : Point) (ty : Bool) :
    (marker_new_at s s.cur_bp pt ty).1.cur =
      { s.cur with markers := s.fresh_marker :: s.cur.markers } := by
  simp [marker_new_at, State.cur, State.setBuf, State.setMarker]

theorem view_marker_new_at {s : State} {bp : BufPtr} {M : List MarkerPtr}
    {A : MarkerPtr → Marker} {K : MarkerPtr} {R : List MarkerPtr} {F : MarkerPtr}
    (h : View s bp M A K R F) (pt : Point) (ty : Bool) :
    View (marker_new_at s bp pt ty).1 bp (F :: M)
      (fun q => if q = F then ⟨bp, pt, ty⟩ else A q) K R (F + 1) ∧
    (marker_new_at s bp pt ty).2 = F := by
  obtain ⟨rfl, rfl, rfl, rfl, rfl, rfl⟩ := h
  refine ⟨⟨rfl, ?_, rfl, ?_, rfl, rfl⟩, rfl⟩
  · rw [marker_new_at_cur]
  · rw [marker_new_at_cur]

theorem view_unchain_marker {s : State} {bp : BufPtr} {M : List MarkerPtr}
    {A : MarkerPtr → Marker} {K : MarkerPtr} {R : List MarkerPtr} {F : MarkerPtr}
    (h : View s bp M A K R F) (m : MarkerPtr) (hb : bp ≠ NULL) (ho : (A m).bp = bp) :
    View (unchain_marker s m) bp (M.erase m)
      (fun q => if q = m then (A m).unchained else A q) K R F := by
  obtain ⟨rfl, rfl, rfl, rfl, rfl, rfl⟩ := h
  refine ⟨unchain_marker_cur_bp s m, ?_, ?_, ?_, unchain_marker_mark_ring s m,
    unchain_marker_fresh_marker s m⟩
  · rw [unchain_marker_cur s m ho hb]
  · have hn : ¬ (s.markerAt m).bp = NULL := by rw [ho]; exact hb
    unfold unchain_marker
    simp only [hn, if_false]
    rfl
  · rw [unchain_marker_cur s m ho hb]

theorem view_set_buffer_mark {s : State} {bp : BufPtr} {M : List MarkerPtr}
    {A : MarkerPtr → Marker} {K : MarkerPtr} {R : List MarkerPtr} {F : MarkerPtr}
    (h : View s bp M A K R F) (k : MarkerPtr) :
    View (set_buffer_mark s bp k) bp M A k R F := by
  obtain ⟨rfl, rfl, rfl, rfl, rfl, rfl⟩ := h
  refine ⟨rfl, ?_, rfl, ?_, rfl, rfl⟩
  · unfold set_buffer_mark; rw [cur_setBuf_cur]; rfl
  · unfold set_buffer_mark; rw [cur_setBuf_cur]

theorem view_setMarker {s : State} {bp : BufPtr} {M : List MarkerPtr}
    {A : MarkerPtr → Marker} {K : MarkerPtr} {R : List MarkerPtr} {F : MarkerPtr}
    (h : View s bp M A K R F) (m : MarkerPtr) (k : Marker) :
    View (s.setMarker m k) bp M (fun q => if q = m then k else A q) K R F := by
  obtain ⟨rfl, rfl, rfl, rfl, rfl, rfl⟩ := h
  exact ⟨rfl, rfl, rfl, rfl, rfl, rfl⟩

theorem view_mark_ring_append {s : State} {bp : BufPtr} {M : List MarkerPtr}
    {A : MarkerPtr → Marker} {K : MarkerPtr} {R : List MarkerPtr} {F : MarkerPtr}
    (h : View s bp M A K R F) (m : MarkerPtr) :
    View (mark_ring_append s m) bp M A K (R ++ [m]) F := by
  obtain ⟨rfl, rfl, rfl, rfl, rfl, rfl⟩ := h
  exact ⟨rfl, rfl, rfl, rfl, rfl, rfl⟩

theorem view_mark_ring_betail {s : State} {bp : BufPtr} {M : List MarkerPtr}
    {A : MarkerPtr → Marker} {K : MarkerPtr} {R : List MarkerPtr} {F : MarkerPtr}
    (h : View s bp M A K R F) :
    View (mark_ring_betail s) bp M A K R.dropLast F := by
  obtain ⟨rfl, rfl, rfl, rfl, rfl, rfl⟩ := h
  exact ⟨rfl, rfl, rfl, rfl, rfl, rfl⟩

theorem view_motion {s t : State} {bp : BufPtr} {M : List MarkerPtr}
    {A : MarkerPtr → Marker} {K : MarkerPtr} {R : List MarkerPtr} {F : MarkerPtr}
    (h : View s bp M A K R F) (hm : MotionFrame s t) : View t bp M A K R F := by
  obtain ⟨rfl, rfl, rfl, rfl, rfl, rfl⟩ := h
  obtain ⟨pt, g, hc⟩ := motionFrame_cur hm
  obtain ⟨_, a2, a3, a4, a5, _⟩ := hm
  exact ⟨a3, by rw [hc], a2, by rw [hc], a4, a5⟩

theorem view_minibuf_error {s : State} {bp : BufPtr} {M : List MarkerPtr}
    {A : MarkerPtr → Marker} {K : MarkerPtr} {R : List MarkerPtr} {F : MarkerPtr}
    (h : View s bp M A K R F) (msg : String) : View (minibuf_error s msg) bp M A K R F :=
  view_motion h (motionFrame_minibuf_error s msg)

theorem view_goto_point {s : State} {bp : BufPtr} {M : List MarkerPtr}
    {A : MarkerPtr → Marker} {K : MarkerPtr} {R : List MarkerPtr} {F : MarkerPtr}
    (h : View s bp M A K R F) (pt : Point) : View (goto_point s pt) bp M A K R F :=
  view_motion h (motionFrame_goto_point s pt)

theorem view_point_marker {s : State} {bp : BufPtr} {M : List MarkerPtr}
    {A : MarkerPtr → Marker} {K : MarkerPtr} {R : List MarkerPtr} {F : MarkerPtr}
    (h : View s bp M A K R F) :
    View (point_marker s).1 bp (F :: M)
      (fun q => if q = F then ⟨bp, s.cur.pt, false⟩ else A q) K R (F + 1) ∧
    (point_marker s).2 = F := by
  have hb : s.cur_bp = bp := h.1
  unfold point_marker
  rw [hb]
  exact view_marker_new_at h _ _

theorem view_congr {s : State} {bp : BufPtr} {M M2 : List MarkerPtr}
    {A A2 : MarkerPtr → Marker} {K K2 : MarkerPtr} {R R2 : List MarkerPtr} {F F2 : MarkerPtr}
    (h : View s bp M A K R F) (h1 : M = M2) (h2 : A = A2) (h3 : K = K2) (h4 : R = R2)
    (h5 : F = F2) : View s bp M2 A2 K2 R2 F2 := by
  subst h1 h2 h3 h4 h5; exact h

theorem view_push_mark_unset {s : State} {bp : BufPtr} {M : List MarkerPtr}
    {A : MarkerPtr → Marker} {K : MarkerPtr} {R : List MarkerPtr} {F : MarkerPtr}
    (h : View s bp M A K R F) (hk : K = NULL) :
    View (push_mark s) bp (F :: M)
      (fun q => if q = F then ⟨bp, ⟨NULL, 0, 0⟩, false⟩ else A q) K (R ++ [F]) (F + 1) := by
  have hb : s.cur_bp = bp := h.1
  have hm : s.cur.mark = NULL := by rw [h.2.2.2.1]; exact hk
  unfold push_mark
  rw [if_neg (by rw [hm]; exact fun e => e rfl)]
  simp only []
  unfold point_min_marker
  rw [hb]
  obtain ⟨h1, h2⟩ := view_marker_new_at h ⟨s.cur.lines, 0, 0⟩ false
  rw [h2]
  have h3 := view_mark_ring_append (view_setMarker h1 F
    { (marker_new_at s bp ⟨s.cur.lines, 0, 0⟩ false).1.markerAt F with
      pt := { ((marker_new_at s bp ⟨s.cur.lines, 0, 0⟩ false).1.markerAt F).pt with
              p := NULL } }) F
  refine view_congr h3 rfl ?_ rfl rfl rfl
  funext q
  by_cases hq : q = F
  · subst hq
    have e : (marker_new_at s bp ⟨s.cur.lines, 0, 0⟩ false).1.markerAt q =
        ⟨bp, ⟨s.cur.lines, 0, 0⟩, false⟩ := by rw [h1.2.2.1]; simp
    simp [e]
  · simp [hq]

theorem view_push_mark_set {s : State} {bp : BufPtr} {M : List MarkerPtr}
    {A : MarkerPtr → Marker} {K : MarkerPtr} {R : List MarkerPtr} {F : MarkerPtr}
    (h : View s bp M A K R F) (hk : K ≠ NULL) (ho : (A K).bp = bp) :
    View (push_mark s) bp (F :: M)
      (fun q => if q = F then ⟨bp, (A K).pt, (A K).type⟩ else A q) K (R ++ [F]) (F + 1) := by
  have hm : s.cur.mark = K := h.2.2.2.1
  have ha : s.markerAt = A := h.2.2.1
  unfold push_mark
  rw [if_pos (by rw [hm]; exact hk)]
  simp only []
  unfold copy_marker
  rw [hm, ha, ho]
  obtain ⟨h1, h2⟩ := view_marker_new_at h (A K).pt (A K).type
  rw [h2]
  exact view_mark_ring_append h1 F

theorem view_set_mark_unset {s : State} {bp : BufPtr} {M : List MarkerPtr}
    {A : MarkerPtr → Marker} {K : MarkerPtr} {R : List MarkerPtr} {F : MarkerPtr}
    (h : View s bp M A K R F) (hk : K = NULL) :
    View (set_mark s) bp (F :: M)
      (fun q => if q = F then ⟨bp, s.cur.pt, false⟩ else A q) F R (F + 1) := by
  have hm : s.cur.mark = NULL := by rw [h.2.2.2.1]; exact hk
  unfold set_mark
  rw [if_pos hm]
  simp only []
  obtain ⟨h1, h2⟩ := view_point_marker h
  rw [h2, h1.1]
  exact view_set_buffer_mark h1 F

theorem view_set_mark_set {s : State} {bp : BufPtr} {M : List MarkerPtr}
    {A : MarkerPtr → Marker} {K : MarkerPtr} {R : List MarkerPtr} {F : MarkerPtr}
    (h : View s bp M A K R F) (hk : K ≠ NULL) (ho : (A K).bp = bp) :
    View (set_mark s) bp M
      (fun q => if q = K then { A K with pt := s.cur.pt } else A q) K R F := by
  obtain ⟨rfl, rfl, rfl, rfl, rfl, rfl⟩ := h
  unfold set_mark
  rw [if_neg hk]
  unfold move_marker
  have e : ¬ s.cur_bp ≠ (s.markerAt s.cur.mark).bp := by rw [ho]; exact fun e => e rfl
  simp only [e, if_false]
  exact view_setMarker (view_self s) _ _

theorem view_pop_mark_valid {s : State} {bp : BufPtr} {M : List MarkerPtr}
    {A : MarkerPtr → Marker} {K : MarkerPtr} {R : List MarkerPtr} {F : MarkerPtr}
    (h : View s bp M A K R F) (c : MarkerPtr) (hl : R.getLast? = some c)
    (hco : (A c).bp = bp) (hb : bp ≠ NULL) (hk : K ≠ NULL) (hko : (A K).bp = bp)
    (hck : c ≠ K) (hcF : c ≠ F) (hv : (A c).pt.p ≠ NULL) :
    View (pop_mark s) bp ((F :: M.erase K).erase c)
      (fun q => if q = c then (A c).unchained
        else if q = F then ⟨bp, (A c).pt, (A c).type⟩
        else if q = K then (A K).unchained else A q) F R.dropLast (F + 1) := by
  have hR : s.mark_ring = R := h.2.2.2.2.1
  have hA : s.markerAt = A := h.2.2.1
  have hbp : s.cur_bp = bp := h.1
  have hK : s.cur.mark = K := h.2.2.2.1
  unfold pop_mark
  rw [hR, hl]
  simp only []
  have e0 : s.bufAt (s.markerAt c).bp = s.cur := by rw [hA, hco, ← hbp]; rfl
  rw [e0, hK, if_pos hk]
  have h1 : View (free_marker s K) bp _ _ K R F := view_unchain_marker h K hb hko
  have e1 : (free_marker s K).markerAt c = A c := by rw [h1.2.2.1]; simp [hck]
  generalize free_marker s K = s1 at h1 e1 ⊢
  rw [e1, if_pos hv]
  unfold copy_marker
  rw [e1, hA, hco]
  obtain ⟨h2, e2⟩ := view_marker_new_at h1 (A c).pt (A c).type
  rw [e2]
  generalize (marker_new_at s1 bp (A c).pt (A c).type).1 = s2 at h2 ⊢
  have h3 := view_mark_ring_betail (view_set_buffer_mark h2 F)
  have h4 := view_unchain_marker h3 c hb (by simp [hcF, hck, hco])
  refine view_congr h4 rfl ?_ rfl rfl rfl
  funext q
  by_cases q1 : q = c
  · subst q1; simp [hcF, hck]
  · simp [q1]

theorem view_pop_mark_invalid {s : State} {bp : BufPtr} {M : List MarkerPtr}
    {A : MarkerPtr → Marker} {K : MarkerPtr} {R : List MarkerPtr} {F : MarkerPtr}
    (h : View s bp M A K R F) (c : MarkerPtr) (hl : R.getLast? = some c)
    (hco : (A c).bp = bp) (hb : bp ≠ NULL) (hk : K ≠ NULL) (hko : (A K).bp = bp)
    (hck : c ≠ K) (hv : (A c).pt.p = NULL) :
    View (pop_mark s) bp ((M.erase K).erase c)
      (fun q => if q = c then (A c).unchained
        else if q = K then (A K).unchained else A q) NULL R.dropLast F := by
  have hR : s.mark_ring = R := h.2.2.2.2.1
  have hA : s.markerAt = A := h.2.2.1
  have hbp : s.cur_bp = bp := h.1
  have hK : s.cur.mark = K := h.2.2.2.1
  unfold pop_mark
  rw [hR, hl]
  simp only []
  have e0 : s.bufAt (s.markerAt c).bp = s.cur := by rw [hA, hco, ← hbp]; rfl
  rw [e0, hK, if_pos hk]
  have h1 : View (free_marker s K) bp _ _ K R F := view_unchain_marker h K hb hko
  have e1 : (free_marker s K).markerAt c = A c := by rw [h1.2.2.1]; simp [hck]
  generalize free_marker s K = s1 at h1 e1 ⊢
  rw [e1, if_neg (by rw [hv]; exact fun e => e rfl), hA, hco]
  have h3 := view_mark_ring_betail (view_set_buffer_mark h1 NULL)
  have h4 := view_unchain_marker h3 c hb (by simp [hck, hco])
  refine view_congr h4 rfl ?_ rfl rfl rfl
  funext q
  by_cases q1 : q = c
  · subst q1; simp [hck]
  · simp [q1]

/-! ## The failure returns of a transposition -/

theorem motionFrame_transpose_subr_adjust (fuel : Nat) (f : Motion) (s t : State)
    (h : transpose_subr_adjust fuel f s = some t) : MotionFrame s t := by
  unfold transpose_subr_adjust at h
  split at h
  · split at h
    · cases hc : f.call fuel s (-1) with
      | none => rw [hc] at h; cases h
      | some c =>
        rw [hc] at h
        simp only [Option.map_some', Option.some.injEq] at h
        rw [← h]; exact motionFrame_call f fuel s _ c.1 c.2 hc
    · cases h; exact motionFrame_refl s
  · split at h
    · split at h
      · cases hc : f.call fuel s 1 with
        | none => rw [hc] at h; cases h
        | some c =>
          rw [hc] at h
          simp only [Option.map_some', Option.some.injEq] at h
          rw [← h]; exact motionFrame_call f fuel s _ c.1 c.2 hc
      · cases h; exact motionFrame_refl s
    · cases h; exact motionFrame_refl s

theorem transpose_subr_swap_true (fuel : Nat) (f : Motion) (s : State) (p0 p1 : MarkerPtr)
    (started : Bool) (t : State) (r : Bool)
    (h : transpose_subr_swap fuel f s p0 p1 started = some (t, r)) : r = true := by
  unfold transpose_subr_swap at h
  simp only [Option.bind_eq_some, Option.map_eq_some', Prod.mk.injEq] at h
  obtain ⟨_, _, _, _, _, _, _, _, _, h2⟩ := h
  exact h2.symm

/-- The two ways in which `transpose_subr` returns `FALSE`. -/
theorem transpose_subr_false_cases (fuel : Nat) (f : Motion) (s t : State)
    (h : transpose_subr fuel f s = some (t, false)) :
    (∃ b, MotionFrame (point_marker s).1 b ∧
      t = free_marker (minibuf_error b "Beginning of buffer") (point_marker s).2) ∨
    (∃ b e, MotionFrame (point_marker s).1 b ∧
      MotionFrame (point_marker (set_mark (push_mark b))).1 e ∧
      t = transpose_subr_fail_end e (point_marker s).2
        (point_marker (set_mark (push_mark b))).2) := by
  unfold transpose_subr at h
  cases ha : transpose_subr_adjust fuel f (point_marker s).1 with
  | none => rw [ha] at h; cases h
  | some s1 =>
    rw [ha] at h
    simp only [Option.some_bind] at h
    have h1 := motionFrame_transpose_subr_adjust fuel f _ s1 ha
    cases hb : f.call fuel s1 (-1) with
    | none => rw [hb] at h; cases h
    | some b =>
      rw [hb] at h
      simp only [Option.some_bind] at h
      have h2 := motionFrame_trans h1 (motionFrame_call f fuel s1 _ b.1 b.2 hb)
      split at h
      · simp only [Option.some.injEq, Prod.mk.injEq] at h
        exact Or.inl ⟨b.1, h2, h.1.symm⟩
      · cases he : f.call fuel (point_marker (set_mark (push_mark b.1))).1 2 with
        | none => rw [he] at h; cases h
        | some e =>
          rw [he] at h
          simp only [Option.some_bind] at h
          have h3 := motionFrame_call f fuel _ _ e.1 e.2 he
          split at h
          · split at h
            · exact absurd (transpose_subr_swap_true _ _ _ _ _ _ _ _ h) (by decide)
            · simp only [Option.some.injEq, Prod.mk.injEq] at h
              exact Or.inr ⟨b.1, e.1, h2, h3, h.1.symm⟩
          · exact absurd (transpose_subr_swap_true _ _ _ _ _ _ _ _ h) (by decide)

theorem unedited_of_transpose_subr_false (fuel : Nat) (f : Motion) (s t : State)
    (h : transpose_subr fuel f s = some (t, false)) : Unedited s t := by
  rcases transpose_subr_false_cases fuel f s t h with ⟨b, h1, rfl⟩ | ⟨b, e, h1, h2, rfl⟩
  · refine unedited_trans (unedited_point_marker s) ?_
    refine unedited_trans (unedited_of_motionFrame h1) ?_
    exact unedited_trans (unedited_minibuf_error _ _) (unedited_free_marker _ _)
  · refine unedited_trans (unedited_point_marker s) ?_
    refine unedited_trans (unedited_of_motionFrame h1) ?_
    refine unedited_trans ?_ (unedited_transpose_subr_fail_end _ _ _)
    refine unedited_trans ?_ (unedited_of_motionFrame h2)
    refine unedited_trans ?_ (unedited_point_marker _)
    exact unedited_trans (unedited_push_mark _) (unedited_set_mark _)

theorem marksRestored_of_view {s t : State} {M2 : List MarkerPtr} {A2 : MarkerPtr → Marker}
    {K2 F2 : MarkerPtr} (h : View t s.cur_bp M2 A2 K2 s.mark_ring F2)
    (h1 : s.cur.mark = NULL → K2 = NULL)
    (h2 : s.cur.mark ≠ NULL → K2 ≠ NULL ∧ (A2 K2).bp = s.cur_bp ∧
      (A2 K2).pt = (s.markerAt s.cur.mark).pt)
    (h3 : s.fresh_marker < F2)
    (h4 : ∀ m, s.fresh_marker ≤ m → m < F2 → m ≠ K2 → (A2 m).bp = NULL ∧ m ∉ M2) :
    MarksRestored s t := by
  obtain ⟨a1, a2, a3, a4, a5, a6⟩ := h
  refine ⟨a1, ?_, ?_, a5, ?_, ?_⟩
  · rw [a4]; exact h1
  · rw [a4, a3, a1]; exact h2
  · rw [a6]; exact h3
  · rw [a6, a4, a3, a2]; exact h4

theorem marksRestored_fail_begin (s b : State) (hc : s.cur_bp ≠ NULL)
    (hfresh : ∀ m ∈ s.cur.markers, m < s.fresh_marker)
    (hmark : s.cur.mark ≠ NULL → s.cur.mark < s.fresh_marker ∧
      (s.markerAt s.cur.mark).bp = s.cur_bp ∧ (s.markerAt s.cur.mark).pt.p ≠ NULL)
    (hm : MotionFrame (point_marker s).1 b) :
    MarksRestored s (free_marker (minibuf_error b "Beginning of buffer") (point_marker s).2) := by
  obtain ⟨h0, e0⟩ := view_point_marker (view_self s)
  rw [e0]
  have h1 := view_minibuf_error (view_motion h0 hm) "Beginning of buffer"
  have h2 := view_unchain_marker h1 s.fresh_marker hc (by simp)
  refine marksRestored_of_view h2 (fun e => e) ?_ (Nat.lt_succ_self _) ?_
  · intro hk
    obtain ⟨k1, k2, _⟩ := hmark hk
    have kne : s.cur.mark ≠ s.fresh_marker := Nat.ne_of_lt k1
    exact ⟨hk, by simp [kne, k2], by simp [kne]⟩
  · intro m m1 m2 _
    have e : m = s.fresh_marker := Nat.le_antisymm (Nat.lt_succ_iff.mp m2) m1
    subst e
    refine ⟨by simp [Marker.unchained], ?_⟩
    simp only [List.erase_cons_head]
    exact fun hin => absurd (hfresh _ hin) (Nat.lt_irrefl _)

theorem marksRestored_fail_end_unset (s b e : State) (hc : s.cur_bp ≠ NULL)
    (hfresh : ∀ m ∈ s.cur.markers, m < s.fresh_marker)
    (hk : s.cur.mark = NULL)
    (hm1 : MotionFrame (point_marker s).1 b)
    (hm2 : MotionFrame (point_marker (set_mark (push_mark b))).1 e) :
    MarksRestored s (transpose_subr_fail_end e (point_marker s).2
      (point_marker (set_mark (push_mark b))).2) := by
  obtain ⟨h0, e0⟩ := view_point_marker (view_self s)
  rw [e0]
  have hb := view_motion h0 hm1
  have h1 := view_push_mark_unset hb hk
  have h2 := view_set_mark_unset h1 hk
  obtain ⟨h3, e3⟩ := view_point_marker h2
  rw [e3]
  have he := view_motion h3 hm2
  simp only [Nat.add_assoc, Nat.reduceAdd] at he
  unfold transpose_subr_fail_end
  simp only [Nat.add_assoc, Nat.reduceAdd]
  have h4 := view_pop_mark_invalid he (s.fresh_marker + 1) (by simp) (by simp) hc
    (by simp [NULL]) (by simp) (by simp) (by simp)
  have h5 := view_minibuf_error (view_goto_point h4
    (get_marker_pt (pop_mark e) (s.fresh_marker + 3))) "End of buffer"
  have h6 := view_unchain_marker h5 s.fresh_marker hc (by simp)
  have h7 := view_unchain_marker h6 (s.fresh_marker + 3) hc (by simp)
  have hF : ∀ k, s.fresh_marker + k ∉ s.cur.markers :=
    fun k hin => absurd (hfresh _ hin) (Nat.not_lt.mpr (Nat.le_add_right _ _))
  have hF0 : s.fresh_marker ∉ s.cur.markers := hF 0
  refine marksRestored_of_view (view_congr h7 rfl rfl rfl (by simp) rfl) (fun _ => rfl)
    (fun h => absurd hk h) (Nat.lt_add_of_pos_right (Nat.zero_lt_succ _)) ?_
  intro m m1 m2 _
  obtain ⟨k, rfl⟩ := Nat.exists_eq_add_of_le m1
  have k4 : k < 4 := Nat.lt_of_add_lt_add_left m2
  interval_cases k
  · simp [Marker.unchained, hF0]
  · simp [Marker.unchained, hF0, hF]
  · simp [Marker.unchained, hF0, hF]
  · simp [Marker.unchained, hF0, hF]

theorem marksRestored_fail_end_set (s b e : State) (hc : s.cur_bp ≠ NULL)
    (hfresh : ∀ m ∈ s.cur.markers, m < s.fresh_marker)
    (hk : s.cur.mark ≠ NULL) (k1 : s.cur.mark < s.fresh_marker)
    (k2 : (s.markerAt s.cur.mark).bp = s.cur_bp) (k3 : (s.markerAt s.cur.mark).pt.p ≠ NULL)
    (hm1 : MotionFrame (point_marker s).1 b)
    (hm2 : MotionFrame (point_marker (set_mark (push_mark b))).1 e) :
    MarksRestored s (transpose_subr_fail_end e (point_marker s).2
      (point_marker (set_mark (push_mark b))).2) := by
  have hK : ∀ k, s.cur.mark ≠ s.fresh_marker + k :=
    fun k => Nat.ne_of_lt (Nat.lt_of_lt_of_le k1 (Nat.le_add_right _ _))
  have hK0 : s.cur.mark ≠ s.fresh_marker := hK 0
  have hK2 : ∀ k, s.fresh_marker + k ≠ s.cur.mark := fun k => (hK k).symm
  have hK3 : s.fresh_marker ≠ s.cur.mark := hK0.symm
  obtain ⟨h0, e0⟩ := view_point_marker (view_self s)
  rw [e0]
  have hb := view_motion h0 hm1
  have h1 := view_push_mark_set hb hk (by simp [hK0, k2])
  have h2 := view_set_mark_set h1 hk (by simp [hK0, hK, k2])
  obtain ⟨h3, e3⟩ := view_point_marker h2
  rw [e3]
  have he := view_motion h3 hm2
  simp only [Nat.add_assoc, Nat.reduceAdd] at he
  unfold transpose_subr_fail_end
  simp only [Nat.add_assoc, Nat.reduceAdd]
  have h4 := view_pop_mark_valid he (s.fresh_marker + 1) (by simp) (by simp [hK2]) hc
    hk (by simp [hK0, hK, k2]) (hK2 1) (by simp) (by simp [hK2, hK0, k3])
  have h5 := view_minibuf_error (view_goto_point h4
    (get_marker_pt (pop_mark e) (s.fresh_marker + 2))) "End of buffer"
  have h6 := view_unchain_marker h5 s.fresh_marker hc (by simp [hK3])
  have h7 := view_unchain_marker h6 (s.fresh_marker + 2) hc (by simp [hK2])
  have hF : ∀ k, s.fresh_marker + k ∉ s.cur.markers :=
    fun k hin => absurd (hfresh _ hin) (Nat.not_lt.mpr (Nat.le_add_right _ _))
  have hF0 : s.fresh_marker ∉ s.cur.markers := hF 0
  have hE : ∀ k, s.fresh_marker + k ∉ s.cur.markers.erase s.cur.mark :=
    fun k hin => hF k (List.mem_of_mem_erase hin)
  have hE0 : s.fresh_marker ∉ s.cur.markers.erase s.cur.mark := hE 0
  refine marksRestored_of_view (view_congr h7 rfl rfl rfl (by simp) rfl)
    (fun h => absurd h hk) ?_ (Nat.lt_add_of_pos_right (Nat.zero_lt_succ _)) ?_
  · intro _
    simp [NULL, hK2, hK3, hK0, hK]
  · intro m m1 m2 m3
    obtain ⟨k, rfl⟩ := Nat.exists_eq_add_of_le m1
    have k4 : k < 4 := Nat.lt_of_add_lt_add_left m2
    interval_cases k
    · simp [Marker.unchained, hF0, hE0, hK2, hK3, hK0, hK]
    · simp [Marker.unchained, hF0, hF, hE, hE0, hK2, hK3, hK0, hK]
    · simp [Marker.unchained, hF0, hF, hE, hE0, hK2, hK3, hK0, hK]
    · exact absurd rfl m3

theorem marksRestored_of_transpose_subr_false (fuel : Nat) (f : Motion) (s t : State)
    (hc : s.cur_bp ≠ NULL)
    (hfresh : ∀ m ∈ s.cur.markers, m < s.fresh_marker)
    (hmark : s.cur.mark ≠ NULL → s.cur.mark < s.fresh_marker ∧
      (s.markerAt s.cur.mark).bp = s.cur_bp ∧ (s.markerAt s.cur.mark).pt.p ≠ NULL)
    (h : transpose_subr fuel f s = some (t, false)) : MarksRestored s t := by
  rcases transpose_subr_false_cases fuel f s t h with ⟨b, h1, rfl⟩ | ⟨b, e, h1, h2, rfl⟩
  · exact marksRestored_fail_begin s b hc hfresh hmark h1
  · by_cases hk : s.cur.mark = NULL
    · exact marksRestored_fail_end_unset s b e hc hfresh hk h1 h2
    · obtain ⟨k1, k2, k3⟩ := hmark hk
      exact marksRestored_fail_end_set s b e hc hfresh hk k1 k2 k3 h1 h2

theorem exLineMark_transpose_subr :
    transpose_subr 10 Motion.F_forward_word exLineMark = some (exLineMarkFailed, false) := rfl

/-- C19: whenever `transpose_subr` returns `FALSE` there is no partial mutation. In a state
with a current buffer whose markers and mark were handed out by the allocator, the mark (if
set) being a marker of the buffer at a valid position: the lines of the text, the first and
the limit line of the buffer and the undo log are unchanged, the mark is still unset or is
a marker of the buffer at the position of the old mark, the mark ring is the same, and
every marker made by the call, `p0` and `p1` among them, is unchained from the buffer and
has no owner, the marker that now is the mark apart. -/
theorem transpose_subr_failure_no_mutation (fuel : Nat) (f : Motion) (s t : State)
    (hc : s.cur_bp ≠ NULL)
    (hfresh : ∀ m ∈ s.cur.markers, m < s.fresh_marker)
    (hmark : s.cur.mark ≠ NULL → s.cur.mark < s.fresh_marker ∧
      (s.markerAt s.cur.mark).bp = s.cur_bp ∧ (s.markerAt s.cur.mark).pt.p ≠ NULL)
    (h : transpose_subr fuel f s = some (t, false)) :
    t.lineAt = s.lineAt ∧ t.cur.lines = s.cur.lines ∧ t.cur.limitp = s.cur.limitp ∧
    t.cur.undo = s.cur.undo ∧ t.cur_bp = s.cur_bp ∧
    (s.cur.mark = NULL → t.cur.mark = NULL) ∧
    (s.cur.mark ≠ NULL → t.cur.mark ≠ NULL ∧ (t.markerAt t.cur.mark).bp = t.cur_bp ∧
      (t.markerAt t.cur.mark).pt = (s.markerAt s.cur.mark).pt) ∧
    t.mark_ring = s.mark_ring ∧
    s.fresh_marker < t.fresh_marker ∧
    ∀ m, s.fresh_marker ≤ m → m < t.fresh_marker → m ≠ t.cur.mark →
      (t.markerAt m).bp = NULL ∧ m ∉ t.cur.markers := by
  obtain ⟨u1, _, _, u4, _, u6, u7⟩ := unedited_of_transpose_subr_false fuel f s t h
  obtain ⟨m1, m2, m3, m4, m5, m6⟩ :=
    marksRestored_of_transpose_subr_false fuel f s t hc hfresh hmark h
  exact ⟨u1, u6, u7, u4, m1, m2, m3, m4, m5, m6⟩

theorem transpose_subr_failure_no_mutation_witness :
    transpose_subr 10 Motion.F_forward_word exLineMark = some (exLineMarkFailed, false) ∧
    exLineMark.cur.mark = 100 ∧ exLineMark.fresh_marker = 101 ∧
    exLineMarkFailed.lineAt = exLineMark.lineAt ∧
    exLineMarkFailed.cur.undo = exLineMark.cur.undo ∧
    (exLineMarkFailed.markerAt exLineMarkFailed.cur.mark).pt =
      (exLineMark.markerAt exLineMark.cur.mark).pt ∧
    exLineMarkFailed.mark_ring = exLineMark.mark_ring ∧
    (exLineMarkFailed.markerAt 101).bp = NULL ∧ 101 ∉ exLineMarkFailed.cur.markers :=
  have h := transpose_subr_failure_no_mutation 10 Motion.F_forward_word exLineMark
    exLineMarkFailed (by decide) (by decide) (by decide) exLineMark_transpose_subr
  ⟨exLineMark_transpose_subr, rfl, rfl, h.1, h.2.2.2.1, (h.2.2.2.2.2.2.1 (by decide)).2.2,
    h.2.2.2.2.2.2.2.1, h.2.2.2.2.2.2.2.2.2 101 (by decide) (by decide) (by decide)⟩

theorem exLineMarkFailed_marks :
    exLineMarkFailed.cur.mark = 104 ∧ exLineMarkFailed.cur.markers = [104] ∧
    exLineMarkFailed.fresh_marker = 105 ∧ exLineMarkFailed.cur.pt = ⟨10, 0, 0⟩ ∧
    exLineMarkFailed.minibuf = some "End of buffer" := by
  decide

/-! ## The steps of a transposition of characters -/

theorem focus_step {s0 s t : State} {pt pt2 : Point} {K K2 : MarkerPtr} {act act2 : Bool}
    (h : Focus s0 s pt K act) (hb : t.cur_bp = s.cur_bp) (h1 : t.cur.lines = s.cur.lines)
    (h2 : t.cur.limitp = s.cur.limitp) (h3 : t.cur.pt = pt2) (h4 : t.cur.mark = K2)
    (h5 : t.cur.mark_active = act2) (h6 : t.cur.readonly = s.cur.readonly)
    (h7 : s.fresh_marker ≤ t.fresh_marker)
    (h8 : ∀ m ∈ t.cur.markers, m ∈ s.cur.markers ∨ m < t.fresh_marker) :
    Focus s0 t pt2 K2 act2 := by
  obtain ⟨a1, a2, a3, _, _, _, a7, a8, a9⟩ := h
  refine ⟨hb.trans a1, h1.trans a2, h2.trans a3, h3, h4, h5, h6.trans a7,
    Nat.lt_of_lt_of_le a8 h7, ?_⟩
  intro m hm
  rcases h8 m hm with hin | hlt
  · exact Nat.lt_of_lt_of_le (a9 m hin) h7
  · exact hlt

theorem focus_lt {s0 s : State} {pt : Point} {K : MarkerPtr} {act : Bool}
    (h : Focus s0 s pt K act) {m : MarkerPtr} {k : Marker} (hm : Mk s m k) :
    m ≠ s.fresh_marker := Nat.ne_of_lt (h.2.2.2.2.2.2.2.2 m hm.1)

theorem focus_point_marker {s0 s : State} {pt : Point} {K : MarkerPtr} {act : Bool}
    (h : Focus s0 s pt K act) :
    Focus s0 (point_marker s).1 pt K act ∧ (point_marker s).1.lineAt = s.lineAt ∧
    Mk (point_marker s).1 s.fresh_marker ⟨s.cur_bp, pt, false⟩ ∧
    (∀ m k, Mk s m k → Mk (point_marker s).1 m k ∧ m ≠ s.fresh_marker) := by
  have hpt : s.cur.pt = pt := h.2.2.2.1
  refine ⟨?_, rfl, ⟨?_, ?_⟩, ?_⟩
  · refine focus_step h rfl ?_ ?_ ?_ ?_ ?_ ?_ (Nat.le_succ _) ?_
    · rw [point_marker_cur]
    · rw [point_marker_cur]
    · rw [point_marker_cur]; exact h.2.2.2.1
    · rw [point_marker_cur]; exact h.2.2.2.2.1
    · rw [point_marker_cur]; exact h.2.2.2.2.2.1
    · rw [point_marker_cur]
    · intro m hm
      rw [point_marker_cur] at hm
      rcases List.mem_cons.mp hm with e | e
      · exact Or.inr (by rw [e]; exact Nat.lt_succ_self _)
      · exact Or.inl e
  · rw [point_marker_cur]; exact List.mem_cons_self _ _
  · rw [point_marker_apply, if_pos rfl, hpt]
  · intro m k hm
    have hne := focus_lt h hm
    refine ⟨⟨?_, ?_⟩, hne⟩
    · rw [point_marker_cur]; exact List.mem_cons_of_mem _ hm.1
    · rw [point_marker_apply, if_neg hne]; exact hm.2

theorem focus_setPt {s0 s : State} {pt : Point} {K : MarkerPtr} {act : Bool}
    (h : Focus s0 s pt K act) (pt2 : Point) :
    Focus s0 (s.setPt pt2) pt2 K act ∧ (s.setPt pt2).lineAt = s.lineAt ∧
    (∀ m k, Mk s m k → Mk (s.setPt pt2) m k) := by
  refine ⟨?_, rfl, ?_⟩
  · refine focus_step h rfl ?_ ?_ ?_ ?_ ?_ ?_ (Nat.le_refl _) ?_
    · rw [cur_setPt]
    · rw [cur_setPt]
    · rw [cur_setPt]
    · rw [cur_setPt]; exact h.2.2.2.2.1
    · rw [cur_setPt]; exact h.2.2.2.2.2.1
    · rw [cur_setPt]
    · intro m hm
      rw [cur_setPt] at hm
      exact Or.inl hm
  · intro m k hm
    exact ⟨by rw [cur_setPt]; exact hm.1, hm.2⟩

theorem marker_new_at_cur_any (s : State) (bp : BufPtr) (pt : Point) (ty : Bool) :
    ∃ M, (marker_new_at s bp pt ty).1.cur = { s.cur with markers := M } ∧
      (M = s.cur.markers ∨ M = s.fresh_marker :: s.cur.markers) := by
  unfold marker_new_at
  simp only []
  rw [cur_setBuf]
  by_cases hb : s.cur_bp = bp
  · subst hb
    exact ⟨s.fresh_marker :: s.cur.markers, by simp [State.cur, State.setMarker], Or.inr rfl⟩
  · refine ⟨s.cur.markers, ?_, Or.inl rfl⟩
    have e : ({ s with fresh_marker := s.fresh_marker + 1 } : State).cur_bp = s.cur_bp := rfl
    simp only [setMarker_cur_bp, e, hb, if_false]
    rfl

theorem focus_marker_new_at {s0 s : State} {pt : Point} {K : MarkerPtr} {act : Bool}
    (h : Focus s0 s pt K act) (bp : BufPtr) (pt2 : Point) (ty : Bool) :
    Focus s0 (marker_new_at s bp pt2 ty).1 pt K act ∧
    (marker_new_at s bp pt2 ty).1.lineAt = s.lineAt ∧
    (∀ m k, Mk s m k → Mk (marker_new_at s bp pt2 ty).1 m k) := by
  obtain ⟨M, hM, hM2⟩ := marker_new_at_cur_any s bp pt2 ty
  refine ⟨?_, rfl, ?_⟩
  · refine focus_step h rfl ?_ ?_ ?_ ?_ ?_ ?_ (Nat.le_succ _) ?_
    · rw [hM]
    · rw [hM]
    · rw [hM]; exact h.2.2.2.1
    · rw [hM]; exact h.2.2.2.2.1
    · rw [hM]; exact h.2.2.2.2.2.1
    · rw [hM]
    · intro m hm
      rw [hM] at hm
      rcases hM2 with e | e
      · exact Or.inl (by rw [← e]; exact hm)
      · have hm2 : m ∈ s.fresh_marker :: s.cur.markers := by rw [← e]; exact hm
        rcases List.mem_cons.mp hm2 with e2 | e2
        · exact Or.inr (by rw [e2]; exact Nat.lt_succ_self _)
        · exact Or.inl e2
  · intro m k hm
    have hne := focus_lt h hm
    refine ⟨?_, ?_⟩
    · rw [hM]
      rcases hM2 with e | e
      · rw [e]; exact hm.1
      · rw [e]; exact List.mem_cons_of_mem _ hm.1
    · show (if m = s.fresh_marker then _ else s.markerAt m) = k
      rw [if_neg hne]; exact hm.2

theorem focus_same_cur {s0 s t : State} {pt : Point} {K : MarkerPtr} {act : Bool}
    (h : Focus s0 s pt K act) (hb : t.cur_bp = s.cur_bp) (hc : t.cur = s.cur)
    (hf : t.fresh_marker = s.fresh_marker) : Focus s0 t pt K act := by
  refine focus_step h hb ?_ ?_ ?_ ?_ ?_ ?_ (Nat.le_of_eq hf.symm) ?_
  · rw [hc]
  · rw [hc]
  · rw [hc]; exact h.2.2.2.1
  · rw [hc]; exact h.2.2.2.2.1
  · rw [hc]; exact h.2.2.2.2.2.1
  · rw [hc]
  · intro m hm; rw [hc] at hm; exact Or.inl hm

theorem focus_setMarker {s0 s : State} {pt : Point} {K : MarkerPtr} {act : Bool}
    (h : Focus s0 s pt K act) (m0 : MarkerPtr) (k0 : Marker) :
    Focus s0 (s.setMarker m0 k0) pt K act ∧ (s.setMarker m0 k0).lineAt = s.lineAt ∧
    (∀ m k, Mk s m k → m ≠ m0 → Mk (s.setMarker m0 k0) m k) ∧
    (m0 ∈ s.cur.markers → Mk (s.setMarker m0 k0) m0 k0) := by
  refine ⟨focus_same_cur h rfl rfl rfl, rfl, ?_, ?_⟩
  · intro m k hm hne
    exact ⟨hm.1, by rw [setMarker_apply, if_neg hne]; exact hm.2⟩
  · intro hin
    exact ⟨hin, by rw [setMarker_apply, if_pos rfl]⟩

theorem focus_mark_ring_append {s0 s : State} {pt : Point} {K : MarkerPtr} {act : Bool}
    (h : Focus s0 s pt K act) (m0 : MarkerPtr) :
    Focus s0 (mark_ring_append s m0) pt K act ∧ (mark_ring_append s m0).lineAt = s.lineAt ∧
    (∀ m k, Mk s m k → Mk (mark_ring_append s m0) m k) :=
  ⟨focus_same_cur h rfl rfl rfl, rfl, fun _ _ hm => hm⟩

theorem focus_push_mark {s0 s : State} {pt : Point} {K : MarkerPtr} {act : Bool}
    (h : Focus s0 s pt K act) :
    Focus s0 (push_mark s) pt K act ∧ (push_mark s).lineAt = s.lineAt ∧
    (∀ m k, Mk s m k → Mk (push_mark s) m k) := by
  unfold push_mark
  split
  · simp only []
    unfold copy_marker
    obtain ⟨a1, a2, a3⟩ := focus_marker_new_at h (s.markerAt s.cur.mark).bp
      (s.markerAt s.cur.mark).pt (s.markerAt s.cur.mark).type
    obtain ⟨b1, b2, b3⟩ := focus_mark_ring_append a1
      (marker_new_at s (s.markerAt s.cur.mark).bp (s.markerAt s.cur.mark).pt
        (s.markerAt s.cur.mark).type).2
    exact ⟨b1, b2.trans a2, fun m k hm => b3 m k (a3 m k hm)⟩
  · simp only []
    unfold point_min_marker
    obtain ⟨a1, a2, a3⟩ := focus_marker_new_at h s.cur_bp ⟨s.cur.lines, 0, 0⟩ false
    generalize (marker_new_at s s.cur_bp ⟨s.cur.lines, 0, 0⟩ false).1 = s1 at a1 a2 a3 ⊢
    have e2 : (marker_new_at s s.cur_bp ⟨s.cur.lines, 0, 0⟩ false).2 = s.fresh_marker := rfl
    rw [e2]
    obtain ⟨c1, c2, c3, _⟩ := focus_setMarker a1 s.fresh_marker
      { s1.markerAt s.fresh_marker with pt := { (s1.markerAt s.fresh_marker).pt with p := NULL } }
    obtain ⟨b1, b2, b3⟩ := focus_mark_ring_append c1 s.fresh_marker
    exact ⟨b1, (b2.trans c2).trans a2,
      fun m k hm => b3 m k (c3 m k (a3 m k hm) (focus_lt h hm))⟩

theorem focus_set_buffer_mark {s0 s : State} {pt : Point} {K : MarkerPtr} {act : Bool}
    (h : Focus s0 s pt K act) (K2 : MarkerPtr) :
    Focus s0 (set_buffer_mark s s.cur_bp K2) pt K2 act ∧
    (set_buffer_mark s s.cur_bp K2).lineAt = s.lineAt ∧
    (∀ m k, Mk s m k → Mk (set_buffer_mark s s.cur_bp K2) m k) := by
  have hc : (set_buffer_mark s s.cur_bp K2).cur = { s.cur with mark := K2 } := by
    unfold set_buffer_mark; rw [cur_setBuf_cur]; rfl
  refine ⟨?_, rfl, ?_⟩
  · refine focus_step h rfl ?_ ?_ ?_ ?_ ?_ ?_ (Nat.le_refl _) ?_
    · rw [hc]
    · rw [hc]
    · rw [hc]; exact h.2.2.2.1
    · rw [hc]
    · rw [hc]; exact h.2.2.2.2.2.1
    · rw [hc]
    · intro m hm; rw [hc] at hm; exact Or.inl hm
  · intro m k hm
    exact ⟨by rw [hc]; exact hm.1, hm.2⟩

theorem focus_set_mark {s0 s : State} {pt : Point} {K : MarkerPtr} {act : Bool}
    (h : Focus s0 s pt K act)
    (hK : K ≠ NULL → ∃ k, Mk s K k ∧ k.bp = s.cur_bp) :
    ∃ K2 ty, K2 ≠ NULL ∧ (K ≠ NULL → K2 = K) ∧
    Focus s0 (set_mark s) pt K2 act ∧ (set_mark s).lineAt = s.lineAt ∧
    Mk (set_mark s) K2 ⟨s.cur_bp, pt, ty⟩ ∧
    (∀ m k, Mk s m k → m ≠ K → Mk (set_mark s) m k ∧ m ≠ K2) := by
  have hm : s.cur.mark = K := h.2.2.2.2.1
  have hpt : s.cur.pt = pt := h.2.2.2.1
  unfold set_mark
  by_cases hk : K = NULL
  · rw [if_pos (by rw [hm]; exact hk)]
    simp only []
    obtain ⟨a1, a2, a3, a4⟩ := focus_point_marker h
    rw [point_marker_snd, point_marker_cur_bp]
    have hb : (point_marker s).1.cur_bp = s.cur_bp := rfl
    generalize (point_marker s).1 = s1 at a1 a2 a3 a4 hb ⊢
    obtain ⟨b1, b2, b3⟩ := focus_set_buffer_mark a1 s.fresh_marker
    rw [hb] at b1 b2 b3
    refine ⟨s.fresh_marker, false, Nat.pos_iff_ne_zero.mp h.2.2.2.2.2.2.2.1,
      fun e => absurd hk e, b1, b2.trans a2, b3 _ _ a3, ?_⟩
    intro m k hmk _
    exact ⟨b3 m k (a4 m k hmk).1, (a4 m k hmk).2⟩
  · rw [if_neg (by rw [hm]; exact hk)]
    obtain ⟨k, hk1, hk2⟩ := hK hk
    unfold move_marker
    rw [hm]
    have e : ¬ s.cur_bp ≠ (s.markerAt K).bp := by rw [hk1.2, hk2]; exact fun e => e rfl
    simp only [e, if_false]
    obtain ⟨c1, c2, c3, c4⟩ := focus_setMarker h K { s.markerAt K with pt := s.cur.pt }
    refine ⟨K, k.type, hk, fun _ => rfl, c1, c2, ?_, ?_⟩
    · have := c4 hk1.1
      rw [hk1.2, hpt] at this
      rw [hk1.2, hpt, ← hk2]
      exact this
    · intro m k2 hmk hne
      exact ⟨c3 m k2 hmk hne, hne⟩

theorem focus_set_active {s0 s : State} {pt : Point} {K : MarkerPtr} {act : Bool}
    (h : Focus s0 s pt K act) (b : Bool) :
    Focus s0 (s.setBuf s.cur_bp { s.cur with mark_active := b }) pt K b ∧
    (s.setBuf s.cur_bp { s.cur with mark_active := b }).lineAt = s.lineAt ∧
    (∀ m k, Mk s m k → Mk (s.setBuf s.cur_bp { s.cur with mark_active := b }) m k) := by
  refine ⟨?_, rfl, ?_⟩
  · refine focus_step h rfl ?_ ?_ ?_ ?_ ?_ ?_ (Nat.le_refl _) ?_
    · rw [cur_setBuf_cur]
    · rw [cur_setBuf_cur]
    · rw [cur_setBuf_cur]; exact h.2.2.2.1
    · rw [cur_setBuf_cur]; exact h.2.2.2.2.1
    · rw [cur_setBuf_cur]
    · rw [cur_setBuf_cur]
    · intro m hm; rw [cur_setBuf_cur] at hm; exact Or.inl hm
  · intro m k hm
    exact ⟨by rw [cur_setBuf_cur]; exact hm.1, hm.2⟩

theorem focus_activate_mark {s0 s : State} {pt : Point} {K : MarkerPtr} {act : Bool}
    (h : Focus s0 s pt K act) :
    Focus s0 (activate_mark s) pt K true ∧ (activate_mark s).lineAt = s.lineAt ∧
    (∀ m k, Mk s m k → Mk (activate_mark s) m k) := focus_set_active h true

theorem focus_deactivate_mark {s0 s : State} {pt : Point} {K : MarkerPtr} {act : Bool}
    (h : Focus s0 s pt K act) :
    Focus s0 (deactivate_mark s) pt K false ∧ (deactivate_mark s).lineAt = s.lineAt ∧
    (∀ m k, Mk s m k → Mk (deactivate_mark s) m k) := focus_set_active h false

theorem focus_undo_save {s0 s : State} {pt : Point} {K : MarkerPtr} {act : Bool}
    (h : Focus s0 s pt K act) (ty : UndoType) (pt2 : Point) (a1 a2 : Int) :
    Focus s0 (undo_save s ty pt2 a1 a2) pt K act ∧
    (undo_save s ty pt2 a1 a2).lineAt = s.lineAt ∧
    (∀ m k, Mk s m k → Mk (undo_save s ty pt2 a1 a2) m k) := by
  refine ⟨?_, undo_save_lineAt _ _ _ _ _, ?_⟩
  · refine focus_step h (undo_save_cur_bp _ _ _ _ _) ?_ ?_ ?_ ?_ ?_ ?_
      (Nat.le_of_eq (undo_save_fresh_marker _ _ _ _ _).symm) ?_
    · rw [undo_save_cur]
    · rw [undo_save_cur]
    · rw [undo_save_cur]; exact h.2.2.2.1
    · rw [undo_save_cur]; exact h.2.2.2.2.1
    · rw [undo_save_cur]; exact h.2.2.2.2.2.1
    · rw [undo_save_cur]
    · intro m hm; rw [undo_save_cur] at hm; exact Or.inl hm
  · intro m k hm
    exact ⟨by rw [undo_save_cur]; exact hm.1, by rw [undo_save_markerAt]; exact hm.2⟩

theorem focus_set_undo_nosave {s0 s : State} {pt : Point} {K : MarkerPtr} {act : Bool}
    (h : Focus s0 s pt K act) (v : Bool) :
    Focus s0 (set_undo_nosave s v) pt K act ∧ (set_undo_nosave s v).lineAt = s.lineAt ∧
    (∀ m k, Mk s m k → Mk (set_undo_nosave s v) m k) :=
  ⟨focus_same_cur h rfl rfl rfl, rfl, fun _ _ hm => hm⟩

theorem focus_needResync {s0 s : State} {pt : Point} {K : MarkerPtr} {act : Bool}
    (h : Focus s0 s pt K act) :
    Focus s0 s.needResync pt K act ∧ s.needResync.lineAt = s.lineAt ∧
    (∀ m k, Mk s m k → Mk s.needResync m k) :=
  ⟨focus_same_cur h rfl rfl rfl, rfl, fun _ _ hm => hm⟩

theorem focus_set_marker_insertion_type {s0 s : State} {pt : Point} {K : MarkerPtr}
    {act : Bool} (h : Focus s0 s pt K act) (m0 : MarkerPtr) (k0 : Marker) (h0 : Mk s m0 k0)
    (ty : Bool) :
    Focus s0 (set_marker_insertion_type s m0 ty) pt K act ∧
    (set_marker_insertion_type s m0 ty).lineAt = s.lineAt ∧
    Mk (set_marker_insertion_type s m0 ty) m0 { k0 with type := ty } ∧
    (∀ m k, Mk s m k → m ≠ m0 → Mk (set_marker_insertion_type s m0 ty) m k) := by
  unfold set_marker_insertion_type
  obtain ⟨c1, c2, c3, c4⟩ := focus_setMarker h m0 { s.markerAt m0 with type := ty }
  refine ⟨c1, c2, ?_, c3⟩
  have := c4 h0.1
  rw [h0.2] at this
  rw [h0.2]
  exact this

theorem lines_self (s : State) (p : LinePtr) : Lines s s p (s.lineAt p).text := by
  intro q
  by_cases h : q = p
  · subst h; simp
  · simp [h]

theorem lines_of_eq {s0 s t : State} {p : LinePtr} {txt : List Char} (h : Lines s0 s p txt)
    (e : t.lineAt = s.lineAt) : Lines s0 t p txt := by
  intro q; rw [e]; exact h q

theorem lines_text {s0 s : State} {p : LinePtr} {txt : List Char} (h : Lines s0 s p txt) :
    (s.lineAt p).text = txt := by
  rw [h p]; simp

theorem calculate_region_adjacent (fuel : Nat) (s : State) (p : LinePtr) (n c : Nat)
    (hm : s.cur.mark ≠ NULL) (hact : s.cur.mark_active = true)
    (hpm : (s.cur.pt = ⟨p, n, c⟩ ∧ (s.markerAt s.cur.mark).pt = ⟨p, n, c + 1⟩) ∨
      (s.cur.pt = ⟨p, n, c + 1⟩ ∧ (s.markerAt s.cur.mark).pt = ⟨p, n, c⟩))
    (hf : 1 ≤ fuel) :
    calculate_region fuel s region_new = some (s, true, ⟨⟨p, n, c⟩, ⟨p, n, c + 1⟩, 1⟩) := by
  obtain ⟨k, rfl⟩ : ∃ k, fuel = k + 1 := ⟨fuel - 1, by omega⟩
  have hw : warn_if_no_mark s = (s, false) := by
    simp [warn_if_no_mark, hm, hact]
  unfold calculate_region calculate_the_region
  rw [hw]
  rcases hpm with ⟨h1, h2⟩ | ⟨h1, h2⟩
  · simp [get_marker_pt, h1, h2, cmp_point, region_size_loop, region_new]
  · simp [get_marker_pt, h1, h2, cmp_point, region_size_loop, region_new]

theorem copy_text_block_one (fuel : Nat) (s : State) (p : LinePtr) (n c : Nat) (x : Char)
    (hx : (s.lineAt p).text[c]? = some x) (hf : 1 ≤ fuel) :
    copy_text_block fuel s ⟨p, n, c⟩ 1 = some [x] := by
  obtain ⟨k, rfl⟩ : ∃ k, fuel = k + 1 := ⟨fuel - 1, by omega⟩
  obtain ⟨hc, hx2⟩ := List.getElem?_eq_some_iff.mp hx
  unfold copy_text_block copy_text_block_loop
  have hd : (s.lineAt p).text.drop c = x :: (s.lineAt p).text.drop (c + 1) := by
    rw [List.drop_eq_getElem_cons hc, hx2]
  simp [hd]

theorem astr_append_region_adjacent (fuel : Nat) (s : State) (p : LinePtr) (n c : Nat)
    (x : Char) (hm : s.cur.mark ≠ NULL)
    (hpm : (s.cur.pt = ⟨p, n, c⟩ ∧ (s.markerAt s.cur.mark).pt = ⟨p, n, c + 1⟩) ∨
      (s.cur.pt = ⟨p, n, c + 1⟩ ∧ (s.markerAt s.cur.mark).pt = ⟨p, n, c⟩))
    (hx : (s.lineAt p).text[c]? = some x) (hf : 1 ≤ fuel) :
    astr_append_region fuel s [] = some (activate_mark s, [x]) := by
  have hc : (activate_mark s).cur = { s.cur with mark_active := true } := by
    unfold activate_mark; rw [cur_setBuf_cur]
  have h1 := calculate_region_adjacent fuel (activate_mark s) p n c (by rw [hc]; exact hm)
    (by rw [hc]) (by rw [hc]; exact hpm) hf
  unfold astr_append_region
  rw [h1]
  have h2 := copy_text_block_one fuel (activate_mark s) p n c x hx hf
  simp [h2]

theorem focus_F_exchange_point_and_mark {s0 s : State} {pt : Point} {K : MarkerPtr}
    (h : Focus s0 s pt K true) (hK : K ≠ NULL) (kK : Marker) (hk : Mk s K kK) :
    Focus s0 (F_exchange_point_and_mark s).1 kK.pt K true ∧
    (F_exchange_point_and_mark s).1.lineAt = s.lineAt ∧
    Mk (F_exchange_point_and_mark s).1 K { kK with pt := pt } ∧
    (∀ m k, Mk s m k → m ≠ K → Mk (F_exchange_point_and_mark s).1 m k) := by
  have hm : s.cur.mark = K := h.2.2.2.2.1
  have hpt : s.cur.pt = pt := h.2.2.2.1
  have e1 : exchange_point_and_mark s =
      ((s.setPt kK.pt).setMarker K { kK with pt := pt }, true) := by
    unfold exchange_point_and_mark
    rw [if_neg (by rw [hm]; exact hK)]
    simp only [hm, hk.2, hpt, setPt_markerAt]
  obtain ⟨a1, a2, a3⟩ := focus_setPt h kK.pt
  obtain ⟨b1, b2, b3, b4⟩ := focus_setMarker a1 K { kK with pt := pt }
  have b5 := b4 (a3 K kK hk).1
  have b6 : ∀ m k, Mk s m k → m ≠ K → Mk ((s.setPt kK.pt).setMarker K { kK with pt := pt }) m k :=
    fun m k hmk hne => b3 m k (a3 m k hmk) hne
  have b7 := b2.trans a2
  unfold F_exchange_point_and_mark
  rw [e1]
  simp only [Bool.not_true, Bool.false_eq_true, if_false]
  generalize (s.setPt kK.pt).setMarker K { kK with pt := pt } = s2 at b1 b5 b6 b7 ⊢
  by_cases hv : get_variable_bool s2 "transient-mark-mode" = true
  · rw [if_pos hv]
    obtain ⟨c1, c2, c3⟩ := focus_activate_mark b1
    obtain ⟨d1, d2, d3⟩ := focus_needResync c1
    exact ⟨d1, (d2.trans c2).trans b7, d3 _ _ (c3 _ _ b5),
      fun m k hmk hne => d3 _ _ (c3 _ _ (b6 m k hmk hne))⟩
  · rw [if_neg hv]
    obtain ⟨d1, d2, d3⟩ := focus_needResync b1
    exact ⟨d1, d2.trans b7, d3 _ _ b5, fun m k hmk hne => d3 _ _ (b6 m k hmk hne)⟩

theorem delete_char_inline_fresh (s : State) (h : s.cur.pt.o < line_len s s.cur.pt.p)
    (hw : s.cur.readonly = false) : (delete_char s).1.fresh_marker = s.fresh_marker := by
  have he : eolp s = false := by
    simp only [eolp, decide_eq_false_iff_not]
    exact Nat.ne_of_lt h
  simp only [delete_char, he, warn_if_readonly_buffer, hw, Bool.not_false, if_true,
    Bool.false_eq_true, if_false]
  simp

theorem focus_delete_char {s0 s : State} {p : LinePtr} {n c : Nat} {K : MarkerPtr}
    {act : Bool} {txt : List Char} (h : Focus s0 s ⟨p, n, c⟩ K act) (hl : Lines s0 s p txt)
    (hc : c < txt.length) :
    Focus s0 (delete_char s).1 ⟨p, n, c⟩ K act ∧
    Lines s0 (delete_char s).1 p (txt.eraseIdx c) ∧
    (∀ m k, Mk s m k →
      Mk (delete_char s).1 m { k with pt := delete_char_shift ⟨p, n, c⟩ k }) := by
  have hpt : s.cur.pt = ⟨p, n, c⟩ := h.2.2.2.1
  have hw : s.cur.readonly = false := h.2.2.2.2.2.2.1
  have htx := lines_text hl
  have hin : s.cur.pt.o < line_len s s.cur.pt.p := by
    rw [hpt]; unfold line_len; rw [htx]; exact hc
  obtain ⟨_, d2, d3, d4, _, d6⟩ := delete_char_inline s hin hw
  have d7 := delete_char_inline_fresh s hin hw
  refine ⟨?_, ?_, ?_⟩
  · refine focus_step h d4 ?_ ?_ ?_ ?_ ?_ ?_ (Nat.le_of_eq d7.symm) ?_
    · rw [d3]
    · rw [d3]
    · rw [d3]; exact hpt
    · rw [d3]; exact h.2.2.2.2.1
    · rw [d3]; exact h.2.2.2.2.2.1
    · rw [d3]
    · intro m hm; rw [d3] at hm; exact Or.inl hm
  · intro q
    rw [d2 q, hpt]
    by_cases hq : q = p
    · subst hq
      simp only [if_true]
      rw [hl q]
      simp
    · simp only [hq, if_false]
      rw [hl q, if_neg hq]
  · intro m k hm
    refine ⟨by rw [d3]; exact hm.1, ?_⟩
    rw [d6 m, if_pos hm.1, hm.2, hpt]

/-- The deletion of one character at point, as `delete-region` does it behind the
exchange of point and mark. -/
theorem focus_delete_block {s0 s : State} {p : LinePtr} {n c : Nat} {K : MarkerPtr}
    {act : Bool} {txt : List Char} (h : Focus s0 s ⟨p, n, c⟩ K act) (hl : Lines s0 s p txt)
    (hc : c < txt.length) (a1 : Int) :
    Focus s0 (deactivate_mark (set_undo_nosave (delete_char_loop 1
      (set_undo_nosave (undo_save s UndoType.UNDO_INSERT_BLOCK s.cur.pt a1 0) true)) false))
      ⟨p, n, c⟩ K false ∧
    Lines s0 (deactivate_mark (set_undo_nosave (delete_char_loop 1
      (set_undo_nosave (undo_save s UndoType.UNDO_INSERT_BLOCK s.cur.pt a1 0) true)) false))
      p (txt.eraseIdx c) ∧
    (∀ m k, Mk s m k →
      Mk (deactivate_mark (set_undo_nosave (delete_char_loop 1
        (set_undo_nosave (undo_save s UndoType.UNDO_INSERT_BLOCK s.cur.pt a1 0) true)) false))
        m { k with pt := delete_char_shift ⟨p, n, c⟩ k }) := by
  obtain ⟨b1, b2, b3⟩ := focus_undo_save h UndoType.UNDO_INSERT_BLOCK s.cur.pt a1 0
  generalize undo_save s UndoType.UNDO_INSERT_BLOCK s.cur.pt a1 0 = s1 at b1 b2 b3 ⊢
  obtain ⟨c1, c2, c3⟩ := focus_set_undo_nosave b1 true
  have hl2 := lines_of_eq hl (c2.trans b2)
  generalize set_undo_nosave s1 true = s2 at c1 c2 c3 hl2 ⊢
  obtain ⟨d1, d2, d3⟩ := focus_delete_char c1 hl2 hc
  have e : delete_char_loop 1 s2 = (delete_char s2).1 := rfl
  rw [e]
  generalize (delete_char s2).1 = s3 at d1 d2 d3 ⊢
  obtain ⟨e1, e2, e3⟩ := focus_set_undo_nosave d1 false
  generalize set_undo_nosave s3 false = s4 at e1 e2 e3 ⊢
  obtain ⟨f1, f2, f3⟩ := focus_deactivate_mark e1
  exact ⟨f1, lines_of_eq d2 (f2.trans e2),
    fun m k hm => f3 _ _ (e3 _ _ (d3 _ _ (c3 _ _ (b3 _ _ hm))))⟩

theorem delete_char_shift_next (p : LinePtr) (n c : Nat) (k : Marker)
    (hk : k.pt = ⟨p, n, c + 1⟩) : delete_char_shift ⟨p, n, c⟩ k = ⟨p, n, c⟩ := by
  simp [delete_char_shift, hk]

theorem delete_char_shift_same (p : LinePtr) (n c : Nat) (k : Marker)
    (hk : k.pt = ⟨p, n, c⟩) : delete_char_shift ⟨p, n, c⟩ k = ⟨p, n, c⟩ := by
  simp [delete_char_shift, hk]

theorem F_delete_region_adjacent (fuel : Nat) {s0 s : State} {p : LinePtr} {n c : Nat}
    {K : MarkerPtr} {txt : List Char} (pt : Point) (h : Focus s0 s pt K true)
    (hK : K ≠ NULL) (kK : Marker) (hk : Mk s K kK) (hl : Lines s0 s p txt)
    (hc : c < txt.length)
    (hpm : (pt = ⟨p, n, c⟩ ∧ kK.pt = ⟨p, n, c + 1⟩) ∨ (pt = ⟨p, n, c + 1⟩ ∧ kK.pt = ⟨p, n, c⟩))
    (hf : 1 ≤ fuel) :
    ∃ t, F_delete_region fuel s = some (t, true) ∧ Focus s0 t ⟨p, n, c⟩ K false ∧
      Lines s0 t p (txt.eraseIdx c) ∧ Mk t K { kK with pt := ⟨p, n, c⟩ } ∧
      ∀ m k, Mk s m k → m ≠ K →
        Mk t m { k with pt := delete_char_shift ⟨p, n, c⟩ k } := by
  have hm : s.cur.mark = K := h.2.2.2.2.1
  have hpt : s.cur.pt = pt := h.2.2.2.1
  have hact : s.cur.mark_active = true := h.2.2.2.2.2.1
  have hro : s.cur.readonly = false := h.2.2.2.2.2.2.1
  have hw : warn_if_no_mark s = (s, false) := by
    simp [warn_if_no_mark, hm, hK, hact]
  have hcr := calculate_region_adjacent fuel s p n c (by rw [hm]; exact hK) hact
    (by rw [hm, hk.2, hpt]; exact hpm) hf
  unfold F_delete_region
  rw [hw]
  simp only [Bool.false_eq_true, if_false, hcr, Option.some_bind, hro]
  rcases hpm with ⟨h1, h2⟩ | ⟨h1, h2⟩
  · have e : ¬ (s.cur.pt.p ≠ p ∨ c ≠ s.cur.pt.o) := by rw [hpt, h1]; simp
    rw [if_neg e]
    rw [h1] at h
    obtain ⟨a1, a2, a3⟩ := focus_delete_block h hl hc 1
    refine ⟨_, rfl, a1, a2, ?_, fun m k hmk _ => a3 m k hmk⟩
    have := a3 K kK hk
    rw [delete_char_shift_next p n c kK h2] at this
    exact this
  · have e : s.cur.pt.p ≠ p ∨ c ≠ s.cur.pt.o := by rw [hpt, h1]; simp
    rw [if_pos e]
    obtain ⟨b1, b2, b3, b4⟩ := focus_F_exchange_point_and_mark h hK kK hk
    rw [h2] at b1
    generalize (F_exchange_point_and_mark s).1 = s3 at b1 b2 b3 b4 ⊢
    obtain ⟨a1, a2, a3⟩ := focus_delete_block b1 (lines_of_eq hl b2) hc 1
    refine ⟨_, rfl, a1, a2, ?_, fun m k hmk hne => a3 m k (b4 m k hmk hne)⟩
    have := a3 K _ b3
    rw [delete_char_shift_next p n c _ (by rw [h1])] at this
    exact this

theorem focus_setLine {s0 s : State} {pt : Point} {K : MarkerPtr} {act : Bool}
    (h : Focus s0 s pt K act) (p : LinePtr) (l : Line) :
    Focus s0 (s.setLine p l) pt K act ∧ (∀ m k, Mk s m k → Mk (s.setLine p l) m k) :=
  ⟨focus_same_cur h rfl rfl rfl, fun _ _ hm => hm⟩

theorem focus_relocate_markers {s0 s : State} {pt : Point} {K : MarkerPtr} {act : Bool}
    (h : Focus s0 s pt K act) (f : Marker → Point) :
    Focus s0 (relocate_markers s f) pt K act ∧
    (relocate_markers s f).lineAt = s.lineAt ∧
    (∀ m k, Mk s m k → Mk (relocate_markers s f) m { k with pt := f k }) := by
  refine ⟨focus_same_cur h rfl rfl rfl, rfl, ?_⟩
  intro m k hm
  refine ⟨hm.1, ?_⟩
  rw [relocate_markers_apply, if_pos hm.1, hm.2]

theorem focus_set_modified {s0 s : State} {pt : Point} {K : MarkerPtr} {act : Bool}
    (h : Focus s0 s pt K act) :
    Focus s0 (s.setBuf s.cur_bp { s.cur with modified := true }) pt K act ∧
    (s.setBuf s.cur_bp { s.cur with modified := true }).lineAt = s.lineAt ∧
    (∀ m k, Mk s m k → Mk (s.setBuf s.cur_bp { s.cur with modified := true }) m k) := by
  refine ⟨?_, rfl, ?_⟩
  · refine focus_step h rfl ?_ ?_ ?_ ?_ ?_ ?_ (Nat.le_refl _) ?_
    · rw [cur_setBuf_cur]
    · rw [cur_setBuf_cur]
    · rw [cur_setBuf_cur]; exact h.2.2.2.1
    · rw [cur_setBuf_cur]; exact h.2.2.2.2.1
    · rw [cur_setBuf_cur]; exact h.2.2.2.2.2.1
    · rw [cur_setBuf_cur]
    · intro m hm; rw [cur_setBuf_cur] at hm; exact Or.inl hm
  · intro m k hm
    exact ⟨by rw [cur_setBuf_cur]; exact hm.1, hm.2⟩

theorem focus_insert_char {s0 s : State} {p : LinePtr} {n o : Nat} {K : MarkerPtr}
    {act : Bool} {txt : List Char} (h : Focus s0 s ⟨p, n, o⟩ K act) (hl : Lines s0 s p txt)
    (x : Char) :
    Focus s0 (insert_char s x).1 ⟨p, n, o + 1⟩ K act ∧
    Lines s0 (insert_char s x).1 p (txt.take o ++ x :: txt.drop o) ∧
    (∀ m k, Mk s m k →
      Mk (insert_char s x).1 m { k with pt := insert_char_shift ⟨p, n, o⟩ k }) := by
  have hpt : s.cur.pt = ⟨p, n, o⟩ := h.2.2.2.1
  have hw : s.cur.readonly = false := h.2.2.2.2.2.2.1
  unfold insert_char
  simp only [warn_if_readonly_buffer, hw, Bool.false_eq_true, if_false, hpt]
  obtain ⟨b1, b2, b3⟩ := focus_undo_save h UndoType.UNDO_REMOVE_CHAR ⟨p, n, o⟩ 0 0
  have hl1 := lines_of_eq hl b2
  generalize undo_save s UndoType.UNDO_REMOVE_CHAR ⟨p, n, o⟩ 0 0 = s1 at b1 b2 b3 hl1 ⊢
  obtain ⟨c1, c3⟩ := focus_setLine b1 p
    { s1.lineAt p with text := (s1.lineAt p).text.take o ++ x :: (s1.lineAt p).text.drop o }
  have hl2 : Lines s0 (s1.setLine p { s1.lineAt p with
      text := (s1.lineAt p).text.take o ++ x :: (s1.lineAt p).text.drop o }) p
      (txt.take o ++ x :: txt.drop o) := by
    intro q
    rw [setLine_apply]
    by_cases hq : q = p
    · subst hq
      simp only [if_true]
      rw [hl1 q]
      simp
    · simp only [hq, if_false]
      rw [hl1 q, if_neg hq]
  generalize s1.setLine p { s1.lineAt p with
      text := (s1.lineAt p).text.take o ++ x :: (s1.lineAt p).text.drop o } = s2
    at c1 c3 hl2 ⊢
  obtain ⟨d1, d2, d3⟩ := focus_relocate_markers c1 (insert_char_shift ⟨p, n, o⟩)
  have hl3 := lines_of_eq hl2 d2
  generalize relocate_markers s2 (insert_char_shift ⟨p, n, o⟩) = s3 at d1 d2 d3 hl3 ⊢
  have hpt3 : s3.cur.pt = ⟨p, n, o⟩ := d1.2.2.2.1
  obtain ⟨e1, e2, e3⟩ := focus_setPt d1 ⟨p, n, o + 1⟩
  have hl4 := lines_of_eq hl3 e2
  have e0 : set_offset s3 (o + 1) = s3.setPt ⟨p, n, o + 1⟩ := by
    unfold set_offset; rw [hpt3]
  rw [e0]
  generalize s3.setPt ⟨p, n, o + 1⟩ = s4 at e1 e2 e3 hl4 ⊢
  obtain ⟨f1, f2, f3⟩ := focus_set_modified e1
  exact ⟨f1, lines_of_eq hl4 f2,
    fun m k hm => f3 _ _ (e3 _ _ (d3 _ _ (c3 _ _ (b3 _ _ hm))))⟩

theorem focus_insert_string_one {s0 s : State} {p : LinePtr} {n o : Nat} {K : MarkerPtr}
    {act : Bool} {txt : List Char} (h : Focus s0 s ⟨p, n, o⟩ K act) (hl : Lines s0 s p txt)
    (x : Char) (hx : x ≠ '\n') :
    Focus s0 (insert_string s [x]) ⟨p, n, o + 1⟩ K act ∧
    Lines s0 (insert_string s [x]) p (txt.take o ++ x :: txt.drop o) ∧
    (∀ m k, Mk s m k →
      Mk (insert_string s [x]) m { k with pt := insert_char_shift ⟨p, n, o⟩ k }) := by
  unfold insert_string
  simp only []
  obtain ⟨b1, b2, b3⟩ := focus_undo_save h UndoType.UNDO_REMOVE_BLOCK s.cur.pt
    (([x] : List Char).length : Int) 0
  have hl1 := lines_of_eq hl b2
  generalize undo_save s UndoType.UNDO_REMOVE_BLOCK s.cur.pt (([x] : List Char).length : Int) 0
    = s1 at b1 b2 b3 hl1 ⊢
  obtain ⟨c1, c2, c3⟩ := focus_set_undo_nosave b1 true
  have hl2 := lines_of_eq hl1 c2
  generalize set_undo_nosave s1 true = s2 at c1 c2 c3 hl2 ⊢
  have e : insert_string_loop [x] s2 = (insert_char s2 x).1 := by
    simp [insert_string_loop, hx]
  rw [e]
  obtain ⟨d1, d2, d3⟩ := focus_insert_char c1 hl2 x
  generalize (insert_char s2 x).1 = s3 at d1 d2 d3 ⊢
  obtain ⟨e1, e2, e3⟩ := focus_set_undo_nosave d1 false
  exact ⟨e1, lines_of_eq d2 e2, fun m k hm => e3 _ _ (d3 _ _ (c3 _ _ (b3 _ _ hm)))⟩

theorem focus_transpose_subr_put {s0 s : State} {p : LinePtr} {n o : Nat} {pt : Point}
    {K : MarkerPtr} {act : Bool} {txt : List Char} (h : Focus s0 s pt K act)
    (hl : Lines s0 s p txt) (m0 : MarkerPtr) (k0 : Marker) (h0 : Mk s m0 k0)
    (hk0 : k0.pt = ⟨p, n, o⟩) (x : Char) (hx : x ≠ '\n') :
    Focus s0 (transpose_subr_put s m0 [x]) ⟨p, n, o + 1⟩ K act ∧
    Lines s0 (transpose_subr_put s m0 [x]) p (txt.take o ++ x :: txt.drop o) ∧
    (∀ m k, Mk s m k →
      Mk (transpose_subr_put s m0 [x]) m { k with pt := insert_char_shift ⟨p, n, o⟩ k }) := by
  unfold transpose_subr_put
  simp only [List.length_singleton, gt_iff_lt, Nat.lt_one_iff, Nat.zero_lt_one, if_true]
  have e : get_marker_pt s m0 = ⟨p, n, o⟩ := by unfold get_marker_pt; rw [h0.2, hk0]
  rw [e]
  obtain ⟨a1, a2, a3⟩ := focus_setPt h ⟨p, n, o⟩
  have e2 : goto_point s ⟨p, n, o⟩ = s.setPt ⟨p, n, o⟩ := rfl
  rw [e2]
  have hl1 := lines_of_eq hl a2
  generalize s.setPt ⟨p, n, o⟩ = s1 at a1 a2 a3 hl1 ⊢
  obtain ⟨b1, b2, b3⟩ := focus_insert_string_one a1 hl1 x hx
  exact ⟨b1, b2, fun m k hm => b3 _ _ (a3 _ _ hm)⟩

/-! ## Movements inside a line -/

theorem F_forward_char_one {s0 s : State} {p : LinePtr} {n o : Nat} {K : MarkerPtr}
    {act : Bool} {txt : List Char} (h : Focus s0 s ⟨p, n, o⟩ K act) (hl : Lines s0 s p txt)
    (ho : o < txt.length) : F_forward_char s 1 = (s.setPt ⟨p, n, o + 1⟩, true) := by
  have hpt : s.cur.pt = ⟨p, n, o⟩ := h.2.2.2.1
  have hin : s.cur.pt.o < line_len s s.cur.pt.p := by
    rw [hpt]; unfold line_len; rw [lines_text hl]; exact ho
  have e := move_char_forward_inline s hin
  rw [hpt] at e
  simp [F_forward_char, forward_char_loop, forward_char, e]

theorem F_forward_char_back {s0 s : State} {p : LinePtr} {n o : Nat} {K : MarkerPtr}
    {act : Bool} (h : Focus s0 s ⟨p, n, o + 1⟩ K act) :
    F_forward_char s (-1) = (s.setPt ⟨p, n, o⟩, true) := by
  have hpt : s.cur.pt = ⟨p, n, o + 1⟩ := h.2.2.2.1
  have e := move_char_backward_inline s (by rw [hpt]; exact Nat.succ_pos _)
  rw [hpt] at e
  simp [F_forward_char, backward_char_loop, backward_char, e]

theorem F_forward_char_two {s0 s : State} {p : LinePtr} {n o : Nat} {K : MarkerPtr}
    {act : Bool} {txt : List Char} (h : Focus s0 s ⟨p, n, o⟩ K act) (hl : Lines s0 s p txt)
    (ho : o + 1 < txt.length) : F_forward_char s 2 = (s.setPt ⟨p, n, o + 2⟩, true) := by
  have hpt : s.cur.pt = ⟨p, n, o⟩ := h.2.2.2.1
  have hin : s.cur.pt.o < line_len s s.cur.pt.p := by
    rw [hpt]; unfold line_len; rw [lines_text hl]
    exact Nat.lt_of_succ_lt ho
  have e := move_char_forward_inline s hin
  rw [hpt] at e
  obtain ⟨a1, a2, _⟩ := focus_setPt h ⟨p, n, o + 1⟩
  have hpt2 : (s.setPt ⟨p, n, o + 1⟩).cur.pt = ⟨p, n, o + 1⟩ := a1.2.2.2.1
  have hin2 : (s.setPt ⟨p, n, o + 1⟩).cur.pt.o <
      line_len (s.setPt ⟨p, n, o + 1⟩) (s.setPt ⟨p, n, o + 1⟩).cur.pt.p := by
    rw [hpt2]; unfold line_len; rw [lines_text (lines_of_eq hl a2)]; exact ho
  have e2 := move_char_forward_inline _ hin2
  rw [hpt2, setPt_setPt] at e2
  simp [F_forward_char, forward_char_loop, forward_char, e, e2]

/-! ## Steps that leave point alone -/

theorem pointKept_refl (s : State) : PointKept s s := ⟨rfl, rfl⟩

theorem pointKept_trans {s t u : State} (h1 : PointKept s t) (h2 : PointKept t u) :
    PointKept s u := ⟨h2.1.trans h1.1, h2.2.trans h1.2⟩

theorem pointKept_setBuf {s : State} {bp : BufPtr} {b : Buffer}
    (h : b.pt = (s.bufAt bp).pt) : PointKept s (s.setBuf bp b) := by
  refine ⟨rfl, ?_⟩
  rw [cur_setBuf]
  split
  · next e => subst e; exact h
  · rfl

theorem pointKept_of_bufAt {s t : State} (h1 : t.bufAt = s.bufAt) (h2 : t.cur_bp = s.cur_bp) :
    PointKept s t := ⟨h2, by simp [State.cur, h1, h2]⟩

theorem pointKept_marker_new_at (s : State) (bp : BufPtr) (pt : Point) (ty : Bool) :
    PointKept s (marker_new_at s bp pt ty).1 := by
  obtain ⟨M, hM, _⟩ := marker_new_at_cur_any s bp pt ty
  exact ⟨rfl, by rw [hM]⟩

theorem pointKept_unchain_marker (s : State) (m : MarkerPtr) :
    PointKept s (unchain_marker s m) := by
  unfold unchain_marker
  simp only []
  split
  · exact pointKept_refl s
  · refine pointKept_trans (@pointKept_setBuf s (s.markerAt m).bp
      { s.bufAt (s.markerAt m).bp with
        markers := (s.bufAt (s.markerAt m).bp).markers.erase m } rfl) ?_
    exact pointKept_of_bufAt rfl rfl

theorem pointKept_set_buffer_mark (s : State) (bp : BufPtr) (m : MarkerPtr) :
    PointKept s (set_buffer_mark s bp m) := pointKept_setBuf rfl

theorem pointKept_mark_ring_betail (s : State) : PointKept s (mark_ring_betail s) :=
  pointKept_of_bufAt rfl rfl

theorem pointKept_pop_mark (s : State) : PointKept s (pop_mark s) := by
  unfold pop_mark
  cases s.mark_ring.getLast? with
  | none => exact pointKept_refl s
  | some m =>
    simp only []
    refine pointKept_trans ?_ (pointKept_unchain_marker _ _)
    refine pointKept_trans ?_ (pointKept_mark_ring_betail _)
    have h1 : PointKept s (if (s.bufAt (s.markerAt m).bp).mark ≠ NULL then
        free_marker s (s.bufAt (s.markerAt m).bp).mark else s) := by
      split
      · exact pointKept_unchain_marker s _
      · exact pointKept_refl s
    generalize (if (s.bufAt (s.markerAt m).bp).mark ≠ NULL then
        free_marker s (s.bufAt (s.markerAt m).bp).mark else s) = s1 at h1 ⊢
    refine pointKept_trans h1 ?_
    split
    · exact pointKept_trans (pointKept_marker_new_at s1 _ _ _) (pointKept_set_buffer_mark _ _ _)
    · exact pointKept_set_buffer_mark _ _ _

theorem pointKept_undo_save (s : State) (ty : UndoType) (pt : Point) (a1 a2 : Int) :
    PointKept s (undo_save s ty pt a1 a2) :=
  ⟨undo_save_cur_bp _ _ _ _ _, by rw [undo_save_cur]⟩

/-- The end of `transpose_subr` behind the two insertions: the lines and point stay. -/
theorem transpose_subr_close_keeps (s : State) (p0 p1 p2 : MarkerPtr) :
    Unedited (undo_save s UndoType.UNDO_END_SEQUENCE s.cur.pt 0 0)
      (free_marker (free_marker (free_marker (deactivate_mark (pop_mark
        (undo_save s UndoType.UNDO_END_SEQUENCE s.cur.pt 0 0))) p0) p1) p2) ∧
    PointKept s (free_marker (free_marker (free_marker (deactivate_mark (pop_mark
      (undo_save s UndoType.UNDO_END_SEQUENCE s.cur.pt 0 0))) p0) p1) p2) := by
  refine ⟨?_, ?_⟩
  · refine unedited_trans ?_ (unedited_free_marker _ _)
    refine unedited_trans ?_ (unedited_free_marker _ _)
    refine unedited_trans ?_ (unedited_free_marker _ _)
    exact unedited_trans (unedited_pop_mark _) (unedited_deactivate_mark _)
  · refine pointKept_trans ?_ (pointKept_unchain_marker _ _)
    refine pointKept_trans ?_ (pointKept_unchain_marker _ _)
    refine pointKept_trans ?_ (pointKept_unchain_marker _ _)
    refine pointKept_trans ?_ (pointKept_setBuf rfl)
    exact pointKept_trans (pointKept_undo_save _ _ _ _ _) (pointKept_pop_mark _)

theorem call_F_forward_char (fuel : Nat) (s : State) (u : Int) :
    Motion.F_forward_char.call fuel s u = some (F_forward_char s u) := rfl

theorem insert_char_shift_typed (p : LinePtr) (n c : Nat) (k : Marker)
    (hk : k.pt = ⟨p, n, c⟩) (ht : k.type = true) :
    insert_char_shift ⟨p, n, c⟩ k = ⟨p, n, c + 1⟩ := by
  simp [insert_char_shift, hk, ht]

theorem insert_char_shift_untyped (p : LinePtr) (n c : Nat) (k : Marker)
    (hk : k.pt = ⟨p, n, c⟩) (ht : k.type = false) :
    insert_char_shift ⟨p, n, c⟩ k = ⟨p, n, c⟩ := by
  simp [insert_char_shift, hk, ht]

/-- The end of the transposition of two characters: both are put back, the second one
first. -/
theorem focus_transpose_subr_insert {s0 s : State} {p : LinePtr} {n c : Nat} {K : MarkerPtr}
    {txt : List Char} (h : Focus s0 s ⟨p, n, c⟩ K false) (hl : Lines s0 s p txt)
    (p0 p1 p2 : MarkerPtr) (k1 k2 : Marker) (h1 : Mk s p1 k1) (h2 : Mk s p2 k2)
    (hne : p1 ≠ p2) (hk1 : k1.pt = ⟨p, n, c⟩) (hk2 : k2.pt = ⟨p, n, c⟩)
    (x y : Char) (hx : x ≠ '\n') (hy : y ≠ '\n') :
    Lines s0 (transpose_subr_insert s p0 p1 p2 [x] (some [y])) p
      ((txt.take c ++ y :: txt.drop c).take (c + 1) ++
        x :: (txt.take c ++ y :: txt.drop c).drop (c + 1)) ∧
    (transpose_subr_insert s p0 p1 p2 [x] (some [y])).cur.pt = ⟨p, n, c + 2⟩ ∧
    (transpose_subr_insert s p0 p1 p2 [x] (some [y])).cur_bp = s0.cur_bp ∧
    (transpose_subr_insert s p0 p1 p2 [x] (some [y])).cur.lines = s0.cur.lines ∧
    (transpose_subr_insert s p0 p1 p2 [x] (some [y])).cur.limitp = s0.cur.limitp := by
  unfold transpose_subr_insert
  simp only []
  obtain ⟨a1, a2, a3, a4⟩ := focus_set_marker_insertion_type h p2 k2 h2 true
  have al := lines_of_eq hl a2
  have a5 := a4 p1 k1 h1 hne
  generalize set_marker_insertion_type s p2 true = s1 at a1 a2 a3 a4 a5 al ⊢
  obtain ⟨b1, b2, b3⟩ := focus_transpose_subr_put a1 al p1 k1 a5 hk1 y hy
  have b4 := b3 p2 _ a3
  rw [insert_char_shift_typed p n c { bp := k2.bp, pt := k2.pt, type := true } hk2 rfl] at b4
  generalize transpose_subr_put s1 p1 [y] = s2 at b1 b2 b3 b4 ⊢
  obtain ⟨c1, c2, _⟩ := focus_transpose_subr_put b1 b2 p2 _ b4 rfl x hx
  generalize transpose_subr_put s2 p2 [x] = s4 at c1 c2 ⊢
  obtain ⟨d1, d2⟩ := transpose_subr_close_keeps s4 p0 p1 p2
  obtain ⟨e1, e2, e3⟩ := focus_undo_save c1 UndoType.UNDO_END_SEQUENCE s4.cur.pt 0 0
  refine ⟨lines_of_eq c2 (d1.1.trans e2), ?_, ?_, ?_, ?_⟩
  · rw [d2.2]; exact c1.2.2.2.1
  · rw [d2.1]; exact c1.1
  · rw [d1.2.2.2.2.2.1]; exact e1.2.1
  · rw [d1.2.2.2.2.2.2]; exact e1.2.2.1

/-- The middle of the transposition of two characters: the second character is taken out. -/
theorem focus_transpose_subr_second (fuel : Nat) {s0 s : State} {p : LinePtr} {n c : Nat}
    {K : MarkerPtr} {txt : List Char} (h : Focus s0 s ⟨p, n, c⟩ K false)
    (hl : Lines s0 s p txt) (hK : K ≠ NULL) (kK : Marker) (hk : Mk s K kK)
    (hkb : kK.bp = s.cur_bp) (y : Char) (hy : txt[c]? = some y) (hf : 1 ≤ fuel) :
    ∃ t p2 k2, transpose_subr_second fuel Motion.F_forward_char s = some (t, p2, some [y]) ∧
      Focus s0 t ⟨p, n, c⟩ K false ∧ Lines s0 t p (txt.eraseIdx c) ∧ Mk t p2 k2 ∧
      k2.pt = ⟨p, n, c⟩ ∧
      (∀ m k, Mk s m k → m ≠ K →
        Mk t m { k with pt := delete_char_shift ⟨p, n, c⟩ k } ∧ m ≠ p2) := by
  obtain ⟨hc, _⟩ := List.getElem?_eq_some_iff.mp hy
  unfold transpose_subr_second
  rw [call_F_forward_char, F_forward_char_one h hl hc]
  simp only [Option.some_bind, reduceCtorEq, if_false]
  obtain ⟨a1, a2, a3⟩ := focus_setPt h ⟨p, n, c + 1⟩
  have al := lines_of_eq hl a2
  have ak := a3 K kK hk
  have ab : (s.setPt ⟨p, n, c + 1⟩).cur_bp = s.cur_bp := rfl
  generalize s.setPt ⟨p, n, c + 1⟩ = s1 at a1 a2 a3 al ak ab ⊢
  obtain ⟨K2, ty, _, b2, b3, b4, b5, b6⟩ := focus_set_mark a1
    (fun _ => ⟨kK, ak, by rw [ab]; exact hkb⟩)
  have eK : K2 = K := b2 hK
  subst eK
  have bl := lines_of_eq al b4
  have bb : (set_mark s1).cur_bp = s.cur_bp := b3.1.trans (h.1.symm)
  rw [ab] at b5
  generalize set_mark s1 = s2 at b3 b4 b5 b6 bl bb ⊢
  rw [call_F_forward_char, F_forward_char_back b3]
  simp only [Option.some_bind]
  obtain ⟨c1, c2, c3⟩ := focus_setPt b3 ⟨p, n, c⟩
  have cl := lines_of_eq bl c2
  have cb : (s2.setPt ⟨p, n, c⟩).cur_bp = s.cur_bp := bb
  generalize s2.setPt ⟨p, n, c⟩ = s3 at c1 c2 c3 cl cb ⊢
  obtain ⟨d1, d2, d3, d4⟩ := focus_point_marker c1
  have dl := lines_of_eq cl d2
  have dk := (d4 K2 _ (c3 _ _ b5)).1
  rw [point_marker_snd]
  generalize hp2 : s3.fresh_marker = p2 at d3 d4
  generalize (point_marker s3).1 = s4 at d1 d2 d3 d4 dl dk ⊢
  have hm4 : s4.cur.mark = K2 := d1.2.2.2.2.1
  have e1 := astr_append_region_adjacent fuel s4 p n c y (by rw [hm4]; exact hK)
    (Or.inl ⟨d1.2.2.2.1, by rw [hm4, dk.2]⟩) (by rw [lines_text dl]; exact hy) hf
  rw [e1]
  simp only [Option.some_bind]
  obtain ⟨f1, f2, f3⟩ := focus_activate_mark d1
  have fl := lines_of_eq dl f2
  generalize activate_mark s4 = s5 at f1 f2 f3 fl ⊢
  obtain ⟨t, g1, g2, g3, g4, g5⟩ := F_delete_region_adjacent fuel ⟨p, n, c⟩ f1 hK _
    (f3 _ _ dk) fl hc (Or.inl ⟨rfl, rfl⟩) hf
  rw [g1]
  simp only [Option.map_some']
  have hp2K : p2 ≠ K2 := fun e => (d4 K2 _ (c3 _ _ b5)).2 e.symm
  have g6 := g5 p2 _ (f3 _ _ d3) hp2K
  refine ⟨t, p2, _, rfl, g2, g3, g6, ?_, ?_⟩
  · exact delete_char_shift_same p n c _ rfl
  · intro m k hmk hne
    have m2 := (b6 m k (a3 m k hmk) hne).1
    have m4 := d4 m k (c3 m k m2)
    exact ⟨g5 m k (f3 m k m4.1) hne, m4.2⟩

theorem swap_text (txt : List Char) (c : Nat) (x y : Char) (hy : txt[c + 1]? = some y) :
    ((((txt.eraseIdx c).eraseIdx c).take c ++ y :: ((txt.eraseIdx c).eraseIdx c).drop c).take
        (c + 1) ++
      x :: (((txt.eraseIdx c).eraseIdx c).take c ++
        y :: ((txt.eraseIdx c).eraseIdx c).drop c).drop (c + 1)) =
    txt.take c ++ y :: x :: txt.drop (c + 2) := by
  obtain ⟨hc, _⟩ := List.getElem?_eq_some_iff.mp hy
  have e1 : (txt.eraseIdx c).eraseIdx c = txt.take c ++ txt.drop (c + 2) := by
    rw [List.eraseIdx_eq_take_drop_succ, List.eraseIdx_eq_take_drop_succ]
    have hl : (txt.take c).length = c := by rw [List.length_take]; omega
    rw [List.take_append_eq_append_take, List.drop_append_eq_append_drop, hl]
    simp [List.take_take, List.drop_drop]
  have hl : (txt.take c).length = c := by rw [List.length_take]; omega
  rw [e1]
  have e2 : (txt.take c ++ txt.drop (c + 2)).take c = txt.take c := by
    rw [List.take_append_eq_append_take, hl]; simp [List.take_take]
  have e3 : (txt.take c ++ txt.drop (c + 2)).drop c = txt.drop (c + 2) := by
    rw [List.drop_append_eq_append_drop, hl]
    simp
  rw [e2, e3]
  have e4 : (txt.take c ++ y :: txt.drop (c + 2)).take (c + 1) = txt.take c ++ [y] := by
    rw [List.take_append_eq_append_take, hl]
    simp [List.take_of_length_le, hl]
  have e5 : (txt.take c ++ y :: txt.drop (c + 2)).drop (c + 1) = txt.drop (c + 2) := by
    rw [List.drop_append_eq_append_drop, hl]
    simp
  rw [e4, e5]
  simp

/-- The transposition of two characters from `goto_point (p1->pt)` on. -/
theorem focus_transpose_subr_swap (fuel : Nat) {s0 s : State} {p : LinePtr} {n c : Nat}
    {pt0 : Point} {K : MarkerPtr} {act : Bool} {txt : List Char}
    (h : Focus s0 s pt0 K act) (hl : Lines s0 s p txt) (hK : K ≠ NULL) (kK : Marker)
    (hk : Mk s K kK) (hkb : kK.bp = s.cur_bp) (hkp : kK.pt = ⟨p, n, c⟩)
    (p0 p1 : MarkerPtr) (k1 : Marker) (h1 : Mk s p1 k1) (hk1 : k1.pt = ⟨p, n, c⟩)
    (h1K : p1 ≠ K) (x y : Char) (hx : txt[c]? = some x) (hy : txt[c + 1]? = some y)
    (hxn : x ≠ '\n') (hyn : y ≠ '\n') (hf : 1 ≤ fuel) :
    ∃ t, transpose_subr_swap fuel Motion.F_forward_char s p0 p1 false = some (t, true) ∧
      Lines s0 t p (txt.take c ++ y :: x :: txt.drop (c + 2)) ∧
      t.cur.pt = ⟨p, n, c + 2⟩ ∧ t.cur_bp = s0.cur_bp ∧ t.cur.lines = s0.cur.lines ∧
      t.cur.limitp = s0.cur.limitp := by
  obtain ⟨hc, _⟩ := List.getElem?_eq_some_iff.mp hx
  obtain ⟨hc1, _⟩ := List.getElem?_eq_some_iff.mp hy
  unfold transpose_subr_swap
  have e0 : goto_point s (get_marker_pt s p1) = s.setPt ⟨p, n, c⟩ := by
    unfold goto_point get_marker_pt; rw [h1.2, hk1]
  rw [e0]
  obtain ⟨a1, a2, a3⟩ := focus_setPt h ⟨p, n, c⟩
  have al := lines_of_eq hl a2
  have ab : (s.setPt ⟨p, n, c⟩).cur_bp = s.cur_bp := rfl
  have ak := a3 K kK hk
  have a1p := a3 p1 k1 h1
  generalize s.setPt ⟨p, n, c⟩ = s1 at a1 a2 a3 al ab ak a1p ⊢
  rw [call_F_forward_char, F_forward_char_one a1 al hc]
  simp only [Option.some_bind]
  obtain ⟨b1, b2, b3⟩ := focus_setPt a1 ⟨p, n, c + 1⟩
  have bl := lines_of_eq al b2
  have bb : (s1.setPt ⟨p, n, c + 1⟩).cur_bp = s.cur_bp := ab
  have bk := b3 K kK ak
  have b1p := b3 p1 k1 a1p
  generalize s1.setPt ⟨p, n, c + 1⟩ = s2 at b1 b2 b3 bl bb bk b1p ⊢
  have hm2 : s2.cur.mark = K := b1.2.2.2.2.1
  have e1 := astr_append_region_adjacent fuel s2 p n c x (by rw [hm2]; exact hK)
    (Or.inr ⟨b1.2.2.2.1, by rw [hm2, bk.2]; exact hkp⟩) (by rw [lines_text bl]; exact hx) hf
  rw [e1]
  simp only [Option.some_bind, Bool.not_false, if_true]
  obtain ⟨c1, c2, c3⟩ := focus_activate_mark b1
  have cl := lines_of_eq bl c2
  have cb : (activate_mark s2).cur_bp = s.cur_bp := bb
  have ck := c3 K kK bk
  have c1p := c3 p1 k1 b1p
  generalize activate_mark s2 = s3 at c1 c2 c3 cl cb ck c1p ⊢
  obtain ⟨d1, d2, d3⟩ := focus_undo_save c1 UndoType.UNDO_START_SEQUENCE
    (get_marker_pt s3 p0) 0 0
  have dl := lines_of_eq cl d2
  have db : (undo_save s3 UndoType.UNDO_START_SEQUENCE (get_marker_pt s3 p0) 0 0).cur_bp
      = s.cur_bp := (undo_save_cur_bp _ _ _ _ _).trans cb
  have dk := d3 K kK ck
  have d1p := d3 p1 k1 c1p
  generalize undo_save s3 UndoType.UNDO_START_SEQUENCE (get_marker_pt s3 p0) 0 0 = s4
    at d1 d2 d3 dl db dk d1p ⊢
  obtain ⟨t1, g1, g2, g3, g4, g5⟩ := F_delete_region_adjacent fuel ⟨p, n, c + 1⟩ d1 hK kK dk dl
    hc (Or.inr ⟨rfl, hkp⟩) hf
  rw [g1]
  simp only [Option.some_bind]
  have g1p := g5 p1 k1 d1p h1K
  rw [delete_char_shift_same p n c k1 hk1] at g1p
  have gb : t1.cur_bp = s.cur_bp := g2.1.trans h.1.symm
  have hy1 : (txt.eraseIdx c)[c]? = some y := by
    rw [List.getElem?_eraseIdx, if_neg (Nat.lt_irrefl c)]; exact hy
  obtain ⟨t2, p2, k2, q1, q2, q3, q4, q5, q6⟩ := focus_transpose_subr_second fuel g2 g3 hK
    _ g4 (by rw [gb]; exact hkb) y hy1 hf
  rw [q1]
  simp only [Option.map_some']
  obtain ⟨r1, r2⟩ := q6 p1 _ g1p h1K
  rw [delete_char_shift_same p n c _ rfl] at r1
  obtain ⟨u1, u2, u3, u4, u5⟩ := focus_transpose_subr_insert q2 q3 p0 p1 p2 _ k2 r1 q4 r2
    rfl q5 x y hxn hyn
  rw [swap_text txt c x y hy] at u1
  exact ⟨_, rfl, u1, u2, u3, u4, u5⟩

/-- The transposition of the two characters before the offset `c + 2` of the line of
point, for point at `c + 1` or at the end `c + 2` of the line. -/
theorem transpose_subr_chars (fuel : Nat) (s : State) (p : LinePtr) (n o c : Nat)
    (x y : Char) (hro : s.cur.readonly = false) (hfm : 0 < s.fresh_marker)
    (hfresh : ∀ m ∈ s.cur.markers, m < s.fresh_marker)
    (hmark : s.cur.mark ≠ NULL →
      s.cur.mark ∈ s.cur.markers ∧ (s.markerAt s.cur.mark).bp = s.cur_bp)
    (hpt : s.cur.pt = ⟨p, n, o⟩)
    (hx : (s.lineAt p).text[c]? = some x) (hy : (s.lineAt p).text[c + 1]? = some y)
    (hxn : x ≠ '\n') (hyn : y ≠ '\n')
    (ho : o = c + 1 ∨ (o = c + 2 ∧ (s.lineAt p).text.length = c + 2)) (hf : 1 ≤ fuel) :
    ∃ t, transpose_subr fuel Motion.F_forward_char s = some (t, true) ∧
      Lines s t p ((s.lineAt p).text.take c ++ y :: x :: (s.lineAt p).text.drop (c + 2)) ∧
      t.cur.pt = ⟨p, n, c + 2⟩ ∧ t.cur_bp = s.cur_bp ∧ t.cur.lines = s.cur.lines ∧
      t.cur.limitp = s.cur.limitp := by
  obtain ⟨hc1, _⟩ := List.getElem?_eq_some_iff.mp hy
  have h : Focus s s ⟨p, n, o⟩ s.cur.mark s.cur.mark_active :=
    ⟨rfl, rfl, rfl, hpt, rfl, rfl, hro, hfm, hfresh⟩
  have hl := lines_self s p
  have hK0 : s.cur.mark ≠ NULL → ∃ k, Mk s s.cur.mark k ∧ k.bp = s.cur_bp :=
    fun hk => ⟨_, ⟨(hmark hk).1, rfl⟩, (hmark hk).2⟩
  generalize s.cur.mark = K0 at h hK0
  generalize s.cur.mark_active = act at h
  generalize (s.lineAt p).text = txt at hl hx hy hc1 ho ⊢
  unfold transpose_subr
  obtain ⟨a1, a2, _, a4⟩ := focus_point_marker h
  have al := lines_of_eq hl a2
  have ab : (point_marker s).1.cur_bp = s.cur_bp := rfl
  have aK : K0 ≠ NULL → ∃ k, Mk (point_marker s).1 K0 k ∧ k.bp = s.cur_bp :=
    fun hk => let ⟨k, k1, k2⟩ := hK0 hk; ⟨k, (a4 K0 k k1).1, k2⟩
  rw [point_marker_snd]
  generalize (point_marker s).1 = s1 at a1 a2 a4 al ab aK ⊢
  -- the adjustment at the end of the line
  have hadj : ∃ s2, transpose_subr_adjust fuel Motion.F_forward_char s1 = some s2 ∧
      Focus s s2 ⟨p, n, c + 1⟩ K0 act ∧ Lines s s2 p txt ∧ s2.cur_bp = s.cur_bp ∧
      (K0 ≠ NULL → ∃ k, Mk s2 K0 k ∧ k.bp = s.cur_bp) := by
    unfold transpose_subr_adjust
    rw [if_pos rfl]
    have hpt1 : s1.cur.pt = ⟨p, n, o⟩ := a1.2.2.2.1
    rcases ho with e | ⟨e, e2⟩
    · subst e
      have he : eolp s1 = false := by
        simp only [eolp, decide_eq_false_iff_not]
        rw [hpt1, lines_text al]
        exact Nat.ne_of_lt hc1
      rw [he]
      exact ⟨s1, rfl, a1, al, ab, aK⟩
    · subst e
      have he : eolp s1 = true := by
        simp only [eolp, decide_eq_true_eq]
        rw [hpt1, lines_text al]
        exact e2.symm
      rw [he, call_F_forward_char, F_forward_char_back a1]
      obtain ⟨b1, b2, b3⟩ := focus_setPt a1 ⟨p, n, c + 1⟩
      refine ⟨_, rfl, b1, lines_of_eq al b2, ab, ?_⟩
      intro hk
      obtain ⟨k, k1, k2⟩ := aK hk
      exact ⟨k, b3 K0 k k1, k2⟩
  obtain ⟨s2, e2, b1, bl, bb, bK⟩ := hadj
  rw [e2]
  simp only [Option.some_bind]
  rw [call_F_forward_char, F_forward_char_back b1]
  simp only [Option.some_bind, Bool.not_true, Bool.false_eq_true, if_false]
  obtain ⟨c1, c2, c3⟩ := focus_setPt b1 ⟨p, n, c⟩
  have cl := lines_of_eq bl c2
  have cb : (s2.setPt ⟨p, n, c⟩).cur_bp = s.cur_bp := bb
  have cK : K0 ≠ NULL → ∃ k, Mk (s2.setPt ⟨p, n, c⟩) K0 k ∧ k.bp = s.cur_bp :=
    fun hk => let ⟨k, k1, k2⟩ := bK hk; ⟨k, c3 K0 k k1, k2⟩
  generalize s2.setPt ⟨p, n, c⟩ = s3 at c1 c2 c3 cl cb cK ⊢
  obtain ⟨d1, d2, d3⟩ := focus_push_mark c1
  have dl := lines_of_eq cl d2
  have db : (push_mark s3).cur_bp = s.cur_bp := d1.1
  have dK : K0 ≠ NULL → ∃ k, Mk (push_mark s3) K0 k ∧ k.bp = (push_mark s3).cur_bp :=
    fun hk => let ⟨k, k1, k2⟩ := cK hk; ⟨k, d3 K0 k k1, by rw [db]; exact k2⟩
  generalize push_mark s3 = s4 at d1 d2 d3 dl db dK ⊢
  obtain ⟨K, ty, f1, _, f3, f4, f5, _⟩ := focus_set_mark d1 dK
  have fl := lines_of_eq dl f4
  have fb : (set_mark s4).cur_bp = s.cur_bp := f3.1
  rw [db] at f5
  generalize set_mark s4 = s5 at f3 f4 f5 fl fb ⊢
  obtain ⟨g1, g2, g3, g4⟩ := focus_point_marker f3
  have gl := lines_of_eq fl g2
  have gb : (point_marker s5).1.cur_bp = s.cur_bp := fb
  have gK := g4 K _ f5
  rw [fb] at g3
  rw [point_marker_snd]
  generalize s5.fresh_marker = p1 at g3 g4 gK
  generalize (point_marker s5).1 = s6 at g1 g2 g3 gl gb gK ⊢
  rw [call_F_forward_char, F_forward_char_two g1 gl hc1]
  simp only [Option.some_bind, Bool.not_true, Bool.false_eq_true, if_false]
  obtain ⟨i1, i2, i3⟩ := focus_setPt g1 ⟨p, n, c + 2⟩
  have il := lines_of_eq gl i2
  have ib : (s6.setPt ⟨p, n, c + 2⟩).cur_bp = s.cur_bp := gb
  exact focus_transpose_subr_swap fuel i1 il f1 _ (i3 _ _ gK.1) (by rw [ib]) rfl
    s.fresh_marker p1 _ (i3 _ _ g3) rfl (fun e => gK.2 e.symm) x y hx hy hxn hyn hf

/-- C20: `transpose-chars` on a writable buffer without a universal argument exchanges the
two characters around point and returns `TRUE`. With `c + 1` the offset of point inside a
line (so `0 < c + 1 < length`), the characters `x` at `c` and `y` at `c + 1` change places,
every other character of the line and every other line stay, and point ends at `c + 2`;
with point at the end `c + 2` of a line of length `c + 2` the last two characters change
places and point ends at the end of the line. The markers of the buffer are below the next
address of the allocator, which is not `NULL`, the mark (if set) is a marker of the buffer,
and neither character is a line break. -/
theorem transpose_chars_exchanges (fuel : Nat) (s : State) (p : LinePtr) (n o c : Nat)
    (x y : Char) (hro : s.cur.readonly = false) (huni : s.lastflag.set_uniarg = false)
    (hfm : 0 < s.fresh_marker)
    (hfresh : ∀ m ∈ s.cur.markers, m < s.fresh_marker)
    (hmark : s.cur.mark ≠ NULL →
      s.cur.mark ∈ s.cur.markers ∧ (s.markerAt s.cur.mark).bp = s.cur_bp)
    (hpt : s.cur.pt = ⟨p, n, o⟩)
    (hx : (s.lineAt p).text[c]? = some x) (hy : (s.lineAt p).text[c + 1]? = some y)
    (hxn : x ≠ '\n') (hyn : y ≠ '\n')
    (ho : o = c + 1 ∨ (o = c + 2 ∧ (s.lineAt p).text.length = c + 2)) (hf : 1 ≤ fuel) :
    ∃ t, F_transpose_chars fuel s = some (t, true) ∧
      (t.lineAt p).text =
        (s.lineAt p).text.take c ++ y :: x :: (s.lineAt p).text.drop (c + 2) ∧
      (t.lineAt p).prev = (s.lineAt p).prev ∧ (t.lineAt p).next = (s.lineAt p).next ∧
      (∀ q, q ≠ p → t.lineAt q = s.lineAt q) ∧
      t.cur.pt = ⟨p, n, c + 2⟩ ∧ t.cur_bp = s.cur_bp ∧ t.cur.lines = s.cur.lines ∧
      t.cur.limitp = s.cur.limitp := by
  obtain ⟨t, h1, h2, h3, h4, h5, h6⟩ := transpose_subr_chars fuel s p n o c x y hro hfm hfresh
    hmark hpt hx hy hxn hyn ho hf
  refine ⟨t, ?_, lines_text h2, ?_, ?_, ?_, h3, h4, h5, h6⟩
  · unfold F_transpose_chars transpose_command
    simp only [warn_if_readonly_buffer, hro, huni, Bool.false_eq_true, if_false,
      Bool.not_false, if_true]
    exact h1
  · rw [h2 p]; simp
  · rw [h2 p]; simp
  · intro q hq
    rw [h2 q, if_neg hq]

theorem transpose_chars_exchanges_witness :
    ∃ t, F_transpose_chars 1 exLine = some (t, true) ∧
      (t.lineAt 10).text = ['a', 'c', 'b', 'd'] ∧ t.cur.pt = ⟨10, 0, 3⟩ :=
  let ⟨t, h1, h2, _, _, _, h6, _⟩ := transpose_chars_exchanges 1 exLine 10 0 2 1 'b' 'c'
    rfl rfl (by decide) (by decide) (by decide) rfl rfl rfl (by decide) (by decide)
    (Or.inl rfl) (Nat.le_refl 1)
  ⟨t, h1, h2, h6⟩

/-- The same at the end of the line: with point behind `d` the characters `c` and `d`
change places and point stays at the end. -/
theorem transpose_chars_at_end_example :
    ∃ t, transpose_subr 1 Motion.F_forward_char (exLine.setPt ⟨10, 0, 4⟩) = some (t, true) ∧
      (t.lineAt 10).text = ['a', 'b', 'd', 'c'] ∧ t.cur.pt = ⟨10, 0, 4⟩ :=
  let ⟨t, h1, h2, h3, _⟩ := transpose_subr_chars 1 (exLine.setPt ⟨10, 0, 4⟩) 10 0 4 2
    'c' 'd' rfl (by decide) (by decide) (by decide) rfl rfl rfl (by decide) (by decide)
    (Or.inr ⟨rfl, rfl⟩) (Nat.le_refl 1)
  ⟨t, h1, lines_text h2, h3⟩

/-! ## The column of an offset -/

/-- C21: the column that `edit_tab_line` computes is not the tab-expanded column for every
tab width: with the tab width 3, the line `a`, tab and the offset 2, the code computes the
column 4 (the bits of `tab_width - 1` are set in the column, which gives the next tab stop
only for a power of two), whereas the tab expands to the column 3; with the tab width 8 the
same line gives the column 8 both ways. -/
theorem edit_tab_line_col_not_tab_stop :
    edit_tab_line_col 3 ['a', '\t'] 2 = 4 ∧ tab_expanded_col 3 ['a', '\t'] 2 = 3 ∧
    edit_tab_line_col 8 ['a', '\t'] 2 = 8 ∧ tab_expanded_col 8 ['a', '\t'] 2 = 8 := by
  decide

/-! ## forward-line with the argument 0 -/

theorem F_forward_line_zero (s : State) : F_forward_line s 0 = F_forward_line s 1 := rfl

/-- C29: `forward-line` with the argument 0 does not leave point on its line: the command
replaces the argument 0 by 1. In the example buffer (lines 0, 1, 2; point on line 1) it
returns `TRUE` with point at the start of line 2, and with point on the last line 2 it
returns `FALSE`. -/
theorem forward_line_zero_moves_down :
    exState.cur.pt = ⟨11, 1, 0⟩ ∧
    (F_forward_line exState 0).2 = true ∧ (F_forward_line exState 0).1.cur.pt = ⟨12, 2, 0⟩ ∧
    (F_forward_line (exState.setPt ⟨12, 2, 0⟩) 0).2 = false := by
  decide

/-! ## The keys of the universal argument -/

theorem digit_key_spec (d : Nat) (hd : d < 10) :
    digit_key d ≠ KBD_CANCEL ∧ isdigit (digit_key d &&& 0xff) = true ∧
    (digit_key d &&& 0xff) - '0'.toNat = d := by
  interval_cases d <;> decide

theorem int_wrap_of_fits {x : Int} (h1 : -2147483648 ≤ x) (h2 : x < 2147483648) :
    int_wrap x = x := by
  unfold int_wrap; omega

theorem int_wrap_idem (x : Int) : int_wrap (int_wrap x) = int_wrap x := by
  unfold int_wrap; omega

theorem int_wrap_digit (x d : Int) : int_wrap (int_wrap x * 10 + d) = int_wrap (x * 10 + d) := by
  unfold int_wrap; omega

theorem int_wrap_quadruple (x : Int) : int_wrap (int_wrap x * 4) = int_wrap (x * 4) := by
  unfold int_wrap; omega

theorem int_wrap_count {n : Nat} (h0 : n ≠ 0) (h : n < 4294967296) : int_wrap (n : Int) ≠ 0 := by
  unfold int_wrap; omega

theorem int_wrap_count_succ (n : Nat) :
    int_wrap (int_wrap (n : Int) + 1) = int_wrap ((n + 1 : Nat) : Int) := by
  unfold int_wrap; omega

theorem universal_argument_loop_digit (d : Nat) (hd : d < 10) (ks : List Nat) (i : Int)
    (arg sgn : Int) :
    universal_argument_loop (digit_key d :: ks) i arg sgn =
      universal_argument_loop ks (int_wrap (i + 1))
        (if i = 0 then (d : Int) else int_wrap (arg * 10 + (d : Int))) sgn := by
  obtain ⟨h1, h2, h3⟩ := digit_key_spec d hd
  rw [universal_argument_loop, if_neg h1, if_pos h2, h3]

/-- A run of digit keys behind the first digit: `n` digits have been read, `i` holds `n`
and `arg` the wrapped value `x`. -/
theorem universal_argument_loop_digits : ∀ (ds : List Nat), (∀ d ∈ ds, d < 10) →
    ∀ (ks : List Nat) (n : Nat) (x sgn : Int), n ≠ 0 → n + ds.length < 4294967296 →
    universal_argument_loop (ds.map digit_key ++ ks) (int_wrap (n : Int)) (int_wrap x) sgn =
      universal_argument_loop ks (int_wrap ((n + ds.length : Nat) : Int))
        (int_wrap (ds.foldl (fun (a : Int) (d : Nat) => a * 10 + (d : Int)) x)) sgn
  | [], _, ks, n, x, sgn, _, _ => rfl
  | d :: ds, h, ks, n, x, sgn, hn, hl => by
    have hl2 : n + 1 + ds.length < 4294967296 := by
      simp only [List.length_cons] at hl; omega
    rw [List.map_cons, List.cons_append,
      universal_argument_loop_digit d (h d (List.mem_cons_self _ _)),
      if_neg (int_wrap_count hn (by omega)), int_wrap_digit, int_wrap_count_succ,
      universal_argument_loop_digits ds (fun x hx => h x (List.mem_cons_of_mem _ hx)) ks
        (n + 1) _ sgn (Nat.succ_ne_zero n) hl2]
    simp only [List.foldl_cons, List.length_cons]
    rw [show n + 1 + ds.length = n + (ds.length + 1) by omega]

theorem universal_argument_loop_ctl_u (ks : List Nat) (i : Int) (arg sgn : Int) :
    universal_argument_loop (KEY_CTL_U :: ks) i arg sgn =
      universal_argument_loop ks i (if i = 0 then int_wrap (arg * 4) else arg) sgn := by
  rw [universal_argument_loop, if_neg (by decide), if_neg (by decide), if_pos rfl]

theorem universal_argument_loop_other (k : Nat) (hk : other_key k) (ks : List Nat) (i : Int)
    (arg sgn : Int) :
    universal_argument_loop (k :: ks) i arg sgn = some (k :: ks, some (arg, sgn)) := by
  obtain ⟨h1, h2, h3, h4⟩ := hk
  rw [universal_argument_loop, if_neg h1, h2, if_neg (by decide), if_neg h3, if_neg h4]

/-- The digits typed behind the `C-u` that follows the first digits are part of the
argument: the loop goes on behind that `C-u`. -/
theorem universal_argument_loop_absorbs (d : Nat) (ds es : List Nat) (k : Nat)
    (rest : List Nat) (hd : d < 10) (hds : ∀ x ∈ ds, x < 10) (hes : ∀ x ∈ es, x < 10)
    (hk : other_key k) (hlen : 1 + ds.length + es.length < 4294967296) :
    universal_argument_loop
      ((d :: ds).map digit_key ++ KEY_CTL_U :: (es.map digit_key ++ k :: rest)) 0 4 1 =
      some (k :: rest, some (int_wrap (decimal_value (d :: ds ++ es)), 1)) := by
  have e1 : int_wrap ((0 : Int) + 1) = int_wrap ((1 : Nat) : Int) := rfl
  have e2 : ((d : Nat) : Int) = int_wrap (d : Int) :=
    (int_wrap_of_fits (by omega) (by omega)).symm
  rw [List.map_cons, List.cons_append, universal_argument_loop_digit d hd, if_pos rfl, e1, e2,
    universal_argument_loop_digits ds hds _ 1 _ _ (by decide) (by omega),
    universal_argument_loop_ctl_u, if_neg (int_wrap_count (by omega) (by omega)),
    universal_argument_loop_digits es hes _ _ _ _ (by omega) (by omega),
    universal_argument_loop_other k hk]
  simp [decimal_value, List.foldl_append]

theorem universal_argument_loop_repeat (k : Nat) (hk : other_key k) (rest : List Nat) :
    ∀ (j : Nat) (x : Int),
    universal_argument_loop (List.replicate j KEY_CTL_U ++ k :: rest) 0 (int_wrap x) 1 =
      some (k :: rest, some (int_wrap (x * 4 ^ j), 1))
  | 0, x => by
    rw [List.replicate_zero, List.nil_append, universal_argument_loop_other k hk]
    simp
  | j + 1, x => by
    rw [List.replicate_succ, List.cons_append, universal_argument_loop_ctl_u, if_pos rfl,
      int_wrap_quadruple, universal_argument_loop_repeat k hk rest j]
    rw [pow_succ, mul_assoc, mul_comm (4 ^ j) 4]

theorem int_wrap_pow_four : ∀ (j : Nat), 16 ≤ j → int_wrap (4 ^ j) = 0
  | j, h => by
    obtain ⟨m, rfl⟩ : ∃ m, j = 16 + m := ⟨j - 16, by omega⟩
    have : (4 : Int) ^ (16 + m) = 4294967296 * 4 ^ m := by rw [pow_add]; norm_num
    rw [this]
    generalize (4 : Int) ^ m = y
    unfold int_wrap; omega

theorem pow_four_fits (j : Nat) (h : j ≤ 15) : (4 : Int) ^ j < 2147483648 := by
  interval_cases j <;> norm_num

/-- With no digit and no minus sign, `j` presses of `C-u` in all (the one that starts the
command and `j - 1` more) give the argument `4 ^ j` wrapped to an `int`: `4 ^ j` itself for
up to 15 presses, and `0` from 16 presses on. -/
theorem universal_argument_powers (s : State) (j : Nat) (k : Nat) (rest : List Nat)
    (hk : other_key k) (hs : s.keys = List.replicate j KEY_CTL_U ++ k :: rest) :
    ∃ t, F_universal_argument s = some (t, true) ∧ t.last_uniarg = int_wrap (4 ^ (j + 1)) ∧
      (j + 1 ≤ 15 → t.last_uniarg = 4 ^ (j + 1)) ∧ (16 ≤ j + 1 → t.last_uniarg = 0) ∧
      t.keys = k :: rest := by
  have e4 : (4 : Int) = int_wrap 4 := rfl
  have hl : universal_argument_loop (List.replicate j KEY_CTL_U ++ k :: rest) 0 4 1 =
      some (k :: rest, some (int_wrap (4 * 4 ^ j), 1)) := by
    conv_lhs => rw [e4]
    exact universal_argument_loop_repeat k hk rest j 4
  have hv : int_wrap (int_wrap (4 * 4 ^ j) * 1) = int_wrap (4 ^ (j + 1)) := by
    rw [mul_one, int_wrap_idem, pow_succ, mul_comm]
  unfold F_universal_argument universal_argument
  simp only [show ¬ KEY_CTL_U = KBD_META by decide, if_false, hs, hl, Option.map_some']
  refine ⟨_, rfl, hv, fun h => ?_, fun h => ?_, rfl⟩
  · show int_wrap (int_wrap (4 * 4 ^ j) * 1) = _
    rw [hv]
    exact int_wrap_of_fits (by have := pow_pos (show (0 : Int) < 4 by norm_num) (j + 1); omega)
      (pow_four_fits _ h)
  · show int_wrap (int_wrap (4 * 4 ^ j) * 1) = _
    rw [hv]
    exact int_wrap_pow_four _ h

/-- C30: a `C-u` typed after digits does not end the argument. For the keys `C-u d1..dn
C-u e1..em k` (digits `d`, `e`, at least one `d`, fewer than `2^32` digits in all, and `k`
a key that is not part of an argument) the command returns `TRUE` with `last_uniarg` the
decimal value of all the digits `d1..dn e1..em`, wrapped to an `int` (the value itself when
it is below `2^31`): the digits typed behind the second `C-u` are absorbed, and `k` is given
back to the terminal. -/
theorem universal_argument_absorbs_digits (s : State) (d : Nat) (ds es : List Nat) (k : Nat)
    (rest : List Nat) (hd : d < 10) (hds : ∀ x ∈ ds, x < 10) (hes : ∀ x ∈ es, x < 10)
    (hk : other_key k) (hlen : 1 + ds.length + es.length < 4294967296)
    (hs : s.keys = (d :: ds).map digit_key ++ KEY_CTL_U :: (es.map digit_key ++ k :: rest)) :
    ∃ t, F_universal_argument s = some (t, true) ∧
      t.last_uniarg = int_wrap (decimal_value (d :: ds ++ es)) ∧
      (decimal_value (d :: ds ++ es) < 2147483648 →
        t.last_uniarg = decimal_value (d :: ds ++ es)) ∧
      t.keys = k :: rest ∧ t.thisflag.set_uniarg = true := by
  have hv : int_wrap (int_wrap (decimal_value (d :: ds ++ es)) * 1) =
      int_wrap (decimal_value (d :: ds ++ es)) := by rw [mul_one, int_wrap_idem]
  have h0 : ∀ (l : List Nat) (a : Int), 0 ≤ a →
      0 ≤ l.foldl (fun (a : Int) (d : Nat) => a * 10 + (d : Int)) a := by
    intro l
    induction l with
    | nil => intro a h; exact h
    | cons y l ih =>
      intro a h
      exact ih _ (show (0 : Int) ≤ a * 10 + (y : Int) by omega)
  unfold F_universal_argument universal_argument
  simp only [show ¬ KEY_CTL_U = KBD_META by decide, if_false, hs,
    universal_argument_loop_absorbs d ds es k rest hd hds hes hk hlen, Option.map_some']
  refine ⟨_, rfl, hv, fun h => ?_, rfl, rfl⟩
  show int_wrap (int_wrap (decimal_value (d :: ds ++ es)) * 1) = _
  rw [hv]
  exact int_wrap_of_fits (by have := h0 (d :: ds ++ es) 0 (le_refl 0); unfold decimal_value; omega) h

theorem universal_argument_absorbs_digits_witness :
    ∃ t, F_universal_argument
        { exState with keys := [digit_key 1, KEY_CTL_U, digit_key 2, 'x'.toNat] } =
        some (t, true) ∧
      t.last_uniarg = 12 ∧ t.keys = ['x'.toNat] :=
  let ⟨t, h1, _, h2, h3, _⟩ := universal_argument_absorbs_digits
    { exState with keys := [digit_key 1, KEY_CTL_U, digit_key 2, 'x'.toNat] } 1 [] [2]
    'x'.toNat [] (by decide) (by decide) (by decide) (by unfold other_key; decide)
    (by decide) rfl
  ⟨t, h1, h2 (by decide), h3⟩

/-- Ten digit keys `9` give the argument `1410065407`, and sixteen presses of `C-u` in all
give the argument `0`. -/
theorem universal_argument_overflow :
    (∃ t, F_universal_argument
        { exState with keys := List.replicate 10 (digit_key 9) ++ ['x'.toNat] } =
        some (t, true) ∧ t.last_uniarg = 1410065407) ∧
    (∃ t, F_universal_argument
        { exState with keys := List.replicate 15 KEY_CTL_U ++ ['x'.toNat] } =
        some (t, true) ∧ t.last_uniarg = 0) :=
  ⟨⟨_, rfl, rfl⟩, ⟨_, rfl, rfl⟩⟩

/-! ## forward_word finds the next word -/

theorem line_word_lt {l : List Char} {i : Nat} (h : i < l.length) :
    line_word l i = ISWORDCHAR (l.getD i NUL) := by
  unfold line_word
  rw [List.getElem?_eq_getElem h, List.getD_eq_getElem l NUL h]

theorem line_word_ge {l : List Char} {i : Nat} (h : l.length ≤ i) : line_word l i = false := by
  unfold line_word
  rw [List.getElem?_eq_none h]

theorem following_char_lt (s : State) (h : s.cur.pt.o < line_len s s.cur.pt.p) :
    eolp s = false ∧ ISWORDCHAR (following_char s) = line_word (s.lineAt s.cur.pt.p).text s.cur.pt.o := by
  have hne : s.cur.pt.o ≠ (s.lineAt s.cur.pt.p).text.length := Nat.ne_of_lt h
  have he : eolp s = false := by simp [eolp, hne]
  have hb : eobp s = false := by simp [eobp, hne]
  refine ⟨he, ?_⟩
  rw [line_word_lt h]
  simp [following_char, char_after, he, hb]

theorem set_offset_pt (s : State) (o : Nat) :
    (set_offset s o).cur.pt = { s.cur.pt with o := o } := by
  unfold set_offset
  rw [cur_setPt]

/-- The loop over one line of `forward_word`, from the offset `o` of point with `k` characters
left on the line. -/
theorem forward_word_line_spec : ∀ (k : Nat) (s : State) (g : Bool),
    s.cur.pt.o + k = line_len s s.cur.pt.p →
    MotionFrame s (forward_word_line k s g).1 ∧
    (forward_word_line k s g).1.cur.pt.p = s.cur.pt.p ∧
    (forward_word_line k s g).1.cur.pt.n = s.cur.pt.n ∧
    s.cur.pt.o ≤ (forward_word_line k s g).1.cur.pt.o ∧
    (forward_word_line k s g).1.cur.pt.o ≤ line_len s s.cur.pt.p ∧
    (g = true →
      (∀ i, s.cur.pt.o ≤ i → i < (forward_word_line k s g).1.cur.pt.o →
        line_word (s.lineAt s.cur.pt.p).text i = true) ∧
      line_word (s.lineAt s.cur.pt.p).text (forward_word_line k s g).1.cur.pt.o = false ∧
      (forward_word_line k s g).2.2 = true) ∧
    (g = false →
      ((forward_word_line k s g).2.2 = false →
        (forward_word_line k s g).2.1 = false ∧
        (forward_word_line k s g).1.cur.pt.o = line_len s s.cur.pt.p ∧
        ∀ i, s.cur.pt.o ≤ i → line_word (s.lineAt s.cur.pt.p).text i = false) ∧
      ((forward_word_line k s g).2.2 = true →
        ∃ w, s.cur.pt.o ≤ w ∧ w < (forward_word_line k s g).1.cur.pt.o ∧
          (∀ i, s.cur.pt.o ≤ i → i < w → line_word (s.lineAt s.cur.pt.p).text i = false) ∧
          (∀ i, w ≤ i → i < (forward_word_line k s g).1.cur.pt.o →
            line_word (s.lineAt s.cur.pt.p).text i = true) ∧
          line_word (s.lineAt s.cur.pt.p).text (forward_word_line k s g).1.cur.pt.o = false)) := by
  intro k
  induction k with
  | zero =>
    intro s g hk
    have hk2 : s.cur.pt.o = line_len s s.cur.pt.p := hk
    have hw : ∀ i, s.cur.pt.o ≤ i → line_word (s.lineAt s.cur.pt.p).text i = false :=
      fun i hi => line_word_ge (by unfold line_len at hk2; omega)
    simp only [forward_word_line]
    refine ⟨motionFrame_refl s, (by trivial), (by trivial), le_refl _, le_of_eq hk2, ?_, ?_⟩
    · intro hg
      exact ⟨fun i h1 h2 => absurd h2 (by omega), hw _ (le_refl _), hg⟩
    · intro hg
      refine ⟨fun _ => ⟨(by trivial), hk2, hw⟩, fun h => ?_⟩
      rw [hg] at h; cases h
  | succ k ih =>
    intro s g hk
    have hlt : s.cur.pt.o < line_len s s.cur.pt.p := by omega
    obtain ⟨he, hc⟩ := following_char_lt s hlt
    have hpt := set_offset_pt s (s.cur.pt.o + 1)
    have hl : (set_offset s (s.cur.pt.o + 1)).lineAt = s.lineAt := (by trivial)
    have hk1 : (set_offset s (s.cur.pt.o + 1)).cur.pt.o + k =
        line_len (set_offset s (s.cur.pt.o + 1)) (set_offset s (s.cur.pt.o + 1)).cur.pt.p := by
      rw [hpt]; simp only [line_len, hl]; unfold line_len at hk; omega
    have hm := motionFrame_set_offset s (s.cur.pt.o + 1)
    rw [forward_word_line]
    simp only [he, Bool.not_false, if_true]
    by_cases hwc : ISWORDCHAR (following_char s) = true
    · -- a word character
      have hw0 : line_word (s.lineAt s.cur.pt.p).text s.cur.pt.o = true := by rw [← hc]; exact hwc
      simp only [hwc, Bool.not_true, Bool.false_eq_true, if_false]
      obtain ⟨a1, a2, a3, a4, a5, a6, _⟩ := ih (set_offset s (s.cur.pt.o + 1)) true hk1
      generalize forward_word_line k (set_offset s (s.cur.pt.o + 1)) true = r at a1 a2 a3 a4 a5 a6 ⊢
      rw [hpt] at a2 a3 a4 a5 a6
      simp only [hl, line_len] at a4 a5 a6
      obtain ⟨b1, b2, b3⟩ := a6 (by trivial)
      have hall : ∀ i, s.cur.pt.o ≤ i → i < r.1.cur.pt.o →
          line_word (s.lineAt s.cur.pt.p).text i = true := by
        intro i h1 h2
        by_cases hi : i = s.cur.pt.o
        · rw [hi]; exact hw0
        · exact b1 i (by omega) h2
      refine ⟨motionFrame_trans hm a1, a2, a3, by omega, a5, ?_, ?_⟩
      · intro _
        exact ⟨hall, b2, b3⟩
      · intro _
        refine ⟨fun h => ?_, fun _ => ⟨s.cur.pt.o, le_refl _, by omega, ?_, hall, b2⟩⟩
        · rw [b3] at h; cases h
        · intro i h1 h2; omega
    · -- not a word character
      have hwf : ISWORDCHAR (following_char s) = false := by
        cases h : ISWORDCHAR (following_char s)
        · rfl
        · exact absurd h hwc
      have hw0 : line_word (s.lineAt s.cur.pt.p).text s.cur.pt.o = false := by rw [← hc]; exact hwf
      simp only [hwf, Bool.not_false, if_true]
      cases g with
      | true =>
        simp only [if_true]
        refine ⟨motionFrame_refl s, (by trivial), (by trivial), le_refl _, le_of_lt hlt, ?_, ?_⟩
        · intro _
          exact ⟨fun i h1 h2 => absurd h2 (by omega), hw0, (by trivial)⟩
        · intro h; cases h
      | false =>
        simp only [Bool.false_eq_true, if_false]
        obtain ⟨a1, a2, a3, a4, a5, _, a7⟩ := ih (set_offset s (s.cur.pt.o + 1)) false hk1
        generalize forward_word_line k (set_offset s (s.cur.pt.o + 1)) false = r
          at a1 a2 a3 a4 a5 a7 ⊢
        rw [hpt] at a2 a3 a4 a5 a7
        simp only [hl, line_len] at a4 a5 a7
        obtain ⟨b1, b2⟩ := a7 (by trivial)
        refine ⟨motionFrame_trans hm a1, a2, a3, by omega, a5, ?_, ?_⟩
        · intro h; cases h
        · intro _
          refine ⟨fun h => ?_, fun h => ?_⟩
          · obtain ⟨c1, c2, c3⟩ := b1 h
            refine ⟨c1, c2, ?_⟩
            intro i hi
            by_cases hi2 : i = s.cur.pt.o
            · rw [hi2]; exact hw0
            · exact c3 i (by omega)
          · obtain ⟨w, c1, c2, c3, c4, c5⟩ := b2 h
            refine ⟨w, by omega, c2, ?_, c4, c5⟩
            intro i h1 h2
            by_cases hi2 : i = s.cur.pt.o
            · rw [hi2]; exact hw0
            · exact c3 i (by omega) h2


theorem word_at_congr {s t : State} (h : t.lineAt = s.lineAt) (chain : List LinePtr)
    (n o : Nat) : word_at t chain n o = word_at s chain n o := by
  unfold word_at
  rw [h]

theorem word_at_line {s : State} {chain : List LinePtr} {n : Nat} {p : LinePtr}
    (h : chain[n]? = some p) (o : Nat) :
    word_at s chain n o = line_word (s.lineAt p).text o := by
  unfold word_at
  rw [h]

theorem word_at_none {s : State} {chain : List LinePtr} {n : Nat}
    (h : chain.length ≤ n) (o : Nat) : word_at s chain n o = false := by
  unfold word_at
  rw [List.getElem?_eq_none h]

theorem validBuffer_motion {s t : State} {chain : List LinePtr} (hv : ValidBuffer s chain)
    (hm : MotionFrame s t) (hpt : ValidPoint s chain t.cur.pt) : ValidBuffer t chain := by
  obtain ⟨pt, g, hc⟩ := motionFrame_cur hm
  exact validBuffer_of_eq hv hm.1 (by rw [hc]) (by rw [hc]) hpt

theorem next_line_fail (s : State) (h : get_line_next s s.cur.pt.p = s.cur.limitp) :
    next_line s = (s, false) := by
  unfold next_line
  rw [if_pos h]

theorem update_goalc_pt (s : State) : (update_goalc s).cur.pt = s.cur.pt := by
  unfold update_goalc
  split
  · rw [cur_setBuf_cur]
  · rfl

theorem next_line_ok (s : State) (h : get_line_next s s.cur.pt.p ≠ s.cur.limitp) :
    (next_line s).2 = true ∧
    (set_offset (next_line s).1 0).cur.pt = ⟨get_line_next s s.cur.pt.p, s.cur.pt.n + 1, 0⟩ := by
  have hl : (update_goalc s).lineAt = s.lineAt := (motionFrame_update_goalc s).1
  unfold next_line
  rw [if_neg h]
  refine ⟨rfl, ?_⟩
  simp only [set_offset_pt, needResync_cur, goto_goalc, cur_setPt, update_goalc_pt,
    get_line_next, hl]

/-- The loop of `forward_word` over the lines from the line of point on. -/
theorem forward_word_loop_spec (chain : List LinePtr) : ∀ (fuel : Nat) (s : State),
    ValidBuffer s chain → chain.length ≤ fuel + s.cur.pt.n →
    ∃ t b, forward_word_loop fuel s false = some (t, b) ∧ MotionFrame s t ∧
      ValidBuffer t chain ∧
      (b = true → ∃ n o,
        at_or_after s.cur.pt n o ∧
        (∀ m i, at_or_after s.cur.pt m i → word_at s chain m i = true →
          n < m ∨ (n = m ∧ o ≤ i)) ∧
        t.cur.pt.n = n ∧ o < t.cur.pt.o ∧
        (∀ i, o ≤ i → i < t.cur.pt.o → word_at s chain n i = true) ∧
        word_at s chain n t.cur.pt.o = false) ∧
      (b = false →
        (∀ m i, at_or_after s.cur.pt m i → word_at s chain m i = false) ∧ AtEob t chain) := by
  intro fuel
  induction fuel with
  | zero =>
    intro s hv hf
    obtain ⟨h, _⟩ := validBuffer_index hv
    omega
  | succ fuel ih =>
    intro s hv hf
    obtain ⟨hn, hp⟩ := validBuffer_index hv
    have hoff := hv.offset
    have hk : s.cur.pt.o + (line_len s s.cur.pt.p - s.cur.pt.o) = line_len s s.cur.pt.p := by
      omega
    obtain ⟨a1, a2, a3, a4, a5, _, a7⟩ :=
      forward_word_line_spec (line_len s s.cur.pt.p - s.cur.pt.o) s false hk
    obtain ⟨b1, b2⟩ := a7 rfl
    rw [forward_word_loop]
    simp only []
    generalize forward_word_line (line_len s s.cur.pt.p - s.cur.pt.o) s false = r
      at a1 a2 a3 a4 a5 b1 b2 ⊢
    have hvr : ValidBuffer r.1 chain := by
      refine validBuffer_motion hv a1 ⟨?_, ?_⟩
      · unfold OnChain; rw [a2, a3]; exact hv.point
      · rw [a2]; exact a5
    have hline : ∀ i, word_at s chain s.cur.pt.n i = line_word (s.lineAt s.cur.pt.p).text i :=
      fun i => word_at_line hv.point i
    cases h22 : r.2.2 with
    | true =>
      have hret : (if r.2.1 = true then some (r.1, true)
          else if true = true then some (r.1, true)
          else
            if (!(next_line (set_offset r.1 (line_len r.1 r.1.cur.pt.p))).2) = true then
              some ((next_line (set_offset r.1 (line_len r.1 r.1.cur.pt.p))).1, false)
            else forward_word_loop fuel
              (set_offset (next_line (set_offset r.1 (line_len r.1 r.1.cur.pt.p))).1 0) true) =
          some (r.1, true) := by
        split
        · rfl
        · rfl
      rw [hret]
      obtain ⟨w, c1, c2, c3, c4, c5⟩ := b2 h22
      refine ⟨r.1, true, rfl, a1, hvr, fun _ => ⟨s.cur.pt.n, w, Or.inr ⟨rfl, c1⟩, ?_, a3, c2, ?_, ?_⟩,
        fun h => by cases h⟩
      · intro m i hm hw
        rcases hm with hm | ⟨hm, hi⟩
        · exact Or.inl hm
        · refine Or.inr ⟨hm, ?_⟩
          by_contra hlt
          have := c3 i hi (by omega)
          rw [← hm, hline, this] at hw
          cases hw
      · intro i h1 h2; rw [hline]; exact c4 i h1 h2
      · rw [hline]; exact c5
    | false =>
      obtain ⟨c1, c2, c3⟩ := b1 h22
      rw [c1]
      simp only [Bool.false_eq_true, if_false]
      have hrl : r.1.lineAt = s.lineAt := a1.1
      have hlen : line_len r.1 r.1.cur.pt.p = line_len s s.cur.pt.p := by
        simp only [line_len, hrl, a2]
      rw [hlen]
      have hm1 : MotionFrame s (set_offset r.1 (line_len s s.cur.pt.p)) :=
        motionFrame_trans a1 (motionFrame_set_offset _ _)
      have hpt1 : (set_offset r.1 (line_len s s.cur.pt.p)).cur.pt =
          ⟨s.cur.pt.p, s.cur.pt.n, line_len s s.cur.pt.p⟩ := by
        rw [set_offset_pt, ← a2, ← a3]
      have hv1 : ValidBuffer (set_offset r.1 (line_len s s.cur.pt.p)) chain := by
        refine validBuffer_motion hv hm1 ⟨?_, ?_⟩
        · rw [hpt1]; exact hv.point
        · rw [hpt1]
      generalize set_offset r.1 (line_len s s.cur.pt.p) = s1 at hm1 hpt1 hv1 ⊢
      obtain ⟨_, _, _, _, _, _, _, _, pt1, g1, hb1⟩ := id hm1
      have hlim : s1.cur.limitp = s.cur.limitp := by
        obtain ⟨pt, g, hc⟩ := motionFrame_cur hm1
        rw [hc]
      have hnoline : ∀ m i, at_or_after s.cur.pt m i → word_at s chain m i = true →
          s.cur.pt.n < m := by
        intro m i hm hw
        rcases hm with hm | ⟨hm, hi⟩
        · exact hm
        · rw [← hm, hline, c3 i hi] at hw
          cases hw
      by_cases hnx : get_line_next s1 s1.cur.pt.p = s1.cur.limitp
      · -- the last line
        rw [next_line_fail s1 hnx]
        simp only [Bool.not_false, if_true]
        have hlast : chain.length ≤ s.cur.pt.n + 1 := by
          by_contra hlt
          have hlt2 : s.cur.pt.n + 1 < chain.length := by omega
          have hv1n := validBuffer_next hv1
            (show chain[s1.cur.pt.n + 1]? = some chain[s.cur.pt.n + 1] by
              rw [hpt1]; exact List.getElem?_eq_getElem hlt2)
          exact hv1n.2 (hv1n.1 ▸ hnx)
        refine ⟨s1, false, rfl, hm1, hv1, (fun h => by cases h), fun _ => ⟨?_, ?_, ?_⟩⟩
        · intro m i hm
          cases hw : word_at s chain m i
          · rfl
          · have := hnoline m i hm hw
            rw [word_at_none (by omega)] at hw
            cases hw
        · rw [hpt1]; show s.cur.pt.n + 1 = chain.length; omega
        · rw [hpt1]; simp only [line_len, hm1.1]
      · -- a next line
        obtain ⟨n1, n2⟩ := next_line_ok s1 hnx
        have hn1 : s1.cur.pt.n = s.cur.pt.n := by rw [hpt1]
        rw [hn1] at n2
        have hm2 : MotionFrame s (set_offset (next_line s1).1 0) :=
          motionFrame_trans hm1 (motionFrame_trans (motionFrame_next_line s1)
            (motionFrame_set_offset _ _))
        rw [n1]
        simp only [Bool.not_true, Bool.false_eq_true, if_false]
        have hlt2 : s.cur.pt.n + 1 < chain.length := by
          by_contra hge
          have : s.cur.pt.n = chain.length - 1 := by omega
          have hl := hv1.last s1.cur.pt.p (by rw [hpt1]; rw [← this]; exact hv.point)
          exact hnx hl
        have hnext : chain[s.cur.pt.n + 1]? = some (get_line_next s1 s1.cur.pt.p) := by
          have hv1n := validBuffer_next hv1
            (show chain[s1.cur.pt.n + 1]? = some chain[s.cur.pt.n + 1] by
              rw [hpt1]; exact List.getElem?_eq_getElem hlt2)
          rw [List.getElem?_eq_getElem hlt2]
          exact congrArg some hv1n.1.symm
        have hv2 : ValidBuffer (set_offset (next_line s1).1 0) chain := by
          refine validBuffer_motion hv hm2 ⟨?_, ?_⟩
          · rw [n2]; exact hnext
          · rw [n2]; exact Nat.zero_le _
        generalize set_offset (next_line s1).1 0 = s2 at n2 hm2 hv2 ⊢
        obtain ⟨t, b, e1, e2, e3, e4, e5⟩ := ih s2 hv2 (by rw [n2]; show chain.length ≤ fuel + (s.cur.pt.n + 1); omega)
        have hw2 : ∀ m i, word_at s2 chain m i = word_at s chain m i :=
          fun m i => word_at_congr hm2.1 chain m i
        have haft : ∀ m i, at_or_after s.cur.pt m i → word_at s chain m i = true →
            at_or_after s2.cur.pt m i := by
          intro m i hm hw
          have := hnoline m i hm hw
          rw [n2]
          by_cases hmm : s.cur.pt.n + 1 = m
          · exact Or.inr ⟨hmm, Nat.zero_le _⟩
          · exact Or.inl (show s.cur.pt.n + 1 < m by omega)
        have hback : ∀ m i, at_or_after s2.cur.pt m i → at_or_after s.cur.pt m i := by
          intro m i hm
          rw [n2] at hm
          rcases hm with hm | ⟨hm, _⟩
          · exact Or.inl (show s.cur.pt.n < m by have : s.cur.pt.n + 1 < m := hm; omega)
          · exact Or.inl (show s.cur.pt.n < m by have : s.cur.pt.n + 1 = m := hm; omega)
        refine ⟨t, b, e1, motionFrame_trans hm2 e2, e3, fun hb => ?_, fun hb => ?_⟩
        · obtain ⟨n, o, f1, f2, f3, f4, f5, f6⟩ := e4 hb
          refine ⟨n, o, hback n o f1, ?_, f3, f4, ?_, ?_⟩
          · intro m i hm hw
            exact f2 m i (haft m i hm hw) (by rw [hw2]; exact hw)
          · intro i h1 h2; rw [← hw2]; exact f5 i h1 h2
          · rw [← hw2]; exact f6
        · obtain ⟨f1, f2⟩ := e5 hb
          refine ⟨?_, f2⟩
          intro m i hm
          cases hw : word_at s chain m i
          · rfl
          · have := f1 m i (haft m i hm hw)
            rw [hw2, hw] at this
            cases this


/-- The example buffer is well formed over its lines 10, 11, 12. -/
theorem exState_valid : ValidBuffer exState [10, 11, 12] :=
  { linked := ⟨rfl, rfl, rfl, rfl, trivial⟩
    first := by intro a h; cases h; rfl
    last := by intro a h; cases h; rfl
    limit := by decide
    point := rfl
    offset := by decide
    count := rfl }

/-- C26: `forward_word` on a well-formed buffer with the lines `chain` returns for every
fuel of at least the number of lines (the scan terminates). It changes no line. It returns
`TRUE` iff a word character stands at or after point. When it returns `TRUE`, with the
first word character at or after point at line `n`, offset `o`: point is on line `n` at an
offset `e > o`, all of `o .. e - 1` are word characters of that line (so the character
before point is one), and there is no word character at `e` (the end of the line or a
character that is not a word character). When it returns `FALSE`, point is at the end of
the buffer. -/
theorem forward_word_finds_word (s : State) (chain : List LinePtr) (fuel : Nat)
    (hv : ValidBuffer s chain) (hf : chain.length ≤ fuel) :
    ∃ t b, forward_word fuel s = some (t, b) ∧ t.lineAt = s.lineAt ∧ ValidBuffer t chain ∧
      (b = true ↔ ∃ n o, at_or_after s.cur.pt n o ∧ word_at s chain n o = true) ∧
      (b = true → ∃ n o,
        at_or_after s.cur.pt n o ∧ word_at s chain n o = true ∧
        (∀ m i, at_or_after s.cur.pt m i → word_at s chain m i = true →
          n < m ∨ (n = m ∧ o ≤ i)) ∧
        t.cur.pt.n = n ∧ chain[n]? = some t.cur.pt.p ∧ o < t.cur.pt.o ∧
        t.cur.pt.o ≤ line_len s t.cur.pt.p ∧
        (∀ i, o ≤ i → i < t.cur.pt.o → word_at s chain n i = true) ∧
        word_at s chain n (t.cur.pt.o - 1) = true ∧
        word_at s chain n t.cur.pt.o = false) ∧
      (b = false → AtEob t chain) := by
  obtain ⟨t, b, h1, h2, h3, h4, h5⟩ :=
    forward_word_loop_spec chain fuel s hv (Nat.le_trans hf (Nat.le_add_right _ _))
  refine ⟨t, b, h1, h2.1, h3, ⟨fun hb => ?_, fun hex => ?_⟩, fun hb => ?_, fun hb => (h5 hb).2⟩
  · obtain ⟨n, o, f1, _, _, f4, f5, _⟩ := h4 hb
    exact ⟨n, o, f1, f5 o (le_refl _) f4⟩
  · cases b
    · obtain ⟨n, o, g1, g2⟩ := hex
      have := (h5 rfl).1 n o g1
      rw [g2] at this
      cases this
    · rfl
  · obtain ⟨n, o, f1, f2, f3, f4, f5, f6⟩ := h4 hb
    have hoff := h3.offset
    simp only [line_len, h2.1] at hoff
    refine ⟨n, o, f1, f5 o (le_refl _) f4, f2, f3, ?_, f4, hoff, f5,
      f5 _ (by omega) (by omega), f6⟩
    rw [← f3]
    exact h3.point

theorem forward_word_finds_word_witness :
    ∃ t b, forward_word 3 exState = some (t, b) ∧ b = true ∧ t.cur.pt.n = 2 ∧
      t.cur.pt.o = 3 :=
  let ⟨t, b, h1, _, _, _, _, _⟩ := forward_word_finds_word exState [10, 11, 12] 3 exState_valid
    (by decide)
  ⟨t, b, h1, by
    have h : forward_word 3 exState = some ((forward_word 3 exState).get rfl) := by simp
    rw [h] at h1
    have h2 := Option.some.inj h1
    have ht : t = ((forward_word 3 exState).get rfl).1 := by rw [h2]
    have hb : b = ((forward_word 3 exState).get rfl).2 := by rw [h2]
    rw [ht, hb]
    decide⟩

/-! ## The text from point on -/

theorem rest_text_split (s : State) (A B : List LinePtr) (hv : ValidBuffer s (A ++ s.cur.pt.p :: B))
    (hn : s.cur.pt.n = A.length) :
    rest_text s (A ++ s.cur.pt.p :: B) =
      (s.lineAt s.cur.pt.p).text.drop s.cur.pt.o ++ join_tail (B.map fun q => (s.lineAt q).text) := by
  unfold rest_text
  rw [point_offset_split s A B _ _ hn]
  unfold buffer_text
  rw [List.map_append, List.map_cons, join_text_split]
  have h1 : line_start (A.map (line_len s)) A.length =
      (pre_text (A.map fun q => (s.lineAt q).text)).length := by
    rw [pre_text_length, map_len_text, List.length_map]
  rw [h1, List.drop_append, List.drop_append_of_le_length]
  have := hv.offset
  simpa [line_len] using this

/-- On the last line the text from point on is the rest of the line. -/
theorem rest_text_last (s : State) (chain : List LinePtr) (hv : ValidBuffer s chain)
    (hl : s.cur.pt.n + 1 = chain.length) :
    rest_text s chain = (s.lineAt s.cur.pt.p).text.drop s.cur.pt.o := by
  obtain ⟨A, B, hsplit, hlenA⟩ := chain_split hv.point
  subst hsplit
  have hB : B = [] := by
    apply List.eq_nil_of_length_eq_zero
    simp only [List.length_append, List.length_cons] at hl
    omega
  subst hB
  rw [rest_text_split s A [] hv hlenA.symm]
  simp [join_tail]

/-- Before the last line the text from point on is the rest of the line, a newline, and
the text from the start of the next line on. -/
theorem rest_text_next (s t : State) (chain : List LinePtr) (hv : ValidBuffer s chain)
    (ht : ValidBuffer t chain) (hl : t.lineAt = s.lineAt)
    (hpt : t.cur.pt.n = s.cur.pt.n + 1) (ho : t.cur.pt.o = 0) :
    rest_text s chain =
      (s.lineAt s.cur.pt.p).text.drop s.cur.pt.o ++ '\n' :: rest_text t chain := by
  obtain ⟨A, B, hsplit, hlenA⟩ := chain_split hv.point
  subst hsplit
  have htp := ht.point
  unfold OnChain at htp
  rw [hpt, ← hlenA, List.getElem?_append_right (by omega)] at htp
  rw [show A.length + 1 - A.length = 1 by omega] at htp
  cases B with
  | nil => simp at htp
  | cons b B =>
    simp only [List.getElem?_cons_succ, List.getElem?_cons_zero, Option.some.injEq] at htp
    subst htp
    rw [rest_text_split s A _ hv hlenA.symm]
    have hc : A ++ s.cur.pt.p :: t.cur.pt.p :: B = (A ++ [s.cur.pt.p]) ++ t.cur.pt.p :: B := by
      simp
    have ht2 := ht
    rw [hc] at ht2
    have h2 := rest_text_split t (A ++ [s.cur.pt.p]) B ht2 (by rw [hpt]; simp [hlenA])
    rw [← hc] at h2
    rw [h2, ho, List.drop_zero, List.map_cons, join_tail_cons, hl]

theorem point_offset_next (s t : State) (chain : List LinePtr) (hv : ValidBuffer s chain)
    (hl : t.lineAt = s.lineAt) (hpt : t.cur.pt.n = s.cur.pt.n + 1) (ho : t.cur.pt.o = 0) :
    point_offset t chain t.cur.pt =
      point_offset s chain s.cur.pt + (line_len s s.cur.pt.p - s.cur.pt.o) + 1 := by
  obtain ⟨hn, hp⟩ := validBuffer_index hv
  have hoff := hv.offset
  unfold point_offset
  have hm : chain.map (line_len t) = chain.map (line_len s) := by
    congr 1
    funext q
    simp only [line_len, hl]
  rw [hm, hpt, ho, line_start_succ _ _ (by simpa using hn)]
  simp only [List.getElem_map, hp]
  omega


/-! ## forward_sexp inside an expression -/

theorem following_char_eq (s : State) (h : s.cur.pt.o < line_len s s.cur.pt.p) :
    eolp s = false ∧
    following_char s = (s.lineAt s.cur.pt.p).text.getD s.cur.pt.o NUL := by
  have hne : s.cur.pt.o ≠ (s.lineAt s.cur.pt.p).text.length := Nat.ne_of_lt h
  have he : eolp s = false := by simp [eolp, hne]
  have hb : eobp s = false := by simp [eobp, hne]
  exact ⟨he, by simp [following_char, char_after, he, hb]⟩

theorem not_quote_of_plain {c : Char} (h : is_quote_or_backslash c = false) :
    c ≠ DQUOTE ∧ c ≠ SQUOTE ∧ c ≠ BACKSLASH := by
  simp only [is_quote_or_backslash, Bool.or_eq_false_iff, decide_eq_false_iff_not] at h
  exact ⟨h.1.1, h.1.2, h.2⟩

theorem isOpen_plain (v : SexpVars) {c : Char} (h : is_quote_or_backslash c = false) :
    ISOPENBRACKETCHAR v c = is_open_bracket c := by
  obtain ⟨h1, h2, _⟩ := not_quote_of_plain h
  simp [ISOPENBRACKETCHAR, is_open_bracket, h1, h2]

theorem isClose_plain (v : SexpVars) {c : Char} (h : is_quote_or_backslash c = false) :
    ISCLOSEBRACKETCHAR v c = is_close_bracket c := by
  obtain ⟨h1, h2, _⟩ := not_quote_of_plain h
  simp [ISCLOSEBRACKETCHAR, is_close_bracket, h1, h2]

theorem sexp_level_step_plain (v : SexpVars) {c : Char} (d : Int)
    (h : is_quote_or_backslash c = false) :
    sexp_level_step v c d = { v with level := v.level + d, gotsexp := true } := by
  obtain ⟨h1, h2, _⟩ := not_quote_of_plain h
  simp [sexp_level_step, h1, h2]

theorem open_bracket_cases {c : Char} (h : is_open_bracket c = true) :
    c = '(' ∨ c = '[' ∨ c = '{' := by
  simpa [is_open_bracket, or_assoc] using h

theorem close_bracket_cases {c : Char} (h : is_close_bracket c = true) :
    c = ')' ∨ c = ']' ∨ c = '}' := by
  simpa [is_close_bracket, or_assoc] using h

theorem open_bracket_facts {c : Char} (h : is_open_bracket c = true) :
    ISSEXPCHAR c = false ∧ is_close_bracket c = false ∧ is_quote_or_backslash c = false := by
  rcases open_bracket_cases h with rfl | rfl | rfl <;> decide

theorem close_bracket_facts {c : Char} (h : is_close_bracket c = true) :
    ISSEXPCHAR c = false ∧ is_open_bracket c = false ∧ is_quote_or_backslash c = false := by
  rcases close_bracket_cases h with rfl | rfl | rfl <;> decide

theorem forward_sexp_escape_plain (s : State)
    (h : is_quote_or_backslash (following_char s) = false) : forward_sexp_escape s = false := by
  obtain ⟨_, _, h3⟩ := not_quote_of_plain h
  simp [forward_sexp_escape, h3]

/-- One round of `forward_sexp` inside an expression, on a character that is no quote and
no backslash. -/
theorem forward_sexp_char_plain (s : State) (L : Nat) (hL : 1 ≤ L)
    (h : is_quote_or_backslash (following_char s) = false) :
    forward_sexp_char s (sexp_vars L) =
      (set_offset s (s.cur.pt.o + 1), sexp_vars (bracket_level L (following_char s)),
        if bracket_level L (following_char s) = 0 then some true else none) := by
  unfold forward_sexp_char
  simp only [forward_sexp_escape_plain s h, Bool.false_eq_true, if_false]
  generalize following_char s = c at h ⊢
  unfold CONTROL_SEXP_LEVEL
  simp only [isOpen_plain _ h, isClose_plain _ h, sexp_level_step_plain _ _ h]
  have hne : ¬ ((L : Int) = 0) := by omega
  by_cases ho : is_open_bracket c = true
  · obtain ⟨f1, f2, _⟩ := open_bracket_facts ho
    have hb : bracket_level L c = L + 1 := by simp [bracket_level, ho]
    simp [ho, sexp_vars, hne, f1, hb]
    omega
  · have ho2 : is_open_bracket c = false := by
      cases hh : is_open_bracket c
      · rfl
      · exact absurd hh ho
    by_cases hc : is_close_bracket c = true
    · obtain ⟨f1, f2, _⟩ := close_bracket_facts hc
      have hb : bracket_level L c = L - 1 := by simp [bracket_level, ho2, hc]
      have hcast : ((L - 1 : Nat) : Int) = (L : Int) + -1 := by omega
      by_cases h1 : L = 1
      · subst h1
        simp [ho2, hc, sexp_vars, f1, hb, ISSEXPSEPARATOR, isClose_plain _ h]
      · have h2 : ¬ ((L : Int) + -1 < 0) := by omega
        have h3 : ¬ ((L : Int) + -1 = 0) := by omega
        have h4 : ¬ (L - 1 = 0) := by omega
        simp [ho2, hc, sexp_vars, hne, f1, hb, h2, h3, h4, hcast]
    · have hc2 : is_close_bracket c = false := by
        cases hh : is_close_bracket c
        · rfl
        · exact absurd hh hc
      have hb : bracket_level L c = L := by simp [bracket_level, ho2, hc2]
      have h4 : ¬ (L = 0) := by omega
      cases hs : ISSEXPCHAR c <;> simp [ho2, hc2, sexp_vars, hne, hb, h4, hs]


/-- The loop of `forward_sexp` over the rest of a line, inside an expression. -/
theorem forward_sexp_line_plain : ∀ (k : Nat) (s : State) (L i : Nat) (T : List Char)
    (r : Option Nat), 1 ≤ L → s.cur.pt.o + k = line_len s s.cur.pt.p →
    flat_end ((s.lineAt s.cur.pt.p).text.drop s.cur.pt.o ++ T) i L = some r →
    (forward_sexp_line k s (sexp_vars L)).1.cur.pt.p = s.cur.pt.p ∧
    (forward_sexp_line k s (sexp_vars L)).1.cur.pt.n = s.cur.pt.n ∧
    ((∃ e, r = some e ∧ i < e ∧ e - i ≤ k ∧
        (forward_sexp_line k s (sexp_vars L)).2.2 = some true ∧
        (forward_sexp_line k s (sexp_vars L)).1.cur.pt.o = s.cur.pt.o + (e - i)) ∨
     (∃ M, 1 ≤ M ∧ flat_end T (i + k) M = some r ∧
        (forward_sexp_line k s (sexp_vars L)).2.2 = none ∧
        (forward_sexp_line k s (sexp_vars L)).2.1 = sexp_vars M ∧
        (forward_sexp_line k s (sexp_vars L)).1.cur.pt.o = line_len s s.cur.pt.p)) := by
  intro k
  induction k with
  | zero =>
    intro s L i T r hL hk hf
    have hk2 : s.cur.pt.o = line_len s s.cur.pt.p := hk
    have hd : (s.lineAt s.cur.pt.p).text.drop s.cur.pt.o = [] := by
      apply List.drop_eq_nil_of_le
      unfold line_len at hk2
      omega
    rw [hd, List.nil_append] at hf
    have h0 : forward_sexp_line 0 s (sexp_vars L) = (s, sexp_vars L, none) := rfl
    rw [h0]
    refine ⟨rfl, rfl, Or.inr ⟨L, hL, ?_, rfl, rfl, hk2⟩⟩
    rw [Nat.add_zero]
    exact hf
  | succ k ih =>
    intro s L i T r hL hk hf
    have hlt : s.cur.pt.o < line_len s s.cur.pt.p := by omega
    obtain ⟨he, hc⟩ := following_char_eq s hlt
    have hlt2 : s.cur.pt.o < (s.lineAt s.cur.pt.p).text.length := hlt
    have hd : (s.lineAt s.cur.pt.p).text.drop s.cur.pt.o =
        following_char s :: (s.lineAt s.cur.pt.p).text.drop (s.cur.pt.o + 1) := by
      rw [List.drop_eq_getElem_cons hlt2, hc, List.getD_eq_getElem _ NUL hlt2]
    rw [hd, List.cons_append, flat_end] at hf
    have hq : is_quote_or_backslash (following_char s) = false := by
      cases hh : is_quote_or_backslash (following_char s)
      · rfl
      · rw [hh] at hf; simp at hf
    rw [hq] at hf
    simp only [Bool.false_eq_true, if_false] at hf
    have hch := forward_sexp_char_plain s L hL hq
    have hpt := set_offset_pt s (s.cur.pt.o + 1)
    have hl : (set_offset s (s.cur.pt.o + 1)).lineAt = s.lineAt := rfl
    rw [forward_sexp_line_succ]
    simp only [he, Bool.not_false, if_true, hch]
    by_cases hz : bracket_level L (following_char s) = 0
    · rw [if_pos hz] at hf
      simp only [hz, if_true]
      rw [hpt]
      have hr : r = some (i + 1) := (Option.some.inj hf).symm
      refine ⟨rfl, rfl, Or.inl ⟨i + 1, hr, by omega, by omega, trivial, ?_⟩⟩
      show s.cur.pt.o + 1 = s.cur.pt.o + (i + 1 - i)
      omega
    · rw [if_neg hz] at hf
      simp only [hz, if_false]
      have hk1 : (set_offset s (s.cur.pt.o + 1)).cur.pt.o + k =
          line_len (set_offset s (s.cur.pt.o + 1)) (set_offset s (s.cur.pt.o + 1)).cur.pt.p := by
        rw [hpt]; simp only [line_len, hl]; unfold line_len at hk; omega
      have hf1 : flat_end
          (((set_offset s (s.cur.pt.o + 1)).lineAt (set_offset s (s.cur.pt.o + 1)).cur.pt.p).text.drop
            (set_offset s (s.cur.pt.o + 1)).cur.pt.o ++ T) (i + 1)
          (bracket_level L (following_char s)) = some r := by
        rw [hpt, hl]; exact hf
      obtain ⟨a1, a2, a3⟩ := ih (set_offset s (s.cur.pt.o + 1)) _ (i + 1) T r (by omega) hk1 hf1
      generalize forward_sexp_line k (set_offset s (s.cur.pt.o + 1))
        (sexp_vars (bracket_level L (following_char s))) = w at a1 a2 a3 ⊢
      rw [hpt] at a1 a2 a3
      simp only [line_len, hl] at a3
      refine ⟨a1, a2, ?_⟩
      rcases a3 with ⟨e, b1, b2, b3, b4, b5⟩ | ⟨M, b1, b2, b3, b4, b5⟩
      · refine Or.inl ⟨e, b1, by omega, by omega, b4, ?_⟩
        rw [b5]; omega
      · refine Or.inr ⟨M, b1, ?_, b3, b4, b5⟩
        rw [← b2]; congr 1; omega

theorem rest_text_congr {s t : State} (hl : t.lineAt = s.lineAt) (hp : t.cur.pt = s.cur.pt)
    (chain : List LinePtr) : rest_text t chain = rest_text s chain := by
  unfold rest_text
  rw [buffer_text_congr hl, hp]
  congr 1
  unfold point_offset
  congr 2
  apply List.map_congr_left
  intro q _
  simp only [line_len, hl]

theorem flat_end_nil_inv {i L : Nat} {r : Option Nat} (h : flat_end [] i L = some r) :
    r = none := by
  simp only [flat_end] at h
  exact (Option.some.inj h).symm

theorem flat_end_newline (cs : List Char) (i L : Nat) (hL : 1 ≤ L) :
    flat_end ('\n' :: cs) i L = flat_end cs (i + 1) L := by
  have hb : bracket_level L '\n' = L := by
    simp only [bracket_level]
    rw [if_neg (by decide), if_neg (by decide)]
  rw [flat_end, if_neg (by decide), hb, if_neg (by omega)]

theorem sexp_vars_open (M : Nat) (hM : 1 ≤ M) :
    ¬ ((sexp_vars M).gotsexp = true ∧ (sexp_vars M).level = 0) := by
  intro h
  have := h.2
  simp only [sexp_vars] at this
  omega

/-- The loop of `forward_sexp` over the lines, inside an expression at the level `L`: it
stops behind the bracket that brings the level to 0, or fails at the end of the buffer. -/
theorem forward_sexp_loop_plain (chain : List LinePtr) : ∀ (fuel : Nat) (s : State)
    (L i : Nat) (r : Option Nat), ValidBuffer s chain → chain.length ≤ fuel + s.cur.pt.n →
    1 ≤ L → flat_end (rest_text s chain) i L = some r →
    ∃ t, forward_sexp_loop fuel s (sexp_vars L) = some (t, r.isSome) ∧ MotionFrame s t ∧
      ValidBuffer t chain ∧
      (∀ e, r = some e → i < e ∧
        point_offset t chain t.cur.pt = point_offset s chain s.cur.pt + (e - i)) ∧
      (r = none → AtEob t chain ∧
        t.minibuf = some "Scan error: \x22Unbalanced parentheses\x22") := by
  intro fuel
  induction fuel with
  | zero =>
    intro s L i r hv hf
    obtain ⟨h, _⟩ := validBuffer_index hv
    omega
  | succ fuel ih =>
    intro s L i r hv hf hL hfe
    obtain ⟨hn, hp⟩ := validBuffer_index hv
    have hoff := hv.offset
    have hk : s.cur.pt.o + (line_len s s.cur.pt.p - s.cur.pt.o) = line_len s s.cur.pt.p := by
      omega
    have hm := motionFrame_forward_sexp_line (line_len s s.cur.pt.p - s.cur.pt.o) s (sexp_vars L)
    -- the text behind the line
    have hT : ∃ T, rest_text s chain = (s.lineAt s.cur.pt.p).text.drop s.cur.pt.o ++ T ∧
        ((s.cur.pt.n + 1 = chain.length ∧ T = []) ∨
         (∃ q, chain[s.cur.pt.n + 1]? = some q ∧
            T = '\n' :: rest_text (s.setPt ⟨q, s.cur.pt.n + 1, 0⟩) chain)) := by
      by_cases hlast : s.cur.pt.n + 1 = chain.length
      · exact ⟨[], by rw [List.append_nil]; exact rest_text_last s chain hv hlast,
          Or.inl ⟨hlast, rfl⟩⟩
      · have hlt : s.cur.pt.n + 1 < chain.length := by omega
        have hq : chain[s.cur.pt.n + 1]? = some chain[s.cur.pt.n + 1] :=
          List.getElem?_eq_getElem hlt
        have hv2 : ValidBuffer (s.setPt ⟨chain[s.cur.pt.n + 1], s.cur.pt.n + 1, 0⟩) chain :=
          validBuffer_setPt hv _ hq (Nat.zero_le _)
        refine ⟨_, rest_text_next s _ chain hv hv2 rfl ?_ ?_, Or.inr ⟨_, hq, rfl⟩⟩
        · rw [cur_setPt]
        · rw [cur_setPt]
    obtain ⟨T, hR, hTc⟩ := hT
    rw [hR] at hfe
    obtain ⟨a1, a2, a3⟩ := forward_sexp_line_plain (line_len s s.cur.pt.p - s.cur.pt.o) s L i T r
      hL hk hfe
    unfold forward_sexp_loop
    simp only []
    generalize forward_sexp_line (line_len s s.cur.pt.p - s.cur.pt.o) s (sexp_vars L) = w
      at a1 a2 a3 hm ⊢
    obtain ⟨w1, w2, w3⟩ := w
    simp only [] at a1 a2 a3 hm
    have hwl : w1.lineAt = s.lineAt := hm.1
    rcases a3 with ⟨e, b1, b2, b3, b4, b5⟩ | ⟨M, b1, b2, b3, b4, b5⟩
    · -- closed on this line
      subst b4
      simp only []
      have hvw : ValidBuffer w1 chain := by
        refine validBuffer_motion hv hm ⟨?_, ?_⟩
        · unfold OnChain; rw [a1, a2]; exact hv.point
        · rw [a1, b5]; omega
      refine ⟨w1, ?_, hm, hvw, ?_, ?_⟩
      · rw [b1]; rfl
      · intro e2 he2
        rw [b1] at he2
        have : e = e2 := Option.some.inj he2
        subst this
        refine ⟨b2, ?_⟩
        rw [point_offset_congr hwl]
        unfold point_offset
        rw [a2, b5]
        omega
      · intro hr; rw [hr] at b1; cases b1
    · -- the line ends inside the expression
      subst b3
      subst b4
      simp only []
      rw [if_neg (sexp_vars_open M b1)]
      have hlen : line_len w1 w1.cur.pt.p = line_len s s.cur.pt.p := by
        simp only [line_len, hwl, a1]
      rw [hlen]
      have hm1 : MotionFrame s (set_offset w1 (line_len s s.cur.pt.p)) :=
        motionFrame_trans hm (motionFrame_set_offset _ _)
      have hpt1 : (set_offset w1 (line_len s s.cur.pt.p)).cur.pt =
          ⟨s.cur.pt.p, s.cur.pt.n, line_len s s.cur.pt.p⟩ := by
        rw [set_offset_pt, ← a1, ← a2]
      have hv1 : ValidBuffer (set_offset w1 (line_len s s.cur.pt.p)) chain := by
        refine validBuffer_motion hv hm1 ⟨?_, ?_⟩
        · rw [hpt1]; exact hv.point
        · rw [hpt1]
      generalize set_offset w1 (line_len s s.cur.pt.p) = s1 at hm1 hpt1 hv1 ⊢
      have hlevel : (sexp_vars M).level ≠ 0 := by
        simp only [sexp_vars]; omega
      rcases hTc with ⟨hlast, hTn⟩ | ⟨q, hq, hTq⟩
      · -- the last line
        subst hTn
        have hr := flat_end_nil_inv b2
        subst hr
        have hnx : get_line_next s1 s1.cur.pt.p = s1.cur.limitp := by
          have := hv1.last s1.cur.pt.p (by
            rw [hpt1]
            rw [show chain.length - 1 = s.cur.pt.n by omega]
            exact hv.point)
          exact this
        rw [next_line_fail s1 hnx]
        simp only [Bool.not_false, if_true, if_pos hlevel]
        refine ⟨_, rfl, motionFrame_trans hm1 (motionFrame_minibuf_error _ _), ?_, ?_, ?_⟩
        · exact validBuffer_motion hv (motionFrame_trans hm1 (motionFrame_minibuf_error _ _))
            ⟨by show OnChain chain s1.cur.pt; exact hv1.point,
             by show s1.cur.pt.o ≤ line_len s s1.cur.pt.p; rw [hpt1]⟩
        · intro e he; cases he
        · intro _
          refine ⟨⟨?_, ?_⟩, rfl⟩
          · show s1.cur.pt.n + 1 = chain.length
            rw [hpt1]; exact hlast
          · show s1.cur.pt.o = line_len s1 s1.cur.pt.p
            rw [hpt1]; simp only [line_len, hm1.1]
      · -- a next line
        subst hTq
        have hnx : get_line_next s1 s1.cur.pt.p ≠ s1.cur.limitp := by
          have hv1n := validBuffer_next hv1 (show chain[s1.cur.pt.n + 1]? = some q by
            rw [hpt1]; exact hq)
          intro hh
          exact hv1n.2 (hv1n.1 ▸ hh)
        have hqn : get_line_next s1 s1.cur.pt.p = q :=
          (validBuffer_next hv1 (show chain[s1.cur.pt.n + 1]? = some q by
            rw [hpt1]; exact hq)).1
        obtain ⟨n1, n2⟩ := next_line_ok s1 hnx
        have hn1 : s1.cur.pt.n = s.cur.pt.n := by rw [hpt1]
        rw [hn1, hqn] at n2
        have hm2 : MotionFrame s (set_offset (next_line s1).1 0) :=
          motionFrame_trans hm1 (motionFrame_trans (motionFrame_next_line s1)
            (motionFrame_set_offset _ _))
        rw [n1]
        simp only [Bool.not_true, Bool.false_eq_true, if_false]
        have hv2 : ValidBuffer (set_offset (next_line s1).1 0) chain := by
          refine validBuffer_motion hv hm2 ⟨?_, ?_⟩
          · rw [n2]; exact hq
          · rw [n2]; exact Nat.zero_le _
        generalize set_offset (next_line s1).1 0 = s2 at n2 hm2 hv2 ⊢
        have hrest : rest_text s2 chain = rest_text (s.setPt ⟨q, s.cur.pt.n + 1, 0⟩) chain :=
          rest_text_congr (by rw [hm2.1]; rfl) (by rw [n2, cur_setPt]) chain
        rw [flat_end_newline _ _ _ b1, ← hrest] at b2
        obtain ⟨t, e1, e2, e3, e4, e5⟩ := ih s2 M _ r hv2
          (by rw [n2]; show chain.length ≤ fuel + (s.cur.pt.n + 1); omega) b1 b2
        refine ⟨t, e1, motionFrame_trans hm2 e2, e3, ?_, e5⟩
        intro e he
        obtain ⟨f1, f2⟩ := e4 e he
        refine ⟨by omega, ?_⟩
        rw [f2, point_offset_next s s2 chain hv hm2.1 (by rw [n2]) (by rw [n2])]
        omega

/-! ## forward_sexp at a bracket -/

/-- The text from point on is the rest of the line of point, followed by nothing or by a
newline and more text. -/
theorem rest_text_line (s : State) (chain : List LinePtr) (hv : ValidBuffer s chain) :
    ∃ T, rest_text s chain = (s.lineAt s.cur.pt.p).text.drop s.cur.pt.o ++ T ∧
      (T = [] ∨ ∃ U, T = '\n' :: U) := by
  obtain ⟨hn, hp⟩ := validBuffer_index hv
  by_cases hlast : s.cur.pt.n + 1 = chain.length
  · exact ⟨[], by rw [List.append_nil]; exact rest_text_last s chain hv hlast, Or.inl rfl⟩
  · have hlt : s.cur.pt.n + 1 < chain.length := by omega
    have hq : chain[s.cur.pt.n + 1]? = some chain[s.cur.pt.n + 1] :=
      List.getElem?_eq_getElem hlt
    have hv2 : ValidBuffer (s.setPt ⟨chain[s.cur.pt.n + 1], s.cur.pt.n + 1, 0⟩) chain :=
      validBuffer_setPt hv _ hq (Nat.zero_le _)
    refine ⟨_, rest_text_next s _ chain hv hv2 rfl ?_ ?_, Or.inr ⟨_, rfl⟩⟩
    · rw [cur_setPt]
    · rw [cur_setPt]

/-- When the text from point on starts with a character that is no newline, point is inside
its line and that character follows it. -/
theorem rest_text_head (s : State) (chain : List LinePtr) (hv : ValidBuffer s chain)
    (c : Char) (R : List Char) (hR : rest_text s chain = c :: R) (hc : c ≠ '\n') :
    s.cur.pt.o < line_len s s.cur.pt.p ∧ following_char s = c ∧
    rest_text (set_offset s (s.cur.pt.o + 1)) chain = R := by
  obtain ⟨T, hT, hTc⟩ := rest_text_line s chain hv
  have hoff := hv.offset
  have hlt : s.cur.pt.o < line_len s s.cur.pt.p := by
    by_contra hge
    have hd : (s.lineAt s.cur.pt.p).text.drop s.cur.pt.o = [] := by
      apply List.drop_eq_nil_of_le
      unfold line_len at hge
      omega
    rw [hd, List.nil_append, hR] at hT
    rcases hTc with h | ⟨U, h⟩
    · rw [h] at hT; cases hT
    · rw [h] at hT
      exact hc (List.cons.inj hT).1
  have hlt2 : s.cur.pt.o < (s.lineAt s.cur.pt.p).text.length := hlt
  obtain ⟨_, hf⟩ := following_char_eq s hlt
  have hd : (s.lineAt s.cur.pt.p).text.drop s.cur.pt.o =
      following_char s :: (s.lineAt s.cur.pt.p).text.drop (s.cur.pt.o + 1) := by
    rw [List.drop_eq_getElem_cons hlt2, hf, List.getD_eq_getElem _ NUL hlt2]
  rw [hd, hR, List.cons_append] at hT
  refine ⟨hlt, (List.cons.inj hT).1.symm, ?_⟩
  have h1 : rest_text (set_offset s (s.cur.pt.o + 1)) chain = (rest_text s chain).drop 1 := by
    unfold rest_text
    rw [List.drop_drop, set_offset_pt]
    have hb : buffer_text (set_offset s (s.cur.pt.o + 1)) chain = buffer_text s chain :=
      buffer_text_congr rfl chain
    have hq : point_offset (set_offset s (s.cur.pt.o + 1)) chain
        ⟨s.cur.pt.p, s.cur.pt.n, s.cur.pt.o + 1⟩ = point_offset s chain s.cur.pt + 1 := by
      rw [point_offset_congr (show (set_offset s (s.cur.pt.o + 1)).lineAt = s.lineAt from rfl)]
      rfl
    rw [hb, hq]
  rw [h1, hR]
  rfl

/-- The variables of `forward_sexp` at its start. -/
theorem forward_sexp_char_open (s : State) (h : is_open_bracket (following_char s) = true) :
    forward_sexp_char s ⟨false, 0, false, false⟩ =
      (set_offset s (s.cur.pt.o + 1), sexp_vars 1, none) := by
  obtain ⟨f1, f2, f3⟩ := open_bracket_facts h
  unfold forward_sexp_char
  simp only [forward_sexp_escape_plain s f3, Bool.false_eq_true, if_false]
  generalize following_char s = c at h f1 f2 f3 ⊢
  unfold CONTROL_SEXP_LEVEL
  simp only [isOpen_plain _ f3, isClose_plain _ f3, sexp_level_step_plain _ _ f3]
  simp [h, sexp_vars, f1]

theorem forward_sexp_char_close (s : State) (h : is_close_bracket (following_char s) = true) :
    (forward_sexp_char s ⟨false, 0, false, false⟩).1 =
      minibuf_error s "Scan error: \x22Containing expression ends prematurely\x22" ∧
    (forward_sexp_char s ⟨false, 0, false, false⟩).2.2 = some false := by
  obtain ⟨f1, f2, f3⟩ := close_bracket_facts h
  unfold forward_sexp_char
  simp only [forward_sexp_escape_plain s f3, Bool.false_eq_true, if_false]
  generalize following_char s = c at h f1 f2 f3 ⊢
  unfold CONTROL_SEXP_LEVEL
  simp only [isOpen_plain _ f3, isClose_plain _ f3, sexp_level_step_plain _ _ f3]
  simp [h, f2]

/-- Before an open bracket `forward_sexp` goes on behind it at the level 1. -/
theorem forward_sexp_loop_open (fuel : Nat) (s : State)
    (hlt : s.cur.pt.o < line_len s s.cur.pt.p)
    (h : is_open_bracket (following_char s) = true) :
    forward_sexp_loop (fuel + 1) s ⟨false, 0, false, false⟩ =
      forward_sexp_loop (fuel + 1) (set_offset s (s.cur.pt.o + 1)) (sexp_vars 1) := by
  obtain ⟨he, _⟩ := following_char_eq s hlt
  have hpt := set_offset_pt s (s.cur.pt.o + 1)
  have hl : (set_offset s (s.cur.pt.o + 1)).lineAt = s.lineAt := rfl
  have hline : forward_sexp_line (line_len s s.cur.pt.p - s.cur.pt.o) s ⟨false, 0, false, false⟩ =
      forward_sexp_line (line_len (set_offset s (s.cur.pt.o + 1))
          (set_offset s (s.cur.pt.o + 1)).cur.pt.p - (set_offset s (s.cur.pt.o + 1)).cur.pt.o)
        (set_offset s (s.cur.pt.o + 1)) (sexp_vars 1) := by
    rw [hpt]
    simp only [line_len, hl]
    have hk : (s.lineAt s.cur.pt.p).text.length - s.cur.pt.o =
        ((s.lineAt s.cur.pt.p).text.length - (s.cur.pt.o + 1)) + 1 := by
      unfold line_len at hlt; omega
    rw [hk, forward_sexp_line_succ]
    simp only [he, Bool.not_false, if_true, forward_sexp_char_open s h]
  unfold forward_sexp_loop
  simp only []
  rw [hline]

/-- Before a close bracket `forward_sexp` fails at once. -/
theorem forward_sexp_loop_close (fuel : Nat) (s : State)
    (hlt : s.cur.pt.o < line_len s s.cur.pt.p)
    (h : is_close_bracket (following_char s) = true) :
    forward_sexp_loop (fuel + 1) s ⟨false, 0, false, false⟩ =
      some (minibuf_error s "Scan error: \x22Containing expression ends prematurely\x22",
        false) := by
  obtain ⟨he, _⟩ := following_char_eq s hlt
  obtain ⟨c1, c2⟩ := forward_sexp_char_close s h
  have hk : line_len s s.cur.pt.p - s.cur.pt.o =
      (line_len s s.cur.pt.p - (s.cur.pt.o + 1)) + 1 := by omega
  unfold forward_sexp_loop
  simp only []
  rw [hk, forward_sexp_line_succ]
  simp only [he, Bool.not_false, if_true]
  generalize forward_sexp_char s ⟨false, 0, false, false⟩ = w at c1 c2 ⊢
  obtain ⟨w1, w2, w3⟩ := w
  simp only [] at c1 c2
  subst c1
  subst c2
  rfl

/-! ## The end of a nested expression -/

theorem sexp_end_cons (c : Char) (cs : List Char) (i : Nat) (stack : List Char) :
    sexp_end (c :: cs) i stack =
      if is_quote_or_backslash c then none
      else if is_open_bracket c then sexp_end cs (i + 1) (closing_bracket c :: stack)
      else if is_close_bracket c then
        match stack with
        | [] => none
        | z :: st =>
          if c = z then (if st = [] then some (i + 1) else sexp_end cs (i + 1) st) else none
      else sexp_end cs (i + 1) stack := by
  cases stack <;> rfl

theorem sexp_end_flat : ∀ (cs : List Char) (i : Nat) (stack : List Char) (e : Nat),
    stack ≠ [] → sexp_end cs i stack = some e →
    flat_end cs i stack.length = some (some e) := by
  intro cs
  induction cs with
  | nil => intro i stack e _ h; simp [sexp_end] at h
  | cons c cs ih =>
    intro i stack e hs h
    rw [sexp_end_cons] at h
    rw [flat_end]
    have hpos : 1 ≤ stack.length := by
      cases stack with
      | nil => exact absurd rfl hs
      | cons _ _ => simp
    cases hq : is_quote_or_backslash c
    · rw [hq] at h
      simp only [Bool.false_eq_true, if_false] at h ⊢
      by_cases ho : is_open_bracket c = true
      · rw [if_pos ho] at h
        have hb : bracket_level stack.length c = stack.length + 1 := by
          simp [bracket_level, ho]
        rw [hb, if_neg (by omega)]
        exact ih (i + 1) (closing_bracket c :: stack) e (by simp) h
      · rw [if_neg ho] at h
        by_cases hc : is_close_bracket c = true
        · rw [if_pos hc] at h
          have hb : bracket_level stack.length c = stack.length - 1 := by
            simp [bracket_level, ho, hc]
          cases stack with
          | nil => exact absurd rfl hs
          | cons z st =>
            simp only [] at h
            by_cases hz : c = z
            · rw [if_pos hz] at h
              rw [hb]
              by_cases hst : st = []
              · rw [if_pos hst] at h
                subst hst
                rw [if_pos (by simp)]
                rw [← Option.some.inj h]
              · rw [if_neg hst] at h
                have hlen : 1 ≤ st.length := by
                  cases st with
                  | nil => exact absurd rfl hst
                  | cons _ _ => simp
                have hl2 : (z :: st).length - 1 = st.length := by simp
                rw [hl2, if_neg (by omega)]
                exact ih (i + 1) st e hst h
            · rw [if_neg hz] at h; cases h
        · rw [if_neg hc] at h
          have hb : bracket_level stack.length c = stack.length := by
            simp [bracket_level, ho, hc]
          rw [hb, if_neg (by omega)]
          exact ih (i + 1) stack e hs h
    · rw [hq] at h; simp at h

/-- The character before the end that `sexp_end` finds is the close bracket expected
last. -/
theorem sexp_end_bracket : ∀ (cs : List Char) (i : Nat) (stack : List Char) (e : Nat),
    stack ≠ [] → sexp_end cs i stack = some e →
    i < e ∧ cs[e - 1 - i]? = stack.getLast? := by
  intro cs
  induction cs with
  | nil => intro i stack e _ h; simp [sexp_end] at h
  | cons c cs ih =>
    intro i stack e hs h
    rw [sexp_end_cons] at h
    have hstep : ∀ st : List Char, st ≠ [] → st.getLast? = stack.getLast? →
        sexp_end cs (i + 1) st = some e → i < e ∧ (c :: cs)[e - 1 - i]? = stack.getLast? := by
      intro st hne hst hh
      obtain ⟨g1, g2⟩ := ih (i + 1) st e hne hh
      refine ⟨by omega, ?_⟩
      rw [show e - 1 - i = (e - 1 - (i + 1)) + 1 by omega, List.getElem?_cons_succ, g2, hst]
    cases hq : is_quote_or_backslash c
    · rw [hq] at h
      simp only [Bool.false_eq_true, if_false] at h
      by_cases ho : is_open_bracket c = true
      · rw [if_pos ho] at h
        cases stack with
        | nil => exact absurd rfl hs
        | cons z st =>
          exact hstep (closing_bracket c :: z :: st) (by simp) (by simp [List.getLast?_cons_cons]) h
      · rw [if_neg ho] at h
        by_cases hc : is_close_bracket c = true
        · rw [if_pos hc] at h
          cases stack with
          | nil => cases h
          | cons z st =>
            simp only [] at h
            by_cases hz : c = z
            · rw [if_pos hz] at h
              by_cases hst : st = []
              · rw [if_pos hst] at h
                subst hst
                have he : e = i + 1 := (Option.some.inj h).symm
                subst he
                refine ⟨by omega, ?_⟩
                simp [hz]
              · rw [if_neg hst] at h
                cases st with
                | nil => exact absurd rfl hst
                | cons y st2 =>
                  exact hstep (y :: st2) (by simp) (by simp [List.getLast?_cons_cons]) h
            · rw [if_neg hz] at h; cases h
        · rw [if_neg hc] at h
          exact hstep stack hs rfl h
    · rw [hq] at h; simp at h

/-- The example buffer with brackets is well formed over its lines 10, 11, 12. -/
theorem exSexp_valid : ValidBuffer exSexp [10, 11, 12] :=
  { linked := ⟨rfl, rfl, rfl, rfl, trivial⟩
    first := by intro a h; cases h; rfl
    last := by intro a h; cases h; rfl
    limit := by decide
    point := rfl
    offset := by decide
    count := rfl }

theorem open_bracket_ne_newline {c : Char} (h : is_open_bracket c = true) : c ≠ '\n' := by
  rcases open_bracket_cases h with rfl | rfl | rfl <;> decide

theorem close_bracket_ne_newline {c : Char} (h : is_close_bracket c = true) : c ≠ '\n' := by
  rcases close_bracket_cases h with rfl | rfl | rfl <;> decide

/-- Behind an open bracket: the state in which `forward_sexp` goes on, at the level 1. -/
theorem forward_sexp_open_step (s : State) (chain : List LinePtr) (fuel : Nat) (a : Char)
    (R : List Char) (hv : ValidBuffer s chain) (hf : chain.length ≤ fuel)
    (hR : rest_text s chain = a :: R) (ha : is_open_bracket a = true) :
    ∃ f, fuel = f + 1 ∧
      forward_sexp fuel s = forward_sexp_loop (f + 1) (set_offset s (s.cur.pt.o + 1)) (sexp_vars 1) ∧
      ValidBuffer (set_offset s (s.cur.pt.o + 1)) chain ∧
      rest_text (set_offset s (s.cur.pt.o + 1)) chain = R ∧
      (set_offset s (s.cur.pt.o + 1)).cur.pt.n = s.cur.pt.n ∧
      point_offset (set_offset s (s.cur.pt.o + 1)) chain (set_offset s (s.cur.pt.o + 1)).cur.pt =
        point_offset s chain s.cur.pt + 1 := by
  obtain ⟨hlt, hfc, hrest⟩ := rest_text_head s chain hv a R hR (open_bracket_ne_newline ha)
  obtain ⟨hn, _⟩ := validBuffer_index hv
  obtain ⟨f, rfl⟩ : ∃ f, fuel = f + 1 := ⟨fuel - 1, by omega⟩
  refine ⟨f, rfl, ?_, ?_, hrest, ?_, ?_⟩
  · unfold forward_sexp
    exact forward_sexp_loop_open f s hlt (by rw [hfc]; exact ha)
  · exact validBuffer_setPt hv _ hv.point (by show s.cur.pt.o + 1 ≤ line_len s s.cur.pt.p; omega)
  · rw [set_offset_pt]
  · rw [set_offset_pt,
      point_offset_congr (show (set_offset s (s.cur.pt.o + 1)).lineAt = s.lineAt from rfl)]
    rfl

/-- C27: `forward_sexp` moves across one balanced expression. On a well-formed buffer with
the lines `chain`, with fuel for every line, when the text from point on is an open bracket
`a` followed by `R` and `sexp_end` finds the end `e` of the properly nested expression
that `a` starts (no quote and no backslash in it; the text may span several lines), the
function returns `TRUE`, changes no line, and leaves point `e` characters behind its old
place: immediately behind the close bracket that matches `a`, the character `e - 1` of the
text from the old point on. -/
theorem forward_sexp_balanced (s : State) (chain : List LinePtr) (fuel : Nat) (a : Char)
    (R : List Char) (e : Nat) (hv : ValidBuffer s chain) (hf : chain.length ≤ fuel)
    (hR : rest_text s chain = a :: R) (ha : is_open_bracket a = true)
    (he : sexp_end R 1 [closing_bracket a] = some e) :
    ∃ t, forward_sexp fuel s = some (t, true) ∧ t.lineAt = s.lineAt ∧ ValidBuffer t chain ∧
      point_offset t chain t.cur.pt = point_offset s chain s.cur.pt + e ∧
      (rest_text s chain)[e - 1]? = some (closing_bracket a) := by
  obtain ⟨f, rfl, h1, h2, h3, h4, h5⟩ := forward_sexp_open_step s chain fuel a R hv hf hR ha
  have hfl := sexp_end_flat R 1 [closing_bracket a] e (by simp) he
  rw [← h3] at hfl
  obtain ⟨t, e1, e2, e3, e4, _⟩ := forward_sexp_loop_plain chain (f + 1) _ 1 1 (some e) h2
    (by omega) (le_refl _) hfl
  obtain ⟨g1, g2⟩ := e4 e rfl
  obtain ⟨b1, b2⟩ := sexp_end_bracket R 1 [closing_bracket a] e (by simp) he
  refine ⟨t, by rw [h1, e1]; rfl, e2.1, e3, ?_, ?_⟩
  · rw [g2, h5]; omega
  · rw [hR, show e - 1 = (e - 1 - 1) + 1 by omega, List.getElem?_cons_succ, b2]
    rfl

theorem forward_sexp_balanced_witness :
    ∃ t, forward_sexp 3 exSexp = some (t, true) ∧
      point_offset t [10, 11, 12] t.cur.pt = point_offset exSexp [10, 11, 12] exSexp.cur.pt + 10 ∧
      (rest_text exSexp [10, 11, 12])[9]? = some ')' :=
  let ⟨t, h1, _, _, h4, h5⟩ := forward_sexp_balanced exSexp [10, 11, 12] 3 '('
    "a[b\nc] d)y\n)(z".toList 10 exSexp_valid (by decide) (by decide) (by decide) (by decide)
  ⟨t, h1, h4, h5⟩

/-! ## setcase_word on the word at point -/

theorem preceding_char_eq (s : State) (h : 0 < s.cur.pt.o) :
    bolp s = false ∧
    preceding_char s = (s.lineAt s.cur.pt.p).text.getD (s.cur.pt.o - 1) NUL := by
  have hne : s.cur.pt.o ≠ 0 := Nat.ne_of_gt h
  have hb : bolp s = false := by simp [bolp, hne]
  have hbo : bobp s = false := by simp [bobp, hne]
  exact ⟨hb, by simp [preceding_char, char_before, hb, hbo]⟩

theorem backward_word_line_zero (s : State) (g : Bool) :
    backward_word_line 0 s g = (s, false, g) := rfl

theorem backward_word_line_succ (k : Nat) (s : State) (g : Bool) :
    backward_word_line (k + 1) s g =
      if !bolp s then
        if !ISWORDCHAR (preceding_char s) then
          if g then (s, true, g)
          else backward_word_line k (set_offset s (s.cur.pt.o - 1)) g
        else backward_word_line k (set_offset s (s.cur.pt.o - 1)) true
      else (s, false, g) := rfl

/-- The loop of `backward_word` inside a word: from an offset behind word characters down
to the offset `o` where the word starts. -/
theorem backward_word_line_word (o : Nat) : ∀ (j : Nat) (s : State) (g : Bool),
    s.cur.pt.o = o + j → (g = true ∨ 0 < j) →
    s.cur.pt.o ≤ line_len s s.cur.pt.p →
    (∀ i, o ≤ i → i < o + j → line_word (s.lineAt s.cur.pt.p).text i = true) →
    (o = 0 ∨ line_word (s.lineAt s.cur.pt.p).text (o - 1) = false) →
    MotionFrame s (backward_word_line (o + j) s g).1 ∧
    (backward_word_line (o + j) s g).1.cur.pt = ⟨s.cur.pt.p, s.cur.pt.n, o⟩ ∧
    ((backward_word_line (o + j) s g).2.1 = true ∨
      (backward_word_line (o + j) s g).2.2 = true) := by
  intro j
  induction j with
  | zero =>
    intro s g hx hg hlen _ hstart
    have hgt : g = true := by
      rcases hg with h | h
      · exact h
      · exact absurd h (Nat.lt_irrefl 0)
    subst hgt
    have hpt : s.cur.pt = ⟨s.cur.pt.p, s.cur.pt.n, o⟩ := by
      have : s.cur.pt.o = o := hx
      rw [← this]
    rcases Nat.eq_zero_or_pos o with h0 | hpos
    · subst h0
      exact ⟨motionFrame_refl s, hpt, Or.inr rfl⟩
    · have hx0 : 0 < s.cur.pt.o := by rw [hx]; exact hpos
      obtain ⟨hb, hc⟩ := preceding_char_eq s hx0
      have hw : line_word (s.lineAt s.cur.pt.p).text (o - 1) = false := by
        rcases hstart with h | h
        · omega
        · exact h
      have hlt : o - 1 < (s.lineAt s.cur.pt.p).text.length := by
        unfold line_len at hlen; omega
      rw [line_word_lt hlt] at hw
      have hc2 : ISWORDCHAR (preceding_char s) = false := by
        rw [hc, hx]; exact hw
      obtain ⟨k, hk⟩ : ∃ k, o + 0 = k + 1 := ⟨o - 1, by omega⟩
      rw [hk, backward_word_line_succ]
      simp only [hb, hc2, Bool.not_false, if_true]
      exact ⟨motionFrame_refl s, hpt, Or.inl trivial⟩
  | succ j ih =>
    intro s g hx hg hlen hword hstart
    have hx0 : 0 < s.cur.pt.o := by omega
    obtain ⟨hb, hc⟩ := preceding_char_eq s hx0
    have hlt : s.cur.pt.o - 1 < (s.lineAt s.cur.pt.p).text.length := by
      unfold line_len at hlen; omega
    have hw := hword (s.cur.pt.o - 1) (by omega) (by omega)
    rw [line_word_lt hlt] at hw
    have hc2 : ISWORDCHAR (preceding_char s) = true := by rw [hc]; exact hw
    have hpt := set_offset_pt s (s.cur.pt.o - 1)
    have hl : (set_offset s (s.cur.pt.o - 1)).lineAt = s.lineAt := rfl
    rw [show o + (j + 1) = (o + j) + 1 by omega, backward_word_line_succ]
    simp only [hb, hc2, Bool.not_false, Bool.not_true, Bool.false_eq_true, if_true, if_false]
    have a := ih (set_offset s (s.cur.pt.o - 1)) true (by rw [hpt]; show s.cur.pt.o - 1 = o + j; omega)
      (Or.inl rfl)
      (by rw [hpt]; simp only [line_len, hl]; unfold line_len at hlen; omega)
      (by rw [hpt]; simp only [hl]; intro i h1 h2; exact hword i h1 (by omega))
      (by rw [hpt]; simp only [hl]; exact hstart)
    rw [hpt] at a
    exact ⟨motionFrame_trans (motionFrame_set_offset s _) a.1, a.2.1, a.2.2⟩


theorem backward_word_loop_succ (fuel : Nat) (s : State) (g : Bool) :
    backward_word_loop (fuel + 1) s g =
      if !(if bolp s then previous_line s else (s, true)).2 then
        some ((if bolp s then previous_line s else (s, true)).1, false)
      else
        if (backward_word_line
            (if bolp s then set_offset (if bolp s then previous_line s else (s, true)).1
                (line_len (if bolp s then previous_line s else (s, true)).1
                  (if bolp s then previous_line s else (s, true)).1.cur.pt.p)
              else (if bolp s then previous_line s else (s, true)).1).cur.pt.o
            (if bolp s then set_offset (if bolp s then previous_line s else (s, true)).1
                (line_len (if bolp s then previous_line s else (s, true)).1
                  (if bolp s then previous_line s else (s, true)).1.cur.pt.p)
              else (if bolp s then previous_line s else (s, true)).1) g).2.1 then
          some ((backward_word_line
            (if bolp s then set_offset (if bolp s then previous_line s else (s, true)).1
                (line_len (if bolp s then previous_line s else (s, true)).1
                  (if bolp s then previous_line s else (s, true)).1.cur.pt.p)
              else (if bolp s then previous_line s else (s, true)).1).cur.pt.o
            (if bolp s then set_offset (if bolp s then previous_line s else (s, true)).1
                (line_len (if bolp s then previous_line s else (s, true)).1
                  (if bolp s then previous_line s else (s, true)).1.cur.pt.p)
              else (if bolp s then previous_line s else (s, true)).1) g).1, true)
        else if (backward_word_line
            (if bolp s then set_offset (if bolp s then previous_line s else (s, true)).1
                (line_len (if bolp s then previous_line s else (s, true)).1
                  (if bolp s then previous_line s else (s, true)).1.cur.pt.p)
              else (if bolp s then previous_line s else (s, true)).1).cur.pt.o
            (if bolp s then set_offset (if bolp s then previous_line s else (s, true)).1
                (line_len (if bolp s then previous_line s else (s, true)).1
                  (if bolp s then previous_line s else (s, true)).1.cur.pt.p)
              else (if bolp s then previous_line s else (s, true)).1) g).2.2 then
          some ((backward_word_line
            (if bolp s then set_offset (if bolp s then previous_line s else (s, true)).1
                (line_len (if bolp s then previous_line s else (s, true)).1
                  (if bolp s then previous_line s else (s, true)).1.cur.pt.p)
              else (if bolp s then previous_line s else (s, true)).1).cur.pt.o
            (if bolp s then set_offset (if bolp s then previous_line s else (s, true)).1
                (line_len (if bolp s then previous_line s else (s, true)).1
                  (if bolp s then previous_line s else (s, true)).1.cur.pt.p)
              else (if bolp s then previous_line s else (s, true)).1) g).1, true)
        else backward_word_loop fuel (backward_word_line
            (if bolp s then set_offset (if bolp s then previous_line s else (s, true)).1
                (line_len (if bolp s then previous_line s else (s, true)).1
                  (if bolp s then previous_line s else (s, true)).1.cur.pt.p)
              else (if bolp s then previous_line s else (s, true)).1).cur.pt.o
            (if bolp s then set_offset (if bolp s then previous_line s else (s, true)).1
                (line_len (if bolp s then previous_line s else (s, true)).1
                  (if bolp s then previous_line s else (s, true)).1.cur.pt.p)
              else (if bolp s then previous_line s else (s, true)).1) g).1
          (backward_word_line
            (if bolp s then set_offset (if bolp s then previous_line s else (s, true)).1
                (line_len (if bolp s then previous_line s else (s, true)).1
                  (if bolp s then previous_line s else (s, true)).1.cur.pt.p)
              else (if bolp s then previous_line s else (s, true)).1).cur.pt.o
            (if bolp s then set_offset (if bolp s then previous_line s else (s, true)).1
                (line_len (if bolp s then previous_line s else (s, true)).1
                  (if bolp s then previous_line s else (s, true)).1.cur.pt.p)
              else (if bolp s then previous_line s else (s, true)).1) g).2.2 := rfl

/-- Inside its line `backward_word` scans the line of point first. -/
theorem backward_word_loop_inline (fuel : Nat) (s : State) (g : Bool) (h : bolp s = false) :
    backward_word_loop (fuel + 1) s g =
      if (backward_word_line s.cur.pt.o s g).2.1 then
        some ((backward_word_line s.cur.pt.o s g).1, true)
      else if (backward_word_line s.cur.pt.o s g).2.2 then
        some ((backward_word_line s.cur.pt.o s g).1, true)
      else backward_word_loop fuel (backward_word_line s.cur.pt.o s g).1
        (backward_word_line s.cur.pt.o s g).2.2 := by
  rw [backward_word_loop_succ]
  simp only [h, Bool.false_eq_true, if_false, Bool.not_true]

/-- From the end of a word `backward_word` goes to its start. -/
theorem backward_word_from_end (fuel : Nat) (s : State) (o j : Nat) (hj : 0 < j)
    (hx : s.cur.pt.o = o + j) (hlen : s.cur.pt.o ≤ line_len s s.cur.pt.p)
    (hword : ∀ i, o ≤ i → i < o + j → line_word (s.lineAt s.cur.pt.p).text i = true)
    (hstart : o = 0 ∨ line_word (s.lineAt s.cur.pt.p).text (o - 1) = false) :
    ∃ t, backward_word (fuel + 1) s = some (t, true) ∧ MotionFrame s t ∧
      t.cur.pt = ⟨s.cur.pt.p, s.cur.pt.n, o⟩ := by
  have hb : bolp s = false := by
    have : s.cur.pt.o ≠ 0 := by omega
    simp [bolp, this]
  obtain ⟨a1, a2, a3⟩ := backward_word_line_word o j s false hx (Or.inr hj) hlen hword hstart
  unfold backward_word
  rw [backward_word_loop_inline fuel s false hb, hx]
  generalize backward_word_line (o + j) s false = r at a1 a2 a3 ⊢
  refine ⟨r.1, ?_, a1, a2⟩
  rcases a3 with h | h
  · rw [if_pos h]
  · by_cases h1 : r.2.1 = true
    · rw [if_pos h1]
    · rw [if_neg h1, if_pos h]


theorem setcase_word_end_spec (l : List Char) (e : Nat) : ∀ (k i : Nat),
    i ≤ e → e ≤ i + k → (∀ j, i ≤ j → j < e → line_word l j = true) →
    line_word l e = false → setcase_word_end l k i = e := by
  intro k
  induction k with
  | zero => intro i h1 h2 _ _; simp only [setcase_word_end]; omega
  | succ k ih =>
    intro i h1 h2 hw he
    rw [setcase_word_end]
    by_cases hlt : i < l.length
    · rw [if_pos hlt]
      by_cases hie : i = e
      · subst hie
        rw [line_word_lt hlt] at he
        rw [he]
        rfl
      · have hwi := hw i (le_refl _) (by omega)
        rw [line_word_lt hlt] at hwi
        simp only [hwi, Bool.not_true, Bool.false_eq_true, if_false]
        exact ih (i + 1) (by omega) (by omega) (fun j a b => hw j (by omega) b) he
    · rw [if_neg hlt]
      by_contra hne
      have hwi := hw i (le_refl _) (by omega)
      rw [line_word_ge (by omega)] at hwi
      cases hwi

theorem list_set_self (l : List Char) (i : Nat) (h : i < l.length) : l.set i l[i] = l := by
  apply List.ext_getElem?
  intro j
  rw [List.getElem?_set]
  by_cases hij : i = j
  · subst hij
    rw [if_pos rfl, if_pos h, List.getElem?_eq_getElem h]
  · rw [if_neg hij]

theorem line_word_set_ne (l : List Char) (x : Nat) (c : Char) (i : Nat) (h : i ≠ x) :
    line_word (l.set x c) i = line_word l i := by
  unfold line_word
  rw [List.getElem?_set_ne (Ne.symm h)]

/-- The state behind the assignment of one round of the second loop of `setcase_word`. -/
theorem setcase_word_assign (s : State) (rcase : Int) (g : Bool)
    (hlt : s.cur.pt.o < line_len s s.cur.pt.p) :
    (if ((s.lineAt s.cur.pt.p).text.getD s.cur.pt.o NUL).isAlpha = true ∧
        (s.lineAt s.cur.pt.p).text.getD s.cur.pt.o NUL ≠
          setcase_word_newc rcase g ((s.lineAt s.cur.pt.p).text.getD s.cur.pt.o NUL)
      then set_line_char s s.cur.pt.p s.cur.pt.o
        (setcase_word_newc rcase g ((s.lineAt s.cur.pt.p).text.getD s.cur.pt.o NUL))
      else s) =
    set_line_char s s.cur.pt.p s.cur.pt.o
      (setcase_word_put rcase g ((s.lineAt s.cur.pt.p).text.getD s.cur.pt.o NUL)) := by
  have hlt2 : s.cur.pt.o < (s.lineAt s.cur.pt.p).text.length := hlt
  have hself : set_line_char s s.cur.pt.p s.cur.pt.o
      ((s.lineAt s.cur.pt.p).text.getD s.cur.pt.o NUL) = s := by
    unfold set_line_char State.setLine
    have : (s.lineAt s.cur.pt.p).text.set s.cur.pt.o
        ((s.lineAt s.cur.pt.p).text.getD s.cur.pt.o NUL) = (s.lineAt s.cur.pt.p).text := by
      rw [List.getD_eq_getElem _ NUL hlt2]
      exact list_set_self _ _ hlt2
    rw [this]
    have hf : (fun q => if q = s.cur.pt.p then
        { prev := (s.lineAt s.cur.pt.p).prev, next := (s.lineAt s.cur.pt.p).next,
          text := (s.lineAt s.cur.pt.p).text } else s.lineAt q) = s.lineAt := by
      funext q
      split
      · next h => rw [h]
      · rfl
    rw [hf]
  generalize (s.lineAt s.cur.pt.p).text.getD s.cur.pt.o NUL = c at hself ⊢
  unfold setcase_word_put
  by_cases ha : c.isAlpha = true
  · rw [if_pos ha]
    by_cases hn : c = setcase_word_newc rcase g c
    · rw [if_neg (by intro h; exact h.2 hn), ← hn, hself]
    · rw [if_pos ⟨ha, hn⟩]
  · rw [if_neg (by intro h; exact ha h.1), if_neg ha, hself]

theorem set_line_char_cur (s : State) (p : LinePtr) (o : Nat) (c : Char) :
    (set_line_char s p o c).cur = s.cur := rfl

theorem set_line_char_apply (s : State) (p : LinePtr) (o : Nat) (c : Char) (q : LinePtr) :
    (set_line_char s p o c).lineAt q =
      if q = p then { s.lineAt p with text := (s.lineAt p).text.set o c } else s.lineAt q := rfl

theorem setcase_word_loop_succ (rcase : Int) (k : Nat) (s : State) (g : Bool)
    (hlt : s.cur.pt.o < line_len s s.cur.pt.p) :
    setcase_word_loop rcase (k + 1) s g =
      if !ISWORDCHAR ((s.lineAt s.cur.pt.p).text.getD s.cur.pt.o NUL) then s
      else setcase_word_loop rcase k
        (set_offset (set_line_char s s.cur.pt.p s.cur.pt.o
          (setcase_word_put rcase g ((s.lineAt s.cur.pt.p).text.getD s.cur.pt.o NUL)))
          (s.cur.pt.o + 1)) true := by
  rw [setcase_word_loop, if_pos hlt, setcase_word_assign s rcase g hlt]

/-- The second loop of `setcase_word` from inside a word that ends at the offset `e`. -/
theorem setcase_word_loop_spec (rcase : Int) (e : Nat) : ∀ (k : Nat) (s : State) (g : Bool),
    s.cur.pt.o + k = line_len s s.cur.pt.p → s.cur.pt.o ≤ e →
    (∀ i, s.cur.pt.o ≤ i → i < e → line_word (s.lineAt s.cur.pt.p).text i = true) →
    line_word (s.lineAt s.cur.pt.p).text e = false →
    (setcase_word_loop rcase k s g).cur_bp = s.cur_bp ∧
    (setcase_word_loop rcase k s g).cur = { s.cur with pt := ⟨s.cur.pt.p, s.cur.pt.n, e⟩ } ∧
    (setcase_word_loop rcase k s g).undo_nosave = s.undo_nosave ∧
    (∀ q, q ≠ s.cur.pt.p → (setcase_word_loop rcase k s g).lineAt q = s.lineAt q) ∧
    ((setcase_word_loop rcase k s g).lineAt s.cur.pt.p).next = (s.lineAt s.cur.pt.p).next ∧
    ((setcase_word_loop rcase k s g).lineAt s.cur.pt.p).prev = (s.lineAt s.cur.pt.p).prev ∧
    ((setcase_word_loop rcase k s g).lineAt s.cur.pt.p).text.length =
      (s.lineAt s.cur.pt.p).text.length ∧
    (∀ i, i < s.cur.pt.o ∨ e ≤ i →
      ((setcase_word_loop rcase k s g).lineAt s.cur.pt.p).text[i]? =
        (s.lineAt s.cur.pt.p).text[i]?) ∧
    (∀ i, s.cur.pt.o ≤ i → i < e →
      ((setcase_word_loop rcase k s g).lineAt s.cur.pt.p).text[i]? =
        (s.lineAt s.cur.pt.p).text[i]?.map
          (setcase_word_put rcase (g || decide (s.cur.pt.o < i)))) := by
  intro k
  induction k with
  | zero =>
    intro s g hk hxe hw he
    have hk2 : s.cur.pt.o = line_len s s.cur.pt.p := hk
    have hee : s.cur.pt.o = e := by
      by_contra hne
      have := hw s.cur.pt.o (le_refl _) (by omega)
      rw [line_word_ge (by unfold line_len at hk2; omega)] at this
      cases this
    have hpt : (⟨s.cur.pt.p, s.cur.pt.n, e⟩ : Point) = s.cur.pt := by rw [← hee]
    have h0 : setcase_word_loop rcase 0 s g = s := rfl
    rw [h0, hpt]
    exact ⟨rfl, rfl, rfl, fun _ _ => rfl, rfl, rfl, rfl, fun _ _ => rfl,
      fun i h1 h2 => absurd h2 (by omega)⟩
  | succ k ih =>
    intro s g hk hxe hw he
    have hlt : s.cur.pt.o < line_len s s.cur.pt.p := by omega
    have hlt2 : s.cur.pt.o < (s.lineAt s.cur.pt.p).text.length := hlt
    rw [setcase_word_loop_succ rcase k s g hlt]
    by_cases hee : s.cur.pt.o = e
    · have hwe : ISWORDCHAR ((s.lineAt s.cur.pt.p).text.getD s.cur.pt.o NUL) = false := by
        rw [← line_word_lt hlt2, hee]; exact he
      have hpt : (⟨s.cur.pt.p, s.cur.pt.n, e⟩ : Point) = s.cur.pt := by rw [← hee]
      rw [if_pos (by rw [hwe]; rfl), hpt]
      exact ⟨rfl, rfl, rfl, fun _ _ => rfl, rfl, rfl, rfl, fun _ _ => rfl,
        fun i h1 h2 => absurd h2 (by omega)⟩
    · have hww : ISWORDCHAR ((s.lineAt s.cur.pt.p).text.getD s.cur.pt.o NUL) = true := by
        rw [← line_word_lt hlt2]; exact hw _ (le_refl _) (by omega)
      simp only [hww, Bool.not_true, Bool.false_eq_true, if_false]
      generalize hc : setcase_word_put rcase g ((s.lineAt s.cur.pt.p).text.getD s.cur.pt.o NUL)
        = c
      have hcur : (set_offset (set_line_char s s.cur.pt.p s.cur.pt.o c) (s.cur.pt.o + 1)).cur =
          { s.cur with pt := ⟨s.cur.pt.p, s.cur.pt.n, s.cur.pt.o + 1⟩ } := by
        unfold set_offset
        rw [cur_setPt, set_line_char_cur]
      have hline : ∀ q, (set_offset (set_line_char s s.cur.pt.p s.cur.pt.o c)
          (s.cur.pt.o + 1)).lineAt q =
          if q = s.cur.pt.p then
            { s.lineAt s.cur.pt.p with text := (s.lineAt s.cur.pt.p).text.set s.cur.pt.o c }
          else s.lineAt q := fun q => set_line_char_apply s _ _ c q
      have hbp : (set_offset (set_line_char s s.cur.pt.p s.cur.pt.o c)
          (s.cur.pt.o + 1)).cur_bp = s.cur_bp := rfl
      have hns : (set_offset (set_line_char s s.cur.pt.p s.cur.pt.o c)
          (s.cur.pt.o + 1)).undo_nosave = s.undo_nosave := rfl
      have hih := ih (set_offset (set_line_char s s.cur.pt.p s.cur.pt.o c) (s.cur.pt.o + 1)) true
      generalize set_offset (set_line_char s s.cur.pt.p s.cur.pt.o c) (s.cur.pt.o + 1) = u
        at hcur hline hbp hns hih ⊢
      have hup : u.cur.pt = ⟨s.cur.pt.p, s.cur.pt.n, s.cur.pt.o + 1⟩ := by rw [hcur]
      have hul : (u.lineAt u.cur.pt.p).text = (s.lineAt s.cur.pt.p).text.set s.cur.pt.o c := by
        rw [hup, hline, if_pos rfl]
      rw [hup] at hih
      simp only [line_len, hline, if_true] at hih
      simp only [List.length_set] at hih
      obtain ⟨b1, b2, b3, b4, b5, b6, b7, b8, b9⟩ := hih (by unfold line_len at hk; omega)
        (by omega)
        (by intro i h1 h2; rw [line_word_set_ne _ _ _ _ (by omega)]; exact hw i (by omega) h2)
        (by rw [line_word_set_ne _ _ _ _ (by omega)]; exact he)
      refine ⟨b1.trans hbp, ?_, b3.trans hns, ?_, b5, b6, b7, ?_, ?_⟩
      · rw [b2, hcur]
      · intro q hq
        have := b4 q hq
        simpa [hline, hq] using this
      · intro i hi
        rw [b8 i (by omega), List.getElem?_set_ne (by omega)]
      · intro i h1 h2
        by_cases hix : i = s.cur.pt.o
        · subst hix
          rw [b8 _ (Or.inl (Nat.lt_succ_self _)), List.getElem?_set_self hlt2,
            List.getElem?_eq_getElem hlt2, ← hc, List.getD_eq_getElem _ NUL hlt2]
          simp
        · rw [b9 i (by omega) h2, List.getElem?_set_ne (by omega)]
          have h3 : decide (s.cur.pt.o + 1 < i) = true ∨ True := Or.inr trivial
          have h4 : (g || decide (s.cur.pt.o < i)) = true := by
            have : s.cur.pt.o < i := by omega
            simp [this]
          rw [h4]
          simp

theorem setcase_word_put_word_case (rcase : Int) (o i : Nat) (c : Char) (h : o ≤ i) :
    setcase_word_put rcase (false || decide (o < i)) c = word_case rcase (i - o) c := by
  unfold setcase_word_put word_case setcase_word_newc
  by_cases hi : o < i
  · have : ¬ (i - o = 0) := by omega
    simp [hi, this]
  · have : i - o = 0 := by omega
    simp [hi, this]

/-- The word `o .. e - 1` of the line of point and the movements of `setcase_word`: with
point at the first character of the word, `forward_word` and then `backward_word` come
back to point. -/
theorem setcase_word_moves (s : State) (chain : List LinePtr) (fuel : Nat) (e : Nat)
    (hv : ValidBuffer s chain) (hf : chain.length ≤ fuel) (he : s.cur.pt.o < e)
    (hword : ∀ i, s.cur.pt.o ≤ i → i < e → line_word (s.lineAt s.cur.pt.p).text i = true)
    (hend : line_word (s.lineAt s.cur.pt.p).text e = false)
    (hstart : s.cur.pt.o = 0 ∨ line_word (s.lineAt s.cur.pt.p).text (s.cur.pt.o - 1) = false) :
    ∃ t1 t2, forward_word fuel s = some (t1, true) ∧ backward_word fuel t1 = some (t2, true) ∧
      MotionFrame s t2 ∧ t2.cur.pt = s.cur.pt := by
  obtain ⟨hn, hp⟩ := validBuffer_index hv
  have hline : ∀ i, word_at s chain s.cur.pt.n i = line_word (s.lineAt s.cur.pt.p).text i :=
    fun i => word_at_line hv.point i
  obtain ⟨t1, b, h1, m1, v1, hp1, hp2⟩ := forward_word_loop_spec chain fuel s hv
    (Nat.le_trans hf (Nat.le_add_right _ _))
  have hw0 : word_at s chain s.cur.pt.n s.cur.pt.o = true := by
    rw [hline]; exact hword _ (le_refl _) he
  have hb : b = true := by
    cases b
    · have := (hp2 rfl).1 s.cur.pt.n s.cur.pt.o (Or.inr ⟨rfl, le_refl _⟩)
      rw [hw0] at this; cases this
    · rfl
  subst hb
  obtain ⟨n1, o1, f1, f2, f3, f4, f5, f6⟩ := hp1 rfl
  have hfirst := f2 s.cur.pt.n s.cur.pt.o (Or.inr ⟨rfl, le_refl _⟩) hw0
  have hn1 : n1 = s.cur.pt.n := by
    rcases f1 with h | ⟨h, _⟩ <;> rcases hfirst with h2 | ⟨h2, _⟩ <;> omega
  have ho1 : o1 = s.cur.pt.o := by
    rcases f1 with h | ⟨_, h⟩ <;> rcases hfirst with h2 | ⟨_, h2⟩ <;> omega
  subst hn1
  subst ho1
  have hte : t1.cur.pt.o = e := by
    rw [hline] at f6
    by_contra hne
    rcases Nat.lt_or_gt_of_ne hne with h | h
    · have := hword t1.cur.pt.o (by omega) h
      rw [f6] at this; cases this
    · have := f5 e (by omega) h
      rw [hline, hend] at this; cases this
  have htp : t1.cur.pt.p = s.cur.pt.p := by
    have h1p := v1.point
    unfold OnChain at h1p
    rw [f3, hv.point] at h1p
    exact (Option.some.inj h1p).symm
  have hl1 : t1.lineAt = s.lineAt := m1.1
  obtain ⟨f, rfl⟩ : ∃ f, fuel = f + 1 := ⟨fuel - 1, by omega⟩
  obtain ⟨t2, h2, m2, hp2⟩ := backward_word_from_end f t1 s.cur.pt.o (e - s.cur.pt.o) (by omega)
    (by rw [hte]; omega)
    (by
      rw [hte, htp]
      simp only [line_len, hl1]
      have := hend
      by_contra hgt
      have hwe := hword s.cur.pt.o (le_refl _) he
      have : (s.lineAt s.cur.pt.p).text.length < e := by omega
      have h3 := hword ((s.lineAt s.cur.pt.p).text.length) ?_ this
      · rw [line_word_ge (le_refl _)] at h3; cases h3
      · have := hv.offset
        exact this)
    (by rw [htp, hl1]; intro i a b; exact hword i a (by omega))
    (by rw [htp, hl1]; exact hstart)
  refine ⟨t1, t2, h1, h2, motionFrame_trans m1 m2, ?_⟩
  rw [hp2, htp, f3]


/-- The conversion of `setcase_word` with point at the offset `o` before the word
characters `o .. e - 1` (none when `e = o`). -/
theorem setcase_word_convert_spec (u : State) (rcase : Int) (e : Nat)
    (he : u.cur.pt.o ≤ e) (hoff : u.cur.pt.o ≤ line_len u u.cur.pt.p)
    (hword : ∀ i, u.cur.pt.o ≤ i → i < e → line_word (u.lineAt u.cur.pt.p).text i = true)
    (hend : line_word (u.lineAt u.cur.pt.p).text e = false) :
    (setcase_word_convert u rcase).cur_bp = u.cur_bp ∧
    (setcase_word_convert u rcase).cur =
      { (if u.cur.pt.o < e then
          undo_save u UndoType.UNDO_REPLACE_BLOCK u.cur.pt ((e - u.cur.pt.o : Nat) : Int)
            ((e - u.cur.pt.o : Nat) : Int) else u).cur with
        pt := ⟨u.cur.pt.p, u.cur.pt.n, e⟩
        modified := true } ∧
    (setcase_word_convert u rcase).undo_nosave = u.undo_nosave ∧
    (∀ q, q ≠ u.cur.pt.p → (setcase_word_convert u rcase).lineAt q = u.lineAt q) ∧
    ((setcase_word_convert u rcase).lineAt u.cur.pt.p).next = (u.lineAt u.cur.pt.p).next ∧
    ((setcase_word_convert u rcase).lineAt u.cur.pt.p).prev = (u.lineAt u.cur.pt.p).prev ∧
    ((setcase_word_convert u rcase).lineAt u.cur.pt.p).text.length =
      (u.lineAt u.cur.pt.p).text.length ∧
    (∀ i, i < u.cur.pt.o ∨ e ≤ i →
      ((setcase_word_convert u rcase).lineAt u.cur.pt.p).text[i]? =
        (u.lineAt u.cur.pt.p).text[i]?) ∧
    (∀ i, u.cur.pt.o ≤ i → i < e →
      ((setcase_word_convert u rcase).lineAt u.cur.pt.p).text[i]? =
        (u.lineAt u.cur.pt.p).text[i]?.map (word_case rcase (i - u.cur.pt.o))) := by
  have hele : e ≤ line_len u u.cur.pt.p := by
    by_contra hgt
    have h3 := hword (line_len u u.cur.pt.p) hoff (by omega)
    rw [show line_word (u.lineAt u.cur.pt.p).text (line_len u u.cur.pt.p) = false from
      line_word_ge (Nat.le_refl _)] at h3
    cases h3
  have hend_i := setcase_word_end_spec (u.lineAt u.cur.pt.p).text e
    (line_len u u.cur.pt.p - u.cur.pt.o) u.cur.pt.o (by omega) (by omega) hword hend
  unfold setcase_word_convert
  simp only []
  rw [hend_i]
  have hcond : (e - u.cur.pt.o > 0) = (u.cur.pt.o < e) := by
    apply propext; constructor <;> intro h <;> omega
  simp only [hcond]
  have c1 : (if u.cur.pt.o < e then
      undo_save u UndoType.UNDO_REPLACE_BLOCK u.cur.pt ((e - u.cur.pt.o : Nat) : Int)
        ((e - u.cur.pt.o : Nat) : Int) else u).cur.pt = u.cur.pt := by
    split
    · rw [undo_save_cur]
    · rfl
  have c2 : (if u.cur.pt.o < e then
      undo_save u UndoType.UNDO_REPLACE_BLOCK u.cur.pt ((e - u.cur.pt.o : Nat) : Int)
        ((e - u.cur.pt.o : Nat) : Int) else u).lineAt = u.lineAt := by
    split
    · rw [undo_save_lineAt]
    · rfl
  have c3 : (if u.cur.pt.o < e then
      undo_save u UndoType.UNDO_REPLACE_BLOCK u.cur.pt ((e - u.cur.pt.o : Nat) : Int)
        ((e - u.cur.pt.o : Nat) : Int) else u).cur_bp = u.cur_bp := by
    split
    · rw [undo_save_cur_bp]
    · rfl
  have c4 : (if u.cur.pt.o < e then
      undo_save u UndoType.UNDO_REPLACE_BLOCK u.cur.pt ((e - u.cur.pt.o : Nat) : Int)
        ((e - u.cur.pt.o : Nat) : Int) else u).undo_nosave = u.undo_nosave := by
    split
    · rw [undo_save_undo_nosave]
    · rfl
  generalize (if u.cur.pt.o < e then
      undo_save u UndoType.UNDO_REPLACE_BLOCK u.cur.pt ((e - u.cur.pt.o : Nat) : Int)
        ((e - u.cur.pt.o : Nat) : Int) else u) = s2 at c1 c2 c3 c4 ⊢
  have hk : s2.cur.pt.o + (line_len s2 s2.cur.pt.p - s2.cur.pt.o) = line_len s2 s2.cur.pt.p := by
    rw [c1]; simp only [line_len, c2]; unfold line_len at hoff; omega
  obtain ⟨b1, b2, b3, b4, b5, b6, b7, b8, b9⟩ := setcase_word_loop_spec rcase e
    (line_len s2 s2.cur.pt.p - s2.cur.pt.o) s2 false hk (by rw [c1]; omega)
    (by rw [c1, c2]; exact hword) (by rw [c1, c2]; exact hend)
  generalize setcase_word_loop rcase (line_len s2 s2.cur.pt.p - s2.cur.pt.o) s2 false = s3
    at b1 b2 b3 b4 b5 b6 b7 b8 b9 ⊢
  simp only [c1, c2] at b4 b5 b6 b7 b8 b9
  rw [c1] at b2
  have hm : (set_modified s3).lineAt = s3.lineAt := rfl
  have hmc : (set_modified s3).cur = { s3.cur with modified := true } := by
    unfold set_modified; rw [cur_setBuf_cur]
  refine ⟨b1.trans c3, ?_, ?_, ?_, ?_, ?_, ?_, ?_, ?_⟩
  · rw [hmc, b2]
  · show s3.undo_nosave = u.undo_nosave
    rw [b3, c4]
  · intro q hq; rw [hm]; exact b4 q hq
  · rw [hm]; exact b5
  · rw [hm]; exact b6
  · rw [hm]; exact b7
  · intro i hi; rw [hm]; exact b8 i hi
  · intro i h1 h2
    rw [hm, b9 i h1 h2]
    congr 1
    funext c
    exact setcase_word_put_word_case rcase _ _ c h1

/-- C24: `setcase_word (rcase)` with point at the first character of a word. In a
well-formed buffer that keeps an undo log, let the characters at the offsets `o .. e - 1`
of the line of point be a maximal run of word characters and point be at `o`. Then, with
fuel for every line, the function returns `TRUE`; the characters of the word are replaced
as `word_case` says (alphabetic characters: upper case for `UPPERCASE`, lower case for
`LOWERCASE`, for `CAPITALIZE` upper case for the first character of the word and lower
case for the others; another character stays), the text before and behind the word, the
links of the line and every other line are unchanged, and so is the length of the line;
point is at `e`, right behind the word; the undo log got one record, a block replacement
at the old point with the old and the new size `e - o`; the buffer is flagged modified. -/
theorem setcase_word_converts_word (s : State) (chain : List LinePtr) (fuel : Nat)
    (rcase : Int) (e : Nat)
    (hv : ValidBuffer s chain) (hf : chain.length ≤ fuel) (he : s.cur.pt.o < e)
    (hword : ∀ i, s.cur.pt.o ≤ i → i < e → line_word (s.lineAt s.cur.pt.p).text i = true)
    (hend : line_word (s.lineAt s.cur.pt.p).text e = false)
    (hstart : s.cur.pt.o = 0 ∨ line_word (s.lineAt s.cur.pt.p).text (s.cur.pt.o - 1) = false)
    (hns : s.undo_nosave = false) (hnu : s.cur.noundo = false) :
    ∃ t, setcase_word fuel s rcase = some (t, true) ∧
      (∀ i, s.cur.pt.o ≤ i → i < e →
        (t.lineAt s.cur.pt.p).text[i]? =
          (s.lineAt s.cur.pt.p).text[i]?.map (word_case rcase (i - s.cur.pt.o))) ∧
      (∀ i, i < s.cur.pt.o ∨ e ≤ i →
        (t.lineAt s.cur.pt.p).text[i]? = (s.lineAt s.cur.pt.p).text[i]?) ∧
      (t.lineAt s.cur.pt.p).text.length = (s.lineAt s.cur.pt.p).text.length ∧
      (t.lineAt s.cur.pt.p).next = (s.lineAt s.cur.pt.p).next ∧
      (t.lineAt s.cur.pt.p).prev = (s.lineAt s.cur.pt.p).prev ∧
      (∀ q, q ≠ s.cur.pt.p → t.lineAt q = s.lineAt q) ∧
      t.cur.pt = ⟨s.cur.pt.p, s.cur.pt.n, e⟩ ∧
      t.cur.undo = s.cur.undo ++ [⟨UndoType.UNDO_REPLACE_BLOCK, s.cur.pt,
        ((e - s.cur.pt.o : Nat) : Int), ((e - s.cur.pt.o : Nat) : Int)⟩] ∧
      t.cur.modified = true := by
  obtain ⟨t1, t2, h1, h2, m2, hp2⟩ := setcase_word_moves s chain fuel e hv hf he hword hend hstart
  have hl2 : t2.lineAt = s.lineAt := m2.1
  obtain ⟨pt, gc, hc2⟩ := motionFrame_cur m2
  have hns2 : t2.undo_nosave = false := by rw [m2.2.2.2.2.2.2.1, hns]
  have hnu2 : t2.cur.noundo = false := by rw [hc2]; exact hnu
  have hundo2 : t2.cur.undo = s.cur.undo := by rw [hc2]
  obtain ⟨b1, b2, b3, b4, b5, b6, b7, b8, b9⟩ := setcase_word_convert_spec t2 rcase e
    (by rw [hp2]; exact Nat.le_of_lt he)
    (by rw [hp2]; simp only [line_len, hl2]; exact hv.offset)
    (by rw [hp2, hl2]; exact hword) (by rw [hp2, hl2]; exact hend)
  rw [hp2, hl2] at b4 b5 b6 b7 b8 b9
  rw [hp2, if_pos he, undo_save_cur, hns2, hnu2] at b2
  simp only [Bool.or_self, Bool.false_eq_true, if_false] at b2
  refine ⟨setcase_word_convert t2 rcase, ?_, b9, b8, b7, b5, b6, b4, ?_, ?_, ?_⟩
  · unfold setcase_word
    rw [h1]
    simp only [Option.some_bind, Bool.not_true, Bool.false_eq_true, if_false]
    rw [h2]
    simp only [Option.some_bind, Bool.not_true, Bool.false_eq_true, if_false]
  · rw [b2]
  · rw [b2, hundo2]
  · rw [b2]


theorem setcase_word_converts_word_witness :
    ∃ t, setcase_word 3 (exState.setPt ⟨12, 2, 0⟩) CAPITALIZE = some (t, true) ∧
      (t.lineAt 12).text[0]? = some 'X' ∧ (t.lineAt 12).text[1]? = some 'y' ∧
      t.cur.pt = ⟨12, 2, 3⟩ :=
  let ⟨t, h1, h2, _, _, _, _, _, h8, _⟩ :=
    setcase_word_converts_word (exState.setPt ⟨12, 2, 0⟩) [10, 11, 12] 3 CAPITALIZE 3
      (validBuffer_setPt exState_valid _ rfl (by decide)) (by decide) (by decide)
      (by intro i _ h; interval_cases i <;> decide) (by decide) (Or.inl rfl) rfl rfl
  ⟨t, h1, h2 0 (by decide) (by decide), h2 1 (by decide) (by decide), h8⟩

/-! ## The character at a position -/

/-- At the point of the buffer `char_after` and `char_before` are right: `following_char`
is the character behind point and `preceding_char` the one before it. -/
theorem following_preceding_char (s : State) :
    following_char s =
      (if eobp s then NUL else if eolp s then '\n'
       else (s.lineAt s.cur.pt.p).text.getD s.cur.pt.o NUL) ∧
    preceding_char s =
      (if bobp s then NUL else if bolp s then '\n'
       else (s.lineAt s.cur.pt.p).text.getD (s.cur.pt.o - 1) NUL) :=
  ⟨rfl, rfl⟩

/-- C32: `char_after (pt)` and `char_before (pt)` test the point of the buffer, not `pt`.
In the example buffer (lines `ab`, the empty line, `xyz`; point on the empty line, which
is at its beginning and its end) the character behind the start of line 0 is `a`, but
`char_after` gives a newline; the character before offset 1 of line 0 is `a`, but
`char_before` gives a newline; and with point at the end of the buffer `char_after` gives
0 for that same position. -/
theorem char_after_tests_buffer_point :
    exState.cur.pt = ⟨11, 1, 0⟩ ∧
    (exState.lineAt 10).text[0]? = some 'a' ∧
    char_after exState ⟨10, 0, 0⟩ = '\n' ∧
    char_before exState ⟨10, 0, 1⟩ = '\n' ∧
    char_after (exState.setPt ⟨12, 2, 3⟩) ⟨10, 0, 0⟩ = NUL ∧
    char_before (exState.setPt ⟨10, 0, 0⟩) ⟨10, 0, 1⟩ = NUL := by
  decide

/-! ## move_char there and back -/

theorem point_eta (pt : Point) : (⟨pt.p, pt.n, pt.o⟩ : Point) = pt := rfl

/-- C38: on a well-formed buffer, when `move_char (+1)` returns true, a following
`move_char (-1)` returns true and puts point (line, line number, offset) back where it
was; and the same with the two directions exchanged. -/
theorem move_char_round_trip (s : State) (chain : List LinePtr) (hv : ValidBuffer s chain) :
    ((move_char s 1).2 = true →
      (move_char (move_char s 1).1 (-1)).2 = true ∧
      (move_char (move_char s 1).1 (-1)).1.cur.pt = s.cur.pt) ∧
    ((move_char s (-1)).2 = true →
      (move_char (move_char s (-1)).1 1).2 = true ∧
      (move_char (move_char s (-1)).1 1).1.cur.pt = s.cur.pt) := by
  obtain ⟨hn, hp⟩ := validBuffer_index hv
  have hoff := hv.offset
  have hpc : s.cur.pt.p ≠ s.cur.limitp := by
    intro h
    apply hv.limit
    rw [← h]
    exact List.getElem?_mem hv.point
  constructor
  · intro h
    by_cases hlt : s.cur.pt.o < line_len s s.cur.pt.p
    · rw [move_char_forward_inline s hlt]
      simp only []
      rw [move_char_backward_inline _ (by rw [cur_setPt]; exact Nat.succ_pos _)]
      refine ⟨rfl, ?_⟩
      simp only [cur_setPt, setPt_setPt]
      show (⟨s.cur.pt.p, s.cur.pt.n, s.cur.pt.o + 1 - 1⟩ : Point) = s.cur.pt
      rw [Nat.add_sub_cancel]
    · have ho : s.cur.pt.o = line_len s s.cur.pt.p := by omega
      have hne : ¬ AtEob s chain := by
        intro he
        rw [move_char_forward_eob s ((eobp_iff hv).mpr he)] at h
        cases h
      have hlt2 : s.cur.pt.n + 1 < chain.length := by
        by_contra hge
        exact hne ⟨by omega, ho⟩
      have hq : chain[s.cur.pt.n + 1]? = some chain[s.cur.pt.n + 1] :=
        List.getElem?_eq_getElem hlt2
      obtain ⟨h1, h2⟩ := validBuffer_next hv hq
      have hprev := (lineChain_links hv.linked hv.point hq).2
      rw [move_char_forward_cross s _ ho h1 h2]
      simp only []
      have hc : (s.needResync.setPt ⟨chain[s.cur.pt.n + 1], s.cur.pt.n + 1, 0⟩).cur.pt =
          ⟨chain[s.cur.pt.n + 1], s.cur.pt.n + 1, 0⟩ := by rw [cur_setPt]
      have hcl : (s.needResync.setPt ⟨chain[s.cur.pt.n + 1], s.cur.pt.n + 1, 0⟩).cur.limitp =
          s.cur.limitp := by rw [cur_setPt]; rfl
      rw [move_char_backward_cross _ s.cur.pt.p (by rw [hc]) (by rw [hc]; exact Nat.succ_pos _)
        (by rw [hc]; exact hprev) (by rw [hcl]; exact hpc)]
      refine ⟨rfl, ?_⟩
      simp only [cur_setPt, hc]
      show (⟨s.cur.pt.p, s.cur.pt.n + 1 - 1, line_len s s.cur.pt.p⟩ : Point) = s.cur.pt
      rw [Nat.add_sub_cancel, ← ho]
  · intro h
    by_cases hpos : 0 < s.cur.pt.o
    · rw [move_char_backward_inline s hpos]
      simp only []
      rw [move_char_forward_inline _ (by
        rw [cur_setPt]
        show s.cur.pt.o - 1 < line_len s s.cur.pt.p
        omega)]
      refine ⟨rfl, ?_⟩
      simp only [cur_setPt, setPt_setPt]
      show (⟨s.cur.pt.p, s.cur.pt.n, s.cur.pt.o - 1 + 1⟩ : Point) = s.cur.pt
      rw [Nat.sub_add_cancel hpos]
    · have ho : s.cur.pt.o = 0 := by omega
      have hne : ¬ AtBob s := by
        intro he
        rw [move_char_backward_bob s ((bobp_iff hv).mpr he)] at h
        cases h
      have hnpos : 0 < s.cur.pt.n := by
        by_contra hz
        exact hne ⟨by omega, ho⟩
      have hlt2 : s.cur.pt.n - 1 < chain.length := by omega
      have hq : chain[s.cur.pt.n - 1]? = some chain[s.cur.pt.n - 1] :=
        List.getElem?_eq_getElem hlt2
      obtain ⟨h1, h2⟩ := validBuffer_prev hv hnpos hq
      have hpt2 : chain[s.cur.pt.n - 1 + 1]? = some s.cur.pt.p := by
        rw [Nat.sub_add_cancel hnpos]; exact hv.point
      have hnext := (lineChain_links hv.linked hq hpt2).1
      rw [move_char_backward_cross s _ ho hnpos h1 h2]
      simp only []
      have hc : (s.needResync.setPt
          ⟨chain[s.cur.pt.n - 1], s.cur.pt.n - 1, line_len s chain[s.cur.pt.n - 1]⟩).cur.pt =
          ⟨chain[s.cur.pt.n - 1], s.cur.pt.n - 1, line_len s chain[s.cur.pt.n - 1]⟩ := by
        rw [cur_setPt]
      have hcl : (s.needResync.setPt
          ⟨chain[s.cur.pt.n - 1], s.cur.pt.n - 1, line_len s chain[s.cur.pt.n - 1]⟩).cur.limitp =
          s.cur.limitp := by rw [cur_setPt]; rfl
      rw [move_char_forward_cross _ s.cur.pt.p (by rw [hc]; rfl) (by rw [hc]; exact hnext)
        (by rw [hcl]; exact hpc)]
      refine ⟨rfl, ?_⟩
      simp only [cur_setPt, hc]
      show (⟨s.cur.pt.p, s.cur.pt.n - 1 + 1, 0⟩ : Point) = s.cur.pt
      rw [Nat.sub_add_cancel hnpos, ← ho]

theorem move_char_round_trip_witness :
    (move_char exState 1).2 = true ∧
    (move_char (move_char exState 1).1 (-1)).2 = true ∧
    (move_char (move_char exState 1).1 (-1)).1.cur.pt = exState.cur.pt ∧
    (move_char exState (-1)).2 = true ∧
    (move_char (move_char exState (-1)).1 1).1.cur.pt = exState.cur.pt :=
  ⟨by decide,
   ((move_char_round_trip exState [10, 11, 12] exState_valid).1 (by decide)).1,
   ((move_char_round_trip exState [10, 11, 12] exState_valid).1 (by decide)).2,
   by decide,
   ((move_char_round_trip exState [10, 11, 12] exState_valid).2 (by decide)).2⟩

/-! ## goto_goalc goes to the goal column -/

theorem tab_width_pos (s : State) (bp : BufPtr) : 1 ≤ tab_width s bp := by
  unfold tab_width
  omega

/-- The inner loop of `goto_goalc` on a tab: it stops at the goal column when the tab
reaches it, and else runs to the end of the tab. -/
theorem goto_goalc_tab_spec (g : Nat) : ∀ (w col : Nat), col < g →
    (col + w < g → goto_goalc_tab g w col = col + w) ∧
    (g ≤ col + w → goto_goalc_tab g w col = g) := by
  intro w
  induction w with
  | zero =>
    intro col h
    exact ⟨fun _ => rfl, fun h2 => absurd h2 (by omega)⟩
  | succ w ih =>
    intro col h
    rw [goto_goalc_tab]
    by_cases he : col + 1 = g
    · rw [if_pos he]
      exact ⟨fun h2 => absurd h2 (by omega), fun _ => he⟩
    · rw [if_neg he]
      obtain ⟨a1, a2⟩ := ih (col + 1) (by omega)
      exact ⟨fun h2 => by rw [a1 (by omega)]; omega, fun h2 => a2 (by omega)⟩

theorem next_tab_stop (t col : Nat) (ht : 1 ≤ t) :
    col + (t - col % t) = (col / t + 1) * t := by
  have h1 := Nat.div_add_mod col t
  have h2 := Nat.mod_lt col (show t > 0 by omega)
  rw [Nat.add_mul, Nat.one_mul, Nat.mul_comm]
  omega

theorem tab_expanded_col_from_mono (w : Nat) (hw : 1 ≤ w) : ∀ (cs : List Char) (col : Nat),
    col ≤ tab_expanded_col_from w cs col := by
  intro cs
  induction cs with
  | nil => intro col; exact le_refl _
  | cons c cs ih =>
    intro col
    rw [tab_expanded_col_from]
    refine le_trans ?_ (ih _)
    split
    · rw [← next_tab_stop w col hw]; omega
    · omega

theorem tab_expanded_col_from_take_succ (w : Nat) : ∀ (cs : List Char) (col k : Nat),
    k < cs.length →
    tab_expanded_col_from w (cs.take (k + 1)) col =
      (if cs[k]? = some '\t' then (tab_expanded_col_from w (cs.take k) col / w + 1) * w
       else tab_expanded_col_from w (cs.take k) col + 1) := by
  intro cs
  induction cs with
  | nil => intro col k h; simp at h
  | cons c cs ih =>
    intro col k h
    cases k with
    | zero =>
      simp only [List.take_succ_cons, List.take_zero, tab_expanded_col_from,
        List.getElem?_cons_zero, Option.some.injEq]
    | succ k =>
      simp only [List.take_succ_cons, tab_expanded_col_from, List.getElem?_cons_succ]
      exact ih _ k (by simpa using h)

/-- The loop of `goto_goalc` from the index `i` on, where the variable `col` is the
column of the characters before `i`, or the goal column reached inside the last tab. -/
theorem goto_goalc_loop_spec (g t : Nat) (ht : 1 ≤ t) : ∀ (cs : List Char) (i col r : Nat),
    col ≤ g → (col = r ∨ (col = g ∧ g ≤ r)) →
    i ≤ goto_goalc_loop g t cs i col ∧
    goto_goalc_loop g t cs i col ≤ i + cs.length ∧
    (∀ k, i + k < goto_goalc_loop g t cs i col →
      tab_expanded_col_from t (cs.take k) r < g) ∧
    (goto_goalc_loop g t cs i col < i + cs.length →
      g ≤ tab_expanded_col_from t (cs.take (goto_goalc_loop g t cs i col - i)) r) := by
  intro cs
  induction cs with
  | nil =>
    intro i col r _ _
    simp only [goto_goalc_loop, List.length_nil, Nat.add_zero]
    exact ⟨le_refl _, le_refl _, fun k h => absurd h (by omega), fun h => absurd h (by omega)⟩
  | cons c cs ih =>
    intro i col r hle hr
    rw [goto_goalc_loop]
    by_cases hg : col = g
    · rw [if_pos hg]
      refine ⟨le_refl _, by omega, fun k h => absurd h (by omega), fun _ => ?_⟩
      rw [Nat.sub_self, List.take_zero]
      show g ≤ r
      rcases hr with h | h
      · omega
      · exact h.2
    · rw [if_neg hg]
      have hcr : col = r := by
        rcases hr with h | h
        · exact h
        · exact absurd h.1 hg
      subst hcr
      have hlt : col < g := by omega
      -- the state behind the character
      have hstep : ∃ col2 r2, col2 ≤ g ∧ (col2 = r2 ∨ (col2 = g ∧ g ≤ r2)) ∧
          r2 = (if c = '\t' then (col / t + 1) * t else col + 1) ∧
          (if c = '\t' then goto_goalc_loop g t cs (i + 1)
              (goto_goalc_tab g (t - col % t) col)
            else goto_goalc_loop g t cs (i + 1) (col + 1)) =
            goto_goalc_loop g t cs (i + 1) col2 := by
        by_cases hc : c = '\t'
        · obtain ⟨a1, a2⟩ := goto_goalc_tab_spec g (t - col % t) col hlt
          have hn := next_tab_stop t col ht
          by_cases hreach : g ≤ col + (t - col % t)
          · exact ⟨g, (col / t + 1) * t, le_refl _, Or.inr ⟨rfl, by omega⟩, by rw [if_pos hc],
              by rw [if_pos hc, a2 hreach]⟩
          · exact ⟨col + (t - col % t), (col / t + 1) * t, by omega, Or.inl hn,
              by rw [if_pos hc], by rw [if_pos hc, a1 (by omega)]⟩
        · exact ⟨col + 1, col + 1, by omega, Or.inl rfl, by rw [if_neg hc], by rw [if_neg hc]⟩
      obtain ⟨col2, r2, h1, h2, h3, h4⟩ := hstep
      rw [h4]
      obtain ⟨b1, b2, b3, b4⟩ := ih (i + 1) col2 r2 h1 h2
      generalize goto_goalc_loop g t cs (i + 1) col2 = res at b1 b2 b3 b4 ⊢
      refine ⟨by omega, by simp only [List.length_cons]; omega, ?_, ?_⟩
      · intro k hk
        cases k with
        | zero => exact hlt
        | succ k =>
          rw [List.take_succ_cons, tab_expanded_col_from, ← h3]
          exact b3 k (by omega)
      · intro hl
        have : res - i = (res - (i + 1)) + 1 := by omega
        rw [this, List.take_succ_cons, tab_expanded_col_from, ← h3]
        exact b4 (by simp only [List.length_cons] at hl; omega)

theorem tab_expanded_col_step (w : Nat) (hw : 1 ≤ w) (text : List Char) (k : Nat) :
    tab_expanded_col w text k ≤ tab_expanded_col w text (k + 1) := by
  unfold tab_expanded_col
  by_cases hk : k < text.length
  · rw [tab_expanded_col_from_take_succ w text 0 k hk]
    split
    · rw [← next_tab_stop w _ hw]; omega
    · omega
  · rw [List.take_of_length_le (by omega), List.take_of_length_le (by omega)]

theorem tab_expanded_col_mono (w : Nat) (hw : 1 ≤ w) (text : List Char) (j : Nat) :
    ∀ k, j ≤ k → tab_expanded_col w text j ≤ tab_expanded_col w text k := by
  intro k
  induction k with
  | zero => intro h; rw [Nat.le_zero.mp h]
  | succ k ih =>
    intro h
    by_cases hj : j = k + 1
    · rw [hj]
    · exact le_trans (ih (by omega)) (tab_expanded_col_step w hw text k)

/-- C33: `goto_goalc` goes to the goal column with tabs expanded. The tab width is at least
1. The offset `i` it sets is inside the line of point; every offset before `i` has a
tab-expanded column below the goal column `g`; when some offset of the line has a column of
`g` or more then `i` has one, so `i` is the smallest such offset; when none has, `i` is the
length of the line. Hence `move_line (n)`, for `n` not 0, leaves the offset of point
inside the new line. -/
theorem goto_goalc_reaches_goal_column (s : State) :
    1 ≤ tab_width s s.cur_bp ∧
    (goto_goalc s).cur.pt.p = s.cur.pt.p ∧
    (goto_goalc s).cur.pt.o ≤ line_len s s.cur.pt.p ∧
    (∀ j, j < (goto_goalc s).cur.pt.o →
      tab_expanded_col (tab_width s s.cur_bp) (s.lineAt s.cur.pt.p).text j < s.cur.goalc) ∧
    ((∃ j, j ≤ line_len s s.cur.pt.p ∧
        s.cur.goalc ≤ tab_expanded_col (tab_width s s.cur_bp) (s.lineAt s.cur.pt.p).text j) →
      s.cur.goalc ≤ tab_expanded_col (tab_width s s.cur_bp) (s.lineAt s.cur.pt.p).text
        (goto_goalc s).cur.pt.o) ∧
    ((∀ j, j ≤ line_len s s.cur.pt.p →
        tab_expanded_col (tab_width s s.cur_bp) (s.lineAt s.cur.pt.p).text j < s.cur.goalc) →
      (goto_goalc s).cur.pt.o = line_len s s.cur.pt.p) ∧
    (∀ n : Int, n ≠ 0 →
      (move_line s n).1.cur.pt.o ≤ line_len (move_line s n).1 (move_line s n).1.cur.pt.p) := by
  have ht := tab_width_pos s s.cur_bp
  have hgen : ∀ u : State, (goto_goalc u).cur.pt.p = u.cur.pt.p ∧
      (goto_goalc u).cur.pt.o =
        goto_goalc_loop u.cur.goalc (tab_width u u.cur_bp) (u.lineAt u.cur.pt.p).text 0 0 := by
    intro u
    unfold goto_goalc
    rw [cur_setPt]
    exact ⟨rfl, rfl⟩
  obtain ⟨hp, ho⟩ := hgen s
  obtain ⟨b1, b2, b3, b4⟩ := goto_goalc_loop_spec s.cur.goalc (tab_width s s.cur_bp) ht
    (s.lineAt s.cur.pt.p).text 0 0 0 (Nat.zero_le _) (Or.inl rfl)
  rw [← ho] at b2 b3 b4
  simp only [Nat.zero_add, Nat.sub_zero] at b2 b3 b4
  refine ⟨ht, hp, b2, fun j hj => b3 j hj, ?_, ?_, ?_⟩
  · rintro ⟨j, hj1, hj2⟩
    by_cases hlt : (goto_goalc s).cur.pt.o < (s.lineAt s.cur.pt.p).text.length
    · exact b4 hlt
    · have he : (goto_goalc s).cur.pt.o = (s.lineAt s.cur.pt.p).text.length := by omega
      rw [he]
      exact le_trans hj2 (tab_expanded_col_mono _ ht _ j _ hj1)
  · intro hall
    by_contra hne
    have hlt : (goto_goalc s).cur.pt.o < (s.lineAt s.cur.pt.p).text.length := by
      unfold line_len at hne; omega
    have h1 := b4 hlt
    have h2 := hall (goto_goalc s).cur.pt.o b2
    unfold tab_expanded_col at h2
    omega
  · intro n hn
    unfold move_line
    rw [if_neg hn]
    simp only []
    generalize (if (move_line_loop (move_line_clamp s n).2.1 (move_line_clamp s n).2.2.toNat
          s).last_command ≠ Command.F_next_line ∧
        (move_line_loop (move_line_clamp s n).2.1 (move_line_clamp s n).2.2.toNat
          s).last_command ≠ Command.F_previous_line then _ else _) = u
    obtain ⟨up, uo⟩ := hgen u
    obtain ⟨c1, c2, _, _⟩ := goto_goalc_loop_spec u.cur.goalc (tab_width u u.cur_bp)
      (tab_width_pos u u.cur_bp) (u.lineAt u.cur.pt.p).text 0 0 0 (Nat.zero_le _) (Or.inl rfl)
    rw [← uo] at c2
    show (goto_goalc u).cur.pt.o ≤ ((goto_goalc u).lineAt (goto_goalc u).cur.pt.p).text.length
    rw [up]
    simpa using c2

/-! ## The values that quoted-insert inserts -/

theorem digit_key_octal (d : Nat) (hd : d < 8) :
    isdigit (digit_key d) = true ∧ ((digit_key d : Nat) : Int) - '0'.toNat = d ∧
    digit_key d ≠ KBD_CANCEL ∧ digit_key d ≠ KBD_NOKEY := by
  interval_cases d <;> decide

theorem quoted_insert_octal_key_step (msg : String) (s : State) (k : Nat) (ks : List Nat)
    (hs : s.keys = k :: ks) (h1 : k ≠ KBD_CANCEL) (h2 : k ≠ KBD_NOKEY) (fuel : Nat) :
    quoted_insert_octal_key msg (fuel + 1) s =
      some (minibuf_write { s with keys := ks } msg, some k) := by
  rw [quoted_insert_octal_key]
  simp only [xgetkey, hs, Option.some_bind, if_neg h1, if_neg h2]

theorem quoted_insert_key_step (s : State) (k : Nat) (ks : List Nat)
    (hs : s.keys = k :: ks) (h2 : k ≠ KBD_NOKEY) (fuel : Nat) :
    quoted_insert_key (fuel + 1) s = some (minibuf_write { s with keys := ks } "C-q-", k) := by
  rw [quoted_insert_key]
  simp only [xgetkey, hs, Option.some_bind, if_neg h2]


theorem non_octal_key_spec (k : Nat) (h : non_octal_key k) :
    (!isdigit k || decide ((k : Int) - '0'.toNat ≥ 8)) = true := by
  rcases h.1 with h1 | h1
  · rw [h1]; rfl
  · have e0 : ('0'.toNat : Nat) = 48 := by decide
    simp only [Bool.or_eq_true, Bool.not_eq_true', decide_eq_true_eq]
    right
    rw [e0] at h1 ⊢
    omega

theorem octal_key_spec (d : Nat) (hd : d < 8) :
    (!isdigit (digit_key d) || decide (((digit_key d : Nat) : Int) - '0'.toNat ≥ 8)) = false ∧
    (isdigit (digit_key d) && decide (((digit_key d : Nat) : Int) - '0'.toNat < 8)) = true := by
  interval_cases d <;> decide

/-- One octal digit and a key that is none: the digit value is inserted, then the key. -/
theorem quoted_insert_one_digit (s : State) (d1 k : Nat) (rest : List Nat) (h1 : d1 < 8)
    (hk : non_octal_key k) (hs : s.keys = digit_key d1 :: k :: rest) :
    ∃ t, F_quoted_insert s = some (t, [InsertCall.insert_char_in_insert_mode (d1 : Int),
      InsertCall.insert_char_in_insert_mode (k : Int)], true) ∧ t.keys = rest := by
  obtain ⟨a1, a2, a3, a4⟩ := digit_key_octal d1 h1
  unfold F_quoted_insert
  rw [hs, show (digit_key d1 :: k :: rest).length + 1 = (k :: rest).length + 1 + 1 from rfl,
    quoted_insert_key_step s _ _ hs a4]
  simp only [Option.some_bind, (octal_key_spec d1 h1).2, if_true]
  unfold quoted_insert_octal
  rw [show (minibuf_write { s with keys := k :: rest } "C-q-").keys.length + 1 =
    rest.length + 1 + 1 from rfl,
    quoted_insert_octal_key_step _ _ k rest rfl hk.2.1 hk.2.2]
  simp only [Option.some_bind, non_octal_key_spec k hk, if_true, Option.map_some', a2]
  exact ⟨_, rfl, rfl⟩

/-- Two octal digits and a key that is none: the value of the two digits is inserted,
then the key. -/
theorem quoted_insert_two_digits (s : State) (d1 d2 k : Nat) (rest : List Nat) (h1 : d1 < 8)
    (h2 : d2 < 8) (hk : non_octal_key k)
    (hs : s.keys = digit_key d1 :: digit_key d2 :: k :: rest) :
    ∃ t, F_quoted_insert s = some (t,
      [InsertCall.insert_char_in_insert_mode (8 * (d1 : Int) + (d2 : Int)),
       InsertCall.insert_char_in_insert_mode (k : Int)], true) ∧ t.keys = rest := by
  obtain ⟨a1, a2, a3, a4⟩ := digit_key_octal d1 h1
  obtain ⟨b1, b2, b3, b4⟩ := digit_key_octal d2 h2
  unfold F_quoted_insert
  rw [hs, show (digit_key d1 :: digit_key d2 :: k :: rest).length + 1 =
      (digit_key d2 :: k :: rest).length + 1 + 1 from rfl,
    quoted_insert_key_step s _ _ hs a4]
  simp only [Option.some_bind, (octal_key_spec d1 h1).2, if_true]
  unfold quoted_insert_octal
  rw [show (minibuf_write { s with keys := digit_key d2 :: k :: rest } "C-q-").keys.length + 1 =
    (k :: rest).length + 1 + 1 from rfl,
    quoted_insert_octal_key_step _ _ (digit_key d2) (k :: rest) rfl b3 b4]
  simp only [Option.some_bind, (octal_key_spec d2 h2).1, Bool.false_eq_true, if_false]
  rw [show (minibuf_write
      { minibuf_write { s with keys := digit_key d2 :: k :: rest } "C-q-" with
        keys := k :: rest } _).keys.length + 1 = rest.length + 1 + 1 from rfl,
    quoted_insert_octal_key_step _ _ k rest rfl hk.2.1 hk.2.2]
  simp only [Option.some_bind, non_octal_key_spec k hk, if_true, Option.map_some', a2, b2]
  rw [show (d1 : Int) * 8 + (d2 : Int) = 8 * (d1 : Int) + (d2 : Int) by ring]
  exact ⟨_, rfl, rfl⟩

/-- C31: three octal digits typed after `C-q` do not give the value `64 d1 + 8 d2 + d3`.
For all octal digit keys `d1 d2 d3` the command returns `TRUE` with exactly one call of
`insert_char_in_insert_mode`, and the value passed is `(d1 - 8) * 64 + 8 d2 + d3`, which is
`64 d1 + 8 d2 + d3 - 512`: the source subtracts the character `8`, not `0`, from the first
digit. -/
theorem quoted_insert_three_digits (s : State) (d1 d2 d3 : Nat) (rest : List Nat)
    (h1 : d1 < 8) (h2 : d2 < 8) (h3 : d3 < 8)
    (hs : s.keys = digit_key d1 :: digit_key d2 :: digit_key d3 :: rest) :
    ∃ t, F_quoted_insert s = some (t,
      [InsertCall.insert_char_in_insert_mode
        (64 * (d1 : Int) + 8 * (d2 : Int) + (d3 : Int) - 512)], true) ∧ t.keys = rest := by
  obtain ⟨a1, a2, a3, a4⟩ := digit_key_octal d1 h1
  obtain ⟨b1, b2, b3, b4⟩ := digit_key_octal d2 h2
  obtain ⟨c1, c2, c3, c4⟩ := digit_key_octal d3 h3
  unfold F_quoted_insert
  rw [hs, show (digit_key d1 :: digit_key d2 :: digit_key d3 :: rest).length + 1 =
      (digit_key d2 :: digit_key d3 :: rest).length + 1 + 1 from rfl,
    quoted_insert_key_step s _ _ hs a4]
  simp only [Option.some_bind, (octal_key_spec d1 h1).2, if_true]
  unfold quoted_insert_octal
  rw [show (minibuf_write { s with keys := digit_key d2 :: digit_key d3 :: rest }
      "C-q-").keys.length + 1 = (digit_key d3 :: rest).length + 1 + 1 from rfl,
    quoted_insert_octal_key_step _ _ (digit_key d2) (digit_key d3 :: rest) rfl b3 b4]
  simp only [Option.some_bind, (octal_key_spec d2 h2).1, Bool.false_eq_true, if_false]
  rw [show (minibuf_write
      { minibuf_write { s with keys := digit_key d2 :: digit_key d3 :: rest } "C-q-" with
        keys := digit_key d3 :: rest } _).keys.length + 1 = rest.length + 1 + 1 from rfl,
    quoted_insert_octal_key_step _ _ (digit_key d3) rest rfl c3 c4]
  simp only [Option.some_bind, (octal_key_spec d3 h3).1, Bool.false_eq_true, if_false,
    Option.map_some']
  simp only [b2, c2]
  have h8 : ((digit_key d1 : Nat) : Int) - ('8'.toNat : Nat) = (d1 : Int) - 8 := by
    have e0 : ('0'.toNat : Nat) = 48 := by decide
    have e8 : ('8'.toNat : Nat) = 56 := by decide
    rw [e0] at a2
    rw [e8]
    omega
  rw [h8, show ((d1 : Int) - 8) * 64 + (d2 : Int) * 8 + (d3 : Int) =
    64 * (d1 : Int) + 8 * (d2 : Int) + (d3 : Int) - 512 by ring]
  exact ⟨_, rfl, rfl⟩

theorem quoted_insert_three_digits_witness :
    ∃ t, F_quoted_insert { exState with keys := [digit_key 1, digit_key 0, digit_key 1] } =
      some (t, [InsertCall.insert_char_in_insert_mode (-447)], true) ∧ t.keys = [] :=
  quoted_insert_three_digits
    { exState with keys := [digit_key 1, digit_key 0, digit_key 1] } 1 0 1 []
    (by decide) (by decide) (by decide) rfl

/-! ## The reader does not always come to an end -/

theorem read_char_pos (as : List Char) (pos : Nat) :
    pos ≤ (read_char as pos).2 ∧
    ((read_char as pos).1 ≠ none → (read_char as pos).2 = pos + 1 ∧ pos < as.length) := by
  unfold read_char
  by_cases h : pos < as.length
  · rw [if_pos h]
    exact ⟨Nat.le_succ _, fun _ => ⟨rfl, h⟩⟩
  · rw [if_neg h]
    exact ⟨le_refl _, fun hh => absurd rfl hh⟩

theorem read_token_comment_total : ∀ (fuel : Nat) (as : List Char) (pos : Nat),
    as.length - pos + 1 ≤ fuel →
    ∃ r, read_token_comment fuel as pos = some r ∧ pos ≤ r.2 ∧
      (r.1 = none ∨ r.1 = some '\n') := by
  intro fuel
  induction fuel with
  | zero =>
    intro as pos h
    exfalso
    omega
  | succ fuel ih =>
    intro as pos h
    obtain ⟨c1, c2⟩ := read_char_pos as pos
    rw [read_token_comment]
    by_cases hc : (read_char as pos).1 ≠ none ∧ (read_char as pos).1 ≠ some '\n'
    · rw [if_pos hc]
      obtain ⟨e1, e2⟩ := c2 hc.1
      obtain ⟨r, a1, a2, a3⟩ := ih as (read_char as pos).2 (by omega)
      exact ⟨r, a1, by omega, a3⟩
    · rw [if_neg hc]
      refine ⟨_, rfl, c1, ?_⟩
      by_cases h1 : (read_char as pos).1 = none
      · exact Or.inl h1
      · by_cases h2 : (read_char as pos).1 = some '\n'
        · exact Or.inr h2
        · exact absurd ⟨h1, h2⟩ hc

theorem read_token_space_total : ∀ (fuel : Nat) (as : List Char) (pos : Nat),
    as.length - pos + 2 ≤ fuel →
    ∃ r, read_token_space fuel as pos = some r ∧ pos ≤ r.2 := by
  intro fuel
  induction fuel with
  | zero =>
    intro as pos h
    exfalso
    omega
  | succ fuel ih =>
    intro as pos h
    obtain ⟨c1, c2⟩ := read_char_pos as pos
    rw [read_token_space]
    have hfirst : ∃ r, (if (read_char as pos).1 = some ';' then
          read_token_comment fuel as (read_char as pos).2
        else some (read_char as pos)) = some r ∧ pos ≤ r.2 ∧
        ((r.1 = some ' ' ∨ r.1 = some '\t') → pos + 1 ≤ r.2 ∧ pos < as.length) := by
      by_cases hsc : (read_char as pos).1 = some ';'
      · rw [if_pos hsc]
        obtain ⟨e1, e2⟩ := c2 (by rw [hsc]; exact Option.some_ne_none _)
        obtain ⟨r, a1, a2, a3⟩ := read_token_comment_total fuel as (read_char as pos).2
          (by omega)
        exact ⟨r, a1, by omega, fun _ => ⟨by omega, e2⟩⟩
      · rw [if_neg hsc]
        refine ⟨_, rfl, c1, fun hh => ?_⟩
        have : (read_char as pos).1 ≠ none := by
          rcases hh with h1 | h1 <;> rw [h1] <;> exact Option.some_ne_none _
        rw [(c2 this).1]
        exact ⟨le_refl _, (c2 this).2⟩
    obtain ⟨r, a1, a2, a3⟩ := hfirst
    rw [a1]
    simp only [Option.some_bind]
    by_cases hsp : r.1 = some ' ' ∨ r.1 = some '\t'
    · rw [if_pos hsp]
      have := a3 hsp
      obtain ⟨r2, b1, b2⟩ := ih as r.2 (by omega)
      exact ⟨r2, b1, by omega⟩
    · rw [if_neg hsp]
      exact ⟨r, rfl, a2⟩

theorem read_token_word_total (dq : Bool) : ∀ (fuel : Nat) (as : List Char) (pos : Nat)
    (c : Option Char) (tok : List Char), as.length - pos + 2 ≤ fuel →
    ∃ w, read_token_word dq fuel as pos c tok = some w := by
  intro fuel
  induction fuel with
  | zero =>
    intro as pos c tok h
    exfalso
    omega
  | succ fuel ih =>
    intro as pos c tok h
    obtain ⟨c1, c2⟩ := read_char_pos as pos
    have hnext : ∀ tok2, ∃ w, read_token_word dq fuel as (read_char as pos).2
        (read_char as pos).1 tok2 = some w := by
      intro tok2
      by_cases hc : (read_char as pos).1 = none
      · rw [hc]
        obtain ⟨f, hf⟩ : ∃ f, fuel = f + 1 := ⟨fuel - 1, by omega⟩
        rw [hf, read_token_word]
        exact ⟨_, rfl⟩
      · obtain ⟨e1, e2⟩ := c2 hc
        exact ih as _ _ tok2 (by omega)
    cases c with
    | none => rw [read_token_word]; exact ⟨_, rfl⟩
    | some ch =>
      rw [read_token_word]
      cases dq with
      | false =>
        simp only [Bool.not_false, if_true]
        split
        · exact ⟨_, rfl⟩
        · exact hnext _
      | true =>
        simp only [Bool.not_true, Bool.false_eq_true, if_false]
        split
        · exact ⟨_, rfl⟩
        · split
          · exact ⟨_, rfl⟩
          · exact hnext _

/-- Every single call of `read_token` returns, with the fuel that `lisp_read` gives it. -/
theorem read_token_total (as : List Char) (pos : Nat) :
    ∃ r, read_token (as.length + 2) as pos = some r := by
  obtain ⟨r, a1, a2⟩ := read_token_space_total (as.length + 2) as pos (by omega)
  unfold read_token
  rw [a1]
  simp only [Option.some_bind]
  cases hr : r.1 with
  | none => exact ⟨_, rfl⟩
  | some ch =>
    simp only []
    split
    · exact ⟨_, rfl⟩
    · split
      · exact ⟨_, rfl⟩
      · split
        · exact ⟨_, rfl⟩
        · split
          · exact ⟨_, rfl⟩
          · split
            · obtain ⟨w, hw⟩ := read_token_word_total true (as.length + 2) as
                (read_char as r.2).2 (read_char as r.2).1 [] (by omega)
              rw [hw]
              exact ⟨_, rfl⟩
            · obtain ⟨w, hw⟩ := read_token_word_total false (as.length + 2) as r.2
                (some ch) [] (by omega)
              rw [hw]
              exact ⟨_, rfl⟩

/-- When `read_token` gives a word and leaves the position where it was, `lisp_read` never
returns: every round of its loop reads the same token again. -/
theorem lisp_read_stuck (as : List Char) (pos : Nat) (tok : List Char)
    (h : read_token (as.length + 2) as pos = some (tokenname.t_word, tok, pos)) :
    ∀ (fuel : Nat) (list : Le) (quoted : Bool), lisp_read fuel list quoted as pos = none := by
  intro fuel
  induction fuel with
  | zero => intro list quoted; rfl
  | succ fuel ih =>
    intro list quoted
    rw [lisp_read, h]
    simp only [Option.some_bind]
    exact ih _ _

/-- C34: the Lisp reader does not terminate on every input. On the input `a`, a word with no
delimiter behind it, `read_token` returns the word `a` and moves the position back to 0,
before the character it has returned: at the end of the input `read_char` does not advance,
but `read_token` steps back all the same. So `lisp_read` and `lisp_loadstring` return for
no amount of fuel. The same holds for an input that is a carriage return (the empty word is
returned and the position stays) and for the unterminated string of a double quote and
`a` (from position 1 on). -/
theorem lisp_read_does_not_terminate :
    read_token 3 ['a'] 0 = some (tokenname.t_word, ['a'], 0) ∧
    (∀ fuel list quoted, lisp_read fuel list quoted ['a'] 0 = none) ∧
    (∀ fuel, lisp_loadstring fuel ['a'] = none) ∧
    read_token 3 ['\r'] 0 = some (tokenname.t_word, [], 0) ∧
    (∀ fuel, lisp_loadstring fuel ['\r'] = none) ∧
    read_token 4 [DQUOTE, 'a'] 0 = some (tokenname.t_word, ['a'], 1) ∧
    read_token 4 [DQUOTE, 'a'] 1 = some (tokenname.t_word, ['a'], 1) ∧
    (∀ fuel, lisp_loadstring fuel [DQUOTE, 'a'] = none) := by
  have h1 : read_token 3 ['a'] 0 = some (tokenname.t_word, ['a'], 0) := by decide
  have h2 : read_token 3 ['\r'] 0 = some (tokenname.t_word, [], 0) := by decide
  have h3 : read_token 4 [DQUOTE, 'a'] 0 = some (tokenname.t_word, ['a'], 1) := by decide
  have h4 : read_token 4 [DQUOTE, 'a'] 1 = some (tokenname.t_word, ['a'], 1) := by decide
  refine ⟨h1, lisp_read_stuck _ 0 _ h1, ?_, h2, ?_, h3, h4, ?_⟩
  · intro fuel
    unfold lisp_loadstring
    rw [lisp_read_stuck _ 0 _ h1]
    rfl
  · intro fuel
    unfold lisp_loadstring
    rw [lisp_read_stuck _ 0 _ h2]
    rfl
  · intro fuel
    unfold lisp_loadstring
    cases fuel with
    | zero => rfl
    | succ fuel =>
      rw [lisp_read, show [DQUOTE, 'a'].length + 2 = 4 from rfl, h3]
      simp only [Option.some_bind]
      rw [lisp_read_stuck _ 1 _ h4]
      rfl

/-! ## Completion -/

theorem char_eq_iff (a b : Char) : a = b ↔ a.toNat = b.toNat := by
  constructor
  · intro h; rw [h]
  · intro h; rw [← Char.ofNat_toNat a, h, Char.ofNat_toNat]

theorem char_nul_iff (a : Char) : a = NUL ↔ a.toNat = 0 := by
  rw [char_eq_iff]; rfl

theorem strcmp_neg : ∀ a b : CStr, strcmp b a = - strcmp a b
  | [], [] => by simp [strcmp]
  | [], b :: _ => by simp [strcmp]
  | a :: _, [] => by simp [strcmp]
  | a :: as, b :: bs => by
    simp only [strcmp]
    by_cases h : a = b
    · subst h
      simp only [if_true]
      split_ifs
      · simp
      · exact strcmp_neg as bs
    · rw [if_neg h, if_neg (Ne.symm h)]; ring

theorem strcmp_trans : ∀ a b c : CStr, strcmp a b ≤ 0 → strcmp b c ≤ 0 → strcmp a c ≤ 0 := by
  intro a
  have hN : NUL.toNat = 0 := rfl
  induction a with
  | nil =>
    intro b c _ _
    cases c with
    | nil => simp [strcmp]
    | cons c0 cs => simp only [strcmp]; omega
  | cons a0 as ih =>
    intro b c
    cases b with
    | nil =>
      cases c with
      | nil => simp only [strcmp]; intro h _; exact h
      | cons c0 cs =>
        simp only [strcmp, char_eq_iff, hN]
        intro h1 h2
        split_ifs <;> omega
    | cons b0 bs =>
      cases c with
      | nil =>
        simp only [strcmp, char_eq_iff, hN]
        intro h1 h2
        split_ifs at h1 <;> omega
      | cons c0 cs =>
        simp only [strcmp, char_eq_iff, hN]
        intro h1 h2
        split_ifs at h1 h2 ⊢ <;> first | omega | exact ih _ _ h1 h2

theorem gl_sortedlist_add_perm (x : CStr) : ∀ l : List CStr,
    (gl_sortedlist_add l x).Perm (x :: l)
  | [] => List.Perm.refl _
  | y :: ys => by
    simp only [gl_sortedlist_add]
    split_ifs
    · exact List.Perm.refl _
    · exact (List.Perm.cons y (gl_sortedlist_add_perm x ys)).trans (List.Perm.swap x y ys)

theorem gl_sortedlist_add_sorted (x : CStr) : ∀ l : List CStr,
    List.Pairwise (fun a b => strcmp a b ≤ 0) l →
    List.Pairwise (fun a b => strcmp a b ≤ 0) (gl_sortedlist_add l x)
  | [], _ => by simp [gl_sortedlist_add]
  | y :: ys, h => by
    simp only [gl_sortedlist_add]
    have hy := List.pairwise_cons.mp h
    have hxy : 0 ≤ strcmp y x → strcmp x y ≤ 0 := by
      intro h0; rw [strcmp_neg y x]; omega
    split_ifs with h0
    · refine List.pairwise_cons.mpr ⟨?_, h⟩
      intro z hz
      rcases List.mem_cons.mp hz with rfl | hz
      · exact hxy h0
      · exact strcmp_trans x y z (hxy h0) (hy.1 z hz)
    · refine List.pairwise_cons.mpr ⟨?_, gl_sortedlist_add_sorted x ys hy.2⟩
      intro z hz
      rcases List.mem_cons.mp ((gl_sortedlist_add_perm x ys).subset hz) with rfl | hz
      · omega
      · exact hy.1 z hz

theorem strncmp_zero_iff : ∀ (search s : CStr), (∀ c ∈ search, c ≠ NUL) →
    (strncmp s search search.length = 0 ↔ search <+: s)
  | [], s, _ => by simp [strncmp]
  | b :: bs, [], h => by
    have hb : b ≠ NUL := h b (List.mem_cons_self _ _)
    rw [Ne, char_nul_iff] at hb
    simp only [List.length_cons, strncmp]
    constructor
    · intro h0; omega
    · intro h0; simp at h0
  | b :: bs, a :: as, h => by
    have hb : b ≠ NUL := h b (List.mem_cons_self _ _)
    have ih := strncmp_zero_iff bs as (fun c hc => h c (List.mem_cons_of_mem _ hc))
    simp only [List.length_cons, strncmp]
    by_cases hab : a = b
    · subst hab
      rw [if_pos rfl, if_neg hb, ih]
      simp [List.cons_prefix_cons]
    · rw [if_neg hab]
      have h1 := hab
      rw [char_eq_iff] at h1
      constructor
      · intro h0; omega
      · intro h0
        rw [List.cons_prefix_cons] at h0
        exact absurd h0.1.symm hab

theorem strcmp_eq : ∀ (s t : CStr), (∀ c ∈ s, c ≠ NUL) → (∀ c ∈ t, c ≠ NUL) →
    (strcmp s t = 0 ↔ s = t)
  | [], [], _, _ => by simp [strcmp]
  | [], b :: bs, _, h => by
    have hb : b ≠ NUL := h b (List.mem_cons_self _ _)
    rw [Ne, char_nul_iff] at hb
    simp only [strcmp]
    constructor
    · intro h0; omega
    · intro h0; simp at h0
  | a :: as, [], h, _ => by
    have ha : a ≠ NUL := h a (List.mem_cons_self _ _)
    rw [Ne, char_nul_iff] at ha
    simp only [strcmp]
    constructor
    · intro h0; omega
    · intro h0; simp at h0
  | a :: as, b :: bs, h1, h2 => by
    have ha : a ≠ NUL := h1 a (List.mem_cons_self _ _)
    have ih := strcmp_eq as bs (fun c hc => h1 c (List.mem_cons_of_mem _ hc))
      (fun c hc => h2 c (List.mem_cons_of_mem _ hc))
    simp only [strcmp]
    by_cases hab : a = b
    · subst hab
      rw [if_pos rfl, if_neg ha, ih]
      simp
    · rw [if_neg hab]
      have h3 := hab
      rw [char_eq_iff] at h3
      constructor
      · intro h0; omega
      · intro h0
        exact absurd (List.cons.inj h0).1 hab

theorem strlen_eq : ∀ (s : CStr), (∀ c ∈ s, c ≠ NUL) → strlen s = s.length
  | [], _ => rfl
  | a :: as, h => by
    simp only [strlen, List.length_cons]
    rw [if_neg (h a (List.mem_cons_self _ _)),
      strlen_eq as (fun c hc => h c (List.mem_cons_of_mem _ hc))]

/-- The first loop of `completion_try`: what it counts and collects. -/
theorem completion_try_scan_fold (search : CStr) (ssize : Nat) :
    ∀ (l : List CStr) (acc : Nat × List CStr × Nat),
      (l.foldl (completion_try_scan search ssize) acc).1
        = acc.1 + (l.filter (fun s => decide (strncmp s search ssize = 0))).length ∧
      (l.foldl (completion_try_scan search ssize) acc).2.1.Perm
        (acc.2.1 ++ l.filter (fun s => decide (strncmp s search ssize = 0))) ∧
      (List.Pairwise (fun a b => strcmp a b ≤ 0) acc.2.1 →
        List.Pairwise (fun a b => strcmp a b ≤ 0)
          (l.foldl (completion_try_scan search ssize) acc).2.1) ∧
      (l.foldl (completion_try_scan search ssize) acc).2.2
        = acc.2.2 + (l.filter (fun s => decide (strncmp s search ssize = 0)
            && decide (strcmp s search = 0))).length
  | [], acc => by simp
  | s :: l, acc => by
    have ih := completion_try_scan_fold search ssize l (completion_try_scan search ssize acc s)
    simp only [List.foldl_cons]
    by_cases h : strncmp s search ssize = 0
    · have e : completion_try_scan search ssize acc s
          = (acc.1 + 1, gl_sortedlist_add acc.2.1 s,
              if strcmp s search = 0 then acc.2.2 + 1 else acc.2.2) := by
        unfold completion_try_scan; rw [if_pos h]
      rw [e] at ih ⊢
      obtain ⟨i1, i2, i3, i4⟩ := ih
      refine ⟨?_, ?_, ?_, ?_⟩
      · rw [i1]; simp only [List.filter_cons, h, decide_True, if_true, List.length_cons]; omega
      · refine i2.trans ?_
        simp only [List.filter_cons, h, decide_True, if_true]
        refine ((gl_sortedlist_add_perm s acc.2.1).append_right _).trans ?_
        simp only [List.cons_append]
        exact List.perm_middle.symm
      · intro hp; exact i3 (gl_sortedlist_add_sorted s _ hp)
      · rw [i4]
        by_cases h2 : strcmp s search = 0
        · simp only [List.filter_cons, h, h2, decide_True, Bool.and_self, if_true,
            List.length_cons]; omega
        · simp only [List.filter_cons, h, h2, decide_True, decide_False, Bool.and_false,
            if_false, Bool.false_eq_true]
    · have e : completion_try_scan search ssize acc s = acc := by
        unfold completion_try_scan; rw [if_neg h]
      rw [e] at ih ⊢
      obtain ⟨i1, i2, i3, i4⟩ := ih
      refine ⟨?_, ?_, i3, ?_⟩
      · rw [i1]; simp only [List.filter_cons, h, decide_False, Bool.false_eq_true, if_false]
      · refine i2.trans ?_
        simp only [List.filter_cons, h, decide_False, Bool.false_eq_true, if_false]
        exact List.Perm.refl _
      · rw [i4]
        simp only [List.filter_cons, h, decide_False, Bool.false_and, Bool.false_eq_true,
          if_false]

theorem completion_try_plain (fs : FileSystem) (fuel : Nat) (cp : Completion) (search : CStr)
    (hf : cp.flags &&& CFLAG_FILENAME = 0) :
    completion_try fs fuel cp search =
      ((completion_try_match fuel { cp with partmatches := 0, matches_ := [] } search).1, search,
        (completion_try_match fuel { cp with partmatches := 0, matches_ := [] } search).2) := by
  unfold completion_try
  simp only [hf, ne_eq, not_true_eq_false, if_false]

theorem completion_try_match_eq (fuel : Nat) (cp : Completion) (search : CStr)
    (p f : Nat) (ms : List CStr)
    (hr : cp.completions.foldl (completion_try_scan search search.length)
      (cp.partmatches, cp.matches_, 0) = (p, ms, f)) :
    completion_try_match fuel cp search =
      if p = 0 then
        ({ cp with partmatches := p, matches_ := ms }, .ok CompletionCode.COMPLETION_NOTMATCHED)
      else if p = 1 then
        completion_try_set { cp with partmatches := p, matches_ := ms } strlen
          CompletionCode.COMPLETION_MATCHED
      else if f = 1 ∧ 1 < p then
        completion_try_set { cp with partmatches := p, matches_ := ms } strlen
          CompletionCode.COMPLETION_MATCHEDNONUNIQUE
      else
        match completion_try_common ms p fuel search.length with
        | .error e => ({ cp with partmatches := p, matches_ := ms }, .error e)
        | .ok j => completion_try_set { cp with partmatches := p, matches_ := ms } (fun _ => j)
            CompletionCode.COMPLETION_NONUNIQUE := by
  unfold completion_try_match
  simp only [hr]

theorem completion_try_set_cons (cp : Completion) (size : CStr → Nat) (code : CompletionCode)
    (m : CStr) (ms : List CStr) (h : cp.matches_ = m :: ms) :
    completion_try_set cp size code
      = ({ cp with match_ := some m, matchsize := size m }, .ok code) := by
  unfold completion_try_set
  rw [h]
  simp only [List.getElem?_cons_zero]

/-- The matches and their number after `completion_try` on a completion that is not a file
name completion: the completions with the prefix `search`, in `strcmp` order. -/
theorem completion_try_matches (cp : Completion) (search : CStr)
    (hs : ∀ c ∈ search, c ≠ NUL) :
    ∃ (p f : Nat) (ms : List CStr),
      (cp.completions.foldl (completion_try_scan search search.length) (0, [], 0) = (p, ms, f)) ∧
      p = ms.length ∧
      ms.Perm (cp.completions.filter (fun s => decide (search <+: s))) ∧
      List.Pairwise (fun a b => strcmp a b ≤ 0) ms ∧
      f = (cp.completions.filter (fun s => decide (search <+: s)
            && decide (strcmp s search = 0))).length := by
  have hfold := completion_try_scan_fold search search.length cp.completions (0, [], 0)
  have e1 : cp.completions.filter (fun s => decide (strncmp s search search.length = 0))
      = cp.completions.filter (fun s => decide (search <+: s)) := by
    apply List.filter_congr
    intro s _
    simp only [strncmp_zero_iff search s hs]
  have e2 : cp.completions.filter (fun s => decide (strncmp s search search.length = 0)
        && decide (strcmp s search = 0))
      = cp.completions.filter (fun s => decide (search <+: s)
        && decide (strcmp s search = 0)) := by
    apply List.filter_congr
    intro s _
    simp only [strncmp_zero_iff search s hs]
  rw [e1, e2] at hfold
  obtain ⟨h1, h2, h3, h4⟩ := hfold
  refine ⟨_, _, _, rfl, ?_, ?_, ?_, ?_⟩
  · rw [h1, h2.length_eq]; simp
  · simpa using h2
  · exact h3 List.Pairwise.nil
  · rw [h4]; simp

theorem completion_try_set_fields (cp : Completion) (size : CStr → Nat)
    (code : CompletionCode) :
    (completion_try_set cp size code).1.partmatches = cp.partmatches ∧
    (completion_try_set cp size code).1.matches_ = cp.matches_ ∧
    (completion_try_set cp size code).1.completions = cp.completions := by
  unfold completion_try_set
  split <;> exact ⟨rfl, rfl, rfl⟩

theorem completion_try_match_fields (fuel : Nat) (cp : Completion) (search : CStr)
    (p f : Nat) (ms : List CStr)
    (hr : cp.completions.foldl (completion_try_scan search search.length)
      (cp.partmatches, cp.matches_, 0) = (p, ms, f)) :
    (completion_try_match fuel cp search).1.partmatches = p ∧
    (completion_try_match fuel cp search).1.matches_ = ms ∧
    (completion_try_match fuel cp search).1.completions = cp.completions := by
  rw [completion_try_match_eq fuel cp search p f ms hr]
  split_ifs
  · exact ⟨rfl, rfl, rfl⟩
  · exact completion_try_set_fields _ _ _
  · exact completion_try_set_fields _ _ _
  · split
    · exact ⟨rfl, rfl, rfl⟩
    · exact completion_try_set_fields _ _ _

theorem completion_try_match_many (fuel : Nat) (cp : Completion) (search : CStr)
    (p f : Nat) (ms : List CStr)
    (hr : cp.completions.foldl (completion_try_scan search search.length)
      (cp.partmatches, cp.matches_, 0) = (p, ms, f)) (hp : 2 ≤ p) :
    (completion_try_match fuel cp search).2 ≠ .ok CompletionCode.COMPLETION_NOTMATCHED ∧
    (completion_try_match fuel cp search).2 ≠ .ok CompletionCode.COMPLETION_MATCHED := by
  rw [completion_try_match_eq fuel cp search p f ms hr]
  rw [if_neg (by omega), if_neg (by omega)]
  unfold completion_try_set
  split_ifs
  · split
    · exact ⟨(fun h => by cases h), (fun h => by cases h)⟩
    · exact ⟨(fun h => by cases h), (fun h => by cases h)⟩
  · split
    · exact ⟨(fun h => by cases h), (fun h => by cases h)⟩
    · split
      · exact ⟨(fun h => by cases h), (fun h => by cases h)⟩
      · exact ⟨(fun h => by cases h), (fun h => by cases h)⟩

/-- C36: on a completion that is not a file name completion, `completion_try` sets
`partmatches` to the number of completions that have the search string as a prefix and
`matches` to those completions in `strcmp` order; it returns `COMPLETION_NOTMATCHED` exactly
when that number is 0 and `COMPLETION_MATCHED` exactly when it is 1, and then `match` is that
completion and `matchsize` its length. -/
theorem completion_try_counts_prefix_matches (fs : FileSystem) (fuel : Nat) (cp : Completion)
    (search : CStr) (hf : cp.flags &&& CFLAG_FILENAME = 0) (hs : ∀ c ∈ search, c ≠ NUL)
    (hc : ∀ s ∈ cp.completions, ∀ c ∈ s, c ≠ NUL) :
    (completion_try fs fuel cp search).1.partmatches
      = (cp.completions.filter (fun s => decide (search <+: s))).length ∧
    (completion_try fs fuel cp search).1.matches_.Perm
      (cp.completions.filter (fun s => decide (search <+: s))) ∧
    List.Pairwise (fun a b => strcmp a b ≤ 0) (completion_try fs fuel cp search).1.matches_ ∧
    ((completion_try fs fuel cp search).2.2 = .ok CompletionCode.COMPLETION_NOTMATCHED
      ↔ (cp.completions.filter (fun s => decide (search <+: s))).length = 0) ∧
    ((completion_try fs fuel cp search).2.2 = .ok CompletionCode.COMPLETION_MATCHED
      ↔ (cp.completions.filter (fun s => decide (search <+: s))).length = 1) ∧
    (∀ m, cp.completions.filter (fun s => decide (search <+: s)) = [m] →
      (completion_try fs fuel cp search).1.match_ = some m ∧
      (completion_try fs fuel cp search).1.matchsize = m.length) := by
  obtain ⟨p, f, ms, hr, hp, hperm, hsort, _⟩ := completion_try_matches cp search hs
  have hfld := completion_try_match_fields fuel
    { cp with partmatches := 0, matches_ := [] } search p f ms hr
  rw [completion_try_plain fs fuel cp search hf]
  have hlen := hperm.length_eq
  refine ⟨by rw [← hlen, ← hp]; exact hfld.1, by rw [hfld.2.1]; exact hperm,
    by rw [hfld.2.1]; exact hsort, ?_⟩
  rw [← hlen, ← hp]
  rcases Nat.lt_or_ge p 2 with h2 | h2
  · rw [completion_try_match_eq fuel _ search p f ms hr]
    rcases Nat.eq_zero_or_pos p with h0 | h0
    · rw [if_pos h0]
      refine ⟨by simp [h0], by simp [h0], ?_⟩
      intro m hm
      rw [hm] at hlen
      simp at hlen
      omega
    · have h1 : p = 1 := by omega
      rw [if_neg (by omega), if_pos h1]
      obtain ⟨m0, hm0⟩ : ∃ m0, ms = [m0] := by
        cases ms with
        | nil => simp at hp; omega
        | cons a l =>
          cases l with
          | nil => exact ⟨a, rfl⟩
          | cons b l => simp at hp; omega
      rw [completion_try_set_cons _ _ _ m0 [] hm0]
      refine ⟨by simp [h1], by simp [h1], ?_⟩
      intro m hm
      rw [hm0, hm] at hperm
      have e : m0 = m := by simpa using hperm
      subst e
      have hmem : m0 ∈ cp.completions := by
        have : m0 ∈ cp.completions.filter (fun s => decide (search <+: s)) := by
          rw [hm]; exact List.mem_singleton_self _
        exact (List.mem_filter.mp this).1
      exact ⟨rfl, strlen_eq m0 (hc m0 hmem)⟩
  · have hm := completion_try_match_many fuel
      { cp with partmatches := 0, matches_ := [] } search p f ms hr h2
    refine ⟨⟨fun h => absurd h hm.1, fun h => by omega⟩,
      ⟨fun h => absurd h hm.2, fun h => by omega⟩, ?_⟩
    intro m hm
    rw [hm] at hlen
    simp at hlen
    omega

theorem c_at_lt : ∀ (s : CStr) (j : Nat), (∀ c ∈ s, c ≠ NUL) → j < s.length →
    c_at s j = s[j]?
  | [], _, _, h => by simp at h
  | a :: as, 0, _, _ => by simp [c_at]
  | a :: as, j + 1, hc, h => by
    simp only [c_at, List.getElem?_cons_succ]
    rw [if_neg (hc a (List.mem_cons_self _ _))]
    exact c_at_lt as j (fun c h1 => hc c (List.mem_cons_of_mem _ h1))
      (by simpa using h)

theorem c_at_length : ∀ (s : CStr), (∀ c ∈ s, c ≠ NUL) → c_at s s.length = some NUL
  | [], _ => rfl
  | a :: as, hc => by
    simp only [c_at, List.length_cons]
    rw [if_neg (hc a (List.mem_cons_self _ _))]
    exact c_at_length as (fun c h1 => hc c (List.mem_cons_of_mem _ h1))

theorem c_at_defined (s : CStr) (j : Nat) (hc : ∀ c ∈ s, c ≠ NUL) (h : j ≤ s.length) :
    ∃ d, c_at s j = some d := by
  rcases Nat.lt_or_ge j s.length with h1 | h1
  · rw [c_at_lt s j hc h1]
    exact ⟨s[j], List.getElem?_eq_getElem h1⟩
  · have e : j = s.length := by omega
    rw [e]
    exact ⟨NUL, c_at_length s hc⟩

theorem c_at_nul (s : CStr) (j : Nat) (hc : ∀ c ∈ s, c ≠ NUL) (h : j ≤ s.length)
    (h0 : c_at s j = some NUL) : j = s.length := by
  rcases Nat.lt_or_ge j s.length with h1 | h1
  · rw [c_at_lt s j hc h1, List.getElem?_eq_getElem h1] at h0
    have := hc s[j] (List.getElem_mem _)
    exact absurd (Option.some.inj h0) this
  · omega

theorem c_at_char (s : CStr) (j : Nat) (c : Char) (hc : ∀ c ∈ s, c ≠ NUL) (h : j ≤ s.length)
    (h0 : c_at s j = some c) (hn : c ≠ NUL) : j < s.length ∧ s[j]? = some c := by
  rcases Nat.lt_or_ge j s.length with h1 | h1
  · refine ⟨h1, ?_⟩
    rw [← c_at_lt s j hc h1]; exact h0
  · have e : j = s.length := by omega
    rw [e, c_at_length s hc] at h0
    exact absurd (Option.some.inj h0).symm hn

theorem completion_try_column_succ (ms : List CStr) (j : Nat) (c : Char) (i k : Nat) :
    completion_try_column ms j c i (k + 1) =
      match ms[i]? with
      | none => .error Fault.assertion
      | some s =>
        match c_at s j with
        | none => .error Fault.overrun
        | some d => if d ≠ c then .ok true else completion_try_column ms j c (i + 1) k := rfl

/-- The inner loop over the matches from `i` on, all of which have a column `j`: it finds
no difference and all have `c` there, or it finds a match with another byte there. -/
theorem completion_try_column_spec (ms : List CStr) (j : Nat) (c : Char) :
    ∀ (k i : Nat), i + k = ms.length →
      (∀ m ∈ ms.drop i, ∃ d, c_at m j = some d) →
      (completion_try_column ms j c i k = .ok false ∧ ∀ m ∈ ms.drop i, c_at m j = some c) ∨
      (completion_try_column ms j c i k = .ok true ∧
        ∃ m ∈ ms.drop i, ∃ d, c_at m j = some d ∧ d ≠ c) := by
  intro k
  induction k with
  | zero =>
    intro i hi _
    left
    refine ⟨rfl, ?_⟩
    intro m hm
    rw [List.drop_of_length_le (by omega)] at hm
    simp at hm
  | succ k ih =>
    intro i hi hd
    have hlt : i < ms.length := by omega
    have hdrop : ms.drop i = ms[i] :: ms.drop (i + 1) := List.drop_eq_getElem_cons hlt
    rw [hdrop] at hd ⊢
    obtain ⟨d, hd0⟩ := hd ms[i] (List.mem_cons_self _ _)
    rw [completion_try_column_succ, List.getElem?_eq_getElem hlt]
    simp only [hd0]
    by_cases hdc : d = c
    · rw [if_neg (by simpa using hdc)]
      rcases ih (i + 1) (by omega) (fun m hm => hd m (List.mem_cons_of_mem _ hm)) with h | h
      · left
        refine ⟨h.1, ?_⟩
        intro m hm
        rcases List.mem_cons.mp hm with rfl | hm
        · rw [hd0, hdc]
        · exact h.2 m hm
      · right
        obtain ⟨h1, m, hm, h2⟩ := h
        exact ⟨h1, m, List.mem_cons_of_mem _ hm, h2⟩
    · rw [if_pos hdc]
      right
      exact ⟨rfl, ms[i], List.mem_cons_self _ _, d, hd0, hdc⟩

theorem completion_try_common_succ (ms : List CStr) (partmatches fuel j : Nat) :
    completion_try_common ms partmatches (fuel + 1) j =
      match ms[0]? with
      | none => .error Fault.assertion
      | some s =>
        match c_at s j with
        | none => .error Fault.overrun
        | some c =>
          match completion_try_column ms j c 1 (partmatches - 1) with
          | .error e => .error e
          | .ok true => .ok j
          | .ok false => completion_try_common ms partmatches fuel (j + 1) := rfl

/-- The last loop of `completion_try` on matches that are not all equal, which agree before
column `j`: it stops at the first column in which two matches differ. -/
theorem completion_try_common_spec (m0 : CStr) (rest : List CStr)
    (hc : ∀ m ∈ m0 :: rest, ∀ c ∈ m, c ≠ NUL) (hne : ∃ m ∈ rest, m ≠ m0) :
    ∀ (fuel j : Nat), m0.length < fuel + j → j ≤ m0.length →
      (∀ m ∈ rest, j ≤ m.length ∧ m.take j = m0.take j) →
      ∃ j1, completion_try_common (m0 :: rest) (rest.length + 1) fuel j = .ok j1 ∧
        j ≤ j1 ∧ j1 ≤ m0.length ∧
        (∀ m ∈ rest, j1 ≤ m.length ∧ m.take j1 = m0.take j1) ∧
        ∃ m ∈ rest, c_at m j1 ≠ c_at m0 j1 := by
  intro fuel
  induction fuel with
  | zero => intro j h1 h2 _; omega
  | succ fuel ih =>
    intro j hfuel hj hinv
    have hc0 : ∀ c ∈ m0, c ≠ NUL := hc m0 (List.mem_cons_self _ _)
    have hcr : ∀ m ∈ rest, ∀ c ∈ m, c ≠ NUL := fun m hm => hc m (List.mem_cons_of_mem _ hm)
    obtain ⟨c, hc1⟩ := c_at_defined m0 j hc0 hj
    rw [completion_try_common_succ]
    simp only [List.getElem?_cons_zero, hc1, Nat.add_sub_cancel]
    have hcol := completion_try_column_spec (m0 :: rest) j c rest.length 1
      (by simp; omega)
      (by
        intro m hm
        simp only [List.drop_succ_cons, List.drop_zero] at hm
        exact c_at_defined m j (hcr m hm) (hinv m hm).1)
    simp only [List.drop_succ_cons, List.drop_zero] at hcol
    rcases hcol with ⟨e, hall⟩ | ⟨e, m, hm, d, hd, hdc⟩
    · rw [e]
      simp only []
      have hcn : c ≠ NUL := by
        intro h0
        obtain ⟨m, hm, hmne⟩ := hne
        apply hmne
        have l0 : j = m0.length := c_at_nul m0 j hc0 hj (h0 ▸ hc1)
        have l1 : j = m.length := c_at_nul m j (hcr m hm) (hinv m hm).1 (h0 ▸ hall m hm)
        have := (hinv m hm).2
        rw [l1, List.take_length] at this
        rw [this, ← l1, l0, List.take_length]
      have k0 := c_at_char m0 j c hc0 hj hc1 hcn
      obtain ⟨j1, r1, r2, r3, r4, r5⟩ := ih (j + 1) (by omega) (by omega) (by
        intro m hm
        have k1 := c_at_char m j c (hcr m hm) (hinv m hm).1 (hall m hm) hcn
        refine ⟨by omega, ?_⟩
        rw [List.take_succ, List.take_succ, (hinv m hm).2, k1.2, k0.2])
      exact ⟨j1, r1, by omega, r3, r4, r5⟩
    · rw [e]
      simp only []
      refine ⟨j, rfl, Nat.le_refl _, hj, hinv, m, hm, ?_⟩
      rw [hd, hc1]
      intro h0
      exact hdc (Option.some.inj h0)

theorem strcmp_prefix_le : ∀ (a b : CStr), a <+: b → strcmp a b ≤ 0
  | [], [], _ => by simp [strcmp]
  | [], b :: _, _ => by simp only [strcmp]; omega
  | a :: as, [], h => by simp at h
  | a :: as, b :: bs, h => by
    rw [List.cons_prefix_cons] at h
    obtain ⟨e, h⟩ := h
    subst e
    simp only [strcmp, if_true]
    split_ifs
    · exact Int.le_refl _
    · exact strcmp_prefix_le as bs h

theorem filter_eq_length (l : List CStr) (a : CStr) (hn : l.Nodup) (ha : a ∈ l) :
    (l.filter (fun s => decide (s = a))).length = 1 := by
  induction l with
  | nil => simp at ha
  | cons x l ih =>
    have hx := List.nodup_cons.mp hn
    by_cases e : x = a
    · subst e
      have : l.filter (fun s => decide (s = x)) = [] := by
        rw [List.filter_eq_nil_iff]
        intro s hs
        simp only [decide_eq_true_eq]
        intro h0
        exact hx.1 (h0 ▸ hs)
      simp [List.filter_cons, this]
    · have hal : a ∈ l := by
        rcases List.mem_cons.mp ha with h | h
        · exact absurd h.symm e
        · exact h
      simp only [List.filter_cons, e, decide_False, Bool.false_eq_true, if_false]
      exact ih hx.2 hal

/-- C35: `completion_try` on the completions `a`, `a` and the search string `a` reads, in
its last loop, the byte behind the terminating NUL of a match, whatever the fuel: it returns
none of its codes. -/
theorem completion_try_duplicates_overrun (fuel : Nat) :
    (completion_try noFiles (fuel + 3) (make_completion [['a'], ['a']]) ['a']).2.2
      = .error Fault.overrun := rfl

/-- C37: on a completion of pairwise distinct strings, not a file name completion, of which
at least two have the search string as a prefix: when the search string is one of them,
`completion_try` returns `COMPLETION_MATCHEDNONUNIQUE` and `match` is the search string;
otherwise it returns `COMPLETION_NONUNIQUE` and `matchsize` is the length of the longest
common prefix of the matches, at least the length of the search string and at most that of
every match. -/
theorem completion_try_nonunique (fs : FileSystem) (fuel : Nat) (cp : Completion)
    (search : CStr) (hf : cp.flags &&& CFLAG_FILENAME = 0) (hs : ∀ c ∈ search, c ≠ NUL)
    (hc : ∀ s ∈ cp.completions, ∀ c ∈ s, c ≠ NUL) (hn : cp.completions.Nodup)
    (h2 : 2 ≤ (cp.completions.filter (fun s => decide (search <+: s))).length)
    (hfuel : ∀ s ∈ cp.completions, s.length < fuel) :
    (search ∈ cp.completions →
      (completion_try fs fuel cp search).2.2 = .ok CompletionCode.COMPLETION_MATCHEDNONUNIQUE ∧
      (completion_try fs fuel cp search).1.match_ = some search) ∧
    (search ∉ cp.completions →
      (completion_try fs fuel cp search).2.2 = .ok CompletionCode.COMPLETION_NONUNIQUE ∧
      search.length ≤ (completion_try fs fuel cp search).1.matchsize ∧
      (∀ m ∈ cp.completions, search <+: m →
        (completion_try fs fuel cp search).1.matchsize ≤ m.length) ∧
      ∃ p : CStr, p.length = (completion_try fs fuel cp search).1.matchsize ∧
        (∀ m ∈ cp.completions, search <+: m → p <+: m) ∧
        ∀ q : CStr, (∀ m ∈ cp.completions, search <+: m → q <+: m) → q.length ≤ p.length) := by
  obtain ⟨p, f, ms, hr, hp, hperm, hsort, hfull⟩ := completion_try_matches cp search hs
  rw [completion_try_plain fs fuel cp search hf,
    completion_try_match_eq fuel _ search p f ms hr]
  have hlen := hperm.length_eq
  have hp2 : 2 ≤ p := by rw [hp, hlen]; exact h2
  rw [if_neg (by omega), if_neg (by omega)]
  have hmem : ∀ m, m ∈ ms ↔ m ∈ cp.completions ∧ search <+: m := by
    intro m
    rw [hperm.mem_iff, List.mem_filter]
    simp
  obtain ⟨m0, rest, hms⟩ : ∃ m0 rest, ms = m0 :: rest := by
    rw [hp] at hp2
    cases ms with
    | nil => simp at hp2
    | cons a l => exact ⟨a, l, rfl⟩
  have hm0 : m0 ∈ cp.completions ∧ search <+: m0 :=
    (hmem m0).mp (by rw [hms]; exact List.mem_cons_self _ _)
  have efull : cp.completions.filter (fun s => decide (search <+: s)
        && decide (strcmp s search = 0))
      = cp.completions.filter (fun s => decide (s = search)) := by
    apply List.filter_congr
    intro s hs0
    by_cases e : s = search
    · have h0 : strcmp s search = 0 := (strcmp_eq s search (hc s hs0) hs).mpr e
      subst e
      simp [h0]
    · have h0 : ¬ strcmp s search = 0 := fun h => e ((strcmp_eq s search (hc s hs0) hs).mp h)
      simp [h0, e]
  rw [efull] at hfull
  constructor
  · intro hin
    have hf1 : f = 1 := by rw [hfull]; exact filter_eq_length _ _ hn hin
    rw [if_pos ⟨hf1, by omega⟩, completion_try_set_cons _ _ _ m0 rest hms]
    refine ⟨rfl, ?_⟩
    show some m0 = some search
    have hsm : search ∈ ms := (hmem search).mpr ⟨hin, List.prefix_refl _⟩
    have h1 : strcmp m0 search ≤ 0 := by
      rw [hms] at hsm hsort
      rcases List.mem_cons.mp hsm with e | e
      · rw [e, strcmp_neg m0 m0] ; have := strcmp_neg m0 m0; omega
      · exact (List.pairwise_cons.mp hsort).1 search e
    have h3 : strcmp search m0 ≤ 0 := strcmp_prefix_le _ _ hm0.2
    have h4 : strcmp m0 search = 0 := by
      have := strcmp_neg search m0; omega
    rw [(strcmp_eq m0 search (hc m0 hm0.1) hs).mp h4]
  · intro hout
    have hf0 : f = 0 := by
      rw [hfull, List.length_eq_zero, List.filter_eq_nil_iff]
      intro s hs0
      simp only [decide_eq_true_eq]
      intro e
      exact hout (e ▸ hs0)
    rw [if_neg (by omega)]
    have hnd : ms.Nodup := hperm.nodup_iff.mpr (hn.filter _)
    rw [hms] at hnd hp
    have hc1 : ∀ m ∈ m0 :: rest, ∀ c ∈ m, c ≠ NUL := by
      intro m hm
      exact hc m ((hmem m).mp (by rw [hms]; exact hm)).1
    have hne : ∃ m ∈ rest, m ≠ m0 := by
      cases rest with
      | nil => simp at hp; omega
      | cons m1 l =>
        refine ⟨m1, List.mem_cons_self _ _, ?_⟩
        intro e
        have := (List.nodup_cons.mp hnd).1
        exact this (e ▸ List.mem_cons_self _ _)
    have hpre : ∀ m ∈ ms, search.length ≤ m.length ∧ m.take search.length = search := by
      intro m hm
      have h0 := ((hmem m).mp hm).2
      exact ⟨h0.length_le, (List.prefix_iff_eq_take.mp h0).symm⟩
    have hp0 := hpre m0 (by rw [hms]; exact List.mem_cons_self _ _)
    obtain ⟨j1, r1, r2, r3, r4, m1, hm1, r5⟩ := completion_try_common_spec m0 rest hc1 hne fuel
      search.length (by have := hfuel m0 hm0.1; omega) hp0.1
      (by
        intro m hm
        have h0 := hpre m (by rw [hms]; exact List.mem_cons_of_mem _ hm)
        exact ⟨h0.1, by rw [h0.2, hp0.2]⟩)
    have hp1 : p = rest.length + 1 := by rw [hp]; simp
    rw [hms, hp1, r1]
    simp only []
    rw [completion_try_set_cons _ _ _ m0 rest rfl]
    have hall : ∀ m ∈ cp.completions, search <+: m →
        j1 ≤ m.length ∧ m.take j1 = m0.take j1 := by
      intro m hm hsm
      have h0 : m ∈ ms := (hmem m).mpr ⟨hm, hsm⟩
      rw [hms] at h0
      rcases List.mem_cons.mp h0 with e | e
      · rw [e]; exact ⟨r3, rfl⟩
      · exact r4 m e
    refine ⟨rfl, r2, fun m hm hsm => (hall m hm hsm).1, m0.take j1, ?_, ?_, ?_⟩
    · show (m0.take j1).length = j1
      rw [List.length_take]; omega
    · intro m hm hsm
      rw [← (hall m hm hsm).2]
      exact List.take_prefix _ _
    · intro q hq
      rw [List.length_take, Nat.min_eq_left r3]
      by_contra hlt
      have hlt1 : j1 < q.length := by omega
      have hm1c := (hmem m1).mp (by rw [hms]; exact List.mem_cons_of_mem _ hm1)
      have q0 := hq m0 hm0.1 hm0.2
      have q1 := hq m1 hm1c.1 hm1c.2
      apply r5
      rw [c_at_lt m1 j1 (hc m1 hm1c.1) (by have := q1.length_le; omega),
        c_at_lt m0 j1 (hc m0 hm0.1) (by have := q0.length_le; omega)]
      obtain ⟨t0, e0⟩ := q0
      obtain ⟨t1, e1⟩ := q1
      rw [← e0, ← e1, List.getElem?_append_left hlt1, List.getElem?_append_left hlt1]

theorem exCompletion_completions :
    exCompletion.completions = [['a', 'b'], ['a', 'c'], ['b']] := by decide

theorem completion_try_counts_prefix_matches_witness :
    exCompletion.flags &&& CFLAG_FILENAME = 0 ∧
    (completion_try noFiles 0 exCompletion ['a']).1.partmatches
      = (exCompletion.completions.filter (fun s => decide (['a'] <+: s))).length ∧
    (completion_try noFiles 0 exCompletion ['a']).1.partmatches = 2 :=
  ⟨by decide,
    (completion_try_counts_prefix_matches noFiles 0 exCompletion ['a'] (by decide) (by decide)
      (by decide)).1, by decide⟩

theorem completion_try_nonunique_witness :
    exCompletion.completions.Nodup ∧
    2 ≤ (exCompletion.completions.filter (fun s => decide (['a'] <+: s))).length ∧
    (completion_try noFiles 3 exCompletion ['a']).2.2
      = .ok CompletionCode.COMPLETION_NONUNIQUE ∧
    (completion_try noFiles 3 exCompletion ['a']).1.matchsize = 1 :=
  ⟨by decide, by decide,
    ((completion_try_nonunique noFiles 3 exCompletion ['a'] (by decide) (by decide)
      (by decide) (by decide) (by decide) (by decide)).2 (by decide)).1, by decide⟩

/-! ## Case conversion of the region -/

theorem setcase_region_loop_succ (rcase : Int) (size : Nat) (s : State) (lp : LinePtr)
    (o : Nat) :
    setcase_region_loop rcase (size + 1) s lp o =
      if o < line_len s lp then
        setcase_region_loop rcase size
          (set_line_char s lp o (setcase_region_put rcase ((s.lineAt lp).text.getD o NUL)))
          lp (o + 1)
      else setcase_region_loop rcase size s (get_line_next s lp) 0 := by
  rw [setcase_region_loop]
  unfold setcase_region_put
  split_ifs <;> rfl

theorem set_line_char_text (u : State) (p : LinePtr) (o : Nat) (c : Char) (q : LinePtr)
    (i : Nat) :
    ((set_line_char u p o c).lineAt q).text[i]? =
      if q = p ∧ i = o then ((u.lineAt q).text[i]?).map (fun _ => c)
      else (u.lineAt q).text[i]? := by
  rw [set_line_char_apply]
  by_cases e : q = p
  · subst e
    rw [if_pos rfl]
    show ((u.lineAt q).text.set o c)[i]? = _
    by_cases ei : i = o
    · subst ei
      rw [if_pos ⟨rfl, rfl⟩]
      by_cases hi : i < (u.lineAt q).text.length
      · rw [List.getElem?_set_self hi, List.getElem?_eq_getElem hi]
        rfl
      · rw [List.getElem?_eq_none (by simp; omega), List.getElem?_eq_none (by omega)]
        rfl
    · rw [if_neg (fun h => ei h.2), List.getElem?_set_ne (fun h => ei h.symm)]
  · rw [if_neg e, if_neg (fun h => e h.1)]

theorem nodup_index_eq {chain : List LinePtr} (hnd : chain.Nodup) {n m : Nat} {q : LinePtr}
    (hn : chain[n]? = some q) (hm : chain[m]? = some q) : n = m := by
  obtain ⟨h1, e1⟩ := List.getElem?_eq_some_iff.mp hn
  obtain ⟨h2, e2⟩ := List.getElem?_eq_some_iff.mp hm
  exact (List.Nodup.getElem_inj_iff hnd).mp (e1.trans e2.symm)

/-- The loop of `setcase_region` from a position of the buffer over `k` units that end
inside the buffer: it changes nothing but the characters of the lines, and of these exactly
the ones at the `k` offsets from the position on, which it converts. -/
theorem setcase_region_loop_spec (rcase : Int) (s0 : State) (chain : List LinePtr)
    (hc : LineChain s0 chain) (hnd : chain.Nodup) :
    ∀ (k : Nat) (u : State) (pt : Point),
      (∀ q, (u.lineAt q).next = (s0.lineAt q).next ∧
        (u.lineAt q).text.length = (s0.lineAt q).text.length) →
      ValidPoint s0 chain pt →
      point_offset s0 chain pt + k ≤ (buffer_text s0 chain).length →
      (∃ f, setcase_region_loop rcase k u pt.p pt.o = { u with lineAt := f }) ∧
      (∀ q, ((setcase_region_loop rcase k u pt.p pt.o).lineAt q).next = (u.lineAt q).next ∧
        ((setcase_region_loop rcase k u pt.p pt.o).lineAt q).prev = (u.lineAt q).prev ∧
        ((setcase_region_loop rcase k u pt.p pt.o).lineAt q).text.length
          = (u.lineAt q).text.length) ∧
      (∀ q, q ∉ chain → (setcase_region_loop rcase k u pt.p pt.o).lineAt q = u.lineAt q) ∧
      (∀ n q i, chain[n]? = some q →
        ((setcase_region_loop rcase k u pt.p pt.o).lineAt q).text[i]? =
          ((u.lineAt q).text[i]?).map (fun c =>
            if point_offset s0 chain pt ≤ line_start (chain.map (line_len s0)) n + i ∧
                line_start (chain.map (line_len s0)) n + i < point_offset s0 chain pt + k
            then setcase_region_put rcase c else c)) := by
  intro k
  induction k with
  | zero =>
    intro u pt _ _ _
    refine ⟨⟨u.lineAt, rfl⟩, fun q => ⟨rfl, rfl, rfl⟩, fun q _ => rfl, ?_⟩
    intro n q i _
    show (u.lineAt q).text[i]? = _
    cases (u.lineAt q).text[i]? with
    | none => rfl
    | some c =>
      simp only [Option.map_some']
      rw [if_neg (by omega)]
  | succ k ih =>
    intro u pt hu hpt hb
    -- the characters of the buffer other than the one at `pt` are not at its offset
    have hne : ∀ n q i, chain[n]? = some q → i < line_len s0 q →
        (⟨q, n, i⟩ : Point) ≠ pt →
        line_start (chain.map (line_len s0)) n + i ≠ point_offset s0 chain pt := by
      intro n q i hq hi hneq h
      apply hneq
      exact point_offset_inj s0 chain ⟨q, n, i⟩ pt ⟨hq, Nat.le_of_lt hi⟩ hpt h
    have hlen : line_len u pt.p = line_len s0 pt.p := (hu pt.p).2
    rw [setcase_region_loop_succ]
    by_cases ho : pt.o < line_len u pt.p
    · rw [if_pos ho]
      have hu1 : ∀ q, ((set_line_char u pt.p pt.o
            (setcase_region_put rcase ((u.lineAt pt.p).text.getD pt.o NUL))).lineAt q).next
            = (s0.lineAt q).next ∧
          ((set_line_char u pt.p pt.o
            (setcase_region_put rcase ((u.lineAt pt.p).text.getD pt.o NUL))).lineAt q).text.length
            = (s0.lineAt q).text.length := by
        intro q
        rw [set_line_char_apply]
        by_cases e : q = pt.p
        · rw [if_pos e, e]
          simp only [List.length_set]
          exact hu pt.p
        · rw [if_neg e]; exact hu q
      have hpt1 : ValidPoint s0 chain ⟨pt.p, pt.n, pt.o + 1⟩ :=
        ⟨hpt.1, by show pt.o + 1 ≤ line_len s0 pt.p; omega⟩
      have hoff1 : point_offset s0 chain ⟨pt.p, pt.n, pt.o + 1⟩ = point_offset s0 chain pt + 1 := by
        simp only [point_offset]; omega
      obtain ⟨⟨f, hf⟩, hB, hC, hD⟩ := ih _ ⟨pt.p, pt.n, pt.o + 1⟩ hu1 hpt1 (by omega)
      simp only [] at hf hB hC hD
      refine ⟨⟨f, by rw [hf]; rfl⟩, ?_, ?_, ?_⟩
      · intro q
        obtain ⟨b1, b2, b3⟩ := hB q
        rw [b1, b2, b3, set_line_char_apply]
        by_cases e : q = pt.p
        · rw [if_pos e, e]
          simp only [List.length_set]
          exact ⟨trivial, trivial, trivial⟩
        · rw [if_neg e]
          exact ⟨rfl, rfl, rfl⟩
      · intro q hq
        rw [hC q hq, set_line_char_apply, if_neg]
        intro e
        apply hq
        rw [e]
        exact List.getElem?_mem hpt.1
      · intro n q i hq
        rw [hD n q i hq, hoff1, set_line_char_text]
        cases hx : (u.lineAt q).text[i]? with
        | none => simp
        | some c =>
          have hi : i < line_len s0 q := by
            have := (List.getElem?_eq_some_iff.mp hx).1
            rw [(hu q).2] at this
            exact this
          by_cases e : q = pt.p ∧ i = pt.o
          · rw [if_pos e]
            have en : n = pt.n := nodup_index_eq hnd hq (e.1 ▸ hpt.1)
            simp only [Option.map_some']
            rw [if_neg (by simp only [point_offset]; rw [en, e.2]; omega),
              if_pos (by simp only [point_offset]; rw [en, e.2]; omega)]
            congr 2
            rw [List.getD_eq_getElem?_getD, ← e.1, ← e.2, hx]
            rfl
          · rw [if_neg e]
            have := hne n q i hq hi (by
              intro h
              apply e
              rw [← h]
              exact ⟨rfl, rfl⟩)
            simp only [Option.map_some']
            congr 1
            by_cases h1 : point_offset s0 chain pt + 1
                  ≤ line_start (chain.map (line_len s0)) n + i ∧
                line_start (chain.map (line_len s0)) n + i < point_offset s0 chain pt + 1 + k
            · rw [if_pos h1, if_pos (by omega)]
            · rw [if_neg h1, if_neg (by omega)]
    · rw [if_neg ho]
      have hoe : pt.o = line_len s0 pt.p := by
        have := hpt.2
        omega
      have hn1 := point_offset_lt_last s0 chain pt hpt (by omega) hoe
      have hb1 : chain[pt.n + 1]? = some chain[pt.n + 1] := List.getElem?_eq_getElem hn1
      have hnext : get_line_next u pt.p = chain[pt.n + 1] := by
        show (u.lineAt pt.p).next = _
        rw [(hu pt.p).1]
        exact (lineChain_links hc hpt.1 hb1).1
      rw [hnext]
      have hpt1 : ValidPoint s0 chain ⟨chain[pt.n + 1], pt.n + 1, 0⟩ := ⟨hb1, Nat.zero_le _⟩
      have hoff1 : point_offset s0 chain ⟨chain[pt.n + 1], pt.n + 1, 0⟩
          = point_offset s0 chain pt + 1 := by
        simp only [point_offset]
        have hn0 : pt.n < (chain.map (line_len s0)).length := by simp; omega
        rw [line_start_succ _ pt.n hn0]
        have : (chain.map (line_len s0))[pt.n] = line_len s0 pt.p := by
          rw [List.getElem_map]
          congr 1
          have := (List.getElem?_eq_some_iff.mp hpt.1).2
          exact this
        rw [this]
        omega
      obtain ⟨hA, hB, hC, hD⟩ := ih u ⟨chain[pt.n + 1], pt.n + 1, 0⟩ hu hpt1 (by omega)
      simp only [] at hA hB hC hD
      refine ⟨hA, hB, hC, ?_⟩
      intro n q i hq
      rw [hD n q i hq, hoff1]
      cases hx : (u.lineAt q).text[i]? with
      | none => rfl
      | some c =>
        have hi : i < line_len s0 q := by
          have := (List.getElem?_eq_some_iff.mp hx).1
          rw [(hu q).2] at this
          exact this
        have := hne n q i hq hi (by
          intro e
          have e1 : q = pt.p := by rw [← e]
          have e2 : i = pt.o := by rw [← e]
          rw [e1] at hi
          omega)
        simp only [Option.map_some']
        congr 1
        by_cases h1 : point_offset s0 chain pt + 1 ≤ line_start (chain.map (line_len s0)) n + i ∧
            line_start (chain.map (line_len s0)) n + i < point_offset s0 chain pt + 1 + k
        · rw [if_pos h1, if_pos (by omega)]
        · rw [if_neg h1, if_neg (by omega)]

/-- A state with the same links between the lines, the same limit line and line count and a
valid point is well formed again. -/
theorem validBuffer_reshape {s t : State} {chain : List LinePtr} (hv : ValidBuffer s chain)
    (hnext : ∀ q, (t.lineAt q).next = (s.lineAt q).next)
    (hprev : ∀ q, (t.lineAt q).prev = (s.lineAt q).prev)
    (hlim : t.cur.limitp = s.cur.limitp) (hcount : t.cur.last_line = s.cur.last_line)
    (hpt : OnChain chain t.cur.pt) (ho : t.cur.pt.o ≤ line_len t t.cur.pt.p) :
    ValidBuffer t chain := by
  refine ⟨lineChain_transfer chain (fun q _ => hnext q) (fun q _ => hprev q) hv.linked,
    ?_, ?_, ?_, hpt, ho, ?_⟩
  · intro a ha; rw [hprev, hlim]; exact hv.first a ha
  · intro a ha; rw [hnext, hlim]; exact hv.last a ha
  · rw [hlim]; exact hv.limit
  · rw [hcount]; exact hv.count

theorem validBuffer_undo_save {s : State} {chain : List LinePtr} (hv : ValidBuffer s chain)
    (ty : UndoType) (pt : Point) (a1 a2 : Int) :
    ValidBuffer (undo_save s ty pt a1 a2) chain := by
  refine validBuffer_of_eq hv (undo_save_lineAt s ty pt a1 a2) ?_ ?_ ⟨?_, ?_⟩
  · rw [undo_save_cur]
  · rw [undo_save_cur]
  · rw [undo_save_cur]; exact hv.point
  · rw [undo_save_cur]; exact hv.offset

/-- The ends of the region that `calculate_the_region` finds are point and the mark, the
earlier one first. -/
theorem calculate_the_region_ends (s : State) (rp : Region) (chain : List LinePtr)
    (fuel : Nat) (hv : ValidBuffer s chain) (hmark : (warn_if_no_mark s).2 = false)
    (hmv : ValidPoint s chain (get_marker_pt s s.cur.mark)) (hf : chain.length < fuel) :
    ∃ r, calculate_the_region fuel s rp = some (s, true, r) ∧
      ValidPoint s chain r.start ∧
      point_offset s chain r.start = min (point_offset s chain s.cur.pt)
        (point_offset s chain (get_marker_pt s s.cur.mark)) ∧
      point_offset s chain r.end_ = max (point_offset s chain s.cur.pt)
        (point_offset s chain (get_marker_pt s s.cur.mark)) ∧
      r.size = (point_offset s chain r.end_ : Int) - (point_offset s chain r.start : Int) := by
  obtain ⟨r, h1, h2, h3, _, h5, h6⟩ := calculate_the_region_offsets s rp chain fuel hv hmark hmv hf
  refine ⟨r, h1, h2, ?_, ?_, h6⟩
  all_goals
    have hs := warn_if_no_mark_state s hmark
    unfold calculate_the_region at h1
    simp only [hmark, hs, Bool.false_eq_true, if_false] at h1
    split at h1
    · cases h1
    · have e := (Prod.mk.inj (Prod.mk.inj (Option.some.inj h1)).2).2
      rw [← e] at h5 ⊢
      split_ifs at h5 ⊢ <;> simp only [] at h5 ⊢ <;> omega

/-- The state after `setcase_region` on a writable buffer with a mark: the lines and their
lengths are the old ones, and of the characters exactly the ones between point and the mark
are converted. -/
theorem setcase_region_spec (s : State) (chain : List LinePtr) (fuel : Nat) (rcase : Int)
    (hv : ValidBuffer s chain) (hro : s.cur.readonly = false)
    (hmark : (warn_if_no_mark s).2 = false)
    (hmv : ValidPoint s chain (get_marker_pt s s.cur.mark)) (hf : chain.length < fuel) :
    ∃ t, setcase_region fuel s rcase = some (t, true) ∧
      ValidBuffer t chain ∧ t.cur.last_line = s.cur.last_line ∧
      (∀ q, line_len t q = line_len s q) ∧
      (∀ q, q ∉ chain → t.lineAt q = s.lineAt q) ∧
      ∀ n q i, chain[n]? = some q →
        (t.lineAt q).text[i]? = ((s.lineAt q).text[i]?).map (fun c =>
          if min (point_offset s chain s.cur.pt)
                (point_offset s chain (get_marker_pt s s.cur.mark))
              ≤ line_start (chain.map (line_len s)) n + i ∧
            line_start (chain.map (line_len s)) n + i
              < max (point_offset s chain s.cur.pt)
                (point_offset s chain (get_marker_pt s s.cur.mark))
          then setcase_region_put rcase c else c) := by
  obtain ⟨r, h1, h2, h3, h4, h5⟩ :=
    calculate_the_region_ends s region_new chain fuel hv hmark hmv hf
  have hw : warn_if_readonly_buffer s = (s, false) := by
    unfold warn_if_readonly_buffer; rw [hro]; rfl
  have hs := warn_if_no_mark_state s hmark
  have hle : point_offset s chain r.start ≤ point_offset s chain r.end_ := by
    rw [h3, h4]; omega
  have hend : point_offset s chain r.end_ ≤ (buffer_text s chain).length := by
    rw [h4]
    have a := point_offset_le s chain s.cur.pt ⟨hv.point, hv.offset⟩
    have b := point_offset_le s chain _ hmv
    omega
  have hsz : ¬ r.size < 0 := by rw [h5]; omega
  have hk : r.size.toNat = point_offset s chain r.end_ - point_offset s chain r.start := by
    rw [h5]; omega
  obtain ⟨⟨f, hA⟩, hB, hC, hD⟩ := setcase_region_loop_spec rcase s chain hv.linked
    (validBuffer_nodup hv) r.size.toNat
    (undo_save s UndoType.UNDO_REPLACE_BLOCK r.start r.size r.size) r.start
    (by intro q; rw [undo_save_lineAt]; exact ⟨rfl, rfl⟩) h2 (by rw [hk]; omega)
  refine ⟨set_modified (setcase_region_loop rcase r.size.toNat
    (undo_save s UndoType.UNDO_REPLACE_BLOCK r.start r.size r.size) r.start.p r.start.o),
    ?_, ?_, ?_, ?_, ?_, ?_⟩
  · unfold setcase_region
    simp only [hw, hmark, hs, Bool.false_eq_true, if_false, calculate_region, h1]
    show (if r.size < 0 then none else some _) = _
    rw [if_neg hsz]
  · have hcur : (set_modified (setcase_region_loop rcase r.size.toNat
          (undo_save s UndoType.UNDO_REPLACE_BLOCK r.start r.size r.size) r.start.p
          r.start.o)).cur
        = { (undo_save s UndoType.UNDO_REPLACE_BLOCK r.start r.size r.size).cur with
            modified := true } := by
      rw [hA]
      unfold set_modified
      rw [cur_setBuf, if_pos rfl]
      rfl
    have hl : ∀ q, (set_modified (setcase_region_loop rcase r.size.toNat
          (undo_save s UndoType.UNDO_REPLACE_BLOCK r.start r.size r.size) r.start.p
          r.start.o)).lineAt q
        = (setcase_region_loop rcase r.size.toNat
          (undo_save s UndoType.UNDO_REPLACE_BLOCK r.start r.size r.size) r.start.p
          r.start.o).lineAt q := fun q => rfl
    refine validBuffer_reshape hv ?_ ?_ ?_ ?_ ?_ ?_
    · intro q; rw [hl, (hB q).1, undo_save_lineAt]
    · intro q; rw [hl, (hB q).2.1, undo_save_lineAt]
    · rw [hcur, undo_save_cur]
    · rw [hcur, undo_save_cur]
    · rw [hcur, undo_save_cur]; exact hv.point
    · rw [hcur, undo_save_cur]
      show s.cur.pt.o ≤ ((set_modified _).lineAt s.cur.pt.p).text.length
      rw [hl, (hB _).2.2, undo_save_lineAt]
      exact hv.offset
  · have hcur : (set_modified (setcase_region_loop rcase r.size.toNat
          (undo_save s UndoType.UNDO_REPLACE_BLOCK r.start r.size r.size) r.start.p
          r.start.o)).cur
        = { (undo_save s UndoType.UNDO_REPLACE_BLOCK r.start r.size r.size).cur with
            modified := true } := by
      rw [hA]
      unfold set_modified
      rw [cur_setBuf, if_pos rfl]
      rfl
    rw [hcur, undo_save_cur]
  · intro q
    show ((setcase_region_loop rcase r.size.toNat _ r.start.p r.start.o).lineAt q).text.length
      = _
    rw [(hB q).2.2, undo_save_lineAt]
    rfl
  · intro q hq
    show (setcase_region_loop rcase r.size.toNat _ r.start.p r.start.o).lineAt q = _
    rw [hC q hq, undo_save_lineAt]
  · intro n q i hq
    show ((setcase_region_loop rcase r.size.toNat _ r.start.p r.start.o).lineAt q).text[i]? = _
    rw [hD n q i hq, undo_save_lineAt, hk, ← h3, ← h4,
      Nat.add_sub_cancel' hle]

/-- C25: `upcase-region` and `downcase-region` on a writable buffer with a mark return
true; every character between point and the mark is replaced by its upper-case, respectively
lower-case, form and every other character stays; the lines of the buffer and the length of
every line stay, whether the region lies in one line or spans several. -/
theorem setcase_region_converts_region (s : State) (chain : List LinePtr) (fuel : Nat)
    (hv : ValidBuffer s chain) (hro : s.cur.readonly = false)
    (hmark : (warn_if_no_mark s).2 = false)
    (hmv : ValidPoint s chain (get_marker_pt s s.cur.mark)) (hf : chain.length < fuel) :
    (∃ t, F_upcase_region fuel s = some (t, true) ∧
      ValidBuffer t chain ∧ t.cur.last_line = s.cur.last_line ∧
      (∀ q, line_len t q = line_len s q) ∧
      (∀ q, q ∉ chain → t.lineAt q = s.lineAt q) ∧
      ∀ n q i, chain[n]? = some q →
        (t.lineAt q).text[i]? = ((s.lineAt q).text[i]?).map (fun c =>
          if min (point_offset s chain s.cur.pt)
                (point_offset s chain (get_marker_pt s s.cur.mark))
              ≤ point_offset s chain ⟨q, n, i⟩ ∧
            point_offset s chain ⟨q, n, i⟩
              < max (point_offset s chain s.cur.pt)
                (point_offset s chain (get_marker_pt s s.cur.mark))
          then c.toUpper else c)) ∧
    (∃ t, F_downcase_region fuel s = some (t, true) ∧
      ValidBuffer t chain ∧ t.cur.last_line = s.cur.last_line ∧
      (∀ q, line_len t q = line_len s q) ∧
      (∀ q, q ∉ chain → t.lineAt q = s.lineAt q) ∧
      ∀ n q i, chain[n]? = some q →
        (t.lineAt q).text[i]? = ((s.lineAt q).text[i]?).map (fun c =>
          if min (point_offset s chain s.cur.pt)
                (point_offset s chain (get_marker_pt s s.cur.mark))
              ≤ point_offset s chain ⟨q, n, i⟩ ∧
            point_offset s chain ⟨q, n, i⟩
              < max (point_offset s chain s.cur.pt)
                (point_offset s chain (get_marker_pt s s.cur.mark))
          then c.toLower else c)) :=
  ⟨setcase_region_spec s chain fuel UPPERCASE hv hro hmark hmv hf,
    setcase_region_spec s chain fuel LOWERCASE hv hro hmark hmv hf⟩

theorem setcase_region_converts_region_witness :
    ValidBuffer exState [10, 11, 12] ∧
    ∃ t, F_upcase_region 4 exState = some (t, true) ∧
      (t.lineAt 10).text[0]? = some 'a' ∧ (t.lineAt 10).text[1]? = some 'B' ∧
      (t.lineAt 12).text[0]? = some 'x' :=
  let h := setcase_region_converts_region exState [10, 11, 12] 4 exState_valid rfl rfl
    ⟨rfl, by decide⟩ (by decide)
  let ⟨t, h1, _, _, _, _, h6⟩ := h.1
  ⟨exState_valid, t, h1, (h6 0 10 0 rfl).trans (by decide), (h6 0 10 1 rfl).trans (by decide),
    (h6 2 12 0 rfl).trans (by decide)⟩

/-! ## Undo sequences of the case and tab commands -/

theorem undoOnly_refl (ty : UndoType) (s : State) : UndoOnly ty s s :=
  ⟨rfl, rfl, rfl, [], by simp, by simp, fun _ => rfl⟩

theorem undoOnly_trans {ty : UndoType} {s t u : State} (h1 : UndoOnly ty s t)
    (h2 : UndoOnly ty t u) : UndoOnly ty s u := by
  obtain ⟨a1, a2, a3, e1, a4, a5, a6⟩ := h1
  obtain ⟨b1, b2, b3, e2, b4, b5, b6⟩ := h2
  refine ⟨b1.trans a1, b2.trans a2, b3.trans a3, e1 ++ e2, ?_, ?_, ?_⟩
  · rw [b4, a4, List.append_assoc]
  · intro u hu
    rcases List.mem_append.mp hu with h | h
    · exact a5 u h
    · exact b5 u h
  · intro hn
    rw [a6 hn, b6 (by rw [a2]; exact hn)]
    rfl

theorem undoOnly_of_unedited {ty : UndoType} {s t : State} (h : Unedited s t) :
    UndoOnly ty s t :=
  ⟨h.2.1, h.2.2.1, h.2.2.2.2.1, [], by rw [h.2.2.2.1]; simp, by simp, fun _ => rfl⟩

theorem undoOnly_undo_save (s : State) (ty : UndoType) (pt : Point) (a1 a2 : Int) :
    UndoOnly ty s (undo_save s ty pt a1 a2) := by
  unfold undo_save
  split
  · exact undoOnly_refl ty s
  · rename_i hc
    refine ⟨rfl, ?_, rfl, [⟨ty, pt, a1, a2⟩], ?_, ?_, ?_⟩
    · rw [cur_setBuf, if_pos rfl]
    · rw [cur_setBuf, if_pos rfl]
    · intro u hu
      rw [List.mem_singleton.mp hu]
    · intro hn
      rw [hn] at hc
      simp at hc

theorem undoOnly_of_cur {ty : UndoType} {s t : State} (h1 : t.cur_bp = s.cur_bp)
    (h2 : t.cur.undo = s.cur.undo) (h3 : t.cur.noundo = s.cur.noundo)
    (h4 : t.undo_nosave = s.undo_nosave) : UndoOnly ty s t :=
  ⟨h1, h3, h4, [], by rw [h2]; simp, by simp, fun _ => rfl⟩

/-- A sequence record, records of the type `UNDO_REPLACE_BLOCK` and the closing sequence
record make a closed sequence. -/
theorem undoBracket_of_only (a u : State) (p1 p2 : Point) (hns : a.undo_nosave = false)
    (h : UndoOnly UndoType.UNDO_REPLACE_BLOCK
      (undo_save a UndoType.UNDO_START_SEQUENCE p1 0 0) u) :
    UndoBracket a (undo_save u UndoType.UNDO_END_SEQUENCE p2 0 0) ∧
    (undo_save u UndoType.UNDO_END_SEQUENCE p2 0 0).cur.noundo = a.cur.noundo ∧
    (undo_save u UndoType.UNDO_END_SEQUENCE p2 0 0).undo_nosave = false := by
  obtain ⟨h1, h2, h3, ex, h4, h5, h6⟩ := h
  have c1 : (undo_save a UndoType.UNDO_START_SEQUENCE p1 0 0).cur_bp = a.cur_bp := by
    simp
  have c2 := undo_save_cur a UndoType.UNDO_START_SEQUENCE p1 0 0
  have c3 : (undo_save a UndoType.UNDO_START_SEQUENCE p1 0 0).undo_nosave = false := by
    simp [hns]
  have d2 := undo_save_cur u UndoType.UNDO_END_SEQUENCE p2 0 0
  have hnu : u.cur.noundo = a.cur.noundo := by rw [h2, c2]
  have hnsu : u.undo_nosave = false := by rw [h3, c3]
  refine ⟨⟨?_, ?_⟩, ?_, ?_⟩
  · simp only [undo_save_cur_bp]; rw [h1, c1]
  · rw [d2]
    simp only [hnsu, hnu, Bool.or_false]
    rw [h4, c2]
    simp only [hns, Bool.or_false]
    cases hn : a.cur.noundo
    · refine ⟨ex, p1, p2, h5, ?_⟩
      simp
    · refine ⟨[], p1, p2, by simp, ?_⟩
      have := h6 (by rw [c2]; exact hn)
      simp [this]
  · rw [d2]; exact hnu
  · simp [hnsu]

/-- The first loop of `setcase_word` stops at the end of the run of word characters. -/
theorem setcase_word_end_run (l : List Char) : ∀ (k i : Nat), i + k = l.length →
    i ≤ setcase_word_end l k i ∧ setcase_word_end l k i ≤ l.length ∧
    (∀ j, i ≤ j → j < setcase_word_end l k i → line_word l j = true) ∧
    line_word l (setcase_word_end l k i) = false := by
  intro k
  induction k with
  | zero =>
    intro i h
    have h0 : setcase_word_end l 0 i = i := rfl
    rw [h0]
    exact ⟨le_refl _, by omega, fun j a b => absurd b (by omega), line_word_ge (by omega)⟩
  | succ k ih =>
    intro i h
    have hlt : i < l.length := by omega
    rw [setcase_word_end, if_pos hlt]
    cases hw : ISWORDCHAR (l.getD i NUL)
    · simp only [Bool.not_false, if_true]
      exact ⟨le_refl _, by omega, fun j a b => absurd b (by omega),
        by rw [line_word_lt hlt]; exact hw⟩
    · simp only [Bool.not_true, Bool.false_eq_true, if_false]
      obtain ⟨a1, a2, a3, a4⟩ := ih (i + 1) (by omega)
      refine ⟨by omega, a2, ?_, a4⟩
      intro j h1 h2
      by_cases hj : j = i
      · rw [hj, line_word_lt hlt]; exact hw
      · exact a3 j (by omega) h2

/-- The conversion of `setcase_word` keeps the buffer well formed and adds to the undo log
at most a record of the type `UNDO_REPLACE_BLOCK`. -/
theorem setcase_word_convert_valid (u : State) (chain : List LinePtr) (rcase : Int)
    (hv : ValidBuffer u chain) :
    ValidBuffer (setcase_word_convert u rcase) chain ∧
    UndoOnly UndoType.UNDO_REPLACE_BLOCK u (setcase_word_convert u rcase) := by
  have hoff := hv.offset
  obtain ⟨r1, r2, r3, r4⟩ := setcase_word_end_run (u.lineAt u.cur.pt.p).text
    (line_len u u.cur.pt.p - u.cur.pt.o) u.cur.pt.o (by unfold line_len at hoff ⊢; omega)
  obtain ⟨b1, b2, b3, b4, b5, b6, b7, _, _⟩ := setcase_word_convert_spec u rcase _ r1 hoff r3 r4
  have hk : UndoOnly UndoType.UNDO_REPLACE_BLOCK u
      (if u.cur.pt.o < setcase_word_end (u.lineAt u.cur.pt.p).text
        (line_len u u.cur.pt.p - u.cur.pt.o) u.cur.pt.o then
      undo_save u UndoType.UNDO_REPLACE_BLOCK u.cur.pt
        ((setcase_word_end (u.lineAt u.cur.pt.p).text
          (line_len u u.cur.pt.p - u.cur.pt.o) u.cur.pt.o - u.cur.pt.o : Nat) : Int)
        ((setcase_word_end (u.lineAt u.cur.pt.p).text
          (line_len u u.cur.pt.p - u.cur.pt.o) u.cur.pt.o - u.cur.pt.o : Nat) : Int) else u) := by
    split
    · exact undoOnly_undo_save u _ _ _ _
    · exact undoOnly_refl _ u
  have hc2 : (if u.cur.pt.o < setcase_word_end (u.lineAt u.cur.pt.p).text
        (line_len u u.cur.pt.p - u.cur.pt.o) u.cur.pt.o then
      undo_save u UndoType.UNDO_REPLACE_BLOCK u.cur.pt
        ((setcase_word_end (u.lineAt u.cur.pt.p).text
          (line_len u u.cur.pt.p - u.cur.pt.o) u.cur.pt.o - u.cur.pt.o : Nat) : Int)
        ((setcase_word_end (u.lineAt u.cur.pt.p).text
          (line_len u u.cur.pt.p - u.cur.pt.o) u.cur.pt.o - u.cur.pt.o : Nat) : Int) else u).cur =
      { u.cur with undo := (if u.cur.pt.o < setcase_word_end (u.lineAt u.cur.pt.p).text
        (line_len u u.cur.pt.p - u.cur.pt.o) u.cur.pt.o then
      undo_save u UndoType.UNDO_REPLACE_BLOCK u.cur.pt
        ((setcase_word_end (u.lineAt u.cur.pt.p).text
          (line_len u u.cur.pt.p - u.cur.pt.o) u.cur.pt.o - u.cur.pt.o : Nat) : Int)
        ((setcase_word_end (u.lineAt u.cur.pt.p).text
          (line_len u u.cur.pt.p - u.cur.pt.o) u.cur.pt.o - u.cur.pt.o : Nat) : Int) else u).cur.undo } := by
    split
    · rw [undo_save_cur]
    · rfl
  generalize setcase_word_end (u.lineAt u.cur.pt.p).text
    (line_len u u.cur.pt.p - u.cur.pt.o) u.cur.pt.o = e at r1 r2 r3 r4 b2 b4 b5 b6 b7 hk hc2
  generalize (if u.cur.pt.o < e then
      undo_save u UndoType.UNDO_REPLACE_BLOCK u.cur.pt ((e - u.cur.pt.o : Nat) : Int)
        ((e - u.cur.pt.o : Nat) : Int) else u) = s2 at b2 hk hc2
  generalize setcase_word_convert u rcase = t at b1 b2 b3 b4 b5 b6 b7
  have hlinks : ∀ q, (t.lineAt q).next = (u.lineAt q).next ∧
      (t.lineAt q).prev = (u.lineAt q).prev := by
    intro q
    by_cases hq : q = u.cur.pt.p
    · rw [hq]; exact ⟨b5, b6⟩
    · rw [b4 q hq]; exact ⟨rfl, rfl⟩
  constructor
  · refine validBuffer_reshape hv (fun q => (hlinks q).1) (fun q => (hlinks q).2) ?_ ?_ ?_ ?_
    · rw [b2, hc2]
    · rw [b2, hc2]
    · rw [b2]
      show chain[u.cur.pt.n]? = some u.cur.pt.p
      exact hv.point
    · rw [b2]
      show e ≤ (t.lineAt u.cur.pt.p).text.length
      rw [b7]; exact r2
  · obtain ⟨k1, k2, k3, ex, k4, k5, k6⟩ := hk
    refine ⟨b1, ?_, b3, ex, ?_, k5, k6⟩
    · rw [b2]; exact k2
    · rw [b2]; exact k4

/-- The word characters before an offset of a line start somewhere. -/
theorem word_run_start (l : List Char) : ∀ (o : Nat),
    ∃ a, a ≤ o ∧ (∀ i, a ≤ i → i < o → line_word l i = true) ∧
      (a = 0 ∨ line_word l (a - 1) = false) := by
  intro o
  induction o with
  | zero => exact ⟨0, Nat.le_refl _, fun i _ h => absurd h (by omega), Or.inl rfl⟩
  | succ o ih =>
    cases hw : line_word l o
    · exact ⟨o + 1, Nat.le_refl _, fun i a b => absurd b (by omega), Or.inr hw⟩
    · obtain ⟨a, a1, a2, a3⟩ := ih
      refine ⟨a, by omega, ?_, a3⟩
      intro i h1 h2
      by_cases e : i = o
      · rw [e]; exact hw
      · exact a2 i h1 (by omega)

/-- The function `setcase_word` returns on every well-formed buffer, with the buffer well
formed again and at most records of the type `UNDO_REPLACE_BLOCK` added; it returns FALSE
when no word character stands at or after point. -/
theorem setcase_word_total (s : State) (chain : List LinePtr) (fuel : Nat) (rcase : Int)
    (hv : ValidBuffer s chain) (hf : chain.length ≤ fuel) :
    ∃ t b, setcase_word fuel s rcase = some (t, b) ∧ ValidBuffer t chain ∧
      UndoOnly UndoType.UNDO_REPLACE_BLOCK s t ∧
      ((∀ m i, at_or_after s.cur.pt m i → word_at s chain m i = false) → b = false) := by
  obtain ⟨t1, b, h1, m1, v1, hp1, hp2⟩ := forward_word_loop_spec chain fuel s hv
    (Nat.le_trans hf (Nat.le_add_right _ _))
  have hfw : forward_word fuel s = some (t1, b) := h1
  cases b with
  | false =>
    refine ⟨t1, false, ?_, v1, undoOnly_of_unedited (unedited_of_motionFrame m1), fun _ => rfl⟩
    unfold setcase_word
    rw [hfw]
    rfl
  | true =>
    obtain ⟨n1, o1, f1, f2, f3, f4, f5, f6⟩ := hp1 rfl
    have hl1 : t1.lineAt = s.lineAt := m1.1
    have hline : ∀ i, word_at s chain n1 i = line_word (t1.lineAt t1.cur.pt.p).text i := by
      intro i
      rw [hl1, ← f3]
      exact word_at_line v1.point i
    obtain ⟨a, a1, a2, a3⟩ := word_run_start (t1.lineAt t1.cur.pt.p).text o1
    have hlen : 1 ≤ chain.length := by
      have := hv.count
      omega
    obtain ⟨f, rfl⟩ : ∃ f, fuel = f + 1 := ⟨fuel - 1, by omega⟩
    obtain ⟨t2, h2, m2, hpt2⟩ := backward_word_from_end f t1 a (t1.cur.pt.o - a) (by omega)
      (by omega) v1.offset
      (by
        intro i h3 h4
        by_cases hi : i < o1
        · exact a2 i h3 hi
        · rw [← hline]
          exact f5 i (by omega) (by omega))
      a3
    have v2 : ValidBuffer t2 chain := by
      refine validBuffer_motion v1 m2 ⟨?_, ?_⟩
      · rw [hpt2]; exact v1.point
      · rw [hpt2]
        have := v1.offset
        show a ≤ line_len t1 t1.cur.pt.p
        omega
    obtain ⟨v3, k3⟩ := setcase_word_convert_valid t2 chain rcase v2
    refine ⟨setcase_word_convert t2 rcase, true, ?_, v3, ?_, ?_⟩
    · unfold setcase_word
      rw [hfw]
      show (if (!true) = true then some (t1, false) else
        (backward_word (f + 1) t1).bind fun b =>
          if (!b.2) = true then some (b.1, false)
          else some (setcase_word_convert b.1 rcase, true)) = _
      rw [h2]
      rfl
    · exact undoOnly_trans (undoOnly_of_unedited (unedited_of_motionFrame
        (motionFrame_trans m1 m2))) k3
    · intro hno
      have h0 := hno n1 o1 f1
      have h9 := f5 o1 (Nat.le_refl _) f4
      rw [h0] at h9
      cases h9

/-- The loop of the case commands for words returns on every well-formed buffer. -/
theorem setcase_word_times_total (chain : List LinePtr) (fuel : Nat) (rcase : Int)
    (hf : chain.length ≤ fuel) : ∀ (k : Nat) (s : State), ValidBuffer s chain →
    ∃ t b, setcase_word_times rcase fuel k s = some (t, b) ∧ ValidBuffer t chain ∧
      UndoOnly UndoType.UNDO_REPLACE_BLOCK s t ∧
      (0 < k → (∀ m i, at_or_after s.cur.pt m i → word_at s chain m i = false) →
        b = false) := by
  intro k
  induction k with
  | zero =>
    intro s hv
    exact ⟨s, true, rfl, hv, undoOnly_refl _ s, fun h => absurd h (by omega)⟩
  | succ k ih =>
    intro s hv
    obtain ⟨t, b, h1, v1, k1, hb⟩ := setcase_word_total s chain fuel rcase hv hf
    cases b with
    | false =>
      refine ⟨t, false, ?_, v1, k1, fun _ _ => rfl⟩
      rw [setcase_word_times, h1]
      rfl
    | true =>
      obtain ⟨t2, b2, h2, v2, k2, _⟩ := ih t v1
      refine ⟨t2, b2, ?_, v2, undoOnly_trans k1 k2, ?_⟩
      · rw [setcase_word_times, h1]
        exact h2
      · intro _ hno
        have := hb hno
        cases this

/-- The case commands for words return on every well-formed buffer, with a closed undo
sequence, and with FALSE when a word is asked for and none stands at or after point. -/
theorem setcase_word_command_total (s : State) (chain : List LinePtr) (fuel : Nat)
    (rcase uniarg : Int) (hv : ValidBuffer s chain) (hf : chain.length ≤ fuel)
    (hns : s.undo_nosave = false) :
    ∃ t b, setcase_word_command rcase fuel s uniarg = some (t, b) ∧ UndoBracket s t ∧
      (0 < uniarg → (∀ m i, at_or_after s.cur.pt m i → word_at s chain m i = false) →
        b = false) := by
  have hv1 := validBuffer_undo_save hv UndoType.UNDO_START_SEQUENCE s.cur.pt 0 0
  obtain ⟨t, b, h1, _, k1, hb⟩ := setcase_word_times_total chain fuel rcase hf uniarg.toNat
    _ hv1
  refine ⟨undo_save t UndoType.UNDO_END_SEQUENCE t.cur.pt 0 0, b, ?_,
    (undoBracket_of_only s t s.cur.pt t.cur.pt hns k1).1, ?_⟩
  · unfold setcase_word_command
    rw [h1]
    rfl
  · intro hu hno
    refine hb (by omega) ?_
    intro m i hat
    have hpt : (undo_save s UndoType.UNDO_START_SEQUENCE s.cur.pt 0 0).cur.pt = s.cur.pt := by
      rw [undo_save_cur]
    rw [hpt] at hat
    have := hno m i hat
    rw [← this]
    exact word_at_congr (undo_save_lineAt s _ _ _ _) chain m i

theorem set_modified_cur (s : State) : (set_modified s).cur = { s.cur with modified := true } := by
  unfold set_modified
  rw [cur_setBuf, if_pos rfl]

theorem line_replace_text_cur (s : State) (lp : LinePtr) (offset oldlen : Nat)
    (newtext : List Char) :
    (line_replace_text s lp offset oldlen newtext).cur = { s.cur with modified := true } := by
  unfold line_replace_text
  rw [set_modified_cur]
  rfl

theorem undoOnly_line_replace_text (ty : UndoType) (s : State) (lp : LinePtr)
    (offset oldlen : Nat) (newtext : List Char) :
    UndoOnly ty s (line_replace_text s lp offset oldlen newtext) :=
  undoOnly_of_cur rfl (by rw [line_replace_text_cur]) (by rw [line_replace_text_cur]) rfl

/-- A call of `edit_tab_line` with a size that is not negative returns, with at most one
record of the type `UNDO_REPLACE_BLOCK` added to the undo log. -/
theorem edit_tab_line_ok (s : State) (lp : LinePtr) (lineno offset : Nat) (size action : Int)
    (h : 0 ≤ size) :
    ∃ t, edit_tab_line s lp lineno offset size action = .ok t ∧
      UndoOnly UndoType.UNDO_REPLACE_BLOCK s t := by
  unfold edit_tab_line
  by_cases h0 : size = 0
  · rw [if_pos h0]
    exact ⟨s, rfl, undoOnly_refl _ s⟩
  · rw [if_neg h0, if_neg (by omega)]
    split
    · exact ⟨_, rfl, undoOnly_trans (undoOnly_undo_save s _ _ _ _)
        (undoOnly_line_replace_text _ _ _ _ _ _)⟩
    · exact ⟨s, rfl, undoOnly_refl _ s⟩

theorem edit_tab_region_line_ok (action : Int) (r : Region) (s : State) (lp : LinePtr)
    (lineno : Nat)
    (h : lineno = r.start.n → 0 ≤ r.size ∧ r.start.o ≤ line_len s lp) :
    ∃ t, edit_tab_region_line action r s lp lineno = .ok t ∧
      UndoOnly UndoType.UNDO_REPLACE_BLOCK s t := by
  unfold edit_tab_region_line
  split_ifs with h1 h2 h3
  · exact edit_tab_line_ok _ _ _ _ _ _ (h h1).1
  · exact edit_tab_line_ok _ _ _ _ _ _ (by have := (h h1).2; omega)
  · exact edit_tab_line_ok _ _ _ _ _ _ (by omega)
  · exact edit_tab_line_ok _ _ _ _ _ _ (by omega)

/-- The loop of `edit_tab_region` returns when the fuel covers the lines of the region,
with only records of the type `UNDO_REPLACE_BLOCK` added to the undo log. -/
theorem edit_tab_region_loop_ok (action : Int) (r : Region) :
    ∀ (fuel : Nat) (s : State) (lp : LinePtr) (lineno : Nat),
      r.start.n ≤ lineno → lineno ≤ r.end_.n → r.end_.n - lineno < fuel →
      (lineno = r.start.n → 0 ≤ r.size ∧ r.start.o ≤ line_len s lp) →
      ∃ t, edit_tab_region_loop action r fuel s lp lineno = .ok t ∧
        UndoOnly UndoType.UNDO_REPLACE_BLOCK s t := by
  intro fuel
  induction fuel with
  | zero => intro s lp lineno _ _ h; omega
  | succ fuel ih =>
    intro s lp lineno h1 h2 h3 h4
    obtain ⟨t, e1, k1⟩ := edit_tab_region_line_ok action r s lp lineno h4
    rw [edit_tab_region_loop, e1]
    simp only []
    by_cases he : lineno = r.end_.n
    · rw [if_pos he]
      exact ⟨t, rfl, k1⟩
    · rw [if_neg he]
      obtain ⟨t2, e2, k2⟩ := ih t (get_line_next t lp) (lineno + 1) (by omega) (by omega)
        (by omega) (fun h => absurd h (by omega))
      exact ⟨t2, e2, undoOnly_trans k1 k2⟩

theorem undoBracket_of_unedited {a b c d : State} (h1 : Unedited a b) (h2 : UndoBracket b c)
    (h3 : Unedited c d) : UndoBracket a d := by
  obtain ⟨c1, mid, p1, p2, c2, c3⟩ := h2
  refine ⟨h3.2.1.trans (c1.trans h1.2.1), mid, p1, p2, c2, ?_⟩
  rw [h3.2.2.2.1, c3, h1.2.2.2.1, h1.2.2.1]

/-- The function `edit_tab_region` on a read-only buffer: it returns FALSE and leaves the
undo log as it is. -/
theorem edit_tab_region_readonly (fuel : Nat) (s : State) (action : Int)
    (h : s.cur.readonly = true) :
    ∃ t, edit_tab_region fuel s action = .ok (t, false) ∧ t.cur_bp = s.cur_bp ∧
      t.cur.undo = s.cur.undo := by
  have hw : (warn_if_readonly_buffer s).2 = true := by
    unfold warn_if_readonly_buffer; rw [h]; rfl
  refine ⟨(warn_if_readonly_buffer s).1, ?_, (unedited_warn_if_readonly_buffer s).2.1,
    (unedited_warn_if_readonly_buffer s).2.2.2.1⟩
  unfold edit_tab_region
  rw [if_pos hw]

/-- The function `edit_tab_region` without a mark: it returns FALSE and leaves the undo log
as it is. -/
theorem edit_tab_region_no_mark (fuel : Nat) (s : State) (action : Int)
    (h : s.cur.readonly = false) (hm : (warn_if_no_mark s).2 = true) :
    ∃ t, edit_tab_region fuel s action = .ok (t, false) ∧ t.cur_bp = s.cur_bp ∧
      t.cur.undo = s.cur.undo := by
  have hw : warn_if_readonly_buffer s = (s, false) := by
    unfold warn_if_readonly_buffer; rw [h]; rfl
  refine ⟨(warn_if_no_mark s).1, ?_, (unedited_warn_if_no_mark s).2.1,
    (unedited_warn_if_no_mark s).2.2.2.1⟩
  unfold edit_tab_region
  simp only [hw, hm, Bool.false_eq_true, if_false, if_true]

/-- The function `edit_tab_region` on a writable buffer with a mark: on an empty region it
returns TRUE and leaves the undo log as it is, and on another region it returns TRUE with a
closed undo sequence around its line replacements. -/
theorem edit_tab_region_marked (fuel : Nat) (s : State) (chain : List LinePtr) (action : Int)
    (hv : ValidBuffer s chain) (hro : s.cur.readonly = false)
    (hmark : (warn_if_no_mark s).2 = false)
    (hmv : ValidPoint s chain (get_marker_pt s s.cur.mark)) (hf : chain.length < fuel)
    (hns : s.undo_nosave = false) :
    ∃ t, edit_tab_region fuel s action = .ok (t, true) ∧ t.cur_bp = s.cur_bp ∧
      (point_offset s chain s.cur.pt = point_offset s chain (get_marker_pt s s.cur.mark) →
        t.cur.undo = s.cur.undo) ∧
      (point_offset s chain s.cur.pt ≠ point_offset s chain (get_marker_pt s s.cur.mark) →
        UndoBracket s t) := by
  obtain ⟨r, h1, h2, h3, h4, h5⟩ :=
    calculate_the_region_ends s region_new chain fuel hv hmark hmv hf
  obtain ⟨r0, g1, _, g3, _, _, _⟩ :=
    calculate_the_region_offsets s region_new chain fuel hv hmark hmv hf
  have er : r0 = r := by
    rw [h1] at g1
    exact ((Prod.mk.inj (Prod.mk.inj (Option.some.inj g1)).2).2).symm
  subst er
  have hw : warn_if_readonly_buffer s = (s, false) := by
    unfold warn_if_readonly_buffer; rw [hro]; rfl
  have hs := warn_if_no_mark_state s hmark
  have hcalc : calculate_region fuel s region_new = some (s, true, r0) := h1
  unfold edit_tab_region
  simp only [hw, hmark, hs, Bool.false_eq_true, if_false, hcalc]
  by_cases hz : r0.size = 0
  · rw [if_pos hz]
    refine ⟨s, rfl, rfl, fun _ => rfl, ?_⟩
    intro hne
    exfalso
    rw [h5, h4, h3] at hz
    omega
  · rw [if_neg hz]
    have hn : r0.start.n ≤ r0.end_.n := by
      by_contra hgt
      have := point_offset_lt_of_line s chain r0.end_ r0.start g3 (by omega)
      rw [h3, h4] at this
      omega
    have hend : r0.end_.n < chain.length := (List.getElem?_eq_some_iff.mp g3.1).1
    obtain ⟨t, e1, k1⟩ := edit_tab_region_loop_ok action r0 fuel
      (undo_save (point_marker s).1 UndoType.UNDO_START_SEQUENCE
        (get_marker_pt (point_marker s).1 (point_marker s).2) 0 0)
      r0.start.p r0.start.n (Nat.le_refl _) hn (by omega)
      (by
        intro _
        refine ⟨by rw [h5, h4, h3]; omega, ?_⟩
        have := h2.2
        simpa [line_len] using this)
    rw [e1]
    simp only []
    have hb := undoBracket_of_only (point_marker s).1 (t.setPt (get_marker_pt t (point_marker s).2))
      (get_marker_pt (point_marker s).1 (point_marker s).2)
      (get_marker_pt t (point_marker s).2)
      (by rw [(unedited_point_marker s).2.2.2.2.1]; exact hns)
      (undoOnly_trans k1 (undoOnly_of_unedited (unedited_setPt t _)))
    have hbr : UndoBracket s (edit_tab_region_close t (point_marker s).2) := by
      unfold edit_tab_region_close
      refine undoBracket_of_unedited (unedited_point_marker s) ?_
        (unedited_trans (unedited_free_marker _ _) (unedited_deactivate_mark _))
      have e : get_marker_pt (t.setPt (get_marker_pt t (point_marker s).2)) (point_marker s).2
          = get_marker_pt t (point_marker s).2 := rfl
      exact hb.1
    exact ⟨_, rfl, hbr.1, fun h => absurd h (by
      intro hne
      rw [h5, h4, h3] at hz
      omega), fun _ => hbr⟩

/-- C23: the undo sequences of the case commands for words and of the tab commands are
closed on every exit path. On a well-formed buffer `downcase-word`, `upcase-word` and
`capitalize-word` return for every argument, and the records they add to the undo log are
one `UNDO_START_SEQUENCE`, then records of the type `UNDO_REPLACE_BLOCK` only, then one
`UNDO_END_SEQUENCE`; this also holds when `setcase_word` fails because no word character
stands at or after point, and the command then returns FALSE. The function
`edit_tab_region` adds no record when it returns early, for a read-only buffer, a missing
mark or an empty region, and otherwise it adds one `UNDO_START_SEQUENCE` before and one
`UNDO_END_SEQUENCE` behind the records of its line replacements. -/
theorem undo_brackets_closed (s : State) (chain : List LinePtr) (fuel : Nat)
    (uniarg action : Int) (hv : ValidBuffer s chain) (hf : chain.length < fuel)
    (hns : s.undo_nosave = false) :
    (∃ t b, F_downcase_word fuel s uniarg = some (t, b) ∧ UndoBracket s t ∧
      (0 < uniarg → (∀ m i, at_or_after s.cur.pt m i → word_at s chain m i = false) →
        b = false)) ∧
    (∃ t b, F_upcase_word fuel s uniarg = some (t, b) ∧ UndoBracket s t ∧
      (0 < uniarg → (∀ m i, at_or_after s.cur.pt m i → word_at s chain m i = false) →
        b = false)) ∧
    (∃ t b, F_capitalize_word fuel s uniarg = some (t, b) ∧ UndoBracket s t ∧
      (0 < uniarg → (∀ m i, at_or_after s.cur.pt m i → word_at s chain m i = false) →
        b = false)) ∧
    (s.cur.readonly = true →
      ∃ t, edit_tab_region fuel s action = .ok (t, false) ∧ t.cur_bp = s.cur_bp ∧
        t.cur.undo = s.cur.undo) ∧
    (s.cur.readonly = false → (warn_if_no_mark s).2 = true →
      ∃ t, edit_tab_region fuel s action = .ok (t, false) ∧ t.cur_bp = s.cur_bp ∧
        t.cur.undo = s.cur.undo) ∧
    (s.cur.readonly = false → (warn_if_no_mark s).2 = false →
      ValidPoint s chain (get_marker_pt s s.cur.mark) →
      ∃ t, edit_tab_region fuel s action = .ok (t, true) ∧ t.cur_bp = s.cur_bp ∧
        (point_offset s chain s.cur.pt = point_offset s chain (get_marker_pt s s.cur.mark) →
          t.cur.undo = s.cur.undo) ∧
        (point_offset s chain s.cur.pt ≠ point_offset s chain (get_marker_pt s s.cur.mark) →
          UndoBracket s t)) :=
  ⟨setcase_word_command_total s chain fuel LOWERCASE uniarg hv (Nat.le_of_lt hf) hns,
    setcase_word_command_total s chain fuel UPPERCASE uniarg hv (Nat.le_of_lt hf) hns,
    setcase_word_command_total s chain fuel CAPITALIZE uniarg hv (Nat.le_of_lt hf) hns,
    edit_tab_region_readonly fuel s action,
    edit_tab_region_no_mark fuel s action,
    fun hro hmark hmv => edit_tab_region_marked fuel s chain action hv hro hmark hmv hf hns⟩

theorem undo_brackets_closed_witness :
    ValidBuffer exState [10, 11, 12] ∧
    (∃ t b, F_downcase_word 4 exState 1 = some (t, b) ∧ UndoBracket exState t) ∧
    (∃ t, edit_tab_region 4 exState TAB_UNTABIFY = .ok (t, true) ∧ UndoBracket exState t) :=
  let h := undo_brackets_closed exState [10, 11, 12] 4 1 TAB_UNTABIFY exState_valid
    (by decide) rfl
  let ⟨t, b, h1, h2, _⟩ := h.1
  let ⟨u, g1, _, _, g4⟩ := h.2.2.2.2.2 rfl rfl ⟨rfl, by decide⟩
  ⟨exState_valid, ⟨t, b, h1, h2⟩, ⟨u, g1, g4 (by decide)⟩⟩

/-! ## Tabify after untabify -/

theorem sexp_char_class (c : Char) :
    (is_open_bracket c = true ∧ is_close_bracket c = false ∧ c ≠ DQUOTE ∧ c ≠ SQUOTE ∧
      ISSEXPCHAR c = false) ∨
    (is_open_bracket c = false ∧ is_close_bracket c = true ∧ c ≠ DQUOTE ∧ c ≠ SQUOTE ∧
      ISSEXPCHAR c = false) ∨
    (is_open_bracket c = false ∧ is_close_bracket c = false ∧ c = DQUOTE ∧ c ≠ SQUOTE ∧
      ISSEXPCHAR c = false) ∨
    (is_open_bracket c = false ∧ is_close_bracket c = false ∧ c ≠ DQUOTE ∧ c = SQUOTE ∧
      ISSEXPCHAR c = false) ∨
    (is_open_bracket c = false ∧ is_close_bracket c = false ∧ c ≠ DQUOTE ∧ c ≠ SQUOTE) := by
  by_cases ho : is_open_bracket c = true
  · obtain ⟨f1, f2, f3⟩ := open_bracket_facts ho
    obtain ⟨g1, g2, _⟩ := not_quote_of_plain f3
    exact Or.inl ⟨ho, f2, g1, g2, f1⟩
  · have ho2 : is_open_bracket c = false := by
      cases hh : is_open_bracket c
      · rfl
      · exact absurd hh ho
    by_cases hc : is_close_bracket c = true
    · obtain ⟨f1, f2, f3⟩ := close_bracket_facts hc
      obtain ⟨g1, g2, _⟩ := not_quote_of_plain f3
      exact Or.inr (Or.inl ⟨ho2, hc, g1, g2, f1⟩)
    · have hc2 : is_close_bracket c = false := by
        cases hh : is_close_bracket c
        · rfl
        · exact absurd hh hc
      by_cases hd : c = DQUOTE
      · subst hd
        exact Or.inr (Or.inr (Or.inl ⟨ho2, hc2, rfl, by decide, by decide⟩))
      · by_cases hs : c = SQUOTE
        · subst hs
          exact Or.inr (Or.inr (Or.inr (Or.inl ⟨ho2, hc2, by decide, rfl, by decide⟩)))
        · exact Or.inr (Or.inr (Or.inr (Or.inr ⟨ho2, hc2, hd, hs⟩)))

theorem isOpen_split (v : SexpVars) (c : Char) :
    ISOPENBRACKETCHAR v c =
      (is_open_bracket c || (decide (c = DQUOTE) && !v.double_quote) ||
        (decide (c = SQUOTE) && !v.single_quote)) := rfl

theorem isClose_split (v : SexpVars) (c : Char) :
    ISCLOSEBRACKETCHAR v c =
      (is_close_bracket c || (decide (c = DQUOTE) && v.double_quote) ||
        (decide (c = SQUOTE) && v.single_quote)) := rfl

/-- One round of `forward_sexp` inside an expression, on a character that is not a backslash
before a quote and keeps the bracket count at 1 or above. -/
theorem forward_sexp_char_count (s : State) (L : Nat) (dq sq : Bool) (hL : 1 ≤ L)
    (hesc : forward_sexp_escape s = false)
    (h1 : 1 ≤ (sexp_count L dq sq (following_char s)).1) :
    (forward_sexp_char s (sexp_state L dq sq)).2 =
      (sexp_state (sexp_count L dq sq (following_char s)).1
        (sexp_count L dq sq (following_char s)).2.1
        (sexp_count L dq sq (following_char s)).2.2, none) ∧
    (forward_sexp_char s (sexp_state L dq sq)).1.cur.pt =
      { s.cur.pt with o := s.cur.pt.o + 1 } := by
  unfold forward_sexp_char
  simp only [hesc, Bool.false_eq_true, if_false]
  generalize following_char s = c at h1 ⊢
  unfold CONTROL_SEXP_LEVEL
  simp only [isOpen_split, isClose_split]
  have hne : ¬ ((L : Int) = 0) := by omega
  have hne1 : ¬ ((L : Int) + 1 = 0) := by omega
  have hpt := set_offset_pt s (s.cur.pt.o + 1)
  rcases sexp_char_class c with ⟨a1, a2, a3, a4, a5⟩ | ⟨a1, a2, a3, a4, a5⟩ |
    ⟨a1, a2, a3, a4, a5⟩ | ⟨a1, a2, a3, a4, a5⟩ | ⟨a1, a2, a3, a4⟩
  · simp [sexp_count, sexp_state, sexp_level_step, a1, a2, a3, a4, a5, hne, hne1, hpt]
  · have h2 : 2 ≤ L := by
      simp only [sexp_count, a1, a2, Bool.false_eq_true, if_false, if_true] at h1
      omega
    have hcast : ((L - 1 : Nat) : Int) = (L : Int) + -1 := by omega
    have h3 : ¬ ((L : Int) + -1 < 0) := by omega
    have h4 : ¬ ((L : Int) + -1 = 0) := by omega
    simp [sexp_count, sexp_state, sexp_level_step, a1, a2, a3, a4, a5, hne, hpt, hcast, h3, h4]
  · subst a3
    cases dq
    · simp [sexp_count, sexp_state, sexp_level_step, a1, a2, a4, a5, hne, hne1, hpt]
    · have h2 : 2 ≤ L := by
        simp only [sexp_count, a1, a2, Bool.false_eq_true, if_false, if_true] at h1
        omega
      have hcast : ((L - 1 : Nat) : Int) = (L : Int) + -1 := by omega
      have h3 : ¬ ((L : Int) + -1 < 0) := by omega
      have h4 : ¬ ((L : Int) + -1 = 0) := by omega
      simp [sexp_count, sexp_state, sexp_level_step, a1, a2, a4, a5, hne, hpt, hcast, h3, h4]
  · subst a4
    cases sq
    · simp [sexp_count, sexp_state, sexp_level_step, a1, a2, a3, a5, hne, hne1, hpt]
    · have h2 : 2 ≤ L := by
        simp only [sexp_count, a1, a2, a3, Bool.false_eq_true, if_false, if_true] at h1
        omega
      have hcast : ((L - 1 : Nat) : Int) = (L : Int) + -1 := by omega
      have h3 : ¬ ((L : Int) + -1 < 0) := by omega
      have h4 : ¬ ((L : Int) + -1 = 0) := by omega
      simp [sexp_count, sexp_state, sexp_level_step, a1, a2, a3, a5, hne, hpt, hcast, h3, h4]
  · cases hs : ISSEXPCHAR c <;>
      simp [sexp_count, sexp_state, a1, a2, a3, a4, hne, hpt, hs]

/-- One round of `forward_sexp` inside an expression, on a backslash before a quote: both
characters are passed and the variables stay. -/
theorem forward_sexp_char_escape (s : State) (L : Nat) (dq sq : Bool)
    (hesc : forward_sexp_escape s = true) :
    (forward_sexp_char s (sexp_state L dq sq)).2 = (sexp_state L dq sq, none) ∧
    (forward_sexp_char s (sexp_state L dq sq)).1.cur.pt =
      { s.cur.pt with o := s.cur.pt.o + 2 } := by
  unfold forward_sexp_char
  simp only [hesc, if_true]
  unfold CONTROL_SEXP_LEVEL
  have e1 : ∀ v : SexpVars, ISOPENBRACKETCHAR v 'a' = false := by
    intro v
    rw [isOpen_split]
    rw [show is_open_bracket 'a' = false by decide, show decide ('a' = DQUOTE) = false by decide,
      show decide ('a' = SQUOTE) = false by decide]
    rfl
  have e2 : ∀ v : SexpVars, ISCLOSEBRACKETCHAR v 'a' = false := by
    intro v
    rw [isClose_split]
    rw [show is_close_bracket 'a' = false by decide, show decide ('a' = DQUOTE) = false by decide,
      show decide ('a' = SQUOTE) = false by decide]
    rfl
  have e3 : ISSEXPCHAR 'a' = true := by decide
  simp only [e1, e2, e3, Bool.false_eq_true, if_false, Bool.not_true]
  refine ⟨rfl, ?_⟩
  rw [set_offset_pt, set_offset_pt]

/-- The test of `forward_sexp` for a backslash before a quote, on the text from point on:
the character behind the backslash is on the same line, since a line holds no newline. -/
theorem forward_sexp_escape_text (s : State) (T : List Char)
    (hT : T = [] ∨ ∃ U, T = '\n' :: U) :
    (forward_sexp_escape s = true) ↔
      (following_char s = BACKSLASH ∧
        ((((s.lineAt s.cur.pt.p).text.drop (s.cur.pt.o + 1) ++ T).head? = some DQUOTE) ∨
         (((s.lineAt s.cur.pt.p).text.drop (s.cur.pt.o + 1) ++ T).head? = some SQUOTE))) := by
  have hhead : ∀ q : Char, q ≠ '\n' →
      ((((s.lineAt s.cur.pt.p).text.drop (s.cur.pt.o + 1) ++ T).head? = some q) ↔
        (s.cur.pt.o + 1 < line_len s s.cur.pt.p ∧
          (s.lineAt s.cur.pt.p).text.getD (s.cur.pt.o + 1) NUL = q)) := by
    intro q hq
    by_cases h2 : s.cur.pt.o + 1 < line_len s s.cur.pt.p
    · have h3 : s.cur.pt.o + 1 < (s.lineAt s.cur.pt.p).text.length := h2
      rw [List.drop_eq_getElem_cons h3, List.cons_append, List.head?_cons,
        List.getD_eq_getElem _ NUL h3]
      constructor
      · intro h; exact ⟨h2, Option.some.inj h⟩
      · intro h; rw [h.2]
    · have hd : (s.lineAt s.cur.pt.p).text.drop (s.cur.pt.o + 1) = [] := by
        apply List.drop_eq_nil_of_le
        unfold line_len at h2
        omega
      rw [hd, List.nil_append]
      constructor
      · intro h
        rcases hT with h0 | ⟨U, h0⟩
        · rw [h0] at h; cases h
        · rw [h0, List.head?_cons] at h
          exact absurd (Option.some.inj h).symm hq
      · intro h; exact absurd h.1 h2
  rw [hhead DQUOTE (by decide), hhead SQUOTE (by decide)]
  unfold forward_sexp_escape
  simp only [Bool.and_eq_true, Bool.or_eq_true, decide_eq_true_eq]
  constructor
  · rintro ⟨⟨a, b⟩, c⟩
    exact ⟨a, c.imp (fun h => ⟨b, h⟩) (fun h => ⟨b, h⟩)⟩
  · rintro ⟨a, c⟩
    rcases c with ⟨b, h⟩ | ⟨b, h⟩
    · exact ⟨⟨a, b⟩, Or.inl h⟩
    · exact ⟨⟨a, b⟩, Or.inr h⟩

theorem stays_open_cons (c : Char) (cs : List Char) (skip : Bool) (L : Nat) (dq sq : Bool) :
    stays_open (c :: cs) skip L dq sq =
      if skip then stays_open cs false L dq sq
      else if c = BACKSLASH ∧ (cs.head? = some DQUOTE ∨ cs.head? = some SQUOTE) then
        stays_open cs true L dq sq
      else
        decide (1 ≤ (sexp_count L dq sq c).1) &&
          stays_open cs false (sexp_count L dq sq c).1 (sexp_count L dq sq c).2.1
            (sexp_count L dq sq c).2.2 := rfl

theorem stays_open_newline (cs : List Char) (L : Nat) (dq sq : Bool) (hL : 1 ≤ L) :
    stays_open ('\n' :: cs) false L dq sq = stays_open cs false L dq sq := by
  have hb : sexp_count L dq sq '\n' = (L, dq, sq) := by
    simp only [sexp_count]
    rw [if_neg (by decide), if_neg (by decide), if_neg (by decide), if_neg (by decide)]
  rw [stays_open_cons, if_neg (by decide), if_neg (by
    intro h; exact absurd h.1 (by decide)), hb]
  simp [hL]

/-- The loop of `forward_sexp` over the rest of a line, inside an expression that stays
open: the loop comes to the end of the line with the count that `stays_open` keeps. -/
theorem forward_sexp_line_open : ∀ (k : Nat) (s : State) (L : Nat) (dq sq : Bool)
    (T : List Char), 1 ≤ L → s.cur.pt.o ≤ line_len s s.cur.pt.p →
    line_len s s.cur.pt.p ≤ s.cur.pt.o + k → (T = [] ∨ ∃ U, T = '\n' :: U) →
    stays_open ((s.lineAt s.cur.pt.p).text.drop s.cur.pt.o ++ T) false L dq sq = true →
    ∃ M dq2 sq2, 1 ≤ M ∧ stays_open T false M dq2 sq2 = true ∧
      (forward_sexp_line k s (sexp_state L dq sq)).2 = (sexp_state M dq2 sq2, none) ∧
      (forward_sexp_line k s (sexp_state L dq sq)).1.cur.pt.p = s.cur.pt.p ∧
      (forward_sexp_line k s (sexp_state L dq sq)).1.cur.pt.n = s.cur.pt.n ∧
      (forward_sexp_line k s (sexp_state L dq sq)).1.cur.pt.o = line_len s s.cur.pt.p := by
  intro k
  induction k with
  | zero =>
    intro s L dq sq T hL hle hk hT hf
    have hk2 : s.cur.pt.o = line_len s s.cur.pt.p := by omega
    have hd : (s.lineAt s.cur.pt.p).text.drop s.cur.pt.o = [] := by
      apply List.drop_eq_nil_of_le
      unfold line_len at hk2
      omega
    rw [hd, List.nil_append] at hf
    exact ⟨L, dq, sq, hL, hf, rfl, rfl, rfl, hk2⟩
  | succ k ih =>
    intro s L dq sq T hL hle hk hT hf
    by_cases hend : s.cur.pt.o = line_len s s.cur.pt.p
    · have hd : (s.lineAt s.cur.pt.p).text.drop s.cur.pt.o = [] := by
        apply List.drop_eq_nil_of_le
        unfold line_len at hend
        omega
      rw [hd, List.nil_append] at hf
      have he : eolp s = true := by
        unfold line_len at hend
        simp [eolp, hend]
      rw [forward_sexp_line_succ]
      simp only [he, Bool.not_true, Bool.false_eq_true, if_false]
      exact ⟨L, dq, sq, hL, hf, rfl, trivial, trivial, hend⟩
    · have hlt : s.cur.pt.o < line_len s s.cur.pt.p := by omega
      obtain ⟨he, hc⟩ := following_char_eq s hlt
      have hlt2 : s.cur.pt.o < (s.lineAt s.cur.pt.p).text.length := hlt
      have hd : (s.lineAt s.cur.pt.p).text.drop s.cur.pt.o =
          following_char s :: (s.lineAt s.cur.pt.p).text.drop (s.cur.pt.o + 1) := by
        rw [List.drop_eq_getElem_cons hlt2, hc, List.getD_eq_getElem _ NUL hlt2]
      rw [hd, List.cons_append, stays_open_cons] at hf
      simp only [Bool.false_eq_true, if_false] at hf
      have hesc := forward_sexp_escape_text s T hT
      have hmf := motionFrame_forward_sexp_char s (sexp_state L dq sq)
      rw [forward_sexp_line_succ]
      simp only [he, Bool.not_false, if_true]
      by_cases hx : forward_sexp_escape s = true
      · -- a backslash before a quote
        have hflat := hesc.1 hx
        rw [if_pos hflat] at hf
        have h2 : s.cur.pt.o + 1 < line_len s s.cur.pt.p := by
          unfold forward_sexp_escape at hx
          simp only [Bool.and_eq_true, decide_eq_true_eq] at hx
          exact hx.1.2
        have h3 : s.cur.pt.o + 1 < (s.lineAt s.cur.pt.p).text.length := h2
        rw [List.drop_eq_getElem_cons h3, List.cons_append, stays_open_cons] at hf
        simp only [if_true] at hf
        obtain ⟨c1, c2⟩ := forward_sexp_char_escape s L dq sq hx
        generalize forward_sexp_char s (sexp_state L dq sq) = w at c1 c2 hmf ⊢
        obtain ⟨w1, w2, w3⟩ := w
        simp only [] at c1 c2 hmf ⊢
        obtain ⟨rfl, rfl⟩ := Prod.mk.inj c1
        simp only []
        have hwl : w1.lineAt = s.lineAt := hmf.1
        have hlen : line_len w1 w1.cur.pt.p = line_len s s.cur.pt.p := by
          simp only [line_len, hwl, c2]
        obtain ⟨M, dq2, sq2, i1, i2, i3, i4, i5, i6⟩ := ih w1 L dq sq T hL
          (by rw [hlen, c2]; show s.cur.pt.o + 2 ≤ _; omega)
          (by rw [hlen, c2]; show _ ≤ s.cur.pt.o + 2 + k; omega) hT
          (by rw [hwl, c2]; exact hf)
        refine ⟨M, dq2, sq2, i1, i2, i3, ?_, ?_, ?_⟩
        · rw [i4, c2]
        · rw [i5, c2]
        · rw [i6, hlen]
      · -- any other character
        have hx2 : forward_sexp_escape s = false := by
          cases hh : forward_sexp_escape s
          · rfl
          · exact absurd hh hx
        have hflat : ¬ (following_char s = BACKSLASH ∧
            ((((s.lineAt s.cur.pt.p).text.drop (s.cur.pt.o + 1) ++ T).head? = some DQUOTE) ∨
             (((s.lineAt s.cur.pt.p).text.drop (s.cur.pt.o + 1) ++ T).head? = some SQUOTE))) :=
          fun h => hx (hesc.2 h)
        rw [if_neg hflat] at hf
        simp only [Bool.and_eq_true, decide_eq_true_eq] at hf
        obtain ⟨hf1, hf2⟩ := hf
        obtain ⟨c1, c2⟩ := forward_sexp_char_count s L dq sq hL hx2 hf1
        generalize forward_sexp_char s (sexp_state L dq sq) = w at c1 c2 hmf ⊢
        obtain ⟨w1, w2, w3⟩ := w
        simp only [] at c1 c2 hmf ⊢
        obtain ⟨rfl, rfl⟩ := Prod.mk.inj c1
        simp only []
        have hwl : w1.lineAt = s.lineAt := hmf.1
        have hlen : line_len w1 w1.cur.pt.p = line_len s s.cur.pt.p := by
          simp only [line_len, hwl, c2]
        obtain ⟨M, dq2, sq2, i1, i2, i3, i4, i5, i6⟩ := ih w1 _ _ _ T hf1
          (by rw [hlen, c2]; show s.cur.pt.o + 1 ≤ _; omega)
          (by rw [hlen, c2]; show _ ≤ s.cur.pt.o + 1 + k; omega) hT
          (by rw [hwl, c2]; exact hf2)
        refine ⟨M, dq2, sq2, i1, i2, i3, ?_, ?_, ?_⟩
        · rw [i4, c2]
        · rw [i5, c2]
        · rw [i6, hlen]

theorem sexp_state_open (M : Nat) (dq sq : Bool) (hM : 1 ≤ M) :
    ¬ ((sexp_state M dq sq).gotsexp = true ∧ (sexp_state M dq sq).level = 0) := by
  intro h
  have := h.2
  simp only [sexp_state] at this
  omega

/-- The loop of `forward_sexp` over the lines, inside an expression that stays open up to
the end of the buffer: it fails at the end of the buffer with the message of unbalanced
parentheses. -/
theorem forward_sexp_loop_open_end (chain : List LinePtr) : ∀ (fuel : Nat) (s : State)
    (L : Nat) (dq sq : Bool), ValidBuffer s chain → chain.length ≤ fuel + s.cur.pt.n →
    1 ≤ L → stays_open (rest_text s chain) false L dq sq = true →
    ∃ t, forward_sexp_loop fuel s (sexp_state L dq sq) = some (t, false) ∧ MotionFrame s t ∧
      ValidBuffer t chain ∧ AtEob t chain ∧
      t.minibuf = some "Scan error: \x22Unbalanced parentheses\x22" := by
  intro fuel
  induction fuel with
  | zero =>
    intro s L dq sq hv hf
    obtain ⟨h, _⟩ := validBuffer_index hv
    omega
  | succ fuel ih =>
    intro s L dq sq hv hf hL hfe
    obtain ⟨hn, hp⟩ := validBuffer_index hv
    have hoff := hv.offset
    have hm := motionFrame_forward_sexp_line (line_len s s.cur.pt.p - s.cur.pt.o) s
      (sexp_state L dq sq)
    -- the text behind the line
    have hT : ∃ T, rest_text s chain = (s.lineAt s.cur.pt.p).text.drop s.cur.pt.o ++ T ∧
        ((s.cur.pt.n + 1 = chain.length ∧ T = []) ∨
         (∃ q, chain[s.cur.pt.n + 1]? = some q ∧
            T = '\n' :: rest_text (s.setPt ⟨q, s.cur.pt.n + 1, 0⟩) chain)) := by
      by_cases hlast : s.cur.pt.n + 1 = chain.length
      · exact ⟨[], by rw [List.append_nil]; exact rest_text_last s chain hv hlast,
          Or.inl ⟨hlast, rfl⟩⟩
      · have hlt : s.cur.pt.n + 1 < chain.length := by omega
        have hq : chain[s.cur.pt.n + 1]? = some chain[s.cur.pt.n + 1] :=
          List.getElem?_eq_getElem hlt
        have hv2 : ValidBuffer (s.setPt ⟨chain[s.cur.pt.n + 1], s.cur.pt.n + 1, 0⟩) chain :=
          validBuffer_setPt hv _ hq (Nat.zero_le _)
        refine ⟨_, rest_text_next s _ chain hv hv2 rfl ?_ ?_, Or.inr ⟨_, hq, rfl⟩⟩
        · rw [cur_setPt]
        · rw [cur_setPt]
    obtain ⟨T, hR, hTc⟩ := hT
    rw [hR] at hfe
    have hTs : T = [] ∨ ∃ U, T = '\n' :: U := by
      rcases hTc with ⟨_, h⟩ | ⟨q, _, h⟩
      · exact Or.inl h
      · exact Or.inr ⟨_, h⟩
    obtain ⟨M, dq2, sq2, b1, b2, b4, a1, a2, b5⟩ := forward_sexp_line_open
      (line_len s s.cur.pt.p - s.cur.pt.o) s L dq sq T hL hoff (by omega) hTs hfe
    unfold forward_sexp_loop
    simp only []
    generalize forward_sexp_line (line_len s s.cur.pt.p - s.cur.pt.o) s (sexp_state L dq sq) = w
      at a1 a2 b4 b5 hm ⊢
    obtain ⟨w1, w2, w3⟩ := w
    simp only [] at a1 a2 b4 b5 hm
    obtain ⟨rfl, rfl⟩ := Prod.mk.inj b4
    have hwl : w1.lineAt = s.lineAt := hm.1
    simp only []
    rw [if_neg (sexp_state_open M dq2 sq2 b1)]
    have hlen : line_len w1 w1.cur.pt.p = line_len s s.cur.pt.p := by
      simp only [line_len, hwl, a1]
    rw [hlen]
    have hm1 : MotionFrame s (set_offset w1 (line_len s s.cur.pt.p)) :=
      motionFrame_trans hm (motionFrame_set_offset _ _)
    have hpt1 : (set_offset w1 (line_len s s.cur.pt.p)).cur.pt =
        ⟨s.cur.pt.p, s.cur.pt.n, line_len s s.cur.pt.p⟩ := by
      rw [set_offset_pt, ← a1, ← a2]
    have hv1 : ValidBuffer (set_offset w1 (line_len s s.cur.pt.p)) chain := by
      refine validBuffer_motion hv hm1 ⟨?_, ?_⟩
      · rw [hpt1]; exact hv.point
      · rw [hpt1]
    generalize set_offset w1 (line_len s s.cur.pt.p) = s1 at hm1 hpt1 hv1 ⊢
    have hlevel : (sexp_state M dq2 sq2).level ≠ 0 := by
      simp only [sexp_state]; omega
    rcases hTc with ⟨hlast, hTn⟩ | ⟨q, hq, hTq⟩
    · -- the last line
      have hnx : get_line_next s1 s1.cur.pt.p = s1.cur.limitp := by
        have := hv1.last s1.cur.pt.p (by
          rw [hpt1]
          rw [show chain.length - 1 = s.cur.pt.n by omega]
          exact hv.point)
        exact this
      rw [next_line_fail s1 hnx]
      simp only [Bool.not_false, if_true, if_pos hlevel]
      refine ⟨_, rfl, motionFrame_trans hm1 (motionFrame_minibuf_error _ _), ?_, ?_, rfl⟩
      · exact validBuffer_motion hv (motionFrame_trans hm1 (motionFrame_minibuf_error _ _))
          ⟨by show OnChain chain s1.cur.pt; exact hv1.point,
           by show s1.cur.pt.o ≤ line_len s s1.cur.pt.p; rw [hpt1]⟩
      · refine ⟨?_, ?_⟩
        · show s1.cur.pt.n + 1 = chain.length
          rw [hpt1]; exact hlast
        · show s1.cur.pt.o = line_len s1 s1.cur.pt.p
          rw [hpt1]; simp only [line_len, hm1.1]
    · -- a next line
      subst hTq
      have hnx : get_line_next s1 s1.cur.pt.p ≠ s1.cur.limitp := by
        have hv1n := validBuffer_next hv1 (show chain[s1.cur.pt.n + 1]? = some q by
          rw [hpt1]; exact hq)
        intro hh
        exact hv1n.2 (hv1n.1 ▸ hh)
      have hqn : get_line_next s1 s1.cur.pt.p = q :=
        (validBuffer_next hv1 (show chain[s1.cur.pt.n + 1]? = some q by
          rw [hpt1]; exact hq)).1
      obtain ⟨n1, n2⟩ := next_line_ok s1 hnx
      have hn1 : s1.cur.pt.n = s.cur.pt.n := by rw [hpt1]
      rw [hn1, hqn] at n2
      have hm2 : MotionFrame s (set_offset (next_line s1).1 0) :=
        motionFrame_trans hm1 (motionFrame_trans (motionFrame_next_line s1)
          (motionFrame_set_offset _ _))
      rw [n1]
      simp only [Bool.not_true, Bool.false_eq_true, if_false]
      have hv2 : ValidBuffer (set_offset (next_line s1).1 0) chain := by
        refine validBuffer_motion hv hm2 ⟨?_, ?_⟩
        · rw [n2]; exact hq
        · rw [n2]; exact Nat.zero_le _
      generalize set_offset (next_line s1).1 0 = s2 at n2 hm2 hv2 ⊢
      have hrest : rest_text s2 chain = rest_text (s.setPt ⟨q, s.cur.pt.n + 1, 0⟩) chain :=
        rest_text_congr (by rw [hm2.1]; rfl) (by rw [n2, cur_setPt]) chain
      rw [stays_open_newline _ _ _ _ b1, ← hrest] at b2
      obtain ⟨t, e1, e2, e3, e4, e5⟩ := ih s2 M dq2 sq2 hv2
        (by rw [n2]; show chain.length ≤ fuel + (s.cur.pt.n + 1); omega) b1 b2
      exact ⟨t, e1, motionFrame_trans hm2 e2, e3, e4, e5⟩


/-- The example buffer with brackets of two kinds is well formed over its lines 10, 11,
12. -/
theorem exSexpMixed_valid : ValidBuffer exSexpMixed [10, 11, 12] :=
  { linked := ⟨rfl, rfl, rfl, rfl, trivial⟩
    first := by intro a h; cases h; rfl
    last := by intro a h; cases h; rfl
    limit := by decide
    point := rfl
    offset := by decide
    count := rfl }

/-- C28 (amended): scan errors of `forward_sexp` are failures. On a well-formed buffer, with
fuel for every line: when a close bracket follows point, the function returns `FALSE` with the
message that the containing expression ends prematurely and leaves point where it was;
when an open bracket follows point and the bracket count of the text behind it stays at 1
or above up to the end of the buffer (`stays_open`: every open bracket and opening quote
counts +1, every close bracket and closing quote -1, whatever their kinds, and a quote
behind a backslash is not counted), it returns `FALSE` with the message of unbalanced
parentheses and point at the end of the buffer. No line is changed. -/
theorem forward_sexp_scan_errors (s : State) (chain : List LinePtr) (fuel : Nat) (c : Char)
    (R : List Char) (hv : ValidBuffer s chain) (hf : chain.length ≤ fuel)
    (hR : rest_text s chain = c :: R) :
    (is_close_bracket c = true →
      ∃ t, forward_sexp fuel s = some (t, false) ∧ t.cur.pt = s.cur.pt ∧
        t.lineAt = s.lineAt ∧
        t.minibuf = some "Scan error: \x22Containing expression ends prematurely\x22") ∧
    (is_open_bracket c = true → stays_open R false 1 false false = true →
      ∃ t, forward_sexp fuel s = some (t, false) ∧ AtEob t chain ∧ ValidBuffer t chain ∧
        t.lineAt = s.lineAt ∧
        t.minibuf = some "Scan error: \x22Unbalanced parentheses\x22") := by
  constructor
  · intro hc
    obtain ⟨hlt, hfc, _⟩ := rest_text_head s chain hv c R hR (close_bracket_ne_newline hc)
    obtain ⟨hn, _⟩ := validBuffer_index hv
    obtain ⟨f, rfl⟩ : ∃ f, fuel = f + 1 := ⟨fuel - 1, by omega⟩
    refine ⟨_, forward_sexp_loop_close f s hlt (by rw [hfc]; exact hc), rfl, rfl, rfl⟩
  · intro ho hnc
    obtain ⟨f, rfl, h1, h2, h3, h4, h5⟩ := forward_sexp_open_step s chain fuel c R hv hf hR ho
    rw [← h3] at hnc
    obtain ⟨t, e1, e2, e3, e4, e5⟩ := forward_sexp_loop_open_end chain (f + 1) _ 1 false false h2
      (by omega) (le_refl _) hnc
    exact ⟨t, by rw [h1]; exact e1, e4, e3, e2.1, e5⟩

theorem forward_sexp_scan_errors_witness :
    (∃ t, forward_sexp 3 (exSexpMixed.setPt ⟨10, 0, 1⟩) = some (t, false) ∧
      t.cur.pt = ⟨10, 0, 1⟩ ∧
      t.minibuf = some "Scan error: \x22Containing expression ends prematurely\x22") ∧
    (∃ t, forward_sexp 3 (exSexpMixed.setPt ⟨12, 2, 0⟩) = some (t, false) ∧
      AtEob t [10, 11, 12] ∧
      t.minibuf = some "Scan error: \x22Unbalanced parentheses\x22") :=
  ⟨(let ⟨t, h1, h2, _, h4⟩ := (forward_sexp_scan_errors (exSexpMixed.setPt ⟨10, 0, 1⟩)
      [10, 11, 12] 3 ']' ['\n', '\n', '(', DQUOTE, 'z']
      (validBuffer_setPt exSexpMixed_valid _ rfl (by decide)) (by decide)
      (by decide)).1 (by decide)
    ⟨t, h1, h2, h4⟩),
   (let ⟨t, h1, h2, _, _, h5⟩ := (forward_sexp_scan_errors (exSexpMixed.setPt ⟨12, 2, 0⟩)
      [10, 11, 12] 3 '(' [DQUOTE, 'z']
      (validBuffer_setPt exSexpMixed_valid _ rfl (by decide)) (by decide)
      (by decide)).2 (by decide) (by decide)
    ⟨t, h1, h2, h5⟩)⟩

/-- C28 counterexample: the open bracket need not be closed by a bracket of its kind. In the
example buffer point is before an open parenthesis, no close parenthesis follows up to the end of
the buffer, and `forward_sexp` returns `TRUE` with point behind the close square bracket
and without a message. -/
theorem forward_sexp_mixed_brackets :
    rest_text exSexpMixed [10, 11, 12] = ['(', ']', '\n', '\n', '(', DQUOTE, 'z'] ∧
    ')' ∉ rest_text exSexpMixed [10, 11, 12] ∧
    (forward_sexp 3 exSexpMixed).map (fun r => (r.2, r.1.cur.pt, r.1.minibuf)) =
      some (true, ⟨10, 0, 2⟩, none) := by
  decide

/-! ## Texts with maximal tabs -/

end Zile
